import Mathlib

/-!
Ground State Space: a shallow embedding of `ground_state_space.hpp`

The development follows `fiction::detail::ground_state_space` function by function. The command
`quickexact` of the command-line interface follows the engine.

Modelling conventions
* A potential (`double` in the source) is an exact integer number of fixed-point units
  (`Pot`). Rounding, NaN and infinities are outside the model.
* A `phmap::btree_set<uint64_t>` is a strictly increasing `List Nat`; an iterator is the value it
  points at (`none` for `cend()`).
* A `uint64_t` counter is a `Nat` with explicit reduction modulo `2^64` where it can wrap.
* An operation whose C++ behaviour is undefined (dereferencing `cend()`, `at` on a missing key)
  yields `none`. The recursion of the partition search carries a budget, `search_budget`, which
  `find_valid_witness_partitioning_returns` shows to cover every call: no result of the engine
  is `none` for want of budget.
-/

namespace fiction

/-- A potential value in fixed-point units. -/
abbrev Pot := ℤ

/-! ## Ordered sets of site indices (`witness_set`) -/

/-- `witness_set::emplace`: ordered insertion without duplicates. -/
def set_emplace (x : Nat) : List Nat → List Nat
  | [] => [x]
  | y :: ys => if x < y then x :: y :: ys else if x = y then y :: ys else y :: set_emplace x ys

/-- `witness_set::erase`, by key or by an iterator pointing at `x`. -/
def set_erase (x : Nat) (s : List Nat) : List Nat :=
  s.filter (fun y => decide (y ≠ x))

/-- The iterator reached by `++` from the position of `x`: the first element above `x`. -/
def set_next_after (x : Nat) (s : List Nat) : Option Nat :=
  s.find? (fun y => decide (x < y))

/-- Decrement of a `uint64_t`. -/
def u64_dec (c : Nat) : Nat := (c + (2 ^ 64 - 1)) % 2 ^ 64

/-! ## Witness partitioning -/

/-- The struct `witness_partitioning_state`. -/
structure witness_partitioning_state where
  negative_witnesses : List Nat
  positive_witnesses : List Nat
  neutral_witnesses : List Nat
  required_neg_count : Nat
  required_pos_count : Nat
  required_neut_count : Nat
deriving DecidableEq, Repr

/-- The inner loop of `omit_free_witnesses` over one witness set: an element found in neither
competing set is erased and the required count of the set is decremented. -/
def omit_free_loop (c1 c2 : List Nat) : List Nat → Nat → List Nat × Nat
  | [], cnt => ([], cnt)
  | x :: xs, cnt =>
    if ¬ (x ∈ c1) ∧ ¬ (x ∈ c2) then omit_free_loop c1 c2 xs (u64_dec cnt)
    else ((x :: (omit_free_loop c1 c2 xs cnt).1), (omit_free_loop c1 c2 xs cnt).2)

/-- The method `witness_partitioning_state::omit_free_witnesses`: the three witness sets are
processed in the order negative, positive, neutral, each against the current other two. -/
def omit_free_witnesses (st : witness_partitioning_state) : witness_partitioning_state :=
  let r1 := omit_free_loop st.positive_witnesses st.neutral_witnesses
    st.negative_witnesses st.required_neg_count
  let st1 := { st with negative_witnesses := r1.1, required_neg_count := r1.2 }
  let r2 := omit_free_loop st1.negative_witnesses st1.neutral_witnesses
    st1.positive_witnesses st1.required_pos_count
  let st2 := { st1 with positive_witnesses := r2.1, required_pos_count := r2.2 }
  let r3 := omit_free_loop st2.negative_witnesses st2.positive_witnesses
    st2.neutral_witnesses st2.required_neut_count
  { st2 with neutral_witnesses := r3.1, required_neut_count := r3.2 }

/-- The instantiation `find_valid_witness_partitioning<NEUTRAL>`. -/
def find_valid_witness_partitioning_NEUTRAL (st : witness_partitioning_state) (k : Nat) : Bool :=
  decide (st.neutral_witnesses.length ≥ k)

/-- The `for` loop of `find_valid_witness_partitioning<POSITIVE>` from iterator `it` on, for a
non-zero count `k`. The taken witness is `*st.positive_witnesses.cbegin()`, the erased position is
`it`. The result carries the state left behind (the C++ mutates `st` through a reference). -/
def positive_loop : Nat → witness_partitioning_state → Nat → Option Nat →
    Option (Bool × witness_partitioning_state)
  | 0, _, _, _ => none
  | _ + 1, st, _, none => some (false, st)
  | fuel + 1, st, k, some it =>
    match st.positive_witnesses.head? with
    | none => none
    | some take_witness =>
      let st1 := { st with
        positive_witnesses := set_erase it st.positive_witnesses,
        neutral_witnesses := set_erase take_witness st.neutral_witnesses }
      let rec_result :=
        if k - 1 = 0 then
          some (find_valid_witness_partitioning_NEUTRAL st1 st1.required_neut_count, st1)
        else positive_loop fuel st1 (k - 1) st1.positive_witnesses.head?
      match rec_result with
      | none => none
      | some (true, st2) => some (true, st2)
      | some (false, st2) =>
        let pos3 := set_emplace take_witness st2.positive_witnesses
        let st3 := { st2 with
          positive_witnesses := pos3,
          neutral_witnesses := set_emplace take_witness st2.neutral_witnesses }
        positive_loop fuel st3 k (set_next_after take_witness pos3)

/-- The instantiation `find_valid_witness_partitioning<POSITIVE>`. -/
def find_valid_witness_partitioning_POSITIVE (fuel : Nat) (st : witness_partitioning_state)
    (k : Nat) : Option (Bool × witness_partitioning_state) :=
  if k = 0 then some (find_valid_witness_partitioning_NEUTRAL st st.required_neut_count, st)
  else positive_loop fuel st k st.positive_witnesses.head?

/-- The `for` loop of `find_valid_witness_partitioning<NEGATIVE>` from iterator `it` on, for a
non-zero count `k`. The taken witness is `*it`. -/
def negative_loop : Nat → witness_partitioning_state → Nat → Option Nat →
    Option (Bool × witness_partitioning_state)
  | 0, _, _, _ => none
  | _ + 1, st, _, none => some (false, st)
  | fuel + 1, st, k, some it =>
    let take_witness := it
    let st1 := { st with
      negative_witnesses := set_erase it st.negative_witnesses,
      positive_witnesses := set_erase take_witness st.positive_witnesses,
      neutral_witnesses := set_erase take_witness st.neutral_witnesses }
    let rec_result :=
      if k - 1 = 0 then find_valid_witness_partitioning_POSITIVE fuel st1 st1.required_pos_count
      else negative_loop fuel st1 (k - 1) st1.negative_witnesses.head?
    match rec_result with
    | none => none
    | some (true, st2) => some (true, st2)
    | some (false, st2) =>
      let neg3 := set_emplace take_witness st2.negative_witnesses
      let st3 := { st2 with
        negative_witnesses := neg3,
        positive_witnesses := set_emplace take_witness st2.positive_witnesses,
        neutral_witnesses := set_emplace take_witness st2.neutral_witnesses }
      negative_loop fuel st3 k (set_next_after take_witness neg3)

/-- The instantiation `find_valid_witness_partitioning<NEGATIVE>`. -/
def find_valid_witness_partitioning_NEGATIVE (fuel : Nat) (st : witness_partitioning_state)
    (k : Nat) : Option (Bool × witness_partitioning_state) :=
  if k = 0 then find_valid_witness_partitioning_POSITIVE fuel st st.required_pos_count
  else negative_loop fuel st k st.negative_witnesses.head?

/-- A recursion budget that covers every call chain of the search: each of the two searched sets
contributes at most one loop step per element and per nesting level. -/
def search_budget (st : witness_partitioning_state) : Nat :=
  2 * (st.negative_witnesses.length + st.positive_witnesses.length
    + st.neutral_witnesses.length + 2) ^ 2

/-! ## Data model of the cluster hierarchy

The header `sidb_cluster_hierarchy.hpp` that declares the cluster types lies outside this
development; the types below follow the data model of the specification. -/

/-- The enumeration `bound_direction`. -/
inductive bound_direction where
  | LOWER
  | UPPER
deriving DecidableEq, Repr

/-- The enumeration `sidb_charge_state`. -/
inductive sidb_charge_state where
  | NEGATIVE
  | NEUTRAL
  | POSITIVE
deriving DecidableEq, Repr

/-- Modelled from the spec: the multiset configuration `(n-, n0, n+)` of a cluster. The source
packs it into one `uint64_t`; the model keeps the triple itself as the tag. -/
structure multiset_conf where
  neg : Nat
  neut : Nat
  pos : Nat
deriving DecidableEq, Repr

/-- Component-wise sum of two multiset configurations (`operator+=`). -/
def multiset_conf.add (a b : multiset_conf) : multiset_conf :=
  ⟨a.neg + b.neg, a.neut + b.neut, a.pos + b.pos⟩

/-- Component-wise difference of two multiset configurations (`operator-=`). -/
def multiset_conf.sub (a b : multiset_conf) : multiset_conf :=
  ⟨a.neg - b.neg, a.neut - b.neut, a.pos - b.pos⟩

/-- Modelled from the spec: a potential projection, the pair `(V, M)`. -/
structure potential_projection where
  V : Pot
  M : multiset_conf
deriving DecidableEq, Repr

/-- Modelled from the spec: `operator+=` on potential projections, used by the merge to form
"the sum of the per-composition contributions from the children's projections, tagged with M":
potentials add and tags add. -/
def potential_projection.add (a b : potential_projection) : potential_projection :=
  ⟨a.V + b.V, a.M.add b.M⟩

/-- Modelled from the spec: the projection store of one cluster onto one site, an "ordered
multiset of `(V, M)` pairs" that "orders projections by V". The list is kept in non-decreasing
order of `V` by `potential_projection_order.add`. -/
abbrev potential_projection_order := List potential_projection

namespace potential_projection_order

/-- Modelled from the spec: `add(j, pp)`: insert, behind the entries whose `V` is not larger. -/
def add (pp : potential_projection) : potential_projection_order → potential_projection_order
  | [] => [pp]
  | q :: qs => if pp.V < q.V then pp :: q :: qs else q :: add pp qs

/-- Modelled from the spec: `get_extremal(j, dir)`: "the pair with min (LOWER) or max (UPPER) V
currently present"; `none` on an empty store. -/
def get (b : bound_direction) (s : potential_projection_order) : Option potential_projection :=
  match b with
  | .LOWER => s.head?
  | .UPPER => s.getLast?

/-- Modelled from the spec: `get_for_M(j, M, dir)`: "among entries tagged M, return the extremal
pair in direction dir". -/
def get_pot_proj_for_m_conf (b : bound_direction) (s : potential_projection_order)
    (m : multiset_conf) : Option potential_projection :=
  get b (s.filter (fun pp => decide (pp.M = m)))

/-- Modelled from the spec: `remove_all(j, M)`: "drop every entry tagged with M". -/
def remove_m_conf (m : multiset_conf) (s : potential_projection_order) :
    potential_projection_order :=
  s.filter (fun pp => decide (pp.M ≠ m))

/-- Modelled from the spec: `get_next_extremal(j, dir)`: "the pair that would become extremal if
the current extremal were removed", the current extremal being the one pair that `get` returns. -/
def get_next (b : bound_direction) (s : potential_projection_order) :
    Option potential_projection :=
  match b with
  | .LOWER => s.tail.head?
  | .UPPER => s.dropLast.getLast?

/-- The reading of `get_next_extremal` under which removal propagation keeps the received bounds
consistent: the pair that becomes extremal once every entry carrying the tag of the current
extremal is removed. -/
def get_next_other_tag (b : bound_direction) (s : potential_projection_order) :
    Option potential_projection :=
  match get b s with
  | none => none
  | some cur => get b (remove_m_conf cur.M s)

end potential_projection_order

/-- The type of the store operation behind `get_next_proj_pot_bound`. -/
abbrev next_extremal_op := bound_direction → potential_projection_order → Option potential_projection

/-- Modelled from the spec: a node of the hierarchy with its immutable parts: `uid`, the site
indices `sidbs` of its subtree, and "either empty (leaf) or exactly two child clusters". -/
inductive sidb_cluster where
  | leaf (uid : Nat) (sidbs : List Nat) : sidb_cluster
  | node (uid : Nat) (sidbs : List Nat) (left right : sidb_cluster) : sidb_cluster
deriving DecidableEq, Repr

namespace sidb_cluster

/-- The member `uid`. -/
def uid : sidb_cluster → Nat
  | leaf u _ => u
  | node u _ _ _ => u

/-- The member `sidbs`. -/
def sidbs : sidb_cluster → List Nat
  | leaf _ s => s
  | node _ s _ _ => s

/-- The member `children`. -/
def children : sidb_cluster → List sidb_cluster
  | leaf _ _ => []
  | node _ _ l r => [l, r]

/-- The method `size()`: the number of sites of the cluster. -/
def size (c : sidb_cluster) : Nat := c.sidbs.length

/-- All nodes of the subtree rooted at a cluster, the cluster itself first. -/
def nodes : sidb_cluster → List sidb_cluster
  | leaf u s => [leaf u s]
  | node u s l r => node u s l r :: (nodes l ++ nodes r)

/-- The parent of the cluster with uid `u` inside the tree `t`; `none` when `u` is not the uid
of a child of any node of `t` (in particular for the root). -/
def find_parent (u : Nat) : sidb_cluster → Option sidb_cluster
  | leaf _ _ => none
  | node pu ps l r =>
    if l.uid = u ∨ r.uid = u then some (node pu ps l r)
    else match find_parent u l with
      | some p => some p
      | none => find_parent u r

end sidb_cluster

/-- Modelled from the spec: the per-site bounds attached to one child state of a composition
(`intra_cluster_potential_bounds`), a map from site index to `(lower, upper)`. -/
abbrev intra_cluster_potential_bounds := List (Nat × Pot × Pot)

/-- Lookup in an `intra_cluster_potential_bounds` map (`at`, with `count` as `isSome`). -/
def intra_cluster_potential_bounds.at (m : intra_cluster_potential_bounds) (i : Nat) :
    Option (Pot × Pot) :=
  (m.find? (fun e => decide (e.1 = i))).map Prod.snd

/-- Modelled from the spec: `set_pot_bounds`: bind site `i` to `(lb, ub)`, replacing an earlier
binding. -/
def intra_cluster_potential_bounds.set (m : intra_cluster_potential_bounds) (i : Nat)
    (lb ub : Pot) : intra_cluster_potential_bounds :=
  m.filter (fun e => decide (e.1 ≠ i)) ++ [(i, lb, ub)]

/-- Modelled from the spec: one entry of a composition (`sidb_cluster_state`): the projector state
`(child_cluster, child_multiset)` and the intra-composition bounds attached to it. -/
structure sidb_cluster_state where
  cluster : sidb_cluster
  multiset : multiset_conf
  internal_pot_bounds : intra_cluster_potential_bounds
deriving DecidableEq, Repr

/-- A composition: "an ordered list of (child_cluster, child_multiset) pairs, one per child". -/
abbrev sidb_cluster_state_composition := List sidb_cluster_state

/-- Modelled from the spec: an element of a charge space (`sidb_cluster_charge_state`): the
multiset and its list of compositions. Elements are identified by their multiset. -/
structure sidb_cluster_charge_state where
  multiset : multiset_conf
  compositions : List sidb_cluster_state_composition
deriving DecidableEq, Repr

/-- The mutable members of one cluster. -/
structure cluster_data where
  charge_space : List sidb_cluster_charge_state
  pot_projs : Nat → potential_projection_order
  recv_ext_pot_bounds : Nat → Pot × Pot

/-- The members of the class `ground_state_space` together with the mutable members of the
clusters it points to, the latter indexed by cluster uid. The `clustering` (a set of cluster
pointers) is a list in iteration order. -/
structure ground_state_space where
  top_cluster : sidb_cluster
  clustering : List sidb_cluster
  terminate : Bool
  witness_partitioning_max_cluster_size : Nat
  mu_bounds_with_error : Pot × Pot × Pot × Pot
  data : Nat → cluster_data

/-- A range-based `for` loop over `xs` whose body `step` transforms the loop state and may be
undefined. -/
def for_each {α σ : Type} (step : σ → α → Option σ) : List α → σ → Option σ
  | [], s => some s
  | x :: xs, s =>
    match step s x with
    | none => none
    | some s1 => for_each step xs s1

/-! ## Stability envelope -/

/-- The method `fail_onto_negative_charge`: `V > e - mu-`. -/
def fail_onto_negative_charge (mu : Pot × Pot × Pot × Pot) (pot_bound : Pot) : Bool :=
  decide (pot_bound > mu.1)

/-- The method `fail_onto_positive_charge`: `V < -e - mu+`. -/
def fail_onto_positive_charge (mu : Pot × Pot × Pot × Pot) (pot_bound : Pot) : Bool :=
  decide (pot_bound < mu.2.2.2)

/-- The method `ub_fail_onto_neutral_charge`: `V < -e - mu-`. -/
def ub_fail_onto_neutral_charge (mu : Pot × Pot × Pot × Pot) (pot_bound : Pot) : Bool :=
  decide (pot_bound < mu.2.1)

/-- The method `lb_fail_onto_neutral_charge`: `V > e - mu+`. -/
def lb_fail_onto_neutral_charge (mu : Pot × Pot × Pot × Pot) (pot_bound : Pot) : Bool :=
  decide (pot_bound > mu.2.2.1)

/-! ## Bound analysis -/

/-- The constructor `witness_partitioning_state(pst)`: empty witness sets and the three counts of
the multiset. -/
def witness_partitioning_state.init (m : multiset_conf) : witness_partitioning_state :=
  ⟨[], [], [], m.neg, m.pos, m.neut⟩

/-- The body of the site loop of `perform_potential_bound_analysis` for one site with received
bounds `(recv_pot_lb, recv_pot_ub)`. -/
def classify_site (mu : Pot × Pot × Pot × Pot) (sidb_ix : Nat) (recv_pot_lb recv_pot_ub : Pot)
    (st : witness_partitioning_state) : witness_partitioning_state :=
  let st1 :=
    if st.required_neg_count ≠ 0 ∧ fail_onto_negative_charge mu recv_pot_lb = false then
      { st with negative_witnesses := set_emplace sidb_ix st.negative_witnesses }
    else st
  let st2 :=
    if st1.required_pos_count ≠ 0 ∧ fail_onto_positive_charge mu recv_pot_ub = false then
      { st1 with positive_witnesses := set_emplace sidb_ix st1.positive_witnesses }
    else st1
  if st2.required_neut_count ≠ 0 ∧ ub_fail_onto_neutral_charge mu recv_pot_ub = false
      ∧ lb_fail_onto_neutral_charge mu recv_pot_lb = false then
    { st2 with neutral_witnesses := set_emplace sidb_ix st2.neutral_witnesses }
  else st2

/-- The site loop of `perform_potential_bound_analysis`; `bounds` stands for the call of
`get_received_potential_bounds<mode>` at a site. -/
def collect_witnesses (mu : Pot × Pot × Pot × Pot) (bounds : Nat → Option (Pot × Pot)) :
    List Nat → witness_partitioning_state → Option witness_partitioning_state
  | [], st => some st
  | sidb_ix :: rest, st =>
    match bounds sidb_ix with
    | none => none
    | some (lb, ub) => collect_witnesses mu bounds rest (classify_site mu sidb_ix lb ub st)

/-- The part of `perform_potential_bound_analysis` after the site loop: cardinality test, size
cutoff, then `omit_free_witnesses` and the partition search. -/
def decide_witness_state (T : Nat) (cluster_size : Nat) (st : witness_partitioning_state) :
    Option Bool :=
  if st.negative_witnesses.length < st.required_neg_count
      ∨ st.positive_witnesses.length < st.required_pos_count
      ∨ st.neutral_witnesses.length < st.required_neut_count then
    some false
  else if cluster_size > T then
    some true
  else
    (find_valid_witness_partitioning_NEGATIVE (search_budget (omit_free_witnesses st))
      (omit_free_witnesses st) (omit_free_witnesses st).required_neg_count).map Prod.fst

/-- The method `perform_potential_bound_analysis` on a cluster with sites `sidbs`, threshold `T`
(`witness_partitioning_max_cluster_size`), band edges `mu` and per-site received bounds. -/
def perform_potential_bound_analysis_on (mu : Pot × Pot × Pot × Pot) (T : Nat)
    (sidbs : List Nat) (bounds : Nat → Option (Pot × Pot)) (m : multiset_conf) : Option Bool :=
  match collect_witnesses mu bounds sidbs (witness_partitioning_state.init m) with
  | none => none
  | some st => decide_witness_state T sidbs.length st

/-- The enumeration `potential_bound_analysis_mode`. -/
inductive potential_bound_analysis_mode where
  | ANALYZE_MULTISET
  | ANALYZE_COMPOSITION
deriving DecidableEq, Repr

namespace ground_state_space

/-- Apply `f` to the mutable members of the cluster with uid `u`. -/
def modify (gss : ground_state_space) (u : Nat) (f : cluster_data → cluster_data) :
    ground_state_space :=
  { gss with data := Function.update gss.data u (f (gss.data u)) }

/-- The function `get_proj_bound<bound>`. -/
def get_proj_bound (gss : ground_state_space) (b : bound_direction) (c : sidb_cluster)
    (sidb_ix : Nat) : Option potential_projection :=
  potential_projection_order.get b ((gss.data c.uid).pot_projs sidb_ix)

/-- The function `get_next_proj_pot_bound<bound>`, over the store operation `nxt`. -/
def get_next_proj_pot_bound (nxt : next_extremal_op) (gss : ground_state_space)
    (b : bound_direction) (c : sidb_cluster) (sidb_ix : Nat) : Option Pot :=
  (nxt b ((gss.data c.uid).pot_projs sidb_ix)).map potential_projection.V

/-- The function `get_proj_state_bound<bound>`. -/
def get_proj_state_bound (gss : ground_state_space) (b : bound_direction) (c : sidb_cluster)
    (m : multiset_conf) (sidb_ix : Nat) : Option potential_projection :=
  potential_projection_order.get_pot_proj_for_m_conf b ((gss.data c.uid).pot_projs sidb_ix) m

/-- The function `add_pot_proj`. -/
def add_pot_proj (gss : ground_state_space) (c : sidb_cluster) (sidb_ix : Nat)
    (pp : potential_projection) : ground_state_space :=
  gss.modify c.uid (fun d => { d with
    pot_projs := Function.update d.pot_projs sidb_ix
      (potential_projection_order.add pp (d.pot_projs sidb_ix)) })

/-- The function `remove_all_cluster_charge_state_occurrences`. -/
def remove_all_cluster_charge_state_occurrences (gss : ground_state_space) (c : sidb_cluster)
    (m : multiset_conf) (sidb_ix : Nat) : ground_state_space :=
  gss.modify c.uid (fun d => { d with
    pot_projs := Function.update d.pot_projs sidb_ix
      (potential_projection_order.remove_m_conf m (d.pot_projs sidb_ix)) })

/-- Modelled from the spec: `get_recv_ext_pot_bound<bound>`, the `lower` or `upper` component of
`recv_ext_bounds[i]`. -/
def get_recv_ext_pot_bound (gss : ground_state_space) (b : bound_direction) (c : sidb_cluster)
    (sidb_ix : Nat) : Pot :=
  match b with
  | .LOWER => ((gss.data c.uid).recv_ext_pot_bounds sidb_ix).1
  | .UPPER => ((gss.data c.uid).recv_ext_pot_bounds sidb_ix).2

/-- Modelled from the spec: `set_recv_ext_pot_bound<bound>`. -/
def set_recv_ext_pot_bound (gss : ground_state_space) (b : bound_direction) (c : sidb_cluster)
    (sidb_ix : Nat) (v : Pot) : ground_state_space :=
  gss.modify c.uid (fun d => { d with
    recv_ext_pot_bounds := Function.update d.recv_ext_pot_bounds sidb_ix
      (match b with
        | .LOWER => (v, (d.recv_ext_pot_bounds sidb_ix).2)
        | .UPPER => ((d.recv_ext_pot_bounds sidb_ix).1, v)) })

/-- Modelled from the spec: `update_recv_ext_pot_bound<bound>`: add `diff` to the bound. -/
def update_recv_ext_pot_bound (gss : ground_state_space) (b : bound_direction) (c : sidb_cluster)
    (sidb_ix : Nat) (diff : Pot) : ground_state_space :=
  gss.set_recv_ext_pot_bound b c sidb_ix (gss.get_recv_ext_pot_bound b c sidb_ix + diff)

/-! ### Removal propagation -/

/-- The function `update_external_pot_proj_if_bound_removed<bound>` for the projector state
`(pc, pm)` and the receptor state `(rc, sidb_ix)`. -/
def update_external_pot_proj_if_bound_removed (nxt : next_extremal_op) (b : bound_direction)
    (gss : ground_state_space) (pc : sidb_cluster) (pm : multiset_conf) (rc : sidb_cluster)
    (sidb_ix : Nat) : Option ground_state_space :=
  match gss.get_proj_bound b pc sidb_ix with
  | none => none
  | some cur_bound =>
    if cur_bound.M = pm then
      match gss.get_next_proj_pot_bound nxt b pc sidb_ix with
      | none => none
      | some next_v => some (gss.update_recv_ext_pot_bound b rc sidb_ix (next_v - cur_bound.V))
    else some gss

/-- The method `update_external_potential_projection`. -/
def update_external_potential_projection (nxt : next_extremal_op) (gss : ground_state_space)
    (pc : sidb_cluster) (pm : multiset_conf) (rc : sidb_cluster) (sidb_ix : Nat) :
    Option ground_state_space :=
  match update_external_pot_proj_if_bound_removed nxt .LOWER gss pc pm rc sidb_ix with
  | none => none
  | some g1 =>
    match update_external_pot_proj_if_bound_removed nxt .UPPER g1 pc pm rc sidb_ix with
    | none => none
    | some g2 => some (g2.remove_all_cluster_charge_state_occurrences pc pm sidb_ix)

/-- The body of the loop of `handle_invalid_state` over the clustering. -/
def handle_invalid_state_step (nxt : next_extremal_op) (pc : sidb_cluster) (pm : multiset_conf)
    (gss : ground_state_space) (other_c : sidb_cluster) : Option ground_state_space :=
  if other_c.uid = pc.uid then some gss
  else
    for_each (fun g sidb_ix => update_external_potential_projection nxt g pc pm other_c sidb_ix)
      other_c.sidbs gss

/-- The method `handle_invalid_state`. -/
def handle_invalid_state (nxt : next_extremal_op) (gss : ground_state_space) (pc : sidb_cluster)
    (pm : multiset_conf) : Option ground_state_space :=
  for_each (handle_invalid_state_step nxt pc pm) gss.clustering gss

/-! ### Bound analysis on a state -/

/-- The function `get_received_potential_bounds<mode>`. -/
def get_received_potential_bounds (gss : ground_state_space)
    (mode : potential_bound_analysis_mode) (c : sidb_cluster) (m : multiset_conf)
    (internal_pot_bounds : Option intra_cluster_potential_bounds) (sidb_ix : Nat) :
    Option (Pot × Pot) :=
  match mode with
  | .ANALYZE_MULTISET =>
    match gss.get_proj_state_bound .LOWER c m sidb_ix,
        gss.get_proj_state_bound .UPPER c m sidb_ix with
    | some lo, some hi =>
      some (lo.V + gss.get_recv_ext_pot_bound .LOWER c sidb_ix,
        hi.V + gss.get_recv_ext_pot_bound .UPPER c sidb_ix)
    | _, _ => none
  | .ANALYZE_COMPOSITION =>
    match internal_pot_bounds with
    | none => none
    | some ipb =>
      match ipb.at sidb_ix with
      | none => none
      | some (lo, hi) =>
        some (lo + gss.get_recv_ext_pot_bound .LOWER c sidb_ix,
          hi + gss.get_recv_ext_pot_bound .UPPER c sidb_ix)

/-- The method `perform_potential_bound_analysis<mode>` for the projector state `(c, m)`. -/
def perform_potential_bound_analysis (gss : ground_state_space)
    (mode : potential_bound_analysis_mode) (c : sidb_cluster) (m : multiset_conf)
    (internal_potential_bounds : Option intra_cluster_potential_bounds) : Option Bool :=
  perform_potential_bound_analysis_on gss.mu_bounds_with_error
    gss.witness_partitioning_max_cluster_size c.sidbs
    (gss.get_received_potential_bounds mode c m internal_potential_bounds) m

/-! ### Pruning -/

/-- The body of the first loop of `check_charge_space`; the loop state holds the engine state
and the two locals `removed_ms` and `fixpoint`. -/
def check_charge_space_step (nxt : next_extremal_op) (c : sidb_cluster)
    (acc : ground_state_space × List multiset_conf × Bool) (m : sidb_cluster_charge_state) :
    Option (ground_state_space × List multiset_conf × Bool) :=
  match acc.1.perform_potential_bound_analysis .ANALYZE_MULTISET c m.multiset none with
  | none => none
  | some true => some acc
  | some false =>
    match acc.1.handle_invalid_state nxt c m.multiset with
    | none => none
    | some g1 => some (g1, acc.2.1 ++ [m.multiset], false)

/-- Modelled from the spec: `charge_space.erase`: remove the element with the given multiset. -/
def erase_charge_state (m : multiset_conf) (cs : List sidb_cluster_charge_state) :
    List sidb_cluster_charge_state :=
  cs.filter (fun e => decide (e.multiset ≠ m))

/-- The second loop of `check_charge_space`: erase the removed multisets. -/
def erase_removed (c : sidb_cluster) (removed_ms : List multiset_conf)
    (gss : ground_state_space) : ground_state_space :=
  removed_ms.foldl
    (fun g m => g.modify c.uid (fun d => { d with
      charge_space := erase_charge_state m d.charge_space }))
    gss

/-- The method `check_charge_space`. -/
def check_charge_space (nxt : next_extremal_op) (gss : ground_state_space) (c : sidb_cluster) :
    Option (Bool × ground_state_space) :=
  if (gss.data c.uid).charge_space.length = 1 then some (true, gss)
  else
    match for_each (check_charge_space_step nxt c) (gss.data c.uid).charge_space
        (gss, [], true) with
    | none => none
    | some (g1, removed_ms, fixpoint) => some (fixpoint, erase_removed c removed_ms g1)

/-- The body of the loop of `update_charge_spaces`; the loop state holds the local `fixpoint`
and the engine state. -/
def update_charge_spaces_step (nxt : next_extremal_op) (skip_cluster : Option Nat)
    (acc : Bool × ground_state_space) (c : sidb_cluster) : Option (Bool × ground_state_space) :=
  if skip_cluster = none ∨ skip_cluster ≠ some c.uid then
    match check_charge_space nxt acc.2 c with
    | none => none
    | some (r, g1) => some (acc.1 && r, g1)
  else some acc

/-- The method `update_charge_spaces`. -/
def update_charge_spaces (nxt : next_extremal_op) (gss : ground_state_space)
    (skip_cluster : Option Nat) : Option (Bool × ground_state_space) :=
  for_each (update_charge_spaces_step nxt skip_cluster) gss.clustering (true, gss)

/-! ### Merging two children into their parent -/

/-- The body of the loop over `parent->children` in
`subtract_sibling_pot_from_recv_ext_pot_bound<bound>`. -/
def subtract_sibling_step (gss : ground_state_space) (b : bound_direction)
    (child : sidb_cluster) (sidb_ix : Nat) (acc : Pot) (sibling : sidb_cluster) : Option Pot :=
  if sibling.uid ≠ child.uid then
    match gss.get_proj_bound b sibling sidb_ix with
    | none => none
    | some pp => some (acc - pp.V)
  else some acc

/-- The method `subtract_sibling_pot_from_recv_ext_pot_bound<bound>`. -/
def subtract_sibling_pot_from_recv_ext_pot_bound (b : bound_direction)
    (gss : ground_state_space) (parent child : sidb_cluster) (sidb_ix : Nat) :
    Option ground_state_space :=
  match for_each (subtract_sibling_step gss b child sidb_ix) parent.children
      (gss.get_recv_ext_pot_bound b child sidb_ix) with
  | none => none
  | some recv_pot_without_siblings =>
    some ((gss.set_recv_ext_pot_bound b child sidb_ix
      recv_pot_without_siblings).set_recv_ext_pot_bound b parent sidb_ix
        recv_pot_without_siblings)

/-- The body of the inner loop of `derive_children_recv_bounds_without_siblings`. -/
def derive_site_step (parent child : sidb_cluster) (gss : ground_state_space) (sidb_ix : Nat) :
    Option ground_state_space :=
  match subtract_sibling_pot_from_recv_ext_pot_bound .LOWER gss parent child sidb_ix with
  | none => none
  | some g1 => subtract_sibling_pot_from_recv_ext_pot_bound .UPPER g1 parent child sidb_ix

/-- The method `derive_children_recv_bounds_without_siblings`. -/
def derive_children_recv_bounds_without_siblings (gss : ground_state_space)
    (parent : sidb_cluster) : Option ground_state_space :=
  for_each (fun g child => for_each (derive_site_step parent child) child.sidbs g)
    parent.children gss

/-- The innermost loop of `verify_composition` for one direction: the sum over all child states
`cst` of the composition of `get_proj_state_bound<bound>(cst.proj_st, sidb_ix).V`. -/
def sum_proj_state_bounds (gss : ground_state_space) (b : bound_direction) (sidb_ix : Nat)
    (composition : sidb_cluster_state_composition) : Option Pot :=
  for_each
    (fun acc cst => (gss.get_proj_state_bound b cst.cluster cst.multiset sidb_ix).map
      (fun pp => acc + pp.V))
    composition 0

/-- The body of the site loop of `verify_composition` for one receiving state: attach the summed
bounds of the composition at the site. The sums read only the projector states of the
composition, which the loop does not change. -/
def attach_internal_bounds_step (gss : ground_state_space)
    (composition : sidb_cluster_state_composition) (receiving_st : sidb_cluster_state)
    (sidb_ix : Nat) : Option sidb_cluster_state :=
  match sum_proj_state_bounds gss .LOWER sidb_ix composition,
      sum_proj_state_bounds gss .UPPER sidb_ix composition with
  | some internal_pot_lb, some internal_pot_ub =>
    some { receiving_st with internal_pot_bounds :=
      receiving_st.internal_pot_bounds.set sidb_ix internal_pot_lb internal_pot_ub }
  | _, _ => none

/-- The outer loop of `verify_composition`; `done` holds the states already verified, with their
attached bounds. The result carries the composition as the call leaves it. -/
def verify_composition_loop (gss : ground_state_space)
    (composition : sidb_cluster_state_composition) :
    List sidb_cluster_state → List sidb_cluster_state →
    Option (Bool × sidb_cluster_state_composition)
  | done, [] => some (true, done)
  | done, receiving_st :: rest =>
    match for_each (attach_internal_bounds_step gss composition) receiving_st.cluster.sidbs
        receiving_st with
    | none => none
    | some r1 =>
      match gss.perform_potential_bound_analysis .ANALYZE_COMPOSITION r1.cluster r1.multiset
          (some r1.internal_pot_bounds) with
      | none => none
      | some false => some (false, done ++ r1 :: rest)
      | some true => verify_composition_loop gss composition (done ++ [r1]) rest

/-- The method `verify_composition`. -/
def verify_composition (gss : ground_state_space)
    (composition : sidb_cluster_state_composition) :
    Option (Bool × sidb_cluster_state_composition) :=
  verify_composition_loop gss composition [] composition

/-- The branch `find` / `emplace_back` / `emplace` of `fill_merged_charge_state_space`: append the
composition to the element with the multiset of `m`, or insert `m` as a new element. -/
def insert_composition (m : sidb_cluster_charge_state)
    (composition : sidb_cluster_state_composition) :
    List sidb_cluster_charge_state → List sidb_cluster_charge_state
  | [] => [m]
  | e :: rest =>
    if e.multiset = m.multiset then
      { e with compositions := e.compositions ++ [composition] } :: rest
    else e :: insert_composition m composition rest

/-- The base case `cur_child_ix >= parent->children.size()` of
`fill_merged_charge_state_space`; the loop state holds the engine state and the accumulator
`m`. -/
def fill_merged_base (parent : sidb_cluster)
    (acc : ground_state_space × sidb_cluster_charge_state) :
    Option (ground_state_space × sidb_cluster_charge_state) :=
  match acc.2.compositions with
  | [] => none
  | composition :: others =>
    match acc.1.verify_composition composition with
    | none => none
    | some (ok, composition1) =>
      if ok then
        some (acc.1.modify parent.uid (fun d => { d with
          charge_space := insert_composition
            { acc.2 with compositions := composition1 :: others } composition1 d.charge_space }),
          { acc.2 with compositions := composition1 :: others })
      else some (acc.1, { acc.2 with compositions := composition1 :: others })

/-- The body of the `for` loop of `fill_merged_charge_state_space` over the charge space of the
current child; `next` is the recursive call for the following child index. -/
def fill_merged_step (cur_child : sidb_cluster)
    (next : ground_state_space × sidb_cluster_charge_state →
      Option (ground_state_space × sidb_cluster_charge_state))
    (acc : ground_state_space × sidb_cluster_charge_state) (m_part : sidb_cluster_charge_state) :
    Option (ground_state_space × sidb_cluster_charge_state) :=
  match acc.2.compositions with
  | [] => none
  | composition :: others =>
    match next (acc.1,
        { multiset := acc.2.multiset.add m_part.multiset,
          compositions := (composition ++ [⟨cur_child, m_part.multiset, []⟩]) :: others }) with
    | none => none
    | some (g1, m2) =>
      match m2.compositions with
      | [] => none
      | composition2 :: others2 =>
        some (g1,
          { multiset := m2.multiset.sub m_part.multiset,
            compositions := composition2.dropLast :: others2 })

/-- The method `fill_merged_charge_state_space`, by recursion over the children from
`cur_child_ix` on. -/
def fill_merged_charge_state_space (parent : sidb_cluster) :
    List sidb_cluster → ground_state_space × sidb_cluster_charge_state →
    Option (ground_state_space × sidb_cluster_charge_state)
  | [], acc => fill_merged_base parent acc
  | cur_child :: rest, acc =>
    for_each (fill_merged_step cur_child (fill_merged_charge_state_space parent rest))
      (acc.1.data cur_child.uid).charge_space acc

/-- The method `construct_merged_charge_state_space`. -/
def construct_merged_charge_state_space (gss : ground_state_space) (parent : sidb_cluster) :
    Option ground_state_space :=
  (fill_merged_charge_state_space parent parent.children (gss, ⟨⟨0, 0, 0⟩, [[]]⟩)).map Prod.fst

/-- The innermost loop of `merge_pot_proj_bounds<bound>`: the sum, over the child states of a
composition, of their per-multiset projections onto `sidb_ix`. -/
def sum_composition_projections (gss : ground_state_space) (b : bound_direction)
    (sidb_ix : Nat) (composition : sidb_cluster_state_composition) :
    Option potential_projection :=
  for_each
    (fun acc cst => (gss.get_proj_state_bound b cst.cluster cst.multiset sidb_ix).map
      (fun pp => acc.add pp))
    composition ⟨0, ⟨0, 0, 0⟩⟩

/-- The body of the loop of `merge_pot_proj_bounds<bound>` over the compositions. -/
def merge_pot_proj_step (b : bound_direction) (parent : sidb_cluster) (sidb_ix : Nat)
    (gss : ground_state_space) (composition : sidb_cluster_state_composition) :
    Option ground_state_space :=
  (sum_composition_projections gss b sidb_ix composition).map
    (fun pot_proj_onto_other_c => gss.add_pot_proj parent sidb_ix pot_proj_onto_other_c)

/-- The method `merge_pot_proj_bounds<bound>` for the receptor state `(rc, sidb_ix)`. -/
def merge_pot_proj_bounds (b : bound_direction) (gss : ground_state_space)
    (parent rc : sidb_cluster) (sidb_ix : Nat) : Option ground_state_space :=
  match for_each
      (fun g m => for_each (merge_pot_proj_step b parent sidb_ix) m.compositions g)
      (gss.data parent.uid).charge_space gss with
  | none => none
  | some g1 =>
    match g1.get_proj_bound b parent sidb_ix with
    | none => none
    | some pp =>
      match for_each
          (fun diff child => (g1.get_proj_bound b child sidb_ix).map (fun cp => diff - cp.V))
          parent.children pp.V with
      | none => none
      | some diff => some (g1.update_recv_ext_pot_bound b rc sidb_ix diff)

/-- The body of the innermost loop of `merge_recv_pot_proj_bounds<bound>`. -/
def merge_recv_step (b : bound_direction) (pc : sidb_cluster) (pm : multiset_conf)
    (gss : ground_state_space) (child_sidb_ix : Nat) : Option ground_state_space :=
  (gss.get_proj_state_bound b pc pm child_sidb_ix).map
    (fun pp => gss.add_pot_proj pc child_sidb_ix pp)

/-- The method `merge_recv_pot_proj_bounds<bound>` for the projector state `(pc, pm)`. -/
def merge_recv_pot_proj_bounds (b : bound_direction) (gss : ground_state_space)
    (pc : sidb_cluster) (pm : multiset_conf) (parent : sidb_cluster) :
    Option ground_state_space :=
  for_each
    (fun g m => for_each
      (fun g1 composition => for_each
        (fun g2 cst => for_each (merge_recv_step b pc pm) cst.cluster.sidbs g2)
        composition g1)
      m.compositions g)
    (gss.data parent.uid).charge_space gss

/-- The body of the first inner loop of `construct_merged_potential_projections`. -/
def merged_projections_site_step (parent non_child : sidb_cluster) (gss : ground_state_space)
    (sidb_ix : Nat) : Option ground_state_space :=
  match merge_pot_proj_bounds .LOWER gss parent non_child sidb_ix with
  | none => none
  | some g1 => merge_pot_proj_bounds .UPPER g1 parent non_child sidb_ix

/-- The body of the second inner loop of `construct_merged_potential_projections`. -/
def merged_projections_state_step (parent non_child : sidb_cluster) (gss : ground_state_space)
    (m : sidb_cluster_charge_state) : Option ground_state_space :=
  match merge_recv_pot_proj_bounds .LOWER gss non_child m.multiset parent with
  | none => none
  | some g1 => merge_recv_pot_proj_bounds .UPPER g1 non_child m.multiset parent

/-- The body of the outer loop of `construct_merged_potential_projections`. -/
def merged_projections_step (parent : sidb_cluster) (gss : ground_state_space)
    (non_child : sidb_cluster) : Option ground_state_space :=
  match for_each (merged_projections_site_step parent non_child) non_child.sidbs gss with
  | none => none
  | some g1 =>
    for_each (merged_projections_state_step parent non_child)
      (g1.data non_child.uid).charge_space g1

/-- The method `construct_merged_potential_projections`. -/
def construct_merged_potential_projections (gss : ground_state_space) (parent : sidb_cluster) :
    Option ground_state_space :=
  for_each (merged_projections_step parent) gss.clustering gss

/-- Modelled from the spec: `take_meet_of_potential_bounds<bound>` on a running meet that starts
at `potential_bound_top<bound>()`, written `none`: "the extremum (min for LOWER, max for UPPER)
over contributing composition values". -/
def take_meet_of_potential_bounds (b : bound_direction) (a : Option Pot) (v : Pot) :
    Option Pot :=
  match a, b with
  | none, _ => some v
  | some x, .LOWER => some (min x v)
  | some x, .UPPER => some (max x v)

/-- The body of the innermost loop of `compute_meets_for_internal_pot_bounds`, for one child
state of a composition. -/
def meets_state_step (sidb_ix : Nat) (acc : Option Pot × Option Pot)
    (cst : sidb_cluster_state) : Option Pot × Option Pot :=
  match cst.internal_pot_bounds.at sidb_ix with
  | none => acc
  | some (lo, hi) =>
    (take_meet_of_potential_bounds .LOWER acc.1 lo,
      take_meet_of_potential_bounds .UPPER acc.2 hi)

/-- The two meets of `compute_meets_for_internal_pot_bounds` at a site, over all compositions of
an element. -/
def meets_at (sidb_ix : Nat) (compositions : List sidb_cluster_state_composition) :
    Option Pot × Option Pot :=
  compositions.foldl (fun acc composition => composition.foldl (meets_state_step sidb_ix) acc)
    (none, none)

/-- The body of the site loop of `compute_meets_for_internal_pot_bounds`. A meet that is still
`potential_bound_top` is not a potential of the model. -/
def meets_site_step (parent : sidb_cluster) (m : sidb_cluster_charge_state)
    (gss : ground_state_space) (sidb_ix : Nat) : Option ground_state_space :=
  match meets_at sidb_ix m.compositions with
  | (some lb_meet, some ub_meet) =>
    some ((gss.add_pot_proj parent sidb_ix ⟨lb_meet, m.multiset⟩).add_pot_proj parent sidb_ix
      ⟨ub_meet, m.multiset⟩)
  | _ => none

/-- The method `compute_meets_for_internal_pot_bounds`. -/
def compute_meets_for_internal_pot_bounds (gss : ground_state_space) (parent : sidb_cluster) :
    Option ground_state_space :=
  for_each (fun g m => for_each (meets_site_step parent m) parent.sidbs g)
    (gss.data parent.uid).charge_space gss

/-! ### Moving up the hierarchy and the driver -/

/-- Modelled from the spec: `get_parent()`, the weak back-reference of a cluster, resolved in the
tree below `top_cluster`. -/
def get_parent (gss : ground_state_space) (c : sidb_cluster) : Option sidb_cluster :=
  gss.top_cluster.find_parent c.uid

/-- The body of `std::min_element` in `move_up_hierarchy`: the running minimum is replaced when
the parent of the visited cluster is smaller than the parent of the minimum; the comparison
dereferences both parents. -/
def min_parent_step (gss : ground_state_space) (best c : sidb_cluster) : Option sidb_cluster :=
  match gss.get_parent c, gss.get_parent best with
  | some pc, some pb => if pc.size < pb.size then some c else some best
  | _, _ => none

/-- The loop `clustering.erase(c)` over the children of the chosen parent. -/
def erase_children (children : List sidb_cluster) (clustering : List sidb_cluster) :
    List sidb_cluster :=
  clustering.filter (fun c => decide (∀ ch ∈ children, ch.uid ≠ c.uid))

/-- The call `clustering.emplace(min_parent)`. -/
def emplace_cluster (p : sidb_cluster) (clustering : List sidb_cluster) : List sidb_cluster :=
  if ∃ c ∈ clustering, c.uid = p.uid then clustering else clustering ++ [p]

/-- The selection of `min_parent` in `move_up_hierarchy`. -/
def select_min_parent (gss : ground_state_space) : Option sidb_cluster :=
  match gss.clustering with
  | [] => none
  | c0 :: rest =>
    match for_each (min_parent_step gss) rest c0 with
    | none => none
    | some c_min => gss.get_parent c_min

/-- The part of `move_up_hierarchy` that builds the chosen parent: erase the children from the
clustering, derive the received bounds, merge the charge spaces and the projections, compute the
meets and insert the parent. -/
def merge_up (gss : ground_state_space) (min_parent : sidb_cluster) :
    Option ground_state_space :=
  match ({ gss with clustering := erase_children min_parent.children gss.clustering } :
      ground_state_space).derive_children_recv_bounds_without_siblings min_parent with
  | none => none
  | some g2 =>
    match g2.construct_merged_charge_state_space min_parent with
    | none => none
    | some g3 =>
      match g3.construct_merged_potential_projections min_parent with
      | none => none
      | some g4 =>
        match g4.compute_meets_for_internal_pot_bounds min_parent with
        | none => none
        | some g5 => some { g5 with clustering := emplace_cluster min_parent g5.clustering }

/-- The method `move_up_hierarchy`. -/
def move_up_hierarchy (nxt : next_extremal_op) (gss : ground_state_space) :
    Option ground_state_space :=
  if gss.clustering.length = 1 then some { gss with terminate := true }
  else
    match gss.select_min_parent with
    | none => none
    | some min_parent =>
      match gss.merge_up min_parent with
      | none => none
      | some g6 => (g6.update_charge_spaces nxt (some min_parent.uid)).map Prod.snd

/-- The inner loop `while (!update_charge_spaces());` of `run`, with a budget of passes. -/
def prune_to_fixpoint (nxt : next_extremal_op) : Nat → ground_state_space →
    Option ground_state_space
  | 0, _ => none
  | fuel + 1, gss =>
    match gss.update_charge_spaces nxt none with
    | none => none
    | some (true, g1) => some g1
    | some (false, g1) => prune_to_fixpoint nxt fuel g1

/-- One iteration of the outer loop of `run`: prune to fixpoint, then move up. -/
def run_iteration (nxt : next_extremal_op) (fuel : Nat) (gss : ground_state_space) :
    Option ground_state_space :=
  match prune_to_fixpoint nxt fuel gss with
  | none => none
  | some g1 => g1.move_up_hierarchy nxt

/-- The outer loop `while (!terminate)` of `run`, with a budget of iterations. -/
def run_loop (nxt : next_extremal_op) (inner_fuel : Nat) : Nat → ground_state_space →
    Option ground_state_space
  | 0, _ => none
  | fuel + 1, gss =>
    if gss.terminate then some gss
    else
      match run_iteration nxt inner_fuel gss with
      | none => none
      | some g1 => run_loop nxt inner_fuel fuel g1

/-- The function `get_initial_clustering`, as far as the returned clustering goes: the cluster
itself when its size is one, then the initial clusterings of the children, inserted into the
set. -/
def get_initial_clustering : sidb_cluster → List sidb_cluster
  | .leaf u s => if (sidb_cluster.leaf u s).size = 1 then [.leaf u s] else []
  | .node u s l r =>
    (get_initial_clustering r).foldl (fun acc c => emplace_cluster c acc)
      ((get_initial_clustering l).foldl (fun acc c => emplace_cluster c acc)
        (if (sidb_cluster.node u s l r).size = 1 then [.node u s l r] else []))

end ground_state_space

/-! ## The result record and the method `run` -/

/-- The struct `ground_state_space_result`, without the member `runtime`. -/
structure ground_state_space_result where
  top_cluster : sidb_cluster
  pruned_top_level_multisets : Nat
  maximum_top_level_multisets : Nat

/-- Subtraction of two `uint64_t`. -/
def u64_sub (a b : Nat) : Nat := (a % 2 ^ 64 + (2 ^ 64 - b % 2 ^ 64)) % 2 ^ 64

/-- The default argument of the parameter `max_cluster_size_for_witness_partitioning` of the
function `ground_state_space`. -/
def default_max_cluster_size_for_witness_partitioning : Nat := 6

namespace ground_state_space

/-- The function `maximum_top_level_multisets`, in `uint64_t` arithmetic. -/
def maximum_top_level_multisets (number_of_sidbs : Nat) : Nat :=
  (((number_of_sidbs + 1) % 2 ^ 64) * ((number_of_sidbs + 2) % 2 ^ 64)) % 2 ^ 64 / 2

/-- The method `run`, with budgets for the two loops: the loop `while (!terminate)`, then the
result record. The final state is returned next to the record: the handle `top_cluster` of the
record gives access to the mutable members of the clusters, which the model keeps in the
state. -/
def run (nxt : next_extremal_op) (inner_fuel outer_fuel : Nat) (gss : ground_state_space) :
    Option (ground_state_space × ground_state_space_result) :=
  match run_loop nxt inner_fuel outer_fuel gss with
  | none => none
  | some g1 =>
    let max_multisets := maximum_top_level_multisets g1.top_cluster.size
    some (g1, ⟨g1.top_cluster,
      u64_sub max_multisets (g1.data g1.top_cluster.uid).charge_space.length, max_multisets⟩)

end ground_state_space

/-! ## Construction of the initial clustering, with the initialisation of the leaves -/

/-- The interface of `charge_distribution_surface` that `get_initial_clustering` reads from the
two containers of local potential bounds: `num_cells()`, `get_local_potential_by_index(i)`, which
returns an optional, and `get_potential_by_indices(i, j)`. The class is declared outside this
development. -/
structure charge_distribution_surface where
  num_cells : Nat
  get_local_potential_by_index : Nat → Option Pot
  get_potential_by_indices : Nat → Nat → Pot

/-- The two operations of the header `sidb_cluster_hierarchy.hpp` that `get_initial_clustering`
applies to a singleton cluster: the method
`initialize_singleton_cluster_charge_space(i, loc_pot_min, loc_pot_max)`, a transformation of the
mutable members of the cluster, and the constructor `potential_projection_order{inter_sidb_pot}`.
The header lies outside this development; the operations are parameters. -/
structure singleton_cluster_ops where
  initialize_singleton_cluster_charge_space : Nat → Pot → Pot → cluster_data → cluster_data
  potential_projection_order_of : Pot → potential_projection_order

/-- Modelled from the spec: `get_singleton_sidb_ix(c)`, the site of a cluster that "holds exactly
one index". -/
def get_singleton_sidb_ix (c : sidb_cluster) : Option Nat := c.sidbs.head?

namespace ground_state_space

/-- The loop `for (uint64_t j = 0; j < min_loc_pot_cds.num_cells(); ++j)` of
`get_initial_clustering` for the singleton cluster of site `i`: the store onto every site `j` is
assigned the store built from the potential between `i` and `j`. -/
def populate_pot_projs (ops : singleton_cluster_ops)
    (min_loc_pot_cds : charge_distribution_surface) (i : Nat) (d : cluster_data) :
    cluster_data :=
  (List.range min_loc_pot_cds.num_cells).foldl
    (fun d j =>
      { d with
        pot_projs := Function.update d.pot_projs j
          (ops.potential_projection_order_of
            (min_loc_pot_cds.get_potential_by_indices i j)) })
    d

/-- The body of the branch `c->size() == 1` of `get_initial_clustering` on the mutable members of
all clusters: the charge space of `c` is initialised with the negated local potentials of the
two containers at its site, and its stores are populated. Reading the value of an empty optional
is undefined. -/
def initialize_singleton (ops : singleton_cluster_ops)
    (local_potential_bound_containers : charge_distribution_surface × charge_distribution_surface)
    (c : sidb_cluster) (data : Nat → cluster_data) : Option (Nat → cluster_data) :=
  match get_singleton_sidb_ix c with
  | none => none
  | some i =>
    match local_potential_bound_containers.1.get_local_potential_by_index i,
        local_potential_bound_containers.2.get_local_potential_by_index i with
    | some min_loc_pot, some max_loc_pot =>
      some (Function.update data c.uid
        (populate_pot_projs ops local_potential_bound_containers.1 i
          (ops.initialize_singleton_cluster_charge_space i (-min_loc_pot) (-max_loc_pot)
            (data c.uid))))
    | _, _ => none

/-- The part of `get_initial_clustering` before the loop over the children: the local
`clustering` and the mutable members of the clusters after the branch `c->size() == 1`. -/
def initial_clustering_of_cluster (ops : singleton_cluster_ops)
    (local_potential_bound_containers : charge_distribution_surface × charge_distribution_surface)
    (c : sidb_cluster) (data : Nat → cluster_data) :
    Option (List sidb_cluster × (Nat → cluster_data)) :=
  if c.size = 1 then
    (initialize_singleton ops local_potential_bound_containers c data).map (fun d => ([c], d))
  else some ([], data)

/-- The function `get_initial_clustering` with its effect on the mutable members of the
clusters: the returned clustering and the members after the call. The function
`get_initial_clustering` above is its first component. -/
def get_initial_clustering_effect (ops : singleton_cluster_ops)
    (local_potential_bound_containers : charge_distribution_surface × charge_distribution_surface) :
    sidb_cluster → (Nat → cluster_data) → Option (List sidb_cluster × (Nat → cluster_data))
  | .leaf u s, data =>
    initial_clustering_of_cluster ops local_potential_bound_containers (.leaf u s) data
  | .node u s l r, data =>
    match initial_clustering_of_cluster ops local_potential_bound_containers (.node u s l r)
        data with
    | none => none
    | some (clustering, d0) =>
      match get_initial_clustering_effect ops local_potential_bound_containers l d0 with
      | none => none
      | some (l_clustering, d1) =>
        match get_initial_clustering_effect ops local_potential_bound_containers r d1 with
        | none => none
        | some (r_clustering, d2) =>
          some (r_clustering.foldl (fun acc c => emplace_cluster c acc)
            (l_clustering.foldl (fun acc c => emplace_cluster c acc) clustering), d2)

end ground_state_space

/-! ## The command `quickexact` of the command-line interface (`cmd/simulation/quickexact.hpp`)

A `double` of the command is an exact rational number; the value `infinity` of `min_energy` is
`none`. -/

namespace alice

/-- The struct `fiction::sidb_simulation_parameters`, by the four arguments of its constructor in
the order in which the command passes them. -/
structure sidb_simulation_parameters where
  base : Nat
  mu_minus : ℚ
  epsilon_r : ℚ
  lambda_tf : ℚ
deriving DecidableEq, Repr

/-- The struct `fiction::quickexact_params`, by the two members that the command reads and
writes. -/
structure quickexact_params where
  physical_parameters : sidb_simulation_parameters
  global_potential : ℚ
deriving DecidableEq, Repr

/-- The alternatives of the variant `fiction::cell_layout_t` as the visitor of `execute`
distinguishes them at compile time. -/
inductive layout_kind where
  | no_sidb_technology
  | charge_distribution_surface
  | sidb_lattice_100
  | sidb_lattice_111
  | other_sidb
deriving DecidableEq, Repr

/-- An element of the store of cell layouts: its name (`fiction::get_name`) and its kind. -/
structure cell_layout where
  name : String
  kind : layout_kind
deriving DecidableEq, Repr

/-- A charge distribution of a simulation result: the name of its layout and its system
energy. -/
structure charge_distribution where
  name : String
  system_energy : ℚ
deriving DecidableEq, Repr

/-- The struct `fiction::sidb_simulation_result`, by the member that `execute` reads. -/
structure sidb_simulation_result where
  charge_distributions : List charge_distribution
deriving DecidableEq, Repr

/-- The store `store<fiction::cell_layout_t>()` of the environment: its elements and the index
of the current one. -/
structure store_container where
  data : List cell_layout
  current : Nat
deriving DecidableEq, Repr

/-- The members of `quickexact_command`, the two parts of the environment that `execute` uses
(the store of cell layouts and the output stream `env->out()`), and the list of the calls of
`fiction::quickexact` made so far, which is not a member and records the arguments of every
call. -/
structure quickexact_command where
  physical_params : sidb_simulation_parameters
  params : quickexact_params
  sim_result : sidb_simulation_result
  sim_result_111 : sidb_simulation_result
  min_energy : Option ℚ
  store : store_container
  out : String
  quickexact_calls : List (cell_layout × quickexact_params)

namespace quickexact_command

/-- The method `reset_params`; `default_params` is the value `{}` of `quickexact_params`. -/
def reset_params (default_params : quickexact_params) (cmd : quickexact_command) :
    quickexact_command :=
  { cmd with
    physical_params := ⟨2, -32 / 100, 56 / 10, 5⟩,
    params := default_params }

/-- The method `convert_params`. -/
def convert_params (ps_src : quickexact_params) (default_params : quickexact_params) :
    quickexact_params :=
  { default_params with
    physical_parameters := ps_src.physical_parameters,
    global_potential := ps_src.global_potential }

/-- The function `fiction::minimum_energy_distribution` on a range: the first element of least
system energy, the end of the range when it is empty. -/
def minimum_energy_distribution : List charge_distribution → Option charge_distribution
  | [] => none
  | d :: rest =>
    some (rest.foldl (fun best e => if e.system_energy < best.system_energy then e else best) d)

/-- The method `store.extend()` followed by the assignment of the new element. -/
def extend (s : store_container) (lyt : cell_layout) : store_container :=
  { data := s.data ++ [lyt], current := s.data.length }

/-- The part of the visitor of `execute` after the simulation of a layout with lattice
orientation `kind`: the message when neither result holds a charge distribution, and otherwise
the distribution of minimum energy as a new element of the store. Dereferencing the end of an
empty range is undefined. -/
def store_minimum (kind : layout_kind) (lyt : cell_layout) (cmd : quickexact_command) :
    Option quickexact_command :=
  if cmd.sim_result.charge_distributions = [] ∧ cmd.sim_result_111.charge_distributions = [] then
    some { cmd with
      out := cmd.out ++ "[e] ground state of " ++ lyt.name ++ " could not be determined\n" }
  else
    match minimum_energy_distribution
        (if kind = .sidb_lattice_100 then cmd.sim_result.charge_distributions
          else cmd.sim_result_111.charge_distributions) with
    | none => none
    | some min_energy_distr =>
      some { cmd with
        min_energy := some min_energy_distr.system_energy,
        store := extend cmd.store ⟨min_energy_distr.name, .charge_distribution_surface⟩ }

/-- The visitor `quickexact` of `execute` on the current layout; the parameter `quickexact`
stands for the function `fiction::quickexact`. -/
def visit (quickexact : cell_layout → quickexact_params → sidb_simulation_result)
    (default_params : quickexact_params) (cmd : quickexact_command) (lyt : cell_layout) :
    Option quickexact_command :=
  match lyt.kind with
  | .no_sidb_technology =>
    some { cmd with out := cmd.out ++ "[e] " ++ lyt.name ++ " is not an SiDB layout\n" }
  | .charge_distribution_surface =>
    some { cmd with
      out := cmd.out ++ "[w] " ++ lyt.name
        ++ " already possesses a charge distribution; no simulation is conducted\n" }
  | .sidb_lattice_100 =>
    let params1 := { cmd.params with physical_parameters := cmd.physical_params }
    store_minimum .sidb_lattice_100 lyt
      { cmd with
        params := params1,
        sim_result := quickexact lyt params1,
        quickexact_calls := cmd.quickexact_calls ++ [(lyt, params1)] }
  | .sidb_lattice_111 =>
    let params1 := { cmd.params with physical_parameters := cmd.physical_params }
    let cps := convert_params params1 default_params
    store_minimum .sidb_lattice_111 lyt
      { cmd with
        params := params1,
        sim_result_111 := quickexact lyt cps,
        quickexact_calls := cmd.quickexact_calls ++ [(lyt, cps)] }
  | .other_sidb =>
    some { cmd with out := cmd.out ++ "[e] no valid lattice orientation\n" }

/-- The method `execute`. Reading the current element of a store whose index points outside
its elements is outside the model. -/
def execute (quickexact : cell_layout → quickexact_params → sidb_simulation_result)
    (default_params : quickexact_params) (cmd0 : quickexact_command) :
    Option quickexact_command :=
  let cmd := { cmd0 with sim_result := ⟨[]⟩, min_energy := none }
  if cmd.physical_params.epsilon_r ≤ 0 then
    some (reset_params default_params
      { cmd with out := cmd.out ++ "[e] epsilon_r must be positive\n" })
  else if cmd.physical_params.lambda_tf ≤ 0 then
    some (reset_params default_params
      { cmd with out := cmd.out ++ "[e] lambda_tf must be positive\n" })
  else if cmd.store.data = [] then
    some (reset_params default_params
      { cmd with out := cmd.out ++ "[w] no cell layout in store\n" })
  else
    match cmd.store.data.get? cmd.store.current with
    | none => none
    | some lyt => (visit quickexact default_params cmd lyt).map (reset_params default_params)

end quickexact_command

end alice

/-! ## Predicates and concrete inputs used in the statements -/

/-- Band edges for `mu_minus = -0.32`, `mu_plus = -0.91` and `POP_STABILITY_ERR = 1e-6`, in units
of `1e-6`: `(e_n_upper, e_n_lower, e_p_upper, e_p_lower)`. -/
def example_mu : Pot × Pot × Pot × Pot := (320001, 319999, 910001, 909999)

/-- Membership of site `i` in the witness set of charge state `cs`. -/
def in_witness_set (st : witness_partitioning_state) (cs : sidb_charge_state) (i : Nat) : Prop :=
  match cs with
  | .NEGATIVE => i ∈ st.negative_witnesses
  | .NEUTRAL => i ∈ st.neutral_witnesses
  | .POSITIVE => i ∈ st.positive_witnesses

instance (st : witness_partitioning_state) (cs : sidb_charge_state) (i : Nat) :
    Decidable (in_witness_set st cs i) := by
  cases cs <;> unfold in_witness_set <;> infer_instance

/-- The number of sites of `sidbs` that `assign` maps to the charge state `cs`. -/
def count_assigned (assign : Nat → sidb_charge_state) (cs : sidb_charge_state)
    (sidbs : List Nat) : Nat :=
  (sidbs.filter (fun i => decide (assign i = cs))).length

/-- Received bounds of a five-site cluster: sites 1 and 2 receive `[0, 0.5]`, the others
`[0, 1]`. -/
def five_site_bounds : Nat → Option (Pot × Pot) :=
  fun i => if i = 1 ∨ i = 2 then some (0, 500000) else some (0, 1000000)

/-- An assignment of the five sites: site 1 negative, site 2 neutral, sites 0, 3, 4 positive. -/
def five_site_assignment : Nat → sidb_charge_state :=
  fun i => if i = 1 then .NEGATIVE else if i = 2 then .NEUTRAL else .POSITIVE

/-- A witness state of a three-site cluster: sites 1 and 2 witness positive and neutral, no site
witnesses negative; two positive and one neutral site are required. -/
def overlapping_witnesses : witness_partitioning_state := ⟨[], [1, 2], [1, 2], 0, 2, 1⟩

/-- A witness state of a three-site cluster with the partition `{0}`, `{2}`, `{1}`. -/
def partitionable_witnesses : witness_partitioning_state := ⟨[0, 2], [1, 2], [1], 1, 1, 1⟩

/-- The specification of the partition test: pairwise disjoint subsets of the three witness sets
with the three required cardinalities. -/
def has_witness_partition (st : witness_partitioning_state) : Prop :=
  ∃ A B C : Finset Nat,
    A ⊆ st.negative_witnesses.toFinset ∧ B ⊆ st.positive_witnesses.toFinset
      ∧ C ⊆ st.neutral_witnesses.toFinset
      ∧ A.card = st.required_neg_count ∧ B.card = st.required_pos_count
      ∧ C.card = st.required_neut_count
      ∧ Disjoint A B ∧ Disjoint A C ∧ Disjoint B C

/-- The cardinality test of `perform_potential_bound_analysis`. -/
def passes_cardinality_test (st : witness_partitioning_state) : Prop :=
  ¬ (st.negative_witnesses.length < st.required_neg_count
      ∨ st.positive_witnesses.length < st.required_pos_count
      ∨ st.neutral_witnesses.length < st.required_neut_count)

instance (st : witness_partitioning_state) : Decidable (passes_cardinality_test st) := by
  unfold passes_cardinality_test
  infer_instance

/-- The partition test as `perform_potential_bound_analysis` runs it: `omit_free_witnesses`, then
`find_valid_witness_partitioning<NEGATIVE>`. -/
def partition_test (st : witness_partitioning_state) : Option Bool :=
  (find_valid_witness_partitioning_NEGATIVE (search_budget (omit_free_witnesses st))
    (omit_free_witnesses st) (omit_free_witnesses st).required_neg_count).map Prod.fst

/-- The multiset of a single negative site. -/
def neg1 : multiset_conf := ⟨1, 0, 0⟩

/-- The multiset of a single neutral site. -/
def neut1 : multiset_conf := ⟨0, 1, 0⟩

/-- Mutable data of two singleton clusters `A` (uid 0, site 0) and `B` (uid 1, site 1) with charge
spaces `a_space` and `b_space`. Each projects `0` onto its own site; `A` projects
`[0.33, 0.4]` onto site 1 and `B` projects `[0, 0.4]` onto site 0, and the received bounds are
the extremal projections of the other cluster. -/
def two_leaf_data (a_space b_space : List sidb_cluster_charge_state) : Nat → cluster_data :=
  fun u =>
    if u = 0 then
      { charge_space := a_space,
        pot_projs := fun j =>
          if j = 0 then [⟨0, neg1⟩, ⟨0, neut1⟩]
          else if j = 1 then [⟨330000, neut1⟩, ⟨400000, neg1⟩] else [],
        recv_ext_pot_bounds := fun j => if j = 0 then (0, 400000) else (0, 0) }
    else if u = 1 then
      { charge_space := b_space,
        pot_projs := fun j =>
          if j = 1 then [⟨0, neg1⟩, ⟨0, neut1⟩]
          else if j = 0 then [⟨0, neut1⟩, ⟨400000, neg1⟩] else [],
        recv_ext_pot_bounds := fun j => if j = 1 then (330000, 400000) else (0, 0) }
    else { charge_space := [], pot_projs := fun _ => [], recv_ext_pot_bounds := fun _ => (0, 0) }

/-- A state whose frontier consists of the two singleton clusters of `two_leaf_data`. -/
def two_leaf_state (a_space b_space : List sidb_cluster_charge_state) : ground_state_space :=
  { top_cluster := .node 2 [0, 1] (.leaf 0 [0]) (.leaf 1 [1]),
    clustering := [.leaf 0 [0], .leaf 1 [1]],
    terminate := false,
    witness_partitioning_max_cluster_size := 6,
    mu_bounds_with_error := example_mu,
    data := two_leaf_data a_space b_space }

/-- Agreement of two states on everything but the mutable members of the clusters. -/
def same_static (g g1 : ground_state_space) : Prop :=
  g1.top_cluster = g.top_cluster ∧ g1.clustering = g.clustering ∧ g1.terminate = g.terminate
    ∧ g1.witness_partitioning_max_cluster_size = g.witness_partitioning_max_cluster_size
    ∧ g1.mu_bounds_with_error = g.mu_bounds_with_error

namespace sidb_cluster

/-- A hierarchy that is a binary tree over the sites: a leaf holds exactly one site, and the
sites of an inner node are those of its two children. -/
def well_formed : sidb_cluster → Prop
  | leaf _ s => s.length = 1
  | node _ s l r => well_formed l ∧ well_formed r ∧ s.Perm (l.sidbs ++ r.sidbs)

/-- The uids of all nodes of the subtree. -/
def uids (t : sidb_cluster) : List Nat := t.nodes.map uid

end sidb_cluster

/-- A frontier of the subtree `t`: the subtree itself, or frontiers of its two children put
together in any order. -/
inductive is_frontier : sidb_cluster → List sidb_cluster → Prop
  | self (t : sidb_cluster) : is_frontier t [t]
  | split (u : Nat) (s : List Nat) (l r : sidb_cluster) (cl_l cl_r cl : List sidb_cluster) :
      is_frontier l cl_l → is_frontier r cl_r → cl.Perm (cl_l ++ cl_r) →
      is_frontier (.node u s l r) cl

/-- Invariant (I1): the site sets of the clusters are pairwise disjoint and their union is the
site set of the top cluster. -/
def partitions_sites (top : sidb_cluster) (cl : List sidb_cluster) : Prop :=
  cl.Pairwise (fun a b => a.sidbs.Disjoint b.sidbs) ∧ ∀ i, i ∈ top.sidbs ↔ ∃ c ∈ cl, i ∈ c.sidbs

/-- The conclusion of the merge step on a frontier `cl` of `t` for the chosen parent `p`. -/
def merge_step_ok (t p : sidb_cluster) (cl : List sidb_cluster) : Prop :=
  (∀ ch ∈ p.children, ch ∈ cl) ∧ p.children.length = 2
    ∧ is_frontier t (ground_state_space.emplace_cluster p (ground_state_space.erase_children p.children cl))
    ∧ (ground_state_space.emplace_cluster p (ground_state_space.erase_children p.children cl)).length + 1 = cl.length


/-- The states of a run over the hierarchy `top`: the state after construction, whose clustering
is the initial clustering, and every state reached from it by a pruning pass or by
`move_up_hierarchy`. -/
inductive reachable (nxt : next_extremal_op) (top : sidb_cluster) : ground_state_space → Prop
  | init (g : ground_state_space) : g.top_cluster = top →
      g.clustering = ground_state_space.get_initial_clustering top → reachable nxt top g
  | prune (g g1 : ground_state_space) (skip_cluster : Option Nat) (r : Bool) :
      reachable nxt top g → g.update_charge_spaces nxt skip_cluster = some (r, g1) →
      reachable nxt top g1
  | move_up (g g1 : ground_state_space) :
      reachable nxt top g → g.move_up_hierarchy nxt = some g1 → reachable nxt top g1

/-- The state after construction for a layout with a single site: the root is the only leaf. -/
def single_leaf_state : ground_state_space :=
  { top_cluster := .leaf 0 [0],
    clustering := [.leaf 0 [0]],
    terminate := false,
    witness_partitioning_max_cluster_size := 6,
    mu_bounds_with_error := example_mu,
    data := fun _ =>
      { charge_space := [⟨neg1, []⟩],
        pot_projs := fun _ => [⟨0, neg1⟩],
        recv_ext_pot_bounds := fun _ => (0, 0) } }

/-- The hierarchy of `two_leaf_state`. -/
def two_leaf_top : sidb_cluster := .node 2 [0, 1] (.leaf 0 [0]) (.leaf 1 [1])

/-- The projector state `(cluster, multiset)` of a child state of a composition. -/
def sidb_cluster_state.key (s : sidb_cluster_state) : sidb_cluster × multiset_conf :=
  (s.cluster, s.multiset)

/-- The component-wise sum of the child multisets of a composition. -/
def composition_sum : sidb_cluster_state_composition → multiset_conf
  | [] => ⟨0, 0, 0⟩
  | cst :: rest => cst.multiset.add (composition_sum rest)

/-- Agreement of two states on the band edges, the threshold, all projection stores and all
received bounds. -/
def same_potentials (g g1 : ground_state_space) : Prop :=
  g1.mu_bounds_with_error = g.mu_bounds_with_error
    ∧ g1.witness_partitioning_max_cluster_size = g.witness_partitioning_max_cluster_size
    ∧ ∀ u, (g1.data u).pot_projs = (g.data u).pot_projs
      ∧ (g1.data u).recv_ext_pot_bounds = (g.data u).recv_ext_pot_bounds

/-- The composition `[(l, ml), (r, mr)]` passes `verify_composition` in the state `g`. -/
def composition_verified (g : ground_state_space) (l r : sidb_cluster)
    (p : multiset_conf × multiset_conf) : Prop :=
  (g.verify_composition [⟨l, p.1, []⟩, ⟨r, p.2, []⟩]).map Prod.fst = some true

instance (g : ground_state_space) (l r : sidb_cluster) (p : multiset_conf × multiset_conf) :
    Decidable (composition_verified g l r p) := by
  unfold composition_verified
  infer_instance

/-- The pairs of multisets of two charge spaces, in the order in which
`fill_merged_charge_state_space` visits them. -/
def multiset_pairs (ls rs : List sidb_cluster_charge_state) :
    List (multiset_conf × multiset_conf) :=
  ls.flatMap (fun ml => rs.map (fun mr => (ml.multiset, mr.multiset)))

/-- The compositions stored in a charge space under the multiset `m`. -/
def compositions_of (cs : List sidb_cluster_charge_state) (m : multiset_conf) :
    List sidb_cluster_state_composition :=
  (cs.filter (fun e => decide (e.multiset = m))).flatMap (fun e => e.compositions)

/-- The pair of sums that `verify_composition` attaches at site `i` for the composition. -/
def composition_sums (g : ground_state_space) (comp : sidb_cluster_state_composition)
    (i : Nat) : Option (Pot × Pot) :=
  match g.sum_proj_state_bounds .LOWER i comp, g.sum_proj_state_bounds .UPPER i comp with
  | some lb, some ub => some (lb, ub)
  | _, _ => none

/-- The projector states of the composition that takes `p.1` from `l` and `p.2` from `r`. -/
def pair_key (l r : sidb_cluster) (p : multiset_conf × multiset_conf) :
    List (sidb_cluster × multiset_conf) :=
  [(l, p.1), (r, p.2)]

/-- The state of the merge of `l` and `r` into the cluster with uid `pu` after the pairs `done`
have been visited: the potentials and the other charge spaces are those of the initial state
`g0`, the charge space of the parent has one element per multiset, none without composition, and
under every multiset it stores, in order, the verified pairs of `done` with that sum. -/
def merge_inv (g0 : ground_state_space) (pu : Nat) (l r : sidb_cluster)
    (done : List (multiset_conf × multiset_conf)) (g : ground_state_space) : Prop :=
  same_potentials g0 g
    ∧ (∀ u, u ≠ pu → (g.data u).charge_space = (g0.data u).charge_space)
    ∧ ((g.data pu).charge_space.map (fun e => e.multiset)).Nodup
    ∧ (∀ e ∈ (g.data pu).charge_space, e.compositions ≠ [])
    ∧ ∀ m, (compositions_of (g.data pu).charge_space m).map (List.map sidb_cluster_state.key)
        = ((done.filter (fun p => decide (composition_verified g0 l r p))).filter
            (fun p => decide (p.1.add p.2 = m))).map (pair_key l r)

/-- Agreement of two states on all charge spaces. -/
def same_charge_spaces (g g1 : ground_state_space) : Prop :=
  ∀ u, (g1.data u).charge_space = (g.data u).charge_space

/-- Invariant (I2), projection tagging: every entry of the projection store of a frontier
cluster onto a site of another frontier cluster is tagged with a multiset of the charge space
of the projecting cluster. -/
def projection_tagging (g : ground_state_space) : Prop :=
  ∀ c ∈ g.clustering, ∀ c1 ∈ g.clustering, c1.uid ≠ c.uid → ∀ j ∈ c1.sidbs,
    ∀ pp ∈ (g.data c.uid).pot_projs j,
      pp.M ∈ (g.data c.uid).charge_space.map (fun e => e.multiset)

instance (g : ground_state_space) : Decidable (projection_tagging g) := by
  unfold projection_tagging
  infer_instance

/-- Every entry of every projection store of the second state is an entry of the same store in
the first state. -/
def entries_shrink (g g1 : ground_state_space) : Prop :=
  ∀ u j, ∀ pp ∈ (g1.data u).pot_projs j, pp ∈ (g.data u).pot_projs j

/-- No entry tagged `m` is left in the projection stores of the cluster with uid `u` onto the
sites of the other clusters of the clustering. -/
def purged (g : ground_state_space) (u : Nat) (m : multiset_conf) : Prop :=
  ∀ c1 ∈ g.clustering, c1.uid ≠ u → ∀ j ∈ c1.sidbs, ∀ pp ∈ (g.data u).pot_projs j, pp.M ≠ m

instance (g : ground_state_space) (u : Nat) (m : multiset_conf) : Decidable (purged g u m) := by
  unfold purged
  infer_instance

/-- The charge spaces agree, and every store entry of the second state is an entry of the same
store in the first state or an entry of a store of the cluster with uid `pu` that is tagged with
a multiset of the charge space of that cluster. -/
def stores_grow_tagged (pu : Nat) (g g1 : ground_state_space) : Prop :=
  same_charge_spaces g g1
    ∧ ∀ u j, ∀ pp ∈ (g1.data u).pot_projs j, pp ∈ (g.data u).pot_projs j
        ∨ (u = pu ∧ pp.M ∈ (g.data pu).charge_space.map (fun e => e.multiset))

/-- Every composition of every element of the charge space sums to the multiset of the
element. -/
def compositions_sum_ok (cs : List sidb_cluster_charge_state) : Prop :=
  ∀ e ∈ cs, ∀ comp ∈ e.compositions, composition_sum comp = e.multiset

/-- The potential of the extremal projection of the cluster `c` onto the site `i`. -/
def extremal_pot (g : ground_state_space) (b : bound_direction) (c : sidb_cluster) (i : Nat) :
    Option Pot :=
  (g.get_proj_bound b c i).map potential_projection.V

/-- The sum of the extremal projections of the clusters of a list onto the site `i`; undefined
when one of the stores has no extremal entry. -/
def projected_sum (g : ground_state_space) (b : bound_direction) (i : Nat) :
    List sidb_cluster → Option Pot
  | [] => some 0
  | c :: cs =>
    match extremal_pot g b c i, projected_sum g b i cs with
    | some v, some w => some (v + w)
    | _, _ => none

/-- The frontier clusters other than `c`. -/
def other_clusters (g : ground_state_space) (c : sidb_cluster) : List sidb_cluster :=
  g.clustering.filter (fun c1 => decide (c1.uid ≠ c.uid))

/-- Invariant (I3), received-potential consistency: for every frontier cluster and every site of
the cluster, the lower and the upper received bound equal the sum over all other frontier
clusters of the lower and the upper extremal projection onto the site. -/
def received_consistent (g : ground_state_space) : Prop :=
  ∀ c ∈ g.clustering, ∀ i ∈ c.sidbs, ∀ b,
    projected_sum g b i (other_clusters g c) = some (g.get_recv_ext_pot_bound b c i)

instance (g : ground_state_space) : Decidable (received_consistent g) :=
  decidable_of_iff
    (∀ c ∈ g.clustering, ∀ i ∈ c.sidbs,
      projected_sum g .LOWER i (other_clusters g c) = some (g.get_recv_ext_pot_bound .LOWER c i)
        ∧ projected_sum g .UPPER i (other_clusters g c)
          = some (g.get_recv_ext_pot_bound .UPPER c i))
    ⟨fun h c hc i hi b => by
        cases b
        · exact (h c hc i hi).1
        · exact (h c hc i hi).2,
      fun h c hc i hi => ⟨h c hc i hi .LOWER, h c hc i hi .UPPER⟩⟩

/-- The entries of every projection store are in non-decreasing order of their potentials. -/
def stores_sorted (g : ground_state_space) : Prop :=
  ∀ u j, ((g.data u).pot_projs j).Pairwise (fun a b => a.V ≤ b.V)

/-- The effect of the first loop of `merge_pot_proj_bounds<bound>` for the parent with uid `pu`
and the site `i`, from the state `s` to the state `a`: only the store of the parent onto the site
changes, it stays sorted, keeps its entries, and gains the sums of the projections of the
compositions of the parent, one for every composition. -/
def merge_pass_effect (b : bound_direction) (pu i : Nat) (s a : ground_state_space) : Prop :=
  a.clustering = s.clustering
    ∧ same_charge_spaces s a
    ∧ (∀ u, (a.data u).recv_ext_pot_bounds = (s.data u).recv_ext_pot_bounds)
    ∧ (∀ u j, (u ≠ pu ∨ j ≠ i) → (a.data u).pot_projs j = (s.data u).pot_projs j)
    ∧ (((s.data pu).pot_projs i).Pairwise (fun x y => x.V ≤ y.V) →
        ((a.data pu).pot_projs i).Pairwise (fun x y => x.V ≤ y.V))
    ∧ (∀ pp ∈ (s.data pu).pot_projs i, pp ∈ (a.data pu).pot_projs i)
    ∧ (∀ pp ∈ (a.data pu).pot_projs i, pp ∈ (s.data pu).pot_projs i
        ∨ ∃ comp ∈ (s.data pu).charge_space.flatMap (fun m => m.compositions),
            s.sum_composition_projections b i comp = some pp)
    ∧ ∀ comp ∈ (s.data pu).charge_space.flatMap (fun m => m.compositions),
        ∃ pp, s.sum_composition_projections b i comp = some pp ∧ pp ∈ (a.data pu).pot_projs i

/-- The compositions of the charge space name no cluster with the uid `pu`. -/
def compositions_avoid (pu : Nat) (cs : List sidb_cluster_charge_state) : Prop :=
  ∀ comp ∈ cs.flatMap (fun m => m.compositions), ∀ cst ∈ comp, cst.cluster.uid ≠ pu

/-- The second state has the clustering, the charge spaces and the received bounds of the first
one, and every store keeps its entries up to repetition and stays sorted. -/
def entries_stable (g g1 : ground_state_space) : Prop :=
  g1.clustering = g.clustering
    ∧ same_charge_spaces g g1
    ∧ (∀ u, (g1.data u).recv_ext_pot_bounds = (g.data u).recv_ext_pot_bounds)
    ∧ ∀ u j, (((g.data u).pot_projs j).Pairwise (fun x y => x.V ≤ y.V) →
          ((g1.data u).pot_projs j).Pairwise (fun x y => x.V ≤ y.V))
        ∧ ∀ pp, pp ∈ (g1.data u).pot_projs j ↔ pp ∈ (g.data u).pot_projs j

/-- Mutable data of three singleton clusters with uids and sites 0, 2 and 1, each with the charge
space `{neg, neut}`. A negative site projects `0.1` between the sites 0 and 2, `0.3` between the
sites 0 and 1 and `0.4` between the sites 2 and 1, a neutral site projects `0`, and the received
bounds are the sums of the extremal projections of the two other clusters. -/
def three_leaf_data : Nat → cluster_data :=
  fun u =>
    if u = 0 then
      { charge_space := [⟨neg1, []⟩, ⟨neut1, []⟩],
        pot_projs := fun j =>
          if j = 0 then [⟨0, neg1⟩, ⟨0, neut1⟩]
          else if j = 2 then [⟨0, neut1⟩, ⟨100000, neg1⟩]
          else if j = 1 then [⟨0, neut1⟩, ⟨300000, neg1⟩] else [],
        recv_ext_pot_bounds := fun j => if j = 0 then (0, 400000) else (0, 0) }
    else if u = 2 then
      { charge_space := [⟨neg1, []⟩, ⟨neut1, []⟩],
        pot_projs := fun j =>
          if j = 2 then [⟨0, neg1⟩, ⟨0, neut1⟩]
          else if j = 0 then [⟨0, neut1⟩, ⟨100000, neg1⟩]
          else if j = 1 then [⟨0, neut1⟩, ⟨400000, neg1⟩] else [],
        recv_ext_pot_bounds := fun j => if j = 2 then (0, 500000) else (0, 0) }
    else if u = 1 then
      { charge_space := [⟨neg1, []⟩, ⟨neut1, []⟩],
        pot_projs := fun j =>
          if j = 1 then [⟨0, neg1⟩, ⟨0, neut1⟩]
          else if j = 0 then [⟨0, neut1⟩, ⟨300000, neg1⟩]
          else if j = 2 then [⟨0, neut1⟩, ⟨400000, neg1⟩] else [],
        recv_ext_pot_bounds := fun j => if j = 1 then (0, 700000) else (0, 0) }
    else { charge_space := [], pot_projs := fun _ => [], recv_ext_pot_bounds := fun _ => (0, 0) }

/-- The hierarchy over the sites 0, 2 and 1 in which the sites 0 and 2 form the cluster with
uid 3. -/
def three_leaf_top : sidb_cluster :=
  .node 4 [0, 2, 1] (.node 3 [0, 2] (.leaf 0 [0]) (.leaf 2 [2])) (.leaf 1 [1])

/-- A state whose frontier consists of the three singleton clusters of `three_leaf_data`. -/
def three_leaf_state : ground_state_space :=
  { top_cluster := three_leaf_top,
    clustering := [.leaf 0 [0], .leaf 2 [2], .leaf 1 [1]],
    terminate := false,
    witness_partitioning_max_cluster_size := 6,
    mu_bounds_with_error := example_mu,
    data := three_leaf_data }

/-- The multiset of a single positive site. -/
def pos1 : multiset_conf := ⟨0, 0, 1⟩

/-- The sign of a charge state. -/
def charge_sign : sidb_charge_state → Int
  | .NEGATIVE => -1
  | .NEUTRAL => 0
  | .POSITIVE => 1

/-- The multiset of a single site in the given charge state. -/
def singleton_multiset : sidb_charge_state → multiset_conf
  | .NEGATIVE => neg1
  | .NEUTRAL => neut1
  | .POSITIVE => pos1

/-- The received potential at site `i` under the assignment `σ` of charge states to the sites
`0, …, n - 1` with inter-site potentials `v`: every other site contributes its potential times
minus its charge sign, so that a layout of positive sites gives the most negative value. -/
def received_potential (n : Nat) (v : Nat → Nat → Pot) (σ : Nat → sidb_charge_state)
    (i : Nat) : Pot :=
  (List.range n).foldl (fun acc j => if j = i then acc else acc + v i j * -charge_sign (σ j)) 0

/-- The stability predicates of the envelope for a site in charge state `cs` that receives the
potential `V`: the state is negative and `fail_onto_negative_charge` does not hold, or positive
and `fail_onto_positive_charge` does not hold, or neutral and neither of the two neutral
predicates holds. -/
def stable_at (mu : Pot × Pot × Pot × Pot) (cs : sidb_charge_state) (V : Pot) : Bool :=
  match cs with
  | .NEGATIVE => !fail_onto_negative_charge mu V
  | .POSITIVE => !fail_onto_positive_charge mu V
  | .NEUTRAL => !ub_fail_onto_neutral_charge mu V && !lb_fail_onto_neutral_charge mu V

/-- The assignment satisfies the stability predicates at every site. -/
def satisfies_envelope (n : Nat) (v : Nat → Nat → Pot) (mu : Pot × Pot × Pot × Pot)
    (σ : Nat → sidb_charge_state) : Prop :=
  ∀ i ∈ List.range n, stable_at mu (σ i) (received_potential n v σ i) = true

instance (n : Nat) (v : Nat → Nat → Pot) (mu : Pot × Pot × Pot × Pot)
    (σ : Nat → sidb_charge_state) : Decidable (satisfies_envelope n v mu σ) := by
  unfold satisfies_envelope
  infer_instance

/-- The multiset `(n-, n0, n+)` of the assignment restricted to a list of sites. -/
def restricted_multiset (σ : Nat → sidb_charge_state) (sites : List Nat) : multiset_conf :=
  ⟨(sites.filter (fun i => decide (σ i = .NEGATIVE))).length,
    (sites.filter (fun i => decide (σ i = .NEUTRAL))).length,
    (sites.filter (fun i => decide (σ i = .POSITIVE))).length⟩

/-- Modelled from the spec: the state after construction for a layout of `n` sites with
inter-site potentials `v` and the hierarchy `top` whose leaves carry the site index as uid. The
members come from the constructor of `ground_state_space`; the leaf data come from
`initialize_singleton_cluster_charge_space` and the store constructor, which are not among the
sources: with the two extremal received potentials of the site (all other sites positive, all
other sites negative) as received bounds, a leaf "seeds its charge space with the subset of
{negative, neutral, positive} consistent with those extremes under the predicates". The store of
a leaf onto a site is built from the potential between the two sites alone, as the loop of
`get_initial_clustering` builds it, whatever the charge space of the leaf holds: it has the
potential for the negative state, `0` for the neutral state and minus the potential for the
positive state, and `0` for every state onto the own site. -/
def initial_state (n : Nat) (v : Nat → Nat → Pot) (mu : Pot × Pot × Pot × Pot) (T : Nat)
    (top : sidb_cluster) : ground_state_space :=
  { top_cluster := top,
    clustering := ground_state_space.get_initial_clustering top,
    terminate := false,
    witness_partitioning_max_cluster_size := T,
    mu_bounds_with_error := mu,
    data := fun u =>
      if u < n then
        let tot := (List.range n).foldl (fun acc j => if j = u then acc else acc + v u j) 0
        let states :=
          [sidb_charge_state.NEGATIVE, .NEUTRAL, .POSITIVE].filter (fun cs =>
            match cs with
            | .NEGATIVE => !fail_onto_negative_charge mu (-tot)
            | .POSITIVE => !fail_onto_positive_charge mu tot
            | .NEUTRAL =>
              !ub_fail_onto_neutral_charge mu tot && !lb_fail_onto_neutral_charge mu (-tot))
        { charge_space := states.map (fun cs => ⟨singleton_multiset cs, []⟩),
          pot_projs := fun j =>
            if j < n then
              potential_projection_order.add ⟨if j = u then 0 else v u j, neg1⟩
                (potential_projection_order.add ⟨0, neut1⟩
                  (potential_projection_order.add ⟨-(if j = u then 0 else v u j), pos1⟩ []))
            else [],
          recv_ext_pot_bounds := fun j => if j = u then (-tot, tot) else (0, 0) }
      else
        { charge_space := [], pot_projs := fun _ => [], recv_ext_pot_bounds := fun _ => (0, 0) } }

/-- The screened Coulomb potentials `(k e / d) exp(-d / λ_TF) / ε_r` between five SiDBs at the
cells `(2, 0, 0)`, `(4, 0, 0)`, `(3, 1, 1)`, `(5, 1, 1)` and `(3, 2, 1)` of the H-Si lattice
(positions `(0.384 x, 0.768 y + 0.225 z)` in nm), for `ε_r = 3` and `λ_TF = 2 nm`, in units of
`1e-6 V`, indexed by the sites in this order. -/
def star_potentials (i j : Nat) : Pot :=
  (([[0, 425697, 264747, 147526, 108144],
     [425697, 0, 264747, 264747, 108144],
     [264747, 264747, 0, 425697, 425697],
     [147526, 264747, 425697, 0, 256748],
     [108144, 108144, 425697, 256748, 0]] : List (List Pot)).getD i []).getD j 0

/-- Band edges for `mu_minus = 0.67`, `mu_plus = 0.08` and `POP_STABILITY_ERR = 1e-6`, in units
of `1e-6`. -/
def star_mu : Pot × Pot × Pot × Pot := (-669999, -670001, -79999, -80001)

/-- The hierarchy of the five sites that merges the closest clusters first: the sites 0 and 1,
the sites 2 and 3, then site 4 with the latter, then both. -/
def star_top : sidb_cluster :=
  .node 8 [0, 1, 2, 3, 4] (.node 5 [0, 1] (.leaf 0 [0]) (.leaf 1 [1]))
    (.node 7 [2, 3, 4] (.leaf 4 [4]) (.node 6 [2, 3] (.leaf 2 [2]) (.leaf 3 [3])))

/-- The state after construction for the five sites with threshold `T`. -/
def star_state (T : Nat) : ground_state_space :=
  initial_state 5 star_potentials star_mu T star_top

/-- The assignment positive, neutral, negative, positive, positive to the sites 0 to 4. -/
def star_assignment (i : Nat) : sidb_charge_state :=
  if i = 1 then .NEUTRAL else if i = 2 then .NEGATIVE else .POSITIVE

/-- The multisets of the charge space of the top cluster after the run, when it terminates. -/
def top_multisets_after_run (nxt : next_extremal_op) (g : ground_state_space) :
    Option (List multiset_conf) :=
  (ground_state_space.run_loop nxt 10 10 g).bind (fun g1 =>
    if g1.terminate then some ((g1.data g1.top_cluster.uid).charge_space.map (fun e => e.multiset))
    else none)

/-- The first `k` iterations of the outer loop of `run`. -/
def run_iterations (nxt : next_extremal_op) (inner_fuel : Nat) :
    Nat → ground_state_space → Option ground_state_space
  | 0, g => some g
  | k + 1, g =>
    (ground_state_space.run_iteration nxt inner_fuel g).bind (run_iterations nxt inner_fuel k)

/-- The triples `(n-, n0, n+)` of natural numbers with sum `N`. -/
def multisets_of_size (N : Nat) : List multiset_conf :=
  (List.range (N + 1)).flatMap (fun a => (List.range (N + 1 - a)).map (fun b => ⟨a, b, N - a - b⟩))

/-- The multiset `x` is rejected when it is tested: in the first loop of `check_charge_space`
for the cluster `c`, run over the entries `cs` from the state `g` on, the analysis returns false
for an entry with the multiset `x`, in the state in which the loop reaches that entry. -/
inductive rejected_when_tested (nxt : next_extremal_op) (c : sidb_cluster) :
    ground_state_space → List sidb_cluster_charge_state → multiset_conf → Prop
  | here (g : ground_state_space) (e : sidb_cluster_charge_state)
      (rest : List sidb_cluster_charge_state) :
      g.perform_potential_bound_analysis .ANALYZE_MULTISET c e.multiset none = some false →
      rejected_when_tested nxt c g (e :: rest) e.multiset
  | after_accepted (g : ground_state_space) (e : sidb_cluster_charge_state)
      (rest : List sidb_cluster_charge_state) (x : multiset_conf) :
      g.perform_potential_bound_analysis .ANALYZE_MULTISET c e.multiset none = some true →
      rejected_when_tested nxt c g rest x → rejected_when_tested nxt c g (e :: rest) x
  | after_rejected (g g1 : ground_state_space) (e : sidb_cluster_charge_state)
      (rest : List sidb_cluster_charge_state) (x : multiset_conf) :
      g.perform_potential_bound_analysis .ANALYZE_MULTISET c e.multiset none = some false →
      g.handle_invalid_state nxt c e.multiset = some g1 →
      rejected_when_tested nxt c g1 rest x → rejected_when_tested nxt c g (e :: rest) x

/-- The multiset `x` of the cluster with uid `u` is rejected when it is tested in the pass of
`update_charge_spaces` over the clusters `cl` from the state `g` on: the pass reaches a cluster
with uid `u` that is not skipped and whose charge space does not have exactly one element, and
the loop of `check_charge_space` over its charge space rejects `x`. -/
inductive rejected_in_pass (nxt : next_extremal_op) (skip_cluster : Option Nat) :
    ground_state_space → List sidb_cluster → Nat → multiset_conf → Prop
  | here (g : ground_state_space) (c : sidb_cluster) (rest : List sidb_cluster)
      (x : multiset_conf) :
      (skip_cluster = none ∨ skip_cluster ≠ some c.uid) →
      (g.data c.uid).charge_space.length ≠ 1 →
      rejected_when_tested nxt c g (g.data c.uid).charge_space x →
      rejected_in_pass nxt skip_cluster g (c :: rest) c.uid x
  | later (g g1 : ground_state_space) (c : sidb_cluster) (rest : List sidb_cluster)
      (fixpoint fixpoint1 : Bool) (u : Nat) (x : multiset_conf) :
      ground_state_space.update_charge_spaces_step nxt skip_cluster (fixpoint, g) c
        = some (fixpoint1, g1) →
      rejected_in_pass nxt skip_cluster g1 rest u x →
      rejected_in_pass nxt skip_cluster g (c :: rest) u x

/-- The number of sites that a multiset counts. -/
def multiset_conf.total (m : multiset_conf) : Nat := m.neg + m.neut + m.pos

/-- Every multiset of the charge space of every cluster of the hierarchy counts as many sites as
the cluster has. -/
def charge_spaces_sized (top : sidb_cluster) (g : ground_state_space) : Prop :=
  ∀ c ∈ top.nodes, ∀ e ∈ (g.data c.uid).charge_space, e.multiset.total = c.size

/-- The charge spaces of a state after construction for the hierarchy `top`: the clustering is
the initial one, the charge space of a cluster with children is empty, every multiset of the
charge space of a leaf counts one site, and no charge space holds a multiset twice. -/
def after_construction (top : sidb_cluster) (g : ground_state_space) : Prop :=
  g.top_cluster = top ∧ g.clustering = ground_state_space.get_initial_clustering top
    ∧ (∀ c ∈ top.nodes, c.children ≠ [] → (g.data c.uid).charge_space = [])
    ∧ (∀ c ∈ top.nodes, c.children = [] →
        ∀ e ∈ (g.data c.uid).charge_space, e.multiset.total = 1)
    ∧ ∀ c ∈ top.nodes, ((g.data c.uid).charge_space.map (fun e => e.multiset)).Nodup

/-- The states of a run from the state `g0` on: the state itself and every state reached by a
pruning pass `update_charge_spaces()` or by `move_up_hierarchy`, the two calls of `run`. -/
inductive run_reaches (nxt : next_extremal_op) (g0 : ground_state_space) :
    ground_state_space → Prop
  | start : run_reaches nxt g0 g0
  | prune (g g1 : ground_state_space) (r : Bool) :
      run_reaches nxt g0 g → g.update_charge_spaces nxt none = some (r, g1) →
      run_reaches nxt g0 g1
  | move_up (g g1 : ground_state_space) :
      run_reaches nxt g0 g → g.move_up_hierarchy nxt = some g1 → run_reaches nxt g0 g1

/-- The invariant of the charge spaces along a run over the hierarchy `top`: the clustering is a
frontier, the clusters that are in no subtree of a frontier cluster have an empty charge space,
every multiset counts the sites of its cluster, and no charge space holds a multiset twice. -/
def charge_space_invariant (top : sidb_cluster) (g : ground_state_space) : Prop :=
  g.top_cluster = top ∧ is_frontier top g.clustering
    ∧ (∀ c ∈ top.nodes, (∀ f ∈ g.clustering, c ∉ f.nodes) → (g.data c.uid).charge_space = [])
    ∧ charge_spaces_sized top g
    ∧ ∀ c ∈ top.nodes, ((g.data c.uid).charge_space.map (fun e => e.multiset)).Nodup

/-- The hierarchy of a layout without sites: one cluster without sites and without children. -/
def empty_layout_top : sidb_cluster := .leaf 0 []

/-- The state after construction for a layout without sites: the clustering is the initial
clustering of `empty_layout_top`, and no charge space, store or received bound has been
initialised. -/
def empty_layout_state : ground_state_space :=
  { top_cluster := empty_layout_top,
    clustering := ground_state_space.get_initial_clustering empty_layout_top,
    terminate := false,
    witness_partitioning_max_cluster_size := default_max_cluster_size_for_witness_partitioning,
    mu_bounds_with_error := example_mu,
    data := fun _ =>
      { charge_space := [], pot_projs := fun _ => [], recv_ext_pot_bounds := fun _ => (0, 0) } }

/-- The number of charge-space elements of the frontier clusters. -/
def frontier_charge_states (g : ground_state_space) : Nat :=
  (g.clustering.map (fun c => (g.data c.uid).charge_space.length)).sum

/-- A budget of pruning passes for the inner loop of `run` over a hierarchy with `N` sites: one
more than `N` times the number of multisets of `N` sites. -/
def pass_budget (N : Nat) : Nat := N * ((N + 1) * (N + 2) / 2) + 1

/-- The member initialiser of `mu_bounds_with_error` in the constructor of `ground_state_space`,
for the tolerance `physical_constants::POP_STABILITY_ERR` and the two transition levels
`phys_params.mu_minus` and `phys_params.mu_plus()`: the band edges `e_n_upper`, `e_n_lower`,
`e_p_upper` and `e_p_lower`, in this order. -/
def mu_bounds_with_error_init (POP_STABILITY_ERR mu_minus mu_plus : Pot) :
    Pot × Pot × Pot × Pot :=
  (POP_STABILITY_ERR - mu_minus, -POP_STABILITY_ERR - mu_minus,
    POP_STABILITY_ERR - mu_plus, -POP_STABILITY_ERR - mu_plus)
/-- The receptor states that `handle_invalid_state` visits for a projecting cluster with uid `u`:
the sites of the clusters of the clustering with another uid, in the order of the two loops. -/
def receptor_states (u : Nat) (clustering : List sidb_cluster) : List (sidb_cluster × Nat) :=
  (clustering.filter (fun c => decide (c.uid ≠ u))).flatMap (fun rc => rc.sidbs.map (Prod.mk rc))

/-- The call `update_external_potential_projection` for the projector state `(pc, pm)` and a
receptor state is defined on the store `s` of `pc` onto the site: the store has an extremal entry
in either direction, and the store operation `nxt` returns an entry where that extremal entry is
tagged `pm`. -/
def propagation_defined (nxt : next_extremal_op) (pm : multiset_conf)
    (s : potential_projection_order) : Prop :=
  ∀ b, ∃ cur, potential_projection_order.get b s = some cur
    ∧ (cur.M = pm → (nxt b s).isSome = true)

/-- The change that `update_external_potential_projection` for the removed tag `pm` makes to a
received bound in direction `b`, from the value `old` to the value `new`, read off the store `s`
of the projecting cluster onto the site before any entry is removed: the potential of the next
extremal entry minus that of the current one when the current one is tagged `pm`, and no change
otherwise. -/
def propagated_change (nxt : next_extremal_op) (pm : multiset_conf) (b : bound_direction)
    (s : potential_projection_order) (old new : Pot) : Prop :=
  ∃ cur, potential_projection_order.get b s = some cur
    ∧ (cur.M = pm → ∃ nx, nxt b s = some nx ∧ new = old + (nx.V - cur.V))
    ∧ (cur.M ≠ pm → new = old)

/-- The bounds that the composition lends to the child state `s` at the site `i` when only the
other child states contribute: the sums, over the child states of the composition other than
`s`, of their LOWER and their UPPER per-multiset projections onto `i`. -/
def other_children_bounds (g : ground_state_space) (comp : sidb_cluster_state_composition)
    (s : sidb_cluster_state) (i : Nat) : Option (Pot × Pot) :=
  composition_sums g (comp.filter (fun cst => decide (cst.key ≠ s.key))) i

/-- The potentials `vs` are, child state by child state, the potentials of the per-multiset
projections in direction `b` of the child states of the composition onto the site `i`. -/
def projections_of_children (g : ground_state_space) (b : bound_direction) (i : Nat)
    (comp : sidb_cluster_state_composition) (vs : List Pot) : Prop :=
  List.Forall₂
    (fun cst v => ∃ pp, g.get_proj_state_bound b cst.cluster cst.multiset i = some pp ∧ pp.V = v)
    comp vs

/-- The cluster of the sites 0 and 2 in the hierarchy `three_leaf_top`. -/
def three_leaf_pair : sidb_cluster := .node 3 [0, 2] (.leaf 0 [0]) (.leaf 2 [2])
/-- The intra-composition bounds `(lower, upper)` attached at the site `i` to the child states of
the compositions, composition by composition. -/
def attached_bounds_at (i : Nat) (compositions : List sidb_cluster_state_composition) :
    List (Pot × Pot) :=
  compositions.flatMap (fun comp => comp.filterMap (fun cst => cst.internal_pot_bounds.at i))

/-- The running meet `a` in direction `b` is the meet of the values `xs`: still
`potential_bound_top` when there is no value, and otherwise one of the values, the least one for
LOWER and the greatest one for UPPER. -/
def is_meet (b : bound_direction) (xs : List Pot) (a : Option Pot) : Prop :=
  match a with
  | none => xs = []
  | some v => v ∈ xs ∧ ∀ x ∈ xs, match b with
    | .LOWER => v ≤ x
    | .UPPER => x ≤ v

/-- The compositions of all elements of the charge space of the cluster with uid `pu`, element by
element. -/
def compositions_at (g : ground_state_space) (pu : Nat) : List sidb_cluster_state_composition :=
  (g.data pu).charge_space.flatMap (fun m => m.compositions)

/-- The entries that the first loop of `merge_pot_proj_bounds<bound>` computes for the parent
with uid `pu` and the site `i`: for every composition of every element of the charge space, the
sum of the per-multiset projections of its child states onto the site. -/
def merged_entries (g : ground_state_space) (b : bound_direction) (pu i : Nat) :
    List potential_projection :=
  (compositions_at g pu).filterMap (fun comp => g.sum_composition_projections b i comp)

/-- An implementation of the operations on a singleton cluster: the charge space receives the
three states of one site, the received bounds at the site are the two local potentials, and the
store built from the potential `v` holds the projection `v` of the negative state, `0` of the
neutral state and `-v` of the positive state. -/
def three_state_ops : singleton_cluster_ops :=
  { initialize_singleton_cluster_charge_space := fun i loc_pot_min loc_pot_max d =>
      { d with
        charge_space := [⟨neg1, []⟩, ⟨neut1, []⟩, ⟨pos1, []⟩],
        recv_ext_pot_bounds := Function.update d.recv_ext_pot_bounds i (loc_pot_min, loc_pot_max) },
    potential_projection_order_of := fun v =>
      potential_projection_order.add ⟨v, neg1⟩
        (potential_projection_order.add ⟨0, neut1⟩
          (potential_projection_order.add ⟨-v, pos1⟩ [])) }

/-- The two containers of local potential bounds for two sites at potential `0.4` of each other:
the local potential is `-0.4` with all sites positive and `0.4` with all sites negative. -/
def two_site_containers : charge_distribution_surface × charge_distribution_surface :=
  ({ num_cells := 2,
     get_local_potential_by_index := fun i => if i < 2 then some (-400000) else none,
     get_potential_by_indices := fun i j => if i = j then 0 else 400000 },
   { num_cells := 2,
     get_local_potential_by_index := fun i => if i < 2 then some 400000 else none,
     get_potential_by_indices := fun i j => if i = j then 0 else 400000 })

/-- Mutable members of a cluster before any initialisation. -/
def blank_data : Nat → cluster_data :=
  fun _ => { charge_space := [], pot_projs := fun _ => [], recv_ext_pot_bounds := fun _ => (0, 0) }

/-- A command whose permittivity has been set to `0`, with a store of one layout and a pending
call record. -/
def zero_permittivity_command : alice.quickexact_command :=
  { physical_params := ⟨2, -32 / 100, 0, 5⟩,
    params := ⟨⟨3, -32 / 100, 56 / 10, 5⟩, 1⟩,
    sim_result := ⟨[⟨"old", -1⟩]⟩,
    sim_result_111 := ⟨[]⟩,
    min_energy := some (-1),
    store := ⟨[⟨"lyt", .sidb_lattice_100⟩], 0⟩,
    out := "",
    quickexact_calls := [] }

/-- The child state `s1` is the child state `s` of the composition with the bounds of
`verify_composition` attached: it names the same projector state, it holds at every site of its
cluster the pair of the sums, over all child states of the composition, of their LOWER and of
their UPPER per-multiset projections onto the site, and at every other site what `s` holds. -/
def bounds_attached (g : ground_state_space) (comp : sidb_cluster_state_composition)
    (s s1 : sidb_cluster_state) : Prop :=
  s1.key = s.key
    ∧ (∀ j, j ∉ s.cluster.sidbs → s1.internal_pot_bounds.at j = s.internal_pot_bounds.at j)
    ∧ ∀ j ∈ s.cluster.sidbs, ∃ los his, projections_of_children g .LOWER j comp los
        ∧ projections_of_children g .UPPER j comp his
        ∧ s1.internal_pot_bounds.at j = some (los.sum, his.sum)

/-- The states that the inner loop `while (!update_charge_spaces());` of `run` passes through
when it starts in the state `g0`: the state itself and every state left by a pass that returns
false. -/
inductive pruning_reaches (nxt : next_extremal_op) (g0 : ground_state_space) :
    ground_state_space → Prop
  | start : pruning_reaches nxt g0 g0
  | pass (g g1 : ground_state_space) :
      pruning_reaches nxt g0 g → g.update_charge_spaces nxt none = some (false, g1) →
      pruning_reaches nxt g0 g1

/-- The state after `k` pruning passes `update_charge_spaces()` from the state `g` on; a pass
that is undefined leaves the state as it is. -/
def after_passes (nxt : next_extremal_op) : Nat → ground_state_space → ground_state_space
  | 0, g => g
  | k + 1, g =>
    match (after_passes nxt k g).update_charge_spaces nxt none with
    | none => after_passes nxt k g
    | some (_, g1) => g1

/-- A command with the default parameters on a store of two layouts, `a` of the lattice
orientation H-Si(100) and `b` of the lattice orientation H-Si(111), the latter being the
current one. -/
def two_orientation_command : alice.quickexact_command :=
  { physical_params := ⟨2, -32 / 100, 56 / 10, 5⟩,
    params := ⟨⟨2, -32 / 100, 56 / 10, 5⟩, 0⟩,
    sim_result := ⟨[]⟩,
    sim_result_111 := ⟨[]⟩,
    min_energy := none,
    store := ⟨[⟨"a", .sidb_lattice_100⟩, ⟨"b", .sidb_lattice_111⟩], 1⟩,
    out := "",
    quickexact_calls := [] }

/-- A simulation that finds one charge distribution on a layout of the lattice orientation
H-Si(111) and none on any other layout. -/
def simulate_111_only (lyt : alice.cell_layout) (_ : alice.quickexact_params) :
    alice.sidb_simulation_result :=
  if lyt.kind = .sidb_lattice_111 then ⟨[⟨lyt.name, -1⟩]⟩ else ⟨[]⟩

/-- The command after the element with index `i` of the store has been made the current one. -/
def select_layout (i : Nat) (cmd : alice.quickexact_command) : alice.quickexact_command :=
  { cmd with store := { cmd.store with current := i } }

/-- The command `two_orientation_command` after `execute` has simulated the layout `b`: the
charge distribution found is in `sim_result_111` and, as a new element, in the store. -/
def after_111_command : alice.quickexact_command :=
  { physical_params := ⟨2, -32 / 100, 56 / 10, 5⟩,
    params := ⟨⟨2, -32 / 100, 56 / 10, 5⟩, 0⟩,
    sim_result := ⟨[]⟩,
    sim_result_111 := ⟨[⟨"b", -1⟩]⟩,
    min_energy := some (-1),
    store := ⟨[⟨"a", .sidb_lattice_100⟩, ⟨"b", .sidb_lattice_111⟩,
      ⟨"b", .charge_distribution_surface⟩], 2⟩,
    out := "",
    quickexact_calls := [(⟨"b", .sidb_lattice_111⟩, ⟨⟨2, -32 / 100, 56 / 10, 5⟩, 0⟩)] }

/-- The free witnesses of a witness set: its sites that lie in neither competing set. -/
def free_witnesses (this_set c1 c2 : List Nat) : List Nat :=
  this_set.filter (fun x => decide (x ∉ c1 ∧ x ∉ c2))

/-- Received bounds of a three-site cluster: the sites 0 and 1 receive `[0, 0.1]`, the site 2
receives `[0.5, 1]`. -/
def crowded_negative_bounds : Nat → Option (Pot × Pot) :=
  fun i => if i = 2 then some (500000, 1000000) else some (0, 100000)

/-- A witness state of a three-site cluster for the multiset of two neutral and one positive
site: the sites 1 and 2 witness positive and neutral, no site witnesses negative. -/
def positive_backtrack_state : witness_partitioning_state := ⟨[], [1, 2], [1, 2], 0, 1, 2⟩

/-- A witness state of a two-site cluster for the multiset of one negative and one neutral site:
the site 0 witnesses negative and neutral, no site witnesses positive. -/
def negative_backtrack_state : witness_partitioning_state := ⟨[0], [], [0], 1, 0, 1⟩

/-- What the removal of a state of the cluster with uid `pu` leaves as it is, from the state `g`
to the state `g1`: the clustering, the charge spaces, every store other than those of the
projecting cluster onto the sites of the other clusters of the clustering, and every received
bound other than those of the other clusters of the clustering at their sites. -/
def removal_frame (pu : Nat) (g g1 : ground_state_space) : Prop :=
  g1.clustering = g.clustering ∧ same_charge_spaces g g1
    ∧ (∀ u j, (u ≠ pu ∨ ∀ rc ∈ g.clustering, rc.uid ≠ pu → j ∉ rc.sidbs) →
        (g1.data u).pot_projs j = (g.data u).pot_projs j)
    ∧ ∀ u j, (∀ rc ∈ g.clustering, rc.uid ≠ pu → rc.uid = u → j ∉ rc.sidbs) →
        (g1.data u).recv_ext_pot_bounds j = (g.data u).recv_ext_pot_bounds j

/-- The cluster of the sites 0 and 1 in the hierarchy `star_top`. -/
def star_left : sidb_cluster := .node 5 [0, 1] (.leaf 0 [0]) (.leaf 1 [1])

/-- The cluster of the sites 2, 3 and 4 in the hierarchy `star_top`. -/
def star_right : sidb_cluster :=
  .node 7 [2, 3, 4] (.leaf 4 [4]) (.node 6 [2, 3] (.leaf 2 [2]) (.leaf 3 [3]))

/-- The state of the run from `star_state 6` in which `move_up_hierarchy` builds the top
cluster: the state after three iterations of the outer loop of `run` and the pruning passes of
the fourth iteration. -/
def star_before_top (nxt : next_extremal_op) : Option ground_state_space :=
  (run_iterations nxt 10 3 (star_state 6)).bind (ground_state_space.prune_to_fixpoint nxt 10)

/-- The removal propagation `handle_invalid_state` for the projector state `(pc, pm)`, run over
the receptor states `l` from the state `g` on, reads a store entry that is not there: for a
receptor state, in the state in which the loops reach it, the store of `pc` onto the site has no
extremal entry in a direction, or the extremal entry is tagged `pm` and the store operation
`nxt` has no entry to return. -/
inductive removal_reads_undefined (nxt : next_extremal_op) (pc : sidb_cluster)
    (pm : multiset_conf) : ground_state_space → List (sidb_cluster × Nat) → Prop
  | here (g : ground_state_space) (p : sidb_cluster × Nat) (rest : List (sidb_cluster × Nat)) :
      ¬ propagation_defined nxt pm ((g.data pc.uid).pot_projs p.2) →
      removal_reads_undefined nxt pc pm g (p :: rest)
  | later (g g1 : ground_state_space) (p : sidb_cluster × Nat)
      (rest : List (sidb_cluster × Nat)) :
      g.update_external_potential_projection nxt pc pm p.1 p.2 = some g1 →
      removal_reads_undefined nxt pc pm g1 rest →
      removal_reads_undefined nxt pc pm g (p :: rest)

/-- The first loop of `check_charge_space` for the cluster `c`, run over the entries `cs` from the
state `g` on, reads a value that is not there: for an entry, in the state in which the loop
reaches it, `get_received_potential_bounds` is undefined at a site of `c`, or the analysis
rejects the entry and the removal propagation reads a store entry that is not there. The
partition search of the analysis does not occur: it always returns. -/
inductive check_reads_undefined (nxt : next_extremal_op) (c : sidb_cluster) :
    ground_state_space → List sidb_cluster_charge_state → Prop
  | bounds (g : ground_state_space) (e : sidb_cluster_charge_state)
      (rest : List sidb_cluster_charge_state) (i : Nat) :
      i ∈ c.sidbs →
      g.get_received_potential_bounds .ANALYZE_MULTISET c e.multiset none i = none →
      check_reads_undefined nxt c g (e :: rest)
  | removal (g : ground_state_space) (e : sidb_cluster_charge_state)
      (rest : List sidb_cluster_charge_state) :
      g.perform_potential_bound_analysis .ANALYZE_MULTISET c e.multiset none = some false →
      removal_reads_undefined nxt c e.multiset g (receptor_states c.uid g.clustering) →
      check_reads_undefined nxt c g (e :: rest)
  | after_accepted (g : ground_state_space) (e : sidb_cluster_charge_state)
      (rest : List sidb_cluster_charge_state) :
      g.perform_potential_bound_analysis .ANALYZE_MULTISET c e.multiset none = some true →
      check_reads_undefined nxt c g rest →
      check_reads_undefined nxt c g (e :: rest)
  | after_rejected (g g1 : ground_state_space) (e : sidb_cluster_charge_state)
      (rest : List sidb_cluster_charge_state) :
      g.perform_potential_bound_analysis .ANALYZE_MULTISET c e.multiset none = some false →
      g.handle_invalid_state nxt c e.multiset = some g1 →
      check_reads_undefined nxt c g1 rest →
      check_reads_undefined nxt c g (e :: rest)

/-- The loop of `update_charge_spaces(skip_cluster)`, run over the clusters `cl` from the state
`g` on, reads a value that is not there: for a cluster that is not skipped and whose charge space
does not hold exactly one element, the first loop of `check_charge_space` does, in the state in
which the pass reaches the cluster. -/
inductive pass_reads_undefined (nxt : next_extremal_op) (skip_cluster : Option Nat) :
    ground_state_space → List sidb_cluster → Prop
  | here (g : ground_state_space) (c : sidb_cluster) (rest : List sidb_cluster) :
      (skip_cluster = none ∨ skip_cluster ≠ some c.uid) →
      (g.data c.uid).charge_space.length ≠ 1 →
      check_reads_undefined nxt c g (g.data c.uid).charge_space →
      pass_reads_undefined nxt skip_cluster g (c :: rest)
  | later (g g1 : ground_state_space) (c : sidb_cluster) (rest : List sidb_cluster)
      (fixpoint fixpoint1 : Bool) :
      ground_state_space.update_charge_spaces_step nxt skip_cluster (fixpoint, g) c
        = some (fixpoint1, g1) →
      pass_reads_undefined nxt skip_cluster g1 rest →
      pass_reads_undefined nxt skip_cluster g (c :: rest)

/-- The state of the run from `star_state 6` after four iterations of the outer loop: the five
sites are merged into the top cluster, whose charge space has not been checked yet. -/
def star_merged (nxt : next_extremal_op) : ground_state_space :=
  (run_iterations nxt 10 4 (star_state 6)).getD (star_state 6)


/-- A sum of `verify_composition` that the merge into the parent may read is not there: for a
pair of elements of the charge spaces of the two children and a site of the children, the sum of
the projections of the two child states onto the site is undefined in a direction
(`get_proj_state_bound` on a store without an entry for the multiset). -/
def composition_reads_undefined (g : ground_state_space) : sidb_cluster → Prop
  | .leaf _ _ => False
  | .node _ _ l r =>
    ∃ el ∈ (g.data l.uid).charge_space, ∃ er ∈ (g.data r.uid).charge_space,
      ∃ i ∈ l.sidbs ++ r.sidbs,
        composition_sums g [⟨l, el.multiset, []⟩, ⟨r, er.multiset, []⟩] i = none

instance (g : ground_state_space) (p : sidb_cluster) :
    Decidable (composition_reads_undefined g p) := by
  cases p <;> unfold composition_reads_undefined <;> infer_instance

/-- The part of `move_up_hierarchy` that builds the parent `p` reads a value that is not there:
one of `derive_children_recv_bounds_without_siblings`, `construct_merged_potential_projections`
and `compute_meets_for_internal_pot_bounds`, none of which calls the analysis, has no result in
the state in which the merge reaches it, or a sum of `verify_composition` is undefined. The
analysis inside `verify_composition` does not occur: it reads the bounds that the call has just
attached, and its partition search always returns. -/
def merge_reads_undefined (g : ground_state_space) (p : sidb_cluster) : Prop :=
  ({ g with clustering := ground_state_space.erase_children p.children g.clustering } :
      ground_state_space).derive_children_recv_bounds_without_siblings p = none
    ∨ ∃ g2, ({ g with clustering := ground_state_space.erase_children p.children g.clustering } :
          ground_state_space).derive_children_recv_bounds_without_siblings p = some g2
        ∧ (composition_reads_undefined g2 p
          ∨ ∃ g3, g2.construct_merged_charge_state_space p = some g3
              ∧ (g3.construct_merged_potential_projections p = none
                ∨ ∃ g4, g3.construct_merged_potential_projections p = some g4
                    ∧ g4.compute_meets_for_internal_pot_bounds p = none))

/-- The call `move_up_hierarchy` reads a value that is not there: on a clustering of another
size than one, the selection of the parent dereferences a parent that does not exist, or the
merge into the chosen parent or the pruning pass after it reads an undefined value. -/
def move_up_reads_undefined (nxt : next_extremal_op) (g : ground_state_space) : Prop :=
  g.clustering.length ≠ 1
    ∧ (g.select_min_parent = none
      ∨ ∃ p, g.select_min_parent = some p
          ∧ (merge_reads_undefined g p
            ∨ ∃ g6, g.merge_up p = some g6
                ∧ pass_reads_undefined nxt (some p.uid) g6 g6.clustering))

/-- The state after construction for two sites at the potential `0.32` of each other, with the
band edges `example_mu`: both leaves hold the negative and the neutral state. -/
def pair_start_state : ground_state_space :=
  initial_state 2 (fun _ _ => 320000) example_mu 6 two_leaf_top

/-- The state after `move_up_hierarchy` on `pair_start_state`: the two sites are merged into the
top cluster. -/
def pair_merged_state (nxt : next_extremal_op) : ground_state_space :=
  (pair_start_state.move_up_hierarchy nxt).getD pair_start_state

/-- Modelled from the spec: the two operations on a singleton cluster as section 4.4 describes
them, for the band edges `mu`. The method `initialize_singleton_cluster_charge_space` "seeds its
charge space with the subset of {negative, neutral, positive} consistent with those extremes
under the predicates" and binds the received bounds at the site to the two extremes; the store
constructor takes the potential alone, as its call in `get_initial_clustering` shows, and builds
the store of `three_state_ops`: the projection `v` of the negative state, `0` of the neutral
state and `-v` of the positive state. -/
def consistent_state_ops (mu : Pot × Pot × Pot × Pot) : singleton_cluster_ops :=
  { initialize_singleton_cluster_charge_space := fun i loc_pot_min loc_pot_max d =>
      { d with
        charge_space :=
          ([sidb_charge_state.NEGATIVE, .NEUTRAL, .POSITIVE].filter (fun cs =>
            match cs with
            | .NEGATIVE => !fail_onto_negative_charge mu loc_pot_min
            | .POSITIVE => !fail_onto_positive_charge mu loc_pot_max
            | .NEUTRAL =>
              !ub_fail_onto_neutral_charge mu loc_pot_max
                && !lb_fail_onto_neutral_charge mu loc_pot_min)).map
            (fun cs => ⟨singleton_multiset cs, []⟩),
        recv_ext_pot_bounds := Function.update d.recv_ext_pot_bounds i (loc_pot_min, loc_pot_max) },
    potential_projection_order_of := three_state_ops.potential_projection_order_of }

/-- The constructor of `ground_state_space` for the hierarchy `top`, the two containers of
`get_local_potential_bounds`, the threshold `T` and the band edges `mu`: the clustering and the
mutable members of the clusters come from `get_initial_clustering`, applied to clusters without
charge space, stores and received bounds. -/
def constructed_state (ops : singleton_cluster_ops)
    (local_potential_bound_containers : charge_distribution_surface × charge_distribution_surface)
    (top : sidb_cluster) (T : Nat) (mu : Pot × Pot × Pot × Pot) : Option ground_state_space :=
  (ground_state_space.get_initial_clustering_effect ops local_potential_bound_containers top
    blank_data).map (fun p =>
      { top_cluster := top,
        clustering := p.1,
        terminate := false,
        witness_partitioning_max_cluster_size := T,
        mu_bounds_with_error := mu,
        data := p.2 })

/-- Projection tagging up to the leftovers of the state `g0`: every entry of the store of a
frontier cluster of `g` onto a site of another frontier cluster is tagged with a multiset of the
charge space of the projecting cluster, or it is an entry of the same store in `g0` whose tag is
not in the charge space that the projecting cluster has in `g0`. -/
def tagged_or_leftover (g0 g : ground_state_space) : Prop :=
  ∀ c ∈ g.clustering, ∀ c1 ∈ g.clustering, c1.uid ≠ c.uid → ∀ j ∈ c1.sidbs,
    ∀ pp ∈ (g.data c.uid).pot_projs j,
      pp.M ∈ (g.data c.uid).charge_space.map (fun e => e.multiset)
        ∨ (pp ∈ (g0.data c.uid).pot_projs j
          ∧ pp.M ∉ (g0.data c.uid).charge_space.map (fun e => e.multiset))

instance (g0 g : ground_state_space) : Decidable (tagged_or_leftover g0 g) := by
  unfold tagged_or_leftover
  infer_instance

/-- The two containers that `get_local_potential_bounds` returns for a layout of `n` sites with
the inter-site potentials `v`, as far as `get_initial_clustering` reads them: the local potential
that the function negates is the sum of the potentials of the other sites in the container with
all sites positive and minus that sum in the container with all sites negative, and the
potential between a site and itself is `0`. The class `charge_distribution_surface` lies outside
this development. -/
def bound_containers (n : Nat) (v : Nat → Nat → Pot) :
    charge_distribution_surface × charge_distribution_surface :=
  ({ num_cells := n,
     get_local_potential_by_index := fun i =>
       if i < n then
         some ((List.range n).foldl (fun acc j => if j = i then acc else acc + v i j) 0)
       else none,
     get_potential_by_indices := fun i j => if j = i then 0 else v i j },
   { num_cells := n,
     get_local_potential_by_index := fun i =>
       if i < n then
         some (-(List.range n).foldl (fun acc j => if j = i then acc else acc + v i j) 0)
       else none,
     get_potential_by_indices := fun i j => if j = i then 0 else v i j })

/-- The state after construction for three sites at the potential `0.16` of one another, with
the band edges `example_mu` and the hierarchy `three_leaf_top`: every leaf holds the negative and
the neutral state. -/
def triple_start_state : ground_state_space :=
  initial_state 3 (fun _ _ => 160000) example_mu 6 three_leaf_top

/-! ## Theorems -/

/-- C2: a feasible multiset that the bound analysis rejects. On a five-site cluster with the
band edges `example_mu`, threshold 6 and the bounds `five_site_bounds`, the assignment
`five_site_assignment` puts every site into the witness set of its state and realises the
multiset `(1, 1, 3)`, yet `perform_potential_bound_analysis` returns false. -/
theorem perform_potential_bound_analysis_rejects_feasible :
    ∃ st, collect_witnesses example_mu five_site_bounds [0, 1, 2, 3, 4]
        (witness_partitioning_state.init ⟨1, 1, 3⟩) = some st
      ∧ (∀ i ∈ [0, 1, 2, 3, 4], in_witness_set st (five_site_assignment i) i)
      ∧ count_assigned five_site_assignment .NEGATIVE [0, 1, 2, 3, 4] = 1
      ∧ count_assigned five_site_assignment .NEUTRAL [0, 1, 2, 3, 4] = 1
      ∧ count_assigned five_site_assignment .POSITIVE [0, 1, 2, 3, 4] = 3
      ∧ perform_potential_bound_analysis_on example_mu 6 [0, 1, 2, 3, 4] five_site_bounds
          ⟨1, 1, 3⟩ = some false := by
  refine ⟨_, rfl, ?_, ?_, ?_, ?_, ?_⟩ <;> decide

/-- C3: the partition test is not exact. The witness state `overlapping_witnesses` passes the
cardinality test and the test accepts it although no partition exists; the witness state
`partitionable_witnesses` passes the cardinality test and has a partition although the test
rejects it. -/
theorem partition_test_not_exact :
    (passes_cardinality_test overlapping_witnesses
      ∧ partition_test overlapping_witnesses = some true
      ∧ ¬ has_witness_partition overlapping_witnesses)
    ∧ (passes_cardinality_test partitionable_witnesses
      ∧ partition_test partitionable_witnesses = some false
      ∧ has_witness_partition partitionable_witnesses) := by
  refine ⟨⟨by decide, by decide, ?_⟩, ⟨by decide, by decide, ?_⟩⟩
  · rintro ⟨A, B, C, -, hB, hC, -, hBc, hCc, -, -, hBC⟩
    have h1 : (B ∪ C).card = 3 := by
      rw [Finset.card_union_of_disjoint hBC, hBc, hCc]; rfl
    have h2 : (B ∪ C).card ≤ ([1, 2] : List Nat).toFinset.card :=
      Finset.card_le_card (Finset.union_subset hB hC)
    have h3 : ([1, 2] : List Nat).toFinset.card = 2 := by decide
    omega
  · exact ⟨{0}, {2}, {1}, by decide, by decide, by decide, by decide, by decide, by decide,
      by decide, by decide, by decide⟩

/-! ### Loops and frame conditions -/

theorem for_each_nil {α σ : Type} (step : σ → α → Option σ) (s : σ) :
    for_each step [] s = some s := rfl

theorem for_each_cons {α σ : Type} (step : σ → α → Option σ) (x : α) (xs : List α) (s : σ) :
    for_each step (x :: xs) s = (step s x).bind (for_each step xs) := by
  cases h : step s x <;> simp [for_each, h]

theorem for_each_cons_some {α σ : Type} {step : σ → α → Option σ} {x : α} {xs : List α}
    {s s2 : σ} (h : for_each step (x :: xs) s = some s2) :
    ∃ s1, step s x = some s1 ∧ for_each step xs s1 = some s2 := by
  rw [for_each_cons] at h
  cases h1 : step s x with
  | none => rw [h1] at h; simp at h
  | some s1 => rw [h1] at h; exact ⟨s1, rfl, by simpa using h⟩

/-- A relation that is reflexive, transitive and established by every step of a loop holds
between the initial and the final loop state. -/
theorem for_each_rel {α σ : Type} (step : σ → α → Option σ) (R : σ → σ → Prop)
    (hrefl : ∀ s, R s s) (htrans : ∀ a b c, R a b → R b c → R a c) :
    ∀ (l : List α), (∀ s x s1, x ∈ l → step s x = some s1 → R s s1) →
      ∀ s s1, for_each step l s = some s1 → R s s1 := by
  intro l
  induction l with
  | nil =>
    intro _ s s1 h
    simp only [for_each, Option.some.injEq] at h
    subst h
    exact hrefl s
  | cons x xs ih =>
    intro hstep s s2 h
    obtain ⟨s1, h1, h2⟩ := for_each_cons_some h
    exact htrans _ _ _ (hstep s x s1 (List.mem_cons_self _ _) h1)
      (ih (fun s x s1 hx => hstep s x s1 (List.mem_cons_of_mem _ hx)) s1 s2 h2)

/-- A predicate kept by every step of a loop is kept by the loop. -/
theorem for_each_inv {α σ : Type} (step : σ → α → Option σ) (P : σ → Prop) :
    ∀ (l : List α), (∀ s x s1, x ∈ l → P s → step s x = some s1 → P s1) →
      ∀ s s1, P s → for_each step l s = some s1 → P s1 := by
  intro l
  induction l with
  | nil =>
    intro _ s s1 hP h
    simp only [for_each, Option.some.injEq] at h
    subst h
    exact hP
  | cons x xs ih =>
    intro hstep s s2 hP h
    obtain ⟨s1, h1, h2⟩ := for_each_cons_some h
    exact ih (fun s x s1 hx => hstep s x s1 (List.mem_cons_of_mem _ hx)) s1 s2
      (hstep s x s1 (List.mem_cons_self _ _) hP h1) h2

namespace ground_state_space

theorem same_static_refl (g : ground_state_space) : same_static g g :=
  ⟨rfl, rfl, rfl, rfl, rfl⟩

theorem same_static_trans (a b c : ground_state_space) (h1 : same_static a b)
    (h2 : same_static b c) : same_static a c := by
  obtain ⟨a1, a2, a3, a4, a5⟩ := h1
  obtain ⟨b1, b2, b3, b4, b5⟩ := h2
  exact ⟨b1.trans a1, b2.trans a2, b3.trans a3, b4.trans a4, b5.trans a5⟩

theorem same_static_modify (g : ground_state_space) (u : Nat) (f : cluster_data → cluster_data) :
    same_static g (g.modify u f) := ⟨rfl, rfl, rfl, rfl, rfl⟩

theorem same_static_for_each {α : Type} (step : ground_state_space → α → Option ground_state_space)
    (l : List α) (h : ∀ s x s1, x ∈ l → step s x = some s1 → same_static s s1)
    (g g1 : ground_state_space) (hg : for_each step l g = some g1) : same_static g g1 :=
  for_each_rel step same_static same_static_refl same_static_trans l h g g1 hg

theorem same_static_if_bound_removed (nxt : next_extremal_op) (b : bound_direction)
    (g g1 : ground_state_space) (pc : sidb_cluster) (pm : multiset_conf) (rc : sidb_cluster)
    (sidb_ix : Nat)
    (h : update_external_pot_proj_if_bound_removed nxt b g pc pm rc sidb_ix = some g1) :
    same_static g g1 := by
  unfold update_external_pot_proj_if_bound_removed at h
  split at h
  · simp at h
  · split at h
    · split at h
      · simp at h
      · simp only [Option.some.injEq] at h
        subst h
        exact ⟨rfl, rfl, rfl, rfl, rfl⟩
    · simp only [Option.some.injEq] at h
      subst h
      exact same_static_refl _

theorem same_static_update_external (nxt : next_extremal_op) (g g1 : ground_state_space)
    (pc : sidb_cluster) (pm : multiset_conf) (rc : sidb_cluster) (sidb_ix : Nat)
    (h : update_external_potential_projection nxt g pc pm rc sidb_ix = some g1) :
    same_static g g1 := by
  unfold update_external_potential_projection at h
  split at h
  · simp at h
  · rename_i g2 h2
    split at h
    · simp at h
    · rename_i g3 h3
      simp only [Option.some.injEq] at h
      subst h
      exact same_static_trans _ _ _ (same_static_if_bound_removed _ _ _ _ _ _ _ _ h2)
        (same_static_trans _ _ _ (same_static_if_bound_removed _ _ _ _ _ _ _ _ h3)
          ⟨rfl, rfl, rfl, rfl, rfl⟩)

theorem same_static_handle_invalid_state (nxt : next_extremal_op) (g g1 : ground_state_space)
    (pc : sidb_cluster) (pm : multiset_conf) (h : g.handle_invalid_state nxt pc pm = some g1) :
    same_static g g1 := by
  refine same_static_for_each _ _ ?_ g g1 h
  intro s x s1 _ hs
  unfold handle_invalid_state_step at hs
  split at hs
  · simp only [Option.some.injEq] at hs
    subst hs
    exact same_static_refl _
  · exact same_static_for_each _ _
      (fun a i a1 _ ha => same_static_update_external nxt a a1 pc pm x i ha) s s1 hs

theorem same_static_erase_removed (c : sidb_cluster) (removed_ms : List multiset_conf) :
    ∀ g : ground_state_space, same_static g (erase_removed c removed_ms g) := by
  induction removed_ms with
  | nil => intro g; exact same_static_refl g
  | cons m rest ih =>
    intro g
    exact same_static_trans _ _ _ (same_static_modify g c.uid _) (ih _)

theorem same_static_check_charge_space (nxt : next_extremal_op) (g g1 : ground_state_space)
    (c : sidb_cluster) (r : Bool) (h : check_charge_space nxt g c = some (r, g1)) :
    same_static g g1 := by
  unfold check_charge_space at h
  split at h
  · simp only [Option.some.injEq, Prod.mk.injEq] at h
    rw [← h.2]
    exact same_static_refl _
  · split at h
    · simp at h
    · rename_i g2 removed_ms fixpoint hL
      simp only [Option.some.injEq, Prod.mk.injEq] at h
      rw [← h.2]
      refine same_static_trans _ _ _ ?_ (same_static_erase_removed c removed_ms g2)
      have key := for_each_rel (check_charge_space_step nxt c)
        (fun a a1 => same_static a.1 a1.1) (fun a => same_static_refl a.1)
        (fun a b c hab hbc => same_static_trans _ _ _ hab hbc) (g.data c.uid).charge_space
        (by
          intro s x s1 _ hs
          unfold check_charge_space_step at hs
          split at hs
          · simp at hs
          · simp only [Option.some.injEq] at hs
            subst hs
            exact same_static_refl _
          · split at hs
            · simp at hs
            · rename_i g3 hH
              simp only [Option.some.injEq] at hs
              subst hs
              exact same_static_handle_invalid_state nxt _ _ _ _ hH)
        (g, [], true) (g2, removed_ms, fixpoint) hL
      exact key

theorem same_static_update_charge_spaces (nxt : next_extremal_op) (g g1 : ground_state_space)
    (skip_cluster : Option Nat) (r : Bool)
    (h : g.update_charge_spaces nxt skip_cluster = some (r, g1)) : same_static g g1 := by
  have key := for_each_rel (update_charge_spaces_step nxt skip_cluster)
    (fun a a1 => same_static a.2 a1.2) (fun a => same_static_refl a.2)
    (fun a b c hab hbc => same_static_trans _ _ _ hab hbc) g.clustering
    (by
      intro s x s1 _ hs
      unfold update_charge_spaces_step at hs
      split at hs
      · split at hs
        · simp at hs
        · rename_i r2 g2 hC
          simp only [Option.some.injEq] at hs
          subst hs
          exact same_static_check_charge_space nxt _ _ _ _ hC
      · simp only [Option.some.injEq] at hs
        subst hs
        exact same_static_refl _)
    (true, g) (r, g1) h
  exact key

theorem same_static_prune_to_fixpoint (nxt : next_extremal_op) :
    ∀ (fuel : Nat) (g g1 : ground_state_space), prune_to_fixpoint nxt fuel g = some g1 →
      same_static g g1 := by
  intro fuel
  induction fuel with
  | zero => intro g g1 h; simp [prune_to_fixpoint] at h
  | succ n ih =>
    intro g g1 h
    unfold prune_to_fixpoint at h
    split at h
    · simp at h
    · rename_i g2 hU
      simp only [Option.some.injEq] at h
      subst h
      exact same_static_update_charge_spaces nxt _ _ _ _ hU
    · rename_i g2 hU
      exact same_static_trans _ _ _ (same_static_update_charge_spaces nxt _ _ _ _ hU)
        (ih _ _ h)

end ground_state_space


namespace ground_state_space

theorem same_static_set_recv (g : ground_state_space) (b : bound_direction) (c : sidb_cluster)
    (i : Nat) (v : Pot) : same_static g (g.set_recv_ext_pot_bound b c i v) :=
  ⟨rfl, rfl, rfl, rfl, rfl⟩

theorem same_static_add_pot_proj (g : ground_state_space) (c : sidb_cluster) (i : Nat)
    (pp : potential_projection) : same_static g (g.add_pot_proj c i pp) :=
  ⟨rfl, rfl, rfl, rfl, rfl⟩

theorem same_static_subtract_sibling (b : bound_direction) (g g1 : ground_state_space)
    (parent child : sidb_cluster) (i : Nat)
    (h : subtract_sibling_pot_from_recv_ext_pot_bound b g parent child i = some g1) :
    same_static g g1 := by
  unfold subtract_sibling_pot_from_recv_ext_pot_bound at h
  split at h
  · simp at h
  · simp only [Option.some.injEq] at h
    subst h
    exact ⟨rfl, rfl, rfl, rfl, rfl⟩

theorem same_static_derive (g g1 : ground_state_space) (parent : sidb_cluster)
    (h : g.derive_children_recv_bounds_without_siblings parent = some g1) :
    same_static g g1 := by
  refine same_static_for_each _ _ ?_ g g1 h
  intro s child s1 _ hs
  refine same_static_for_each _ _ ?_ s s1 hs
  intro a i a1 _ ha
  unfold derive_site_step at ha
  split at ha
  · simp at ha
  · rename_i a2 h2
    exact same_static_trans _ _ _ (same_static_subtract_sibling _ _ _ _ _ _ h2)
      (same_static_subtract_sibling _ _ _ _ _ _ ha)

theorem same_static_fill_merged_base (parent : sidb_cluster)
    (acc acc1 : ground_state_space × sidb_cluster_charge_state)
    (h : fill_merged_base parent acc = some acc1) : same_static acc.1 acc1.1 := by
  unfold fill_merged_base at h
  split at h
  · simp at h
  · split at h
    · simp at h
    · split at h
      · simp only [Option.some.injEq] at h
        subst h
        exact ⟨rfl, rfl, rfl, rfl, rfl⟩
      · simp only [Option.some.injEq] at h
        subst h
        exact same_static_refl _

theorem same_static_fill_merged (parent : sidb_cluster) :
    ∀ (children : List sidb_cluster)
      (acc acc1 : ground_state_space × sidb_cluster_charge_state),
      fill_merged_charge_state_space parent children acc = some acc1 →
      same_static acc.1 acc1.1 := by
  intro children
  induction children with
  | nil => intro acc acc1 h; exact same_static_fill_merged_base parent acc acc1 h
  | cons child rest ih =>
    intro acc acc1 h
    unfold fill_merged_charge_state_space at h
    refine for_each_rel _
      (fun (a a1 : ground_state_space × sidb_cluster_charge_state) => same_static a.1 a1.1)
      (fun a => same_static_refl a.1)
      (fun a b c hab hbc => same_static_trans a.1 b.1 c.1 hab hbc) _ ?_ acc acc1 h
    intro s x s1 _ hs
    unfold fill_merged_step at hs
    split at hs
    · simp at hs
    · split at hs
      · simp at hs
      · rename_i g2 m2 hN
        split at hs
        · simp at hs
        · simp only [Option.some.injEq] at hs
          subst hs
          have hrec := ih _ _ hN
          exact hrec

theorem same_static_construct_charge (g g1 : ground_state_space) (parent : sidb_cluster)
    (h : g.construct_merged_charge_state_space parent = some g1) : same_static g g1 := by
  unfold construct_merged_charge_state_space at h
  cases hF : fill_merged_charge_state_space parent parent.children (g, ⟨⟨0, 0, 0⟩, [[]]⟩) with
  | none => rw [hF] at h; simp at h
  | some acc1 =>
    rw [hF] at h
    simp only [Option.map_some', Option.some.injEq] at h
    subst h
    exact same_static_fill_merged parent _ _ _ hF

theorem same_static_merge_pot_proj_bounds (b : bound_direction) (g g1 : ground_state_space)
    (parent rc : sidb_cluster) (i : Nat)
    (h : merge_pot_proj_bounds b g parent rc i = some g1) : same_static g g1 := by
  unfold merge_pot_proj_bounds at h
  split at h
  · simp at h
  · rename_i g2 hL
    have h2 : same_static g g2 := by
      refine same_static_for_each _ _ ?_ g g2 hL
      intro s m s1 _ hs
      refine same_static_for_each _ _ ?_ s s1 hs
      intro a comp a1 _ ha
      unfold merge_pot_proj_step at ha
      cases hS : sum_composition_projections a b i comp with
      | none => rw [hS] at ha; simp at ha
      | some pp =>
        rw [hS] at ha
        simp only [Option.map_some', Option.some.injEq] at ha
        subst ha
        exact same_static_add_pot_proj _ _ _ _
    split at h
    · simp at h
    · split at h
      · simp at h
      · simp only [Option.some.injEq] at h
        subst h
        exact same_static_trans _ _ _ h2 ⟨rfl, rfl, rfl, rfl, rfl⟩

theorem same_static_merge_recv (b : bound_direction) (g g1 : ground_state_space)
    (pc : sidb_cluster) (pm : multiset_conf) (parent : sidb_cluster)
    (h : merge_recv_pot_proj_bounds b g pc pm parent = some g1) : same_static g g1 := by
  refine same_static_for_each _ _ ?_ g g1 h
  intro s m s1 _ hs
  refine same_static_for_each _ _ ?_ s s1 hs
  intro a comp a1 _ ha
  refine same_static_for_each _ _ ?_ a a1 ha
  intro a2 cst a3 _ ha2
  refine same_static_for_each _ _ ?_ a2 a3 ha2
  intro a4 i a5 _ ha4
  unfold merge_recv_step at ha4
  cases hS : a4.get_proj_state_bound b pc pm i with
  | none => rw [hS] at ha4; simp at ha4
  | some pp =>
    rw [hS] at ha4
    simp only [Option.map_some', Option.some.injEq] at ha4
    subst ha4
    exact same_static_add_pot_proj _ _ _ _

theorem same_static_construct_projections (g g1 : ground_state_space) (parent : sidb_cluster)
    (h : g.construct_merged_potential_projections parent = some g1) : same_static g g1 := by
  refine same_static_for_each _ _ ?_ g g1 h
  intro s nc s1 _ hs
  unfold merged_projections_step at hs
  split at hs
  · simp at hs
  · rename_i s2 h2
    refine same_static_trans s s2 s1 ?_ ?_
    · refine same_static_for_each _ _ ?_ s s2 h2
      intro a i a1 _ ha
      unfold merged_projections_site_step at ha
      split at ha
      · simp at ha
      · rename_i a2 h3
        exact same_static_trans _ _ _ (same_static_merge_pot_proj_bounds _ _ _ _ _ _ h3)
          (same_static_merge_pot_proj_bounds _ _ _ _ _ _ ha)
    · refine same_static_for_each _ _ ?_ s2 s1 hs
      intro a m a1 _ ha
      unfold merged_projections_state_step at ha
      split at ha
      · simp at ha
      · rename_i a2 h3
        exact same_static_trans _ _ _ (same_static_merge_recv _ _ _ _ _ _ h3)
          (same_static_merge_recv _ _ _ _ _ _ ha)

theorem same_static_compute_meets (g g1 : ground_state_space) (parent : sidb_cluster)
    (h : g.compute_meets_for_internal_pot_bounds parent = some g1) : same_static g g1 := by
  refine same_static_for_each _ _ ?_ g g1 h
  intro s m s1 _ hs
  refine same_static_for_each _ _ ?_ s s1 hs
  intro a i a1 _ ha
  unfold meets_site_step at ha
  split at ha
  · simp only [Option.some.injEq] at ha
    subst ha
    exact ⟨rfl, rfl, rfl, rfl, rfl⟩
  · simp at ha

/-- The clustering and the other immutable members after `merge_up`. -/
theorem merge_up_static (g g1 : ground_state_space) (p : sidb_cluster)
    (h : g.merge_up p = some g1) :
    g1.top_cluster = g.top_cluster
      ∧ g1.clustering = emplace_cluster p (erase_children p.children g.clustering)
      ∧ g1.terminate = g.terminate := by
  unfold merge_up at h
  split at h
  · simp at h
  · rename_i g2 h2
    split at h
    · simp at h
    · rename_i g3 h3
      split at h
      · simp at h
      · rename_i g4 h4
        split at h
        · simp at h
        · rename_i g5 h5
          simp only [Option.some.injEq] at h
          subst h
          have s2 := same_static_derive _ _ _ h2
          have s3 := same_static_construct_charge _ _ _ h3
          have s4 := same_static_construct_projections _ _ _ h4
          have s5 := same_static_compute_meets _ _ _ h5
          have s := same_static_trans _ _ _ s2 (same_static_trans _ _ _ s3
            (same_static_trans _ _ _ s4 s5))
          obtain ⟨t1, t2, t3, -, -⟩ := s
          refine ⟨t1, ?_, t3⟩
          simp only [t2]

end ground_state_space

/-! ### Pruning passes that report a fixpoint -/

namespace ground_state_space

theorem check_charge_space_loop_true (nxt : next_extremal_op) (c : sidb_cluster) :
    ∀ (cs : List sidb_cluster_charge_state) (gss : ground_state_space)
      (removed_ms : List multiset_conf) (fixpoint : Bool) (g1 : ground_state_space)
      (removed1 : List multiset_conf),
      for_each (check_charge_space_step nxt c) cs (gss, removed_ms, fixpoint)
        = some (g1, removed1, true) →
      fixpoint = true ∧ g1 = gss ∧ removed1 = removed_ms
        ∧ ∀ m ∈ cs, gss.perform_potential_bound_analysis .ANALYZE_MULTISET c m.multiset none
            = some true := by
  intro cs
  induction cs with
  | nil =>
    intro gss removed_ms fixpoint g1 removed1 h
    simp only [for_each, Option.some.injEq, Prod.mk.injEq] at h
    obtain ⟨h1, h2, h3⟩ := h
    exact ⟨h3, h1.symm, h2.symm, by simp⟩
  | cons m rest ih =>
    intro gss removed_ms fixpoint g1 removed1 h
    simp only [for_each, check_charge_space_step] at h
    cases hA : gss.perform_potential_bound_analysis .ANALYZE_MULTISET c m.multiset none with
    | none => rw [hA] at h; simp at h
    | some r =>
      rw [hA] at h
      cases r with
      | true =>
        simp only at h
        obtain ⟨h1, h2, h3, h4⟩ := ih gss removed_ms fixpoint g1 removed1 h
        refine ⟨h1, h2, h3, ?_⟩
        intro m' hm'
        rcases List.mem_cons.mp hm' with rfl | hm'
        · exact hA
        · exact h4 m' hm'
      | false =>
        simp only at h
        cases hH : gss.handle_invalid_state nxt c m.multiset with
        | none => rw [hH] at h; simp at h
        | some g2 =>
          rw [hH] at h
          simp only at h
          have := (ih g2 _ false g1 removed1 h).1
          simp at this

theorem check_charge_space_true (nxt : next_extremal_op) (gss g1 : ground_state_space)
    (c : sidb_cluster) (h : check_charge_space nxt gss c = some (true, g1)) :
    g1 = gss ∧ ((gss.data c.uid).charge_space.length ≠ 1 →
      ∀ m ∈ (gss.data c.uid).charge_space,
        gss.perform_potential_bound_analysis .ANALYZE_MULTISET c m.multiset none = some true) := by
  unfold check_charge_space at h
  split at h
  · rename_i hlen
    simp only [Option.some.injEq, Prod.mk.injEq, true_and] at h
    exact ⟨h.symm, fun hne => absurd hlen hne⟩
  · cases hL : for_each (check_charge_space_step nxt c) (gss.data c.uid).charge_space
        (gss, [], true) with
    | none => rw [hL] at h; simp at h
    | some r =>
      obtain ⟨g2, removed_ms, fixpoint⟩ := r
      rw [hL] at h
      simp only [Option.some.injEq, Prod.mk.injEq] at h
      obtain ⟨hf, hg⟩ := h
      subst hf
      obtain ⟨-, h2, h3, h4⟩ := check_charge_space_loop_true nxt c _ _ _ _ _ _ hL
      subst h2 h3
      exact ⟨by simpa [erase_removed] using hg.symm, fun _ => h4⟩

theorem update_charge_spaces_loop_true (nxt : next_extremal_op) (skip_cluster : Option Nat) :
    ∀ (cl : List sidb_cluster) (gss : ground_state_space) (fixpoint : Bool)
      (g1 : ground_state_space),
      for_each (update_charge_spaces_step nxt skip_cluster) cl (fixpoint, gss)
        = some (true, g1) →
      fixpoint = true ∧ g1 = gss
        ∧ ∀ c ∈ cl, skip_cluster ≠ some c.uid → (gss.data c.uid).charge_space.length ≠ 1 →
            ∀ m ∈ (gss.data c.uid).charge_space,
              gss.perform_potential_bound_analysis .ANALYZE_MULTISET c m.multiset none
                = some true := by
  intro cl
  induction cl with
  | nil =>
    intro gss fixpoint g1 h
    simp only [for_each, Option.some.injEq, Prod.mk.injEq] at h
    exact ⟨h.1, h.2.symm, by simp⟩
  | cons c rest ih =>
    intro gss fixpoint g1 h
    simp only [for_each, update_charge_spaces_step] at h
    by_cases hskip : skip_cluster = none ∨ skip_cluster ≠ some c.uid
    · rw [if_pos hskip] at h
      cases hC : check_charge_space nxt gss c with
      | none => rw [hC] at h; simp at h
      | some r =>
        obtain ⟨r, g2⟩ := r
        rw [hC] at h
        simp only at h
        obtain ⟨h1, h2, h3⟩ := ih g2 _ g1 h
        simp only [Bool.and_eq_true] at h1
        obtain ⟨hf, hr⟩ := h1
        subst hr
        obtain ⟨hg, h4⟩ := check_charge_space_true nxt gss g2 c hC
        subst hg
        refine ⟨hf, h2, ?_⟩
        intro c' hc' hs hl
        rcases List.mem_cons.mp hc' with rfl | hc'
        · exact h4 hl
        · exact h3 c' hc' hs hl
    · rw [if_neg hskip] at h
      simp only at h
      obtain ⟨h1, h2, h3⟩ := ih gss fixpoint g1 h
      refine ⟨h1, h2, ?_⟩
      intro c' hc' hs hl
      rcases List.mem_cons.mp hc' with rfl | hc'
      · exfalso; apply hskip; right; exact hs
      · exact h3 c' hc' hs hl

/-- C4 (counterexample): a pruning pass does not leave a conservative frontier. In
`two_leaf_state` with both charge spaces `{neg, neut}`, one pass removes `neg` from `B`, which
tightens the bounds received by `A`, and the multiset `neut` that stays in the charge space of `A`
is rejected by the analysis on the state after the pass. With the charge space of `A` equal to
`{neut}` the same happens, and the next pass reports a fixpoint because it skips both
single-element charge spaces. -/
theorem update_charge_spaces_not_conservative :
    (∃ g, (two_leaf_state [⟨neg1, []⟩, ⟨neut1, []⟩] [⟨neg1, []⟩, ⟨neut1, []⟩]).update_charge_spaces
          potential_projection_order.get_next none = some (false, g)
        ∧ sidb_cluster.leaf 0 [0] ∈ g.clustering
        ∧ ⟨neut1, []⟩ ∈ (g.data 0).charge_space
        ∧ g.perform_potential_bound_analysis .ANALYZE_MULTISET (.leaf 0 [0]) neut1 none
            = some false)
    ∧ (∃ g1 g2, (two_leaf_state [⟨neut1, []⟩] [⟨neg1, []⟩, ⟨neut1, []⟩]).update_charge_spaces
          potential_projection_order.get_next none = some (false, g1)
        ∧ g1.update_charge_spaces potential_projection_order.get_next none = some (true, g2)
        ∧ sidb_cluster.leaf 0 [0] ∈ g2.clustering
        ∧ ⟨neut1, []⟩ ∈ (g2.data 0).charge_space
        ∧ g2.perform_potential_bound_analysis .ANALYZE_MULTISET (.leaf 0 [0]) neut1 none
            = some false) := by
  refine ⟨⟨_, rfl, ?_, ?_, rfl⟩, ⟨_, _, rfl, rfl, ?_, ?_, rfl⟩⟩
  · decide
  · exact List.mem_cons_of_mem _ (List.mem_singleton.mpr rfl)
  · decide
  · exact List.mem_singleton.mpr rfl

/-- C4 (amended): after a pruning pass that reports a fixpoint, every multiset of every frontier
cluster whose charge space does not have exactly one element is accepted by the multiset bound
analysis on the state after the pass. -/
theorem update_charge_spaces_fixpoint_conservative (nxt : next_extremal_op)
    (gss g1 : ground_state_space) (h : gss.update_charge_spaces nxt none = some (true, g1))
    (c : sidb_cluster) (hc : c ∈ g1.clustering)
    (hlen : (g1.data c.uid).charge_space.length ≠ 1)
    (m : sidb_cluster_charge_state) (hm : m ∈ (g1.data c.uid).charge_space) :
    g1.perform_potential_bound_analysis .ANALYZE_MULTISET c m.multiset none = some true := by
  obtain ⟨-, hg, hall⟩ := update_charge_spaces_loop_true nxt none _ _ _ _ h
  subst hg
  exact hall c hc (by simp) hlen m hm

/-- C4 (witness): `two_leaf_state` with charge spaces `{neg, neut}` and `{neut}` is at a
fixpoint, and `neut` is accepted for the first cluster. -/
theorem update_charge_spaces_fixpoint_conservative_witness :
    (two_leaf_state [⟨neg1, []⟩, ⟨neut1, []⟩] [⟨neut1, []⟩]).update_charge_spaces
        potential_projection_order.get_next none
      = some (true, two_leaf_state [⟨neg1, []⟩, ⟨neut1, []⟩] [⟨neut1, []⟩])
    ∧ (two_leaf_state [⟨neg1, []⟩, ⟨neut1, []⟩] [⟨neut1, []⟩]).perform_potential_bound_analysis
        .ANALYZE_MULTISET (.leaf 0 [0]) neut1 none = some true :=
  ⟨rfl, update_charge_spaces_fixpoint_conservative potential_projection_order.get_next
    (two_leaf_state [⟨neg1, []⟩, ⟨neut1, []⟩] [⟨neut1, []⟩])
    (two_leaf_state [⟨neg1, []⟩, ⟨neut1, []⟩] [⟨neut1, []⟩]) rfl
    (.leaf 0 [0]) (by decide) (by decide) ⟨neut1, []⟩
    (List.mem_cons_of_mem _ (List.mem_singleton.mpr rfl))⟩

end ground_state_space

/-! ### The hierarchy as a tree -/

namespace sidb_cluster

theorem self_mem_nodes (t : sidb_cluster) : t ∈ t.nodes := by
  cases t <;> simp [nodes]

theorem mem_nodes_node {u : Nat} {s : List Nat} {l r a : sidb_cluster} :
    a ∈ (node u s l r).nodes ↔ a = node u s l r ∨ a ∈ l.nodes ∨ a ∈ r.nodes := by
  simp [nodes]

theorem nodes_trans : ∀ (t a b : sidb_cluster), a ∈ t.nodes → b ∈ a.nodes → b ∈ t.nodes := by
  intro t
  induction t with
  | leaf u s =>
    intro a b ha hb
    simp only [nodes, List.mem_singleton] at ha
    subst ha
    exact hb
  | node u s l r ihl ihr =>
    intro a b ha hb
    rcases mem_nodes_node.mp ha with rfl | ha | ha
    · exact hb
    · exact mem_nodes_node.mpr (Or.inr (Or.inl (ihl a b ha hb)))
    · exact mem_nodes_node.mpr (Or.inr (Or.inr (ihr a b ha hb)))

theorem children_mem_nodes {t c : sidb_cluster} (h : c ∈ t.children) : c ∈ t.nodes := by
  cases t with
  | leaf u s => simp [children] at h
  | node u s l r =>
    simp only [children, List.mem_cons, List.mem_singleton, List.not_mem_nil, or_false] at h
    rcases h with rfl | rfl
    · exact mem_nodes_node.mpr (Or.inr (Or.inl (self_mem_nodes _)))
    · exact mem_nodes_node.mpr (Or.inr (Or.inr (self_mem_nodes _)))

theorem uid_mem_uids {t a : sidb_cluster} (h : a ∈ t.nodes) : a.uid ∈ t.uids :=
  List.mem_map_of_mem _ h

theorem uids_node (u : Nat) (s : List Nat) (l r : sidb_cluster) :
    (node u s l r).uids = u :: (l.uids ++ r.uids) := by
  simp [uids, nodes, uid]

/-- In a tree with distinct uids, a node is determined by its uid. -/
theorem eq_of_uid_eq {t a b : sidb_cluster} (hu : t.uids.Nodup) (ha : a ∈ t.nodes)
    (hb : b ∈ t.nodes) (h : a.uid = b.uid) : a = b :=
  List.inj_on_of_nodup_map hu ha hb h

theorem uids_nodup_of_mem : ∀ (t a : sidb_cluster), t.uids.Nodup → a ∈ t.nodes →
    a.uids.Nodup := by
  intro t
  induction t with
  | leaf u s =>
    intro a hu ha
    simp only [nodes, List.mem_singleton] at ha
    subst ha
    exact hu
  | node u s l r ihl ihr =>
    intro a hu ha
    rcases mem_nodes_node.mp ha with rfl | ha | ha
    · exact hu
    · rw [uids_node] at hu
      exact ihl a (List.Nodup.of_append_left (List.nodup_cons.mp hu).2) ha
    · rw [uids_node] at hu
      exact ihr a (List.Nodup.of_append_right (List.nodup_cons.mp hu).2) ha

/-- A node of a tree is the root or a child of a node of the tree. -/
theorem root_or_child : ∀ (t a : sidb_cluster), a ∈ t.nodes →
    a = t ∨ ∃ p ∈ t.nodes, a ∈ p.children := by
  intro t
  induction t with
  | leaf u s =>
    intro a ha
    simp only [nodes, List.mem_singleton] at ha
    exact Or.inl ha
  | node u s l r ihl ihr =>
    intro a ha
    rcases mem_nodes_node.mp ha with rfl | ha | ha
    · exact Or.inl rfl
    · right
      rcases ihl a ha with rfl | ⟨p, hp, hc⟩
      · exact ⟨node u s a r, self_mem_nodes _, by simp [children]⟩
      · exact ⟨p, mem_nodes_node.mpr (Or.inr (Or.inl hp)), hc⟩
    · right
      rcases ihr a ha with rfl | ⟨p, hp, hc⟩
      · exact ⟨node u s l a, self_mem_nodes _, by simp [children]⟩
      · exact ⟨p, mem_nodes_node.mpr (Or.inr (Or.inr hp)), hc⟩

/-- `find_parent` only returns nodes of the tree that have a child with the given uid. -/
theorem find_parent_some : ∀ (t p : sidb_cluster) (x : Nat), find_parent x t = some p →
    p ∈ t.nodes ∧ ∃ c ∈ p.children, c.uid = x := by
  intro t
  induction t with
  | leaf u s => intro p x h; simp [find_parent] at h
  | node u s l r ihl ihr =>
    intro p x h
    unfold find_parent at h
    split at h
    · rename_i hx
      simp only [Option.some.injEq] at h
      subst h
      refine ⟨self_mem_nodes _, ?_⟩
      rcases hx with hx | hx
      · exact ⟨l, by simp [children], hx⟩
      · exact ⟨r, by simp [children], hx⟩
    · split at h
      · rename_i q hq
        simp only [Option.some.injEq] at h
        subst h
        obtain ⟨h1, h2⟩ := ihl _ _ hq
        exact ⟨mem_nodes_node.mpr (Or.inr (Or.inl h1)), h2⟩
      · obtain ⟨h1, h2⟩ := ihr _ _ h
        exact ⟨mem_nodes_node.mpr (Or.inr (Or.inr h1)), h2⟩

theorem child_sizeOf_lt : ∀ (t q : sidb_cluster), q ∈ t.nodes → ∀ ch ∈ q.children,
    sizeOf ch < sizeOf t := by
  intro t
  induction t with
  | leaf u s =>
    intro q hq ch hch
    simp only [nodes, List.mem_singleton] at hq
    subst hq
    simp [children] at hch
  | node u s l r ihl ihr =>
    intro q hq ch hch
    rcases mem_nodes_node.mp hq with rfl | hq | hq
    · simp only [children, List.mem_cons, List.mem_singleton, List.not_mem_nil,
        or_false] at hch
      rcases hch with rfl | rfl
      · simp only [node.sizeOf_spec]; omega
      · simp only [node.sizeOf_spec]; omega
    · have := ihl q hq ch hch
      simp only [node.sizeOf_spec]
      omega
    · have := ihr q hq ch hch
      simp only [node.sizeOf_spec]
      omega

theorem root_not_child {t q : sidb_cluster} (hq : q ∈ t.nodes) : t ∉ q.children :=
  fun h => absurd (child_sizeOf_lt t q hq t h) (lt_irrefl _)

/-- In a tree with distinct uids, `find_parent` returns the node whose child carries the uid. -/
theorem find_parent_of_child : ∀ (t p c : sidb_cluster), t.uids.Nodup → p ∈ t.nodes →
    c ∈ p.children → find_parent c.uid t = some p := by
  intro t
  induction t with
  | leaf u s =>
    intro p c _ hp hc
    simp only [nodes, List.mem_singleton] at hp
    subst hp
    simp [children] at hc
  | node u s l r ihl ihr =>
    intro p c hu hp hc
    rw [uids_node] at hu
    obtain ⟨_, hlr⟩ := List.nodup_cons.mp hu
    have hl := List.Nodup.of_append_left hlr
    have hr := List.Nodup.of_append_right hlr
    have hdisj : ∀ x, x ∈ l.uids → x ∈ r.uids → False := fun x h1 h2 =>
      (List.disjoint_of_nodup_append hlr) h1 h2
    rcases mem_nodes_node.mp hp with rfl | hp | hp
    · unfold find_parent
      simp only [children, List.mem_cons, List.mem_singleton, List.not_mem_nil, or_false] at hc
      rcases hc with rfl | rfl
      · simp
      · simp
    · have hcl : c ∈ l.nodes := nodes_trans l p c hp (children_mem_nodes hc)
      have hne : ¬ (l.uid = c.uid ∨ r.uid = c.uid) := by
        rintro (h | h)
        · have hcu := eq_of_uid_eq hl (self_mem_nodes l) hcl h
          subst hcu
          exact root_not_child hp hc
        · exact hdisj c.uid (uid_mem_uids hcl) (h ▸ uid_mem_uids (self_mem_nodes r))
      unfold find_parent
      rw [if_neg hne, ihl p c hl hp hc]
    · have hcr : c ∈ r.nodes := nodes_trans r p c hp (children_mem_nodes hc)
      have hne : ¬ (l.uid = c.uid ∨ r.uid = c.uid) := by
        rintro (h | h)
        · exact hdisj c.uid (h ▸ uid_mem_uids (self_mem_nodes l)) (uid_mem_uids hcr)
        · have hcu := eq_of_uid_eq hr (self_mem_nodes r) hcr h
          subst hcu
          exact root_not_child hp hc
      have hnone : find_parent c.uid l = none := by
        cases hq : find_parent c.uid l with
        | none => rfl
        | some q =>
          obtain ⟨hq1, c2, hc2, hc2u⟩ := find_parent_some l q c.uid hq
          have hc2l : c2 ∈ l.nodes := nodes_trans l q c2 hq1 (children_mem_nodes hc2)
          exact absurd (uid_mem_uids hcr) (fun h => hdisj c.uid (hc2u ▸ uid_mem_uids hc2l) h)
      unfold find_parent
      rw [if_neg hne, hnone]
      exact ihr p c hr hp hc

theorem well_formed_of_mem : ∀ (t a : sidb_cluster), t.well_formed → a ∈ t.nodes →
    a.well_formed := by
  intro t
  induction t with
  | leaf u s =>
    intro a hw ha
    simp only [nodes, List.mem_singleton] at ha
    subst ha
    exact hw
  | node u s l r ihl ihr =>
    intro a hw ha
    rcases mem_nodes_node.mp ha with rfl | ha | ha
    · exact hw
    · exact ihl a hw.1 ha
    · exact ihr a hw.2.1 ha

theorem size_node_of_well_formed {u : Nat} {s : List Nat} {l r : sidb_cluster}
    (hw : (node u s l r).well_formed) : (node u s l r).size = l.size + r.size := by
  have := hw.2.2.length_eq
  simpa [size, sidbs] using this

theorem size_pos_of_well_formed : ∀ (t : sidb_cluster), t.well_formed → 1 ≤ t.size := by
  intro t
  induction t with
  | leaf u s => intro hw; simp only [well_formed] at hw; simp [size, sidbs, hw]
  | node u s l r ihl _ =>
    intro hw
    rw [size_node_of_well_formed hw]
    have := ihl hw.1
    omega

theorem size_le_of_mem : ∀ (t a : sidb_cluster), t.well_formed → a ∈ t.nodes →
    a.size ≤ t.size := by
  intro t
  induction t with
  | leaf u s =>
    intro a _ ha
    simp only [nodes, List.mem_singleton] at ha
    subst ha
    exact le_refl _
  | node u s l r ihl ihr =>
    intro a hw ha
    rw [size_node_of_well_formed hw]
    rcases mem_nodes_node.mp ha with rfl | ha | ha
    · rw [size_node_of_well_formed hw]
    · have := ihl a hw.1 ha
      omega
    · have := ihr a hw.2.1 ha
      omega

end sidb_cluster

/-! ### Frontiers -/

open sidb_cluster ground_state_space

theorem is_frontier_mem_nodes {t : sidb_cluster} {cl : List sidb_cluster}
    (h : is_frontier t cl) : ∀ c ∈ cl, c ∈ t.nodes := by
  induction h with
  | self t => intro c hc; rw [List.mem_singleton.mp hc]; exact self_mem_nodes t
  | split u s l r cl_l cl_r cl _ _ hperm ihl ihr =>
    intro c hc
    rcases List.mem_append.mp (hperm.mem_iff.mp hc) with h1 | h1
    · exact mem_nodes_node.mpr (Or.inr (Or.inl (ihl c h1)))
    · exact mem_nodes_node.mpr (Or.inr (Or.inr (ihr c h1)))

theorem is_frontier_length_pos {t : sidb_cluster} {cl : List sidb_cluster}
    (h : is_frontier t cl) : 1 ≤ cl.length := by
  induction h with
  | self t => simp
  | split u s l r cl_l cl_r cl _ _ hperm ihl ihr =>
    rw [hperm.length_eq, List.length_append]
    omega

theorem is_frontier_length_one {t : sidb_cluster} {cl : List sidb_cluster}
    (h : is_frontier t cl) (hlen : cl.length = 1) : cl = [t] := by
  cases h with
  | self => rfl
  | split u s l r cl_l cl_r _ hl hr hperm =>
    have h1 := is_frontier_length_pos hl
    have h2 := is_frontier_length_pos hr
    rw [hperm.length_eq, List.length_append] at hlen
    omega

/-- Every member of a frontier with at least two members is a child of a node of the tree. -/
theorem is_frontier_has_parent {t : sidb_cluster} {cl : List sidb_cluster}
    (h : is_frontier t cl) (hlen : 2 ≤ cl.length) :
    ∀ c ∈ cl, ∃ p ∈ t.nodes, c ∈ p.children := by
  cases h with
  | self => simp at hlen
  | split u s l r cl_l cl_r _ hl hr hperm =>
    intro c hc
    rcases List.mem_append.mp (hperm.mem_iff.mp hc) with h1 | h1
    · rcases root_or_child l c (is_frontier_mem_nodes hl c h1) with rfl | ⟨p, hp, hpc⟩
      · exact ⟨_, self_mem_nodes _, by simp [children]⟩
      · exact ⟨p, mem_nodes_node.mpr (Or.inr (Or.inl hp)), hpc⟩
    · rcases root_or_child r c (is_frontier_mem_nodes hr c h1) with rfl | ⟨p, hp, hpc⟩
      · exact ⟨_, self_mem_nodes _, by simp [children]⟩
      · exact ⟨p, mem_nodes_node.mpr (Or.inr (Or.inr hp)), hpc⟩

/-- The sites of the members of a frontier are, up to order, the sites of the tree. -/
theorem is_frontier_sites_perm {t : sidb_cluster} {cl : List sidb_cluster}
    (h : is_frontier t cl) (hw : t.well_formed) : (cl.flatMap sidbs).Perm t.sidbs := by
  induction h with
  | self t => simp
  | split u s l r cl_l cl_r cl _ _ hperm ihl ihr =>
    have h1 := (hperm.flatMap_right sidbs)
    rw [List.flatMap_append] at h1
    exact h1.trans (((ihl hw.1).append (ihr hw.2.1)).trans hw.2.2.symm)

theorem partitions_sites_of_frontier {t : sidb_cluster} {cl : List sidb_cluster}
    (h : is_frontier t cl) (hw : t.well_formed) (hn : t.sidbs.Nodup) :
    partitions_sites t cl := by
  have hp := is_frontier_sites_perm h hw
  have hnd : (cl.flatMap sidbs).Nodup := hp.nodup_iff.mpr hn
  refine ⟨(List.nodup_flatMap.mp hnd).2, ?_⟩
  intro i
  rw [← hp.mem_iff, List.mem_flatMap]

theorem erase_children_of_uid_ne (ch cl : List sidb_cluster)
    (h : ∀ c ∈ cl, ∀ x ∈ ch, x.uid ≠ c.uid) : erase_children ch cl = cl := by
  unfold erase_children
  rw [List.filter_eq_self]
  intro c hc
  simpa using h c hc

theorem emplace_cluster_perm_append (p : sidb_cluster) (cl a b : List sidb_cluster)
    (hperm : cl.Perm (a ++ b)) (hb : ∀ c ∈ b, c.uid ≠ p.uid) :
    (emplace_cluster p cl).Perm (emplace_cluster p a ++ b) := by
  unfold emplace_cluster
  by_cases h : ∃ c ∈ a, c.uid = p.uid
  · have h2 : ∃ c ∈ cl, c.uid = p.uid := by
      obtain ⟨c, hc, hcu⟩ := h
      exact ⟨c, hperm.mem_iff.mpr (List.mem_append_left _ hc), hcu⟩
    rw [if_pos h, if_pos h2]
    exact hperm
  · have h2 : ¬ ∃ c ∈ cl, c.uid = p.uid := by
      rintro ⟨c, hc, hcu⟩
      rcases List.mem_append.mp (hperm.mem_iff.mp hc) with h1 | h1
      · exact h ⟨c, h1, hcu⟩
      · exact hb c h1 hcu
    rw [if_neg h, if_neg h2]
    refine (hperm.append_right [p]).trans ?_
    rw [List.append_assoc, List.append_assoc]
    exact List.Perm.append_left a List.perm_append_comm

theorem frontier_merge_side (top : sidb_cluster) (hw : top.well_formed) (hu : top.uids.Nodup)
    (t A B : sidb_cluster) (cl_a cl_b cl : List sidb_cluster)
    (ht : t ∈ top.nodes) (hA : A ∈ t.children) (hB : B ∈ t.children)
    (hch : ∀ ch ∈ t.children, ch = A ∨ ch = B) (hch2 : t.children.length = 2)
    (hsize : t.size = A.size + B.size) (hdisj : ∀ x, x ∈ A.uids → x ∈ B.uids → False)
    (hfa : is_frontier A cl_a) (hfb : is_frontier B cl_b) (hperm : cl.Perm (cl_a ++ cl_b))
    (hbuild : ∀ ca c1, is_frontier A ca → c1.Perm (ca ++ cl_b) → is_frontier t c1)
    (iha : 2 ≤ cl_a.length → ∀ d ∈ cl_a, ∀ p, top.find_parent d.uid = some p →
      (∀ e ∈ cl_a, ∀ pe, top.find_parent e.uid = some pe → p.size ≤ pe.size) →
      merge_step_ok A p cl_a)
    (d : sidb_cluster) (hd : d ∈ cl_a) (p : sidb_cluster)
    (hp : top.find_parent d.uid = some p)
    (hmin : ∀ e ∈ cl, ∀ pe, top.find_parent e.uid = some pe → p.size ≤ pe.size) :
    merge_step_ok t p cl := by
  have hAtop : A ∈ top.nodes := nodes_trans top t A ht (children_mem_nodes hA)
  have hBtop : B ∈ top.nodes := nodes_trans top t B ht (children_mem_nodes hB)
  by_cases hlen : cl_a.length = 1
  · have hca := is_frontier_length_one hfa hlen
    subst hca
    have hdA : d = A := List.mem_singleton.mp hd
    subst hdA
    have hpt : p = t := by
      have := find_parent_of_child top t d hu ht hA
      rw [this] at hp
      exact (Option.some.inj hp).symm
    subst hpt
    have hcb : cl_b = [B] := by
      by_contra hne
      have hlb : 2 ≤ cl_b.length := by
        have h1 := is_frontier_length_pos hfb
        have h2 : cl_b.length ≠ 1 := fun h => hne (is_frontier_length_one hfb h)
        omega
      obtain ⟨e, he⟩ : ∃ e, e ∈ cl_b := by
        cases cl_b with
        | nil => simp at hlb
        | cons e _ => exact ⟨e, List.mem_cons_self _ _⟩
      obtain ⟨pe, hpe, hpec⟩ := is_frontier_has_parent hfb hlb e he
      have hfp := find_parent_of_child top pe e hu (nodes_trans top B pe hBtop hpe) hpec
      have h1 := hmin e (hperm.mem_iff.mpr (List.mem_append_right _ he)) pe hfp
      have h2 := size_le_of_mem B pe (well_formed_of_mem top B hw hBtop) hpe
      have h3 := size_pos_of_well_formed d (well_formed_of_mem top d hw hAtop)
      omega
    subst hcb
    have herase : erase_children p.children cl = [] := by
      unfold erase_children
      rw [List.filter_eq_nil_iff]
      intro c hc
      have hc2 := hperm.mem_iff.mp hc
      simp only [List.singleton_append, List.mem_cons, List.mem_singleton, List.not_mem_nil,
        or_false] at hc2
      simp only [decide_eq_true_eq, not_forall, not_not]
      rcases hc2 with rfl | rfl
      · exact ⟨c, hA, rfl⟩
      · exact ⟨c, hB, rfl⟩
    refine ⟨?_, hch2, ?_, ?_⟩
    · intro ch hc
      rcases hch ch hc with rfl | rfl
      · exact hperm.mem_iff.mpr (by simp)
      · exact hperm.mem_iff.mpr (by simp)
    · rw [herase]
      simp only [emplace_cluster, List.not_mem_nil, false_and, exists_false, if_false,
        List.nil_append]
      exact is_frontier.self p
    · rw [herase, hperm.length_eq]
      simp [emplace_cluster]
  · have hla : 2 ≤ cl_a.length := by
      have h1 := is_frontier_length_pos hfa
      omega
    have hmin_a : ∀ e ∈ cl_a, ∀ pe, top.find_parent e.uid = some pe → p.size ≤ pe.size :=
      fun e he pe hpe => hmin e (hperm.mem_iff.mpr (List.mem_append_left _ he)) pe hpe
    obtain ⟨hc1, hc2, hc3, hc4⟩ := iha hla d hd p hp hmin_a
    obtain ⟨pd, hpd, hpdc⟩ := is_frontier_has_parent hfa hla d hd
    have hppd : p = pd := by
      have := find_parent_of_child top pd d hu (nodes_trans top A pd hAtop hpd) hpdc
      rw [this] at hp
      exact (Option.some.inj hp).symm
    subst hppd
    have hb_uid : ∀ c ∈ cl_b, ∀ x ∈ p.nodes, x.uid ≠ c.uid := by
      intro c hc x hx hxc
      have hxA : x.uid ∈ A.uids := uid_mem_uids (nodes_trans A p x hpd hx)
      have hcB : c.uid ∈ B.uids := uid_mem_uids (is_frontier_mem_nodes hfb c hc)
      exact hdisj _ hxA (hxc ▸ hcB)
    have herase : (erase_children p.children cl).Perm
        (erase_children p.children cl_a ++ cl_b) := by
      have h1 : (erase_children p.children cl).Perm (erase_children p.children (cl_a ++ cl_b)) :=
        List.Perm.filter _ hperm
      have h2 : erase_children p.children (cl_a ++ cl_b)
          = erase_children p.children cl_a ++ erase_children p.children cl_b := by
        simp [erase_children]
      rw [h2, erase_children_of_uid_ne p.children cl_b
        (fun c hc x hx => hb_uid c hc x (children_mem_nodes hx))] at h1
      exact h1
    have hemp := emplace_cluster_perm_append p _ _ _ herase
      (fun c hc h => hb_uid c hc p (self_mem_nodes p) h.symm)
    refine ⟨?_, hc2, hbuild _ _ hc3 hemp, ?_⟩
    · intro ch hc
      exact hperm.mem_iff.mpr (List.mem_append_left _ (hc1 ch hc))
    · rw [hemp.length_eq, hperm.length_eq, List.length_append, List.length_append]
      omega

/-- The merge step keeps a frontier: on a frontier with at least two members, the parent of a
member whose parent has minimum size has both children in the frontier, and replacing them by
the parent gives a frontier with one member less. -/
theorem frontier_merge (top : sidb_cluster) (hw : top.well_formed) (hu : top.uids.Nodup)
    {t : sidb_cluster} {cl : List sidb_cluster} (h : is_frontier t cl) :
    t ∈ top.nodes → 2 ≤ cl.length → ∀ d ∈ cl, ∀ p, top.find_parent d.uid = some p →
      (∀ e ∈ cl, ∀ pe, top.find_parent e.uid = some pe → p.size ≤ pe.size) →
      merge_step_ok t p cl := by
  induction h with
  | self t => intro _ hlen; simp at hlen
  | split u s l r cl_l cl_r cl hl hr hperm ihl ihr =>
    intro ht _ d hd p hp hmin
    have hlt : l ∈ top.nodes := nodes_trans top _ l ht (children_mem_nodes (by simp [children]))
    have hrt : r ∈ top.nodes := nodes_trans top _ r ht (children_mem_nodes (by simp [children]))
    have hut := uids_nodup_of_mem top _ hu ht
    rw [uids_node] at hut
    have hdisj : ∀ x, x ∈ l.uids → x ∈ r.uids → False := fun x h1 h2 =>
      (List.disjoint_of_nodup_append (List.nodup_cons.mp hut).2) h1 h2
    have hsz := size_node_of_well_formed (well_formed_of_mem top _ hw ht)
    rcases List.mem_append.mp (hperm.mem_iff.mp hd) with hd1 | hd1
    · exact frontier_merge_side top hw hu _ l r cl_l cl_r cl ht (by simp [children])
        (by simp [children]) (by simp [children]) (by simp [children]) hsz hdisj hl hr hperm
        (fun ca c1 hca hc1 => is_frontier.split u s l r ca cl_r c1 hca hr hc1)
        (fun h2 => ihl hlt h2) d hd1 p hp hmin
    · exact frontier_merge_side top hw hu _ r l cl_r cl_l cl ht (by simp [children])
        (by simp [children]) (by simp [children]) (by simp [children])
        (by rw [hsz]; omega) (fun x h1 h2 => hdisj x h2 h1) hr hl
        (hperm.trans List.perm_append_comm)
        (fun ca c1 hca hc1 => is_frontier.split u s l r cl_l ca c1 hl hca
          (hc1.trans List.perm_append_comm))
        (fun h2 => ihr hrt h2) d hd1 p hp hmin

open sidb_cluster ground_state_space

theorem is_frontier_uids_nodup {t : sidb_cluster} {cl : List sidb_cluster}
    (h : is_frontier t cl) : t.uids.Nodup → (cl.map uid).Nodup := by
  induction h with
  | self t => intro _; simp
  | split u s l r cl_l cl_r cl hl hr hperm ihl ihr =>
    intro hu
    rw [uids_node] at hu
    have hlr := (List.nodup_cons.mp hu).2
    have h1 := ihl (List.Nodup.of_append_left hlr)
    have h2 := ihr (List.Nodup.of_append_right hlr)
    have hp : (cl.map uid).Perm (cl_l.map uid ++ cl_r.map uid) := by
      rw [← List.map_append]
      exact hperm.map uid
    rw [hp.nodup_iff]
    refine List.Nodup.append h1 h2 ?_
    intro x hx1 hx2
    obtain ⟨a, ha, rfl⟩ := List.mem_map.mp hx1
    obtain ⟨b, hb, hab⟩ := List.mem_map.mp hx2
    exact (List.disjoint_of_nodup_append hlr) (uid_mem_uids (is_frontier_mem_nodes hl a ha))
      (hab ▸ uid_mem_uids (is_frontier_mem_nodes hr b hb))

theorem foldl_emplace_cluster : ∀ (xs acc : List sidb_cluster),
    (∀ x ∈ xs, ∀ c ∈ acc, c.uid ≠ x.uid) → (xs.map uid).Nodup →
    xs.foldl (fun a c => emplace_cluster c a) acc = acc ++ xs := by
  intro xs
  induction xs with
  | nil => intro acc _ _; simp
  | cons x rest ih =>
    intro acc hne hnd
    have hx : emplace_cluster x acc = acc ++ [x] := by
      unfold emplace_cluster
      rw [if_neg]
      rintro ⟨c, hc, hcu⟩
      exact hne x (List.mem_cons_self _ _) c hc hcu
    simp only [List.foldl_cons, hx]
    rw [ih (acc ++ [x])]
    · simp
    · intro y hy c hc
      rcases List.mem_append.mp hc with h1 | h1
      · exact hne y (List.mem_cons_of_mem _ hy) c h1
      · rw [List.mem_singleton.mp h1]
        intro h
        simp only [List.map_cons, List.nodup_cons, List.mem_map, not_exists, not_and] at hnd
        exact hnd.1 y hy h.symm
    · simp only [List.map_cons, List.nodup_cons] at hnd
      exact hnd.2

/-- The initial clustering of a well-formed hierarchy with distinct uids is a frontier. -/
theorem is_frontier_initial : ∀ (t : sidb_cluster), t.well_formed → t.uids.Nodup →
    is_frontier t (get_initial_clustering t) := by
  intro t
  induction t with
  | leaf u s =>
    intro hw _
    simp only [well_formed] at hw
    simp only [get_initial_clustering, size, sidbs, hw, if_true]
    exact is_frontier.self _
  | node u s l r ihl ihr =>
    intro hw hu
    have hsz := size_node_of_well_formed hw
    have h1 := size_pos_of_well_formed l hw.1
    have h2 := size_pos_of_well_formed r hw.2.1
    have hne : ¬ (node u s l r).size = 1 := by omega
    have hu2 := hu
    rw [uids_node] at hu2
    have hlr := (List.nodup_cons.mp hu2).2
    have hl := ihl hw.1 (List.Nodup.of_append_left hlr)
    have hr := ihr hw.2.1 (List.Nodup.of_append_right hlr)
    unfold get_initial_clustering
    rw [if_neg hne]
    rw [foldl_emplace_cluster (get_initial_clustering l) [] (by simp)
      (is_frontier_uids_nodup hl (List.Nodup.of_append_left hlr))]
    rw [foldl_emplace_cluster (get_initial_clustering r) _ ?_
      (is_frontier_uids_nodup hr (List.Nodup.of_append_right hlr))]
    · exact is_frontier.split u s l r _ _ _ hl hr (List.Perm.refl _)
    · intro x hx c hc hcx
      simp only [List.nil_append] at hc
      exact (List.disjoint_of_nodup_append hlr) (uid_mem_uids (is_frontier_mem_nodes hl c hc))
        (hcx ▸ uid_mem_uids (is_frontier_mem_nodes hr x hx))

theorem min_parent_step_spec (g : ground_state_space) :
    ∀ (rest : List sidb_cluster) (best r : sidb_cluster),
      for_each (min_parent_step g) rest best = some r →
      r ∈ best :: rest ∧ ∀ e ∈ best :: rest, ∀ pe pr, g.get_parent e = some pe →
        g.get_parent r = some pr → pr.size ≤ pe.size := by
  intro rest
  induction rest with
  | nil =>
    intro best r h
    simp only [for_each, Option.some.injEq] at h
    subst h
    refine ⟨List.mem_singleton.mpr rfl, ?_⟩
    intro e he pe pr h1 h2
    rw [List.mem_singleton.mp he, h2] at h1
    rw [Option.some.inj h1]
  | cons c rest ih =>
    intro best r h
    obtain ⟨b1, hb1, hrest⟩ := for_each_cons_some h
    obtain ⟨hr1, hr2⟩ := ih b1 r hrest
    unfold min_parent_step at hb1
    split at hb1
    · rename_i pc pb hpc hpb
      split at hb1
      · rename_i hlt
        simp only [Option.some.injEq] at hb1
        subst hb1
        refine ⟨List.mem_cons_of_mem _ hr1, ?_⟩
        intro e he pe pr h1 h2
        rcases List.mem_cons.mp he with rfl | he
        · have := hr2 c (List.mem_cons_self _ _) pc pr hpc h2
          rw [hpb] at h1
          rw [← Option.some.inj h1]
          omega
        · exact hr2 e he pe pr h1 h2
      · rename_i hlt
        simp only [Option.some.injEq] at hb1
        subst hb1
        refine ⟨?_, ?_⟩
        · rcases List.mem_cons.mp hr1 with h1 | h1
          · exact h1 ▸ List.mem_cons_self _ _
          · exact List.mem_cons_of_mem _ (List.mem_cons_of_mem _ h1)
        · intro e he pe pr h1 h2
          rcases List.mem_cons.mp he with rfl | he
          · exact hr2 e (List.mem_cons_self _ _) pe pr h1 h2
          · rcases List.mem_cons.mp he with rfl | he
            · have := hr2 best (List.mem_cons_self _ _) pb pr hpb h2
              rw [hpc] at h1
              rw [← Option.some.inj h1]
              omega
            · exact hr2 e (List.mem_cons_of_mem _ he) pe pr h1 h2
    · simp at hb1

/-- The effect of `move_up_hierarchy` on a frontier of a well-formed hierarchy. -/
theorem move_up_hierarchy_frontier (nxt : next_extremal_op) (g g1 : ground_state_space)
    (hw : g.top_cluster.well_formed) (hu : g.top_cluster.uids.Nodup)
    (hf : is_frontier g.top_cluster g.clustering) (h : g.move_up_hierarchy nxt = some g1) :
    g1.top_cluster = g.top_cluster ∧ is_frontier g1.top_cluster g1.clustering
      ∧ (g.clustering.length ≠ 1 → g1.clustering.length + 1 = g.clustering.length)
      ∧ (g.clustering.length = 1 → g1.clustering = g.clustering ∧ g1.terminate = true) := by
  unfold move_up_hierarchy at h
  split at h
  · rename_i hlen
    simp only [Option.some.injEq] at h
    subst h
    exact ⟨rfl, hf, fun hne => absurd hlen hne, fun _ => ⟨rfl, rfl⟩⟩
  · rename_i hlen
    split at h
    · simp at h
    · rename_i p hsel
      split at h
      · simp at h
      · rename_i g6 hmerge
        cases hU : g6.update_charge_spaces nxt (some p.uid) with
        | none => rw [hU] at h; simp at h
        | some res =>
          obtain ⟨r, g7⟩ := res
          rw [hU] at h
          simp only [Option.map_some', Option.some.injEq] at h
          subst h
          obtain ⟨s1, s2, -, -, -⟩ := same_static_update_charge_spaces nxt _ _ _ _ hU
          obtain ⟨m1, m2, -⟩ := merge_up_static _ _ _ hmerge
          have hlen2 : 2 ≤ g.clustering.length := by
            have := is_frontier_length_pos hf
            omega
          unfold select_min_parent at hsel
          split at hsel
          · simp at hsel
          · rename_i c0 rest hcl
            split at hsel
            · simp at hsel
            · rename_i c_min hmin
              obtain ⟨hmem, hle⟩ := min_parent_step_spec g rest c0 c_min hmin
              rw [← hcl] at hmem hle
              have key := frontier_merge g.top_cluster hw hu hf (self_mem_nodes _) hlen2
                c_min hmem p hsel
                (fun e he pe hpe => hle e he pe p hpe hsel)
              obtain ⟨-, -, k3, k4⟩ := key
              refine ⟨s1.trans m1, ?_, ?_, fun h1 => absurd h1 hlen⟩
              · rw [s1, m1, s2, m2]
                exact k3
              · intro _
                rw [s2, m2]
                exact k4

theorem is_frontier_of_reachable (nxt : next_extremal_op) (top : sidb_cluster)
    (hw : top.well_formed) (hu : top.uids.Nodup) (g : ground_state_space)
    (hr : reachable nxt top g) : g.top_cluster = top ∧ is_frontier top g.clustering := by
  induction hr with
  | init g h1 h2 => exact ⟨h1, h2 ▸ is_frontier_initial top hw hu⟩
  | prune g g1 skip r _ hU ih =>
    obtain ⟨s1, s2, -, -, -⟩ := same_static_update_charge_spaces nxt _ _ _ _ hU
    exact ⟨s1.trans ih.1, s2 ▸ ih.2⟩
  | move_up g g1 _ hM ih =>
    obtain ⟨h1, h2⟩ := ih
    obtain ⟨k1, k2, -, -⟩ := move_up_hierarchy_frontier nxt g g1 (h1 ▸ hw) (h1 ▸ hu)
      (h1 ▸ h2) hM
    exact ⟨k1.trans h1, (k1.trans h1) ▸ k2⟩

/-! ### Invariants of the clustering -/

open sidb_cluster ground_state_space

/-- C7: frontier partitioning (I1). For a hierarchy that is a binary tree with singleton leaves,
distinct uids and distinct sites, in every state of a run (after construction, after every
pruning pass and after every `move_up_hierarchy`) the site sets of the members of the clustering
are pairwise disjoint and their union is the site set. -/
theorem clustering_partitions_sites (nxt : next_extremal_op) (top : sidb_cluster)
    (hw : top.well_formed) (hu : top.uids.Nodup) (hn : top.sidbs.Nodup)
    (g : ground_state_space) (hr : reachable nxt top g) :
    partitions_sites top g.clustering :=
  partitions_sites_of_frontier (is_frontier_of_reachable nxt top hw hu g hr).2 hw hn

/-- C7 (witness): the two-leaf hierarchy, in the state after one `move_up_hierarchy`. -/
theorem clustering_partitions_sites_witness :
    ∃ g1, (two_leaf_state [⟨neg1, []⟩, ⟨neut1, []⟩] [⟨neut1, []⟩]).move_up_hierarchy
        potential_projection_order.get_next = some g1
      ∧ two_leaf_top.well_formed ∧ two_leaf_top.uids.Nodup ∧ two_leaf_top.sidbs.Nodup
      ∧ partitions_sites two_leaf_top g1.clustering :=
  ⟨_, rfl, ⟨rfl, rfl, List.Perm.refl _⟩, by decide, by decide,
    clustering_partitions_sites potential_projection_order.get_next two_leaf_top
      ⟨rfl, rfl, List.Perm.refl _⟩ (by decide) (by decide) _
      (reachable.move_up (two_leaf_state [⟨neg1, []⟩, ⟨neut1, []⟩] [⟨neut1, []⟩]) _
        (reachable.init (two_leaf_state [⟨neg1, []⟩, ⟨neut1, []⟩] [⟨neut1, []⟩]) rfl rfl) rfl)⟩

/-- C10 (counterexample): an iteration of the outer loop that does not shrink the clustering. For
a layout with one site the only iteration of the loop starts and ends with one cluster. -/
theorem run_iteration_not_strictly_decreasing :
    ∃ g1, reachable potential_projection_order.get_next (.leaf 0 [0]) single_leaf_state
      ∧ single_leaf_state.terminate = false
      ∧ run_iteration potential_projection_order.get_next 1 single_leaf_state = some g1
      ∧ ¬ g1.clustering.length < single_leaf_state.clustering.length :=
  ⟨_, reachable.init single_leaf_state rfl rfl, rfl, rfl, by decide⟩

/-- C10 (amended): in a run over a well-formed hierarchy with distinct uids, an iteration of the
outer loop that starts with more than one member in the clustering leaves it with exactly one
member less; an iteration that starts with one member leaves the clustering as it is and sets
`terminate`. -/
theorem run_iteration_progress (nxt : next_extremal_op) (top : sidb_cluster)
    (hw : top.well_formed) (hu : top.uids.Nodup) (g : ground_state_space)
    (hr : reachable nxt top g) (fuel : Nat) (g1 : ground_state_space)
    (h : run_iteration nxt fuel g = some g1) :
    (g.clustering.length ≠ 1 → g1.clustering.length + 1 = g.clustering.length)
      ∧ (g.clustering.length = 1 → g1.clustering = g.clustering ∧ g1.terminate = true) := by
  unfold run_iteration at h
  split at h
  · simp at h
  · rename_i g2 hP
    obtain ⟨s1, s2, -, -, -⟩ := same_static_prune_to_fixpoint nxt fuel g g2 hP
    obtain ⟨r1, r2⟩ := is_frontier_of_reachable nxt top hw hu g hr
    have ht : g2.top_cluster = top := s1.trans r1
    obtain ⟨-, -, k3, k4⟩ := move_up_hierarchy_frontier nxt g2 g1 (ht.symm ▸ hw) (ht.symm ▸ hu)
      (by rw [ht, s2]; exact r2) h
    rw [s2] at k3 k4
    exact ⟨k3, k4⟩

/-- C10 (witness): one iteration on the two-leaf hierarchy merges the two leaves. -/
theorem run_iteration_progress_witness :
    ∃ g1, run_iteration potential_projection_order.get_next 3
        (two_leaf_state [⟨neg1, []⟩, ⟨neut1, []⟩] [⟨neg1, []⟩, ⟨neut1, []⟩]) = some g1
      ∧ g1.clustering.length + 1 = 2 :=
  ⟨_, rfl, (run_iteration_progress potential_projection_order.get_next two_leaf_top
    ⟨rfl, rfl, List.Perm.refl _⟩ (by decide)
    (two_leaf_state [⟨neg1, []⟩, ⟨neut1, []⟩] [⟨neg1, []⟩, ⟨neut1, []⟩])
    (reachable.init (two_leaf_state [⟨neg1, []⟩, ⟨neut1, []⟩] [⟨neg1, []⟩, ⟨neut1, []⟩]) rfl rfl)
    3 _ rfl).1 (by decide)⟩

/-! ### Merging charge spaces -/

theorem same_potentials_refl (g : ground_state_space) : same_potentials g g :=
  ⟨rfl, rfl, fun _ => ⟨rfl, rfl⟩⟩

theorem same_potentials_trans (a b c : ground_state_space) (h1 : same_potentials a b)
    (h2 : same_potentials b c) : same_potentials a c :=
  ⟨h2.1.trans h1.1, h2.2.1.trans h1.2.1,
    fun u => ⟨(h2.2.2 u).1.trans (h1.2.2 u).1, (h2.2.2 u).2.trans (h1.2.2 u).2⟩⟩

theorem same_potentials_symm (a b : ground_state_space) (h : same_potentials a b) :
    same_potentials b a :=
  ⟨h.1.symm, h.2.1.symm, fun u => ⟨(h.2.2 u).1.symm, (h.2.2 u).2.symm⟩⟩

theorem same_potentials_modify_charge_space (g : ground_state_space) (u : Nat)
    (f : List sidb_cluster_charge_state → List sidb_cluster_charge_state) :
    same_potentials g (g.modify u (fun d => { d with charge_space := f d.charge_space })) := by
  refine ⟨rfl, rfl, fun v => ?_⟩
  unfold ground_state_space.modify
  by_cases hv : v = u
  · subst hv; simp
  · simp [Function.update_noteq hv]

theorem get_proj_state_bound_congr {g g1 : ground_state_space} (h : same_potentials g g1)
    (b : bound_direction) (c : sidb_cluster) (m : multiset_conf) (i : Nat) :
    g1.get_proj_state_bound b c m i = g.get_proj_state_bound b c m i := by
  unfold get_proj_state_bound
  rw [(h.2.2 c.uid).1]

theorem get_recv_ext_pot_bound_congr {g g1 : ground_state_space} (h : same_potentials g g1)
    (b : bound_direction) (c : sidb_cluster) (i : Nat) :
    g1.get_recv_ext_pot_bound b c i = g.get_recv_ext_pot_bound b c i := by
  unfold get_recv_ext_pot_bound
  rw [(h.2.2 c.uid).2]

/-- The sums of `verify_composition` read only the projector states of the composition. -/
theorem sum_proj_state_bounds_congr {g g1 : ground_state_space} (h : same_potentials g g1)
    (b : bound_direction) (i : Nat) :
    ∀ (comp comp1 : sidb_cluster_state_composition),
      comp.map sidb_cluster_state.key = comp1.map sidb_cluster_state.key →
      sum_proj_state_bounds g1 b i comp1 = sum_proj_state_bounds g b i comp := by
  have key : ∀ (comp comp1 : sidb_cluster_state_composition) (acc : Pot),
      comp.map sidb_cluster_state.key = comp1.map sidb_cluster_state.key →
      for_each (fun acc cst => (g1.get_proj_state_bound b cst.cluster cst.multiset i).map
          (fun pp => acc + pp.V)) comp1 acc
        = for_each (fun acc cst => (g.get_proj_state_bound b cst.cluster cst.multiset i).map
          (fun pp => acc + pp.V)) comp acc := by
    intro comp
    induction comp with
    | nil =>
      intro comp1 acc hk
      cases comp1 with
      | nil => rfl
      | cons _ _ => simp at hk
    | cons x xs ih =>
      intro comp1 acc hk
      cases comp1 with
      | nil => simp at hk
      | cons y ys =>
        simp only [List.map_cons, List.cons.injEq, sidb_cluster_state.key, Prod.mk.injEq] at hk
        obtain ⟨⟨hc, hm⟩, hrest⟩ := hk
        rw [for_each_cons, for_each_cons, get_proj_state_bound_congr h, ← hc, ← hm]
        cases hq : g.get_proj_state_bound b x.cluster x.multiset i with
        | none => rfl
        | some pp =>
          simp only [Option.map_some', Option.some_bind]
          exact ih ys _ hrest
  intro comp comp1 hk
  exact key comp comp1 0 hk

theorem ipb_at_set (m : intra_cluster_potential_bounds) (i j : Nat) (lb ub : Pot) :
    (m.set i lb ub).at j = if j = i then some (lb, ub) else m.at j := by
  unfold intra_cluster_potential_bounds.set intra_cluster_potential_bounds.at
  by_cases hji : j = i
  · subst hji
    rw [if_pos rfl, List.find?_append]
    have : List.find? (fun e => decide (e.1 = j))
        (List.filter (fun e => decide (e.1 ≠ j)) m) = none := by
      rw [List.find?_eq_none]
      intro x hx
      have := (List.mem_filter.mp hx).2
      simpa using this
    rw [this]
    simp
  · rw [if_neg hji, List.find?_append]
    have h1 : List.find? (fun e => decide (e.1 = j))
        (List.filter (fun e => decide (e.1 ≠ i)) m)
        = List.find? (fun e => decide (e.1 = j)) m := by
      rw [List.find?_filter]
      congr 1
      funext a
      by_cases ha : a.1 = j
      · have : ¬ a.1 = i := fun h => hji (ha ▸ h)
        simp [ha, this]
        exact fun h => hji h
      · simp [ha]
    rw [h1]
    have h2 : List.find? (fun e => decide (e.1 = j)) [(i, lb, ub)] = none := by
      simp [List.find?_cons, Ne.symm hji]
    rw [h2]
    cases List.find? (fun e => decide (e.1 = j)) m <;> rfl

theorem attach_step_eq (g : ground_state_space) (comp : sidb_cluster_state_composition)
    (r : sidb_cluster_state) (i : Nat) :
    attach_internal_bounds_step g comp r i
      = (composition_sums g comp i).map
          (fun p => { r with internal_pot_bounds := r.internal_pot_bounds.set i p.1 p.2 }) := by
  unfold attach_internal_bounds_step composition_sums
  cases sum_proj_state_bounds g .LOWER i comp <;>
    cases sum_proj_state_bounds g .UPPER i comp <;> rfl

theorem attach_key (g : ground_state_space) (comp : sidb_cluster_state_composition)
    (sidbs : List Nat) (r r1 : sidb_cluster_state)
    (h : for_each (attach_internal_bounds_step g comp) sidbs r = some r1) :
    r1.key = r.key := by
  refine for_each_inv _ (fun x => x.key = r.key) sidbs ?_ r r1 rfl h
  intro s i s1 _ hs hstep
  rw [attach_step_eq] at hstep
  cases hc : composition_sums g comp i with
  | none => rw [hc] at hstep; simp at hstep
  | some p =>
    rw [hc] at hstep
    simp only [Option.map_some', Option.some.injEq] at hstep
    subst hstep
    exact hs

theorem attach_none (g : ground_state_space) (comp : sidb_cluster_state_composition) :
    ∀ (sidbs : List Nat) (r : sidb_cluster_state),
      (∃ i ∈ sidbs, composition_sums g comp i = none) →
      for_each (attach_internal_bounds_step g comp) sidbs r = none := by
  intro sidbs
  induction sidbs with
  | nil => intro r h; simp at h
  | cons i rest ih =>
    intro r h
    rw [for_each_cons, attach_step_eq]
    cases hc : composition_sums g comp i with
    | none => rfl
    | some p =>
      simp only [Option.map_some', Option.some_bind]
      apply ih
      obtain ⟨j, hj, hjn⟩ := h
      rcases List.mem_cons.mp hj with rfl | hj
      · rw [hc] at hjn; simp at hjn
      · exact ⟨j, hj, hjn⟩

theorem attach_some (g : ground_state_space) (comp : sidb_cluster_state_composition) :
    ∀ (sidbs : List Nat) (r : sidb_cluster_state),
      (∀ i ∈ sidbs, composition_sums g comp i ≠ none) →
      ∃ r1, for_each (attach_internal_bounds_step g comp) sidbs r = some r1
        ∧ ∀ j, r1.internal_pot_bounds.at j
            = if j ∈ sidbs then composition_sums g comp j else r.internal_pot_bounds.at j := by
  intro sidbs
  induction sidbs with
  | nil => intro r _; exact ⟨r, rfl, fun j => by simp⟩
  | cons i rest ih =>
    intro r h
    rw [for_each_cons, attach_step_eq]
    cases hc : composition_sums g comp i with
    | none => exact absurd hc (h i (List.mem_cons_self _ _))
    | some p =>
      simp only [Option.map_some', Option.some_bind]
      obtain ⟨r1, hr1, hat⟩ := ih
        { r with internal_pot_bounds := r.internal_pot_bounds.set i p.1 p.2 }
        (fun j hj => h j (List.mem_cons_of_mem _ hj))
      refine ⟨r1, hr1, ?_⟩
      intro j
      rw [hat j]
      by_cases hj : j ∈ rest
      · rw [if_pos hj, if_pos (List.mem_cons_of_mem _ hj)]
      · rw [if_neg hj]
        simp only [ipb_at_set]
        by_cases hji : j = i
        · subst hji
          rw [if_pos rfl, if_pos (List.mem_cons_self _ _), hc]
        · rw [if_neg hji, if_neg]
          simp [hji, hj]

theorem collect_witnesses_congr (mu : Pot × Pot × Pot × Pot)
    (b1 b2 : Nat → Option (Pot × Pot)) :
    ∀ (sidbs : List Nat) (st : witness_partitioning_state), (∀ i ∈ sidbs, b1 i = b2 i) →
      collect_witnesses mu b1 sidbs st = collect_witnesses mu b2 sidbs st := by
  intro sidbs
  induction sidbs with
  | nil => intro st _; rfl
  | cons i rest ih =>
    intro st h
    unfold collect_witnesses
    rw [h i (List.mem_cons_self _ _)]
    cases b2 i with
    | none => rfl
    | some p =>
      obtain ⟨lb, ub⟩ := p
      exact ih _ (fun j hj => h j (List.mem_cons_of_mem _ hj))

theorem composition_sums_congr {g g1 : ground_state_space} (h : same_potentials g g1)
    (comp comp1 : sidb_cluster_state_composition)
    (hk : comp.map sidb_cluster_state.key = comp1.map sidb_cluster_state.key) (i : Nat) :
    composition_sums g1 comp1 i = composition_sums g comp i := by
  unfold composition_sums
  rw [sum_proj_state_bounds_congr h .LOWER i comp comp1 hk,
    sum_proj_state_bounds_congr h .UPPER i comp comp1 hk]

/-- The verdict of `verify_composition` depends only on the projector states of the composition
and on the potentials of the state. -/
theorem verify_composition_loop_congr {g g1 : ground_state_space} (h : same_potentials g g1)
    (comp comp1 : sidb_cluster_state_composition)
    (hk : comp.map sidb_cluster_state.key = comp1.map sidb_cluster_state.key) :
    ∀ (todo todo1 done done1 : List sidb_cluster_state),
      todo.map sidb_cluster_state.key = todo1.map sidb_cluster_state.key →
      (verify_composition_loop g1 comp1 done1 todo1).map Prod.fst
        = (verify_composition_loop g comp done todo).map Prod.fst := by
  intro todo
  induction todo with
  | nil =>
    intro todo1 done done1 ht
    cases todo1 with
    | nil => rfl
    | cons _ _ => simp at ht
  | cons r rest ih =>
    intro todo1 done done1 ht
    cases todo1 with
    | nil => simp at ht
    | cons r' rest' =>
      simp only [List.map_cons, List.cons.injEq] at ht
      obtain ⟨hrk, hrest⟩ := ht
      have hc : r'.cluster = r.cluster := (congrArg Prod.fst hrk).symm
      have hm : r'.multiset = r.multiset := (congrArg Prod.snd hrk).symm
      unfold verify_composition_loop
      rw [hc]
      by_cases hall : ∀ i ∈ r.cluster.sidbs, composition_sums g comp i ≠ none
      · obtain ⟨r1, hr1, hat⟩ := attach_some g comp r.cluster.sidbs r hall
        obtain ⟨r1', hr1', hat'⟩ := attach_some g1 comp1 r.cluster.sidbs r'
          (fun i hi => by rw [composition_sums_congr h comp comp1 hk]; exact hall i hi)
        rw [hr1, hr1']
        simp only
        have hk1 := attach_key g comp _ r r1 hr1
        have hk1' := attach_key g1 comp1 _ r' r1' hr1'
        have hc1 : r1.cluster = r.cluster := congrArg Prod.fst hk1
        have hm1 : r1.multiset = r.multiset := congrArg Prod.snd hk1
        have hc1' : r1'.cluster = r.cluster := (congrArg Prod.fst hk1').trans hc
        have hm1' : r1'.multiset = r.multiset := (congrArg Prod.snd hk1').trans hm
        have hA : g1.perform_potential_bound_analysis .ANALYZE_COMPOSITION r1'.cluster
            r1'.multiset (some r1'.internal_pot_bounds)
            = g.perform_potential_bound_analysis .ANALYZE_COMPOSITION r1.cluster
              r1.multiset (some r1.internal_pot_bounds) := by
          unfold perform_potential_bound_analysis perform_potential_bound_analysis_on
          rw [hc1, hm1, hc1', hm1', h.1, h.2.1]
          rw [collect_witnesses_congr g.mu_bounds_with_error _
            (g.get_received_potential_bounds .ANALYZE_COMPOSITION r.cluster r.multiset
              (some r1.internal_pot_bounds)) r.cluster.sidbs]
          intro i hi
          unfold get_received_potential_bounds
          simp only
          rw [hat i, hat' i, if_pos hi, if_pos hi, composition_sums_congr h comp comp1 hk,
            get_recv_ext_pot_bound_congr h, get_recv_ext_pot_bound_congr h]
        rw [hA]
        cases g.perform_potential_bound_analysis .ANALYZE_COMPOSITION r1.cluster
            r1.multiset (some r1.internal_pot_bounds) with
        | none => rfl
        | some a =>
          cases a with
          | false => rfl
          | true => exact ih rest' _ _ hrest
      · simp only [ne_eq, not_forall, not_not] at hall
        obtain ⟨i, hi, hin⟩ := hall
        rw [attach_none g comp _ r ⟨i, hi, hin⟩,
          attach_none g1 comp1 _ r' ⟨i, hi, by rw [composition_sums_congr h comp comp1 hk]; exact hin⟩]

theorem verify_composition_congr {g g1 : ground_state_space} (h : same_potentials g g1)
    (comp comp1 : sidb_cluster_state_composition)
    (hk : comp.map sidb_cluster_state.key = comp1.map sidb_cluster_state.key) :
    (g1.verify_composition comp1).map Prod.fst = (g.verify_composition comp).map Prod.fst :=
  verify_composition_loop_congr h comp comp1 hk comp comp1 [] [] hk

/-- `verify_composition` changes only the attached bounds of the child states. -/
theorem verify_composition_loop_keys (g : ground_state_space)
    (comp : sidb_cluster_state_composition) :
    ∀ (todo done : List sidb_cluster_state) (ok : Bool)
      (comp1 : sidb_cluster_state_composition),
      verify_composition_loop g comp done todo = some (ok, comp1) →
      comp1.map sidb_cluster_state.key = (done ++ todo).map sidb_cluster_state.key := by
  intro todo
  induction todo with
  | nil =>
    intro done ok comp1 h
    simp only [verify_composition_loop, Option.some.injEq, Prod.mk.injEq] at h
    rw [← h.2]
    simp
  | cons r rest ih =>
    intro done ok comp1 h
    unfold verify_composition_loop at h
    split at h
    · simp at h
    · rename_i r1 hr1
      have hk := attach_key g comp _ r r1 hr1
      split at h
      · simp at h
      · simp only [Option.some.injEq, Prod.mk.injEq] at h
        rw [← h.2]
        simp [hk]
      · have := ih _ _ _ h
        rw [this]
        simp [hk]

theorem verify_composition_keys (g : ground_state_space)
    (comp comp1 : sidb_cluster_state_composition) (ok : Bool)
    (h : g.verify_composition comp = some (ok, comp1)) :
    comp1.map sidb_cluster_state.key = comp.map sidb_cluster_state.key := by
  have := verify_composition_loop_keys g comp comp [] ok comp1 h
  simpa using this

theorem multiset_conf.zero_add (m : multiset_conf) : (⟨0, 0, 0⟩ : multiset_conf).add m = m := by
  cases m; simp [multiset_conf.add]

theorem multiset_conf.add_sub_cancel (a b : multiset_conf) : (a.add b).sub b = a := by
  cases a; cases b; simp [multiset_conf.add, multiset_conf.sub]

theorem multiset_conf.sub_self (a : multiset_conf) : a.sub a = ⟨0, 0, 0⟩ := by
  cases a; simp [multiset_conf.sub]

theorem insert_composition_multisets (m : sidb_cluster_charge_state)
    (comp : sidb_cluster_state_composition) :
    ∀ cs : List sidb_cluster_charge_state,
      (insert_composition m comp cs).map (fun e => e.multiset)
        = if m.multiset ∈ cs.map (fun e => e.multiset) then cs.map (fun e => e.multiset)
          else cs.map (fun e => e.multiset) ++ [m.multiset] := by
  intro cs
  induction cs with
  | nil => simp [insert_composition]
  | cons e rest ih =>
    unfold insert_composition
    by_cases he : e.multiset = m.multiset
    · rw [if_pos he]
      simp [he]
    · rw [if_neg he]
      simp only [List.map_cons, ih, List.mem_cons]
      by_cases hm : m.multiset ∈ rest.map (fun e => e.multiset)
      · simp [hm]
      · have : ¬ (m.multiset = e.multiset ∨ m.multiset ∈ rest.map (fun e => e.multiset)) := by
          rintro (h | h)
          · exact he h.symm
          · exact hm h
        rw [if_neg hm, if_neg this]
        rfl

theorem insert_composition_nodup (m : sidb_cluster_charge_state)
    (comp : sidb_cluster_state_composition) (cs : List sidb_cluster_charge_state)
    (h : (cs.map (fun e => e.multiset)).Nodup) :
    ((insert_composition m comp cs).map (fun e => e.multiset)).Nodup := by
  rw [insert_composition_multisets]
  split
  · exact h
  · rename_i hm
    exact List.Nodup.append h (List.nodup_singleton _)
      (by intro x hx hx2; rw [List.mem_singleton.mp hx2] at hx; exact hm hx)

theorem insert_composition_nonempty (m : sidb_cluster_charge_state)
    (comp : sidb_cluster_state_composition) (hm : m.compositions ≠ []) :
    ∀ cs : List sidb_cluster_charge_state, (∀ e ∈ cs, e.compositions ≠ []) →
      ∀ e ∈ insert_composition m comp cs, e.compositions ≠ [] := by
  intro cs
  induction cs with
  | nil =>
    intro _ e he
    simp only [insert_composition, List.mem_singleton] at he
    rw [he]; exact hm
  | cons x rest ih =>
    intro h e he
    unfold insert_composition at he
    split at he
    · rcases List.mem_cons.mp he with rfl | he
      · simp
      · exact h e (List.mem_cons_of_mem _ he)
    · rcases List.mem_cons.mp he with rfl | he
      · exact h e (List.mem_cons_self _ _)
      · exact ih (fun y hy => h y (List.mem_cons_of_mem _ hy)) e he

theorem compositions_of_eq_nil (cs : List sidb_cluster_charge_state) (m : multiset_conf)
    (h : m ∉ cs.map (fun e => e.multiset)) : compositions_of cs m = [] := by
  unfold compositions_of
  have : cs.filter (fun e => decide (e.multiset = m)) = [] := by
    rw [List.filter_eq_nil_iff]
    intro e he hem
    exact h (List.mem_map.mpr ⟨e, he, by simpa using hem⟩)
  rw [this]
  rfl

theorem compositions_of_cons (e : sidb_cluster_charge_state)
    (rest : List sidb_cluster_charge_state) (m : multiset_conf) :
    compositions_of (e :: rest) m
      = (if e.multiset = m then e.compositions else []) ++ compositions_of rest m := by
  unfold compositions_of
  by_cases h : e.multiset = m
  · simp [List.filter_cons, h]
  · simp [List.filter_cons, h]

theorem compositions_of_insert (m : sidb_cluster_charge_state)
    (comp : sidb_cluster_state_composition) (hm : m.compositions = [comp]) :
    ∀ cs : List sidb_cluster_charge_state, (cs.map (fun e => e.multiset)).Nodup →
      ∀ m1, compositions_of (insert_composition m comp cs) m1
        = compositions_of cs m1 ++ (if m.multiset = m1 then [comp] else []) := by
  intro cs
  induction cs with
  | nil =>
    intro _ m1
    simp only [insert_composition, compositions_of_cons, hm]
    simp [compositions_of]
  | cons e rest ih =>
    intro hnd m1
    simp only [List.map_cons, List.nodup_cons] at hnd
    unfold insert_composition
    by_cases he : e.multiset = m.multiset
    · rw [if_pos he, compositions_of_cons, compositions_of_cons]
      by_cases h1 : m.multiset = m1
      · have hrest : compositions_of rest m1 = [] :=
          compositions_of_eq_nil rest m1 (by rw [← h1, ← he]; exact hnd.1)
        simp [he, h1, hrest]
      · have : ¬ e.multiset = m1 := fun h => h1 (he ▸ h)
        simp [this, h1]
    · rw [if_neg he, compositions_of_cons, compositions_of_cons, ih hnd.2 m1,
        List.append_assoc]

theorem modify_data_self (g : ground_state_space) (u : Nat) (f : cluster_data → cluster_data) :
    (g.modify u f).data u = f (g.data u) := by
  simp [ground_state_space.modify]

theorem modify_data_other (g : ground_state_space) (u v : Nat) (f : cluster_data → cluster_data)
    (h : v ≠ u) : (g.modify u f).data v = g.data v := by
  simp [ground_state_space.modify, Function.update_noteq h]

/-- One visit of the base case of `fill_merged_charge_state_space` extends the merge invariant by
the visited pair. -/
theorem fill_merged_base_inv (g0 : ground_state_space) (pu : Nat) (ps : List Nat)
    (l r : sidb_cluster) (done : List (multiset_conf × multiset_conf))
    (g : ground_state_space) (m : sidb_cluster_charge_state)
    (comp : sidb_cluster_state_composition) (p : multiset_conf × multiset_conf)
    (hm : m.compositions = [comp]) (hk : comp.map sidb_cluster_state.key = pair_key l r p)
    (hs : m.multiset = p.1.add p.2) (hinv : merge_inv g0 pu l r done g)
    (acc1 : ground_state_space × sidb_cluster_charge_state)
    (h : fill_merged_base (.node pu ps l r) (g, m) = some acc1) :
    acc1.2.multiset = m.multiset
      ∧ (∃ comp1, acc1.2.compositions = [comp1]
          ∧ comp1.map sidb_cluster_state.key = comp.map sidb_cluster_state.key)
      ∧ merge_inv g0 pu l r (done ++ [p]) acc1.1 := by
  obtain ⟨hpot, hcs, hnd, hne, hview⟩ := hinv
  unfold fill_merged_base at h
  simp only [hm] at h
  cases hv : g.verify_composition comp with
  | none => rw [hv] at h; simp at h
  | some res =>
    obtain ⟨ok, comp1⟩ := res
    rw [hv] at h
    simp only at h
    have hk1 := verify_composition_keys g comp comp1 ok hv
    have hverdict : ok = true ↔ composition_verified g0 l r p := by
      unfold composition_verified
      have h1 := verify_composition_congr hpot [⟨l, p.1, []⟩, ⟨r, p.2, []⟩] comp
        (by rw [hk]; rfl)
      rw [hv] at h1
      simp only [Option.map_some'] at h1
      rw [← h1]
      simp
    cases ok with
    | false =>
      simp only [Bool.false_eq_true, if_false, Option.some.injEq] at h
      subst h
      refine ⟨rfl, ⟨comp1, rfl, hk1⟩, hpot, hcs, hnd, hne, ?_⟩
      intro m1
      have hnv : ¬ composition_verified g0 l r p := fun hc => by
        have := hverdict.mpr hc
        simp at this
      rw [hview m1]
      simp [List.filter_append, hnv]
    | true =>
      simp only [if_true, Option.some.injEq] at h
      subst h
      have hv1 : composition_verified g0 l r p := hverdict.mp rfl
      refine ⟨rfl, ⟨comp1, rfl, hk1⟩, ?_, ?_, ?_, ?_, ?_⟩
      · exact same_potentials_trans _ _ _ hpot (same_potentials_modify_charge_space g _ _)
      · intro u hu
        simp only [sidb_cluster.uid]
        rw [modify_data_other _ _ _ _ hu]
        exact hcs u hu
      · simp only [sidb_cluster.uid, modify_data_self]
        exact insert_composition_nodup _ _ _ hnd
      · simp only [sidb_cluster.uid, modify_data_self]
        exact insert_composition_nonempty _ _ (by simp) _ hne
      · intro m1
        simp only [sidb_cluster.uid, modify_data_self]
        rw [compositions_of_insert _ _ rfl _ hnd m1, List.map_append, hview m1]
        simp only [List.filter_append, List.map_append]
        congr 1
        by_cases hm1 : p.1.add p.2 = m1
        · simp [hv1, hm1, hs, hk1, hk]
        · simp [hv1, hm1, hs]

/-- The loop over the charge space of the right child, for a fixed multiset `ml` of the left
child, extends the merge invariant by the pairs `(ml, mr)`. -/
theorem fill_merged_inner_inv (g0 : ground_state_space) (pu : Nat) (ps : List Nat)
    (l r : sidb_cluster) (ml : multiset_conf) :
    ∀ (rs : List sidb_cluster_charge_state) (done : List (multiset_conf × multiset_conf))
      (g : ground_state_space) (m : sidb_cluster_charge_state)
      (compL : sidb_cluster_state_composition),
      m.compositions = [compL] → compL.map sidb_cluster_state.key = [(l, ml)] →
      m.multiset = ml → merge_inv g0 pu l r done g →
      ∀ acc1, for_each (fill_merged_step r
          (fill_merged_charge_state_space (.node pu ps l r) [])) rs (g, m) = some acc1 →
        acc1.2.multiset = ml
          ∧ (∃ compL1, acc1.2.compositions = [compL1]
              ∧ compL1.map sidb_cluster_state.key = [(l, ml)])
          ∧ merge_inv g0 pu l r (done ++ rs.map (fun mr => (ml, mr.multiset))) acc1.1 := by
  intro rs
  induction rs with
  | nil =>
    intro done g m compL hm hk hs hinv acc1 h
    simp only [for_each, Option.some.injEq] at h
    subst h
    exact ⟨hs, ⟨compL, hm, hk⟩, by simpa using hinv⟩
  | cons mr rest ih =>
    intro done g m compL hm hk hs hinv acc1 h
    obtain ⟨acc2, hstep, hrest⟩ := for_each_cons_some h
    unfold fill_merged_step at hstep
    simp only [hm] at hstep
    split at hstep
    · simp at hstep
    · rename_i g2 m2 hnext
      unfold fill_merged_charge_state_space at hnext
      obtain ⟨b1, ⟨comp1, b2, b3⟩, b4⟩ := fill_merged_base_inv g0 pu ps l r done g
        { multiset := m.multiset.add mr.multiset,
          compositions := [compL ++ [⟨r, mr.multiset, []⟩]] }
        (compL ++ [⟨r, mr.multiset, []⟩]) (ml, mr.multiset) rfl
        (by simp [hk, pair_key, sidb_cluster_state.key]) (by simp [hs]) hinv (g2, m2) hnext
      simp only at b1 b2 b3 b4
      rw [b2] at hstep
      simp only [Option.some.injEq] at hstep
      subst hstep
      have hk2 : comp1.dropLast.map sidb_cluster_state.key = [(l, ml)] := by
        rw [List.map_dropLast, b3, List.map_append, hk]
        rfl
      have := ih (done ++ [(ml, mr.multiset)]) g2
        { multiset := m2.multiset.sub mr.multiset, compositions := [comp1.dropLast] }
        comp1.dropLast rfl hk2
        (by simp only [b1, hs]; exact multiset_conf.add_sub_cancel _ _) b4 acc1 hrest
      simpa using this

theorem multiset_pairs_cons (ml : sidb_cluster_charge_state)
    (ls rs : List sidb_cluster_charge_state) :
    multiset_pairs (ml :: ls) rs
      = rs.map (fun mr => (ml.multiset, mr.multiset)) ++ multiset_pairs ls rs := by
  simp [multiset_pairs]

/-- The loop over the charge space of the left child extends the merge invariant by all pairs. -/
theorem fill_merged_outer_inv (g0 : ground_state_space) (pu : Nat) (ps : List Nat)
    (l r : sidb_cluster) (hr : r.uid ≠ pu) :
    ∀ (ls : List sidb_cluster_charge_state) (done : List (multiset_conf × multiset_conf))
      (g : ground_state_space),
      merge_inv g0 pu l r done g →
      ∀ acc1, for_each (fill_merged_step l
          (fill_merged_charge_state_space (.node pu ps l r) [r])) ls
          (g, ⟨⟨0, 0, 0⟩, [[]]⟩) = some acc1 →
        acc1.2 = ⟨⟨0, 0, 0⟩, [[]]⟩
          ∧ merge_inv g0 pu l r
              (done ++ multiset_pairs ls (g0.data r.uid).charge_space) acc1.1 := by
  intro ls
  induction ls with
  | nil =>
    intro done g hinv acc1 h
    simp only [for_each, Option.some.injEq] at h
    subst h
    exact ⟨rfl, by simpa [multiset_pairs] using hinv⟩
  | cons ml rest ih =>
    intro done g hinv acc1 h
    obtain ⟨acc2, hstep, hrest⟩ := for_each_cons_some h
    unfold fill_merged_step at hstep
    simp only at hstep
    split at hstep
    · simp at hstep
    · rename_i g2 m2 hnext
      unfold fill_merged_charge_state_space at hnext
      simp only at hnext
      rw [hinv.2.1 r.uid hr] at hnext
      obtain ⟨b1, ⟨compL1, b2, b3⟩, b4⟩ := fill_merged_inner_inv g0 pu ps l r ml.multiset
        (g0.data r.uid).charge_space done g _ [⟨l, ml.multiset, []⟩] rfl rfl
        (multiset_conf.zero_add _) hinv (g2, m2) hnext
      simp only at b1 b2 b3 b4
      rw [b2] at hstep
      simp only [Option.some.injEq] at hstep
      subst hstep
      have hlen : compL1.dropLast = [] := by
        have h1 : compL1.length = 1 := by
          have := congrArg List.length b3
          simpa using this
        match compL1, h1 with
        | [x], _ => rfl
      rw [hlen, b1, multiset_conf.sub_self] at hrest
      have := ih (done ++ (g0.data r.uid).charge_space.map
        (fun mr => (ml.multiset, mr.multiset))) g2 b4 acc1 hrest
      rw [multiset_pairs_cons, ← List.append_assoc]
      exact this

/-- The merge invariant after `construct_merged_charge_state_space`, for all pairs. -/
theorem construct_merged_inv (g g1 : ground_state_space) (pu : Nat) (ps : List Nat)
    (l r : sidb_cluster) (hempty : (g.data pu).charge_space = []) (hr : r.uid ≠ pu)
    (h : g.construct_merged_charge_state_space (.node pu ps l r) = some g1) :
    merge_inv g pu l r
      (multiset_pairs (g.data l.uid).charge_space (g.data r.uid).charge_space) g1 := by
  unfold construct_merged_charge_state_space at h
  cases hF : fill_merged_charge_state_space (.node pu ps l r) (sidb_cluster.node pu ps l r).children
      (g, ⟨⟨0, 0, 0⟩, [[]]⟩) with
  | none => rw [hF] at h; simp at h
  | some acc1 =>
    rw [hF] at h
    simp only [Option.map_some', Option.some.injEq] at h
    subst h
    simp only [children] at hF
    unfold fill_merged_charge_state_space at hF
    simp only at hF
    have h0 : merge_inv g pu l r [] g := by
      refine ⟨same_potentials_refl g, fun _ _ => rfl, ?_, ?_, ?_⟩
      · rw [hempty]; simp
      · rw [hempty]; simp
      · intro m; rw [hempty]; simp [compositions_of]
    have := (fill_merged_outer_inv g pu ps l r hr (g.data l.uid).charge_space [] g h0 acc1 hF).2
    simpa using this

theorem mem_multiset_pairs (ls rs : List sidb_cluster_charge_state)
    (p : multiset_conf × multiset_conf) :
    p ∈ multiset_pairs ls rs ↔ ∃ ml ∈ ls, ∃ mr ∈ rs, p = (ml.multiset, mr.multiset) := by
  unfold multiset_pairs
  simp only [List.mem_flatMap, List.mem_map]
  constructor
  · rintro ⟨ml, hml, mr, hmr, rfl⟩
    exact ⟨ml, hml, mr, hmr, rfl⟩
  · rintro ⟨ml, hml, mr, hmr, rfl⟩
    exact ⟨ml, hml, mr, hmr, rfl⟩

theorem multiset_pairs_nodup (ls rs : List sidb_cluster_charge_state)
    (hl : (ls.map (fun e => e.multiset)).Nodup) (hr : (rs.map (fun e => e.multiset)).Nodup) :
    (multiset_pairs ls rs).Nodup := by
  induction ls with
  | nil => simp [multiset_pairs]
  | cons ml rest ih =>
    rw [multiset_pairs_cons]
    simp only [List.map_cons, List.nodup_cons] at hl
    refine List.Nodup.append ?_ (ih hl.2) ?_
    · have : rs.map (fun mr => (ml.multiset, mr.multiset))
          = (rs.map (fun e => e.multiset)).map (fun x => (ml.multiset, x)) := by
        simp [List.map_map]
      rw [this]
      exact List.Nodup.map (fun a b hab => (Prod.mk.inj hab).2) hr
    · intro p hp1 hp2
      obtain ⟨mr, _, rfl⟩ := List.mem_map.mp hp1
      obtain ⟨ml2, hml2, mr2, _, heq⟩ := (mem_multiset_pairs rest rs _).mp hp2
      apply hl.1
      rw [(Prod.mk.inj heq).1]
      exact List.mem_map_of_mem _ hml2

theorem compositions_of_self (cs : List sidb_cluster_charge_state)
    (hnd : (cs.map (fun e => e.multiset)).Nodup) :
    ∀ e ∈ cs, compositions_of cs e.multiset = e.compositions := by
  induction cs with
  | nil => intro e he; simp at he
  | cons x rest ih =>
    intro e he
    simp only [List.map_cons, List.nodup_cons] at hnd
    rw [compositions_of_cons]
    rcases List.mem_cons.mp he with rfl | he
    · rw [if_pos rfl, compositions_of_eq_nil rest _ hnd.1]
      simp
    · have hne : ¬ x.multiset = e.multiset := by
        intro h
        exact hnd.1 (h ▸ List.mem_map_of_mem _ he)
      rw [if_neg hne, ih hnd.2 e he]
      rfl

theorem pair_key_injective (l r : sidb_cluster) :
    Function.Injective (pair_key l r) := by
  intro a b h
  simp only [pair_key, List.cons.injEq, Prod.mk.injEq, true_and, and_true] at h
  exact Prod.ext h.1 h.2

/-- C5: composition closure of the merged charge space. If the charge space of the parent is
empty before the merge and the uid of the right child differs from that of the parent, then after
`construct_merged_charge_state_space` the multisets of the parent are exactly the sums
`M_L + M_R` of the pairs that pass `verify_composition`, each multiset occurs in one element
only, and the compositions of an element are, in visiting order, exactly the verified pairs with
that sum; when the charge spaces of the children hold each multiset once, no pair occurs
twice. -/
theorem merged_charge_space_closure (g g1 : ground_state_space) (pu : Nat) (ps : List Nat)
    (l r : sidb_cluster) (hempty : (g.data pu).charge_space = []) (hr : r.uid ≠ pu)
    (h : g.construct_merged_charge_state_space (.node pu ps l r) = some g1) :
    (∀ m, m ∈ (g1.data pu).charge_space.map (fun e => e.multiset) ↔
        ∃ ml ∈ (g.data l.uid).charge_space, ∃ mr ∈ (g.data r.uid).charge_space,
          ml.multiset.add mr.multiset = m
            ∧ composition_verified g l r (ml.multiset, mr.multiset))
      ∧ ((g1.data pu).charge_space.map (fun e => e.multiset)).Nodup
      ∧ (∀ e ∈ (g1.data pu).charge_space,
          e.compositions.map (List.map sidb_cluster_state.key)
            = (((multiset_pairs (g.data l.uid).charge_space
                  (g.data r.uid).charge_space).filter
                (fun p => decide (composition_verified g l r p))).filter
                (fun p => decide (p.1.add p.2 = e.multiset))).map (pair_key l r))
      ∧ (((g.data l.uid).charge_space.map (fun e => e.multiset)).Nodup →
          ((g.data r.uid).charge_space.map (fun e => e.multiset)).Nodup →
          ∀ e ∈ (g1.data pu).charge_space,
            (e.compositions.map (List.map sidb_cluster_state.key)).Nodup) := by
  obtain ⟨-, -, hnd, hne, hview⟩ := construct_merged_inv g g1 pu ps l r hempty hr h
  have hcomp : ∀ e ∈ (g1.data pu).charge_space,
      e.compositions.map (List.map sidb_cluster_state.key)
        = (((multiset_pairs (g.data l.uid).charge_space
              (g.data r.uid).charge_space).filter
            (fun p => decide (composition_verified g l r p))).filter
            (fun p => decide (p.1.add p.2 = e.multiset))).map (pair_key l r) := by
    intro e he
    rw [← hview e.multiset, compositions_of_self _ hnd e he]
  refine ⟨?_, hnd, hcomp, ?_⟩
  · intro m
    constructor
    · intro hm
      obtain ⟨e, he, rfl⟩ := List.mem_map.mp hm
      have h1 := hcomp e he
      have h2 : e.compositions.map (List.map sidb_cluster_state.key) ≠ [] := by
        simpa using hne e he
      rw [h1] at h2
      obtain ⟨k, hk⟩ := List.exists_mem_of_ne_nil _ h2
      obtain ⟨p, hp, -⟩ := List.mem_map.mp hk
      obtain ⟨hp1, hp2⟩ := List.mem_filter.mp hp
      obtain ⟨hp3, hp4⟩ := List.mem_filter.mp hp1
      obtain ⟨ml, hml, mr, hmr, rfl⟩ := (mem_multiset_pairs _ _ p).mp hp3
      exact ⟨ml, hml, mr, hmr, by simpa using hp2, by simpa using hp4⟩
    · rintro ⟨ml, hml, mr, hmr, hsum, hver⟩
      by_contra hm
      have h1 := hview m
      rw [compositions_of_eq_nil _ m hm] at h1
      have h2 : (ml.multiset, mr.multiset) ∈
          ((multiset_pairs (g.data l.uid).charge_space (g.data r.uid).charge_space).filter
            (fun p => decide (composition_verified g l r p))).filter
            (fun p => decide (p.1.add p.2 = m)) := by
        refine List.mem_filter.mpr ⟨List.mem_filter.mpr
          ⟨(mem_multiset_pairs _ _ _).mpr ⟨ml, hml, mr, hmr, rfl⟩, by simpa using hver⟩,
          by simpa using hsum⟩
      have h3 := List.mem_map_of_mem (pair_key l r) h2
      rw [← h1] at h3
      simp at h3
  · intro hnl hnr e he
    rw [hcomp e he]
    exact List.Nodup.map (pair_key_injective l r)
      (List.Nodup.filter _ (List.Nodup.filter _ (multiset_pairs_nodup _ _ hnl hnr)))

/-- C5 (witness): the merge of the two leaves of `two_leaf_state`. -/
theorem merged_charge_space_closure_witness :
    ∃ g1, (two_leaf_state [⟨neg1, []⟩, ⟨neut1, []⟩] [⟨neg1, []⟩, ⟨neut1, []⟩]
          ).construct_merged_charge_state_space two_leaf_top = some g1
      ∧ (g1.data 2).charge_space.map (fun e => e.multiset) = [⟨1, 1, 0⟩, ⟨0, 2, 0⟩]
      ∧ ((g1.data 2).charge_space.map (fun e => e.multiset)).Nodup :=
  ⟨_, rfl, rfl, (merged_charge_space_closure
    (two_leaf_state [⟨neg1, []⟩, ⟨neut1, []⟩] [⟨neg1, []⟩, ⟨neut1, []⟩]) _ 2 [0, 1]
    (.leaf 0 [0]) (.leaf 1 [1]) rfl (by decide) rfl).2.1⟩

theorem same_charge_spaces_refl (g : ground_state_space) : same_charge_spaces g g :=
  fun _ => rfl

theorem same_charge_spaces_trans (a b c : ground_state_space) (h1 : same_charge_spaces a b)
    (h2 : same_charge_spaces b c) : same_charge_spaces a c :=
  fun u => (h2 u).trans (h1 u)

theorem same_charge_spaces_modify (g : ground_state_space) (u : Nat)
    (f : cluster_data → cluster_data) (hf : ∀ d, (f d).charge_space = d.charge_space) :
    same_charge_spaces g (g.modify u f) := by
  intro v
  by_cases hv : v = u
  · subst hv; rw [modify_data_self, hf]
  · rw [modify_data_other _ _ _ _ hv]

theorem same_charge_spaces_for_each {α : Type}
    (step : ground_state_space → α → Option ground_state_space) (l : List α)
    (h : ∀ s x s1, x ∈ l → step s x = some s1 → same_charge_spaces s s1)
    (g g1 : ground_state_space) (hg : for_each step l g = some g1) : same_charge_spaces g g1 :=
  for_each_rel step same_charge_spaces same_charge_spaces_refl same_charge_spaces_trans l h g
    g1 hg

theorem same_charge_spaces_add_pot_proj (g : ground_state_space) (c : sidb_cluster) (i : Nat)
    (pp : potential_projection) : same_charge_spaces g (g.add_pot_proj c i pp) :=
  same_charge_spaces_modify g _ _ (fun _ => rfl)

theorem same_charge_spaces_set_recv (g : ground_state_space) (b : bound_direction)
    (c : sidb_cluster) (i : Nat) (v : Pot) :
    same_charge_spaces g (g.set_recv_ext_pot_bound b c i v) :=
  same_charge_spaces_modify g _ _ (fun _ => rfl)

theorem same_charge_spaces_if_bound_removed (nxt : next_extremal_op) (b : bound_direction)
    (g g1 : ground_state_space) (pc : sidb_cluster) (pm : multiset_conf) (rc : sidb_cluster)
    (sidb_ix : Nat)
    (h : update_external_pot_proj_if_bound_removed nxt b g pc pm rc sidb_ix = some g1) :
    same_charge_spaces g g1 := by
  unfold update_external_pot_proj_if_bound_removed at h
  split at h
  · simp at h
  · split at h
    · split at h
      · simp at h
      · simp only [Option.some.injEq] at h
        subst h
        exact same_charge_spaces_set_recv _ _ _ _ _
    · simp only [Option.some.injEq] at h
      subst h
      exact same_charge_spaces_refl _

theorem same_charge_spaces_update_external (nxt : next_extremal_op)
    (g g1 : ground_state_space) (pc : sidb_cluster) (pm : multiset_conf) (rc : sidb_cluster)
    (sidb_ix : Nat)
    (h : update_external_potential_projection nxt g pc pm rc sidb_ix = some g1) :
    same_charge_spaces g g1 := by
  unfold update_external_potential_projection at h
  split at h
  · simp at h
  · rename_i g2 h2
    split at h
    · simp at h
    · rename_i g3 h3
      simp only [Option.some.injEq] at h
      subst h
      exact same_charge_spaces_trans _ _ _
        (same_charge_spaces_if_bound_removed _ _ _ _ _ _ _ _ h2)
        (same_charge_spaces_trans _ _ _
          (same_charge_spaces_if_bound_removed _ _ _ _ _ _ _ _ h3)
          (same_charge_spaces_modify _ _ _ (fun _ => rfl)))

theorem same_charge_spaces_handle_invalid_state (nxt : next_extremal_op)
    (g g1 : ground_state_space) (pc : sidb_cluster) (pm : multiset_conf)
    (h : g.handle_invalid_state nxt pc pm = some g1) : same_charge_spaces g g1 := by
  refine same_charge_spaces_for_each _ _ ?_ g g1 h
  intro s x s1 _ hs
  unfold handle_invalid_state_step at hs
  split at hs
  · simp only [Option.some.injEq] at hs
    subst hs
    exact same_charge_spaces_refl _
  · exact same_charge_spaces_for_each _ _
      (fun a i a1 _ ha => same_charge_spaces_update_external nxt a a1 pc pm x i ha) s s1 hs

theorem same_charge_spaces_derive (g g1 : ground_state_space) (parent : sidb_cluster)
    (h : g.derive_children_recv_bounds_without_siblings parent = some g1) :
    same_charge_spaces g g1 := by
  refine same_charge_spaces_for_each _ _ ?_ g g1 h
  intro s child s1 _ hs
  refine same_charge_spaces_for_each _ _ ?_ s s1 hs
  intro a i a1 _ ha
  have hsub : ∀ (b : bound_direction) (x x1 : ground_state_space),
      subtract_sibling_pot_from_recv_ext_pot_bound b x parent child i = some x1 →
      same_charge_spaces x x1 := by
    intro b x x1 hx
    unfold subtract_sibling_pot_from_recv_ext_pot_bound at hx
    split at hx
    · simp at hx
    · simp only [Option.some.injEq] at hx
      subst hx
      exact same_charge_spaces_trans _ _ _ (same_charge_spaces_set_recv _ _ _ _ _)
        (same_charge_spaces_set_recv _ _ _ _ _)
  unfold derive_site_step at ha
  split at ha
  · simp at ha
  · rename_i a2 h2
    exact same_charge_spaces_trans _ _ _ (hsub _ _ _ h2) (hsub _ _ _ ha)

theorem same_charge_spaces_merge_pot_proj_bounds (b : bound_direction)
    (g g1 : ground_state_space) (parent rc : sidb_cluster) (i : Nat)
    (h : merge_pot_proj_bounds b g parent rc i = some g1) : same_charge_spaces g g1 := by
  unfold merge_pot_proj_bounds at h
  split at h
  · simp at h
  · rename_i g2 hL
    have h2 : same_charge_spaces g g2 := by
      refine same_charge_spaces_for_each _ _ ?_ g g2 hL
      intro s m s1 _ hs
      refine same_charge_spaces_for_each _ _ ?_ s s1 hs
      intro a comp a1 _ ha
      unfold merge_pot_proj_step at ha
      cases hS : sum_composition_projections a b i comp with
      | none => rw [hS] at ha; simp at ha
      | some pp =>
        rw [hS] at ha
        simp only [Option.map_some', Option.some.injEq] at ha
        subst ha
        exact same_charge_spaces_add_pot_proj _ _ _ _
    split at h
    · simp at h
    · split at h
      · simp at h
      · simp only [Option.some.injEq] at h
        subst h
        exact same_charge_spaces_trans _ _ _ h2 (same_charge_spaces_set_recv _ _ _ _ _)

theorem same_charge_spaces_merge_recv (b : bound_direction) (g g1 : ground_state_space)
    (pc : sidb_cluster) (pm : multiset_conf) (parent : sidb_cluster)
    (h : merge_recv_pot_proj_bounds b g pc pm parent = some g1) : same_charge_spaces g g1 := by
  refine same_charge_spaces_for_each _ _ ?_ g g1 h
  intro s m s1 _ hs
  refine same_charge_spaces_for_each _ _ ?_ s s1 hs
  intro a comp a1 _ ha
  refine same_charge_spaces_for_each _ _ ?_ a a1 ha
  intro a2 cst a3 _ ha2
  refine same_charge_spaces_for_each _ _ ?_ a2 a3 ha2
  intro a4 i a5 _ ha4
  unfold merge_recv_step at ha4
  cases hS : a4.get_proj_state_bound b pc pm i with
  | none => rw [hS] at ha4; simp at ha4
  | some pp =>
    rw [hS] at ha4
    simp only [Option.map_some', Option.some.injEq] at ha4
    subst ha4
    exact same_charge_spaces_add_pot_proj _ _ _ _

theorem same_charge_spaces_construct_projections (g g1 : ground_state_space)
    (parent : sidb_cluster) (h : g.construct_merged_potential_projections parent = some g1) :
    same_charge_spaces g g1 := by
  refine same_charge_spaces_for_each _ _ ?_ g g1 h
  intro s nc s1 _ hs
  unfold merged_projections_step at hs
  split at hs
  · simp at hs
  · rename_i s2 h2
    refine same_charge_spaces_trans s s2 s1 ?_ ?_
    · refine same_charge_spaces_for_each _ _ ?_ s s2 h2
      intro a i a1 _ ha
      unfold merged_projections_site_step at ha
      split at ha
      · simp at ha
      · rename_i a2 h3
        exact same_charge_spaces_trans _ _ _
          (same_charge_spaces_merge_pot_proj_bounds _ _ _ _ _ _ h3)
          (same_charge_spaces_merge_pot_proj_bounds _ _ _ _ _ _ ha)
    · refine same_charge_spaces_for_each _ _ ?_ s2 s1 hs
      intro a m a1 _ ha
      unfold merged_projections_state_step at ha
      split at ha
      · simp at ha
      · rename_i a2 h3
        exact same_charge_spaces_trans _ _ _ (same_charge_spaces_merge_recv _ _ _ _ _ _ h3)
          (same_charge_spaces_merge_recv _ _ _ _ _ _ ha)

theorem same_charge_spaces_compute_meets (g g1 : ground_state_space) (parent : sidb_cluster)
    (h : g.compute_meets_for_internal_pot_bounds parent = some g1) :
    same_charge_spaces g g1 := by
  refine same_charge_spaces_for_each _ _ ?_ g g1 h
  intro s m s1 _ hs
  refine same_charge_spaces_for_each _ _ ?_ s s1 hs
  intro a i a1 _ ha
  unfold meets_site_step at ha
  split at ha
  · simp only [Option.some.injEq] at ha
    subst ha
    exact same_charge_spaces_trans _ _ _ (same_charge_spaces_add_pot_proj _ _ _ _)
      (same_charge_spaces_add_pot_proj _ _ _ _)
  · simp at ha

theorem erase_removed_charge_space_other (c : sidb_cluster) (removed_ms : List multiset_conf) :
    ∀ (g : ground_state_space) (u : Nat), u ≠ c.uid →
      ((erase_removed c removed_ms g).data u).charge_space = (g.data u).charge_space := by
  induction removed_ms with
  | nil => intro g u _; rfl
  | cons m rest ih =>
    intro g u hu
    unfold erase_removed
    simp only [List.foldl_cons]
    have := ih (g.modify c.uid (fun d => { d with
      charge_space := erase_charge_state m d.charge_space })) u hu
    unfold erase_removed at this
    rw [this, modify_data_other _ _ _ _ hu]

/-- `check_charge_space` changes the charge space of the checked cluster only. -/
theorem check_charge_space_charge_space_other (nxt : next_extremal_op)
    (g g1 : ground_state_space) (c : sidb_cluster) (r : Bool)
    (h : check_charge_space nxt g c = some (r, g1)) (u : Nat) (hu : u ≠ c.uid) :
    (g1.data u).charge_space = (g.data u).charge_space := by
  unfold check_charge_space at h
  split at h
  · simp only [Option.some.injEq, Prod.mk.injEq] at h
    rw [← h.2]
  · split at h
    · simp at h
    · rename_i g2 removed_ms fixpoint hL
      simp only [Option.some.injEq, Prod.mk.injEq] at h
      rw [← h.2, erase_removed_charge_space_other c removed_ms g2 u hu]
      have key := for_each_rel (check_charge_space_step nxt c)
        (fun (a a1 : ground_state_space × List multiset_conf × Bool) =>
          same_charge_spaces a.1 a1.1)
        (fun a => same_charge_spaces_refl a.1)
        (fun a b c hab hbc => same_charge_spaces_trans a.1 b.1 c.1 hab hbc)
        (g.data c.uid).charge_space
        (by
          intro s x s1 _ hs
          unfold check_charge_space_step at hs
          split at hs
          · simp at hs
          · simp only [Option.some.injEq] at hs
            subst hs
            exact same_charge_spaces_refl _
          · split at hs
            · simp at hs
            · rename_i g3 hH
              simp only [Option.some.injEq] at hs
              subst hs
              exact same_charge_spaces_handle_invalid_state nxt _ _ _ _ hH)
        (g, [], true) (g2, removed_ms, fixpoint) hL
      exact key u

/-- A pruning pass that skips the cluster with uid `pu` keeps its charge space. -/
theorem update_charge_spaces_charge_space_skipped (nxt : next_extremal_op)
    (g g1 : ground_state_space) (pu : Nat) (r : Bool)
    (h : g.update_charge_spaces nxt (some pu) = some (r, g1)) :
    (g1.data pu).charge_space = (g.data pu).charge_space := by
  have key := for_each_rel (update_charge_spaces_step nxt (some pu))
    (fun (a a1 : Bool × ground_state_space) =>
      (a1.2.data pu).charge_space = (a.2.data pu).charge_space)
    (fun _ => rfl) (fun a b c hab hbc => hbc.trans hab) g.clustering
    (by
      intro s x s1 _ hs
      unfold update_charge_spaces_step at hs
      split at hs
      · rename_i hskip
        split at hs
        · simp at hs
        · rename_i r2 g2 hC
          simp only [Option.some.injEq] at hs
          subst hs
          have hne : pu ≠ x.uid := by
            rcases hskip with h1 | h1
            · simp at h1
            · intro heq; exact h1 (by rw [heq])
          exact check_charge_space_charge_space_other nxt _ _ _ _ hC pu hne
      · simp only [Option.some.injEq] at hs
        subst hs
        rfl)
    (true, g) (r, g1) h
  exact key

theorem multiset_conf.add_zero (m : multiset_conf) : m.add ⟨0, 0, 0⟩ = m := by
  cases m; simp [multiset_conf.add]

theorem composition_of_pair_key (comp : sidb_cluster_state_composition) (l r : sidb_cluster)
    (p : multiset_conf × multiset_conf)
    (hk : comp.map sidb_cluster_state.key = pair_key l r p) :
    comp.map (fun cst => cst.cluster) = [l, r] ∧ composition_sum comp = p.1.add p.2
      ∧ ∀ cst ∈ comp, (cst.cluster = l ∧ cst.multiset = p.1)
          ∨ (cst.cluster = r ∧ cst.multiset = p.2) := by
  match comp, hk with
  | [], hk => simp [pair_key] at hk
  | [_], hk => simp [pair_key] at hk
  | _ :: _ :: _ :: _, hk => simp [pair_key] at hk
  | [a, b], hk =>
    simp only [List.map_cons, List.map_nil, pair_key, List.cons.injEq, sidb_cluster_state.key,
      Prod.mk.injEq, and_true] at hk
    obtain ⟨⟨h1, h2⟩, h3, h4⟩ := hk
    refine ⟨by simp [h1, h3], by simp [composition_sum, h2, h4, multiset_conf.add_zero], ?_⟩
    intro cst hc
    simp only [List.mem_cons, List.mem_singleton, List.not_mem_nil, or_false] at hc
    rcases hc with rfl | rfl
    · exact Or.inl ⟨h1, h2⟩
    · exact Or.inr ⟨h3, h4⟩

/-- The charge space of the merged parent after `merge_up` is the one that
`construct_merged_charge_state_space` built on the state with the derived bounds, in which all
charge spaces are still those of the state before the merge. -/
theorem merge_up_merge_inv (g g6 : ground_state_space) (pu : Nat) (ps : List Nat)
    (l r : sidb_cluster) (hempty : (g.data pu).charge_space = []) (hr : r.uid ≠ pu)
    (h : g.merge_up (.node pu ps l r) = some g6) :
    ∃ g2 g3, same_charge_spaces g g2
      ∧ merge_inv g2 pu l r
          (multiset_pairs (g.data l.uid).charge_space (g.data r.uid).charge_space) g3
      ∧ same_charge_spaces g3 g6 := by
  unfold merge_up at h
  split at h
  · simp at h
  · rename_i g2 h2
    split at h
    · simp at h
    · rename_i g3 h3
      split at h
      · simp at h
      · rename_i g4 h4
        split at h
        · simp at h
        · rename_i g5 h5
          simp only [Option.some.injEq] at h
          subst h
          have c2 : same_charge_spaces g g2 := fun u =>
            same_charge_spaces_derive _ _ _ h2 u
          have hinv := construct_merged_inv g2 g3 pu ps l r (by rw [c2 pu]; exact hempty) hr h3
          rw [c2 l.uid, c2 r.uid] at hinv
          refine ⟨g2, g3, c2, hinv, ?_⟩
          intro u
          exact (same_charge_spaces_compute_meets _ _ _ h5 u).trans
            (same_charge_spaces_construct_projections _ _ _ h4 u)

/-- C6: after `move_up_hierarchy` has merged the parent `p`, whose charge space was empty before
and whose children carry other uids, every element of the charge space of `p` has a composition,
and every composition has one state per child of `p` in child order, each with a multiset that
was in the charge space of that child before the merge, and the child multisets sum to the
multiset of the element. -/
theorem move_up_compositions (nxt : next_extremal_op) (g g1 : ground_state_space)
    (p : sidb_cluster) (hlen : g.clustering.length ≠ 1) (hsel : g.select_min_parent = some p)
    (hempty : (g.data p.uid).charge_space = []) (huid : ∀ c ∈ p.children, c.uid ≠ p.uid)
    (h : g.move_up_hierarchy nxt = some g1) :
    ∀ e ∈ (g1.data p.uid).charge_space, e.compositions ≠ []
      ∧ ∀ comp ∈ e.compositions, comp.map (fun cst => cst.cluster) = p.children
        ∧ (∀ cst ∈ comp, ∃ x ∈ (g.data cst.cluster.uid).charge_space,
            x.multiset = cst.multiset)
        ∧ composition_sum comp = e.multiset := by
  unfold move_up_hierarchy at h
  rw [if_neg hlen, hsel] at h
  simp only at h
  cases hM : g.merge_up p with
  | none => rw [hM] at h; simp at h
  | some g6 =>
    rw [hM] at h
    simp only at h
    cases hU : g6.update_charge_spaces nxt (some p.uid) with
    | none => rw [hU] at h; simp at h
    | some res =>
      obtain ⟨r0, g7⟩ := res
      rw [hU] at h
      simp only [Option.map_some', Option.some.injEq] at h
      subst h
      have hskip := update_charge_spaces_charge_space_skipped nxt g6 g7 p.uid r0 hU
      cases p with
      | leaf u s =>
        exfalso
        unfold select_min_parent at hsel
        split at hsel
        · simp at hsel
        · split at hsel
          · simp at hsel
          · obtain ⟨-, c, hc, -⟩ := find_parent_some _ _ _ hsel
            simp [children] at hc
      | node pu ps l r =>
        simp only [sidb_cluster.uid] at hempty hskip hM ⊢
        have hr : r.uid ≠ pu := huid r (by simp [children])
        obtain ⟨g2, g3, c2, ⟨-, -, hnd, hne, hview⟩, c6⟩ :=
          merge_up_merge_inv g g6 pu ps l r hempty hr hM
        intro e he
        rw [hskip, c6 pu] at he
        refine ⟨hne e he, ?_⟩
        intro comp hcomp
        have h1 : comp.map sidb_cluster_state.key ∈
            (compositions_of (g3.data pu).charge_space e.multiset).map
              (List.map sidb_cluster_state.key) := by
          rw [compositions_of_self _ hnd e he]
          exact List.mem_map_of_mem _ hcomp
        rw [hview e.multiset] at h1
        obtain ⟨pr, hpr, hk⟩ := List.mem_map.mp h1
        obtain ⟨hp1, hp2⟩ := List.mem_filter.mp hpr
        obtain ⟨hp3, -⟩ := List.mem_filter.mp hp1
        obtain ⟨ml, hml, mr, hmr, rfl⟩ := (mem_multiset_pairs _ _ pr).mp hp3
        obtain ⟨k1, k2, k3⟩ := composition_of_pair_key comp l r _ hk.symm
        refine ⟨by simpa [children] using k1, ?_, ?_⟩
        · intro cst hcst
          rcases k3 cst hcst with ⟨hc, hm⟩ | ⟨hc, hm⟩
          · exact ⟨ml, by rw [hc]; exact hml, by rw [hm]⟩
          · exact ⟨mr, by rw [hc]; exact hmr, by rw [hm]⟩
        · rw [k2]
          simpa using hp2

/-- C6 (witness): the merge of the two leaves of `two_leaf_state` by `move_up_hierarchy`. -/
theorem move_up_compositions_witness :
    ∃ g1, (two_leaf_state [⟨neg1, []⟩, ⟨neut1, []⟩] [⟨neg1, []⟩, ⟨neut1, []⟩]
          ).move_up_hierarchy potential_projection_order.get_next = some g1
      ∧ (g1.data 2).charge_space ≠ []
      ∧ ∀ e ∈ (g1.data 2).charge_space, e.compositions ≠ []
        ∧ ∀ comp ∈ e.compositions,
          comp.map (fun cst => cst.cluster) = [.leaf 0 [0], .leaf 1 [1]]
          ∧ (∀ cst ∈ comp, ∃ x ∈ ((two_leaf_state [⟨neg1, []⟩, ⟨neut1, []⟩]
                [⟨neg1, []⟩, ⟨neut1, []⟩]).data cst.cluster.uid).charge_space,
              x.multiset = cst.multiset)
          ∧ composition_sum comp = e.multiset :=
  ⟨_, rfl, by decide, move_up_compositions potential_projection_order.get_next
    (two_leaf_state [⟨neg1, []⟩, ⟨neut1, []⟩] [⟨neg1, []⟩, ⟨neut1, []⟩]) _ two_leaf_top
    (by decide) rfl rfl (by decide) rfl⟩

/-! ### Projection tagging -/

/-- What every step of a loop establishes for its element, and every step keeps for every
element, holds after the loop for all elements. -/
theorem for_each_establish {α σ : Type} (step : σ → α → Option σ) (R : α → σ → Prop)
    (hest : ∀ s x s1, step s x = some s1 → R x s1)
    (hpres : ∀ s y s1 x, step s y = some s1 → R x s → R x s1) :
    ∀ (l : List α) (s s1 : σ), for_each step l s = some s1 → ∀ x ∈ l, R x s1 := by
  intro l
  induction l with
  | nil => intro s s1 _ x hx; simp at hx
  | cons y ys ih =>
    intro s s2 h x hx
    obtain ⟨s1, h1, h2⟩ := for_each_cons_some h
    rcases List.mem_cons.mp hx with rfl | hx
    · exact for_each_inv step (R x) ys (fun a b a1 _ hR hstep => hpres a b a1 x hstep hR) s1 s2
        (hest s x s1 h1) h2
    · exact ih s1 s2 h2 x hx

theorem mem_remove_m_conf (m : multiset_conf) (s : potential_projection_order)
    (pp : potential_projection) :
    pp ∈ potential_projection_order.remove_m_conf m s ↔ pp ∈ s ∧ pp.M ≠ m := by
  simp [potential_projection_order.remove_m_conf]

theorem mem_add (pp : potential_projection) :
    ∀ (s : potential_projection_order) (q : potential_projection),
      q ∈ potential_projection_order.add pp s ↔ q = pp ∨ q ∈ s := by
  intro s
  induction s with
  | nil => intro q; simp [potential_projection_order.add]
  | cons x xs ih =>
    intro q
    unfold potential_projection_order.add
    split
    · simp
    · simp only [List.mem_cons, ih]
      tauto

theorem entries_shrink_refl (g : ground_state_space) : entries_shrink g g :=
  fun _ _ _ h => h

theorem entries_shrink_trans (a b c : ground_state_space) (h1 : entries_shrink a b)
    (h2 : entries_shrink b c) : entries_shrink a c :=
  fun u j pp h => h1 u j pp (h2 u j pp h)

theorem entries_shrink_modify (g : ground_state_space) (u : Nat)
    (f : cluster_data → cluster_data) (hf : ∀ d, (f d).pot_projs = d.pot_projs) :
    entries_shrink g (g.modify u f) := by
  intro v j pp h
  by_cases hv : v = u
  · subst hv
    rw [modify_data_self, hf] at h
    exact h
  · rw [modify_data_other _ _ _ _ hv] at h
    exact h

theorem entries_shrink_remove (g : ground_state_space) (c : sidb_cluster) (m : multiset_conf)
    (i : Nat) : entries_shrink g (g.remove_all_cluster_charge_state_occurrences c m i) := by
  intro v j pp h
  unfold remove_all_cluster_charge_state_occurrences at h
  by_cases hv : v = c.uid
  · subst hv
    rw [modify_data_self] at h
    simp only at h
    by_cases hj : j = i
    · subst hj
      rw [Function.update_same] at h
      exact ((mem_remove_m_conf _ _ _).mp h).1
    · rw [Function.update_noteq hj] at h
      exact h
  · rw [modify_data_other _ _ _ _ hv] at h
    exact h

theorem store_after_remove (g : ground_state_space) (c : sidb_cluster) (m : multiset_conf)
    (i : Nat) : ∀ pp ∈ ((g.remove_all_cluster_charge_state_occurrences c m i).data c.uid).pot_projs i,
      pp.M ≠ m := by
  intro pp h
  unfold remove_all_cluster_charge_state_occurrences at h
  rw [modify_data_self] at h
  simp only [Function.update_same] at h
  exact ((mem_remove_m_conf _ _ _).mp h).2

theorem entries_shrink_if_bound_removed (nxt : next_extremal_op) (b : bound_direction)
    (g g1 : ground_state_space) (pc : sidb_cluster) (pm : multiset_conf) (rc : sidb_cluster)
    (sidb_ix : Nat)
    (h : update_external_pot_proj_if_bound_removed nxt b g pc pm rc sidb_ix = some g1) :
    entries_shrink g g1 := by
  unfold update_external_pot_proj_if_bound_removed at h
  split at h
  · simp at h
  · split at h
    · split at h
      · simp at h
      · simp only [Option.some.injEq] at h
        subst h
        unfold update_recv_ext_pot_bound set_recv_ext_pot_bound
        exact entries_shrink_modify _ _ _ (fun _ => rfl)
    · simp only [Option.some.injEq] at h
      subst h
      exact entries_shrink_refl _

/-- The effect of `update_external_potential_projection` on the stores: entries only disappear,
and none tagged `pm` is left in the store of `pc` onto the site. -/
theorem update_external_stores (nxt : next_extremal_op) (g g1 : ground_state_space)
    (pc : sidb_cluster) (pm : multiset_conf) (rc : sidb_cluster) (sidb_ix : Nat)
    (h : update_external_potential_projection nxt g pc pm rc sidb_ix = some g1) :
    entries_shrink g g1 ∧ ∀ pp ∈ (g1.data pc.uid).pot_projs sidb_ix, pp.M ≠ pm := by
  unfold update_external_potential_projection at h
  split at h
  · simp at h
  · rename_i g2 h2
    split at h
    · simp at h
    · rename_i g3 h3
      simp only [Option.some.injEq] at h
      subst h
      exact ⟨entries_shrink_trans _ _ _ (entries_shrink_if_bound_removed _ _ _ _ _ _ _ _ h2)
        (entries_shrink_trans _ _ _ (entries_shrink_if_bound_removed _ _ _ _ _ _ _ _ h3)
          (entries_shrink_remove _ _ _ _)), store_after_remove _ _ _ _⟩

theorem handle_invalid_state_step_shrink (nxt : next_extremal_op) (pc : sidb_cluster)
    (pm : multiset_conf) (s : ground_state_space) (x : sidb_cluster) (s1 : ground_state_space)
    (hs : handle_invalid_state_step nxt pc pm s x = some s1) : entries_shrink s s1 := by
  unfold handle_invalid_state_step at hs
  split at hs
  · simp only [Option.some.injEq] at hs
    subst hs
    exact entries_shrink_refl _
  · exact for_each_rel _ entries_shrink entries_shrink_refl entries_shrink_trans _
      (fun a i a1 _ ha => (update_external_stores nxt a a1 pc pm x i ha).1) s s1 hs

/-- The effect of `handle_invalid_state` on the stores: entries only disappear, and the stores
of the projecting cluster onto the sites of the other clusters hold no entry tagged with the
removed multiset. -/
theorem handle_invalid_state_stores (nxt : next_extremal_op) (g g1 : ground_state_space)
    (pc : sidb_cluster) (pm : multiset_conf) (h : g.handle_invalid_state nxt pc pm = some g1) :
    entries_shrink g g1 ∧ purged g1 pc.uid pm := by
  refine ⟨for_each_rel _ entries_shrink entries_shrink_refl entries_shrink_trans _
    (fun s x s1 _ hs => handle_invalid_state_step_shrink nxt pc pm s x s1 hs) g g1 h, ?_⟩
  have hcl : g1.clustering = g.clustering := (same_static_handle_invalid_state nxt g g1 pc pm h).2.1
  intro c1 hc1 hne j hj
  rw [hcl] at hc1
  have key := for_each_establish (handle_invalid_state_step nxt pc pm)
    (fun (x : sidb_cluster) (s : ground_state_space) =>
      x.uid ≠ pc.uid → ∀ j ∈ x.sidbs, ∀ pp ∈ (s.data pc.uid).pot_projs j, pp.M ≠ pm)
    (by
      intro s x s1 hs hx
      unfold handle_invalid_state_step at hs
      rw [if_neg hx] at hs
      exact for_each_establish
        (fun g sidb_ix => update_external_potential_projection nxt g pc pm x sidb_ix)
        (fun (i : Nat) (a : ground_state_space) => ∀ pp ∈ (a.data pc.uid).pot_projs i, pp.M ≠ pm)
        (fun a i a1 ha => (update_external_stores nxt a a1 pc pm x i ha).2)
        (fun a i2 a1 i ha hR pp hpp =>
          hR pp ((update_external_stores nxt a a1 pc pm x i2 ha).1 _ _ pp hpp))
        x.sidbs s s1 hs)
    (by
      intro s y s1 x hs hR hx j hj pp hpp
      exact hR hx j hj pp (handle_invalid_state_step_shrink nxt pc pm s y s1 hs _ _ pp hpp))
    g.clustering g g1 h c1 hc1
  exact key hne j hj

theorem erase_removed_stores (c : sidb_cluster) (removed_ms : List multiset_conf) :
    ∀ (g : ground_state_space) (u : Nat),
      ((erase_removed c removed_ms g).data u).pot_projs = (g.data u).pot_projs := by
  induction removed_ms with
  | nil => intro g u; rfl
  | cons m rest ih =>
    intro g u
    unfold erase_removed
    simp only [List.foldl_cons]
    have := ih (g.modify c.uid (fun d => { d with
      charge_space := erase_charge_state m d.charge_space })) u
    unfold erase_removed at this
    rw [this]
    by_cases hu : u = c.uid
    · subst hu; rw [modify_data_self]
    · rw [modify_data_other _ _ _ _ hu]

theorem erase_removed_charge_space (c : sidb_cluster) (removed_ms : List multiset_conf) :
    ∀ (g : ground_state_space),
      ((erase_removed c removed_ms g).data c.uid).charge_space
        = (g.data c.uid).charge_space.filter (fun e => decide (e.multiset ∉ removed_ms)) := by
  induction removed_ms with
  | nil => intro g; simp [erase_removed]
  | cons m rest ih =>
    intro g
    unfold erase_removed
    simp only [List.foldl_cons]
    have := ih (g.modify c.uid (fun d => { d with
      charge_space := erase_charge_state m d.charge_space }))
    unfold erase_removed at this
    rw [this, modify_data_self]
    simp only [erase_charge_state, List.filter_filter]
    congr 1
    funext e
    simp only [List.mem_cons, not_or, ne_eq, Bool.decide_and, decide_not]
    rw [Bool.and_comm]

/-- The effect of `check_charge_space` on charge space and stores of the checked cluster: the
stores only lose entries, the charge space only loses elements, and every element of the old
charge space is either kept or purged from the stores onto the sites of the other clusters. -/
theorem check_charge_space_effect (nxt : next_extremal_op) (g g1 : ground_state_space)
    (c : sidb_cluster) (r : Bool) (h : check_charge_space nxt g c = some (r, g1)) :
    entries_shrink g g1
      ∧ (∀ e ∈ (g1.data c.uid).charge_space, e ∈ (g.data c.uid).charge_space)
      ∧ ∀ e ∈ (g.data c.uid).charge_space,
          e ∈ (g1.data c.uid).charge_space ∨ purged g1 c.uid e.multiset := by
  unfold check_charge_space at h
  split at h
  · simp only [Option.some.injEq, Prod.mk.injEq] at h
    rw [← h.2]
    exact ⟨entries_shrink_refl _, fun _ he => he, fun _ he => Or.inl he⟩
  · split at h
    · simp at h
    · rename_i g2 removed_ms fixpoint hL
      simp only [Option.some.injEq, Prod.mk.injEq] at h
      rw [← h.2]
      have key := for_each_inv (check_charge_space_step nxt c)
        (fun (a : ground_state_space × List multiset_conf × Bool) =>
          entries_shrink g a.1 ∧ same_charge_spaces g a.1 ∧ a.1.clustering = g.clustering
            ∧ ∀ m ∈ a.2.1, purged a.1 c.uid m)
        (g.data c.uid).charge_space
        (by
          intro s x s1 _ hP hs
          obtain ⟨p1, p2, p3, p4⟩ := hP
          unfold check_charge_space_step at hs
          split at hs
          · simp at hs
          · simp only [Option.some.injEq] at hs
            subst hs
            exact ⟨p1, p2, p3, p4⟩
          · split at hs
            · simp at hs
            · rename_i g3 hH
              simp only [Option.some.injEq] at hs
              subst hs
              obtain ⟨q1, q2⟩ := handle_invalid_state_stores nxt _ _ _ _ hH
              have q3 := same_charge_spaces_handle_invalid_state nxt _ _ _ _ hH
              have q4 := (same_static_handle_invalid_state nxt _ _ _ _ hH).2.1
              refine ⟨entries_shrink_trans _ _ _ p1 q1, same_charge_spaces_trans _ _ _ p2 q3,
                q4.trans p3, ?_⟩
              intro m hm
              rcases List.mem_append.mp hm with hm | hm
              · intro c1 hc1 hne j hj pp hpp
                rw [q4] at hc1
                exact p4 m hm c1 hc1 hne j hj pp (q1 _ _ pp hpp)
              · rw [List.mem_singleton.mp hm]
                exact q2)
        (g, [], true) (g2, removed_ms, fixpoint)
        ⟨entries_shrink_refl _, same_charge_spaces_refl _, rfl, by simp⟩ hL
      obtain ⟨k1, k2, k3, k4⟩ := key
      simp only at k1 k2 k3 k4
      have hcs : ((erase_removed c removed_ms g2).data c.uid).charge_space
          = (g.data c.uid).charge_space.filter (fun e => decide (e.multiset ∉ removed_ms)) := by
        rw [erase_removed_charge_space, k2 c.uid]
      have hst : ∀ u, ((erase_removed c removed_ms g2).data u).pot_projs
          = (g2.data u).pot_projs := erase_removed_stores c removed_ms g2
      have hcl : (erase_removed c removed_ms g2).clustering = g2.clustering :=
        (same_static_erase_removed c removed_ms g2).2.1
      refine ⟨?_, ?_, ?_⟩
      · intro u j pp hpp
        rw [hst u] at hpp
        exact k1 u j pp hpp
      · intro e he
        rw [hcs] at he
        exact (List.mem_filter.mp he).1
      · intro e he
        by_cases hrem : e.multiset ∈ removed_ms
        · right
          intro c1 hc1 hne j hj pp hpp
          rw [hcl] at hc1
          rw [hst] at hpp
          exact k4 _ hrem c1 hc1 hne j hj pp hpp
        · left
          rw [hcs]
          exact List.mem_filter.mpr ⟨he, by simpa using hrem⟩

/-- `check_charge_space` keeps the projection tagging. -/
theorem check_charge_space_tagging (nxt : next_extremal_op) (g g1 : ground_state_space)
    (c : sidb_cluster) (r : Bool) (h : check_charge_space nxt g c = some (r, g1))
    (hI : projection_tagging g) : projection_tagging g1 := by
  obtain ⟨e1, _, e3⟩ := check_charge_space_effect nxt g g1 c r h
  have hcl : g1.clustering = g.clustering := (same_static_check_charge_space nxt g g1 c r h).2.1
  intro a ha a1 ha1 hne j hj pp hpp
  rw [hcl] at ha ha1
  have h0 := hI a ha a1 ha1 hne j hj pp (e1 _ _ pp hpp)
  by_cases hac : a.uid = c.uid
  · obtain ⟨e, he, hem⟩ := List.mem_map.mp h0
    rw [hac] at he hpp ⊢
    rcases e3 e he with hk | hp
    · exact List.mem_map.mpr ⟨e, hk, hem⟩
    · exfalso
      exact hp a1 (by rw [hcl]; exact ha1) (by rw [← hac]; exact hne) j hj pp hpp hem.symm
  · rw [check_charge_space_charge_space_other nxt g g1 c r h a.uid hac]
    exact h0

/-- A pruning pass keeps the projection tagging. -/
theorem update_charge_spaces_tagging (nxt : next_extremal_op) (g g1 : ground_state_space)
    (skip_cluster : Option Nat) (r : Bool)
    (h : g.update_charge_spaces nxt skip_cluster = some (r, g1)) (hI : projection_tagging g) :
    projection_tagging g1 := by
  have key := for_each_inv (update_charge_spaces_step nxt skip_cluster)
    (fun (a : Bool × ground_state_space) => projection_tagging a.2) g.clustering
    (by
      intro s x s1 _ hP hs
      unfold update_charge_spaces_step at hs
      split at hs
      · split at hs
        · simp at hs
        · rename_i r2 g2 hC
          simp only [Option.some.injEq] at hs
          subst hs
          exact check_charge_space_tagging nxt _ _ _ _ hC hP
      · simp only [Option.some.injEq] at hs
        subst hs
        exact hP)
    (true, g) (r, g1) hI h
  exact key

theorem get_mem (b : bound_direction) (s : potential_projection_order)
    (pp : potential_projection) (h : potential_projection_order.get b s = some pp) :
    pp ∈ s := by
  cases b with
  | LOWER => exact List.mem_of_mem_head? h
  | UPPER => exact List.mem_of_getLast?_eq_some h

theorem get_pot_proj_for_m_conf_some (b : bound_direction) (s : potential_projection_order)
    (m : multiset_conf) (pp : potential_projection)
    (h : potential_projection_order.get_pot_proj_for_m_conf b s m = some pp) :
    pp ∈ s ∧ pp.M = m := by
  unfold potential_projection_order.get_pot_proj_for_m_conf at h
  have := List.mem_filter.mp (get_mem b _ pp h)
  exact ⟨this.1, by simpa using this.2⟩

theorem multiset_conf.add_assoc (a b c : multiset_conf) :
    (a.add b).add c = a.add (b.add c) := by
  cases a; cases b; cases c
  simp [multiset_conf.add, Nat.add_assoc]

theorem sum_composition_projections_tag (g : ground_state_space) (b : bound_direction)
    (i : Nat) (comp : sidb_cluster_state_composition) (pp : potential_projection)
    (h : sum_composition_projections g b i comp = some pp) : pp.M = composition_sum comp := by
  have key : ∀ (comp : sidb_cluster_state_composition) (acc pp : potential_projection),
      for_each (fun acc cst => (g.get_proj_state_bound b cst.cluster cst.multiset i).map
        (fun pp => acc.add pp)) comp acc = some pp →
      pp.M = acc.M.add (composition_sum comp) := by
    intro comp
    induction comp with
    | nil =>
      intro acc pp h
      simp only [for_each, Option.some.injEq] at h
      subst h
      simp [composition_sum, multiset_conf.add_zero]
    | cons x xs ih =>
      intro acc pp h
      obtain ⟨a1, h1, h2⟩ := for_each_cons_some h
      cases hq : g.get_proj_state_bound b x.cluster x.multiset i with
      | none => simp only [hq, Option.map_none'] at h1; simp at h1
      | some q =>
        simp only [hq, Option.map_some', Option.some.injEq] at h1
        subst h1
        rw [ih _ _ h2]
        have hqM : q.M = x.multiset := (get_pot_proj_for_m_conf_some b _ _ _ hq).2
        simp only [potential_projection.add, composition_sum, hqM]
        exact multiset_conf.add_assoc _ _ _
  have := key comp ⟨0, ⟨0, 0, 0⟩⟩ pp h
  rw [this]
  exact multiset_conf.zero_add _

theorem stores_grow_tagged_refl (pu : Nat) (g : ground_state_space) :
    stores_grow_tagged pu g g :=
  ⟨same_charge_spaces_refl g, fun _ _ _ h => Or.inl h⟩

theorem stores_grow_tagged_trans (pu : Nat) (a b c : ground_state_space)
    (h1 : stores_grow_tagged pu a b) (h2 : stores_grow_tagged pu b c) :
    stores_grow_tagged pu a c := by
  refine ⟨same_charge_spaces_trans _ _ _ h1.1 h2.1, ?_⟩
  intro u j pp hpp
  rcases h2.2 u j pp hpp with h | ⟨hu, hm⟩
  · exact h1.2 u j pp h
  · right
    rw [h1.1 pu] at hm
    exact ⟨hu, hm⟩

theorem stores_grow_tagged_for_each {α : Type} (pu : Nat)
    (step : ground_state_space → α → Option ground_state_space) (l : List α)
    (h : ∀ s x s1, x ∈ l → step s x = some s1 → stores_grow_tagged pu s s1)
    (g g1 : ground_state_space) (hg : for_each step l g = some g1) :
    stores_grow_tagged pu g g1 :=
  for_each_rel step (stores_grow_tagged pu) (stores_grow_tagged_refl pu)
    (stores_grow_tagged_trans pu) l h g g1 hg

theorem stores_grow_tagged_set_recv (pu : Nat) (g : ground_state_space) (b : bound_direction)
    (c : sidb_cluster) (i : Nat) (v : Pot) :
    stores_grow_tagged pu g (g.set_recv_ext_pot_bound b c i v) := by
  refine ⟨same_charge_spaces_set_recv _ _ _ _ _, ?_⟩
  intro u j pp hpp
  left
  unfold set_recv_ext_pot_bound at hpp
  by_cases hu : u = c.uid
  · subst hu
    rw [modify_data_self] at hpp
    exact hpp
  · rw [modify_data_other _ _ _ _ hu] at hpp
    exact hpp

/-- Adding an entry that is already in the store, or an entry of the parent that is tagged with
one of its multisets. -/
theorem stores_grow_tagged_add (pu : Nat) (g : ground_state_space) (c : sidb_cluster) (i : Nat)
    (pp : potential_projection)
    (h : pp ∈ (g.data c.uid).pot_projs i
      ∨ (c.uid = pu ∧ pp.M ∈ (g.data pu).charge_space.map (fun e => e.multiset))) :
    stores_grow_tagged pu g (g.add_pot_proj c i pp) := by
  refine ⟨same_charge_spaces_add_pot_proj _ _ _ _, ?_⟩
  intro u j q hq
  unfold add_pot_proj at hq
  by_cases hu : u = c.uid
  · subst hu
    rw [modify_data_self] at hq
    simp only at hq
    by_cases hj : j = i
    · subst hj
      rw [Function.update_same] at hq
      rcases (mem_add pp _ q).mp hq with rfl | hq
      · exact h
      · exact Or.inl hq
    · rw [Function.update_noteq hj] at hq
      exact Or.inl hq
  · rw [modify_data_other _ _ _ _ hu] at hq
    exact Or.inl hq

theorem stores_grow_tagged_merge_pot_proj_bounds (b : bound_direction)
    (g g1 : ground_state_space) (parent rc : sidb_cluster) (i : Nat)
    (hsum : compositions_sum_ok (g.data parent.uid).charge_space)
    (h : merge_pot_proj_bounds b g parent rc i = some g1) :
    stores_grow_tagged parent.uid g g1 := by
  unfold merge_pot_proj_bounds at h
  split at h
  · simp at h
  · rename_i g2 hL
    have h2 : stores_grow_tagged parent.uid g g2 := by
      have key := for_each_inv
        (fun g m => for_each (merge_pot_proj_step b parent i) m.compositions g)
        (fun s => stores_grow_tagged parent.uid g s) (g.data parent.uid).charge_space
        (by
          intro s m s1 hm hP hs
          refine stores_grow_tagged_trans _ _ _ _ hP ?_
          have key2 := for_each_inv (merge_pot_proj_step b parent i)
            (fun a => stores_grow_tagged parent.uid s a) m.compositions
            (by
              intro a comp a1 hcomp hPa ha
              refine stores_grow_tagged_trans _ _ _ _ hPa ?_
              unfold merge_pot_proj_step at ha
              cases hS : sum_composition_projections a b i comp with
              | none => rw [hS] at ha; simp at ha
              | some pp =>
                rw [hS] at ha
                simp only [Option.map_some', Option.some.injEq] at ha
                subst ha
                refine stores_grow_tagged_add _ _ _ _ _ (Or.inr ⟨rfl, ?_⟩)
                rw [sum_composition_projections_tag a b i comp pp hS, hsum m hm comp hcomp,
                  hPa.1 parent.uid, hP.1 parent.uid]
                exact List.mem_map_of_mem _ hm)
            s s1 (stores_grow_tagged_refl _ _) hs
          exact key2)
        g g2 (stores_grow_tagged_refl _ _) hL
      exact key
    split at h
    · simp at h
    · split at h
      · simp at h
      · simp only [Option.some.injEq] at h
        subst h
        exact stores_grow_tagged_trans _ _ _ _ h2 (stores_grow_tagged_set_recv _ _ _ _ _ _)

theorem stores_grow_tagged_merge_recv (pu : Nat) (b : bound_direction)
    (g g1 : ground_state_space) (pc : sidb_cluster) (pm : multiset_conf)
    (parent : sidb_cluster) (h : merge_recv_pot_proj_bounds b g pc pm parent = some g1) :
    stores_grow_tagged pu g g1 := by
  refine stores_grow_tagged_for_each pu _ _ ?_ g g1 h
  intro s m s1 _ hs
  refine stores_grow_tagged_for_each pu _ _ ?_ s s1 hs
  intro a comp a1 _ ha
  refine stores_grow_tagged_for_each pu _ _ ?_ a a1 ha
  intro a2 cst a3 _ ha2
  refine stores_grow_tagged_for_each pu _ _ ?_ a2 a3 ha2
  intro a4 i a5 _ ha4
  unfold merge_recv_step at ha4
  cases hS : a4.get_proj_state_bound b pc pm i with
  | none => rw [hS] at ha4; simp at ha4
  | some pp =>
    rw [hS] at ha4
    simp only [Option.map_some', Option.some.injEq] at ha4
    subst ha4
    exact stores_grow_tagged_add pu _ _ _ _
      (Or.inl (get_pot_proj_for_m_conf_some b _ _ _ hS).1)

theorem stores_grow_tagged_construct_projections (g g1 : ground_state_space)
    (parent : sidb_cluster) (hsum : compositions_sum_ok (g.data parent.uid).charge_space)
    (h : g.construct_merged_potential_projections parent = some g1) :
    stores_grow_tagged parent.uid g g1 := by
  have key := for_each_inv (merged_projections_step parent)
    (fun s => stores_grow_tagged parent.uid g s) g.clustering
    (by
      intro s nc s1 _ hP hs
      have hsum_s : ∀ a, stores_grow_tagged parent.uid s a →
          compositions_sum_ok (a.data parent.uid).charge_space := by
        intro a ha
        rw [ha.1 parent.uid, hP.1 parent.uid]
        exact hsum
      refine stores_grow_tagged_trans _ _ _ _ hP ?_
      unfold merged_projections_step at hs
      split at hs
      · simp at hs
      · rename_i s2 h2
        have k1 : stores_grow_tagged parent.uid s s2 := by
          have key2 := for_each_inv (merged_projections_site_step parent nc)
            (fun a => stores_grow_tagged parent.uid s a) nc.sidbs
            (by
              intro a i a1 _ hPa ha
              refine stores_grow_tagged_trans _ _ _ _ hPa ?_
              unfold merged_projections_site_step at ha
              split at ha
              · simp at ha
              · rename_i a2 h3
                have t1 := stores_grow_tagged_merge_pot_proj_bounds _ _ _ _ _ _
                  (hsum_s a hPa) h3
                exact stores_grow_tagged_trans _ _ _ _ t1
                  (stores_grow_tagged_merge_pot_proj_bounds _ _ _ _ _ _
                    (hsum_s a2 (stores_grow_tagged_trans _ _ _ _ hPa t1)) ha))
            s s2 (stores_grow_tagged_refl _ _) h2
          exact key2
        refine stores_grow_tagged_trans _ _ _ _ k1 ?_
        refine stores_grow_tagged_for_each _ _ _ ?_ s2 s1 hs
        intro a m a1 _ ha
        unfold merged_projections_state_step at ha
        split at ha
        · simp at ha
        · rename_i a2 h3
          exact stores_grow_tagged_trans _ _ _ _
            (stores_grow_tagged_merge_recv _ _ _ _ _ _ _ h3)
            (stores_grow_tagged_merge_recv _ _ _ _ _ _ _ ha))
    g g1 (stores_grow_tagged_refl _ _) h
  exact key

theorem stores_grow_tagged_compute_meets (g g1 : ground_state_space) (parent : sidb_cluster)
    (h : g.compute_meets_for_internal_pot_bounds parent = some g1) :
    stores_grow_tagged parent.uid g g1 := by
  have key := for_each_inv
    (fun g m => for_each (meets_site_step parent m) parent.sidbs g)
    (fun s => stores_grow_tagged parent.uid g s) (g.data parent.uid).charge_space
    (by
      intro s m s1 hm hP hs
      refine stores_grow_tagged_trans _ _ _ _ hP ?_
      have key2 := for_each_inv (meets_site_step parent m)
        (fun a => stores_grow_tagged parent.uid s a) parent.sidbs
        (by
          intro a i a1 _ hPa ha
          refine stores_grow_tagged_trans _ _ _ _ hPa ?_
          have hmem : m.multiset ∈ (a.data parent.uid).charge_space.map (fun e => e.multiset) := by
            rw [hPa.1 parent.uid, hP.1 parent.uid]
            exact List.mem_map_of_mem _ hm
          unfold meets_site_step at ha
          split at ha
          · simp only [Option.some.injEq] at ha
            subst ha
            rename_i lb ub _
            have t1 := stores_grow_tagged_add parent.uid a parent i ⟨lb, m.multiset⟩
              (Or.inr ⟨rfl, hmem⟩)
            refine stores_grow_tagged_trans _ _ _ _ t1 ?_
            refine stores_grow_tagged_add parent.uid _ parent i ⟨ub, m.multiset⟩
              (Or.inr ⟨rfl, ?_⟩)
            rw [t1.1 parent.uid]
            exact hmem
          · simp at ha)
        s s1 (stores_grow_tagged_refl _ _) hs
      exact key2)
    g g1 (stores_grow_tagged_refl _ _) h
  exact key

theorem stores_grow_tagged_derive (pu : Nat) (g g1 : ground_state_space)
    (parent : sidb_cluster) (h : g.derive_children_recv_bounds_without_siblings parent = some g1) :
    stores_grow_tagged pu g g1 := by
  refine stores_grow_tagged_for_each pu _ _ ?_ g g1 h
  intro s child s1 _ hs
  refine stores_grow_tagged_for_each pu _ _ ?_ s s1 hs
  intro a i a1 _ ha
  have hsub : ∀ (b : bound_direction) (x x1 : ground_state_space),
      subtract_sibling_pot_from_recv_ext_pot_bound b x parent child i = some x1 →
      stores_grow_tagged pu x x1 := by
    intro b x x1 hx
    unfold subtract_sibling_pot_from_recv_ext_pot_bound at hx
    split at hx
    · simp at hx
    · simp only [Option.some.injEq] at hx
      subst hx
      exact stores_grow_tagged_trans _ _ _ _ (stores_grow_tagged_set_recv _ _ _ _ _ _)
        (stores_grow_tagged_set_recv _ _ _ _ _ _)
  unfold derive_site_step at ha
  split at ha
  · simp at ha
  · rename_i a2 h2
    exact stores_grow_tagged_trans _ _ _ _ (hsub _ _ _ h2) (hsub _ _ _ ha)

theorem merge_inv_compositions_sum_ok (g0 g : ground_state_space) (pu : Nat)
    (l r : sidb_cluster) (done : List (multiset_conf × multiset_conf))
    (h : merge_inv g0 pu l r done g) : compositions_sum_ok (g.data pu).charge_space := by
  obtain ⟨-, -, hnd, -, hview⟩ := h
  intro e he comp hcomp
  have h1 : comp.map sidb_cluster_state.key ∈
      (compositions_of (g.data pu).charge_space e.multiset).map
        (List.map sidb_cluster_state.key) := by
    rw [compositions_of_self _ hnd e he]
    exact List.mem_map_of_mem _ hcomp
  rw [hview e.multiset] at h1
  obtain ⟨pr, hpr, hk⟩ := List.mem_map.mp h1
  obtain ⟨-, hp2⟩ := List.mem_filter.mp hpr
  obtain ⟨-, k2, -⟩ := composition_of_pair_key comp l r _ hk.symm
  rw [k2]
  simpa using hp2

theorem mem_emplace_cluster (p a : sidb_cluster) (cl : List sidb_cluster)
    (h : a ∈ emplace_cluster p cl) : a ∈ cl ∨ a = p := by
  unfold emplace_cluster at h
  split at h
  · exact Or.inl h
  · rcases List.mem_append.mp h with h1 | h1
    · exact Or.inl h1
    · exact Or.inr (List.mem_singleton.mp h1)

theorem mem_erase_children (ch cl : List sidb_cluster) (a : sidb_cluster)
    (h : a ∈ erase_children ch cl) : a ∈ cl ∧ ∀ x ∈ ch, x.uid ≠ a.uid := by
  unfold erase_children at h
  obtain ⟨h1, h2⟩ := List.mem_filter.mp h
  exact ⟨h1, by simpa using h2⟩

/-- The stores and charge spaces after `merge_up` of a parent that had an empty charge space and
empty stores. -/
theorem merge_up_stores (g g6 : ground_state_space) (pu : Nat) (ps : List Nat)
    (l r : sidb_cluster) (hempty : (g.data pu).charge_space = [])
    (hstores : ∀ j, (g.data pu).pot_projs j = []) (hr : r.uid ≠ pu)
    (h : g.merge_up (.node pu ps l r) = some g6) :
    (∀ u, u ≠ pu → (g6.data u).charge_space = (g.data u).charge_space)
      ∧ ∀ u j, ∀ pp ∈ (g6.data u).pot_projs j,
          (u ≠ pu ∧ pp ∈ (g.data u).pot_projs j)
            ∨ (u = pu ∧ pp.M ∈ (g6.data pu).charge_space.map (fun e => e.multiset)) := by
  unfold merge_up at h
  split at h
  · simp at h
  · rename_i g2 h2
    split at h
    · simp at h
    · rename_i g3 h3
      split at h
      · simp at h
      · rename_i g4 h4
        split at h
        · simp at h
        · rename_i g5 h5
          simp only [Option.some.injEq] at h
          subst h
          simp only
          have t2 := stores_grow_tagged_derive pu _ _ _ h2
          have hinv := construct_merged_inv g2 g3 pu ps l r
            (by rw [t2.1 pu]; exact hempty) hr h3
          have hsum := merge_inv_compositions_sum_ok _ _ _ _ _ _ hinv
          have t4 := stores_grow_tagged_construct_projections g3 g4 (.node pu ps l r) hsum h4
          have t5 := stores_grow_tagged_compute_meets g4 g5 (.node pu ps l r) h5
          have t35 := stores_grow_tagged_trans _ _ _ _ t4 t5
          simp only [sidb_cluster.uid] at t35
          obtain ⟨hpot, hcs, -⟩ := hinv
          refine ⟨?_, ?_⟩
          · intro u hu
            rw [t35.1 u, hcs u hu, t2.1 u]
          · intro u j pp hpp
            rcases t35.2 u j pp hpp with h1 | ⟨h1, h1m⟩
            · rw [(hpot.2.2 u).1] at h1
              rcases t2.2 u j pp h1 with h0 | ⟨h0, h0m⟩
              · by_cases hu : u = pu
                · subst hu
                  rw [hstores j] at h0
                  simp at h0
                · exact Or.inl ⟨hu, h0⟩
              · simp [hempty] at h0m
            · right
              rw [t35.1 pu]
              exact ⟨h1, h1m⟩

theorem merge_up_tagging (g g6 : ground_state_space) (p : sidb_cluster)
    (hw : p.well_formed) (hch : ∀ ch ∈ p.children, ch ∈ g.clustering)
    (hch2 : p.children.length = 2)
    (hempty : (g.data p.uid).charge_space = [])
    (hstores : ∀ j, (g.data p.uid).pot_projs j = [])
    (huid : ∀ c ∈ p.children, c.uid ≠ p.uid)
    (hI : projection_tagging g) (h : g.merge_up p = some g6) : projection_tagging g6 := by
  cases p with
  | leaf u s => simp [children] at hch2
  | node pu ps l r =>
    simp only [sidb_cluster.uid] at hempty hstores
    have hr : r.uid ≠ pu := huid r (by simp [children])
    obtain ⟨hcs, hst⟩ := merge_up_stores g g6 pu ps l r hempty hstores hr h
    obtain ⟨-, hcl, -⟩ := merge_up_static _ _ _ h
    obtain ⟨-, -, hperm⟩ := hw
    intro a ha a1 ha1 hne j hj pp hpp
    rcases hst a.uid j pp hpp with ⟨hu, h0⟩ | ⟨hu, hm⟩
    · rw [hcs a.uid hu]
      rw [hcl] at ha ha1
      have haE : a ∈ erase_children (sidb_cluster.node pu ps l r).children g.clustering := by
        rcases mem_emplace_cluster _ _ _ ha with h1 | h1
        · exact h1
        · exact absurd (by rw [h1]; rfl) hu
      obtain ⟨hacl, hach⟩ := mem_erase_children _ _ _ haE
      rcases mem_emplace_cluster _ _ _ ha1 with h1 | h1
      · exact hI a hacl a1 (mem_erase_children _ _ _ h1).1 hne j hj pp h0
      · subst h1
        simp only [sidb_cluster.sidbs] at hj
        rcases List.mem_append.mp (hperm.mem_iff.mp hj) with hjl | hjr
        · exact hI a hacl l (hch l (by simp [children])) (hach l (by simp [children]))
            j hjl pp h0
        · exact hI a hacl r (hch r (by simp [children])) (hach r (by simp [children]))
            j hjr pp h0
    · rw [hu]
      exact hm

/-- The parent chosen by `select_min_parent` on a frontier of at least two clusters is a node of
the hierarchy whose two children are in the frontier. -/
theorem select_min_parent_spec (g : ground_state_space) (p : sidb_cluster)
    (hw : g.top_cluster.well_formed) (hu : g.top_cluster.uids.Nodup)
    (hf : is_frontier g.top_cluster g.clustering) (hlen : g.clustering.length ≠ 1)
    (hsel : g.select_min_parent = some p) :
    p ∈ g.top_cluster.nodes ∧ merge_step_ok g.top_cluster p g.clustering := by
  have hlen2 : 2 ≤ g.clustering.length := by
    have := is_frontier_length_pos hf
    omega
  unfold select_min_parent at hsel
  split at hsel
  · simp at hsel
  · rename_i c0 rest hcl
    split at hsel
    · simp at hsel
    · rename_i c_min hmin
      obtain ⟨hmem, hle⟩ := min_parent_step_spec g rest c0 c_min hmin
      rw [← hcl] at hmem hle
      exact ⟨(find_parent_some _ _ _ hsel).1,
        frontier_merge g.top_cluster hw hu hf (self_mem_nodes _) hlen2
          c_min hmem p hsel (fun e he pe hpe => hle e he pe p hpe hsel)⟩

theorem move_up_hierarchy_tagging (nxt : next_extremal_op) (g g1 : ground_state_space)
    (hw : g.top_cluster.well_formed) (hu : g.top_cluster.uids.Nodup)
    (hf : is_frontier g.top_cluster g.clustering)
    (hfresh : ∀ p, g.select_min_parent = some p →
      (g.data p.uid).charge_space = [] ∧ ∀ j, (g.data p.uid).pot_projs j = [])
    (hI : projection_tagging g) (h : g.move_up_hierarchy nxt = some g1) :
    projection_tagging g1 := by
  unfold move_up_hierarchy at h
  split at h
  · simp only [Option.some.injEq] at h
    subst h
    exact hI
  · rename_i hlen
    split at h
    · simp at h
    · rename_i p hsel
      split at h
      · simp at h
      · rename_i g6 hmerge
        cases hU : g6.update_charge_spaces nxt (some p.uid) with
        | none => rw [hU] at h; simp at h
        | some res =>
          obtain ⟨r, g7⟩ := res
          rw [hU] at h
          simp only [Option.map_some', Option.some.injEq] at h
          subst h
          obtain ⟨hp, hch, hch2, -, -⟩ := select_min_parent_spec g p hw hu hf hlen hsel
          have huid : ∀ c ∈ p.children, c.uid ≠ p.uid := by
            intro c hc hcu
            have hcn : c ∈ g.top_cluster.nodes := is_frontier_mem_nodes hf c (hch c hc)
            have hcp := eq_of_uid_eq hu hcn hp hcu
            subst hcp
            exact root_not_child (self_mem_nodes c) hc
          exact update_charge_spaces_tagging nxt g6 g7 _ r hU
            (merge_up_tagging g g6 p (well_formed_of_mem _ _ hw hp) hch hch2
              (hfresh p hsel).1 (hfresh p hsel).2 huid hI hmerge)

/-! ### Received-potential consistency -/

theorem projected_sum_congr (g g1 : ground_state_space) (b : bound_direction) (i : Nat) :
    ∀ (l : List sidb_cluster), (∀ c ∈ l, extremal_pot g1 b c i = extremal_pot g b c i) →
      projected_sum g1 b i l = projected_sum g b i l := by
  intro l
  induction l with
  | nil => intro _; rfl
  | cons c cs ih =>
    intro h
    simp only [projected_sum]
    rw [h c (List.mem_cons_self _ _), ih (fun d hd => h d (List.mem_cons_of_mem _ hd))]

theorem projected_sum_cons_some (g : ground_state_space) (b : bound_direction) (i : Nat)
    (c : sidb_cluster) (cs : List sidb_cluster) (v : Pot) :
    projected_sum g b i (c :: cs) = some v ↔
      ∃ x w, extremal_pot g b c i = some x ∧ projected_sum g b i cs = some w ∧ v = x + w := by
  simp only [projected_sum]
  cases h1 : extremal_pot g b c i with
  | none => simp
  | some x =>
    cases h2 : projected_sum g b i cs with
    | none => simp
    | some w =>
      simp only [Option.some.injEq]
      constructor
      · intro h; exact ⟨x, w, rfl, rfl, h.symm⟩
      · rintro ⟨x1, w1, hx, hw, hv⟩; rw [hv, hx, hw]

theorem projected_sum_perm (g : ground_state_space) (b : bound_direction) (i : Nat)
    {l l1 : List sidb_cluster} (hp : l.Perm l1) :
    projected_sum g b i l = projected_sum g b i l1 := by
  induction hp with
  | nil => rfl
  | cons x _ ih => simp only [projected_sum, ih]
  | swap x y l =>
    simp only [projected_sum]
    cases extremal_pot g b x i <;> cases extremal_pot g b y i <;>
      cases projected_sum g b i l <;> simp
    ring
  | trans _ _ ih1 ih2 => exact ih1.trans ih2

/-- A list of clusters with distinct uids is a permutation of any of its members followed by the
clusters with another uid. -/
theorem perm_cons_filter_uid : ∀ (l : List sidb_cluster) (a : sidb_cluster),
    (l.map uid).Nodup → a ∈ l → l.Perm (a :: l.filter (fun c => decide (c.uid ≠ a.uid))) := by
  intro l
  induction l with
  | nil => intro a _ ha; simp at ha
  | cons x xs ih =>
    intro a hnd ha
    rw [List.map_cons, List.nodup_cons] at hnd
    rcases List.mem_cons.mp ha with rfl | hin
    · have hall : ∀ c ∈ xs, c.uid ≠ a.uid := by
        intro c hc hcu
        exact hnd.1 (hcu ▸ List.mem_map_of_mem uid hc)
      have h1 : (a :: xs).filter (fun c => decide (c.uid ≠ a.uid)) = xs := by
        rw [List.filter_cons]
        simp only [ne_eq, not_true_eq_false, decide_False, Bool.false_eq_true, ↓reduceIte]
        rw [List.filter_eq_self]
        intro c hc
        simpa using hall c hc
      rw [h1]
    · have hxa : x.uid ≠ a.uid := by
        intro hcu
        exact hnd.1 (hcu ▸ List.mem_map_of_mem uid hin)
      rw [List.filter_cons]
      simp only [ne_eq, hxa, not_false_eq_true, decide_True, ↓reduceIte]
      exact ((ih a hnd.2 hin).cons x).trans (List.Perm.swap a x _)

theorem nodup_uids_filter (l : List sidb_cluster) (p : sidb_cluster → Bool)
    (h : (l.map uid).Nodup) : ((l.filter p).map uid).Nodup :=
  List.Nodup.sublist ((List.filter_sublist l).map uid) h

/-- The sum after the store of one member of the list has changed at the site. -/
theorem projected_sum_update (g g1 : ground_state_space) (b : bound_direction) (i : Nat)
    (l : List sidb_cluster) (p : sidb_cluster) (hnd : (l.map uid).Nodup) (hp : p ∈ l)
    (hsame : ∀ c ∈ l, c.uid ≠ p.uid → extremal_pot g1 b c i = extremal_pot g b c i)
    (vn : Pot) (hn : extremal_pot g1 b p i = some vn) (s : Pot)
    (hs : projected_sum g b i l = some s) :
    ∃ vo, extremal_pot g b p i = some vo ∧ projected_sum g1 b i l = some (s - vo + vn) := by
  have hperm := perm_cons_filter_uid l p hnd hp
  rw [projected_sum_perm g b i hperm] at hs
  obtain ⟨x, w, hx, hw, hv⟩ := (projected_sum_cons_some _ _ _ _ _ _).mp hs
  refine ⟨x, hx, ?_⟩
  rw [projected_sum_perm g1 b i hperm]
  refine (projected_sum_cons_some _ _ _ _ _ _).mpr ⟨vn, w, hn, ?_, by rw [hv]; ring⟩
  rw [projected_sum_congr g g1 b i _ ?_]
  · exact hw
  · intro c hc
    obtain ⟨h1, h2⟩ := List.mem_filter.mp hc
    exact hsame c h1 (by simpa using h2)

theorem pairwise_disjoint_eq {l : List sidb_cluster}
    (h : l.Pairwise (fun a b => a.sidbs.Disjoint b.sidbs)) {a b : sidb_cluster} (ha : a ∈ l)
    (hb : b ∈ l) {i : Nat} (hia : i ∈ a.sidbs) (hib : i ∈ b.sidbs) : a = b := by
  induction l with
  | nil => simp at ha
  | cons x xs ih =>
    rw [List.pairwise_cons] at h
    rcases List.mem_cons.mp ha with rfl | ha1
    · rcases List.mem_cons.mp hb with rfl | hb1
      · rfl
      · exact absurd hib (h.1 b hb1 hia)
    · rcases List.mem_cons.mp hb with rfl | hb1
      · exact absurd hia (h.1 a ha1 hib)
      · exact ih h.2 ha1 hb1

theorem get_remove_of_ne (b : bound_direction) (s : potential_projection_order)
    (cur : potential_projection) (m : multiset_conf)
    (h : potential_projection_order.get b s = some cur) (hne : cur.M ≠ m) :
    potential_projection_order.get b (potential_projection_order.remove_m_conf m s)
      = some cur := by
  cases b with
  | LOWER =>
    cases s with
    | nil => simp [potential_projection_order.get] at h
    | cons x xs =>
      simp only [potential_projection_order.get, List.head?_cons, Option.some.injEq] at h
      subst h
      simp [potential_projection_order.get, potential_projection_order.remove_m_conf,
        List.filter_cons, hne]
  | UPPER =>
    simp only [potential_projection_order.get] at h ⊢
    obtain ⟨ys, rfl⟩ := List.getLast?_eq_some_iff.mp h
    simp [potential_projection_order.remove_m_conf, List.filter_append, List.filter_cons, hne]

theorem extremal_pot_congr (g g1 : ground_state_space) (b : bound_direction) (c : sidb_cluster)
    (i : Nat) (h : (g1.data c.uid).pot_projs i = (g.data c.uid).pot_projs i) :
    extremal_pot g1 b c i = extremal_pot g b c i := by
  unfold extremal_pot get_proj_bound
  rw [h]

theorem get_recv_congr (g g1 : ground_state_space) (b : bound_direction) (c : sidb_cluster)
    (i : Nat)
    (h : (g1.data c.uid).recv_ext_pot_bounds i = (g.data c.uid).recv_ext_pot_bounds i) :
    g1.get_recv_ext_pot_bound b c i = g.get_recv_ext_pot_bound b c i := by
  unfold get_recv_ext_pot_bound
  rw [h]

/-- The effect of `set_recv_ext_pot_bound`. -/
theorem set_recv_effect (g : ground_state_space) (b : bound_direction) (c : sidb_cluster)
    (i : Nat) (v : Pot) :
    (g.set_recv_ext_pot_bound b c i v).clustering = g.clustering
      ∧ (∀ u, ((g.set_recv_ext_pot_bound b c i v).data u).pot_projs = (g.data u).pot_projs)
      ∧ (∀ u j, (u ≠ c.uid ∨ j ≠ i) →
          ((g.set_recv_ext_pot_bound b c i v).data u).recv_ext_pot_bounds j
            = (g.data u).recv_ext_pot_bounds j)
      ∧ (g.set_recv_ext_pot_bound b c i v).get_recv_ext_pot_bound b c i = v
      ∧ ∀ b1, b1 ≠ b → (g.set_recv_ext_pot_bound b c i v).get_recv_ext_pot_bound b1 c i
          = g.get_recv_ext_pot_bound b1 c i := by
  refine ⟨rfl, ?_, ?_, ?_, ?_⟩
  · intro u
    unfold set_recv_ext_pot_bound
    by_cases hu : u = c.uid
    · subst hu; rw [modify_data_self]
    · rw [modify_data_other _ _ _ _ hu]
  · intro u j huj
    unfold set_recv_ext_pot_bound
    by_cases hu : u = c.uid
    · subst hu
      rw [modify_data_self]
      rcases huj with h1 | h1
      · exact absurd rfl h1
      · simp only [Function.update_noteq h1]
    · rw [modify_data_other _ _ _ _ hu]
  · unfold get_recv_ext_pot_bound set_recv_ext_pot_bound
    rw [modify_data_self]
    cases b <;> simp
  · intro b1 hb1
    unfold get_recv_ext_pot_bound set_recv_ext_pot_bound
    rw [modify_data_self]
    cases b <;> cases b1 <;> simp at hb1 ⊢

/-- The effect of one direction of the removal propagation, when the store returns, as the next
extremal entry, the entry that is extremal once the tag of the current one is removed. -/
theorem if_bound_removed_effect (b : bound_direction) (s s1 : ground_state_space)
    (pc : sidb_cluster) (pm : multiset_conf) (rc : sidb_cluster) (i : Nat)
    (h : update_external_pot_proj_if_bound_removed
      potential_projection_order.get_next_other_tag b s pc pm rc i = some s1) :
    s1.clustering = s.clustering
      ∧ (∀ u, (s1.data u).pot_projs = (s.data u).pot_projs)
      ∧ (∀ u j, (u ≠ rc.uid ∨ j ≠ i) →
          (s1.data u).recv_ext_pot_bounds j = (s.data u).recv_ext_pot_bounds j)
      ∧ (∀ b1, b1 ≠ b → s1.get_recv_ext_pot_bound b1 rc i = s.get_recv_ext_pot_bound b1 rc i)
      ∧ ∃ old new, potential_projection_order.get b ((s.data pc.uid).pot_projs i) = some old
          ∧ potential_projection_order.get b
              (potential_projection_order.remove_m_conf pm ((s.data pc.uid).pot_projs i))
            = some new
          ∧ s1.get_recv_ext_pot_bound b rc i
            = s.get_recv_ext_pot_bound b rc i + (new.V - old.V) := by
  unfold update_external_pot_proj_if_bound_removed at h
  cases hcur : s.get_proj_bound b pc i with
  | none => rw [hcur] at h; simp at h
  | some cur =>
    rw [hcur] at h
    simp only at h
    unfold get_proj_bound at hcur
    by_cases hm : cur.M = pm
    · rw [if_pos hm] at h
      cases hnx : get_next_proj_pot_bound potential_projection_order.get_next_other_tag s b pc i
        with
      | none => rw [hnx] at h; simp at h
      | some nv =>
        rw [hnx] at h
        simp only [Option.some.injEq] at h
        subst h
        unfold get_next_proj_pot_bound potential_projection_order.get_next_other_tag at hnx
        rw [hcur] at hnx
        simp only [hm] at hnx
        cases hnew : potential_projection_order.get b
            (potential_projection_order.remove_m_conf pm ((s.data pc.uid).pot_projs i)) with
        | none => rw [hnew] at hnx; simp at hnx
        | some new =>
          rw [hnew] at hnx
          simp only [Option.map_some', Option.some.injEq] at hnx
          subst hnx
          unfold update_recv_ext_pot_bound
          obtain ⟨e1, e2, e3, e4, e5⟩ := set_recv_effect s b rc i
            (s.get_recv_ext_pot_bound b rc i + (new.V - cur.V))
          exact ⟨e1, e2, e3, e5, cur, new, hcur, rfl, e4⟩
    · rw [if_neg hm] at h
      simp only [Option.some.injEq] at h
      subst h
      exact ⟨rfl, fun _ => rfl, fun _ _ _ => rfl, fun _ _ => rfl, cur, cur, hcur,
        get_remove_of_ne b _ cur pm hcur hm, by simp⟩

/-- The effect of `update_external_potential_projection` under that store operation. -/
theorem update_external_effect (s s1 : ground_state_space) (pc : sidb_cluster)
    (pm : multiset_conf) (rc : sidb_cluster) (i : Nat)
    (h : update_external_potential_projection potential_projection_order.get_next_other_tag
      s pc pm rc i = some s1) :
    s1.clustering = s.clustering
      ∧ (∀ u j, (u ≠ pc.uid ∨ j ≠ i) → (s1.data u).pot_projs j = (s.data u).pot_projs j)
      ∧ (∀ u j, (u ≠ rc.uid ∨ j ≠ i) →
          (s1.data u).recv_ext_pot_bounds j = (s.data u).recv_ext_pot_bounds j)
      ∧ ∀ b, ∃ old new, extremal_pot s b pc i = some old ∧ extremal_pot s1 b pc i = some new
          ∧ s1.get_recv_ext_pot_bound b rc i = s.get_recv_ext_pot_bound b rc i + (new - old) := by
  unfold update_external_potential_projection at h
  cases h1 : update_external_pot_proj_if_bound_removed
      potential_projection_order.get_next_other_tag .LOWER s pc pm rc i with
  | none => rw [h1] at h; simp at h
  | some g1 =>
    rw [h1] at h
    simp only at h
    cases h2 : update_external_pot_proj_if_bound_removed
        potential_projection_order.get_next_other_tag .UPPER g1 pc pm rc i with
    | none => rw [h2] at h; simp at h
    | some g2 =>
      rw [h2] at h
      simp only [Option.some.injEq] at h
      obtain ⟨a1, a2, a3, a4, oL, nL, a5, a6, a7⟩ := if_bound_removed_effect _ _ _ _ _ _ _ h1
      obtain ⟨b1, b2, b3, b4, oU, nU, b5, b6, b7⟩ := if_bound_removed_effect _ _ _ _ _ _ _ h2
      have hst : ∀ u j, (s1.data u).pot_projs j
          = if u = pc.uid ∧ j = i then
              potential_projection_order.remove_m_conf pm ((s.data pc.uid).pot_projs i)
            else (s.data u).pot_projs j := by
        intro u j
        rw [← h]
        unfold remove_all_cluster_charge_state_occurrences
        by_cases hu : u = pc.uid
        · subst hu
          rw [modify_data_self]
          by_cases hj : j = i
          · subst hj
            simp [b2, a2]
          · simp [Function.update_noteq hj, hj, b2, a2]
        · rw [modify_data_other _ _ _ _ hu]
          simp [hu, b2, a2]
      have hrv : ∀ u, (s1.data u).recv_ext_pot_bounds = (g2.data u).recv_ext_pot_bounds := by
        intro u
        rw [← h]
        unfold remove_all_cluster_charge_state_occurrences
        by_cases hu : u = pc.uid
        · subst hu; rw [modify_data_self]
        · rw [modify_data_other _ _ _ _ hu]
      have hrecv : ∀ b, s1.get_recv_ext_pot_bound b rc i = g2.get_recv_ext_pot_bound b rc i :=
        fun b => get_recv_congr _ _ _ _ _ (by rw [hrv])
      refine ⟨by rw [← h]; exact b1.trans a1, ?_, ?_, ?_⟩
      · intro u j huj
        rw [hst u j, if_neg]
        intro hc
        rcases huj with h3 | h3
        · exact h3 hc.1
        · exact h3 hc.2
      · intro u j huj
        rw [hrv u, b3 u j huj, a3 u j huj]
      · intro b
        have hnew : extremal_pot s1 b pc i = (potential_projection_order.get b
            (potential_projection_order.remove_m_conf pm ((s.data pc.uid).pot_projs i))).map
              potential_projection.V := by
          unfold extremal_pot get_proj_bound
          rw [hst pc.uid i, if_pos ⟨rfl, rfl⟩]
        cases b with
        | LOWER =>
          refine ⟨oL.V, nL.V, ?_, ?_, ?_⟩
          · unfold extremal_pot get_proj_bound; rw [a5]; rfl
          · rw [hnew, a6]; rfl
          · rw [hrecv, b4 .LOWER (by simp), a7]
        | UPPER =>
          rw [a2] at b5 b6
          refine ⟨oU.V, nU.V, ?_, ?_, ?_⟩
          · unfold extremal_pot get_proj_bound; rw [b5]; rfl
          · rw [hnew, b6]; rfl
          · rw [hrecv, b7, a4 .UPPER (by simp)]

/-- One step of the removal propagation keeps the received bounds consistent. -/
theorem update_external_consistent (s s1 : ground_state_space) (pc : sidb_cluster)
    (pm : multiset_conf) (rc : sidb_cluster) (i : Nat)
    (hnd : (s.clustering.map uid).Nodup)
    (hdisj : s.clustering.Pairwise (fun a b => a.sidbs.Disjoint b.sidbs))
    (hpc : pc ∈ s.clustering) (hrc : rc ∈ s.clustering) (hne : rc.uid ≠ pc.uid)
    (hi : i ∈ rc.sidbs) (hI : received_consistent s)
    (h : update_external_potential_projection potential_projection_order.get_next_other_tag
      s pc pm rc i = some s1) :
    s1.clustering = s.clustering ∧ received_consistent s1 := by
  obtain ⟨e1, e2, e3, e4⟩ := update_external_effect s s1 pc pm rc i h
  refine ⟨e1, ?_⟩
  intro c hc j hj b
  rw [e1] at hc
  have hoc : other_clusters s1 c = other_clusters s c := by
    unfold other_clusters; rw [e1]
  rw [hoc]
  have h0 := hI c hc j hj b
  by_cases hji : j = i
  · subst hji
    have hcr : c = rc := pairwise_disjoint_eq hdisj hc hrc hj hi
    subst hcr
    obtain ⟨old, new, k1, k2, k3⟩ := e4 b
    have hpm : pc ∈ other_clusters s c := by
      unfold other_clusters
      exact List.mem_filter.mpr ⟨hpc, by simpa using fun h => hne h.symm⟩
    obtain ⟨vo, k4, k5⟩ := projected_sum_update s s1 b j (other_clusters s c) pc
      (nodup_uids_filter _ _ hnd) hpm
      (fun d _ hd => extremal_pot_congr _ _ _ _ _ (e2 d.uid j (Or.inl hd))) new k2 _ h0
    rw [k4] at k1
    simp only [Option.some.injEq] at k1
    subst k1
    rw [k5, k3]
    congr 1
    ring
  · rw [projected_sum_congr s s1 b j _
      (fun d _ => extremal_pot_congr _ _ _ _ _ (e2 d.uid j (Or.inr hji))), h0]
    congr 1
    exact (get_recv_congr _ _ _ _ _ (e3 c.uid j (Or.inr hji))).symm

/-- The method `handle_invalid_state` keeps the received bounds consistent. -/
theorem handle_invalid_state_consistent (g g1 : ground_state_space) (pc : sidb_cluster)
    (pm : multiset_conf) (hnd : (g.clustering.map uid).Nodup)
    (hdisj : g.clustering.Pairwise (fun a b => a.sidbs.Disjoint b.sidbs))
    (hpc : pc ∈ g.clustering) (hI : received_consistent g)
    (h : g.handle_invalid_state potential_projection_order.get_next_other_tag pc pm = some g1) :
    g1.clustering = g.clustering ∧ received_consistent g1 := by
  have key := for_each_inv
    (handle_invalid_state_step potential_projection_order.get_next_other_tag pc pm)
    (fun s => s.clustering = g.clustering ∧ received_consistent s) g.clustering
    (by
      intro s rc s1 hrc hP hs
      unfold handle_invalid_state_step at hs
      by_cases hu : rc.uid = pc.uid
      · rw [if_pos hu] at hs
        simp only [Option.some.injEq] at hs
        subst hs
        exact hP
      · rw [if_neg hu] at hs
        have key2 := for_each_inv
          (fun g sidb_ix => update_external_potential_projection
            potential_projection_order.get_next_other_tag g pc pm rc sidb_ix)
          (fun a => a.clustering = g.clustering ∧ received_consistent a) rc.sidbs
          (by
            intro a i a1 hi hPa ha
            obtain ⟨k1, k2⟩ := update_external_consistent a a1 pc pm rc i
              (by rw [hPa.1]; exact hnd) (by rw [hPa.1]; exact hdisj)
              (by rw [hPa.1]; exact hpc) (by rw [hPa.1]; exact hrc) hu hi hPa.2 ha
            exact ⟨k1.trans hPa.1, k2⟩)
          s s1 hP hs
        exact key2)
    g g1 ⟨rfl, hI⟩ h
  exact key

theorem received_consistent_congr (g g1 : ground_state_space)
    (hcl : g1.clustering = g.clustering)
    (hst : ∀ u, (g1.data u).pot_projs = (g.data u).pot_projs)
    (hrv : ∀ u, (g1.data u).recv_ext_pot_bounds = (g.data u).recv_ext_pot_bounds)
    (hI : received_consistent g) : received_consistent g1 := by
  intro c hc i hi b
  rw [hcl] at hc
  have hoc : other_clusters g1 c = other_clusters g c := by
    unfold other_clusters; rw [hcl]
  rw [hoc, projected_sum_congr g g1 b i _
    (fun d _ => extremal_pot_congr _ _ _ _ _ (by rw [hst])), hI c hc i hi b]
  congr 1
  exact (get_recv_congr _ _ _ _ _ (by rw [hrv])).symm

theorem erase_removed_recv (c : sidb_cluster) (removed_ms : List multiset_conf) :
    ∀ (g : ground_state_space) (u : Nat),
      ((erase_removed c removed_ms g).data u).recv_ext_pot_bounds
        = (g.data u).recv_ext_pot_bounds := by
  induction removed_ms with
  | nil => intro g u; rfl
  | cons m rest ih =>
    intro g u
    unfold erase_removed
    simp only [List.foldl_cons]
    have := ih (g.modify c.uid (fun d => { d with
      charge_space := erase_charge_state m d.charge_space })) u
    unfold erase_removed at this
    rw [this]
    by_cases hu : u = c.uid
    · subst hu; rw [modify_data_self]
    · rw [modify_data_other _ _ _ _ hu]

/-- The method `check_charge_space` keeps the received bounds consistent. -/
theorem check_charge_space_consistent (g g1 : ground_state_space) (c : sidb_cluster) (r : Bool)
    (hnd : (g.clustering.map uid).Nodup)
    (hdisj : g.clustering.Pairwise (fun a b => a.sidbs.Disjoint b.sidbs))
    (hc : c ∈ g.clustering) (hI : received_consistent g)
    (h : check_charge_space potential_projection_order.get_next_other_tag g c = some (r, g1)) :
    g1.clustering = g.clustering ∧ received_consistent g1 := by
  unfold check_charge_space at h
  split at h
  · simp only [Option.some.injEq, Prod.mk.injEq] at h
    rw [← h.2]
    exact ⟨rfl, hI⟩
  · split at h
    · simp at h
    · rename_i g2 removed_ms fixpoint hL
      simp only [Option.some.injEq, Prod.mk.injEq] at h
      rw [← h.2]
      have key := for_each_inv
        (check_charge_space_step potential_projection_order.get_next_other_tag c)
        (fun (a : ground_state_space × List multiset_conf × Bool) =>
          a.1.clustering = g.clustering ∧ received_consistent a.1)
        (g.data c.uid).charge_space
        (by
          intro s x s1 _ hP hs
          unfold check_charge_space_step at hs
          split at hs
          · simp at hs
          · simp only [Option.some.injEq] at hs
            subst hs
            exact hP
          · split at hs
            · simp at hs
            · rename_i g3 hH
              simp only [Option.some.injEq] at hs
              subst hs
              obtain ⟨k1, k2⟩ := handle_invalid_state_consistent s.1 g3 c x.multiset
                (by rw [hP.1]; exact hnd) (by rw [hP.1]; exact hdisj)
                (by rw [hP.1]; exact hc) hP.2 hH
              exact ⟨k1.trans hP.1, k2⟩)
        (g, [], true) (g2, removed_ms, fixpoint) ⟨rfl, hI⟩ hL
      simp only at key
      have hcl : (erase_removed c removed_ms g2).clustering = g2.clustering :=
        (same_static_erase_removed c removed_ms g2).2.1
      exact ⟨hcl.trans key.1, received_consistent_congr g2 _ hcl
        (erase_removed_stores c removed_ms g2) (erase_removed_recv c removed_ms g2) key.2⟩

/-- The method `update_charge_spaces` keeps the received bounds consistent. -/
theorem update_charge_spaces_consistent (g g1 : ground_state_space)
    (skip_cluster : Option Nat) (r : Bool)
    (hnd : (g.clustering.map uid).Nodup)
    (hdisj : g.clustering.Pairwise (fun a b => a.sidbs.Disjoint b.sidbs))
    (hI : received_consistent g)
    (h : g.update_charge_spaces potential_projection_order.get_next_other_tag skip_cluster
      = some (r, g1)) :
    g1.clustering = g.clustering ∧ received_consistent g1 := by
  have key := for_each_inv
    (update_charge_spaces_step potential_projection_order.get_next_other_tag skip_cluster)
    (fun (a : Bool × ground_state_space) =>
      a.2.clustering = g.clustering ∧ received_consistent a.2) g.clustering
    (by
      intro s x s1 hx hP hs
      unfold update_charge_spaces_step at hs
      split at hs
      · split at hs
        · simp at hs
        · rename_i r1 g2 hC
          simp only [Option.some.injEq] at hs
          subst hs
          obtain ⟨k1, k2⟩ := check_charge_space_consistent s.2 g2 x r1
            (by rw [hP.1]; exact hnd) (by rw [hP.1]; exact hdisj)
            (by rw [hP.1]; exact hx) hP.2 hC
          exact ⟨k1.trans hP.1, k2⟩
      · simp only [Option.some.injEq] at hs
        subst hs
        exact hP)
    (true, g) (r, g1) ⟨rfl, hI⟩ h
  exact key

/-! ### Sorted stores -/

theorem sorted_add (pp : potential_projection) :
    ∀ (s : potential_projection_order), s.Pairwise (fun a b => a.V ≤ b.V) →
      (potential_projection_order.add pp s).Pairwise (fun a b => a.V ≤ b.V) := by
  intro s
  induction s with
  | nil => intro _; simp [potential_projection_order.add]
  | cons q qs ih =>
    intro h
    rw [List.pairwise_cons] at h
    unfold potential_projection_order.add
    split
    · rename_i hlt
      rw [List.pairwise_cons]
      refine ⟨?_, List.pairwise_cons.mpr h⟩
      intro x hx
      rcases List.mem_cons.mp hx with rfl | hx
      · exact le_of_lt hlt
      · exact le_trans (le_of_lt hlt) (h.1 x hx)
    · rename_i hlt
      rw [List.pairwise_cons]
      refine ⟨?_, ih h.2⟩
      intro x hx
      rcases (mem_add pp qs x).mp hx with rfl | hx
      · exact not_lt.mp hlt
      · exact h.1 x hx

theorem get_extremal (b : bound_direction) (s : potential_projection_order)
    (hs : s.Pairwise (fun a b => a.V ≤ b.V)) (p : potential_projection)
    (h : potential_projection_order.get b s = some p) :
    p ∈ s ∧ ∀ q ∈ s, match b with
      | .LOWER => p.V ≤ q.V
      | .UPPER => q.V ≤ p.V := by
  refine ⟨get_mem b s p h, ?_⟩
  intro q hq
  cases b with
  | LOWER =>
    cases s with
    | nil => simp at hq
    | cons x xs =>
      simp only [potential_projection_order.get, List.head?_cons, Option.some.injEq] at h
      subst h
      rw [List.pairwise_cons] at hs
      rcases List.mem_cons.mp hq with rfl | hq
      · exact le_refl _
      · exact hs.1 q hq
  | UPPER =>
    simp only [potential_projection_order.get] at h
    obtain ⟨ys, rfl⟩ := List.getLast?_eq_some_iff.mp h
    rw [List.pairwise_append] at hs
    rcases List.mem_append.mp hq with hq | hq
    · exact hs.2.2 q hq p (List.mem_singleton.mpr rfl)
    · rw [List.mem_singleton.mp hq]

theorem get_some_of_mem (b : bound_direction) (s : potential_projection_order)
    (q : potential_projection) (hq : q ∈ s) :
    ∃ p, potential_projection_order.get b s = some p := by
  cases b with
  | LOWER =>
    cases s with
    | nil => simp at hq
    | cons x xs => exact ⟨x, rfl⟩
  | UPPER =>
    cases h : potential_projection_order.get .UPPER s with
    | none =>
      simp only [potential_projection_order.get, List.getLast?_eq_none_iff] at h
      subst h
      simp at hq
    | some p => exact ⟨p, rfl⟩

/-- The potential of the extremal entry of a sorted store is determined by the set of its
entries together with the entries that are dominated by one of them. -/
theorem extremal_of_dominated (b : bound_direction) (s t : potential_projection_order)
    (hs : s.Pairwise (fun a b => a.V ≤ b.V)) (ht : t.Pairwise (fun a b => a.V ≤ b.V))
    (hst : ∀ q ∈ s, q ∈ t)
    (hts : ∀ q ∈ t, ∃ y ∈ s, match b with
      | .LOWER => y.V ≤ q.V
      | .UPPER => q.V ≤ y.V)
    (p : potential_projection) (h : potential_projection_order.get b s = some p) :
    ∃ p1, potential_projection_order.get b t = some p1 ∧ p1.V = p.V := by
  obtain ⟨hp, hmin⟩ := get_extremal b s hs p h
  obtain ⟨p1, h1⟩ := get_some_of_mem b t p (hst p hp)
  obtain ⟨hp1, hmin1⟩ := get_extremal b t ht p1 h1
  refine ⟨p1, h1, ?_⟩
  obtain ⟨y, hy, hyq⟩ := hts p1 hp1
  cases b with
  | LOWER => exact le_antisymm (hmin1 p (hst p hp)) (le_trans (hmin y hy) hyq)
  | UPPER => exact le_antisymm (le_trans hyq (hmin y hy)) (hmin1 p (hst p hp))

theorem extremal_of_same_entries (b : bound_direction) (s t : potential_projection_order)
    (hs : s.Pairwise (fun a b => a.V ≤ b.V)) (ht : t.Pairwise (fun a b => a.V ≤ b.V))
    (hst : ∀ q, q ∈ t ↔ q ∈ s) :
    (potential_projection_order.get b t).map potential_projection.V
      = (potential_projection_order.get b s).map potential_projection.V := by
  cases h : potential_projection_order.get b s with
  | none =>
    have hnil : s = [] := by
      cases b with
      | LOWER => cases s with
        | nil => rfl
        | cons x xs => simp [potential_projection_order.get] at h
      | UPPER => simpa [potential_projection_order.get, List.getLast?_eq_none_iff] using h
    subst hnil
    have htn : t = [] := List.eq_nil_iff_forall_not_mem.mpr (fun q hq => by
      have := (hst q).mp hq
      simp at this)
    subst htn
    rw [h]
  | some p =>
    obtain ⟨p1, h1, h2⟩ := extremal_of_dominated b s t hs ht (fun q hq => (hst q).mpr hq)
      (fun q hq => ⟨q, (hst q).mp hq, by cases b <;> exact le_refl _⟩) p h
    rw [h1]
    simp [h2]

/-- In a sorted store the lower extremal entry of a tag is not above the upper one. -/
theorem get_pot_proj_for_m_conf_le (s : potential_projection_order)
    (hs : s.Pairwise (fun a b => a.V ≤ b.V)) (m : multiset_conf) (p q : potential_projection)
    (hp : potential_projection_order.get_pot_proj_for_m_conf .LOWER s m = some p)
    (hq : potential_projection_order.get_pot_proj_for_m_conf .UPPER s m = some q) :
    p.V ≤ q.V := by
  unfold potential_projection_order.get_pot_proj_for_m_conf at hp hq
  have hf := List.Pairwise.filter (fun pp => decide (pp.M = m)) hs
  exact (get_extremal .LOWER _ hf p hp).2 q (get_mem .UPPER _ q hq)

/-- A loop over distinct elements whose steps have separate footprints: every step turns the
precondition of its element into its postcondition and keeps the preconditions and the
postconditions of the other elements. -/
theorem for_each_footprint {α σ : Type} (step : σ → α → Option σ) (G : σ → Prop)
    (Pre Post : α → σ → Prop) :
    ∀ (l : List α), l.Nodup →
      (∀ s x s1, x ∈ l → G s → Pre x s → step s x = some s1 → G s1) →
      (∀ s x s1, x ∈ l → G s → Pre x s → step s x = some s1 → Post x s1) →
      (∀ s y s1 x, x ∈ l → y ∈ l → x ≠ y → G s → Pre y s → Pre x s → step s y = some s1 →
        Pre x s1) →
      (∀ s y s1 x, x ∈ l → y ∈ l → x ≠ y → G s → Pre y s → Post x s → step s y = some s1 →
        Post x s1) →
      ∀ s s1, G s → (∀ x ∈ l, Pre x s) → for_each step l s = some s1 →
        G s1 ∧ ∀ x ∈ l, Post x s1 := by
  intro l
  induction l with
  | nil =>
    intro _ _ _ _ _ s s1 hG _ h
    simp only [for_each, Option.some.injEq] at h
    subst h
    exact ⟨hG, fun x hx => by simp at hx⟩
  | cons y ys ih =>
    intro hnd hg hest hpre hpost s s2 hG hP h
    obtain ⟨s1, h1, h2⟩ := for_each_cons_some h
    rw [List.nodup_cons] at hnd
    have hPy := hP y (List.mem_cons_self _ _)
    have hG1 := hg s y s1 (List.mem_cons_self _ _) hG hPy h1
    have hy1 := hest s y s1 (List.mem_cons_self _ _) hG hPy h1
    have hP1 : ∀ x ∈ ys, Pre x s1 := by
      intro x hx
      exact hpre s y s1 x (List.mem_cons_of_mem _ hx) (List.mem_cons_self _ _)
        (fun hxy => hnd.1 (hxy ▸ hx)) hG hPy (hP x (List.mem_cons_of_mem _ hx)) h1
    obtain ⟨r1, r2⟩ := ih hnd.2
      (fun a x a1 hx => hg a x a1 (List.mem_cons_of_mem _ hx))
      (fun a x a1 hx => hest a x a1 (List.mem_cons_of_mem _ hx))
      (fun a z a1 x hx hz => hpre a z a1 x (List.mem_cons_of_mem _ hx)
        (List.mem_cons_of_mem _ hz))
      (fun a z a1 x hx hz => hpost a z a1 x (List.mem_cons_of_mem _ hx)
        (List.mem_cons_of_mem _ hz))
      s1 s2 hG1 hP1 h2
    refine ⟨r1, ?_⟩
    intro x hx
    rcases List.mem_cons.mp hx with rfl | hx
    · have key : ∀ (zs : List α), (∀ z ∈ zs, z ∈ ys) → ∀ a a2, G a → (∀ z ∈ zs, Pre z a) →
          Post x a → for_each step zs a = some a2 → zs.Nodup → Post x a2 := by
        intro zs
        induction zs with
        | nil =>
          intro _ a a2 _ _ hPo ha _
          simp only [for_each, Option.some.injEq] at ha
          subst ha
          exact hPo
        | cons z zs ihz =>
          intro hsub a a2 hGa hPa hPo ha hndz
          obtain ⟨a1, k1, k2⟩ := for_each_cons_some ha
          rw [List.nodup_cons] at hndz
          have hz : z ∈ ys := hsub z (List.mem_cons_self _ _)
          have hPz := hPa z (List.mem_cons_self _ _)
          have hne : x ≠ z := fun hxz => hnd.1 (hxz ▸ hz)
          refine ihz (fun w hw => hsub w (List.mem_cons_of_mem _ hw)) a1 a2
            (hg a z a1 (List.mem_cons_of_mem _ hz) hGa hPz k1) ?_
            (hpost a z a1 x (List.mem_cons_self _ _) (List.mem_cons_of_mem _ hz) hne hGa hPz
              hPo k1) k2 hndz.2
          intro w hw
          exact hpre a z a1 w (List.mem_cons_of_mem _ (hsub w (List.mem_cons_of_mem _ hw)))
            (List.mem_cons_of_mem _ hz) (fun hwz => hndz.1 (hwz ▸ hw)) hGa hPz
            (hPa w (List.mem_cons_of_mem _ hw)) k1
      exact key ys (fun _ h => h) s1 s2 hG1 hP1 hy1 h2 hnd.2
    · exact r2 x hx

/-! ### The received bounds of the parent -/

theorem get_recv_set_recv (g : ground_state_space) (b : bound_direction) (c : sidb_cluster)
    (i : Nat) (v : Pot) (b1 : bound_direction) (c1 : sidb_cluster) (j : Nat) :
    (g.set_recv_ext_pot_bound b c i v).get_recv_ext_pot_bound b1 c1 j
      = if c1.uid = c.uid ∧ j = i ∧ b1 = b then v else g.get_recv_ext_pot_bound b1 c1 j := by
  unfold get_recv_ext_pot_bound set_recv_ext_pot_bound
  by_cases hu : c1.uid = c.uid
  · rw [hu, modify_data_self]
    by_cases hj : j = i
    · subst hj
      cases b <;> cases b1 <;> simp
    · simp [Function.update_noteq hj, hj]
  · rw [modify_data_other _ _ _ _ hu]
    simp [hu]

theorem extremal_pot_set_recv (g : ground_state_space) (b : bound_direction) (c : sidb_cluster)
    (i : Nat) (v : Pot) (b1 : bound_direction) (c1 : sidb_cluster) (j : Nat) :
    extremal_pot (g.set_recv_ext_pot_bound b c i v) b1 c1 j = extremal_pot g b1 c1 j :=
  extremal_pot_congr _ _ _ _ _ (by rw [(set_recv_effect g b c i v).2.1])

theorem subtract_fold (s : ground_state_space) (b : bound_direction) (l r child sib : sidb_cluster)
    (i : Nat) (hcs : (child = l ∧ sib = r) ∨ (child = r ∧ sib = l)) (hne : l.uid ≠ r.uid)
    (acc : Pot) :
    for_each (subtract_sibling_step s b child i) [l, r] acc
      = (extremal_pot s b sib i).map (fun v => acc - v) := by
  unfold extremal_pot
  rcases hcs with ⟨rfl, rfl⟩ | ⟨rfl, rfl⟩
  · simp only [for_each, subtract_sibling_step, ne_eq, not_true_eq_false, ↓reduceIte]
    rw [if_pos (fun h => hne h.symm)]
    cases s.get_proj_bound b sib i <;> rfl
  · simp only [for_each, subtract_sibling_step, ne_eq]
    rw [if_pos hne]
    cases s.get_proj_bound b sib i with
    | none => rfl
    | some pp => simp

/-- The effect of the inner loop body of `derive_children_recv_bounds_without_siblings` for the
child `child` with the sibling `sib` at the site `i`. -/
theorem derive_site_effect (s s1 : ground_state_space) (pu : Nat) (ps : List Nat)
    (l r child sib : sidb_cluster) (i : Nat)
    (hcs : (child = l ∧ sib = r) ∨ (child = r ∧ sib = l)) (hne : l.uid ≠ r.uid)
    (h : derive_site_step (.node pu ps l r) child s i = some s1) :
    s1.clustering = s.clustering
      ∧ (∀ u, (s1.data u).pot_projs = (s.data u).pot_projs)
      ∧ (∀ b1 c1 j, (j ≠ i ∨ (c1.uid ≠ child.uid ∧ c1.uid ≠ pu)) →
          s1.get_recv_ext_pot_bound b1 c1 j = s.get_recv_ext_pot_bound b1 c1 j)
      ∧ ∀ b, ∃ v, extremal_pot s b sib i = some v
          ∧ s1.get_recv_ext_pot_bound b (.node pu ps l r) i
            = s.get_recv_ext_pot_bound b child i - v := by
  have hsub : ∀ (b : bound_direction) (x x1 : ground_state_space),
      subtract_sibling_pot_from_recv_ext_pot_bound b x (.node pu ps l r) child i = some x1 →
      ∃ v, extremal_pot x b sib i = some v
        ∧ x1 = (x.set_recv_ext_pot_bound b child i
            (x.get_recv_ext_pot_bound b child i - v)).set_recv_ext_pot_bound b
              (.node pu ps l r) i (x.get_recv_ext_pot_bound b child i - v) := by
    intro b x x1 hx
    unfold subtract_sibling_pot_from_recv_ext_pot_bound at hx
    simp only [children] at hx
    rw [subtract_fold x b l r child sib i hcs hne] at hx
    cases hv : extremal_pot x b sib i with
    | none => rw [hv] at hx; simp at hx
    | some v =>
      rw [hv] at hx
      simp only [Option.map_some', Option.some.injEq] at hx
      exact ⟨v, rfl, hx.symm⟩
  unfold derive_site_step at h
  cases h1 : subtract_sibling_pot_from_recv_ext_pot_bound .LOWER s (.node pu ps l r) child i with
  | none => rw [h1] at h; simp at h
  | some a =>
    rw [h1] at h
    simp only at h
    obtain ⟨vL, hvL, ha⟩ := hsub _ _ _ h1
    obtain ⟨vU, hvU, hs1⟩ := hsub _ _ _ h
    have hvU2 : extremal_pot s .UPPER sib i = some vU := by
      rw [← hvU, ha, extremal_pot_set_recv, extremal_pot_set_recv]
    have hup : a.get_recv_ext_pot_bound .UPPER child i
        = s.get_recv_ext_pot_bound .UPPER child i := by
      rw [ha, get_recv_set_recv, get_recv_set_recv]
      simp
    refine ⟨?_, ?_, ?_, ?_⟩
    · rw [hs1, ha]; rfl
    · intro u
      rw [hs1, (set_recv_effect _ _ _ _ _).2.1, (set_recv_effect _ _ _ _ _).2.1, ha,
        (set_recv_effect _ _ _ _ _).2.1, (set_recv_effect _ _ _ _ _).2.1]
    · intro b1 c1 j hj
      rw [hs1, ha]
      have hpu : (sidb_cluster.node pu ps l r).uid = pu := rfl
      simp only [get_recv_set_recv, hpu]
      rcases hj with hj | ⟨hj1, hj2⟩
      · simp [hj]
      · simp [hj1, hj2]
    · intro b
      cases b with
      | LOWER =>
        refine ⟨vL, hvL, ?_⟩
        rw [hs1, ha]
        simp only [get_recv_set_recv]
        simp
      | UPPER =>
        refine ⟨vU, hvU2, ?_⟩
        rw [hs1, get_recv_set_recv, hup]
        simp

/-- The effect of the inner loop of `derive_children_recv_bounds_without_siblings` over distinct
sites of the child. -/
theorem derive_sites_effect (pu : Nat) (ps : List Nat) (l r child sib : sidb_cluster)
    (hcs : (child = l ∧ sib = r) ∨ (child = r ∧ sib = l)) (hne : l.uid ≠ r.uid) :
    ∀ (sites : List Nat), sites.Nodup → ∀ (s s1 : ground_state_space),
      for_each (derive_site_step (.node pu ps l r) child) sites s = some s1 →
      s1.clustering = s.clustering
        ∧ (∀ u, (s1.data u).pot_projs = (s.data u).pot_projs)
        ∧ (∀ b1 c1 j, (j ∉ sites ∨ (c1.uid ≠ child.uid ∧ c1.uid ≠ pu)) →
            s1.get_recv_ext_pot_bound b1 c1 j = s.get_recv_ext_pot_bound b1 c1 j)
        ∧ ∀ j ∈ sites, ∀ b, ∃ v, extremal_pot s b sib j = some v
            ∧ s1.get_recv_ext_pot_bound b (.node pu ps l r) j
              = s.get_recv_ext_pot_bound b child j - v := by
  intro sites
  induction sites with
  | nil =>
    intro _ s s1 h
    simp only [for_each, Option.some.injEq] at h
    subst h
    exact ⟨rfl, fun _ => rfl, fun _ _ _ _ => rfl, fun j hj => by simp at hj⟩
  | cons i rest ih =>
    intro hnd s s2 h
    rw [List.nodup_cons] at hnd
    obtain ⟨s1, h1, h2⟩ := for_each_cons_some h
    obtain ⟨a1, a2, a3, a4⟩ := derive_site_effect s s1 pu ps l r child sib i hcs hne h1
    obtain ⟨b1, b2, b3, b4⟩ := ih hnd.2 s1 s2 h2
    refine ⟨b1.trans a1, fun u => (b2 u).trans (a2 u), ?_, ?_⟩
    · intro d c1 j hj
      rw [b3 d c1 j (by
        rcases hj with hj | hj
        · exact Or.inl (fun hm => hj (List.mem_cons_of_mem _ hm))
        · exact Or.inr hj)]
      exact a3 d c1 j (by
        rcases hj with hj | hj
        · exact Or.inl (fun hm => hj (hm ▸ List.mem_cons_self _ _))
        · exact Or.inr hj)
    · intro j hj d
      rcases List.mem_cons.mp hj with rfl | hj
      · obtain ⟨v, hv, hr⟩ := a4 d
        exact ⟨v, hv, by rw [b3 d _ j (Or.inl hnd.1)]; exact hr⟩
      · obtain ⟨v, hv, hr⟩ := b4 j hj d
        refine ⟨v, ?_, ?_⟩
        · rw [← hv]
          exact (extremal_pot_congr _ _ _ _ _ (by rw [a2])).symm
        · rw [hr, a3 d child j (Or.inl (fun hji => hnd.1 (hji ▸ hj)))]

/-- The effect of `derive_children_recv_bounds_without_siblings`: the received bounds of the
parent at the sites of a child are those of the child without the extremal projections of its
sibling. -/
theorem derive_effect (g g2 : ground_state_space) (pu : Nat) (ps : List Nat)
    (l r : sidb_cluster) (hne : l.uid ≠ r.uid)
    (hln : l.sidbs.Nodup) (hrn : r.sidbs.Nodup) (hlr : l.sidbs.Disjoint r.sidbs)
    (h : g.derive_children_recv_bounds_without_siblings (.node pu ps l r) = some g2) :
    g2.clustering = g.clustering
      ∧ (∀ u, (g2.data u).pot_projs = (g.data u).pot_projs)
      ∧ (∀ b1 c1 j, c1.uid ≠ l.uid → c1.uid ≠ r.uid → c1.uid ≠ pu →
          g2.get_recv_ext_pot_bound b1 c1 j = g.get_recv_ext_pot_bound b1 c1 j)
      ∧ (∀ j ∈ l.sidbs, ∀ b, ∃ v, extremal_pot g b r j = some v
          ∧ g2.get_recv_ext_pot_bound b (.node pu ps l r) j
            = g.get_recv_ext_pot_bound b l j - v)
      ∧ ∀ j ∈ r.sidbs, ∀ b, ∃ v, extremal_pot g b l j = some v
          ∧ g2.get_recv_ext_pot_bound b (.node pu ps l r) j
            = g.get_recv_ext_pot_bound b r j - v := by
  unfold derive_children_recv_bounds_without_siblings at h
  simp only [children] at h
  obtain ⟨ga, h1, h2⟩ := for_each_cons_some h
  obtain ⟨gb, h3, h4⟩ := for_each_cons_some h2
  simp only [for_each, Option.some.injEq] at h4
  subst h4
  obtain ⟨a1, a2, a3, a4⟩ := derive_sites_effect pu ps l r l r (Or.inl ⟨rfl, rfl⟩) hne
    l.sidbs hln g ga h1
  obtain ⟨b1, b2, b3, b4⟩ := derive_sites_effect pu ps l r r l (Or.inr ⟨rfl, rfl⟩) hne
    r.sidbs hrn ga gb h3
  refine ⟨b1.trans a1, fun u => (b2 u).trans (a2 u), ?_, ?_, ?_⟩
  · intro d c1 j h5 h6 h7
    rw [b3 d c1 j (Or.inr ⟨h6, h7⟩), a3 d c1 j (Or.inr ⟨h5, h7⟩)]
  · intro j hj d
    obtain ⟨v, hv, hr⟩ := a4 j hj d
    exact ⟨v, hv, by rw [b3 d _ j (Or.inl (fun hm => hlr hj hm))]; exact hr⟩
  · intro j hj d
    obtain ⟨v, hv, hr⟩ := b4 j hj d
    refine ⟨v, ?_, ?_⟩
    · rw [← hv]
      exact (extremal_pot_congr _ _ _ _ _ (by rw [a2])).symm
    · rw [hr, a3 d r j (Or.inl (fun hm => hlr hm hj))]

/-! ### The projections of the parent onto a site -/

theorem for_each_congr {α σ : Type} (step step1 : σ → α → Option σ) :
    ∀ (l : List α), (∀ s x, x ∈ l → step1 s x = step s x) →
      ∀ s, for_each step1 l s = for_each step l s := by
  intro l
  induction l with
  | nil => intro _ s; rfl
  | cons y ys ih =>
    intro h s
    rw [for_each_cons, for_each_cons, h s y (List.mem_cons_self _ _)]
    cases step s y with
    | none => rfl
    | some s1 => exact ih (fun a x hx => h a x (List.mem_cons_of_mem _ hx)) s1

theorem for_each_append {α σ : Type} (step : σ → α → Option σ) :
    ∀ (l l1 : List α) (s : σ),
      for_each step (l ++ l1) s = (for_each step l s).bind (for_each step l1) := by
  intro l
  induction l with
  | nil => intro l1 s; rfl
  | cons y ys ih =>
    intro l1 s
    rw [List.cons_append, for_each_cons, for_each_cons]
    cases step s y with
    | none => rfl
    | some s1 => exact ih l1 s1

theorem for_each_flatMap {α β σ : Type} (step : σ → β → Option σ) (f : α → List β) :
    ∀ (l : List α) (s : σ),
      for_each (fun g m => for_each step (f m) g) l s = for_each step (l.flatMap f) s := by
  intro l
  induction l with
  | nil => intro s; rfl
  | cons y ys ih =>
    intro s
    rw [List.flatMap_cons, for_each_append, for_each_cons]
    cases for_each step (f y) s with
    | none => rfl
    | some s1 => exact ih s1

/-- A loop with an invariant in which every step establishes a property for its element that
the later steps keep. -/
theorem for_each_establish_inv {α σ : Type} (step : σ → α → Option σ) (G : σ → Prop)
    (R : α → σ → Prop) :
    ∀ (l : List α),
      (∀ s x s1, x ∈ l → G s → step s x = some s1 → G s1) →
      (∀ s x s1, x ∈ l → G s → step s x = some s1 → R x s1) →
      (∀ s y s1 x, y ∈ l → G s → step s y = some s1 → R x s → R x s1) →
      ∀ s s1, G s → for_each step l s = some s1 → G s1 ∧ ∀ x ∈ l, R x s1 := by
  intro l
  induction l with
  | nil =>
    intro _ _ _ s s1 hG h
    simp only [for_each, Option.some.injEq] at h
    subst h
    exact ⟨hG, fun x hx => by simp at hx⟩
  | cons y ys ih =>
    intro hg hest hpres s s2 hG h
    obtain ⟨s1, h1, h2⟩ := for_each_cons_some h
    have hG1 := hg s y s1 (List.mem_cons_self _ _) hG h1
    have hy1 := hest s y s1 (List.mem_cons_self _ _) hG h1
    have key := for_each_inv step (fun a => G a ∧ R y a) ys
      (by
        intro a x a1 hx hPa ha
        exact ⟨hg a x a1 (List.mem_cons_of_mem _ hx) hPa.1 ha,
          hpres a x a1 y (List.mem_cons_of_mem _ hx) hPa.1 ha hPa.2⟩)
      s1 s2 ⟨hG1, hy1⟩ h2
    obtain ⟨r1, r2⟩ := ih
      (fun a x a1 hx => hg a x a1 (List.mem_cons_of_mem _ hx))
      (fun a x a1 hx => hest a x a1 (List.mem_cons_of_mem _ hx))
      (fun a z a1 x hz => hpres a z a1 x (List.mem_cons_of_mem _ hz))
      s1 s2 hG1 h2
    refine ⟨r1, ?_⟩
    intro x hx
    rcases List.mem_cons.mp hx with rfl | hx
    · exact key.2
    · exact r2 x hx

/-- The effect of `add_pot_proj`. -/
theorem add_pot_proj_effect (g : ground_state_space) (c : sidb_cluster) (i : Nat)
    (pp : potential_projection) :
    (g.add_pot_proj c i pp).clustering = g.clustering
      ∧ (∀ u, ((g.add_pot_proj c i pp).data u).recv_ext_pot_bounds
          = (g.data u).recv_ext_pot_bounds)
      ∧ (∀ u j, (u ≠ c.uid ∨ j ≠ i) →
          ((g.add_pot_proj c i pp).data u).pot_projs j = (g.data u).pot_projs j)
      ∧ ((g.add_pot_proj c i pp).data c.uid).pot_projs i
          = potential_projection_order.add pp ((g.data c.uid).pot_projs i) := by
  refine ⟨rfl, ?_, ?_, ?_⟩
  · intro u
    unfold add_pot_proj
    by_cases hu : u = c.uid
    · subst hu; rw [modify_data_self]
    · rw [modify_data_other _ _ _ _ hu]
  · intro u j huj
    unfold add_pot_proj
    by_cases hu : u = c.uid
    · subst hu
      rw [modify_data_self]
      rcases huj with h1 | h1
      · exact absurd rfl h1
      · simp only [Function.update_noteq h1]
    · rw [modify_data_other _ _ _ _ hu]
  · unfold add_pot_proj
    rw [modify_data_self]
    simp

theorem sum_composition_projections_congr (g g1 : ground_state_space) (b : bound_direction)
    (i : Nat) (comp : sidb_cluster_state_composition)
    (h : ∀ cst ∈ comp, (g1.data cst.cluster.uid).pot_projs i
      = (g.data cst.cluster.uid).pot_projs i) :
    sum_composition_projections g1 b i comp = sum_composition_projections g b i comp := by
  unfold sum_composition_projections
  refine for_each_congr _ _ comp ?_ _
  intro acc cst hcst
  unfold get_proj_state_bound
  rw [h cst hcst]

/-- With sorted stores the sum of the lower projections of a composition is not above the sum of
the upper projections. -/
theorem sum_composition_projections_le (g : ground_state_space) (hs : stores_sorted g)
    (i : Nat) (comp : sidb_cluster_state_composition) (p q : potential_projection)
    (hp : sum_composition_projections g .LOWER i comp = some p)
    (hq : sum_composition_projections g .UPPER i comp = some q) : p.V ≤ q.V := by
  have key : ∀ (comp : sidb_cluster_state_composition) (a1 a2 p q : potential_projection),
      a1.V ≤ a2.V →
      for_each (fun acc cst => (g.get_proj_state_bound .LOWER cst.cluster cst.multiset i).map
        (fun pp => acc.add pp)) comp a1 = some p →
      for_each (fun acc cst => (g.get_proj_state_bound .UPPER cst.cluster cst.multiset i).map
        (fun pp => acc.add pp)) comp a2 = some q →
      p.V ≤ q.V := by
    intro comp
    induction comp with
    | nil =>
      intro a1 a2 p q ha h1 h2
      simp only [for_each, Option.some.injEq] at h1 h2
      subst h1; subst h2
      exact ha
    | cons x xs ih =>
      intro a1 a2 p q ha h1 h2
      obtain ⟨b1, k1, k2⟩ := for_each_cons_some h1
      obtain ⟨b2, k3, k4⟩ := for_each_cons_some h2
      cases hx1 : g.get_proj_state_bound .LOWER x.cluster x.multiset i with
      | none => rw [hx1] at k1; simp at k1
      | some y1 =>
        cases hx2 : g.get_proj_state_bound .UPPER x.cluster x.multiset i with
        | none => rw [hx2] at k3; simp at k3
        | some y2 =>
          rw [hx1] at k1
          rw [hx2] at k3
          simp only [Option.map_some', Option.some.injEq] at k1 k3
          subst k1; subst k3
          refine ih _ _ p q ?_ k2 k4
          have := get_pot_proj_for_m_conf_le _ (hs x.cluster.uid i) x.multiset y1 y2 hx1 hx2
          simp only [potential_projection.add]
          exact add_le_add ha this
  exact key comp _ _ p q (le_refl _) hp hq

theorem merge_pass (b : bound_direction) (s s1 : ground_state_space) (parent : sidb_cluster)
    (i : Nat) (hcomp : compositions_avoid parent.uid (s.data parent.uid).charge_space)
    (h : for_each (fun g m => for_each (merge_pot_proj_step b parent i) m.compositions g)
      (s.data parent.uid).charge_space s = some s1) :
    merge_pass_effect b parent.uid i s s1 := by
  have h : for_each (merge_pot_proj_step b parent i)
      ((s.data parent.uid).charge_space.flatMap (fun m => m.compositions)) s = some s1 :=
    (for_each_flatMap (merge_pot_proj_step b parent i)
      (fun (m : sidb_cluster_charge_state) => m.compositions) _ s).symm.trans h
  have key := for_each_establish_inv (merge_pot_proj_step b parent i)
    (fun a => a.clustering = s.clustering
      ∧ same_charge_spaces s a
      ∧ (∀ u, (a.data u).recv_ext_pot_bounds = (s.data u).recv_ext_pot_bounds)
      ∧ (∀ u j, (u ≠ parent.uid ∨ j ≠ i) → (a.data u).pot_projs j = (s.data u).pot_projs j)
      ∧ (((s.data parent.uid).pot_projs i).Pairwise (fun x y => x.V ≤ y.V) →
          ((a.data parent.uid).pot_projs i).Pairwise (fun x y => x.V ≤ y.V))
      ∧ (∀ pp ∈ (s.data parent.uid).pot_projs i, pp ∈ (a.data parent.uid).pot_projs i)
      ∧ (∀ pp ∈ (a.data parent.uid).pot_projs i, pp ∈ (s.data parent.uid).pot_projs i
          ∨ ∃ comp ∈ (s.data parent.uid).charge_space.flatMap (fun m => m.compositions),
              sum_composition_projections s b i comp = some pp))
    (fun comp a => ∃ pp, sum_composition_projections s b i comp = some pp
      ∧ pp ∈ (a.data parent.uid).pot_projs i)
    ((s.data parent.uid).charge_space.flatMap (fun m => m.compositions))
    (by
      intro a comp a1 hc hG ha
      obtain ⟨g1, g2, g3, g4, g5, g6, g7⟩ := hG
      unfold merge_pot_proj_step at ha
      have hsum : sum_composition_projections a b i comp
          = sum_composition_projections s b i comp :=
        sum_composition_projections_congr s a b i comp
          (fun cst hcst => g4 _ _ (Or.inl (hcomp comp hc cst hcst)))
      cases hS : sum_composition_projections a b i comp with
      | none => rw [hS] at ha; simp at ha
      | some pp =>
        rw [hS] at ha
        simp only [Option.map_some', Option.some.injEq] at ha
        subst ha
        obtain ⟨e1, e2, e3, e4⟩ := add_pot_proj_effect a parent i pp
        refine ⟨e1.trans g1,
          same_charge_spaces_trans _ _ _ g2 (same_charge_spaces_add_pot_proj _ _ _ _),
          fun u => (e2 u).trans (g3 u), fun u j huj => (e3 u j huj).trans (g4 u j huj),
          ?_, ?_, ?_⟩
        · intro hs0
          rw [e4]
          exact sorted_add pp _ (g5 hs0)
        · intro q hq
          rw [e4]
          exact (mem_add pp _ q).mpr (Or.inr (g6 q hq))
        · intro q hq
          rw [e4] at hq
          rcases (mem_add pp _ q).mp hq with rfl | hq
          · exact Or.inr ⟨comp, hc, hsum ▸ hS⟩
          · exact g7 q hq)
    (by
      intro a comp a1 hc hG ha
      obtain ⟨g1, g2, g3, g4, g5, g6, g7⟩ := hG
      unfold merge_pot_proj_step at ha
      have hsum : sum_composition_projections a b i comp
          = sum_composition_projections s b i comp :=
        sum_composition_projections_congr s a b i comp
          (fun cst hcst => g4 _ _ (Or.inl (hcomp comp hc cst hcst)))
      cases hS : sum_composition_projections a b i comp with
      | none => rw [hS] at ha; simp at ha
      | some pp =>
        rw [hS] at ha
        simp only [Option.map_some', Option.some.injEq] at ha
        subst ha
        refine ⟨pp, hsum ▸ hS, ?_⟩
        rw [(add_pot_proj_effect a parent i pp).2.2.2]
        exact (mem_add pp _ pp).mpr (Or.inl rfl))
    (by
      intro a y a1 x _ _ ha hR
      obtain ⟨pp, hp1, hp2⟩ := hR
      refine ⟨pp, hp1, ?_⟩
      unfold merge_pot_proj_step at ha
      cases hS : sum_composition_projections a b i y with
      | none => rw [hS] at ha; simp at ha
      | some q =>
        rw [hS] at ha
        simp only [Option.map_some', Option.some.injEq] at ha
        subst ha
        rw [(add_pot_proj_effect a parent i q).2.2.2]
        exact (mem_add q _ pp).mpr (Or.inr hp2))
    s s1 ⟨rfl, same_charge_spaces_refl _, fun _ => rfl, fun _ _ _ => rfl, fun h => h,
      fun _ h => h, fun _ h => Or.inl h⟩ h
  obtain ⟨⟨g1, g2, g3, g4, g5, g6, g7⟩, g8⟩ := key
  exact ⟨g1, g2, g3, g4, g5, g6, g7, g8⟩

/-- The effect of `merge_pot_proj_bounds<bound>`: the first loop, then the received bound of the
receptor state changes by the extremal projection of the parent minus those of the children. -/
theorem merge_pot_proj_bounds_effect (b : bound_direction) (s s1 : ground_state_space)
    (pu : Nat) (ps : List Nat) (l r rc : sidb_cluster) (i : Nat)
    (hcomp : compositions_avoid pu (s.data pu).charge_space)
    (hl : l.uid ≠ pu) (hr : r.uid ≠ pu)
    (h : merge_pot_proj_bounds b s (.node pu ps l r) rc i = some s1) :
    ∃ a pp vl vr, merge_pass_effect b pu i s a
      ∧ potential_projection_order.get b ((a.data pu).pot_projs i) = some pp
      ∧ extremal_pot s b l i = some vl ∧ extremal_pot s b r i = some vr
      ∧ s1 = a.set_recv_ext_pot_bound b rc i
          (a.get_recv_ext_pot_bound b rc i + (pp.V - vl - vr)) := by
  unfold merge_pot_proj_bounds at h
  split at h
  · simp at h
  · rename_i a hL
    have hp := merge_pass b s a (.node pu ps l r) i hcomp hL
    cases hpp : a.get_proj_bound b (.node pu ps l r) i with
    | none => rw [hpp] at h; simp at h
    | some pp =>
      rw [hpp] at h
      simp only [children] at h
      cases hvl : a.get_proj_bound b l i with
      | none => simp [for_each, hvl] at h
      | some ql =>
        cases hvr : a.get_proj_bound b r i with
        | none => simp [for_each, hvl, hvr] at h
        | some qr =>
          simp only [for_each, hvl, hvr, Option.map_some', Option.some.injEq] at h
          refine ⟨a, pp, ql.V, qr.V, hp, hpp, ?_, ?_, ?_⟩
          · unfold extremal_pot get_proj_bound
            unfold get_proj_bound at hvl
            rw [← hp.2.2.2.1 l.uid i (Or.inl hl), hvl]
            rfl
          · unfold extremal_pot get_proj_bound
            unfold get_proj_bound at hvr
            rw [← hp.2.2.2.1 r.uid i (Or.inl hr), hvr]
            rfl
          · rw [← h]
            rfl

theorem set_recv_stores (g : ground_state_space) (b : bound_direction) (c : sidb_cluster)
    (i : Nat) (v : Pot) (u : Nat) :
    ((g.set_recv_ext_pot_bound b c i v).data u).pot_projs = (g.data u).pot_projs :=
  (set_recv_effect g b c i v).2.1 u

/-- The effect of the first inner loop body of `construct_merged_potential_projections` for the
receptor state `(nc, i)` when the store of the parent onto the site is still empty: the store is
filled, and the received bounds of `nc` at the site change by the extremal projections of the
parent minus those of the two children. -/
theorem merged_site_effect (s s1 : ground_state_space) (pu : Nat) (ps : List Nat)
    (l r nc : sidb_cluster) (i : Nat) (hempty : (s.data pu).pot_projs i = [])
    (hsorted : stores_sorted s) (hcomp : compositions_avoid pu (s.data pu).charge_space)
    (hl : l.uid ≠ pu) (hr : r.uid ≠ pu)
    (h : merged_projections_site_step (.node pu ps l r) nc s i = some s1) :
    s1.clustering = s.clustering
      ∧ same_charge_spaces s s1
      ∧ (∀ u j, (u ≠ pu ∨ j ≠ i) → (s1.data u).pot_projs j = (s.data u).pot_projs j)
      ∧ ((s1.data pu).pot_projs i).Pairwise (fun x y => x.V ≤ y.V)
      ∧ (∀ b1 c1 j, (c1.uid ≠ nc.uid ∨ j ≠ i) →
          s1.get_recv_ext_pot_bound b1 c1 j = s.get_recv_ext_pot_bound b1 c1 j)
      ∧ ∀ b, ∃ vP vl vr, extremal_pot s1 b (.node pu ps l r) i = some vP
          ∧ extremal_pot s b l i = some vl ∧ extremal_pot s b r i = some vr
          ∧ s1.get_recv_ext_pot_bound b nc i
            = s.get_recv_ext_pot_bound b nc i + (vP - vl - vr) := by
  unfold merged_projections_site_step at h
  cases h1 : merge_pot_proj_bounds .LOWER s (.node pu ps l r) nc i with
  | none => rw [h1] at h; simp at h
  | some m1 =>
    rw [h1] at h
    simp only at h
    obtain ⟨a, ppL, vlL, vrL, pa, hgetL, hlL, hrL, hm1⟩ :=
      merge_pot_proj_bounds_effect .LOWER s m1 pu ps l r nc i hcomp hl hr h1
    obtain ⟨a1, a2, a3, a4, a5, a6, a7, a8⟩ := pa
    have hcs1 : (m1.data pu).charge_space = (s.data pu).charge_space := by
      rw [hm1, same_charge_spaces_set_recv a .LOWER nc i _ pu, a2 pu]
    have hst1 : ∀ u, (m1.data u).pot_projs = (a.data u).pot_projs := by
      intro u; rw [hm1, set_recv_stores]
    obtain ⟨c, ppU, vlU, vrU, pc, hgetU, hlU, hrU, hs1⟩ :=
      merge_pot_proj_bounds_effect .UPPER m1 s1 pu ps l r nc i (by rw [hcs1]; exact hcomp)
        hl hr h
    obtain ⟨c1, c2, c3, c4, c5, c6, c7, c8⟩ := pc
    have hst2 : ∀ u, (s1.data u).pot_projs = (c.data u).pot_projs := by
      intro u; rw [hs1, set_recv_stores]
    have hframe : ∀ u j, (u ≠ pu ∨ j ≠ i) → (m1.data u).pot_projs j = (s.data u).pot_projs j := by
      intro u j huj
      rw [hst1 u, a4 u j huj]
    have hsa : ((a.data pu).pot_projs i).Pairwise (fun x y => x.V ≤ y.V) :=
      a5 (by rw [hempty]; exact List.Pairwise.nil)
    have hsc : ((c.data pu).pot_projs i).Pairwise (fun x y => x.V ≤ y.V) :=
      c5 (by rw [hst1 pu]; exact hsa)
    have hdom := extremal_of_dominated .LOWER ((a.data pu).pot_projs i)
      ((c.data pu).pot_projs i) hsa hsc
      (fun q hq => c6 q (by rw [hst1 pu]; exact hq))
      (by
        intro q hq
        rcases c7 q hq with hq1 | ⟨comp, hcomp1, hsumU⟩
        · rw [hst1 pu] at hq1
          exact ⟨q, hq1, le_refl _⟩
        · rw [hcs1] at hcomp1
          obtain ⟨y, hy1, hy2⟩ := a8 comp hcomp1
          refine ⟨y, hy2, ?_⟩
          rw [sum_composition_projections_congr s m1 .UPPER i comp
            (fun cst hcst => hframe _ _ (Or.inl (hcomp comp hcomp1 cst hcst)))] at hsumU
          exact sum_composition_projections_le s hsorted i comp y q hy1 hsumU)
      ppL hgetL
    obtain ⟨p1, hp1, hp1V⟩ := hdom
    have hlU2 : extremal_pot s .UPPER l i = some vlU := by
      rw [← hlU]
      exact (extremal_pot_congr _ _ _ _ _ (hframe l.uid i (Or.inl hl))).symm
    have hrU2 : extremal_pot s .UPPER r i = some vrU := by
      rw [← hrU]
      exact (extremal_pot_congr _ _ _ _ _ (hframe r.uid i (Or.inl hr))).symm
    have hrecv_c : ∀ b1 c0 j, c.get_recv_ext_pot_bound b1 c0 j
        = m1.get_recv_ext_pot_bound b1 c0 j :=
      fun b1 c0 j => get_recv_congr _ _ _ _ _ (by rw [c3])
    have hrecv_a : ∀ b1 c0 j, a.get_recv_ext_pot_bound b1 c0 j
        = s.get_recv_ext_pot_bound b1 c0 j :=
      fun b1 c0 j => get_recv_congr _ _ _ _ _ (by rw [a3])
    refine ⟨?_, ?_, ?_, ?_, ?_, ?_⟩
    · rw [hs1]
      show c.clustering = s.clustering
      rw [c1, hm1]
      exact a1
    · intro u
      rw [hs1, same_charge_spaces_set_recv c .UPPER nc i _ u, c2 u, hm1,
        same_charge_spaces_set_recv a .LOWER nc i _ u, a2 u]
    · intro u j huj
      rw [hst2 u, c4 u j huj, hframe u j huj]
    · rw [hst2 pu]
      exact hsc
    · intro b1 c0 j hj
      rw [hs1, get_recv_set_recv, if_neg, hrecv_c, hm1, get_recv_set_recv, if_neg, hrecv_a]
      · intro hc
        rcases hj with hj | hj
        · exact hj hc.1
        · exact hj hc.2.1
      · intro hc
        rcases hj with hj | hj
        · exact hj hc.1
        · exact hj hc.2.1
    · intro b
      cases b with
      | LOWER =>
        refine ⟨ppL.V, vlL, vrL, ?_, hlL, hrL, ?_⟩
        · unfold extremal_pot get_proj_bound
          show (potential_projection_order.get .LOWER ((s1.data pu).pot_projs i)).map
            potential_projection.V = some ppL.V
          rw [hst2 pu, hp1]
          simp [hp1V]
        · rw [hs1, get_recv_set_recv, if_neg (by simp), hrecv_c, hm1, get_recv_set_recv,
            if_pos ⟨rfl, rfl, rfl⟩, hrecv_a]
      | UPPER =>
        refine ⟨ppU.V, vlU, vrU, ?_, hlU2, hrU2, ?_⟩
        · unfold extremal_pot get_proj_bound
          show (potential_projection_order.get .UPPER ((s1.data pu).pot_projs i)).map
            potential_projection.V = some ppU.V
          rw [hst2 pu, hgetU]
          rfl
        · rw [hs1, get_recv_set_recv, if_pos ⟨rfl, rfl, rfl⟩, hrecv_c, hm1, get_recv_set_recv,
            if_neg (by simp), hrecv_a]

/-! ### Stores that keep their entries -/

theorem entries_stable_refl (g : ground_state_space) : entries_stable g g :=
  ⟨rfl, same_charge_spaces_refl g, fun _ => rfl, fun _ _ => ⟨fun h => h, fun _ => Iff.rfl⟩⟩

theorem entries_stable_trans (a b c : ground_state_space) (h1 : entries_stable a b)
    (h2 : entries_stable b c) : entries_stable a c :=
  ⟨h2.1.trans h1.1, same_charge_spaces_trans _ _ _ h1.2.1 h2.2.1,
    fun u => (h2.2.2.1 u).trans (h1.2.2.1 u),
    fun u j => ⟨fun h => (h2.2.2.2 u j).1 ((h1.2.2.2 u j).1 h),
      fun pp => ((h2.2.2.2 u j).2 pp).trans ((h1.2.2.2 u j).2 pp)⟩⟩

theorem entries_stable_for_each {α : Type}
    (step : ground_state_space → α → Option ground_state_space) (l : List α)
    (h : ∀ s x s1, x ∈ l → step s x = some s1 → entries_stable s s1)
    (g g1 : ground_state_space) (hg : for_each step l g = some g1) : entries_stable g g1 :=
  for_each_rel step entries_stable entries_stable_refl entries_stable_trans l h g g1 hg

theorem entries_stable_add (g : ground_state_space) (c : sidb_cluster) (i : Nat)
    (pp : potential_projection) (h : pp ∈ (g.data c.uid).pot_projs i) :
    entries_stable g (g.add_pot_proj c i pp) := by
  obtain ⟨e1, e2, e3, e4⟩ := add_pot_proj_effect g c i pp
  refine ⟨e1, same_charge_spaces_add_pot_proj _ _ _ _, e2, ?_⟩
  intro u j
  by_cases huj : u = c.uid ∧ j = i
  · obtain ⟨rfl, rfl⟩ := huj
    rw [e4]
    refine ⟨fun hs => sorted_add pp _ hs, fun q => ?_⟩
    rw [mem_add]
    constructor
    · rintro (rfl | hq)
      · exact h
      · exact hq
    · exact fun hq => Or.inr hq
  · have := e3 u j (by
      by_cases hu : u = c.uid
      · exact Or.inr (fun hj => huj ⟨hu, hj⟩)
      · exact Or.inl hu)
    rw [this]
    exact ⟨fun hs => hs, fun _ => Iff.rfl⟩

theorem entries_stable_merge_recv (b : bound_direction) (g g1 : ground_state_space)
    (pc : sidb_cluster) (pm : multiset_conf) (parent : sidb_cluster)
    (h : merge_recv_pot_proj_bounds b g pc pm parent = some g1) : entries_stable g g1 := by
  refine entries_stable_for_each _ _ ?_ g g1 h
  intro s m s1 _ hs
  refine entries_stable_for_each _ _ ?_ s s1 hs
  intro a comp a1 _ ha
  refine entries_stable_for_each _ _ ?_ a a1 ha
  intro a2 cst a3 _ ha2
  refine entries_stable_for_each _ _ ?_ a2 a3 ha2
  intro a4 i a5 _ ha4
  unfold merge_recv_step at ha4
  cases hS : a4.get_proj_state_bound b pc pm i with
  | none => rw [hS] at ha4; simp at ha4
  | some pp =>
    rw [hS] at ha4
    simp only [Option.map_some', Option.some.injEq] at ha4
    subst ha4
    exact entries_stable_add _ _ _ _ (get_pot_proj_for_m_conf_some b _ _ _ hS).1

theorem stores_sorted_of_stable (g g1 : ground_state_space) (h : entries_stable g g1)
    (hs : stores_sorted g) : stores_sorted g1 :=
  fun u j => (h.2.2.2 u j).1 (hs u j)

theorem extremal_pot_of_same_entries (g g1 : ground_state_space) (b : bound_direction)
    (c : sidb_cluster) (i : Nat)
    (hs : ((g.data c.uid).pot_projs i).Pairwise (fun x y => x.V ≤ y.V))
    (hs1 : ((g1.data c.uid).pot_projs i).Pairwise (fun x y => x.V ≤ y.V))
    (h : ∀ pp, pp ∈ (g1.data c.uid).pot_projs i ↔ pp ∈ (g.data c.uid).pot_projs i) :
    extremal_pot g1 b c i = extremal_pot g b c i :=
  extremal_of_same_entries b _ _ hs hs1 h

theorem extremal_pot_stable (g g1 : ground_state_space) (h : entries_stable g g1)
    (hs : stores_sorted g) (b : bound_direction) (c : sidb_cluster) (i : Nat) :
    extremal_pot g1 b c i = extremal_pot g b c i :=
  extremal_pot_of_same_entries g g1 b c i (hs _ _) ((h.2.2.2 _ _).1 (hs _ _))
    (h.2.2.2 _ _).2

theorem get_recv_stable (g g1 : ground_state_space) (h : entries_stable g g1)
    (b : bound_direction) (c : sidb_cluster) (i : Nat) :
    g1.get_recv_ext_pot_bound b c i = g.get_recv_ext_pot_bound b c i :=
  get_recv_congr _ _ _ _ _ (by rw [h.2.2.1])

/-- The effect of the first inner loop of `construct_merged_potential_projections` over distinct
sites onto which the parent does not project yet. -/
theorem merged_sites_effect (pu : Nat) (ps : List Nat) (l r nc : sidb_cluster)
    (hl : l.uid ≠ pu) (hr : r.uid ≠ pu) :
    ∀ (sites : List Nat), sites.Nodup → ∀ (s s1 : ground_state_space),
      stores_sorted s → compositions_avoid pu (s.data pu).charge_space →
      (∀ i ∈ sites, (s.data pu).pot_projs i = []) →
      for_each (merged_projections_site_step (.node pu ps l r) nc) sites s = some s1 →
      s1.clustering = s.clustering
        ∧ same_charge_spaces s s1
        ∧ stores_sorted s1
        ∧ (∀ u j, (u ≠ pu ∨ j ∉ sites) → (s1.data u).pot_projs j = (s.data u).pot_projs j)
        ∧ (∀ b1 c1 j, (c1.uid ≠ nc.uid ∨ j ∉ sites) →
            s1.get_recv_ext_pot_bound b1 c1 j = s.get_recv_ext_pot_bound b1 c1 j)
        ∧ ∀ i ∈ sites, ∀ b, ∃ vP vl vr, extremal_pot s1 b (.node pu ps l r) i = some vP
            ∧ extremal_pot s b l i = some vl ∧ extremal_pot s b r i = some vr
            ∧ s1.get_recv_ext_pot_bound b nc i
              = s.get_recv_ext_pot_bound b nc i + (vP - vl - vr) := by
  intro sites
  induction sites with
  | nil =>
    intro _ s s1 hs _ _ h
    simp only [for_each, Option.some.injEq] at h
    subst h
    exact ⟨rfl, same_charge_spaces_refl _, hs, fun _ _ _ => rfl, fun _ _ _ _ => rfl,
      fun i hi => by simp at hi⟩
  | cons i rest ih =>
    intro hnd s s2 hs hcomp hempty h
    rw [List.nodup_cons] at hnd
    obtain ⟨a, h1, h2⟩ := for_each_cons_some h
    obtain ⟨a1, a2, a3, a4, a5, a6⟩ := merged_site_effect s a pu ps l r nc i
      (hempty i (List.mem_cons_self _ _)) hs hcomp hl hr h1
    have hsa : stores_sorted a := by
      intro u j
      by_cases huj : u = pu ∧ j = i
      · obtain ⟨rfl, rfl⟩ := huj
        exact a4
      · rw [a3 u j (by
          by_cases hu : u = pu
          · exact Or.inr (fun hj => huj ⟨hu, hj⟩)
          · exact Or.inl hu)]
        exact hs u j
    obtain ⟨b1, b2, b3, b4, b5, b6⟩ := ih hnd.2 a s2 hsa (by rw [a2 pu]; exact hcomp)
      (by
        intro j hj
        rw [a3 pu j (Or.inr (fun hji => hnd.1 (hji ▸ hj)))]
        exact hempty j (List.mem_cons_of_mem _ hj))
      h2
    refine ⟨b1.trans a1, same_charge_spaces_trans _ _ _ a2 b2, b3, ?_, ?_, ?_⟩
    · intro u j huj
      rw [b4 u j (by
        rcases huj with hu | hj
        · exact Or.inl hu
        · exact Or.inr (fun hm => hj (List.mem_cons_of_mem _ hm)))]
      exact a3 u j (by
        rcases huj with hu | hj
        · exact Or.inl hu
        · exact Or.inr (fun hm => hj (hm ▸ List.mem_cons_self _ _)))
    · intro d c1 j hj
      rw [b5 d c1 j (by
        rcases hj with hu | hj
        · exact Or.inl hu
        · exact Or.inr (fun hm => hj (List.mem_cons_of_mem _ hm)))]
      exact a5 d c1 j (by
        rcases hj with hu | hj
        · exact Or.inl hu
        · exact Or.inr (fun hm => hj (hm ▸ List.mem_cons_self _ _)))
    · intro j hj d
      rcases List.mem_cons.mp hj with rfl | hj
      · obtain ⟨vP, vl, vr, k1, k2, k3, k4⟩ := a6 d
        refine ⟨vP, vl, vr, ?_, k2, k3, ?_⟩
        · rw [← k1]
          exact extremal_pot_congr _ _ _ _ _ (b4 pu j (Or.inr hnd.1))
        · rw [b5 d nc j (Or.inr hnd.1)]
          exact k4
      · obtain ⟨vP, vl, vr, k1, k2, k3, k4⟩ := b6 j hj d
        have hji : j ≠ i := fun hji => hnd.1 (hji ▸ hj)
        refine ⟨vP, vl, vr, k1, ?_, ?_, ?_⟩
        · rw [← k2]
          exact (extremal_pot_congr _ _ _ _ _ (a3 l.uid j (Or.inl hl))).symm
        · rw [← k3]
          exact (extremal_pot_congr _ _ _ _ _ (a3 r.uid j (Or.inl hr))).symm
        · rw [k4, a5 d nc j (Or.inr hji)]

/-- The effect of the outer loop body of `construct_merged_potential_projections` for a cluster
`nc` with distinct sites onto which the parent does not project yet. -/
theorem merged_projections_step_effect (pu : Nat) (ps : List Nat) (l r nc : sidb_cluster)
    (hl : l.uid ≠ pu) (hr : r.uid ≠ pu) (hnd : nc.sidbs.Nodup) (s s1 : ground_state_space)
    (hs : stores_sorted s) (hcomp : compositions_avoid pu (s.data pu).charge_space)
    (hempty : ∀ i ∈ nc.sidbs, (s.data pu).pot_projs i = [])
    (h : merged_projections_step (.node pu ps l r) s nc = some s1) :
    s1.clustering = s.clustering
      ∧ same_charge_spaces s s1
      ∧ stores_sorted s1
      ∧ (∀ u j, (u ≠ pu ∨ j ∉ nc.sidbs) →
          ∀ pp, pp ∈ (s1.data u).pot_projs j ↔ pp ∈ (s.data u).pot_projs j)
      ∧ (∀ b1 c1 j, (c1.uid ≠ nc.uid ∨ j ∉ nc.sidbs) →
          s1.get_recv_ext_pot_bound b1 c1 j = s.get_recv_ext_pot_bound b1 c1 j)
      ∧ ∀ i ∈ nc.sidbs, ∀ b, ∃ vP vl vr, extremal_pot s1 b (.node pu ps l r) i = some vP
          ∧ extremal_pot s b l i = some vl ∧ extremal_pot s b r i = some vr
          ∧ s1.get_recv_ext_pot_bound b nc i
            = s.get_recv_ext_pot_bound b nc i + (vP - vl - vr) := by
  unfold merged_projections_step at h
  split at h
  · simp at h
  · rename_i a h1
    obtain ⟨a1, a2, a3, a4, a5, a6⟩ := merged_sites_effect pu ps l r nc hl hr nc.sidbs hnd s a
      hs hcomp hempty h1
    have hst : entries_stable a s1 := by
      refine entries_stable_for_each _ _ ?_ a s1 h
      intro x m x1 _ hx
      unfold merged_projections_state_step at hx
      split at hx
      · simp at hx
      · rename_i x2 h3
        exact entries_stable_trans _ _ _ (entries_stable_merge_recv _ _ _ _ _ _ h3)
          (entries_stable_merge_recv _ _ _ _ _ _ hx)
    refine ⟨hst.1.trans a1, same_charge_spaces_trans _ _ _ a2 hst.2.1,
      stores_sorted_of_stable _ _ hst a3, ?_, ?_, ?_⟩
    · intro u j huj pp
      rw [(hst.2.2.2 u j).2 pp, a4 u j huj]
    · intro d c1 j hj
      rw [get_recv_stable _ _ hst, a5 d c1 j hj]
    · intro i hi d
      obtain ⟨vP, vl, vr, k1, k2, k3, k4⟩ := a6 i hi d
      exact ⟨vP, vl, vr, by rw [extremal_pot_stable _ _ hst a3]; exact k1, k2, k3,
        by rw [get_recv_stable _ _ hst]; exact k4⟩

theorem eq_nil_of_same_entries {s t : potential_projection_order}
    (h : ∀ pp, pp ∈ t ↔ pp ∈ s) (hs : s = []) : t = [] := by
  subst hs
  exact List.eq_nil_iff_forall_not_mem.mpr (fun q hq => by simpa using (h q).mp hq)

/-- The effect of `construct_merged_potential_projections` on a clustering of clusters with
distinct uids and pairwise disjoint, duplicate-free site lists, for a parent that does not
project yet. -/
theorem construct_projections_effect (g3 g4 : ground_state_space) (pu : Nat) (ps : List Nat)
    (l r : sidb_cluster) (hl : l.uid ≠ pu) (hr : r.uid ≠ pu)
    (hnd : (g3.clustering.map uid).Nodup)
    (hdisj : g3.clustering.Pairwise (fun a b => a.sidbs.Disjoint b.sidbs))
    (hsn : ∀ c ∈ g3.clustering, c.sidbs.Nodup)
    (hs : stores_sorted g3) (hcomp : compositions_avoid pu (g3.data pu).charge_space)
    (hempty : ∀ j, (g3.data pu).pot_projs j = [])
    (h : g3.construct_merged_potential_projections (.node pu ps l r) = some g4) :
    g4.clustering = g3.clustering
      ∧ same_charge_spaces g3 g4
      ∧ stores_sorted g4
      ∧ (∀ u j, u ≠ pu → ∀ pp, pp ∈ (g4.data u).pot_projs j ↔ pp ∈ (g3.data u).pot_projs j)
      ∧ (∀ b1 c1 j, (∀ c ∈ g3.clustering, c.uid ≠ c1.uid) →
          g4.get_recv_ext_pot_bound b1 c1 j = g3.get_recv_ext_pot_bound b1 c1 j)
      ∧ ∀ nc ∈ g3.clustering, ∀ i ∈ nc.sidbs, ∀ b, ∃ vP vl vr,
          extremal_pot g4 b (.node pu ps l r) i = some vP
            ∧ extremal_pot g3 b l i = some vl ∧ extremal_pot g3 b r i = some vr
            ∧ g4.get_recv_ext_pot_bound b nc i
              = g3.get_recv_ext_pot_bound b nc i + (vP - vl - vr) := by
  have huid : ∀ x ∈ g3.clustering, ∀ y ∈ g3.clustering, x ≠ y → x.uid ≠ y.uid :=
    fun x hx y hy hxy hu => hxy (List.inj_on_of_nodup_map hnd hx hy hu)
  have hsite : ∀ x ∈ g3.clustering, ∀ y ∈ g3.clustering, x ≠ y → ∀ i ∈ x.sidbs,
      i ∉ y.sidbs :=
    fun x hx y hy hxy i hi hiy => hxy (pairwise_disjoint_eq hdisj hx hy hi hiy)
  have key := for_each_footprint (merged_projections_step (.node pu ps l r))
    (fun s => s.clustering = g3.clustering ∧ same_charge_spaces g3 s ∧ stores_sorted s
      ∧ (∀ u j, u ≠ pu → ∀ pp, pp ∈ (s.data u).pot_projs j ↔ pp ∈ (g3.data u).pot_projs j)
      ∧ ∀ b1 c1 j, (∀ c ∈ g3.clustering, c.uid ≠ c1.uid) →
          s.get_recv_ext_pot_bound b1 c1 j = g3.get_recv_ext_pot_bound b1 c1 j)
    (fun nc s => (∀ i ∈ nc.sidbs, (s.data pu).pot_projs i = [])
      ∧ ∀ i ∈ nc.sidbs, ∀ b,
          s.get_recv_ext_pot_bound b nc i = g3.get_recv_ext_pot_bound b nc i)
    (fun nc s => ∀ i ∈ nc.sidbs, ∀ b, ∃ vP vl vr,
      extremal_pot s b (.node pu ps l r) i = some vP
        ∧ extremal_pot g3 b l i = some vl ∧ extremal_pot g3 b r i = some vr
        ∧ s.get_recv_ext_pot_bound b nc i
          = g3.get_recv_ext_pot_bound b nc i + (vP - vl - vr))
    g3.clustering (List.Nodup.of_map uid hnd)
    (by
      intro s nc s1 hnc hG hPre hstep
      obtain ⟨g1, g2, g3s, g4s, g5⟩ := hG
      obtain ⟨e1, e2, e3, e4, e5, -⟩ := merged_projections_step_effect pu ps l r nc hl hr
        (hsn nc hnc) s s1 g3s (by rw [g2 pu]; exact hcomp) hPre.1 hstep
      refine ⟨e1.trans g1, same_charge_spaces_trans _ _ _ g2 e2, e3, ?_, ?_⟩
      · intro u j hu pp
        rw [e4 u j (Or.inl hu) pp, g4s u j hu pp]
      · intro d c1 j hc1
        rw [e5 d c1 j (Or.inl (fun hcu => hc1 nc hnc hcu.symm)), g5 d c1 j hc1])
    (by
      intro s nc s1 hnc hG hPre hstep
      obtain ⟨g1, g2, g3s, g4s, g5⟩ := hG
      obtain ⟨e1, e2, e3, e4, e5, e6⟩ := merged_projections_step_effect pu ps l r nc hl hr
        (hsn nc hnc) s s1 g3s (by rw [g2 pu]; exact hcomp) hPre.1 hstep
      intro i hi d
      obtain ⟨vP, vl, vr, k1, k2, k3, k4⟩ := e6 i hi d
      refine ⟨vP, vl, vr, k1, ?_, ?_, ?_⟩
      · rw [← k2]
        exact (extremal_pot_of_same_entries g3 s d l i (hs _ _) (g3s _ _)
          (g4s l.uid i hl)).symm
      · rw [← k3]
        exact (extremal_pot_of_same_entries g3 s d r i (hs _ _) (g3s _ _)
          (g4s r.uid i hr)).symm
      · rw [k4, hPre.2 i hi d])
    (by
      intro s y s1 x hx hy hxy hG hPy hPx hstep
      obtain ⟨g1, g2, g3s, g4s, g5⟩ := hG
      obtain ⟨e1, e2, e3, e4, e5, -⟩ := merged_projections_step_effect pu ps l r y hl hr
        (hsn y hy) s s1 g3s (by rw [g2 pu]; exact hcomp) hPy.1 hstep
      refine ⟨?_, ?_⟩
      · intro i hi
        exact eq_nil_of_same_entries (e4 pu i (Or.inr (hsite x hx y hy hxy i hi)))
          (hPx.1 i hi)
      · intro i hi d
        rw [e5 d x i (Or.inl (huid x hx y hy hxy)), hPx.2 i hi d])
    (by
      intro s y s1 x hx hy hxy hG hPy hPo hstep
      obtain ⟨g1, g2, g3s, g4s, g5⟩ := hG
      obtain ⟨e1, e2, e3, e4, e5, -⟩ := merged_projections_step_effect pu ps l r y hl hr
        (hsn y hy) s s1 g3s (by rw [g2 pu]; exact hcomp) hPy.1 hstep
      intro i hi d
      obtain ⟨vP, vl, vr, k1, k2, k3, k4⟩ := hPo i hi d
      refine ⟨vP, vl, vr, ?_, k2, k3, ?_⟩
      · rw [← k1]
        exact extremal_pot_of_same_entries s s1 d (.node pu ps l r) i (g3s _ _) (e3 _ _)
          (e4 pu i (Or.inr (hsite x hx y hy hxy i hi)))
      · rw [e5 d x i (Or.inl (huid x hx y hy hxy)), k4])
    g3 g4 ⟨rfl, same_charge_spaces_refl _, hs, fun _ _ _ _ => Iff.rfl, fun _ _ _ _ => rfl⟩
    (fun x _ => ⟨fun i _ => hempty i, fun _ _ _ => rfl⟩) h
  obtain ⟨⟨g1, g2, g3s, g4s, g5⟩, hpost⟩ := key
  exact ⟨g1, g2, g3s, g4s, g5, hpost⟩

theorem stores_sorted_add (g : ground_state_space) (hs : stores_sorted g) (c : sidb_cluster)
    (i : Nat) (pp : potential_projection) : stores_sorted (g.add_pot_proj c i pp) := by
  obtain ⟨-, -, e3, e4⟩ := add_pot_proj_effect g c i pp
  intro u j
  by_cases huj : u = c.uid ∧ j = i
  · obtain ⟨rfl, rfl⟩ := huj
    rw [e4]
    exact sorted_add pp _ (hs _ _)
  · rw [e3 u j (by
      by_cases hu : u = c.uid
      · exact Or.inr (fun hj => huj ⟨hu, hj⟩)
      · exact Or.inl hu)]
    exact hs u j

/-- The effect of `compute_meets_for_internal_pot_bounds`: only the stores of the parent onto its
own sites change. -/
theorem compute_meets_effect (g4 g5 : ground_state_space) (parent : sidb_cluster)
    (hs : stores_sorted g4) (h : g4.compute_meets_for_internal_pot_bounds parent = some g5) :
    g5.clustering = g4.clustering
      ∧ (∀ u, (g5.data u).recv_ext_pot_bounds = (g4.data u).recv_ext_pot_bounds)
      ∧ stores_sorted g5
      ∧ ∀ u j, (u ≠ parent.uid ∨ j ∉ parent.sidbs) →
          (g5.data u).pot_projs j = (g4.data u).pot_projs j := by
  have key := for_each_inv
    (fun g m => for_each (meets_site_step parent m) parent.sidbs g)
    (fun s => s.clustering = g4.clustering
      ∧ (∀ u, (s.data u).recv_ext_pot_bounds = (g4.data u).recv_ext_pot_bounds)
      ∧ stores_sorted s
      ∧ ∀ u j, (u ≠ parent.uid ∨ j ∉ parent.sidbs) →
          (s.data u).pot_projs j = (g4.data u).pot_projs j)
    (g4.data parent.uid).charge_space
    (by
      intro s m s1 _ hP hstep
      have key2 := for_each_inv (meets_site_step parent m)
        (fun a => a.clustering = g4.clustering
          ∧ (∀ u, (a.data u).recv_ext_pot_bounds = (g4.data u).recv_ext_pot_bounds)
          ∧ stores_sorted a
          ∧ ∀ u j, (u ≠ parent.uid ∨ j ∉ parent.sidbs) →
              (a.data u).pot_projs j = (g4.data u).pot_projs j)
        parent.sidbs
        (by
          intro a i a1 hi hPa ha
          obtain ⟨p1, p2, p3, p4⟩ := hPa
          unfold meets_site_step at ha
          split at ha
          · rename_i lb ub _
            simp only [Option.some.injEq] at ha
            subst ha
            obtain ⟨e1, e2, e3, -⟩ := add_pot_proj_effect a parent i ⟨lb, m.multiset⟩
            obtain ⟨f1, f2, f3, -⟩ := add_pot_proj_effect
              (a.add_pot_proj parent i ⟨lb, m.multiset⟩) parent i ⟨ub, m.multiset⟩
            refine ⟨f1.trans (e1.trans p1), fun u => (f2 u).trans ((e2 u).trans (p2 u)),
              stores_sorted_add _ (stores_sorted_add _ p3 _ _ _) _ _ _, ?_⟩
            intro u j huj
            have hne : u ≠ parent.uid ∨ j ≠ i := by
              rcases huj with hu | hj
              · exact Or.inl hu
              · exact Or.inr (fun hji => hj (hji ▸ hi))
            rw [f3 u j hne, e3 u j hne, p4 u j huj]
          · simp at ha)
        s s1 hP hstep
      exact key2)
    g4 g5 ⟨rfl, fun _ => rfl, hs, fun _ _ _ => rfl⟩ h
  exact key

/-! ### The frontier around a merge -/

theorem erase_children_pair (l r : sidb_cluster) (cl : List sidb_cluster) :
    erase_children [l, r] cl
      = (cl.filter (fun c => decide (c.uid ≠ l.uid))).filter (fun c => decide (c.uid ≠ r.uid)) := by
  unfold erase_children
  rw [List.filter_filter]
  refine List.filter_congr ?_
  intro c _
  simp only [List.mem_cons, List.mem_singleton, forall_eq_or_imp, forall_eq, ne_eq,
    List.not_mem_nil, false_implies, implies_true, and_true, Bool.decide_and, decide_not]
  by_cases h1 : l.uid = c.uid <;> by_cases h2 : r.uid = c.uid <;>
    simp [h1, h2, eq_comm]

theorem perm_other_clusters_left (g : ground_state_space) (l r : sidb_cluster)
    (hnd : (g.clustering.map uid).Nodup) (hrc : r ∈ g.clustering) (hne : l.uid ≠ r.uid) :
    (other_clusters g l).Perm (r :: erase_children [l, r] g.clustering) := by
  rw [erase_children_pair]
  unfold other_clusters
  exact perm_cons_filter_uid _ r (nodup_uids_filter _ _ hnd)
    (List.mem_filter.mpr ⟨hrc, by simpa using fun h => hne h.symm⟩)

theorem erase_children_swap (l r : sidb_cluster) (cl : List sidb_cluster) :
    erase_children [r, l] cl = erase_children [l, r] cl := by
  unfold erase_children
  refine List.filter_congr ?_
  intro c _
  simp only [List.mem_cons, List.mem_singleton, forall_eq_or_imp, forall_eq, ne_eq,
    List.not_mem_nil, false_implies, implies_true, and_true]
  by_cases h1 : l.uid = c.uid <;> by_cases h2 : r.uid = c.uid <;> simp [h1, h2]

theorem perm_other_clusters_right (g : ground_state_space) (l r : sidb_cluster)
    (hnd : (g.clustering.map uid).Nodup) (hlc : l ∈ g.clustering) (hne : l.uid ≠ r.uid) :
    (other_clusters g r).Perm (l :: erase_children [l, r] g.clustering) := by
  rw [← erase_children_swap]
  exact perm_other_clusters_left g r l hnd hlc (fun h => hne h.symm)

theorem perm_other_clusters_rest (g : ground_state_space) (l r c : sidb_cluster)
    (hnd : (g.clustering.map uid).Nodup) (hlc : l ∈ g.clustering) (hrc : r ∈ g.clustering)
    (hne : l.uid ≠ r.uid) (hcl : l.uid ≠ c.uid) (hcr : r.uid ≠ c.uid) :
    (other_clusters g c).Perm
      (l :: r :: (erase_children [l, r] g.clustering).filter
        (fun c1 => decide (c1.uid ≠ c.uid))) := by
  have h1 : l ∈ other_clusters g c :=
    List.mem_filter.mpr ⟨hlc, by simpa using hcl⟩
  have p1 := perm_cons_filter_uid _ l (nodup_uids_filter _ _ hnd) h1
  have h2 : r ∈ (other_clusters g c).filter (fun x => decide (x.uid ≠ l.uid)) :=
    List.mem_filter.mpr ⟨List.mem_filter.mpr ⟨hrc, by simpa using hcr⟩,
      by simpa using fun h => hne h.symm⟩
  have p2 := perm_cons_filter_uid _ r
    (nodup_uids_filter _ _ (nodup_uids_filter _ _ hnd)) h2
  have heq : ((other_clusters g c).filter (fun x => decide (x.uid ≠ l.uid))).filter
      (fun x => decide (x.uid ≠ r.uid))
      = (erase_children [l, r] g.clustering).filter (fun c1 => decide (c1.uid ≠ c.uid)) := by
    rw [erase_children_pair]
    unfold other_clusters
    simp only [List.filter_filter]
    refine List.filter_congr ?_
    intro x _
    by_cases a1 : x.uid = c.uid <;> by_cases a2 : x.uid = l.uid <;>
      by_cases a3 : x.uid = r.uid <;> simp [a1, a2, a3]
  exact p1.trans ((p2.trans (List.Perm.of_eq (congrArg (List.cons r) heq))).cons l)

theorem emplace_cluster_fresh (p : sidb_cluster) (cl : List sidb_cluster)
    (h : ∀ c ∈ cl, c.uid ≠ p.uid) : emplace_cluster p cl = cl ++ [p] := by
  unfold emplace_cluster
  rw [if_neg]
  rintro ⟨c, hc, hcu⟩
  exact h c hc hcu

theorem projected_sum_snoc (g : ground_state_space) (b : bound_direction) (i : Nat)
    (cs : List sidb_cluster) (c : sidb_cluster) :
    projected_sum g b i (cs ++ [c]) = projected_sum g b i (c :: cs) :=
  projected_sum_perm g b i (List.perm_append_singleton c cs)

theorem merge_inv_compositions_avoid (g0 g : ground_state_space) (pu : Nat)
    (l r : sidb_cluster) (done : List (multiset_conf × multiset_conf))
    (hl : l.uid ≠ pu) (hr : r.uid ≠ pu) (h : merge_inv g0 pu l r done g) :
    compositions_avoid pu (g.data pu).charge_space := by
  obtain ⟨-, -, hnd, -, hview⟩ := h
  intro comp hcomp cst hcst
  obtain ⟨e, he, hce⟩ := List.mem_flatMap.mp hcomp
  have h1 : comp.map sidb_cluster_state.key ∈
      (compositions_of (g.data pu).charge_space e.multiset).map
        (List.map sidb_cluster_state.key) := by
    rw [compositions_of_self _ hnd e he]
    exact List.mem_map_of_mem _ hce
  rw [hview e.multiset] at h1
  obtain ⟨pr, -, hk⟩ := List.mem_map.mp h1
  obtain ⟨-, -, k3⟩ := composition_of_pair_key comp l r _ hk.symm
  rcases k3 cst hcst with ⟨hc, -⟩ | ⟨hc, -⟩
  · rw [hc]; exact hl
  · rw [hc]; exact hr

/-- The part of `move_up_hierarchy` that builds the parent keeps the received bounds consistent:
on a frontier of clusters with distinct uids and pairwise disjoint, duplicate-free site lists
that holds the two children but not the parent, with sorted stores and a parent that has neither
charge states nor projections yet. -/
theorem merge_up_consistent (g g6 : ground_state_space) (pu : Nat) (ps : List Nat)
    (l r : sidb_cluster) (hnd : (g.clustering.map uid).Nodup)
    (hdisj : g.clustering.Pairwise (fun a b => a.sidbs.Disjoint b.sidbs))
    (hsn : ∀ c ∈ g.clustering, c.sidbs.Nodup)
    (hlc : l ∈ g.clustering) (hrc : r ∈ g.clustering) (hne : l.uid ≠ r.uid)
    (hpu : ∀ c ∈ g.clustering, c.uid ≠ pu) (hperm : ps.Perm (l.sidbs ++ r.sidbs))
    (hempty : (g.data pu).charge_space = []) (hstores : ∀ j, (g.data pu).pot_projs j = [])
    (hs : stores_sorted g) (hI : received_consistent g)
    (h : g.merge_up (.node pu ps l r) = some g6) :
    received_consistent g6 ∧ stores_sorted g6 := by
  have hl : l.uid ≠ pu := hpu l hlc
  have hr : r.uid ≠ pu := hpu r hrc
  have hlr : l.sidbs.Disjoint r.sidbs := by
    intro i hi hj
    exact hne (congrArg uid (pairwise_disjoint_eq hdisj hlc hrc hi hj))
  have hEsub : ∀ c ∈ erase_children [l, r] g.clustering,
      c ∈ g.clustering ∧ l.uid ≠ c.uid ∧ r.uid ≠ c.uid := by
    intro c hc
    obtain ⟨k1, k2⟩ := mem_erase_children _ _ _ hc
    exact ⟨k1, k2 l (by simp), k2 r (by simp)⟩
  have hEpu : ∀ c ∈ erase_children [l, r] g.clustering, c.uid ≠ pu :=
    fun c hc => hpu c (hEsub c hc).1
  have hEnd : ((erase_children [l, r] g.clustering).map uid).Nodup :=
    nodup_uids_filter _ _ hnd
  have hEdisj : (erase_children [l, r] g.clustering).Pairwise
      (fun a b => a.sidbs.Disjoint b.sidbs) := List.Pairwise.filter _ hdisj
  unfold merge_up at h
  simp only [children] at h
  split at h
  · simp at h
  · rename_i g2 h2
    split at h
    · simp at h
    · rename_i g3 h3
      split at h
      · simp at h
      · rename_i g4 h4
        split at h
        · simp at h
        · rename_i g5 h5
          simp only [Option.some.injEq] at h
          obtain ⟨d1, d2, d3, d4, d5⟩ := derive_effect _ g2 pu ps l r hne (hsn l hlc)
            (hsn r hrc) hlr h2
          simp only at d1 d2 d3 d4 d5
          have c2 := same_charge_spaces_derive _ _ _ h2
          have hinv := construct_merged_inv g2 g3 pu ps l r (by rw [c2 pu]; exact hempty) hr h3
          have hcomp := merge_inv_compositions_avoid _ _ _ _ _ _ hl hr hinv
          have hpot := hinv.1
          have hcl3 : g3.clustering = erase_children [l, r] g.clustering :=
            ((same_static_construct_charge _ _ _ h3).2.1).trans d1
          have hst3 : ∀ u, (g3.data u).pot_projs = (g.data u).pot_projs :=
            fun u => ((hpot.2.2 u).1).trans (d2 u)
          have hs3 : stores_sorted g3 := fun u j => by rw [hst3]; exact hs u j
          obtain ⟨p1, p2, p3, p4, p5, p6⟩ := construct_projections_effect g3 g4 pu ps l r hl hr
            (by rw [hcl3]; exact hEnd) (by rw [hcl3]; exact hEdisj)
            (by rw [hcl3]; exact fun c hc => hsn c (hEsub c hc).1) hs3 hcomp
            (fun j => by rw [hst3]; exact hstores j) h4
          rw [hcl3] at p5 p6
          obtain ⟨m1, m2, m3, m4⟩ := compute_meets_effect g4 g5 (.node pu ps l r) p3 h5
          have hcl5 : g5.clustering = erase_children [l, r] g.clustering :=
            m1.trans (p1.trans hcl3)
          have hcl6 : g6.clustering = erase_children [l, r] g.clustering ++ [.node pu ps l r] := by
            rw [← h]
            show emplace_cluster _ g5.clustering = _
            rw [hcl5]
            exact emplace_cluster_fresh _ _ hEpu
          have hdata : g6.data = g5.data := by rw [← h]
          have hext : ∀ (c1 : sidb_cluster), c1.uid ≠ pu → ∀ b j,
              extremal_pot g6 b c1 j = extremal_pot g b c1 j := by
            intro c1 hc1 b j
            have e1 : extremal_pot g6 b c1 j = extremal_pot g4 b c1 j :=
              extremal_pot_congr _ _ _ _ _ (by rw [hdata, m4 c1.uid j (Or.inl hc1)])
            have e2 : extremal_pot g4 b c1 j = extremal_pot g3 b c1 j :=
              extremal_pot_of_same_entries g3 g4 b c1 j (hs3 _ _) (p3 _ _) (p4 c1.uid j hc1)
            have e3 : extremal_pot g3 b c1 j = extremal_pot g b c1 j :=
              extremal_pot_congr _ _ _ _ _ (by rw [hst3])
            exact e1.trans (e2.trans e3)
          have hrecv6 : ∀ b (c1 : sidb_cluster) j,
              g6.get_recv_ext_pot_bound b c1 j = g4.get_recv_ext_pot_bound b c1 j :=
            fun b c1 j => get_recv_congr _ _ _ _ _ (by rw [hdata, m2])
          have hrecv3 : ∀ b (c1 : sidb_cluster) j,
              g3.get_recv_ext_pot_bound b c1 j = g2.get_recv_ext_pot_bound b c1 j :=
            fun b c1 j => get_recv_congr _ _ _ _ _ (by rw [(hpot.2.2 c1.uid).2])
          have hsumE : ∀ b j (cs : List sidb_cluster), (∀ c1 ∈ cs, c1.uid ≠ pu) →
              projected_sum g6 b j cs = projected_sum g b j cs :=
            fun b j cs hcs => projected_sum_congr g g6 b j cs
              (fun c1 hc1 => hext c1 (hcs c1 hc1) b j)
          refine ⟨?_, fun u j => by rw [hdata]; exact m3 u j⟩
          intro c hc i hi b
          rw [hcl6] at hc
          rcases List.mem_append.mp hc with hcE | hcP
          · obtain ⟨hccl, hcl1, hcr1⟩ := hEsub c hcE
            have hcpu : c.uid ≠ pu := hpu c hccl
            have hoc : other_clusters g6 c
                = (erase_children [l, r] g.clustering).filter
                    (fun c1 => decide (c1.uid ≠ c.uid)) ++ [.node pu ps l r] := by
              unfold other_clusters
              rw [hcl6, List.filter_append]
              congr 1
              have hpc : (sidb_cluster.node pu ps l r).uid ≠ c.uid := fun h => hcpu h.symm
              simp [List.filter_cons, hpc]
            have h0 := hI c hccl i hi b
            rw [projected_sum_perm g b i
              (perm_other_clusters_rest g l r c hnd hlc hrc hne hcl1 hcr1)] at h0
            obtain ⟨xl, wl, k1, k2, k3⟩ := (projected_sum_cons_some _ _ _ _ _ _).mp h0
            obtain ⟨xr, w, k4, k5, k6⟩ := (projected_sum_cons_some _ _ _ _ _ _).mp k2
            obtain ⟨vP, vl, vr, q1, q2, q3, q4⟩ := p6 c hcE i hi b
            have hvl : vl = xl := by
              have := (extremal_pot_congr g g3 b l i (by rw [hst3])).symm.trans q2
              rw [k1] at this
              exact (Option.some.inj this).symm
            have hvr : vr = xr := by
              have := (extremal_pot_congr g g3 b r i (by rw [hst3])).symm.trans q3
              rw [k4] at this
              exact (Option.some.inj this).symm
            have hips : i ∉ ps := by
              intro hip
              rcases List.mem_append.mp (hperm.mem_iff.mp hip) with hil | hir
              · exact hcl1 (congrArg uid (pairwise_disjoint_eq hdisj hlc hccl hil hi))
              · exact hcr1 (congrArg uid (pairwise_disjoint_eq hdisj hrc hccl hir hi))
            have hP6 : extremal_pot g6 b (.node pu ps l r) i = some vP := by
              rw [← q1]
              exact extremal_pot_congr _ _ _ _ _ (by rw [hdata]; exact m4 pu i (Or.inr hips))
            rw [hoc, projected_sum_snoc]
            refine (projected_sum_cons_some _ _ _ _ _ _).mpr ⟨vP, w, hP6, ?_, ?_⟩
            · rw [hsumE b i _ (fun c1 hc1 => hEpu c1 (List.mem_filter.mp hc1).1)]
              exact k5
            · rw [hrecv6, q4, hrecv3, d3 b c i (fun h => hcl1 h.symm) (fun h => hcr1 h.symm) hcpu]
              show g.get_recv_ext_pot_bound b c i + (vP - vl - vr) = vP + w
              rw [k3, k6, hvl, hvr]
              ring
          · rw [List.mem_singleton.mp hcP] at hi ⊢
            have hoc : other_clusters g6 (.node pu ps l r)
                = erase_children [l, r] g.clustering := by
              unfold other_clusters
              rw [hcl6, List.filter_append]
              have e1 : (erase_children [l, r] g.clustering).filter
                  (fun c1 => decide (c1.uid ≠ (sidb_cluster.node pu ps l r).uid))
                  = erase_children [l, r] g.clustering := by
                rw [List.filter_eq_self]
                intro c1 hc1
                have hc1p : c1.uid ≠ (sidb_cluster.node pu ps l r).uid := hEpu c1 hc1
                simpa using hc1p
              rw [e1]
              simp [List.filter_cons]
            rw [hoc, hsumE b i _ hEpu, hrecv6,
              p5 b (.node pu ps l r) i (fun c1 hc1 => hEpu c1 hc1), hrecv3]
            rcases List.mem_append.mp (hperm.mem_iff.mp hi) with hil | hir
            · obtain ⟨v, hv, hrv⟩ := d4 i hil b
              have h0 := hI l hlc i hil b
              rw [projected_sum_perm g b i (perm_other_clusters_left g l r hnd hrc hne)] at h0
              obtain ⟨x, w, k1, k2, k3⟩ := (projected_sum_cons_some _ _ _ _ _ _).mp h0
              have hvx : v = x := by
                have := hv.symm.trans k1
                exact Option.some.inj this
              rw [k2, hrv]
              show some w = some (g.get_recv_ext_pot_bound b l i - v)
              rw [k3, hvx]
              congr 1
              ring
            · obtain ⟨v, hv, hrv⟩ := d5 i hir b
              have h0 := hI r hrc i hir b
              rw [projected_sum_perm g b i (perm_other_clusters_right g l r hnd hlc hne)] at h0
              obtain ⟨x, w, k1, k2, k3⟩ := (projected_sum_cons_some _ _ _ _ _ _).mp h0
              have hvx : v = x := by
                have := hv.symm.trans k1
                exact Option.some.inj this
              rw [k2, hrv]
              show some w = some (g.get_recv_ext_pot_bound b r i - v)
              rw [k3, hvx]
              congr 1
              ring

theorem frontier_sidbs_nodup {t : sidb_cluster} {cl : List sidb_cluster}
    (hf : is_frontier t cl) (hw : t.well_formed) (hn : t.sidbs.Nodup) :
    ∀ c ∈ cl, c.sidbs.Nodup := by
  have hnd : (cl.flatMap sidbs).Nodup := (is_frontier_sites_perm hf hw).nodup_iff.mpr hn
  exact fun c hc => (List.nodup_flatMap.mp hnd).1 c hc

/-- The method `move_up_hierarchy` keeps the received bounds consistent when the store returns,
as the next extremal entry, the entry that is extremal once the tag of the current one is
removed. -/
theorem move_up_hierarchy_consistent (g g1 : ground_state_space)
    (hw : g.top_cluster.well_formed) (hu : g.top_cluster.uids.Nodup)
    (hn : g.top_cluster.sidbs.Nodup) (hf : is_frontier g.top_cluster g.clustering)
    (hfresh : ∀ p, g.select_min_parent = some p →
      (g.data p.uid).charge_space = [] ∧ ∀ j, (g.data p.uid).pot_projs j = [])
    (hs : stores_sorted g) (hI : received_consistent g)
    (h : g.move_up_hierarchy potential_projection_order.get_next_other_tag = some g1) :
    received_consistent g1 := by
  unfold move_up_hierarchy at h
  split at h
  · simp only [Option.some.injEq] at h
    subst h
    exact received_consistent_congr g _ rfl (fun _ => rfl) (fun _ => rfl) hI
  · rename_i hlen
    split at h
    · simp at h
    · rename_i p hsel
      split at h
      · simp at h
      · rename_i g6 hmerge
        cases hU : g6.update_charge_spaces potential_projection_order.get_next_other_tag
            (some p.uid) with
        | none => rw [hU] at h; simp at h
        | some res =>
          obtain ⟨r0, g7⟩ := res
          rw [hU] at h
          simp only [Option.map_some', Option.some.injEq] at h
          subst h
          obtain ⟨hp, hch, hch2, hfr6, -⟩ := select_min_parent_spec g p hw hu hf hlen hsel
          obtain ⟨m1, m2, -⟩ := merge_up_static _ _ _ hmerge
          have hnd := is_frontier_uids_nodup hf hu
          have hdisj := (partitions_sites_of_frontier hf hw hn).1
          have hsn := frontier_sidbs_nodup hf hw hn
          have hnd6 : (g6.clustering.map uid).Nodup := by
            rw [m2]; exact is_frontier_uids_nodup hfr6 hu
          have hdisj6 : g6.clustering.Pairwise (fun a b => a.sidbs.Disjoint b.sidbs) := by
            rw [m2]; exact (partitions_sites_of_frontier hfr6 hw hn).1
          cases p with
          | leaf u s => simp [children] at hch2
          | node pu ps l r =>
            have hlc : l ∈ g.clustering := hch l (by simp [children])
            have hrc : r ∈ g.clustering := hch r (by simp [children])
            have hwp := well_formed_of_mem _ _ hw hp
            have hup := uids_nodup_of_mem _ _ hu hp
            rw [uids_node, List.nodup_cons] at hup
            have hne : l.uid ≠ r.uid := by
              intro hlr
              exact (List.nodup_append.mp hup.2).2.2 (uid_mem_uids (self_mem_nodes l))
                (hlr ▸ uid_mem_uids (self_mem_nodes r))
            have hpu : ∀ c ∈ g.clustering, c.uid ≠ pu := by
              intro c hc hcu
              have hcp : c = .node pu ps l r :=
                eq_of_uid_eq hu (is_frontier_mem_nodes hf c hc) hp hcu
              subst hcp
              have hpos := size_pos_of_well_formed l hwp.1
              obtain ⟨i, hi⟩ := List.exists_mem_of_length_pos (by
                unfold size at hpos; omega : 0 < l.sidbs.length)
              have hip : i ∈ (sidb_cluster.node pu ps l r).sidbs :=
                hwp.2.2.mem_iff.mpr (List.mem_append_left _ hi)
              have hlp := pairwise_disjoint_eq hdisj hlc hc hi hip
              have hq : sidb_cluster.node pu ps l r ∈ l.nodes := by
                rw [← hlp]
                exact self_mem_nodes l
              exact root_not_child hq (by simp [children])
            obtain ⟨k1, -⟩ := merge_up_consistent g g6 pu ps l r hnd hdisj hsn hlc hrc hne hpu
              hwp.2.2 (hfresh _ hsel).1 (hfresh _ hsel).2 hs hI hmerge
            exact (update_charge_spaces_consistent g6 g7 _ r0 hnd6 hdisj6 k1 hU).2

theorem three_leaf_sorted : stores_sorted three_leaf_state := by
  intro u j
  unfold three_leaf_state three_leaf_data
  dsimp only
  split_ifs <;> dsimp only <;> first | decide | (split_ifs <;> decide)

/-! ### A run that prunes a stable configuration -/

/-- C1: a run that prunes a stable configuration. For the five SiDBs of `star_potentials` with
`mu_minus = 0.67` and the threshold `6`, the assignment positive, neutral, negative, positive,
positive satisfies the stability predicates of the envelope at every site, and its multiset on
the top cluster is (1, 1, 3). The run terminates, and the charge space of the top cluster holds
the multisets (2, 0, 3), (1, 2, 2) and (0, 4, 1) but not (1, 1, 3), for both readings of the
store operation `get_next`. After four iterations the five sites are merged into the top cluster
and its charge space still holds (1, 1, 3); the analysis of the next pruning pass collects the
witness sets {0, 1, 2, 3, 4}, {0, 3, 4}, {0, 1, 2, 3, 4} for it and rejects it. With the
threshold `0`, where the analysis accepts on the cardinality test alone and the partition search
is not entered, the same run keeps (1, 1, 3). -/
theorem run_prunes_stable_configuration :
    satisfies_envelope 5 star_potentials star_mu star_assignment
      ∧ restricted_multiset star_assignment star_top.sidbs = ⟨1, 1, 3⟩
      ∧ top_multisets_after_run potential_projection_order.get_next (star_state 6)
          = some [⟨2, 0, 3⟩, ⟨1, 2, 2⟩, ⟨0, 4, 1⟩]
      ∧ top_multisets_after_run potential_projection_order.get_next_other_tag (star_state 6)
          = some [⟨2, 0, 3⟩, ⟨1, 2, 2⟩, ⟨0, 4, 1⟩]
      ∧ (run_iterations potential_projection_order.get_next 10 4 (star_state 6)).map
            (fun g =>
              (g.clustering,
               (g.data star_top.uid).charge_space.map (fun e => e.multiset),
               collect_witnesses star_mu
                 (g.get_received_potential_bounds .ANALYZE_MULTISET star_top ⟨1, 1, 3⟩ none)
                 star_top.sidbs (witness_partitioning_state.init ⟨1, 1, 3⟩),
               g.perform_potential_bound_analysis .ANALYZE_MULTISET star_top ⟨1, 1, 3⟩ none))
          = some ([star_top],
                  [⟨2, 0, 3⟩, ⟨1, 2, 2⟩, ⟨0, 4, 1⟩, ⟨1, 1, 3⟩],
                  some ⟨[0, 1, 2, 3, 4], [0, 3, 4], [0, 1, 2, 3, 4], 1, 3, 1⟩,
                  some false)
      ∧ top_multisets_after_run potential_projection_order.get_next (star_state 0)
          = some [⟨2, 0, 3⟩, ⟨1, 2, 2⟩, ⟨0, 4, 1⟩, ⟨1, 1, 3⟩] := by
  refine ⟨by decide, by decide, ?_, ?_, ?_, ?_⟩
  · set_option maxRecDepth 100000 in decide
  · set_option maxRecDepth 100000 in decide
  · set_option maxRecDepth 100000 in decide
  · set_option maxRecDepth 100000 in decide

/-! ### Counting multisets -/

theorem range_sum_descending (n : Nat) : ∀ k, k ≤ n + 1 →
    2 * ((List.range k).map (fun a => n + 1 - a)).sum + k * k = k * (2 * n + 3) := by
  intro k
  induction k with
  | zero => intro _; simp
  | succ k ih =>
    intro hk
    have h := ih (by omega)
    rw [List.sum_range_succ]
    have h2 : n + 1 - k + k = n + 1 := by omega
    nlinarith

theorem multisets_of_size_length (N : Nat) :
    (multisets_of_size N).length = (N + 1) * (N + 2) / 2 := by
  have h := range_sum_descending N (N + 1) (le_refl _)
  have h1 : (multisets_of_size N).length
      = ((List.range (N + 1)).map (fun a => N + 1 - a)).sum := by
    unfold multisets_of_size
    rw [List.length_flatMap]
    congr 1
    apply List.map_congr_left
    intro a _
    simp
  rw [h1]
  have h3 : 2 * ((List.range (N + 1)).map (fun a => N + 1 - a)).sum = (N + 1) * (N + 2) := by
    nlinarith
  omega

theorem mem_multisets_of_size (N : Nat) (m : multiset_conf) :
    m ∈ multisets_of_size N ↔ m.neg + m.neut + m.pos = N := by
  unfold multisets_of_size
  simp only [List.mem_flatMap, List.mem_range, List.mem_map]
  constructor
  · rintro ⟨a, ha, b, hb, rfl⟩
    simp only
    omega
  · intro h
    refine ⟨m.neg, by omega, m.neut, by omega, ?_⟩
    cases m
    simp only at h ⊢
    congr
    omega

theorem multisets_of_size_nodup (N : Nat) : (multisets_of_size N).Nodup := by
  unfold multisets_of_size
  rw [List.nodup_flatMap]
  refine ⟨?_, ?_⟩
  · intro a _
    apply List.Nodup.map _ (List.nodup_range _)
    intro b1 b2 hb
    simp only [multiset_conf.mk.injEq] at hb
    exact hb.2.1
  · apply List.Pairwise.imp _ (List.nodup_range (N + 1))
    intro a1 a2 hne
    simp only [Function.onFun]
    intro m h1 h2
    simp only [List.mem_map, List.mem_range] at h1 h2
    obtain ⟨b1, -, rfl⟩ := h1
    obtain ⟨b2, -, h2⟩ := h2
    simp only [multiset_conf.mk.injEq] at h2
    exact hne h2.1.symm


/-! ### The result record -/

theorem move_up_hierarchy_top_cluster (nxt : next_extremal_op) (g g1 : ground_state_space)
    (h : g.move_up_hierarchy nxt = some g1) : g1.top_cluster = g.top_cluster := by
  unfold move_up_hierarchy at h
  split at h
  · simp only [Option.some.injEq] at h
    subst h
    rfl
  · split at h
    · simp at h
    · rename_i p hsel
      split at h
      · simp at h
      · rename_i g6 hmerge
        cases hU : g6.update_charge_spaces nxt (some p.uid) with
        | none => rw [hU] at h; simp at h
        | some res =>
          obtain ⟨r, g7⟩ := res
          rw [hU] at h
          simp only [Option.map_some', Option.some.injEq] at h
          subst h
          obtain ⟨s1, -⟩ := same_static_update_charge_spaces nxt _ _ _ _ hU
          obtain ⟨m1, -⟩ := merge_up_static _ _ _ hmerge
          exact s1.trans m1

theorem run_iteration_top_cluster (nxt : next_extremal_op) (fuel : Nat)
    (g g1 : ground_state_space) (h : run_iteration nxt fuel g = some g1) :
    g1.top_cluster = g.top_cluster := by
  unfold run_iteration at h
  split at h
  · simp at h
  · rename_i g2 hp
    obtain ⟨s1, -⟩ := same_static_prune_to_fixpoint nxt fuel g g2 hp
    exact (move_up_hierarchy_top_cluster nxt g2 g1 h).trans s1

theorem run_loop_top_cluster (nxt : next_extremal_op) (inner_fuel : Nat) :
    ∀ (fuel : Nat) (g g1 : ground_state_space), run_loop nxt inner_fuel fuel g = some g1 →
      g1.top_cluster = g.top_cluster := by
  intro fuel
  induction fuel with
  | zero => intro g g1 h; simp [run_loop] at h
  | succ fuel ih =>
    intro g g1 h
    unfold run_loop at h
    split at h
    · simp only [Option.some.injEq] at h
      subst h
      rfl
    · split at h
      · simp at h
      · rename_i g2 hi
        exact (ih g2 g1 h).trans (run_iteration_top_cluster nxt inner_fuel g g2 hi)

theorem run_record (nxt : next_extremal_op) (inner_fuel outer_fuel : Nat)
    (g g1 : ground_state_space) (res : ground_state_space_result)
    (h : g.run nxt inner_fuel outer_fuel = some (g1, res)) :
    run_loop nxt inner_fuel outer_fuel g = some g1
      ∧ g1.top_cluster = g.top_cluster
      ∧ res.top_cluster = g.top_cluster
      ∧ res.maximum_top_level_multisets = maximum_top_level_multisets g.top_cluster.size
      ∧ res.pruned_top_level_multisets
          = u64_sub (maximum_top_level_multisets g.top_cluster.size)
              (g1.data g.top_cluster.uid).charge_space.length := by
  unfold run at h
  split at h
  · simp at h
  · rename_i g2 hl
    simp only [Option.some.injEq, Prod.mk.injEq] at h
    obtain ⟨h1, h2⟩ := h
    subst h1 h2
    have ht := run_loop_top_cluster nxt inner_fuel outer_fuel g g2 hl
    simp only [ht]
    exact ⟨hl, trivial, trivial, trivial, trivial⟩

theorem maximum_top_level_multisets_small (N : Nat) (hN : (N + 1) * (N + 2) < 2 ^ 64) :
    maximum_top_level_multisets N = (N + 1) * (N + 2) / 2 := by
  unfold maximum_top_level_multisets
  have h1 : N + 1 < 2 ^ 64 := by nlinarith
  have h2 : N + 2 < 2 ^ 64 := by nlinarith
  rw [Nat.mod_eq_of_lt h1, Nat.mod_eq_of_lt h2, Nat.mod_eq_of_lt hN]

/-- C14: the top count. For every `N` with `(N + 1) (N + 2) < 2 ^ 64`, the function
`maximum_top_level_multisets` returns `(N + 1) (N + 2) / 2`, which is the binomial coefficient
`C(N + 2, 2)` and the number of triples `(n-, n0, n+)` of natural numbers with sum `N` (the list
`multisets_of_size N` holds exactly these triples, each once); and the record returned by `run`
for a top cluster with `N` sites carries this value as `maximum_top_level_multisets`. -/
theorem maximum_top_level_multisets_count (N : Nat) (hN : (N + 1) * (N + 2) < 2 ^ 64) :
    maximum_top_level_multisets N = (N + 1) * (N + 2) / 2
      ∧ maximum_top_level_multisets N = (N + 2).choose 2
      ∧ maximum_top_level_multisets N = (multisets_of_size N).length
      ∧ (∀ m, m ∈ multisets_of_size N ↔ m.neg + m.neut + m.pos = N)
      ∧ (multisets_of_size N).Nodup
      ∧ ∀ (nxt : next_extremal_op) (inner_fuel outer_fuel : Nat) (g g1 : ground_state_space)
          (res : ground_state_space_result), g.top_cluster.size = N →
          g.run nxt inner_fuel outer_fuel = some (g1, res) →
          res.maximum_top_level_multisets = (N + 1) * (N + 2) / 2 := by
  have h0 := maximum_top_level_multisets_small N hN
  refine ⟨h0, ?_, ?_, mem_multisets_of_size N, multisets_of_size_nodup N, ?_⟩
  · rw [h0, Nat.choose_two_right]
    show _ = (N + 2) * (N + 1) / 2
    rw [Nat.mul_comm]
  · rw [h0, multisets_of_size_length]
  · intro nxt fi fo g g1 res hsize hrun
    obtain ⟨-, -, -, hmax, -⟩ := run_record nxt fi fo g g1 res hrun
    rw [hmax, hsize, h0]

/-- C14 (witness): a single site. The function returns 3, and the run on `single_leaf_state`
returns a record with `maximum_top_level_multisets = 3`. -/
theorem maximum_top_level_multisets_count_witness :
    (1 + 1) * (1 + 2) < 2 ^ 64
      ∧ maximum_top_level_multisets 1 = 3
      ∧ (multisets_of_size 1).length = 3
      ∧ ∃ g1 res, single_leaf_state.run potential_projection_order.get_next 2 2
            = some (g1, res)
          ∧ res.maximum_top_level_multisets = (1 + 1) * (1 + 2) / 2 :=
  ⟨by norm_num, (maximum_top_level_multisets_count 1 (by norm_num)).1,
    by decide,
    _, _, rfl,
    (maximum_top_level_multisets_count 1 (by norm_num)).2.2.2.2.2
      potential_projection_order.get_next 2 2 single_leaf_state _ _ rfl rfl⟩

/-! ### Idempotence of pruning -/

/-- C12: idempotence of pruning. If `update_charge_spaces` reports a fixpoint, the state after
the call is the state before it (no charge space, projection store or received bound has
changed), and the call repeated on that state reports a fixpoint again and returns the same
state. -/
theorem update_charge_spaces_idempotent (nxt : next_extremal_op) (gss g1 : ground_state_space)
    (skip_cluster : Option Nat)
    (h : gss.update_charge_spaces nxt skip_cluster = some (true, g1)) :
    g1 = gss ∧ g1.update_charge_spaces nxt skip_cluster = some (true, g1) := by
  obtain ⟨-, hg, -⟩ := update_charge_spaces_loop_true nxt skip_cluster _ _ _ _ h
  subst hg
  exact ⟨rfl, h⟩

/-- C12 (witness): `two_leaf_state` with the charge spaces `{neg, neut}` and `{neut}` is at a
fixpoint. -/
theorem update_charge_spaces_idempotent_witness :
    (two_leaf_state [⟨neg1, []⟩, ⟨neut1, []⟩] [⟨neut1, []⟩]).update_charge_spaces
        potential_projection_order.get_next none
      = some (true, two_leaf_state [⟨neg1, []⟩, ⟨neut1, []⟩] [⟨neut1, []⟩])
    ∧ (two_leaf_state [⟨neg1, []⟩, ⟨neut1, []⟩] [⟨neut1, []⟩]).update_charge_spaces
        potential_projection_order.get_next none
      = some (true, two_leaf_state [⟨neg1, []⟩, ⟨neut1, []⟩] [⟨neut1, []⟩]) :=
  ⟨rfl, (update_charge_spaces_idempotent potential_projection_order.get_next
    (two_leaf_state [⟨neg1, []⟩, ⟨neut1, []⟩] [⟨neut1, []⟩])
    (two_leaf_state [⟨neg1, []⟩, ⟨neut1, []⟩] [⟨neut1, []⟩]) none rfl).2⟩

/-! ### Cardinality test and size cutoff -/

theorem classify_site_counts (mu : Pot × Pot × Pot × Pot) (i : Nat) (lb ub : Pot)
    (st : witness_partitioning_state) :
    (classify_site mu i lb ub st).required_neg_count = st.required_neg_count
      ∧ (classify_site mu i lb ub st).required_pos_count = st.required_pos_count
      ∧ (classify_site mu i lb ub st).required_neut_count = st.required_neut_count := by
  unfold classify_site
  dsimp only
  split_ifs <;> exact ⟨rfl, rfl, rfl⟩

theorem collect_witnesses_counts (mu : Pot × Pot × Pot × Pot)
    (bounds : Nat → Option (Pot × Pot)) :
    ∀ (sidbs : List Nat) (st st1 : witness_partitioning_state),
      collect_witnesses mu bounds sidbs st = some st1 →
      st1.required_neg_count = st.required_neg_count
        ∧ st1.required_pos_count = st.required_pos_count
        ∧ st1.required_neut_count = st.required_neut_count := by
  intro sidbs
  induction sidbs with
  | nil =>
    intro st st1 h
    simp only [collect_witnesses, Option.some.injEq] at h
    subst h
    exact ⟨rfl, rfl, rfl⟩
  | cons i rest ih =>
    intro st st1 h
    unfold collect_witnesses at h
    split at h
    · simp at h
    · rename_i lb ub _
      obtain ⟨h1, h2, h3⟩ := ih _ _ h
      obtain ⟨k1, k2, k3⟩ := classify_site_counts mu i lb ub st
      exact ⟨h1.trans k1, h2.trans k2, h3.trans k3⟩

/-- C17: the cardinality test. When the witness sets collected for the multiset
`(n-, n0, n+)` satisfy `|W-| < n-` or `|W+| < n+` or `|W0| < n0`, the method
`perform_potential_bound_analysis` returns false, in either mode, for every cluster and every
threshold. -/
theorem cardinality_test_rejects (gss : ground_state_space)
    (mode : potential_bound_analysis_mode) (c : sidb_cluster) (m : multiset_conf)
    (internal_potential_bounds : Option intra_cluster_potential_bounds)
    (st : witness_partitioning_state)
    (hst : collect_witnesses gss.mu_bounds_with_error
      (gss.get_received_potential_bounds mode c m internal_potential_bounds) c.sidbs
      (witness_partitioning_state.init m) = some st)
    (hcard : st.negative_witnesses.length < m.neg ∨ st.positive_witnesses.length < m.pos
      ∨ st.neutral_witnesses.length < m.neut) :
    gss.perform_potential_bound_analysis mode c m internal_potential_bounds = some false := by
  obtain ⟨h1, h2, h3⟩ := collect_witnesses_counts _ _ _ _ _ hst
  unfold perform_potential_bound_analysis perform_potential_bound_analysis_on
  rw [hst]
  simp only [decide_witness_state]
  rw [if_pos]
  rw [h1, h2, h3]
  exact hcard

/-- C17 (witness): in `two_leaf_state` the second cluster receives at least `0.33` at its site,
no site witnesses the negative state, and the multiset `(1, 0, 0)` is rejected. -/
theorem cardinality_test_rejects_witness :
    collect_witnesses (two_leaf_state [⟨neg1, []⟩, ⟨neut1, []⟩] [⟨neg1, []⟩, ⟨neut1, []⟩]
          ).mu_bounds_with_error
        ((two_leaf_state [⟨neg1, []⟩, ⟨neut1, []⟩] [⟨neg1, []⟩, ⟨neut1, []⟩]
          ).get_received_potential_bounds .ANALYZE_MULTISET (.leaf 1 [1]) neg1 none)
        (sidb_cluster.leaf 1 [1]).sidbs (witness_partitioning_state.init neg1)
      = some ⟨[], [], [], 1, 0, 0⟩
    ∧ (two_leaf_state [⟨neg1, []⟩, ⟨neut1, []⟩] [⟨neg1, []⟩, ⟨neut1, []⟩]
        ).perform_potential_bound_analysis .ANALYZE_MULTISET (.leaf 1 [1]) neg1 none
      = some false :=
  ⟨rfl, cardinality_test_rejects
    (two_leaf_state [⟨neg1, []⟩, ⟨neut1, []⟩] [⟨neg1, []⟩, ⟨neut1, []⟩])
    .ANALYZE_MULTISET (.leaf 1 [1]) neg1 none ⟨[], [], [], 1, 0, 0⟩ rfl
    (Or.inl (by decide))⟩

/-- C18: the size cutoff. For a cluster with more sites than the threshold
`witness_partitioning_max_cluster_size`, the analysis returns true exactly when the collected
witness sets satisfy `|W-| >= n-`, `|W+| >= n+` and `|W0| >= n0`, and it returns false
otherwise: the result is the outcome of the cardinality test and no partition search is run. For
a cluster with at most as many sites as the threshold, in particular with exactly as many, that
passes the cardinality test, the result is that of the partition test. The default threshold of
the function `ground_state_space` is 6. -/
theorem size_cutoff (gss : ground_state_space)
    (mode : potential_bound_analysis_mode) (c : sidb_cluster) (m : multiset_conf)
    (internal_potential_bounds : Option intra_cluster_potential_bounds)
    (st : witness_partitioning_state)
    (hst : collect_witnesses gss.mu_bounds_with_error
      (gss.get_received_potential_bounds mode c m internal_potential_bounds) c.sidbs
      (witness_partitioning_state.init m) = some st) :
    (c.size > gss.witness_partitioning_max_cluster_size →
        gss.perform_potential_bound_analysis mode c m internal_potential_bounds
          = some (decide (st.negative_witnesses.length ≥ m.neg
              ∧ st.positive_witnesses.length ≥ m.pos ∧ st.neutral_witnesses.length ≥ m.neut)))
      ∧ (c.size ≤ gss.witness_partitioning_max_cluster_size →
          st.negative_witnesses.length ≥ m.neg → st.positive_witnesses.length ≥ m.pos →
          st.neutral_witnesses.length ≥ m.neut →
          gss.perform_potential_bound_analysis mode c m internal_potential_bounds
            = partition_test st)
      ∧ default_max_cluster_size_for_witness_partitioning = 6 := by
  obtain ⟨h1, h2, h3⟩ := collect_witnesses_counts _ _ _ _ _ hst
  simp only [witness_partitioning_state.init] at h1 h2 h3
  refine ⟨?_, ?_, rfl⟩
  · intro hsize
    unfold sidb_cluster.size at hsize
    unfold perform_potential_bound_analysis perform_potential_bound_analysis_on
    rw [hst]
    simp only [decide_witness_state]
    rw [h1, h2, h3]
    by_cases hcard : st.negative_witnesses.length < m.neg
        ∨ st.positive_witnesses.length < m.pos ∨ st.neutral_witnesses.length < m.neut
    · rw [if_pos hcard]
      have : ¬ (st.negative_witnesses.length ≥ m.neg
          ∧ st.positive_witnesses.length ≥ m.pos ∧ st.neutral_witnesses.length ≥ m.neut) := by
        omega
      simp [this]
    · rw [if_neg hcard, if_pos hsize]
      have : st.negative_witnesses.length ≥ m.neg
          ∧ st.positive_witnesses.length ≥ m.pos ∧ st.neutral_witnesses.length ≥ m.neut := by
        omega
      simp [this]
  · intro hsize k1 k2 k3
    unfold perform_potential_bound_analysis perform_potential_bound_analysis_on
    rw [hst]
    simp only [decide_witness_state]
    rw [h1, h2, h3]
    have hcard : ¬ (st.negative_witnesses.length < m.neg
        ∨ st.positive_witnesses.length < m.pos ∨ st.neutral_witnesses.length < m.neut) := by
      omega
    rw [if_neg hcard, if_neg (by unfold sidb_cluster.size at hsize; omega)]
    rfl

/-- C18 (witness): with threshold 0 the single-site cluster of `two_leaf_state` is above the
threshold and the multiset `(0, 1, 0)` is accepted on the cardinality test; with threshold 6 the
result is that of the partition test. -/
theorem size_cutoff_witness :
    ({ two_leaf_state [⟨neg1, []⟩, ⟨neut1, []⟩] [⟨neut1, []⟩] with
          witness_partitioning_max_cluster_size := 0 } :
        ground_state_space).perform_potential_bound_analysis
        .ANALYZE_MULTISET (.leaf 0 [0]) neut1 none = some true
    ∧ (two_leaf_state [⟨neg1, []⟩, ⟨neut1, []⟩] [⟨neut1, []⟩]).perform_potential_bound_analysis
        .ANALYZE_MULTISET (.leaf 0 [0]) neut1 none = partition_test ⟨[], [], [0], 0, 0, 1⟩ :=
  ⟨((size_cutoff
      { two_leaf_state [⟨neg1, []⟩, ⟨neut1, []⟩] [⟨neut1, []⟩] with
        witness_partitioning_max_cluster_size := 0 }
      .ANALYZE_MULTISET (.leaf 0 [0]) neut1 none ⟨[], [], [0], 0, 0, 1⟩ rfl).1
      (by decide)).trans rfl,
    (size_cutoff (two_leaf_state [⟨neg1, []⟩, ⟨neut1, []⟩] [⟨neut1, []⟩])
      .ANALYZE_MULTISET (.leaf 0 [0]) neut1 none ⟨[], [], [0], 0, 0, 1⟩ rfl).2.1
      (by decide) (by decide) (by decide) (by decide)⟩


/-! ### Charge spaces under pruning -/

theorem rejected_when_tested_cons (nxt : next_extremal_op) (c : sidb_cluster)
    (g : ground_state_space) (e : sidb_cluster_charge_state)
    (rest : List sidb_cluster_charge_state) (x : multiset_conf) :
    rejected_when_tested nxt c g (e :: rest) x ↔
      (g.perform_potential_bound_analysis .ANALYZE_MULTISET c e.multiset none = some true
          ∧ rejected_when_tested nxt c g rest x)
        ∨ (g.perform_potential_bound_analysis .ANALYZE_MULTISET c e.multiset none = some false
          ∧ (x = e.multiset ∨ ∃ g1, g.handle_invalid_state nxt c e.multiset = some g1
              ∧ rejected_when_tested nxt c g1 rest x)) := by
  constructor
  · intro h
    cases h with
    | here _ _ _ h1 => exact Or.inr ⟨h1, Or.inl rfl⟩
    | after_accepted _ _ _ _ h1 h2 => exact Or.inl ⟨h1, h2⟩
    | after_rejected _ g1 _ _ _ h1 h2 h3 => exact Or.inr ⟨h1, Or.inr ⟨g1, h2, h3⟩⟩
  · rintro (⟨h1, h2⟩ | ⟨h1, rfl | ⟨g1, h2, h3⟩⟩)
    · exact rejected_when_tested.after_accepted g e rest x h1 h2
    · exact rejected_when_tested.here g e rest h1
    · exact rejected_when_tested.after_rejected g g1 e rest x h1 h2 h3

theorem rejected_when_tested_nil (nxt : next_extremal_op) (c : sidb_cluster)
    (g : ground_state_space) (x : multiset_conf) : ¬ rejected_when_tested nxt c g [] x := by
  intro h
  cases h

theorem rejected_when_tested_mem (nxt : next_extremal_op) (c : sidb_cluster) :
    ∀ (cs : List sidb_cluster_charge_state) (g : ground_state_space) (x : multiset_conf),
      rejected_when_tested nxt c g cs x → x ∈ cs.map (fun e => e.multiset) := by
  intro cs g x h
  induction h with
  | here g e rest _ => simp
  | after_accepted g e rest x _ _ ih => exact List.mem_cons_of_mem _ ih
  | after_rejected g g1 e rest x _ _ _ ih => exact List.mem_cons_of_mem _ ih

/-- The first loop of `check_charge_space`: the collected multisets are those rejected when
tested, the flag stays true exactly when none is rejected, and the charge spaces are kept. -/
theorem check_charge_space_loop_spec (nxt : next_extremal_op) (c : sidb_cluster) :
    ∀ (cs : List sidb_cluster_charge_state) (g : ground_state_space)
      (removed_ms : List multiset_conf) (fixpoint : Bool) (g1 : ground_state_space)
      (removed1 : List multiset_conf) (fixpoint1 : Bool),
      for_each (check_charge_space_step nxt c) cs (g, removed_ms, fixpoint)
        = some (g1, removed1, fixpoint1) →
      (∀ x, x ∈ removed1 ↔ x ∈ removed_ms ∨ rejected_when_tested nxt c g cs x)
        ∧ (fixpoint1 = true ↔ fixpoint = true ∧ ∀ x, ¬ rejected_when_tested nxt c g cs x)
        ∧ same_charge_spaces g g1 := by
  intro cs
  induction cs with
  | nil =>
    intro g removed_ms fixpoint g1 removed1 fixpoint1 h
    simp only [for_each, Option.some.injEq, Prod.mk.injEq] at h
    obtain ⟨h1, h2, h3⟩ := h
    subst h1 h2 h3
    refine ⟨fun x => ?_, ?_, same_charge_spaces_refl _⟩
    · simp [rejected_when_tested_nil]
    · simp [rejected_when_tested_nil]
  | cons e rest ih =>
    intro g removed_ms fixpoint g1 removed1 fixpoint1 h
    obtain ⟨s1, hs1, hrest⟩ := for_each_cons_some h
    unfold check_charge_space_step at hs1
    simp only at hs1
    cases hA : g.perform_potential_bound_analysis .ANALYZE_MULTISET c e.multiset none with
    | none => rw [hA] at hs1; simp at hs1
    | some b =>
      rw [hA] at hs1
      cases b with
      | true =>
        simp only [Option.some.injEq] at hs1
        subst hs1
        obtain ⟨k1, k2, k3⟩ := ih g removed_ms fixpoint g1 removed1 fixpoint1 hrest
        refine ⟨fun x => ?_, ?_, k3⟩
        · rw [k1 x, rejected_when_tested_cons, hA]
          simp
        · rw [k2]
          simp only [rejected_when_tested_cons, hA]
          simp
      | false =>
        simp only at hs1
        cases hH : g.handle_invalid_state nxt c e.multiset with
        | none => rw [hH] at hs1; simp at hs1
        | some g2 =>
          rw [hH] at hs1
          simp only [Option.some.injEq] at hs1
          subst hs1
          obtain ⟨k1, k2, k3⟩ := ih g2 _ false g1 removed1 fixpoint1 hrest
          refine ⟨fun x => ?_, ?_,
            same_charge_spaces_trans _ _ _
              (same_charge_spaces_handle_invalid_state nxt _ _ _ _ hH) k3⟩
          · rw [k1 x, rejected_when_tested_cons, hA, hH]
            simp only [List.mem_append, List.mem_singleton, Option.some.injEq, false_and,
              false_or, true_and, exists_eq_left', reduceCtorEq]
            tauto
          · rw [k2]
            simp only [Bool.false_eq_true, false_and, false_iff, not_and, not_forall,
              Classical.not_not]
            intro _
            exact ⟨e.multiset, rejected_when_tested.here g e rest hA⟩

/-- The effect of `check_charge_space` on the charge space of the checked cluster. -/
theorem check_charge_space_spec (nxt : next_extremal_op) (g g1 : ground_state_space)
    (c : sidb_cluster) (r : Bool) (h : check_charge_space nxt g c = some (r, g1)) :
    (g1.data c.uid).charge_space.Sublist (g.data c.uid).charge_space
      ∧ (∀ e ∈ (g.data c.uid).charge_space, e ∉ (g1.data c.uid).charge_space ↔
          ((g.data c.uid).charge_space.length ≠ 1
            ∧ rejected_when_tested nxt c g (g.data c.uid).charge_space e.multiset))
      ∧ (r = true ↔ (g1.data c.uid).charge_space = (g.data c.uid).charge_space)
      ∧ (r = false →
          (g1.data c.uid).charge_space.length < (g.data c.uid).charge_space.length) := by
  unfold check_charge_space at h
  split at h
  · rename_i hlen
    simp only [Option.some.injEq, Prod.mk.injEq] at h
    obtain ⟨h1, h2⟩ := h
    subst h1 h2
    refine ⟨List.Sublist.refl _, fun e he => ?_, by simp, by simp⟩
    constructor
    · intro hn; exact absurd he hn
    · intro hn; exact absurd hlen hn.1
  · rename_i hlen
    split at h
    · simp at h
    · rename_i g2 removed_ms fixpoint hL
      simp only [Option.some.injEq, Prod.mk.injEq] at h
      obtain ⟨h1, h2⟩ := h
      subst h1 h2
      obtain ⟨k1, k2, k3⟩ := check_charge_space_loop_spec nxt c _ _ _ _ _ _ _ hL
      have hcs : ((erase_removed c removed_ms g2).data c.uid).charge_space
          = (g.data c.uid).charge_space.filter (fun e => decide (e.multiset ∉ removed_ms)) := by
        rw [erase_removed_charge_space, k3 c.uid]
      rw [hcs]
      have hmem : ∀ x, x ∈ removed_ms ↔
          rejected_when_tested nxt c g (g.data c.uid).charge_space x := by
        intro x
        rw [k1 x]
        simp
      have hfp : fixpoint = true ↔
          ∀ x, ¬ rejected_when_tested nxt c g (g.data c.uid).charge_space x := by
        rw [k2]
        simp
      refine ⟨List.filter_sublist _, fun e he => ?_, ?_, ?_⟩
      · rw [List.mem_filter]
        simp only [he, true_and, decide_eq_true_eq, not_not, hmem]
        constructor
        · intro hr; exact ⟨hlen, hr⟩
        · intro hr; exact hr.2
      · rw [hfp]
        constructor
        · intro hno
          apply List.filter_eq_self.mpr
          intro e _
          simp only [decide_eq_true_eq, hmem]
          exact hno _
        · intro heq x hx
          obtain ⟨e, he, rfl⟩ := List.mem_map.mp (rejected_when_tested_mem nxt c _ _ _ hx)
          have := List.filter_eq_self.mp heq e he
          simp only [decide_eq_true_eq, hmem] at this
          exact this hx
      · intro hf
        have hnot : ¬ (∀ x, ¬ rejected_when_tested nxt c g (g.data c.uid).charge_space x) := by
          rw [← hfp, hf]
          simp
        simp only [not_forall, not_not] at hnot
        obtain ⟨x, hx⟩ := hnot
        obtain ⟨e, he, rfl⟩ := List.mem_map.mp (rejected_when_tested_mem nxt c _ _ _ hx)
        have hle := List.length_filter_le (fun e => decide (e.multiset ∉ removed_ms))
          (g.data c.uid).charge_space
        rcases Nat.lt_or_ge
          ((g.data c.uid).charge_space.filter
            (fun e => decide (e.multiset ∉ removed_ms))).length
          (g.data c.uid).charge_space.length with hlt | hge
        · exact hlt
        · exfalso
          have heq := List.Sublist.eq_of_length_le (List.filter_sublist _) hge
          have := List.filter_eq_self.mp heq e he
          simp only [decide_eq_true_eq, hmem] at this
          exact this hx


theorem update_charge_spaces_step_state (nxt : next_extremal_op) (skip_cluster : Option Nat)
    (g : ground_state_space) (c : sidb_cluster) (a a1 b b1 : Bool) (g1 g2 : ground_state_space)
    (h1 : update_charge_spaces_step nxt skip_cluster (a, g) c = some (a1, g1))
    (h2 : update_charge_spaces_step nxt skip_cluster (b, g) c = some (b1, g2)) : g2 = g1 := by
  unfold update_charge_spaces_step at h1 h2
  simp only at h1 h2
  split at h1
  · rename_i hc
    rw [if_pos hc] at h2
    cases hC : check_charge_space nxt g c with
    | none => rw [hC] at h1; simp at h1
    | some res =>
      rw [hC] at h1 h2
      simp only [Option.some.injEq, Prod.mk.injEq] at h1 h2
      rw [← h1.2, ← h2.2]
  · rename_i hc
    rw [if_neg hc] at h2
    simp only [Option.some.injEq, Prod.mk.injEq] at h1 h2
    rw [← h1.2, ← h2.2]

theorem rejected_in_pass_nil (nxt : next_extremal_op) (skip_cluster : Option Nat)
    (g : ground_state_space) (u : Nat) (x : multiset_conf) :
    ¬ rejected_in_pass nxt skip_cluster g [] u x := by
  intro h
  cases h

theorem rejected_in_pass_cons (nxt : next_extremal_op) (skip_cluster : Option Nat)
    (g g1 : ground_state_space) (c : sidb_cluster) (rest : List sidb_cluster)
    (fixpoint fixpoint1 : Bool) (u : Nat) (x : multiset_conf)
    (hstep : update_charge_spaces_step nxt skip_cluster (fixpoint, g) c
      = some (fixpoint1, g1)) :
    rejected_in_pass nxt skip_cluster g (c :: rest) u x ↔
      (u = c.uid ∧ (skip_cluster = none ∨ skip_cluster ≠ some c.uid)
          ∧ (g.data c.uid).charge_space.length ≠ 1
          ∧ rejected_when_tested nxt c g (g.data c.uid).charge_space x)
        ∨ rejected_in_pass nxt skip_cluster g1 rest u x := by
  constructor
  · intro h
    cases h with
    | here _ _ _ _ h1 h2 h3 => exact Or.inl ⟨rfl, h1, h2, h3⟩
    | later _ g2 _ _ fp fp1 _ _ h1 h2 =>
      have := update_charge_spaces_step_state nxt skip_cluster g c _ _ _ _ _ _ hstep h1
      subst this
      exact Or.inr h2
  · rintro (⟨rfl, h1, h2, h3⟩ | h)
    · exact rejected_in_pass.here g c rest x h1 h2 h3
    · exact rejected_in_pass.later g g1 c rest fixpoint fixpoint1 u x hstep h

/-- The loop of `update_charge_spaces`: every charge space is a sublist of what it was, the
elements that are gone are those rejected when tested, and the flag stays true exactly when it
was true and no charge space has changed. -/
theorem update_charge_spaces_loop_spec (nxt : next_extremal_op) (skip_cluster : Option Nat) :
    ∀ (cl : List sidb_cluster) (g : ground_state_space) (fixpoint : Bool)
      (g1 : ground_state_space) (fixpoint1 : Bool),
      for_each (update_charge_spaces_step nxt skip_cluster) cl (fixpoint, g)
        = some (fixpoint1, g1) →
      (∀ u, (g1.data u).charge_space.Sublist (g.data u).charge_space)
        ∧ (∀ u, ∀ e ∈ (g.data u).charge_space, e ∉ (g1.data u).charge_space ↔
            rejected_in_pass nxt skip_cluster g cl u e.multiset)
        ∧ (fixpoint1 = true ↔
            fixpoint = true ∧ ∀ u, (g1.data u).charge_space = (g.data u).charge_space)
        ∧ (fixpoint1 = false → fixpoint = false
            ∨ ∃ c ∈ cl, (g1.data c.uid).charge_space.length
                < (g.data c.uid).charge_space.length) := by
  intro cl
  induction cl with
  | nil =>
    intro g fixpoint g1 fixpoint1 h
    simp only [for_each, Option.some.injEq, Prod.mk.injEq] at h
    obtain ⟨h1, h2⟩ := h
    subst h1 h2
    refine ⟨fun _ => List.Sublist.refl _, fun u e he => ?_, by simp, fun hf => Or.inl hf⟩
    constructor
    · intro hn; exact absurd he hn
    · intro hr; exact absurd hr (rejected_in_pass_nil _ _ _ _ _)
  | cons c rest ih =>
    intro g fixpoint g1 fixpoint1 h
    obtain ⟨s1, hs1, hrest⟩ := for_each_cons_some h
    obtain ⟨fp2, g2⟩ := s1
    obtain ⟨i1, i2, i3, i4⟩ := ih g2 fp2 g1 fixpoint1 hrest
    have hinv := fun u x => rejected_in_pass_cons nxt skip_cluster g g2 c rest fixpoint fp2 u x hs1
    by_cases hskip : skip_cluster = none ∨ skip_cluster ≠ some c.uid
    · have hs2 := hs1
      unfold update_charge_spaces_step at hs2
      simp only at hs2
      rw [if_pos hskip] at hs2
      cases hC : check_charge_space nxt g c with
      | none => rw [hC] at hs2; simp at hs2
      | some res =>
        obtain ⟨r, g3⟩ := res
        rw [hC] at hs2
        simp only [Option.some.injEq, Prod.mk.injEq] at hs2
        obtain ⟨hfp, hg⟩ := hs2
        subst hg
        obtain ⟨c1, c2, c3, c4⟩ := check_charge_space_spec nxt g g3 c r hC
        have hother := check_charge_space_charge_space_other nxt g g3 c r hC
        have hsub : ∀ u, (g3.data u).charge_space.Sublist (g.data u).charge_space := by
          intro u
          by_cases hu : u = c.uid
          · subst hu; exact c1
          · rw [hother u hu]
        refine ⟨fun u => (i1 u).trans (hsub u), fun u e he => ?_, ?_, ?_⟩
        · rw [hinv u e.multiset]
          constructor
          · intro hn
            by_cases he3 : e ∈ (g3.data u).charge_space
            · exact Or.inr ((i2 u e he3).mp hn)
            · left
              have hu : u = c.uid := by
                by_contra hu
                rw [hother u hu] at he3
                exact he3 he
              subst hu
              obtain ⟨k1, k2⟩ := (c2 e he).mp he3
              exact ⟨rfl, hskip, k1, k2⟩
          · rintro (⟨rfl, -, k1, k2⟩ | hr) hmem
            · exact (c2 e he).mpr ⟨k1, k2⟩ ((i1 _).subset hmem)
            · have he3 : e ∈ (g3.data u).charge_space := (i1 u).subset hmem
              exact (i2 u e he3).mpr hr hmem
        · rw [i3, ← hfp]
          simp only [Bool.and_eq_true]
          constructor
          · rintro ⟨⟨k1, k2⟩, k3⟩
            refine ⟨k1, fun u => ?_⟩
            rw [k3 u]
            by_cases hu : u = c.uid
            · subst hu; exact c3.mp k2
            · exact hother u hu
          · rintro ⟨k1, k2⟩
            have h3 : ∀ u, (g3.data u).charge_space = (g.data u).charge_space := by
              intro u
              have s1 := i1 u
              rw [k2 u] at s1
              exact List.Sublist.antisymm (hsub u) s1
            refine ⟨⟨k1, c3.mpr (h3 c.uid)⟩, fun u => ?_⟩
            rw [k2 u, h3 u]
        · intro hf
          rcases i4 hf with k | ⟨c', hc', hlt⟩
          · rw [← hfp] at k
            simp only [Bool.and_eq_false_iff] at k
            rcases k with k | k
            · exact Or.inl k
            · right
              refine ⟨c, List.mem_cons_self _ _, ?_⟩
              have := (i1 c.uid).length_le
              have := c4 k
              omega
          · right
            refine ⟨c', List.mem_cons_of_mem _ hc', ?_⟩
            have := (hsub c'.uid).length_le
            omega
    · have hs2 := hs1
      unfold update_charge_spaces_step at hs2
      simp only at hs2
      rw [if_neg hskip] at hs2
      simp only [Option.some.injEq, Prod.mk.injEq] at hs2
      obtain ⟨hfp, hg⟩ := hs2
      subst hfp hg
      refine ⟨i1, fun u e he => ?_, i3, ?_⟩
      · rw [hinv u e.multiset, i2 u e he]
        constructor
        · intro hr; exact Or.inr hr
        · rintro (⟨-, k, -⟩ | hr)
          · exact absurd k hskip
          · exact hr
      · intro hf
        rcases i4 hf with k | ⟨c', hc', hlt⟩
        · exact Or.inl k
        · exact Or.inr ⟨c', List.mem_cons_of_mem _ hc', hlt⟩

/-- C20: charge spaces only shrink under pruning. After `update_charge_spaces(skip)` the charge
space of every cluster is a sublist of its charge space before the call, an element of a charge
space is gone exactly when its multiset was rejected by the multiset bound analysis at the time
the pass tested it, and the call returns true exactly when no charge space has changed. -/
theorem charge_spaces_shrink_under_pruning (nxt : next_extremal_op)
    (g g1 : ground_state_space) (skip_cluster : Option Nat) (r : Bool)
    (h : g.update_charge_spaces nxt skip_cluster = some (r, g1)) :
    (∀ u, (g1.data u).charge_space.Sublist (g.data u).charge_space)
      ∧ (∀ u, ∀ e ∈ (g.data u).charge_space, e ∉ (g1.data u).charge_space ↔
          rejected_in_pass nxt skip_cluster g g.clustering u e.multiset)
      ∧ (r = true ↔ ∀ u, (g1.data u).charge_space = (g.data u).charge_space) := by
  obtain ⟨k1, k2, k3, -⟩ := update_charge_spaces_loop_spec nxt skip_cluster _ _ _ _ _ h
  refine ⟨k1, k2, ?_⟩
  rw [k3]
  simp

/-- C20 (witness): one pass on `two_leaf_state` with both charge spaces `{neg, neut}` returns
false and removes `neg` from the second charge space, which the pass rejects when it tests it;
every charge space is a sublist of what it was. -/
theorem charge_spaces_shrink_under_pruning_witness :
    ∃ g1, (two_leaf_state [⟨neg1, []⟩, ⟨neut1, []⟩] [⟨neg1, []⟩, ⟨neut1, []⟩]
          ).update_charge_spaces potential_projection_order.get_next none = some (false, g1)
      ∧ (g1.data 0).charge_space = [⟨neg1, []⟩, ⟨neut1, []⟩]
      ∧ (g1.data 1).charge_space = [⟨neut1, []⟩]
      ∧ (∀ u, (g1.data u).charge_space.Sublist
          ((two_leaf_state [⟨neg1, []⟩, ⟨neut1, []⟩] [⟨neg1, []⟩, ⟨neut1, []⟩]).data
            u).charge_space)
      ∧ rejected_in_pass potential_projection_order.get_next none
          (two_leaf_state [⟨neg1, []⟩, ⟨neut1, []⟩] [⟨neg1, []⟩, ⟨neut1, []⟩])
          [.leaf 0 [0], .leaf 1 [1]] 1 neg1 :=
  ⟨_, rfl, rfl, rfl,
    (charge_spaces_shrink_under_pruning potential_projection_order.get_next
      (two_leaf_state [⟨neg1, []⟩, ⟨neut1, []⟩] [⟨neg1, []⟩, ⟨neut1, []⟩]) _ none false rfl).1,
    ((charge_spaces_shrink_under_pruning potential_projection_order.get_next
      (two_leaf_state [⟨neg1, []⟩, ⟨neut1, []⟩] [⟨neg1, []⟩, ⟨neut1, []⟩]) _ none false
      rfl).2.1 1 ⟨neg1, []⟩ (List.mem_cons_self _ _)).mp (by decide)⟩


/-! ### The size of the multisets -/

theorem multiset_conf.total_add (a b : multiset_conf) : (a.add b).total = a.total + b.total := by
  unfold multiset_conf.total multiset_conf.add
  simp only
  omega

/-- No frontier cluster lies in the subtree of another one. -/
theorem is_frontier_antichain {t : sidb_cluster} {cl : List sidb_cluster}
    (h : is_frontier t cl) : t.uids.Nodup → ∀ f ∈ cl, ∀ x ∈ cl, x ∈ f.nodes → x = f := by
  induction h with
  | self t =>
    intro _ f hf x hx _
    rw [List.mem_singleton.mp hf, List.mem_singleton.mp hx]
  | split u s l r cl_l cl_r cl hl hr hperm ihl ihr =>
    intro hu f hf x hx hxf
    rw [uids_node] at hu
    have hlr := (List.nodup_cons.mp hu).2
    have hdis := List.disjoint_of_nodup_append hlr
    have hf2 := List.mem_append.mp (hperm.subset hf)
    have hx2 := List.mem_append.mp (hperm.subset hx)
    rcases hf2 with hf2 | hf2 <;> rcases hx2 with hx2 | hx2
    · exact ihl (List.Nodup.of_append_left hlr) f hf2 x hx2 hxf
    · exfalso
      exact hdis (uid_mem_uids (nodes_trans l f x (is_frontier_mem_nodes hl f hf2) hxf))
        (uid_mem_uids (is_frontier_mem_nodes hr x hx2))
    · exfalso
      exact hdis (uid_mem_uids (is_frontier_mem_nodes hl x hx2))
        (uid_mem_uids (nodes_trans r f x (is_frontier_mem_nodes hr f hf2) hxf))
    · exact ihr (List.Nodup.of_append_right hlr) f hf2 x hx2 hxf

/-- A cluster with a child in the frontier lies in no subtree of a frontier cluster. -/
theorem parent_above_frontier {t : sidb_cluster} {cl : List sidb_cluster}
    (h : is_frontier t cl) (hu : t.uids.Nodup) (p ch : sidb_cluster) (hch : ch ∈ p.children)
    (hcl : ch ∈ cl) :
    ∀ f ∈ cl, p ∉ f.nodes := by
  intro f hf hpf
  have h1 : ch ∈ f.nodes := nodes_trans f p ch hpf (children_mem_nodes hch)
  have h2 := is_frontier_antichain h hu f hf ch hcl h1
  subst h2
  exact root_not_child hpf hch

theorem get_initial_clustering_node (u : Nat) (s : List Nat) (l r : sidb_cluster)
    (hw : (node u s l r).well_formed) (hu : (node u s l r).uids.Nodup) :
    get_initial_clustering (node u s l r)
      = get_initial_clustering l ++ get_initial_clustering r := by
  have hsz := size_node_of_well_formed hw
  have h1 := size_pos_of_well_formed l hw.1
  have h2 := size_pos_of_well_formed r hw.2.1
  have hne : ¬ (node u s l r).size = 1 := by omega
  have hu2 := hu
  rw [uids_node] at hu2
  have hlr := (List.nodup_cons.mp hu2).2
  have hl := is_frontier_initial l hw.1 (List.Nodup.of_append_left hlr)
  have hr := is_frontier_initial r hw.2.1 (List.Nodup.of_append_right hlr)
  rw [get_initial_clustering, if_neg hne]
  rw [foldl_emplace_cluster (get_initial_clustering l) [] (by simp)
    (is_frontier_uids_nodup hl (List.Nodup.of_append_left hlr))]
  rw [foldl_emplace_cluster (get_initial_clustering r) _ ?_
    (is_frontier_uids_nodup hr (List.Nodup.of_append_right hlr))]
  · simp
  · intro x hx c hc hcx
    simp only [List.nil_append] at hc
    exact (List.disjoint_of_nodup_append hlr) (uid_mem_uids (is_frontier_mem_nodes hl c hc))
      (hcx ▸ uid_mem_uids (is_frontier_mem_nodes hr x hx))

/-- Every leaf of a well-formed hierarchy with distinct uids is in the initial clustering. -/
theorem leaf_mem_get_initial_clustering : ∀ (t : sidb_cluster), t.well_formed →
    t.uids.Nodup → ∀ c ∈ t.nodes, c.children = [] → c ∈ get_initial_clustering t := by
  intro t
  induction t with
  | leaf u s =>
    intro hw _ c hc _
    simp only [nodes, List.mem_singleton] at hc
    subst hc
    simp only [well_formed] at hw
    simp [get_initial_clustering, size, sidbs, hw]
  | node u s l r ihl ihr =>
    intro hw hu c hc hch
    rw [get_initial_clustering_node u s l r hw hu]
    have hu2 := hu
    rw [uids_node] at hu2
    have hlr := (List.nodup_cons.mp hu2).2
    rcases mem_nodes_node.mp hc with rfl | hc | hc
    · simp [children] at hch
    · exact List.mem_append_left _ (ihl hw.1 (List.Nodup.of_append_left hlr) c hc hch)
    · exact List.mem_append_right _ (ihr hw.2.1 (List.Nodup.of_append_right hlr) c hc hch)

/-- The state after construction satisfies the invariant of the charge spaces. -/
theorem charge_space_invariant_of_after_construction (top : sidb_cluster)
    (hw : top.well_formed) (hu : top.uids.Nodup) (g : ground_state_space)
    (h : after_construction top g) : charge_space_invariant top g := by
  obtain ⟨h1, h2, h3, h4, h5⟩ := h
  refine ⟨h1, h2 ▸ is_frontier_initial top hw hu, ?_, ?_, h5⟩
  · intro c hc habove
    apply h3 c hc
    intro hch
    have := leaf_mem_get_initial_clustering top hw hu c hc hch
    rw [← h2] at this
    exact habove c this (self_mem_nodes c)
  · intro c hc e he
    by_cases hch : c.children = []
    · rw [h4 c hc hch e he]
      cases c with
      | leaf u s =>
        have := well_formed_of_mem top _ hw hc
        simp only [well_formed] at this
        simp [size, sidbs, this]
      | node u s l r => simp [children] at hch
    · rw [h3 c hc hch] at he
      simp at he

/-- A pruning pass keeps the invariant of the charge spaces. -/
theorem update_charge_spaces_charge_space_invariant (nxt : next_extremal_op)
    (top : sidb_cluster) (g g1 : ground_state_space) (skip_cluster : Option Nat) (r : Bool)
    (h : g.update_charge_spaces nxt skip_cluster = some (r, g1))
    (hJ : charge_space_invariant top g) : charge_space_invariant top g1 := by
  obtain ⟨j1, j2, j3, j4, j5⟩ := hJ
  obtain ⟨s1, s2, -⟩ := same_static_update_charge_spaces nxt _ _ _ _ h
  obtain ⟨k1, -⟩ := update_charge_spaces_loop_spec nxt skip_cluster _ _ _ _ _ h
  refine ⟨s1.trans j1, s2 ▸ j2, ?_, ?_, ?_⟩
  · intro c hc habove
    rw [s2] at habove
    have := k1 c.uid
    rw [j3 c hc habove] at this
    exact List.eq_nil_of_sublist_nil this
  · intro c hc e he
    exact j4 c hc e ((k1 c.uid).subset he)
  · intro c hc
    exact List.Nodup.sublist ((k1 c.uid).map _) (j5 c hc)

theorem merge_inv_mem (g0 g : ground_state_space) (pu : Nat) (l r : sidb_cluster)
    (done : List (multiset_conf × multiset_conf)) (h : merge_inv g0 pu l r done g) :
    ∀ e ∈ (g.data pu).charge_space, ∃ p ∈ done, e.multiset = p.1.add p.2 := by
  obtain ⟨-, -, hnd, hne, hview⟩ := h
  intro e he
  have h1 := hview e.multiset
  rw [compositions_of_self _ hnd e he] at h1
  have h2 : e.compositions.map (List.map sidb_cluster_state.key) ≠ [] := by
    simpa using hne e he
  rw [h1] at h2
  obtain ⟨k, hk⟩ := List.exists_mem_of_ne_nil _ h2
  obtain ⟨p, hp, -⟩ := List.mem_map.mp hk
  obtain ⟨hp1, hp2⟩ := List.mem_filter.mp hp
  obtain ⟨hp3, -⟩ := List.mem_filter.mp hp1
  exact ⟨p, hp3, (by simpa using hp2 : p.1.add p.2 = e.multiset).symm⟩

theorem mem_emplace_cluster_of_mem (p a : sidb_cluster) (cl : List sidb_cluster)
    (h : a ∈ cl) : a ∈ emplace_cluster p cl := by
  unfold emplace_cluster
  split
  · exact h
  · exact List.mem_append_left _ h

/-- The merge of the children of `p` keeps the invariant of the charge spaces. -/
theorem merge_up_charge_space_invariant (top : sidb_cluster) (hw : top.well_formed)
    (hu : top.uids.Nodup) (g g6 : ground_state_space) (p : sidb_cluster)
    (hp : p ∈ top.nodes) (hok : merge_step_ok top p g.clustering)
    (h : g.merge_up p = some g6) (hJ : charge_space_invariant top g) :
    charge_space_invariant top g6 := by
  obtain ⟨j1, j2, j3, j4, j5⟩ := hJ
  obtain ⟨hch, hch2, hfr, -⟩ := hok
  obtain ⟨m1, m2, -⟩ := merge_up_static _ _ _ h
  cases p with
  | leaf pu ps => simp [children] at hch2
  | node pu ps l r =>
    have hl : l ∈ g.clustering := hch l (by simp [children])
    have hr : r ∈ g.clustering := hch r (by simp [children])
    have hln : l ∈ top.nodes := is_frontier_mem_nodes j2 l hl
    have hrn : r ∈ top.nodes := is_frontier_mem_nodes j2 r hr
    have habove := parent_above_frontier j2 hu (node pu ps l r) l (by simp [children]) hl
    have hempty : (g.data pu).charge_space = [] := j3 _ hp habove
    have hruid : r.uid ≠ pu := by
      intro hcu
      have hcp := eq_of_uid_eq hu hrn hp hcu
      have hq : node pu ps l r ∈ r.nodes := by rw [← hcp]; exact self_mem_nodes r
      exact root_not_child hq (by simp [children])
    obtain ⟨g2, g3, c2, hinv, c3⟩ := merge_up_merge_inv g g6 pu ps l r hempty hruid h
    have hother : ∀ u, u ≠ pu → (g6.data u).charge_space = (g.data u).charge_space := by
      intro u hne
      rw [c3 u, hinv.2.1 u hne, c2 u]
    have hpcs : (g6.data pu).charge_space = (g3.data pu).charge_space := c3 pu
    have hpin : node pu ps l r ∈ g6.clustering := by
      rw [m2]
      unfold emplace_cluster
      split
      · rename_i hex
        obtain ⟨c, hc, hcu⟩ := hex
        have hcn : c ∈ top.nodes :=
          is_frontier_mem_nodes j2 c (mem_erase_children _ _ _ hc).1
        have hcp := eq_of_uid_eq hu hcn hp hcu
        subst hcp
        exact hc
      · simp
    refine ⟨m1.trans j1, ?_, ?_, ?_, ?_⟩
    · rw [m2]; exact hfr
    · intro c hc hab
      have hcp : c.uid ≠ pu := by
        intro hcu
        have := eq_of_uid_eq hu hc hp hcu
        subst this
        exact hab _ hpin (self_mem_nodes _)
      rw [hother c.uid hcp]
      apply j3 c hc
      intro f hf hcf
      by_cases hfc : ∀ ch ∈ (node pu ps l r).children, ch.uid ≠ f.uid
      · apply hab f _ hcf
        rw [m2]
        apply mem_emplace_cluster_of_mem
        unfold erase_children
        exact List.mem_filter.mpr ⟨hf, by simpa using hfc⟩
      · simp only [not_forall, not_not] at hfc
        obtain ⟨ch, hchm, hcu⟩ := hfc
        have hchn : ch ∈ top.nodes := is_frontier_mem_nodes j2 ch (hch ch hchm)
        have hfn : f ∈ top.nodes := is_frontier_mem_nodes j2 f hf
        have := eq_of_uid_eq hu hchn hfn hcu
        subst this
        exact hab _ hpin (nodes_trans _ _ _ (children_mem_nodes hchm) hcf)
    · intro c hc e he
      by_cases hcu : c.uid = pu
      · have := eq_of_uid_eq hu hc hp hcu
        subst this
        simp only [uid] at he
        rw [hpcs] at he
        obtain ⟨q, hq, hsum⟩ := merge_inv_mem _ _ _ _ _ _ hinv e he
        obtain ⟨ml, hml, mr, hmr, rfl⟩ := (mem_multiset_pairs _ _ q).mp hq
        rw [hsum, multiset_conf.total_add, j4 l hln ml hml, j4 r hrn mr hmr]
        exact (size_node_of_well_formed (well_formed_of_mem top _ hw hp)).symm
      · rw [hother c.uid hcu] at he
        exact j4 c hc e he
    · intro c hc
      by_cases hcu : c.uid = pu
      · rw [hcu, hpcs]
        exact hinv.2.2.1
      · rw [hother c.uid hcu]
        exact j5 c hc

/-- The method `move_up_hierarchy` keeps the invariant of the charge spaces. -/
theorem move_up_hierarchy_charge_space_invariant (nxt : next_extremal_op)
    (top : sidb_cluster) (hw : top.well_formed) (hu : top.uids.Nodup)
    (g g1 : ground_state_space) (h : g.move_up_hierarchy nxt = some g1)
    (hJ : charge_space_invariant top g) : charge_space_invariant top g1 := by
  have j1 := hJ.1
  have j2 := hJ.2.1
  unfold move_up_hierarchy at h
  split at h
  · simp only [Option.some.injEq] at h
    subst h
    exact hJ
  · rename_i hlen
    split at h
    · simp at h
    · rename_i p hsel
      split at h
      · simp at h
      · rename_i g6 hmerge
        cases hU : g6.update_charge_spaces nxt (some p.uid) with
        | none => rw [hU] at h; simp at h
        | some res =>
          obtain ⟨r, g7⟩ := res
          rw [hU] at h
          simp only [Option.map_some', Option.some.injEq] at h
          subst h
          obtain ⟨hp, hok⟩ := select_min_parent_spec g p (j1 ▸ hw) (j1 ▸ hu) (j1 ▸ j2) hlen hsel
          rw [j1] at hp hok
          exact update_charge_spaces_charge_space_invariant nxt top g6 g7 _ r hU
            (merge_up_charge_space_invariant top hw hu g g6 p hp hok hmerge hJ)

/-- The invariant of the charge spaces holds in every state of a run that starts in a state
after construction. -/
theorem charge_space_invariant_of_run_reaches (nxt : next_extremal_op) (top : sidb_cluster)
    (hw : top.well_formed) (hu : top.uids.Nodup) (g0 g : ground_state_space)
    (h0 : after_construction top g0) (hr : run_reaches nxt g0 g) :
    charge_space_invariant top g := by
  induction hr with
  | start => exact charge_space_invariant_of_after_construction top hw hu g0 h0
  | prune g g1 r _ hU ih =>
    exact update_charge_spaces_charge_space_invariant nxt top g g1 none r hU ih
  | move_up g g1 _ hM ih =>
    exact move_up_hierarchy_charge_space_invariant nxt top hw hu g g1 hM ih


theorem singleton_multiset_total (cs : sidb_charge_state) : (singleton_multiset cs).total = 1 := by
  cases cs <;> rfl

theorem singleton_multiset_injective : Function.Injective singleton_multiset := by
  intro a b h
  cases a <;> cases b <;> first | rfl | (exfalso; revert h; decide)

/-- The charge spaces of `initial_state` are those of a state after construction when the leaves
of the hierarchy carry the uids below `n` and the other clusters the uids from `n` on. -/
theorem after_construction_initial_state (n : Nat) (v : Nat → Nat → Pot)
    (mu : Pot × Pot × Pot × Pot) (T : Nat) (top : sidb_cluster)
    (hleaf : ∀ c ∈ top.nodes, c.children = [] → c.uid < n)
    (hnode : ∀ c ∈ top.nodes, c.children ≠ [] → n ≤ c.uid) :
    after_construction top (initial_state n v mu T top) := by
  refine ⟨rfl, rfl, ?_, ?_, ?_⟩
  · intro c hc hch
    have := hnode c hc hch
    simp only [initial_state]
    rw [if_neg (by omega)]
  · intro c hc hch e he
    have := hleaf c hc hch
    simp only [initial_state] at he
    rw [if_pos this] at he
    simp only [List.mem_map] at he
    obtain ⟨cs, -, rfl⟩ := he
    exact singleton_multiset_total cs
  · intro c hc
    simp only [initial_state]
    split
    · simp only [List.map_map]
      apply List.Nodup.map
      · intro a b hab
        exact singleton_multiset_injective hab
      · exact List.Nodup.filter _ (by decide)
    · simp

/-- C19: the size of the multisets. When the charge space of the parent is empty, as after
construction, and every multiset of the charge spaces of the two children counts the sites of
its child, whose sites make up those of the parent, every multiset of the charge space built by
`construct_merged_charge_state_space` counts the sites of the parent. In every state of a run
from a state after construction over a well-formed hierarchy with distinct uids, every multiset
of every charge space counts the sites of its cluster; the state `initial_state` is such a state
after construction. -/
theorem multiset_size_invariant (nxt : next_extremal_op) :
    (∀ (g g1 : ground_state_space) (pu : Nat) (ps : List Nat) (l r : sidb_cluster),
        (g.data pu).charge_space = [] → r.uid ≠ pu → ps.Perm (l.sidbs ++ r.sidbs) →
        (∀ e ∈ (g.data l.uid).charge_space, e.multiset.total = l.size) →
        (∀ e ∈ (g.data r.uid).charge_space, e.multiset.total = r.size) →
        g.construct_merged_charge_state_space (.node pu ps l r) = some g1 →
        ∀ e ∈ (g1.data pu).charge_space, e.multiset.total = (sidb_cluster.node pu ps l r).size)
      ∧ (∀ (top : sidb_cluster) (g0 g : ground_state_space), top.well_formed →
          top.uids.Nodup → after_construction top g0 → run_reaches nxt g0 g →
          charge_spaces_sized top g)
      ∧ ∀ (n : Nat) (v : Nat → Nat → Pot) (mu : Pot × Pot × Pot × Pot) (T : Nat)
          (top : sidb_cluster), (∀ c ∈ top.nodes, c.children = [] → c.uid < n) →
          (∀ c ∈ top.nodes, c.children ≠ [] → n ≤ c.uid) →
          after_construction top (initial_state n v mu T top) := by
  refine ⟨?_, ?_, ?_⟩
  · intro g g1 pu ps l r hempty hr hsites hl hrr h e he
    have hinv := construct_merged_inv g g1 pu ps l r hempty hr h
    obtain ⟨q, hq, hsum⟩ := merge_inv_mem _ _ _ _ _ _ hinv e he
    obtain ⟨ml, hml, mr, hmr, rfl⟩ := (mem_multiset_pairs _ _ q).mp hq
    rw [hsum, multiset_conf.total_add, hl ml hml, hrr mr hmr]
    show l.sidbs.length + r.sidbs.length = ps.length
    rw [hsites.length_eq, List.length_append]
  · intro top g0 g hw hu h0 hreach
    exact (charge_space_invariant_of_run_reaches nxt top hw hu g0 g h0 hreach).2.2.2.1
  · intro n v mu T top hleaf hnode
    exact after_construction_initial_state n v mu T top hleaf hnode

theorem after_construction_two_leaf_state :
    after_construction two_leaf_top
      (two_leaf_state [⟨neg1, []⟩, ⟨neut1, []⟩] [⟨neg1, []⟩, ⟨neut1, []⟩]) := by
  refine ⟨rfl, by decide, ?_, ?_, ?_⟩
  · intro c hc hch
    simp only [two_leaf_top, nodes, List.mem_cons, List.mem_append, List.mem_singleton,
      List.not_mem_nil, or_false] at hc
    rcases hc with rfl | rfl | rfl
    · rfl
    · simp [children] at hch
    · simp [children] at hch
  · intro c hc hch e he
    simp only [two_leaf_top, nodes, List.mem_cons, List.mem_append, List.mem_singleton,
      List.not_mem_nil, or_false] at hc
    rcases hc with rfl | rfl | rfl
    · simp [children] at hch
    · simp [two_leaf_state, two_leaf_data, uid] at he
      rcases he with rfl | rfl <;> rfl
    · simp [two_leaf_state, two_leaf_data, uid] at he
      rcases he with rfl | rfl <;> rfl
  · intro c hc
    simp only [two_leaf_top, nodes, List.mem_cons, List.mem_append, List.mem_singleton,
      List.not_mem_nil, or_false] at hc
    rcases hc with rfl | rfl | rfl <;> decide

/-- C19 (witness): the merge of the two leaves of `two_leaf_state` builds multisets that count
two sites, the state after `move_up_hierarchy` is a state of the run from `two_leaf_state`, and
the state `initial_state` of two sites is a state after construction. -/
theorem multiset_size_invariant_witness :
    (∃ g1, (two_leaf_state [⟨neg1, []⟩, ⟨neut1, []⟩] [⟨neg1, []⟩, ⟨neut1, []⟩]
          ).construct_merged_charge_state_space two_leaf_top = some g1
        ∧ (g1.data 2).charge_space.map (fun e => e.multiset) = [⟨1, 1, 0⟩, ⟨0, 2, 0⟩]
        ∧ ∀ e ∈ (g1.data 2).charge_space, e.multiset.total = two_leaf_top.size)
      ∧ (∃ g2, (two_leaf_state [⟨neg1, []⟩, ⟨neut1, []⟩] [⟨neg1, []⟩, ⟨neut1, []⟩]
          ).move_up_hierarchy potential_projection_order.get_next = some g2
        ∧ charge_spaces_sized two_leaf_top g2)
      ∧ after_construction two_leaf_top
          (initial_state 2 (fun _ _ => 400000) example_mu 6 two_leaf_top) :=
  ⟨⟨_, rfl, rfl,
      (multiset_size_invariant potential_projection_order.get_next).1
        (two_leaf_state [⟨neg1, []⟩, ⟨neut1, []⟩] [⟨neg1, []⟩, ⟨neut1, []⟩]) _ 2 [0, 1]
        (.leaf 0 [0]) (.leaf 1 [1]) rfl (by decide) (List.Perm.refl _)
        (by decide) (by decide) rfl⟩,
    ⟨_, rfl,
      (multiset_size_invariant potential_projection_order.get_next).2.1 two_leaf_top
        (two_leaf_state [⟨neg1, []⟩, ⟨neut1, []⟩] [⟨neg1, []⟩, ⟨neut1, []⟩]) _
        ⟨rfl, rfl, List.Perm.refl _⟩ (by decide) after_construction_two_leaf_state
        (run_reaches.move_up _ _ run_reaches.start rfl)⟩,
    (multiset_size_invariant potential_projection_order.get_next).2.2 2 (fun _ _ => 400000)
      example_mu 6 two_leaf_top (by decide) (by decide)⟩

/-! ### The pruned count -/

theorem prune_to_fixpoint_run_reaches (nxt : next_extremal_op) (g0 : ground_state_space) :
    ∀ (fuel : Nat) (g g1 : ground_state_space), run_reaches nxt g0 g →
      prune_to_fixpoint nxt fuel g = some g1 → run_reaches nxt g0 g1 := by
  intro fuel
  induction fuel with
  | zero => intro g g1 _ h; simp [prune_to_fixpoint] at h
  | succ fuel ih =>
    intro g g1 hr h
    unfold prune_to_fixpoint at h
    split at h
    · simp at h
    · rename_i g2 hU
      simp only [Option.some.injEq] at h
      subst h
      exact run_reaches.prune g _ true hr hU
    · rename_i g2 hU
      exact ih g2 g1 (run_reaches.prune g g2 false hr hU) h

theorem run_loop_run_reaches (nxt : next_extremal_op) (inner_fuel : Nat)
    (g0 : ground_state_space) :
    ∀ (fuel : Nat) (g g1 : ground_state_space), run_reaches nxt g0 g →
      run_loop nxt inner_fuel fuel g = some g1 → run_reaches nxt g0 g1 := by
  intro fuel
  induction fuel with
  | zero => intro g g1 _ h; simp [run_loop] at h
  | succ fuel ih =>
    intro g g1 hr h
    unfold run_loop at h
    split at h
    · simp only [Option.some.injEq] at h
      subst h
      exact hr
    · split at h
      · simp at h
      · rename_i g2 hi
        apply ih g2 g1 _ h
        unfold run_iteration at hi
        split at hi
        · simp at hi
        · rename_i g3 hp
          exact run_reaches.move_up g3 g2
            (prune_to_fixpoint_run_reaches nxt g0 inner_fuel g g3 hr hp) hi

theorem length_le_of_sized (N : Nat) (ms : List multiset_conf) (hnd : ms.Nodup)
    (hs : ∀ m ∈ ms, m.total = N) : ms.length ≤ (N + 1) * (N + 2) / 2 := by
  rw [← multisets_of_size_length]
  apply List.Subperm.length_le
  apply List.Nodup.subperm hnd
  intro m hm
  exact (mem_multisets_of_size N m).mpr (hs m hm)

theorem u64_sub_of_le (a b : Nat) (ha : a < 2 ^ 64) (hb : b ≤ a) : u64_sub a b + b = a := by
  unfold u64_sub
  have hb2 : b < 2 ^ 64 := by omega
  rw [Nat.mod_eq_of_lt ha, Nat.mod_eq_of_lt hb2]
  have h1 : a + (2 ^ 64 - b) = (a - b) + 2 ^ 64 := by omega
  rw [h1, Nat.add_mod_right, Nat.mod_eq_of_lt (by omega)]
  omega

/-- C13: the pruned count. For a run from a state after construction over a well-formed
hierarchy with distinct uids and `N` sites, `(N + 1) (N + 2) < 2 ^ 64`, the charge space of the
top cluster holds at most `(N + 1) (N + 2) / 2` multisets when `run` returns, so that the
subtraction in `uint64_t` does not wrap: in the returned record,
`pruned_top_level_multisets` plus the size of the charge space of the top cluster is
`maximum_top_level_multisets`, as natural numbers. -/
theorem pruned_count_no_wrap (nxt : next_extremal_op) (top : sidb_cluster)
    (hw : top.well_formed) (hu : top.uids.Nodup) (g0 : ground_state_space)
    (h0 : after_construction top g0) (hN : (top.size + 1) * (top.size + 2) < 2 ^ 64)
    (inner_fuel outer_fuel : Nat) (g1 : ground_state_space) (res : ground_state_space_result)
    (hrun : g0.run nxt inner_fuel outer_fuel = some (g1, res)) :
    (g1.data top.uid).charge_space.length ≤ (top.size + 1) * (top.size + 2) / 2
      ∧ res.maximum_top_level_multisets = (top.size + 1) * (top.size + 2) / 2
      ∧ res.pruned_top_level_multisets + (g1.data top.uid).charge_space.length
          = res.maximum_top_level_multisets := by
  obtain ⟨hloop, -, -, hmax, hpruned⟩ := run_record nxt inner_fuel outer_fuel g0 g1 res hrun
  rw [h0.1] at hmax hpruned
  have hreach := run_loop_run_reaches nxt inner_fuel g0 outer_fuel g0 g1 run_reaches.start hloop
  obtain ⟨-, -, -, j4, j5⟩ := charge_space_invariant_of_run_reaches nxt top hw hu g0 g1 h0 hreach
  have hlen := length_le_of_sized top.size
    ((g1.data top.uid).charge_space.map (fun e => e.multiset)) (j5 top (self_mem_nodes top))
    (by
      intro m hm
      obtain ⟨e, he, rfl⟩ := List.mem_map.mp hm
      exact j4 top (self_mem_nodes top) e he)
  rw [List.length_map] at hlen
  have hsmall := maximum_top_level_multisets_small top.size hN
  refine ⟨hlen, hmax.trans hsmall, ?_⟩
  rw [hpruned, hmax, hsmall]
  apply u64_sub_of_le
  · have := Nat.div_le_self ((top.size + 1) * (top.size + 2)) 2
    omega
  · exact hlen

/-- C13 (witness): the run from `two_leaf_state` returns a record with 6 as maximum, and the
pruned count and the size of the charge space of the top cluster add up to it. -/
theorem pruned_count_no_wrap_witness :
    ∃ g1 res, (two_leaf_state [⟨neg1, []⟩, ⟨neut1, []⟩] [⟨neg1, []⟩, ⟨neut1, []⟩]).run
          potential_projection_order.get_next 3 3 = some (g1, res)
      ∧ res.maximum_top_level_multisets = 6
      ∧ res.pruned_top_level_multisets + (g1.data two_leaf_top.uid).charge_space.length
          = res.maximum_top_level_multisets :=
  ⟨_, _, rfl, rfl,
    (pruned_count_no_wrap potential_projection_order.get_next two_leaf_top
      ⟨rfl, rfl, List.Perm.refl _⟩ (by decide)
      (two_leaf_state [⟨neg1, []⟩, ⟨neut1, []⟩] [⟨neg1, []⟩, ⟨neut1, []⟩])
      after_construction_two_leaf_state (by decide) 3 3 _ _ rfl).2.2⟩

/-! ### The layout without sites -/

theorem move_up_hierarchy_empty (nxt : next_extremal_op) (g : ground_state_space)
    (h : g.clustering = []) : g.move_up_hierarchy nxt = none := by
  unfold move_up_hierarchy select_min_parent
  rw [h]
  simp

theorem update_charge_spaces_empty (nxt : next_extremal_op) (g : ground_state_space)
    (skip_cluster : Option Nat) (h : g.clustering = []) :
    g.update_charge_spaces nxt skip_cluster = some (true, g) := by
  unfold update_charge_spaces
  rw [h]
  rfl

/-- C15 (counterexample): the run on a layout without sites does not return. The initial
clustering of the hierarchy without sites is empty; the pruning pass reports a fixpoint and
changes nothing; `move_up_hierarchy` then takes `std::min_element` of the empty clustering and
dereferences it, which is undefined, and `run` has no result. -/
theorem run_on_empty_layout_undefined :
    empty_layout_top.size = 0
      ∧ empty_layout_state.clustering = []
      ∧ empty_layout_state.update_charge_spaces potential_projection_order.get_next none
          = some (true, empty_layout_state)
      ∧ empty_layout_state.select_min_parent = none
      ∧ empty_layout_state.move_up_hierarchy potential_projection_order.get_next = none
      ∧ (empty_layout_state.run potential_projection_order.get_next 2 2).isNone = true := by
  refine ⟨rfl, rfl, rfl, rfl, rfl, rfl⟩

/-- C15 (amended): a state with an empty clustering is outside the domain of `run`. For a
hierarchy whose root has no children and not exactly one site, the initial clustering is empty.
In every state with an empty clustering that has not terminated, a pruning pass reports a
fixpoint and returns the state unchanged, `move_up_hierarchy` is undefined, and `run` has no
result for any budget. The function `maximum_top_level_multisets` returns 1 for 0 sites. -/
theorem run_undefined_on_empty_clustering (nxt : next_extremal_op) (g : ground_state_space)
    (hcl : g.clustering = []) (hterm : g.terminate = false) :
    (∀ (u : Nat) (s : List Nat), s.length ≠ 1 → get_initial_clustering (.leaf u s) = [])
      ∧ g.update_charge_spaces nxt none = some (true, g)
      ∧ g.move_up_hierarchy nxt = none
      ∧ (∀ inner_fuel outer_fuel, g.run nxt inner_fuel outer_fuel = none)
      ∧ maximum_top_level_multisets 0 = 1 := by
  refine ⟨?_, update_charge_spaces_empty nxt g none hcl, move_up_hierarchy_empty nxt g hcl,
    ?_, by decide⟩
  · intro u s hs
    simp [get_initial_clustering, size, sidbs, hs]
  · intro inner_fuel outer_fuel
    have hloop : run_loop nxt inner_fuel outer_fuel g = none := by
      cases outer_fuel with
      | zero => rfl
      | succ fuel =>
        unfold run_loop
        rw [if_neg (by simp [hterm])]
        have hit : run_iteration nxt inner_fuel g = none := by
          unfold run_iteration
          cases inner_fuel with
          | zero => rfl
          | succ f =>
            unfold prune_to_fixpoint
            rw [update_charge_spaces_empty nxt g none hcl]
            simp only
            exact move_up_hierarchy_empty nxt g hcl
        rw [hit]
    unfold run
    rw [hloop]

/-- C15 (witness): the state after construction for the layout without sites. -/
theorem run_undefined_on_empty_clustering_witness :
    empty_layout_state.clustering = [] ∧ empty_layout_state.terminate = false
      ∧ empty_layout_state.move_up_hierarchy potential_projection_order.get_next = none
      ∧ empty_layout_state.run potential_projection_order.get_next 5 5 = none :=
  ⟨rfl, rfl,
    (run_undefined_on_empty_clustering potential_projection_order.get_next empty_layout_state
      rfl rfl).2.2.1,
    (run_undefined_on_empty_clustering potential_projection_order.get_next empty_layout_state
      rfl rfl).2.2.2.1 5 5⟩


/-! ### The layout with one site -/

theorem classify_site_init (mu : Pot × Pot × Pot × Pot) (i : Nat) (lb ub : Pot)
    (m : multiset_conf) :
    classify_site mu i lb ub (witness_partitioning_state.init m)
      = ⟨if m.neg ≠ 0 ∧ fail_onto_negative_charge mu lb = false then [i] else [],
         if m.pos ≠ 0 ∧ fail_onto_positive_charge mu ub = false then [i] else [],
         if m.neut ≠ 0 ∧ ub_fail_onto_neutral_charge mu ub = false
            ∧ lb_fail_onto_neutral_charge mu lb = false then [i] else [],
         m.neg, m.pos, m.neut⟩ := by
  unfold classify_site witness_partitioning_state.init
  dsimp only
  split_ifs <;> rfl

theorem decide_witness_state_lists (T : Nat) (w1 w2 w3 : List Nat) (ka kb kc : Nat)
    (h1 : w1 = [] ∨ w1 = [0]) (h2 : w2 = [] ∨ w2 = [0]) (h3 : w3 = [] ∨ w3 = [0]) :
    (decide_witness_state T 1 ⟨w1, w2, w3, ka, kb, kc⟩).isSome = true := by
  unfold decide_witness_state
  dsimp only
  by_cases hc : w1.length < ka ∨ w2.length < kb ∨ w3.length < kc
  · rw [if_pos hc]; rfl
  · rw [if_neg hc]
    by_cases hT : 1 > T
    · rw [if_pos hT]; rfl
    · rw [if_neg hT]
      have ha : ka ≤ 1 := by
        rcases h1 with rfl | rfl <;> simp at hc <;> omega
      have hb : kb ≤ 1 := by
        rcases h2 with rfl | rfl <;> simp at hc <;> omega
      have hc3 : kc ≤ 1 := by
        rcases h3 with rfl | rfl <;> simp at hc <;> omega
      clear hc hT
      rcases h1 with rfl | rfl <;> rcases h2 with rfl | rfl <;> rcases h3 with rfl | rfl <;>
        interval_cases ka <;> interval_cases kb <;> interval_cases kc <;> decide

/-- The part of the analysis after the site loop has a result for every witness state whose
witness sets hold at most the site 0. -/
theorem decide_witness_state_single (T : Nat) (p q r : Prop) [Decidable p] [Decidable q]
    [Decidable r] (ka kb kc : Nat) :
    (decide_witness_state T 1
      ⟨if p then [0] else [], if q then [0] else [], if r then [0] else [], ka, kb, kc⟩).isSome
      = true := by
  apply decide_witness_state_lists
  · by_cases hp : p <;> simp [hp]
  · by_cases hq : q <;> simp [hq]
  · by_cases hr : r <;> simp [hr]

/-- The multiset bound analysis of a cluster whose only site is 0 has a result when the store of
the cluster onto the site holds an entry with the tag of the multiset. -/
theorem analysis_single_site (g : ground_state_space) (u : Nat) (m : multiset_conf)
    (hlo : (g.get_proj_state_bound .LOWER (.leaf u [0]) m 0).isSome = true)
    (hhi : (g.get_proj_state_bound .UPPER (.leaf u [0]) m 0).isSome = true) :
    (g.perform_potential_bound_analysis .ANALYZE_MULTISET (.leaf u [0]) m none).isSome
      = true := by
  obtain ⟨lo, hlo1⟩ := Option.isSome_iff_exists.mp hlo
  obtain ⟨hi, hhi1⟩ := Option.isSome_iff_exists.mp hhi
  unfold perform_potential_bound_analysis perform_potential_bound_analysis_on
  have hb : g.get_received_potential_bounds .ANALYZE_MULTISET (.leaf u [0]) m none 0
      = some (lo.V + g.get_recv_ext_pot_bound .LOWER (.leaf u [0]) 0,
          hi.V + g.get_recv_ext_pot_bound .UPPER (.leaf u [0]) 0) := by
    unfold get_received_potential_bounds
    simp only [hlo1, hhi1]
  simp only [sidbs, collect_witnesses, hb, classify_site_init, List.length_singleton]
  exact decide_witness_state_single _ _ _ _ _ _ _

theorem perform_potential_bound_analysis_congr {g g1 : ground_state_space}
    (h : same_potentials g g1) (mode : potential_bound_analysis_mode) (c : sidb_cluster)
    (m : multiset_conf) (ipb : Option intra_cluster_potential_bounds) :
    g1.perform_potential_bound_analysis mode c m ipb
      = g.perform_potential_bound_analysis mode c m ipb := by
  unfold perform_potential_bound_analysis
  rw [h.1, h.2.1]
  congr 1
  funext i
  unfold get_received_potential_bounds
  simp only [get_proj_state_bound_congr h, get_recv_ext_pot_bound_congr h]

theorem same_potentials_erase_removed (c : sidb_cluster) (removed_ms : List multiset_conf) :
    ∀ g : ground_state_space, same_potentials g (erase_removed c removed_ms g) := by
  induction removed_ms with
  | nil => intro g; exact same_potentials_refl g
  | cons m rest ih =>
    intro g
    unfold erase_removed
    simp only [List.foldl_cons]
    exact same_potentials_trans _ _ _
      (same_potentials_modify_charge_space g c.uid (erase_charge_state m)) (ih _)

theorem handle_invalid_state_single (nxt : next_extremal_op) (g : ground_state_space)
    (c : sidb_cluster) (m : multiset_conf) (hcl : g.clustering = [c]) :
    g.handle_invalid_state nxt c m = some g := by
  unfold handle_invalid_state
  rw [hcl]
  simp [for_each, handle_invalid_state_step]

/-- The first loop of `check_charge_space` when the checked cluster is the only one: the state
is kept, and the rejected multisets are collected. -/
theorem check_charge_space_loop_single (nxt : next_extremal_op) (g : ground_state_space)
    (c : sidb_cluster) (hcl : g.clustering = [c]) :
    ∀ (cs : List sidb_cluster_charge_state) (removed_ms : List multiset_conf) (fixpoint : Bool),
      (∀ e ∈ cs,
        (g.perform_potential_bound_analysis .ANALYZE_MULTISET c e.multiset none).isSome = true) →
      for_each (check_charge_space_step nxt c) cs (g, removed_ms, fixpoint)
        = some (g,
            removed_ms ++ (cs.filter (fun e => decide
              (g.perform_potential_bound_analysis .ANALYZE_MULTISET c e.multiset none
                = some false))).map (fun e => e.multiset),
            fixpoint && !(cs.any (fun e => decide
              (g.perform_potential_bound_analysis .ANALYZE_MULTISET c e.multiset none
                = some false)))) := by
  intro cs
  induction cs with
  | nil => intro removed_ms fixpoint _; simp [for_each]
  | cons e rest ih =>
    intro removed_ms fixpoint hdef
    rw [for_each_cons]
    obtain ⟨b, hb⟩ := Option.isSome_iff_exists.mp (hdef e (List.mem_cons_self _ _))
    have hrest := fun x hx => hdef x (List.mem_cons_of_mem _ hx)
    cases b with
    | true =>
      have hstep : check_charge_space_step nxt c (g, removed_ms, fixpoint) e
          = some (g, removed_ms, fixpoint) := by
        unfold check_charge_space_step
        simp only [hb]
      rw [hstep, Option.some_bind, ih removed_ms fixpoint hrest]
      simp [hb]
    | false =>
      have hstep : check_charge_space_step nxt c (g, removed_ms, fixpoint) e
          = some (g, removed_ms ++ [e.multiset], false) := by
        unfold check_charge_space_step
        simp only [hb, handle_invalid_state_single nxt g c e.multiset hcl]
      rw [hstep, Option.some_bind, ih _ false hrest]
      simp [hb]

/-- When every multiset of the charge space is accepted, `check_charge_space` reports a fixpoint
and returns the state. -/
theorem check_charge_space_all_true (nxt : next_extremal_op) (g : ground_state_space)
    (c : sidb_cluster)
    (h : (g.data c.uid).charge_space.length ≠ 1 → ∀ e ∈ (g.data c.uid).charge_space,
      g.perform_potential_bound_analysis .ANALYZE_MULTISET c e.multiset none = some true) :
    check_charge_space nxt g c = some (true, g) := by
  unfold check_charge_space
  split
  · rfl
  · rename_i hlen
    have key : ∀ (cs : List sidb_cluster_charge_state),
        (∀ e ∈ cs,
          g.perform_potential_bound_analysis .ANALYZE_MULTISET c e.multiset none = some true) →
        for_each (check_charge_space_step nxt c) cs (g, [], true) = some (g, [], true) := by
      intro cs
      induction cs with
      | nil => intro _; rfl
      | cons e rest ih =>
        intro hall
        have hstep : check_charge_space_step nxt c (g, [], true) e = some (g, [], true) := by
          unfold check_charge_space_step
          simp only [hall e (List.mem_cons_self _ _)]
        rw [for_each_cons, hstep, Option.some_bind]
        exact ih (fun x hx => hall x (List.mem_cons_of_mem _ hx))
    rw [key _ (h hlen)]
    rfl

/-- One call of `check_charge_space` for the only cluster of the clustering, whose only site is
0: the call returns, the static members, the stores and the received bounds are kept, the charge
space becomes a sublist of itself, and when it does not have exactly one element afterwards, all
its multisets are accepted. -/
theorem check_charge_space_single (nxt : next_extremal_op) (g : ground_state_space) (u : Nat)
    (hcl : g.clustering = [.leaf u [0]])
    (hdef : ∀ e ∈ (g.data u).charge_space,
      (g.perform_potential_bound_analysis .ANALYZE_MULTISET (.leaf u [0]) e.multiset none).isSome
        = true) :
    ∃ r g1, check_charge_space nxt g (.leaf u [0]) = some (r, g1)
      ∧ same_static g g1 ∧ same_potentials g g1
      ∧ (g1.data u).charge_space.Sublist (g.data u).charge_space
      ∧ (∀ v, v ≠ u → g1.data v = g.data v)
      ∧ ((g1.data u).charge_space.length ≠ 1 → ∀ e ∈ (g1.data u).charge_space,
          g.perform_potential_bound_analysis .ANALYZE_MULTISET (.leaf u [0]) e.multiset none
            = some true) := by
  by_cases hlen : (g.data u).charge_space.length = 1
  · refine ⟨true, g, ?_, same_static_refl g, same_potentials_refl g, List.Sublist.refl _,
      fun _ _ => rfl, fun h => absurd hlen h⟩
    unfold check_charge_space
    rw [if_pos (by simpa [uid] using hlen)]
  · have hL := check_charge_space_loop_single nxt g (.leaf u [0]) hcl
      (g.data u).charge_space [] true hdef
    generalize hrm : ([] : List multiset_conf) ++ ((g.data u).charge_space.filter (fun e => decide
          (g.perform_potential_bound_analysis .ANALYZE_MULTISET (.leaf u [0]) e.multiset none
            = some false))).map (fun e => e.multiset) = rm at hL
    generalize (true && !((g.data u).charge_space.any (fun e => decide
          (g.perform_potential_bound_analysis .ANALYZE_MULTISET (.leaf u [0]) e.multiset none
            = some false)))) = fp at hL
    have hcs := erase_removed_charge_space (.leaf u [0]) rm g
    simp only [uid] at hcs
    refine ⟨fp, erase_removed (.leaf u [0]) rm g, ?_, same_static_erase_removed _ rm g,
      same_potentials_erase_removed _ rm g, ?_, ?_, ?_⟩
    · unfold check_charge_space
      rw [if_neg (by simpa [uid] using hlen)]
      simp only [uid] at hL ⊢
      rw [hL]
    · rw [hcs]
      exact List.filter_sublist _
    · intro v hv
      have h1 := erase_removed_charge_space_other (.leaf u [0]) rm g v hv
      have h2 := (same_potentials_erase_removed (.leaf u [0]) rm g).2.2 v
      generalize erase_removed (.leaf u [0]) rm g = g1 at h1 h2
      cases hd1 : g1.data v
      cases hd : g.data v
      rw [hd1, hd] at h1 h2
      simp only at h1 h2
      rw [h1, h2.1, h2.2]
    · intro _ e he
      rw [hcs] at he
      obtain ⟨he1, he2⟩ := List.mem_filter.mp he
      obtain ⟨b, hb⟩ := Option.isSome_iff_exists.mp (hdef e he1)
      cases b with
      | true => exact hb
      | false =>
        exfalso
        rw [← hrm] at he2
        simp only [List.nil_append, List.mem_map, List.mem_filter, decide_eq_true_eq,
          not_exists, not_and, and_imp] at he2
        exact he2 e he1 hb rfl


theorem update_charge_spaces_singleton (nxt : next_extremal_op) (g : ground_state_space)
    (c : sidb_cluster) (hcl : g.clustering = [c]) :
    g.update_charge_spaces nxt none
      = (check_charge_space nxt g c).map (fun p => (true && p.1, p.2)) := by
  unfold update_charge_spaces
  rw [hcl, for_each_cons]
  unfold update_charge_spaces_step
  simp only [true_or, if_true]
  cases check_charge_space nxt g c with
  | none => rfl
  | some p => rfl

/-- The inner loop of `run` for the only cluster of the clustering, whose only site is 0: two
passes are enough. -/
theorem prune_to_fixpoint_single (nxt : next_extremal_op) (g : ground_state_space) (u : Nat)
    (hcl : g.clustering = [.leaf u [0]])
    (hdef : ∀ e ∈ (g.data u).charge_space,
      (g.perform_potential_bound_analysis .ANALYZE_MULTISET (.leaf u [0]) e.multiset none).isSome
        = true) :
    ∃ g1, prune_to_fixpoint nxt 2 g = some g1 ∧ same_static g g1
      ∧ (g1.data u).charge_space.Sublist (g.data u).charge_space := by
  obtain ⟨r, g1, hC, hs, hp, hsub, -, hall⟩ := check_charge_space_single nxt g u hcl hdef
  have hU : g.update_charge_spaces nxt none = some (r, g1) := by
    rw [update_charge_spaces_singleton nxt g _ hcl, hC]
    simp
  refine ⟨g1, ?_, hs, hsub⟩
  cases r with
  | true =>
    unfold prune_to_fixpoint
    rw [hU]
  | false =>
    have hcl1 : g1.clustering = [.leaf u [0]] := hs.2.1.trans hcl
    have hC1 : check_charge_space nxt g1 (.leaf u [0]) = some (true, g1) := by
      apply check_charge_space_all_true
      intro hlen e he
      rw [perform_potential_bound_analysis_congr hp]
      exact hall hlen e he
    have hU1 : g1.update_charge_spaces nxt none = some (true, g1) := by
      rw [update_charge_spaces_singleton nxt g1 _ hcl1, hC1]
      rfl
    unfold prune_to_fixpoint
    rw [hU]
    simp only
    unfold prune_to_fixpoint
    rw [hU1]

theorem u64_sub_eq (a b : Nat) (ha : a < 2 ^ 64) (hb : b ≤ a) : u64_sub a b = a - b := by
  have := u64_sub_of_le a b ha hb
  omega

/-- C16: the layout with one site. The root is the leaf with the site 0 and the initial
clustering holds the root alone. When the charge space of the leaf has at most three elements
and the store of the leaf onto its own site holds an entry for each of them, `run` returns after
one pruning loop of at most two passes and one call of `move_up_hierarchy` that only sets
`terminate`: the final state is the pruned state, the clustering still holds the root alone, the
charge space is a sublist of the initial one, `maximum_top_level_multisets` is 3 and
`pruned_top_level_multisets` is 3 minus the size of the charge space of the root. -/
theorem single_site_run (nxt : next_extremal_op) (g : ground_state_space) (u : Nat)
    (htop : g.top_cluster = .leaf u [0])
    (hcl : g.clustering = get_initial_clustering g.top_cluster)
    (hterm : g.terminate = false)
    (hstore : ∀ e ∈ (g.data u).charge_space,
      (g.get_proj_state_bound .LOWER (.leaf u [0]) e.multiset 0).isSome = true
        ∧ (g.get_proj_state_bound .UPPER (.leaf u [0]) e.multiset 0).isSome = true)
    (hlen : (g.data u).charge_space.length ≤ 3) :
    g.clustering = [g.top_cluster]
      ∧ ∃ g1, prune_to_fixpoint nxt 2 g = some g1
          ∧ g1.clustering = [g.top_cluster]
          ∧ (g1.data u).charge_space.Sublist (g.data u).charge_space
          ∧ (g1.data u).charge_space.length ≤ 3
          ∧ g.run nxt 2 2
              = some ({ g1 with terminate := true },
                  ⟨g.top_cluster, 3 - (g1.data u).charge_space.length, 3⟩) := by
  have hcl1 : g.clustering = [.leaf u [0]] := by
    rw [hcl, htop]
    simp [get_initial_clustering, size, sidbs]
  have hdef : ∀ e ∈ (g.data u).charge_space,
      (g.perform_potential_bound_analysis .ANALYZE_MULTISET (.leaf u [0]) e.multiset none).isSome
        = true :=
    fun e he => analysis_single_site g u e.multiset (hstore e he).1 (hstore e he).2
  obtain ⟨g1, hP, hs, hsub⟩ := prune_to_fixpoint_single nxt g u hcl1 hdef
  have hlen1 : (g1.data u).charge_space.length ≤ 3 := le_trans hsub.length_le hlen
  have hcl2 : g1.clustering = [.leaf u [0]] := hs.2.1.trans hcl1
  have htop1 : g1.top_cluster = .leaf u [0] := hs.1.trans htop
  refine ⟨by rw [htop]; exact hcl1, g1, hP, by rw [htop]; exact hcl2, hsub, hlen1, ?_⟩
  have hM : g1.move_up_hierarchy nxt = some { g1 with terminate := true } := by
    unfold move_up_hierarchy
    rw [if_pos (by rw [hcl2]; rfl)]
  have hI : run_iteration nxt 2 g = some { g1 with terminate := true } := by
    unfold run_iteration
    rw [hP]
    exact hM
  have hL : run_loop nxt 2 2 g = some { g1 with terminate := true } := by
    unfold run_loop
    rw [if_neg (by simp [hterm]), hI]
    simp only
    unfold run_loop
    rw [if_pos rfl]
  unfold run
  rw [hL]
  simp only [htop1, htop, size, sidbs, uid, List.length_singleton]
  have hmax : maximum_top_level_multisets 1 = 3 := by decide
  rw [hmax, u64_sub_eq 3 _ (by norm_num) hlen1]

/-- C16 (witness): the state `initial_state` of one site with the band edges `example_mu`. The
charge space of the leaf holds the negative state alone, and the run returns the record with 3
as maximum and 2 as pruned count. -/
theorem single_site_run_witness :
    ((initial_state 1 (fun _ _ => 0) example_mu 6 (.leaf 0 [0])).data 0).charge_space
        = [⟨neg1, []⟩]
      ∧ ∃ g1, prune_to_fixpoint potential_projection_order.get_next 2
            (initial_state 1 (fun _ _ => 0) example_mu 6 (.leaf 0 [0])) = some g1
          ∧ g1.clustering = [.leaf 0 [0]]
          ∧ (g1.data 0).charge_space.Sublist [⟨neg1, []⟩]
          ∧ (g1.data 0).charge_space.length ≤ 3
          ∧ (initial_state 1 (fun _ _ => 0) example_mu 6 (.leaf 0 [0])).run
              potential_projection_order.get_next 2 2
              = some ({ g1 with terminate := true },
                  ⟨.leaf 0 [0], 3 - (g1.data 0).charge_space.length, 3⟩) :=
  ⟨rfl,
    (single_site_run potential_projection_order.get_next
      (initial_state 1 (fun _ _ => 0) example_mu 6 (.leaf 0 [0])) 0 rfl rfl rfl
      (by decide) (by decide)).2⟩


theorem mem_foldl_add (f : sidb_charge_state → potential_projection) :
    ∀ (states : List sidb_charge_state) (s : potential_projection_order)
      (q : potential_projection),
      q ∈ states.foldl (fun s cs => potential_projection_order.add (f cs) s) s ↔
        q ∈ s ∨ ∃ cs ∈ states, q = f cs := by
  intro states
  induction states with
  | nil => intro s q; simp
  | cons cs rest ih =>
    intro s q
    simp only [List.foldl_cons, ih, mem_add, List.mem_cons, exists_eq_or_imp]
    tauto

theorem get_pot_proj_for_m_conf_isSome (b : bound_direction) (s : potential_projection_order)
    (m : multiset_conf) (pp : potential_projection) (hpp : pp ∈ s) (hm : pp.M = m) :
    (potential_projection_order.get_pot_proj_for_m_conf b s m).isSome = true := by
  unfold potential_projection_order.get_pot_proj_for_m_conf potential_projection_order.get
  have hne : s.filter (fun pp => decide (pp.M = m)) ≠ [] := by
    intro h
    have : pp ∈ s.filter (fun pp => decide (pp.M = m)) :=
      List.mem_filter.mpr ⟨hpp, by simpa using hm⟩
    rw [h] at this
    simp at this
  cases b with
  | LOWER =>
    cases hf : s.filter (fun pp => decide (pp.M = m)) with
    | nil => exact absurd hf hne
    | cons x xs => rfl
  | UPPER =>
    simp only
    rw [Option.isSome_iff_ne_none]
    intro h
    exact hne (List.getLast?_eq_none_iff.mp h)

/-- The state `initial_state` of one site satisfies the hypotheses of `single_site_run`, for all
band edges. -/
theorem initial_state_single_site (v : Nat → Nat → Pot) (mu : Pot × Pot × Pot × Pot) (T : Nat) :
    (∀ e ∈ ((initial_state 1 v mu T (.leaf 0 [0])).data 0).charge_space,
        ((initial_state 1 v mu T (.leaf 0 [0])).get_proj_state_bound .LOWER (.leaf 0 [0])
            e.multiset 0).isSome = true
          ∧ ((initial_state 1 v mu T (.leaf 0 [0])).get_proj_state_bound .UPPER (.leaf 0 [0])
            e.multiset 0).isSome = true)
      ∧ ((initial_state 1 v mu T (.leaf 0 [0])).data 0).charge_space.length ≤ 3 := by
  constructor
  · intro e he
    simp only [initial_state, Nat.lt_one_iff, if_true, List.mem_map] at he
    obtain ⟨cs, hcs, rfl⟩ := he
    have hmem : (⟨0, singleton_multiset cs⟩ : potential_projection)
        ∈ ((initial_state 1 v mu T (.leaf 0 [0])).data (sidb_cluster.leaf 0 [0]).uid).pot_projs
            0 := by
      simp only [initial_state, uid, Nat.lt_one_iff, if_true, neg_zero]
      cases cs <;> decide
    exact ⟨get_pot_proj_for_m_conf_isSome _ _ _ _ hmem rfl,
      get_pot_proj_for_m_conf_isSome _ _ _ _ hmem rfl⟩
  · simp only [initial_state, Nat.lt_one_iff, if_true, List.length_map]
    exact le_trans (List.length_filter_le _ _) (by simp)

/-! ### Termination at the root -/

theorem sum_map_le {α : Type} (f g : α → Nat) :
    ∀ (l : List α), (∀ x ∈ l, f x ≤ g x) → (l.map f).sum ≤ (l.map g).sum := by
  intro l
  induction l with
  | nil => intro _; simp
  | cons x xs ih =>
    intro h
    simp only [List.map_cons, List.sum_cons]
    have h1 := h x (List.mem_cons_self _ _)
    have h2 := ih (fun y hy => h y (List.mem_cons_of_mem _ hy))
    omega

theorem sum_map_lt {α : Type} (f g : α → Nat) :
    ∀ (l : List α), (∀ x ∈ l, f x ≤ g x) → (∃ x ∈ l, f x < g x) →
      (l.map f).sum < (l.map g).sum := by
  intro l
  induction l with
  | nil => intro _ ⟨x, hx, _⟩; simp at hx
  | cons x xs ih =>
    intro h ⟨y, hy, hlt⟩
    simp only [List.map_cons, List.sum_cons]
    have h1 := h x (List.mem_cons_self _ _)
    have h2 := sum_map_le f g xs (fun z hz => h z (List.mem_cons_of_mem _ hz))
    rcases List.mem_cons.mp hy with rfl | hy
    · omega
    · have := ih (fun z hz => h z (List.mem_cons_of_mem _ hz)) ⟨y, hy, hlt⟩
      omega

/-- A pruning pass that returns false removes a charge-space element of a frontier cluster. -/
theorem update_charge_spaces_decreases (nxt : next_extremal_op) (g g1 : ground_state_space)
    (skip_cluster : Option Nat)
    (h : g.update_charge_spaces nxt skip_cluster = some (false, g1)) :
    frontier_charge_states g1 < frontier_charge_states g := by
  obtain ⟨k1, -, -, k4⟩ := update_charge_spaces_loop_spec nxt skip_cluster _ _ _ _ _ h
  obtain ⟨-, s2, -⟩ := same_static_update_charge_spaces nxt _ _ _ _ h
  unfold frontier_charge_states
  rw [s2]
  apply sum_map_lt
  · intro c _
    exact (k1 c.uid).length_le
  · rcases k4 rfl with hf | ⟨c, hc, hlt⟩
    · simp at hf
    · exact ⟨c, hc, hlt⟩

/-- With more passes in the budget than there are charge-space elements in the frontier, the
inner loop of `run` returns when none of its passes is undefined. -/
theorem prune_to_fixpoint_returns (nxt : next_extremal_op) (g0 : ground_state_space)
    (hdef : ∀ g, run_reaches nxt g0 g → (g.update_charge_spaces nxt none).isSome = true) :
    ∀ (fuel : Nat) (g : ground_state_space), run_reaches nxt g0 g →
      frontier_charge_states g < fuel → ∃ g1, prune_to_fixpoint nxt fuel g = some g1 := by
  intro fuel
  induction fuel with
  | zero => intro g _ h; omega
  | succ fuel ih =>
    intro g hr hlt
    obtain ⟨res, hres⟩ := Option.isSome_iff_exists.mp (hdef g hr)
    obtain ⟨r, g2⟩ := res
    unfold prune_to_fixpoint
    rw [hres]
    cases r with
    | true => exact ⟨g2, rfl⟩
    | false =>
      have hdec := update_charge_spaces_decreases nxt g g2 none hres
      exact ih g2 (run_reaches.prune g g2 false hr hres) (by omega)

theorem length_le_length_flatMap {α β : Type} (f : α → List β) :
    ∀ (l : List α), (∀ x ∈ l, 1 ≤ (f x).length) → l.length ≤ (l.flatMap f).length := by
  intro l
  induction l with
  | nil => intro _; simp
  | cons x xs ih =>
    intro h
    simp only [List.flatMap_cons, List.length_cons, List.length_append]
    have h1 := h x (List.mem_cons_self _ _)
    have h2 := ih (fun y hy => h y (List.mem_cons_of_mem _ hy))
    omega

/-- A frontier of a well-formed hierarchy has at most as many clusters as the hierarchy has
sites. -/
theorem is_frontier_length_le {t : sidb_cluster} {cl : List sidb_cluster}
    (h : is_frontier t cl) (hw : t.well_formed) : cl.length ≤ t.size := by
  have h1 := (is_frontier_sites_perm h hw).length_eq
  have h2 := length_le_length_flatMap sidbs cl (fun c hc =>
    size_pos_of_well_formed c (well_formed_of_mem t c hw (is_frontier_mem_nodes h c hc)))
  unfold size
  omega

theorem multisets_bound_mono (a b : Nat) (h : a ≤ b) :
    (a + 1) * (a + 2) / 2 ≤ (b + 1) * (b + 2) / 2 :=
  Nat.div_le_div_right (Nat.mul_le_mul (by omega) (by omega))

/-- Under the invariant of the charge spaces, the frontier holds fewer charge-space elements than
the pass budget. -/
theorem frontier_charge_states_lt (top : sidb_cluster) (hw : top.well_formed)
    (g : ground_state_space) (hJ : charge_space_invariant top g) :
    frontier_charge_states g < pass_budget top.size := by
  obtain ⟨-, j2, -, j4, j5⟩ := hJ
  have hlen := is_frontier_length_le j2 hw
  have h1 : frontier_charge_states g
      ≤ (g.clustering.map (fun _ => (top.size + 1) * (top.size + 2) / 2)).sum := by
    unfold frontier_charge_states
    apply sum_map_le
    intro c hc
    have hcn := is_frontier_mem_nodes j2 c hc
    have h2 := length_le_of_sized c.size
      ((g.data c.uid).charge_space.map (fun e => e.multiset)) (j5 c hcn)
      (by
        intro m hm
        obtain ⟨e, he, rfl⟩ := List.mem_map.mp hm
        exact j4 c hcn e he)
    rw [List.length_map] at h2
    exact le_trans h2 (multisets_bound_mono _ _ (size_le_of_mem top c hw hcn))
  have h3 : (g.clustering.map (fun _ => (top.size + 1) * (top.size + 2) / 2)).sum
      = g.clustering.length * ((top.size + 1) * (top.size + 2) / 2) := by
    simp [List.map_const', List.sum_replicate]
  unfold pass_budget
  have h4 := Nat.mul_le_mul_right ((top.size + 1) * (top.size + 2) / 2) hlen
  omega

theorem get_initial_clustering_length : ∀ (t : sidb_cluster), t.well_formed → t.uids.Nodup →
    (get_initial_clustering t).length = t.size := by
  intro t
  induction t with
  | leaf u s =>
    intro hw _
    simp only [well_formed] at hw
    simp [get_initial_clustering, size, sidbs, hw]
  | node u s l r ihl ihr =>
    intro hw hu
    rw [get_initial_clustering_node u s l r hw hu, List.length_append,
      size_node_of_well_formed hw]
    have hu2 := hu
    rw [uids_node] at hu2
    have hlr := (List.nodup_cons.mp hu2).2
    rw [ihl hw.1 (List.Nodup.of_append_left hlr), ihr hw.2.1 (List.Nodup.of_append_right hlr)]

theorem move_up_hierarchy_terminate (nxt : next_extremal_op) (g g1 : ground_state_space)
    (hlen : g.clustering.length ≠ 1) (h : g.move_up_hierarchy nxt = some g1) :
    g1.terminate = g.terminate := by
  unfold move_up_hierarchy at h
  rw [if_neg hlen] at h
  split at h
  · simp at h
  · rename_i p hsel
    split at h
    · simp at h
    · rename_i g6 hmerge
      cases hU : g6.update_charge_spaces nxt (some p.uid) with
      | none => rw [hU] at h; simp at h
      | some res =>
        obtain ⟨r, g7⟩ := res
        rw [hU] at h
        simp only [Option.map_some', Option.some.injEq] at h
        subst h
        obtain ⟨-, -, s3, -⟩ := same_static_update_charge_spaces nxt _ _ _ _ hU
        obtain ⟨-, -, m3⟩ := merge_up_static _ _ _ hmerge
        exact s3.trans m3

/-- One iteration of the outer loop of `run` on a state of the run: with the pass budget it
returns when no call is undefined; it merges two clusters and leaves `terminate` unset when the
clustering has more than one cluster, and it sets `terminate` and keeps the clustering
otherwise. -/
theorem run_iteration_returns (nxt : next_extremal_op) (top : sidb_cluster)
    (hw : top.well_formed) (hu : top.uids.Nodup) (g0 : ground_state_space)
    (h0 : after_construction top g0)
    (hdef : ∀ g, run_reaches nxt g0 g → (g.update_charge_spaces nxt none).isSome = true
      ∧ (g.move_up_hierarchy nxt).isSome = true)
    (inner_fuel : Nat) (hfuel : pass_budget top.size ≤ inner_fuel)
    (g : ground_state_space) (hr : run_reaches nxt g0 g) :
    ∃ g1, run_iteration nxt inner_fuel g = some g1 ∧ run_reaches nxt g0 g1
      ∧ (g.clustering.length ≠ 1 →
          g1.clustering.length + 1 = g.clustering.length ∧ g1.terminate = g.terminate)
      ∧ (g.clustering.length = 1 → g1.clustering = [top] ∧ g1.terminate = true) := by
  have hJ := charge_space_invariant_of_run_reaches nxt top hw hu g0 g h0 hr
  have hlt := frontier_charge_states_lt top hw g hJ
  obtain ⟨g2, hP⟩ := prune_to_fixpoint_returns nxt g0 (fun g hg => (hdef g hg).1) inner_fuel g hr
    (by omega)
  have hr2 := prune_to_fixpoint_run_reaches nxt g0 inner_fuel g g2 hr hP
  obtain ⟨s1, s2, s3, -⟩ := same_static_prune_to_fixpoint nxt inner_fuel g g2 hP
  obtain ⟨g3, hM⟩ := Option.isSome_iff_exists.mp (hdef g2 hr2).2
  have hJ2 := charge_space_invariant_of_run_reaches nxt top hw hu g0 g2 h0 hr2
  obtain ⟨t1, t2, -⟩ := hJ2
  obtain ⟨-, k2, k3, k4⟩ := move_up_hierarchy_frontier nxt g2 g3 (t1 ▸ hw) (t1 ▸ hu)
    (t1 ▸ t2) hM
  refine ⟨g3, ?_, run_reaches.move_up g2 g3 hr2 hM, ?_, ?_⟩
  · unfold run_iteration
    rw [hP]
    exact hM
  · intro hne
    rw [← s2] at hne
    exact ⟨by rw [← s2]; exact k3 hne,
      (move_up_hierarchy_terminate nxt g2 g3 hne hM).trans s3⟩
  · intro hone
    rw [← s2] at hone
    obtain ⟨c1, c2⟩ := k4 hone
    refine ⟨?_, c2⟩
    rw [c1]
    exact is_frontier_length_one t2 hone

theorem run_iterations_succ (nxt : next_extremal_op) (inner_fuel : Nat) :
    ∀ (k : Nat) (g gk : ground_state_space), run_iterations nxt inner_fuel k g = some gk →
      run_iterations nxt inner_fuel (k + 1) g = run_iteration nxt inner_fuel gk := by
  intro k
  induction k with
  | zero =>
    intro g gk h
    simp only [run_iterations, Option.some.injEq] at h
    subst h
    simp only [run_iterations]
    cases run_iteration nxt inner_fuel g <;> rfl
  | succ k ih =>
    intro g gk h
    rw [run_iterations] at h
    cases hI : run_iteration nxt inner_fuel g with
    | none => rw [hI] at h; simp at h
    | some g2 =>
      rw [hI] at h
      simp only [Option.some_bind] at h
      rw [run_iterations, hI]
      simp only [Option.some_bind]
      exact ih g2 gk h

theorem run_loop_of_run_iterations (nxt : next_extremal_op) (inner_fuel : Nat) :
    ∀ (k : Nat) (g gk : ground_state_space) (fuel : Nat), g.terminate = false →
      (∀ j, j < k → ∃ gj, run_iterations nxt inner_fuel j g = some gj ∧ gj.terminate = false) →
      run_iterations nxt inner_fuel k g = some gk →
      run_loop nxt inner_fuel (fuel + k) g = run_loop nxt inner_fuel fuel gk := by
  intro k
  induction k with
  | zero =>
    intro g gk fuel _ _ h
    simp only [run_iterations, Option.some.injEq] at h
    subst h
    rfl
  | succ k ih =>
    intro g gk fuel hterm hall h
    rw [run_iterations] at h
    cases hI : run_iteration nxt inner_fuel g with
    | none => rw [hI] at h; simp at h
    | some g2 =>
      rw [hI] at h
      simp only [Option.some_bind] at h
      have hstep : run_loop nxt inner_fuel (fuel + (k + 1)) g
          = run_loop nxt inner_fuel (fuel + k) g2 := by
        rw [← Nat.add_assoc]
        rw [run_loop]
        rw [if_neg (by simp [hterm]), hI]
      rw [hstep]
      by_cases hk : k = 0
      · subst hk
        simp only [run_iterations, Option.some.injEq] at h
        subst h
        rfl
      · have h1 := hall 1 (by omega)
        obtain ⟨g1, hg1, ht1⟩ := h1
        simp only [run_iterations, hI, Option.some_bind, Option.some.injEq] at hg1
        subst hg1
        apply ih g2 gk fuel ht1 _ h
        intro j hj
        obtain ⟨gj, hgj, htj⟩ := hall (j + 1) (by omega)
        rw [run_iterations, hI] at hgj
        exact ⟨gj, hgj, htj⟩

theorem update_charge_spaces_single_entry (nxt : next_extremal_op) (g : ground_state_space)
    (c : sidb_cluster) (hcl : g.clustering = [c])
    (hlen : (g.data c.uid).charge_space.length = 1) :
    g.update_charge_spaces nxt none = some (true, g) := by
  rw [update_charge_spaces_singleton nxt g c hcl]
  unfold check_charge_space
  rw [if_pos hlen]
  rfl

/-- A run in which no call is undefined terminates at the root. For a run from a state after
construction over a well-formed hierarchy with distinct uids and `N` sites in which every call of
`update_charge_spaces` and of `move_up_hierarchy` returns, the initial clustering holds `N`
clusters, each of the first `N - 1` iterations of the outer loop merges two clusters, and with at
least `pass_budget N` passes for every inner loop and at least `N + 1` steps for the outer loop
`run` returns the state after `N` iterations, in which `terminate` is set and the clustering
holds the top cluster alone. -/
theorem run_returns_at_root (nxt : next_extremal_op) (top : sidb_cluster)
    (hw : top.well_formed) (hu : top.uids.Nodup) (g0 : ground_state_space)
    (h0 : after_construction top g0) (hterm : g0.terminate = false)
    (hdef : ∀ g, run_reaches nxt g0 g → (g.update_charge_spaces nxt none).isSome = true
      ∧ (g.move_up_hierarchy nxt).isSome = true)
    (inner_fuel outer_fuel : Nat) (hin : pass_budget top.size ≤ inner_fuel)
    (hout : top.size + 1 ≤ outer_fuel) :
    1 ≤ top.size ∧ g0.clustering.length = top.size
      ∧ (∀ k, k < top.size → ∃ gk, run_iterations nxt inner_fuel k g0 = some gk
          ∧ gk.terminate = false ∧ gk.clustering.length = top.size - k)
      ∧ ∃ g1 res, run_iterations nxt inner_fuel top.size g0 = some g1
          ∧ g0.run nxt inner_fuel outer_fuel = some (g1, res)
          ∧ g1.terminate = true ∧ g1.clustering = [top] := by
  have hN := size_pos_of_well_formed top hw
  have hlen0 : g0.clustering.length = top.size := by
    rw [h0.2.1]
    exact get_initial_clustering_length top hw hu
  have hA : ∀ k, k < top.size → ∃ gk, run_iterations nxt inner_fuel k g0 = some gk
      ∧ gk.terminate = false ∧ gk.clustering.length = top.size - k
      ∧ run_reaches nxt g0 gk := by
    intro k
    induction k with
    | zero =>
      intro _
      exact ⟨g0, rfl, hterm, by rw [hlen0]; rfl, run_reaches.start⟩
    | succ k ih =>
      intro hk
      obtain ⟨gk, h1, h2, h3, h4⟩ := ih (by omega)
      obtain ⟨g2, i1, i2, i3, -⟩ := run_iteration_returns nxt top hw hu g0 h0 hdef inner_fuel
        hin gk h4
      obtain ⟨j1, j2⟩ := i3 (by omega)
      refine ⟨g2, ?_, j2.trans h2, by omega, i2⟩
      rw [run_iterations_succ nxt inner_fuel k g0 gk h1]
      exact i1
  obtain ⟨gl, l1, l2, l3, l4⟩ := hA (top.size - 1) (by omega)
  obtain ⟨g1, i1, -, -, i4⟩ := run_iteration_returns nxt top hw hu g0 h0 hdef inner_fuel hin
    gl l4
  obtain ⟨c1, c2⟩ := i4 (by omega)
  have hiter : run_iterations nxt inner_fuel top.size g0 = some g1 := by
    have := run_iterations_succ nxt inner_fuel (top.size - 1) g0 gl l1
    rw [Nat.sub_add_cancel hN] at this
    rw [this]
    exact i1
  have hloop : run_loop nxt inner_fuel outer_fuel g0 = some g1 := by
    obtain ⟨f, hf⟩ : ∃ f, outer_fuel = (f + 1) + top.size := ⟨outer_fuel - top.size - 1, by omega⟩
    rw [hf, run_loop_of_run_iterations nxt inner_fuel top.size g0 g1 (f + 1) hterm
      (fun j hj => by
        obtain ⟨gj, a1, a2, -⟩ := hA j hj
        exact ⟨gj, a1, a2⟩) hiter]
    rw [run_loop, if_pos c2]
  refine ⟨hN, hlen0, fun k hk => ?_, g1,
    ⟨g1.top_cluster,
      u64_sub (maximum_top_level_multisets g1.top_cluster.size)
        (g1.data g1.top_cluster.uid).charge_space.length,
      maximum_top_level_multisets g1.top_cluster.size⟩, hiter, ?_, c2, c1⟩
  · obtain ⟨gk, a1, a2, a3, -⟩ := hA k hk
    exact ⟨gk, a1, a2, a3⟩
  · unfold run
    rw [hloop]

theorem run_reaches_two_leaf_state (g : ground_state_space)
    (hr : run_reaches potential_projection_order.get_next
      (two_leaf_state [⟨neg1, []⟩, ⟨neut1, []⟩] [⟨neut1, []⟩]) g) :
    g = two_leaf_state [⟨neg1, []⟩, ⟨neut1, []⟩] [⟨neut1, []⟩]
      ∨ (g.clustering = [two_leaf_top] ∧ (g.data two_leaf_top.uid).charge_space.length = 1) := by
  induction hr with
  | start => exact Or.inl rfl
  | prune g g1 r _ hU ih =>
    rcases ih with rfl | ⟨h1, h2⟩
    · left
      have hU2 : (two_leaf_state [⟨neg1, []⟩, ⟨neut1, []⟩] [⟨neut1, []⟩]).update_charge_spaces
          potential_projection_order.get_next none
          = some (true, two_leaf_state [⟨neg1, []⟩, ⟨neut1, []⟩] [⟨neut1, []⟩]) := rfl
      rw [hU2] at hU
      simp only [Option.some.injEq, Prod.mk.injEq] at hU
      exact hU.2.symm
    · right
      rw [update_charge_spaces_single_entry _ g two_leaf_top h1 h2] at hU
      simp only [Option.some.injEq, Prod.mk.injEq] at hU
      rw [← hU.2]
      exact ⟨h1, h2⟩
  | move_up g g1 _ hM ih =>
    right
    rcases ih with rfl | ⟨h1, h2⟩
    · have key : ((two_leaf_state [⟨neg1, []⟩, ⟨neut1, []⟩] [⟨neut1, []⟩]).move_up_hierarchy
          potential_projection_order.get_next).map
            (fun s => (s.clustering, (s.data two_leaf_top.uid).charge_space.length))
          = some ([two_leaf_top], 1) := by decide
      rw [hM] at key
      simp only [Option.map_some', Option.some.injEq, Prod.mk.injEq] at key
      exact key
    · unfold move_up_hierarchy at hM
      rw [if_pos (by rw [h1]; rfl)] at hM
      simp only [Option.some.injEq] at hM
      rw [← hM]
      exact ⟨h1, h2⟩

theorem after_construction_two_leaf_fixpoint :
    after_construction two_leaf_top (two_leaf_state [⟨neg1, []⟩, ⟨neut1, []⟩] [⟨neut1, []⟩]) := by
  refine ⟨rfl, by decide, ?_, ?_, ?_⟩
  · intro c hc hch
    simp only [two_leaf_top, nodes, List.mem_cons, List.mem_append, List.mem_singleton,
      List.not_mem_nil, or_false] at hc
    rcases hc with rfl | rfl | rfl
    · rfl
    · simp [children] at hch
    · simp [children] at hch
  · intro c hc hch e he
    simp only [two_leaf_top, nodes, List.mem_cons, List.mem_append, List.mem_singleton,
      List.not_mem_nil, or_false] at hc
    rcases hc with rfl | rfl | rfl
    · simp [children] at hch
    · simp [two_leaf_state, two_leaf_data, uid] at he
      rcases he with rfl | rfl <;> rfl
    · simp [two_leaf_state, two_leaf_data, uid] at he
      subst he
      rfl
  · intro c hc
    simp only [two_leaf_top, nodes, List.mem_cons, List.mem_append, List.mem_singleton,
      List.not_mem_nil, or_false] at hc
    rcases hc with rfl | rfl | rfl <;> decide

/-! ### Witness classification -/

theorem mem_set_emplace (x y : Nat) : ∀ (s : List Nat), y ∈ set_emplace x s ↔ y = x ∨ y ∈ s := by
  intro s
  induction s with
  | nil => simp [set_emplace]
  | cons z zs ih =>
    unfold set_emplace
    by_cases h1 : x < z
    · rw [if_pos h1]; simp
    · rw [if_neg h1]
      by_cases h2 : x = z
      · rw [if_pos h2]; subst h2; simp
      · rw [if_neg h2, List.mem_cons, ih, List.mem_cons]
        tauto

theorem classify_site_mem (mu : Pot × Pot × Pot × Pot) (i : Nat) (lb ub : Pot)
    (st : witness_partitioning_state) (j : Nat) :
    (j ∈ (classify_site mu i lb ub st).negative_witnesses ↔
        (j = i ∧ st.required_neg_count ≠ 0 ∧ ¬ lb > mu.1) ∨ j ∈ st.negative_witnesses)
      ∧ (j ∈ (classify_site mu i lb ub st).positive_witnesses ↔
        (j = i ∧ st.required_pos_count ≠ 0 ∧ ¬ ub < mu.2.2.2) ∨ j ∈ st.positive_witnesses)
      ∧ (j ∈ (classify_site mu i lb ub st).neutral_witnesses ↔
        (j = i ∧ st.required_neut_count ≠ 0 ∧ ¬ ub < mu.2.1 ∧ ¬ lb > mu.2.2.1)
          ∨ j ∈ st.neutral_witnesses) := by
  unfold classify_site fail_onto_negative_charge fail_onto_positive_charge
    ub_fail_onto_neutral_charge lb_fail_onto_neutral_charge
  dsimp only
  simp only [decide_eq_false_iff_not]
  split_ifs <;> (try simp only [mem_set_emplace]) <;> tauto

theorem collect_witnesses_mem (mu : Pot × Pot × Pot × Pot) (bounds : Nat → Option (Pot × Pot)) :
    ∀ (sidbs : List Nat) (st st1 : witness_partitioning_state),
      collect_witnesses mu bounds sidbs st = some st1 →
      ∀ j,
        (j ∈ st1.negative_witnesses ↔
          (j ∈ sidbs ∧ st.required_neg_count ≠ 0
            ∧ ∃ lb ub, bounds j = some (lb, ub) ∧ ¬ lb > mu.1) ∨ j ∈ st.negative_witnesses)
        ∧ (j ∈ st1.positive_witnesses ↔
          (j ∈ sidbs ∧ st.required_pos_count ≠ 0
            ∧ ∃ lb ub, bounds j = some (lb, ub) ∧ ¬ ub < mu.2.2.2) ∨ j ∈ st.positive_witnesses)
        ∧ (j ∈ st1.neutral_witnesses ↔
          (j ∈ sidbs ∧ st.required_neut_count ≠ 0
            ∧ ∃ lb ub, bounds j = some (lb, ub) ∧ ¬ ub < mu.2.1 ∧ ¬ lb > mu.2.2.1)
              ∨ j ∈ st.neutral_witnesses) := by
  intro sidbs
  induction sidbs with
  | nil =>
    intro st st1 h j
    simp only [collect_witnesses, Option.some.injEq] at h
    subst h
    simp
  | cons i rest ih =>
    intro st st1 h j
    unfold collect_witnesses at h
    split at h
    · simp at h
    · rename_i lb ub hb
      obtain ⟨h1, h2, h3⟩ := ih _ _ h j
      obtain ⟨k1, k2, k3⟩ := classify_site_counts mu i lb ub st
      obtain ⟨c1, c2, c3⟩ := classify_site_mem mu i lb ub st j
      rw [k1] at h1
      rw [k2] at h2
      rw [k3] at h3
      rw [h1, h2, h3, c1, c2, c3]
      simp only [List.mem_cons]
      refine ⟨?_, ?_, ?_⟩
      · constructor
        · rintro (⟨a, b, c⟩ | ⟨rfl, b, c⟩ | d)
          · exact Or.inl ⟨Or.inr a, b, c⟩
          · exact Or.inl ⟨Or.inl rfl, b, lb, ub, hb, c⟩
          · exact Or.inr d
        · rintro (⟨a | a, b, lb1, ub1, e, c⟩ | d)
          · subst a
            rw [hb] at e
            simp only [Option.some.injEq, Prod.mk.injEq] at e
            obtain ⟨rfl, rfl⟩ := e
            exact Or.inr (Or.inl ⟨rfl, b, c⟩)
          · exact Or.inl ⟨a, b, lb1, ub1, e, c⟩
          · exact Or.inr (Or.inr d)
      · constructor
        · rintro (⟨a, b, c⟩ | ⟨rfl, b, c⟩ | d)
          · exact Or.inl ⟨Or.inr a, b, c⟩
          · exact Or.inl ⟨Or.inl rfl, b, lb, ub, hb, c⟩
          · exact Or.inr d
        · rintro (⟨a | a, b, lb1, ub1, e, c⟩ | d)
          · subst a
            rw [hb] at e
            simp only [Option.some.injEq, Prod.mk.injEq] at e
            obtain ⟨rfl, rfl⟩ := e
            exact Or.inr (Or.inl ⟨rfl, b, c⟩)
          · exact Or.inl ⟨a, b, lb1, ub1, e, c⟩
          · exact Or.inr (Or.inr d)
      · constructor
        · rintro (⟨a, b, c⟩ | ⟨rfl, b, c⟩ | d)
          · exact Or.inl ⟨Or.inr a, b, c⟩
          · exact Or.inl ⟨Or.inl rfl, b, lb, ub, hb, c⟩
          · exact Or.inr d
        · rintro (⟨a | a, b, lb1, ub1, e, c⟩ | d)
          · subst a
            rw [hb] at e
            simp only [Option.some.injEq, Prod.mk.injEq] at e
            obtain ⟨rfl, rfl⟩ := e
            exact Or.inr (Or.inl ⟨rfl, b, c⟩)
          · exact Or.inl ⟨a, b, lb1, ub1, e, c⟩
          · exact Or.inr (Or.inr d)

theorem collect_witnesses_isSome (mu : Pot × Pot × Pot × Pot)
    (bounds : Nat → Option (Pot × Pot)) :
    ∀ (sidbs : List Nat) (st : witness_partitioning_state),
      (∀ i ∈ sidbs, (bounds i).isSome = true) →
      ∃ st1, collect_witnesses mu bounds sidbs st = some st1 := by
  intro sidbs
  induction sidbs with
  | nil => intro st _; exact ⟨st, rfl⟩
  | cons i rest ih =>
    intro st h
    unfold collect_witnesses
    cases hb : bounds i with
    | none =>
      have := h i (List.mem_cons_self _ _)
      rw [hb] at this
      simp at this
    | some p =>
      obtain ⟨lb, ub⟩ := p
      exact ih _ (fun j hj => h j (List.mem_cons_of_mem _ hj))

/-- C23: witness classification. With the band edges that the constructor stores
(`e_n_upper = ERR - mu_minus`, `e_n_lower = -ERR - mu_minus`, `e_p_upper = ERR - mu_plus`,
`e_p_lower = -ERR - mu_plus`), when the received bounds exist at every site of the analysed
cluster, the site loop of `perform_potential_bound_analysis` returns a witness state, on which
the method then decides; the state keeps the three counts of the multiset, and for every site `i`
of the cluster with received bounds `(V_lb, V_ub)`: `i` is in `W-` iff `n- ≠ 0` and not
`V_lb > e_n_upper`; `i` is in `W+` iff `n+ ≠ 0` and not `V_ub < e_p_lower`; `i` is in `W0` iff
`n0 ≠ 0` and not `V_ub < e_n_lower` and not `V_lb > e_p_upper`, all four comparisons strict; and
the witness sets hold sites of the cluster only. -/
theorem witness_classification (gss : ground_state_space) (ERR mu_minus mu_plus : Pot)
    (hmu : gss.mu_bounds_with_error = mu_bounds_with_error_init ERR mu_minus mu_plus)
    (mode : potential_bound_analysis_mode) (c : sidb_cluster) (m : multiset_conf)
    (internal_pot_bounds : Option intra_cluster_potential_bounds)
    (hb : ∀ i ∈ c.sidbs,
      (gss.get_received_potential_bounds mode c m internal_pot_bounds i).isSome = true) :
    ∃ st, collect_witnesses gss.mu_bounds_with_error
          (gss.get_received_potential_bounds mode c m internal_pot_bounds) c.sidbs
          (witness_partitioning_state.init m) = some st
      ∧ gss.perform_potential_bound_analysis mode c m internal_pot_bounds
          = decide_witness_state gss.witness_partitioning_max_cluster_size c.sidbs.length st
      ∧ st.required_neg_count = m.neg ∧ st.required_pos_count = m.pos
      ∧ st.required_neut_count = m.neut
      ∧ (∀ i V_lb V_ub, i ∈ c.sidbs →
          gss.get_received_potential_bounds mode c m internal_pot_bounds i = some (V_lb, V_ub) →
          (i ∈ st.negative_witnesses ↔ m.neg ≠ 0 ∧ ¬ V_lb > ERR - mu_minus)
            ∧ (i ∈ st.positive_witnesses ↔ m.pos ≠ 0 ∧ ¬ V_ub < -ERR - mu_plus)
            ∧ (i ∈ st.neutral_witnesses ↔
                m.neut ≠ 0 ∧ ¬ V_ub < -ERR - mu_minus ∧ ¬ V_lb > ERR - mu_plus))
      ∧ ∀ i, i ∉ c.sidbs → i ∉ st.negative_witnesses ∧ i ∉ st.positive_witnesses
          ∧ i ∉ st.neutral_witnesses := by
  obtain ⟨st, hst⟩ := collect_witnesses_isSome gss.mu_bounds_with_error
    (gss.get_received_potential_bounds mode c m internal_pot_bounds) c.sidbs
    (witness_partitioning_state.init m) hb
  obtain ⟨k1, k2, k3⟩ := collect_witnesses_counts _ _ _ _ _ hst
  have hm := collect_witnesses_mem _ _ _ _ _ hst
  have e1 : gss.mu_bounds_with_error.1 = ERR - mu_minus := by rw [hmu]; rfl
  have e2 : gss.mu_bounds_with_error.2.1 = -ERR - mu_minus := by rw [hmu]; rfl
  have e3 : gss.mu_bounds_with_error.2.2.1 = ERR - mu_plus := by rw [hmu]; rfl
  have e4 : gss.mu_bounds_with_error.2.2.2 = -ERR - mu_plus := by rw [hmu]; rfl
  refine ⟨st, hst, ?_, k1, k2, k3, ?_, ?_⟩
  · unfold perform_potential_bound_analysis perform_potential_bound_analysis_on
    rw [hst]
  · intro i V_lb V_ub hi hbi
    obtain ⟨h1, h2, h3⟩ := hm i
    rw [e1] at h1
    rw [e4] at h2
    rw [e2, e3] at h3
    simp only [witness_partitioning_state.init, List.not_mem_nil, or_false] at h1 h2 h3
    rw [h1, h2, h3, hbi]
    simp only [Option.some.injEq, Prod.mk.injEq]
    refine ⟨?_, ?_, ?_⟩
    · constructor
      · rintro ⟨-, a, lb, ub, ⟨rfl, rfl⟩, b⟩
        exact ⟨a, b⟩
      · rintro ⟨a, b⟩
        exact ⟨hi, a, V_lb, V_ub, ⟨rfl, rfl⟩, b⟩
    · constructor
      · rintro ⟨-, a, lb, ub, ⟨rfl, rfl⟩, b⟩
        exact ⟨a, b⟩
      · rintro ⟨a, b⟩
        exact ⟨hi, a, V_lb, V_ub, ⟨rfl, rfl⟩, b⟩
    · constructor
      · rintro ⟨-, a, lb, ub, ⟨rfl, rfl⟩, b⟩
        exact ⟨a, b⟩
      · rintro ⟨a, b⟩
        exact ⟨hi, a, V_lb, V_ub, ⟨rfl, rfl⟩, b⟩
  · intro i hi
    obtain ⟨h1, h2, h3⟩ := hm i
    simp only [witness_partitioning_state.init, List.not_mem_nil, or_false] at h1 h2 h3
    rw [h1, h2, h3]
    exact ⟨fun h => hi h.1, fun h => hi h.1, fun h => hi h.1⟩

/-- The witness state of `witness_classification` on the cluster of site 0 of a state with two
singleton clusters, for the multiset of one negative site: site 0 receives `(0, 0.4)` and is a
negative witness. -/
theorem witness_classification_witness :
    (two_leaf_state [⟨neg1, []⟩, ⟨neut1, []⟩] [⟨neut1, []⟩]).mu_bounds_with_error
        = mu_bounds_with_error_init 1 (-320000) (-910000)
      ∧ (∀ i ∈ (sidb_cluster.leaf 0 [0]).sidbs,
          ((two_leaf_state [⟨neg1, []⟩, ⟨neut1, []⟩] [⟨neut1, []⟩]).get_received_potential_bounds
            .ANALYZE_MULTISET (.leaf 0 [0]) neg1 none i).isSome = true)
      ∧ ∃ st, collect_witnesses example_mu
          ((two_leaf_state [⟨neg1, []⟩, ⟨neut1, []⟩] [⟨neut1, []⟩]).get_received_potential_bounds
            .ANALYZE_MULTISET (.leaf 0 [0]) neg1 none) [0]
          (witness_partitioning_state.init neg1) = some st
        ∧ 0 ∈ st.negative_witnesses ∧ 0 ∉ st.positive_witnesses := by
  refine ⟨rfl, by decide, ?_⟩
  obtain ⟨st, h1, -, -, -, -, h6, -⟩ := witness_classification
    (two_leaf_state [⟨neg1, []⟩, ⟨neut1, []⟩] [⟨neut1, []⟩]) 1 (-320000) (-910000) (by decide)
    .ANALYZE_MULTISET (.leaf 0 [0]) neg1 none (by decide)
  obtain ⟨k1, k2, -⟩ := h6 0 0 400000 (List.mem_singleton.mpr rfl) (by decide)
  exact ⟨st, h1, k1.mpr (by decide), fun h => absurd (k2.mp h).1 (by decide)⟩

/-! ### Received bounds -/

/-- C25: received bounds by mode. In the mode `ANALYZE_MULTISET`, when the store of the cluster
`c` onto its site `i` is sorted and holds an entry tagged `m`, the function
`get_received_potential_bounds` returns `(V_lb, V_ub)` with `V_lb = lo.V + recv_ext_bounds[i].lower`
and `V_ub = hi.V + recv_ext_bounds[i].upper`, where `lo` and `hi` are entries of the store tagged
`m` and every entry tagged `m` has a potential between `lo.V` and `hi.V`; without an entry tagged
`m` the call is undefined. In the mode `ANALYZE_COMPOSITION` the first summands are the attached
lower and upper bound at `i`. -/
theorem received_bounds_by_mode (gss : ground_state_space) (c : sidb_cluster) (m : multiset_conf)
    (i : Nat) :
    (((gss.data c.uid).pot_projs i).Pairwise (fun a b => a.V ≤ b.V) →
      (∃ pp ∈ (gss.data c.uid).pot_projs i, pp.M = m) →
      ∀ internal_pot_bounds, ∃ lo hi,
        gss.get_received_potential_bounds .ANALYZE_MULTISET c m internal_pot_bounds i
          = some (lo.V + ((gss.data c.uid).recv_ext_pot_bounds i).1,
              hi.V + ((gss.data c.uid).recv_ext_pot_bounds i).2)
        ∧ gss.get_proj_state_bound .LOWER c m i = some lo
        ∧ gss.get_proj_state_bound .UPPER c m i = some hi
        ∧ lo ∈ (gss.data c.uid).pot_projs i ∧ lo.M = m
        ∧ hi ∈ (gss.data c.uid).pot_projs i ∧ hi.M = m
        ∧ ∀ pp ∈ (gss.data c.uid).pot_projs i, pp.M = m → lo.V ≤ pp.V ∧ pp.V ≤ hi.V)
      ∧ ((∀ pp ∈ (gss.data c.uid).pot_projs i, pp.M ≠ m) →
        ∀ internal_pot_bounds,
          gss.get_received_potential_bounds .ANALYZE_MULTISET c m internal_pot_bounds i = none)
      ∧ ∀ (bounds : intra_cluster_potential_bounds) (lo hi : Pot),
          bounds.at i = some (lo, hi) →
          gss.get_received_potential_bounds .ANALYZE_COMPOSITION c m (some bounds) i
            = some (lo + ((gss.data c.uid).recv_ext_pot_bounds i).1,
                hi + ((gss.data c.uid).recv_ext_pot_bounds i).2) := by
  refine ⟨?_, ?_, ?_⟩
  · intro hs hM ipb
    obtain ⟨pp, hpp, hm⟩ := hM
    have h1 := get_pot_proj_for_m_conf_isSome .LOWER _ m pp hpp hm
    have h2 := get_pot_proj_for_m_conf_isSome .UPPER _ m pp hpp hm
    obtain ⟨lo, hlo⟩ := Option.isSome_iff_exists.mp h1
    obtain ⟨hi, hhi⟩ := Option.isSome_iff_exists.mp h2
    obtain ⟨a1, a2⟩ := get_pot_proj_for_m_conf_some _ _ _ _ hlo
    obtain ⟨b1, b2⟩ := get_pot_proj_for_m_conf_some _ _ _ _ hhi
    refine ⟨lo, hi, ?_, hlo, hhi, a1, a2, b1, b2, ?_⟩
    · unfold get_received_potential_bounds get_proj_state_bound get_recv_ext_pot_bound
      simp only
      rw [hlo, hhi]
    · intro q hq hqm
      have hf := List.Pairwise.filter (fun pp => decide (pp.M = m)) hs
      have hqf : q ∈ ((gss.data c.uid).pot_projs i).filter (fun pp => decide (pp.M = m)) :=
        List.mem_filter.mpr ⟨hq, by simpa using hqm⟩
      unfold potential_projection_order.get_pot_proj_for_m_conf at hlo hhi
      exact ⟨(get_extremal .LOWER _ hf lo hlo).2 q hqf, (get_extremal .UPPER _ hf hi hhi).2 q hqf⟩
  · intro hno ipb
    have hnil : ((gss.data c.uid).pot_projs i).filter (fun pp => decide (pp.M = m)) = [] := by
      rw [List.filter_eq_nil_iff]
      intro a ha
      simpa using hno a ha
    unfold get_received_potential_bounds get_proj_state_bound
      potential_projection_order.get_pot_proj_for_m_conf
    simp only
    rw [hnil]
    rfl
  · intro bounds lo hi hb
    unfold get_received_potential_bounds get_recv_ext_pot_bound
    simp only
    rw [hb]

/-- The received bounds of `received_bounds_by_mode` for the cluster of site 0 of a state with
two singleton clusters and the multiset of one negative site. -/
theorem received_bounds_by_mode_witness :
    (((two_leaf_state [⟨neg1, []⟩, ⟨neut1, []⟩] [⟨neut1, []⟩]).data
        (sidb_cluster.leaf 0 [0]).uid).pot_projs 0).Pairwise (fun a b => a.V ≤ b.V)
      ∧ (∃ pp ∈ ((two_leaf_state [⟨neg1, []⟩, ⟨neut1, []⟩] [⟨neut1, []⟩]).data
          (sidb_cluster.leaf 0 [0]).uid).pot_projs 0, pp.M = neg1)
      ∧ (two_leaf_state [⟨neg1, []⟩, ⟨neut1, []⟩] [⟨neut1, []⟩]).get_received_potential_bounds
          .ANALYZE_MULTISET (.leaf 0 [0]) neg1 none 0 = some (0, 400000) := by
  have hs : (((two_leaf_state [⟨neg1, []⟩, ⟨neut1, []⟩] [⟨neut1, []⟩]).data
      (sidb_cluster.leaf 0 [0]).uid).pot_projs 0).Pairwise (fun a b => a.V ≤ b.V) := by
    decide
  have hM : ∃ pp ∈ ((two_leaf_state [⟨neg1, []⟩, ⟨neut1, []⟩] [⟨neut1, []⟩]).data
      (sidb_cluster.leaf 0 [0]).uid).pot_projs 0, pp.M = neg1 := ⟨⟨0, neg1⟩, by decide, rfl⟩
  obtain ⟨lo, hi, h1, h2, h3, -⟩ := (received_bounds_by_mode
    (two_leaf_state [⟨neg1, []⟩, ⟨neut1, []⟩] [⟨neut1, []⟩]) (.leaf 0 [0]) neg1 0).1 hs hM none
  refine ⟨hs, hM, ?_⟩
  rw [h1]
  have e1 : lo = ⟨0, neg1⟩ := by
    have : (two_leaf_state [⟨neg1, []⟩, ⟨neut1, []⟩] [⟨neut1, []⟩]).get_proj_state_bound .LOWER
        (.leaf 0 [0]) neg1 0 = some ⟨0, neg1⟩ := by decide
    rw [this] at h2
    exact (Option.some.inj h2).symm
  have e2 : hi = ⟨0, neg1⟩ := by
    have : (two_leaf_state [⟨neg1, []⟩, ⟨neut1, []⟩] [⟨neut1, []⟩]).get_proj_state_bound .UPPER
        (.leaf 0 [0]) neg1 0 = some ⟨0, neg1⟩ := by decide
    rw [this] at h3
    exact (Option.some.inj h3).symm
  subst e1 e2
  decide


/-! ### The removal propagation step -/

theorem if_bound_removed_step (nxt : next_extremal_op) (b : bound_direction)
    (s s1 : ground_state_space) (pc : sidb_cluster) (pm : multiset_conf) (rc : sidb_cluster)
    (i : Nat) (h : update_external_pot_proj_if_bound_removed nxt b s pc pm rc i = some s1) :
    ∃ cur, potential_projection_order.get b ((s.data pc.uid).pot_projs i) = some cur
      ∧ (cur.M = pm → ∃ nx, nxt b ((s.data pc.uid).pot_projs i) = some nx
          ∧ s1 = s.set_recv_ext_pot_bound b rc i
              (s.get_recv_ext_pot_bound b rc i + (nx.V - cur.V)))
      ∧ (cur.M ≠ pm → s1 = s) := by
  unfold update_external_pot_proj_if_bound_removed get_proj_bound get_next_proj_pot_bound at h
  cases hc : potential_projection_order.get b ((s.data pc.uid).pot_projs i) with
  | none => rw [hc] at h; simp at h
  | some cur =>
    rw [hc] at h
    simp only at h
    refine ⟨cur, rfl, ?_, ?_⟩
    · intro hm
      rw [if_pos hm] at h
      cases hn : nxt b ((s.data pc.uid).pot_projs i) with
      | none => rw [hn] at h; simp at h
      | some nx =>
        rw [hn] at h
        simp only [Option.map_some', Option.some.injEq] at h
        exact ⟨nx, rfl, h.symm⟩
    · intro hm
      rw [if_neg hm] at h
      exact (Option.some.inj h).symm

theorem if_bound_removed_defined (nxt : next_extremal_op) (b : bound_direction)
    (s : ground_state_space) (pc : sidb_cluster) (pm : multiset_conf) (rc : sidb_cluster)
    (i : Nat) (cur : potential_projection)
    (hc : potential_projection_order.get b ((s.data pc.uid).pot_projs i) = some cur)
    (hn : cur.M = pm → (nxt b ((s.data pc.uid).pot_projs i)).isSome = true) :
    (update_external_pot_proj_if_bound_removed nxt b s pc pm rc i).isSome = true := by
  unfold update_external_pot_proj_if_bound_removed get_proj_bound get_next_proj_pot_bound
  rw [hc]
  simp only
  by_cases hm : cur.M = pm
  · rw [if_pos hm]
    obtain ⟨nx, hnx⟩ := Option.isSome_iff_exists.mp (hn hm)
    rw [hnx]
    rfl
  · rw [if_neg hm]
    rfl

theorem remove_store (g : ground_state_space) (c : sidb_cluster) (m : multiset_conf) (i : Nat) :
    (g.remove_all_cluster_charge_state_occurrences c m i).clustering = g.clustering
      ∧ same_charge_spaces g (g.remove_all_cluster_charge_state_occurrences c m i)
      ∧ (∀ u, ((g.remove_all_cluster_charge_state_occurrences c m i).data u).recv_ext_pot_bounds
          = (g.data u).recv_ext_pot_bounds)
      ∧ (∀ u j, (u ≠ c.uid ∨ j ≠ i) →
          ((g.remove_all_cluster_charge_state_occurrences c m i).data u).pot_projs j
            = (g.data u).pot_projs j)
      ∧ ((g.remove_all_cluster_charge_state_occurrences c m i).data c.uid).pot_projs i
          = potential_projection_order.remove_m_conf m ((g.data c.uid).pot_projs i) := by
  refine ⟨rfl, ?_, ?_, ?_, ?_⟩
  · intro u
    unfold remove_all_cluster_charge_state_occurrences
    by_cases hu : u = c.uid
    · subst hu; rw [modify_data_self]
    · rw [modify_data_other _ _ _ _ hu]
  · intro u
    unfold remove_all_cluster_charge_state_occurrences
    by_cases hu : u = c.uid
    · subst hu; rw [modify_data_self]
    · rw [modify_data_other _ _ _ _ hu]
  · intro u j huj
    unfold remove_all_cluster_charge_state_occurrences
    by_cases hu : u = c.uid
    · subst hu
      rw [modify_data_self]
      rcases huj with h1 | h1
      · exact absurd rfl h1
      · simp only [Function.update_noteq h1]
    · rw [modify_data_other _ _ _ _ hu]
  · unfold remove_all_cluster_charge_state_occurrences
    rw [modify_data_self]
    simp

theorem get_recv_of_bounds (g g1 : ground_state_space) (b : bound_direction) (c : sidb_cluster)
    (i : Nat) (h : ∀ u, (g1.data u).recv_ext_pot_bounds = (g.data u).recv_ext_pot_bounds) :
    g1.get_recv_ext_pot_bound b c i = g.get_recv_ext_pot_bound b c i := by
  unfold get_recv_ext_pot_bound
  rw [h]

/-- The one-direction step as a relation between states: stores, clustering and charge spaces
stay, the received bound of `rc` at the site changes as `propagated_change` says, and no other
received bound changes. -/
theorem if_bound_removed_change (nxt : next_extremal_op) (b : bound_direction)
    (s s1 : ground_state_space) (pc : sidb_cluster) (pm : multiset_conf) (rc : sidb_cluster)
    (i : Nat) (h : update_external_pot_proj_if_bound_removed nxt b s pc pm rc i = some s1) :
    s1.clustering = s.clustering ∧ same_charge_spaces s s1
      ∧ (∀ u, (s1.data u).pot_projs = (s.data u).pot_projs)
      ∧ (∀ b1 c1 j, (c1.uid ≠ rc.uid ∨ j ≠ i ∨ b1 ≠ b) →
          s1.get_recv_ext_pot_bound b1 c1 j = s.get_recv_ext_pot_bound b1 c1 j)
      ∧ propagated_change nxt pm b ((s.data pc.uid).pot_projs i)
          (s.get_recv_ext_pot_bound b rc i) (s1.get_recv_ext_pot_bound b rc i) := by
  obtain ⟨cur, hc, h1, h2⟩ := if_bound_removed_step nxt b s s1 pc pm rc i h
  by_cases hm : cur.M = pm
  · obtain ⟨nx, hn, rfl⟩ := h1 hm
    refine ⟨rfl, ?_, ?_, ?_, ?_⟩
    · unfold set_recv_ext_pot_bound
      exact same_charge_spaces_modify _ _ _ (fun _ => rfl)
    · intro u
      exact set_recv_stores _ _ _ _ _ u
    · intro b1 c1 j hj
      rw [get_recv_set_recv]
      rw [if_neg]
      rintro ⟨a1, a2, a3⟩
      rcases hj with hj | hj | hj
      · exact hj a1
      · exact hj a2
      · exact hj a3
    · refine ⟨cur, hc, fun _ => ⟨nx, hn, ?_⟩, fun hne => absurd hm hne⟩
      rw [get_recv_set_recv]
      simp
  · have := h2 hm
    subst this
    exact ⟨rfl, same_charge_spaces_refl _, fun _ => rfl, fun _ _ _ _ => rfl,
      cur, hc, fun h => absurd h hm, fun _ => rfl⟩

/-- The effect of `update_external_potential_projection` for an arbitrary store operation
`nxt`. -/
theorem update_external_change (nxt : next_extremal_op) (s s1 : ground_state_space)
    (pc : sidb_cluster) (pm : multiset_conf) (rc : sidb_cluster) (i : Nat)
    (h : update_external_potential_projection nxt s pc pm rc i = some s1) :
    s1.clustering = s.clustering ∧ same_charge_spaces s s1
      ∧ (∀ u j, (u ≠ pc.uid ∨ j ≠ i) → (s1.data u).pot_projs j = (s.data u).pot_projs j)
      ∧ (s1.data pc.uid).pot_projs i
          = potential_projection_order.remove_m_conf pm ((s.data pc.uid).pot_projs i)
      ∧ (∀ b1 c1 j, (c1.uid ≠ rc.uid ∨ j ≠ i) →
          s1.get_recv_ext_pot_bound b1 c1 j = s.get_recv_ext_pot_bound b1 c1 j)
      ∧ ∀ b, propagated_change nxt pm b ((s.data pc.uid).pot_projs i)
          (s.get_recv_ext_pot_bound b rc i) (s1.get_recv_ext_pot_bound b rc i) := by
  unfold update_external_potential_projection at h
  cases h1 : update_external_pot_proj_if_bound_removed nxt .LOWER s pc pm rc i with
  | none => rw [h1] at h; simp at h
  | some g1 =>
    rw [h1] at h
    simp only at h
    cases h2 : update_external_pot_proj_if_bound_removed nxt .UPPER g1 pc pm rc i with
    | none => rw [h2] at h; simp at h
    | some g2 =>
      rw [h2] at h
      simp only [Option.some.injEq] at h
      obtain ⟨a1, a2, a3, a4, a5⟩ := if_bound_removed_change nxt _ _ _ _ _ _ _ h1
      obtain ⟨b1, b2, b3, b4, b5⟩ := if_bound_removed_change nxt _ _ _ _ _ _ _ h2
      obtain ⟨c1, c2, c3, c4, c5⟩ := remove_store g2 pc pm i
      rw [h] at c1 c2 c3 c4 c5
      have hrecv : ∀ b c j, s1.get_recv_ext_pot_bound b c j = g2.get_recv_ext_pot_bound b c j :=
        fun b c j => get_recv_of_bounds _ _ _ _ _ c3
      refine ⟨c1.trans (b1.trans a1),
        same_charge_spaces_trans _ _ _ a2 (same_charge_spaces_trans _ _ _ b2 c2), ?_, ?_, ?_, ?_⟩
      · intro u j huj
        rw [c4 u j huj, b3, a3]
      · rw [c5, b3, a3]
      · intro d c j hj
        rw [hrecv, b4 d c j (by tauto), a4 d c j (by tauto)]
      · intro d
        cases d with
        | LOWER =>
          rw [hrecv, b4 .LOWER rc i (Or.inr (Or.inr (by decide)))]
          exact a5
        | UPPER =>
          rw [hrecv, ← a4 .UPPER rc i (Or.inr (Or.inr (by decide))), ← a3]
          exact b5

theorem update_external_defined (nxt : next_extremal_op) (s : ground_state_space)
    (pc : sidb_cluster) (pm : multiset_conf) (rc : sidb_cluster) (i : Nat)
    (hd : propagation_defined nxt pm ((s.data pc.uid).pot_projs i)) :
    (update_external_potential_projection nxt s pc pm rc i).isSome = true := by
  unfold update_external_potential_projection
  obtain ⟨cL, hcL, hnL⟩ := hd .LOWER
  obtain ⟨cU, hcU, hnU⟩ := hd .UPPER
  obtain ⟨g1, h1⟩ := Option.isSome_iff_exists.mp
    (if_bound_removed_defined nxt .LOWER s pc pm rc i cL hcL hnL)
  rw [h1]
  simp only
  obtain ⟨-, -, a3, -, -⟩ := if_bound_removed_change nxt _ _ _ _ _ _ _ h1
  obtain ⟨g2, h2⟩ := Option.isSome_iff_exists.mp
    (if_bound_removed_defined nxt .UPPER g1 pc pm rc i cU (by rw [a3]; exact hcU)
      (by rw [a3]; exact hnU))
  rw [h2]
  rfl

theorem handle_invalid_state_receptor_states (nxt : next_extremal_op) (pc : sidb_cluster)
    (pm : multiset_conf) :
    ∀ (cl : List sidb_cluster) (s : ground_state_space),
      for_each (handle_invalid_state_step nxt pc pm) cl s
        = for_each (fun g (p : sidb_cluster × Nat) =>
            update_external_potential_projection nxt g pc pm p.1 p.2)
          (receptor_states pc.uid cl) s := by
  intro cl
  induction cl with
  | nil => intro s; rfl
  | cons c rest ih =>
    intro s
    rw [for_each_cons]
    unfold receptor_states
    by_cases hu : c.uid = pc.uid
    · rw [List.filter_cons_of_neg (by simpa using hu)]
      unfold handle_invalid_state_step
      rw [if_pos hu]
      exact ih s
    · rw [List.filter_cons_of_pos (by simpa using hu), List.flatMap_cons, for_each_append]
      have hmap : ∀ (l : List Nat) (a : ground_state_space),
          for_each (fun g (p : sidb_cluster × Nat) =>
            update_external_potential_projection nxt g pc pm p.1 p.2) (l.map (Prod.mk c)) a
          = for_each (fun g sidb_ix => update_external_potential_projection nxt g pc pm c sidb_ix)
              l a := by
        intro l
        induction l with
        | nil => intro a; rfl
        | cons j js ihj =>
          intro a
          rw [List.map_cons, for_each_cons, for_each_cons]
          cases update_external_potential_projection nxt a pc pm c j with
          | none => rfl
          | some a1 => exact ihj a1
      rw [hmap]
      unfold handle_invalid_state_step
      rw [if_neg hu]
      cases for_each (fun g sidb_ix => update_external_potential_projection nxt g pc pm c sidb_ix)
          c.sidbs s with
      | none => rfl
      | some s1 => exact ih s1

theorem mem_receptor_states (u : Nat) (cl : List sidb_cluster) (p : sidb_cluster × Nat) :
    p ∈ receptor_states u cl ↔ p.1 ∈ cl ∧ p.1.uid ≠ u ∧ p.2 ∈ p.1.sidbs := by
  unfold receptor_states
  simp only [List.mem_flatMap, List.mem_filter, List.mem_map, decide_eq_true_eq]
  constructor
  · rintro ⟨rc, ⟨h1, h2⟩, j, hj, rfl⟩
    exact ⟨h1, h2, hj⟩
  · rintro ⟨h1, h2, h3⟩
    exact ⟨p.1, ⟨h1, h2⟩, p.2, h3, rfl⟩

theorem receptor_states_sites_nodup (u : Nat) :
    ∀ (cl : List sidb_cluster), cl.Pairwise (fun a b => a.sidbs.Disjoint b.sidbs) →
      (∀ c ∈ cl, c.sidbs.Nodup) → ((receptor_states u cl).map Prod.snd).Nodup := by
  intro cl
  induction cl with
  | nil => intro _ _; exact List.nodup_nil
  | cons c rest ih =>
    intro hd hn
    rw [List.pairwise_cons] at hd
    have ihr := ih hd.2 (fun x hx => hn x (List.mem_cons_of_mem _ hx))
    unfold receptor_states
    by_cases hu : c.uid = u
    · rw [List.filter_cons_of_neg (by simpa using hu)]
      exact ihr
    · rw [List.filter_cons_of_pos (by simpa using hu), List.flatMap_cons, List.map_append,
        List.nodup_append]
      refine ⟨?_, ihr, ?_⟩
      · rw [List.map_map]
        have : (Prod.snd ∘ Prod.mk c : Nat → Nat) = id := rfl
        rw [this, List.map_id]
        exact hn c (List.mem_cons_self _ _)
      · intro j hj1 hj2
        rw [List.map_map] at hj1
        have hid : (Prod.snd ∘ Prod.mk c : Nat → Nat) = id := rfl
        rw [hid, List.map_id] at hj1
        obtain ⟨p, hp, hpj⟩ := List.mem_map.mp hj2
        have := (mem_receptor_states u rest p).mp hp
        subst hpj
        exact hd.1 p.1 this.1 hj1 this.2.2

/-- The loop of `handle_invalid_state` over receptor states with distinct sites: every receptor
state sees the store of the projecting cluster onto its site as the loop found it, and the
effects of the steps add up. -/
theorem propagate_effect (nxt : next_extremal_op) (pc : sidb_cluster) (pm : multiset_conf) :
    ∀ (l : List (sidb_cluster × Nat)), (l.map Prod.snd).Nodup →
      ∀ (s s1 : ground_state_space),
        for_each (fun g (p : sidb_cluster × Nat) =>
          update_external_potential_projection nxt g pc pm p.1 p.2) l s = some s1 →
        s1.clustering = s.clustering ∧ same_charge_spaces s s1
          ∧ (∀ u j, (u ≠ pc.uid ∨ j ∉ l.map Prod.snd) →
              (s1.data u).pot_projs j = (s.data u).pot_projs j)
          ∧ (∀ b1 c1 j, (∀ p ∈ l, c1.uid ≠ p.1.uid ∨ j ≠ p.2) →
              s1.get_recv_ext_pot_bound b1 c1 j = s.get_recv_ext_pot_bound b1 c1 j)
          ∧ ∀ p ∈ l,
              (s1.data pc.uid).pot_projs p.2
                = potential_projection_order.remove_m_conf pm ((s.data pc.uid).pot_projs p.2)
              ∧ ∀ b, propagated_change nxt pm b ((s.data pc.uid).pot_projs p.2)
                  (s.get_recv_ext_pot_bound b p.1 p.2) (s1.get_recv_ext_pot_bound b p.1 p.2) := by
  intro l
  induction l with
  | nil =>
    intro _ s s1 h
    simp only [for_each, Option.some.injEq] at h
    subst h
    exact ⟨rfl, same_charge_spaces_refl _, fun _ _ _ => rfl, fun _ _ _ _ => rfl,
      fun p hp => by simp at hp⟩
  | cons q rest ih =>
    intro hnd s s2 h
    rw [List.map_cons, List.nodup_cons] at hnd
    obtain ⟨s1, h1, h2⟩ := for_each_cons_some h
    obtain ⟨a1, a2, a3, a4, a5, a6⟩ := update_external_change nxt s s1 pc pm q.1 q.2 h1
    obtain ⟨b1, b2, b3, b4, b5⟩ := ih hnd.2 s1 s2 h2
    refine ⟨b1.trans a1, same_charge_spaces_trans _ _ _ a2 b2, ?_, ?_, ?_⟩
    · intro u j huj
      rw [b3 u j (by
        rcases huj with hu | hj
        · exact Or.inl hu
        · exact Or.inr (fun hm => hj (by rw [List.map_cons]; exact List.mem_cons_of_mem _ hm)))]
      exact a3 u j (by
        rcases huj with hu | hj
        · exact Or.inl hu
        · exact Or.inr (fun hm => hj (by rw [List.map_cons, hm]; exact List.mem_cons_self _ _)))
    · intro d c1 j hj
      rw [b4 d c1 j (fun p hp => hj p (List.mem_cons_of_mem _ hp))]
      exact a5 d c1 j (hj q (List.mem_cons_self _ _))
    · intro p hp
      rcases List.mem_cons.mp hp with rfl | hp
      · refine ⟨?_, ?_⟩
        · rw [b3 pc.uid p.2 (Or.inr hnd.1)]
          exact a4
        · intro d
          rw [b4 d p.1 p.2 (fun x hx => Or.inr (fun hj => hnd.1 (by
            rw [hj]; exact List.mem_map_of_mem _ hx)))]
          exact a6 d
      · have hne : p.2 ≠ q.2 := fun hj => hnd.1 (by rw [← hj]; exact List.mem_map_of_mem _ hp)
        obtain ⟨k1, k2⟩ := b5 p hp
        refine ⟨?_, ?_⟩
        · rw [k1, a3 pc.uid p.2 (Or.inr hne)]
        · intro d
          have := k2 d
          rw [a3 pc.uid p.2 (Or.inr hne), a5 d p.1 p.2 (Or.inr hne)] at this
          exact this

theorem propagate_defined (nxt : next_extremal_op) (pc : sidb_cluster) (pm : multiset_conf) :
    ∀ (l : List (sidb_cluster × Nat)), (l.map Prod.snd).Nodup →
      ∀ (s : ground_state_space),
        (∀ p ∈ l, propagation_defined nxt pm ((s.data pc.uid).pot_projs p.2)) →
        (for_each (fun g (p : sidb_cluster × Nat) =>
          update_external_potential_projection nxt g pc pm p.1 p.2) l s).isSome = true := by
  intro l
  induction l with
  | nil => intro _ s _; rfl
  | cons q rest ih =>
    intro hnd s hd
    rw [List.map_cons, List.nodup_cons] at hnd
    rw [for_each_cons]
    obtain ⟨s1, h1⟩ := Option.isSome_iff_exists.mp
      (update_external_defined nxt s pc pm q.1 q.2 (hd q (List.mem_cons_self _ _)))
    rw [h1]
    obtain ⟨-, -, a3, -, -, -⟩ := update_external_change nxt s s1 pc pm q.1 q.2 h1
    apply ih hnd.2
    intro p hp
    rw [a3 pc.uid p.2 (Or.inr (fun hj => hnd.1 (by
      rw [← hj]; exact List.mem_map_of_mem _ hp)))]
    exact hd p (List.mem_cons_of_mem _ hp)

/-- C26: the removal propagation step, for an arbitrary store operation `nxt` behind
`get_next_proj_pot_bound`. For a removed projector state `(pc, pm)`, a receiving cluster `rc` and
a site `j`, a call of `update_external_potential_projection` that returns changes the received
bound of `rc` at `j` in direction LOWER by the potential of the next LOWER extremal entry of the
store of `pc` onto `j` minus the potential of the current LOWER extremal entry when the current
one is tagged `pm`, and leaves it unchanged otherwise; it does the same for UPPER; both changes
are read off the store before any entry is removed; afterwards the store of `pc` onto `j` is the
old store without the entries tagged `pm`; no other store and no other received bound changes.
The call returns when the store has an extremal entry and `nxt` returns an entry where it is
needed. On a clustering with pairwise disjoint, duplicate-free site lists, `handle_invalid_state`
makes these changes for every site of every cluster with another uid, each read off the store as
the call found it. -/
theorem removal_propagation_step (nxt : next_extremal_op) (g : ground_state_space)
    (pc : sidb_cluster) (pm : multiset_conf)
    (hdisj : g.clustering.Pairwise (fun a b => a.sidbs.Disjoint b.sidbs))
    (hsn : ∀ c ∈ g.clustering, c.sidbs.Nodup) :
    (∀ (s s1 : ground_state_space) (rc : sidb_cluster) (j : Nat),
        update_external_potential_projection nxt s pc pm rc j = some s1 →
        (∀ b, propagated_change nxt pm b ((s.data pc.uid).pot_projs j)
            (s.get_recv_ext_pot_bound b rc j) (s1.get_recv_ext_pot_bound b rc j))
          ∧ (s1.data pc.uid).pot_projs j
              = ((s.data pc.uid).pot_projs j).filter (fun pp => decide (pp.M ≠ pm))
          ∧ (∀ u k, (u ≠ pc.uid ∨ k ≠ j) → (s1.data u).pot_projs k = (s.data u).pot_projs k)
          ∧ ∀ b c k, (c.uid ≠ rc.uid ∨ k ≠ j) →
              s1.get_recv_ext_pot_bound b c k = s.get_recv_ext_pot_bound b c k)
      ∧ (∀ (s : ground_state_space) (rc : sidb_cluster) (j : Nat),
          propagation_defined nxt pm ((s.data pc.uid).pot_projs j) →
          (update_external_potential_projection nxt s pc pm rc j).isSome = true)
      ∧ ((∀ rc ∈ g.clustering, rc.uid ≠ pc.uid → ∀ j ∈ rc.sidbs,
            propagation_defined nxt pm ((g.data pc.uid).pot_projs j)) →
          (g.handle_invalid_state nxt pc pm).isSome = true)
      ∧ ∀ g1, g.handle_invalid_state nxt pc pm = some g1 →
          ∀ rc ∈ g.clustering, rc.uid ≠ pc.uid → ∀ j ∈ rc.sidbs,
            (∀ b, propagated_change nxt pm b ((g.data pc.uid).pot_projs j)
                (g.get_recv_ext_pot_bound b rc j) (g1.get_recv_ext_pot_bound b rc j))
              ∧ (g1.data pc.uid).pot_projs j
                  = ((g.data pc.uid).pot_projs j).filter (fun pp => decide (pp.M ≠ pm)) := by
  have hnd := receptor_states_sites_nodup pc.uid g.clustering hdisj hsn
  refine ⟨?_, ?_, ?_, ?_⟩
  · intro s s1 rc j h
    obtain ⟨-, -, a3, a4, a5, a6⟩ := update_external_change nxt s s1 pc pm rc j h
    exact ⟨a6, a4, a3, a5⟩
  · intro s rc j hd
    exact update_external_defined nxt s pc pm rc j hd
  · intro hd
    unfold handle_invalid_state
    rw [handle_invalid_state_receptor_states]
    apply propagate_defined nxt pc pm _ hnd
    intro p hp
    obtain ⟨h1, h2, h3⟩ := (mem_receptor_states _ _ _).mp hp
    exact hd p.1 h1 h2 p.2 h3
  · intro g1 h rc hrc hne j hj
    unfold handle_invalid_state at h
    rw [handle_invalid_state_receptor_states] at h
    obtain ⟨-, -, -, -, b5⟩ := propagate_effect nxt pc pm _ hnd g g1 h
    obtain ⟨k1, k2⟩ := b5 (rc, j) ((mem_receptor_states _ _ _).mpr ⟨hrc, hne, hj⟩)
    exact ⟨k2, k1⟩

/-- The removal of the multiset of one negative site from the cluster of site 0 in a state with
two singleton clusters, with the store operation `get_next`: the store onto site 1 loses its
entry tagged with the multiset, the upper received bound of the other cluster at site 1 moves
from `0.4` to `0.33`, and the lower one stays. -/
theorem removal_propagation_step_witness :
    (two_leaf_state [⟨neg1, []⟩, ⟨neut1, []⟩] [⟨neut1, []⟩]).clustering.Pairwise
        (fun a b => a.sidbs.Disjoint b.sidbs)
      ∧ (∀ c ∈ (two_leaf_state [⟨neg1, []⟩, ⟨neut1, []⟩] [⟨neut1, []⟩]).clustering,
          c.sidbs.Nodup)
      ∧ ∃ g1, (two_leaf_state [⟨neg1, []⟩, ⟨neut1, []⟩] [⟨neut1, []⟩]).handle_invalid_state
            potential_projection_order.get_next (.leaf 0 [0]) neg1 = some g1
          ∧ (g1.data 0).pot_projs 1 = [⟨330000, neut1⟩]
          ∧ g1.get_recv_ext_pot_bound .UPPER (.leaf 1 [1]) 1 = 330000
          ∧ g1.get_recv_ext_pot_bound .LOWER (.leaf 1 [1]) 1 = 330000 := by
  have hd : (two_leaf_state [⟨neg1, []⟩, ⟨neut1, []⟩] [⟨neut1, []⟩]).clustering.Pairwise
      (fun a b => a.sidbs.Disjoint b.sidbs) := by
    simp [two_leaf_state, sidbs]
  have hn : ∀ c ∈ (two_leaf_state [⟨neg1, []⟩, ⟨neut1, []⟩] [⟨neut1, []⟩]).clustering,
      c.sidbs.Nodup := by
    intro c hc
    simp only [two_leaf_state, List.mem_cons, List.mem_singleton, List.not_mem_nil,
      or_false] at hc
    rcases hc with rfl | rfl <;> simp [sidbs]
  obtain ⟨g1, hg1⟩ := Option.isSome_iff_exists.mp
    ((removal_propagation_step potential_projection_order.get_next
      (two_leaf_state [⟨neg1, []⟩, ⟨neut1, []⟩] [⟨neut1, []⟩]) (.leaf 0 [0]) neg1 hd hn).2.2.1
      (by
        intro rc hrc hne j hj
        simp only [two_leaf_state, List.mem_cons, List.mem_singleton, List.not_mem_nil,
          or_false] at hrc
        rcases hrc with rfl | rfl
        · exact absurd rfl hne
        · simp only [sidbs, List.mem_singleton] at hj
          subst hj
          intro b
          cases b
          · exact ⟨_, rfl, fun _ => rfl⟩
          · exact ⟨_, rfl, fun _ => rfl⟩))
  obtain ⟨k1, k2⟩ := (removal_propagation_step potential_projection_order.get_next
    (two_leaf_state [⟨neg1, []⟩, ⟨neut1, []⟩] [⟨neut1, []⟩]) (.leaf 0 [0]) neg1 hd hn).2.2.2
    g1 hg1 (.leaf 1 [1]) (by decide) (by decide) 1 (by decide)
  refine ⟨hd, hn, g1, hg1, k2, ?_, ?_⟩
  · obtain ⟨cur, hc, h1, -⟩ := k1 .UPPER
    have hcur : cur = ⟨400000, neg1⟩ := (Option.some.inj hc).symm
    obtain ⟨nx, hnx, hv⟩ := h1 (by rw [hcur])
    have hnx2 : nx = ⟨330000, neut1⟩ := (Option.some.inj hnx).symm
    rw [hv, hcur, hnx2]
    decide
  · obtain ⟨cur, hc, -, h2⟩ := k1 .LOWER
    have hcur : cur = ⟨330000, neut1⟩ := (Option.some.inj hc).symm
    rw [h2 (by rw [hcur]; decide)]
    decide

/-! ### The bounds attached by composition verification -/

theorem sum_proj_state_bounds_children (g : ground_state_space) (b : bound_direction) (i : Nat) :
    ∀ (comp : sidb_cluster_state_composition) (acc v : Pot),
      for_each (fun acc cst => (g.get_proj_state_bound b cst.cluster cst.multiset i).map
        (fun pp => acc + pp.V)) comp acc = some v →
      ∃ vs, projections_of_children g b i comp vs ∧ v = acc + vs.sum := by
  intro comp
  induction comp with
  | nil =>
    intro acc v h
    simp only [for_each, Option.some.injEq] at h
    exact ⟨[], List.Forall₂.nil, by simp [h]⟩
  | cons cst rest ih =>
    intro acc v h
    rw [for_each_cons] at h
    cases hp : g.get_proj_state_bound b cst.cluster cst.multiset i with
    | none => rw [hp] at h; simp at h
    | some pp =>
      rw [hp] at h
      simp only [Option.map_some'] at h
      obtain ⟨vs, hvs, hv⟩ := ih _ _ h
      refine ⟨pp.V :: vs, List.Forall₂.cons ⟨pp, hp, rfl⟩ hvs, ?_⟩
      rw [hv, List.sum_cons]
      ring

theorem composition_sums_children (g : ground_state_space)
    (comp : sidb_cluster_state_composition) (i : Nat) (lb ub : Pot)
    (h : composition_sums g comp i = some (lb, ub)) :
    ∃ los his, projections_of_children g .LOWER i comp los
      ∧ projections_of_children g .UPPER i comp his ∧ lb = los.sum ∧ ub = his.sum := by
  unfold composition_sums at h
  cases h1 : sum_proj_state_bounds g .LOWER i comp with
  | none => rw [h1] at h; simp at h
  | some a =>
    cases h2 : sum_proj_state_bounds g .UPPER i comp with
    | none => rw [h1, h2] at h; simp at h
    | some c =>
      rw [h1, h2] at h
      simp only [Option.some.injEq, Prod.mk.injEq] at h
      obtain ⟨los, k1, k2⟩ := sum_proj_state_bounds_children g .LOWER i comp 0 a h1
      obtain ⟨his, k3, k4⟩ := sum_proj_state_bounds_children g .UPPER i comp 0 c h2
      refine ⟨los, his, k1, k3, ?_, ?_⟩
      · rw [← h.1, k2]; ring
      · rw [← h.2, k4]; ring

theorem forall₂_refl_or {α : Type} (R : α → α → Prop) :
    ∀ (l : List α), List.Forall₂ (fun s s1 => s1 = s ∨ R s s1) l l := by
  intro l
  induction l with
  | nil => exact List.Forall₂.nil
  | cons x xs ih => exact List.Forall₂.cons (Or.inl rfl) ih

/-- The site loop of `verify_composition` for one receiving state attaches the bounds. -/
theorem attach_bounds_attached (g : ground_state_space) (comp : sidb_cluster_state_composition)
    (r r1 : sidb_cluster_state)
    (h : for_each (attach_internal_bounds_step g comp) r.cluster.sidbs r = some r1) :
    bounds_attached g comp r r1 := by
  have hdef : ∀ j ∈ r.cluster.sidbs, composition_sums g comp j ≠ none := by
    intro j hj hn
    rw [attach_none g comp r.cluster.sidbs r ⟨j, hj, hn⟩] at h
    simp at h
  obtain ⟨r2, hr2, hat⟩ := attach_some g comp r.cluster.sidbs r hdef
  rw [h] at hr2
  simp only [Option.some.injEq] at hr2
  subst hr2
  refine ⟨attach_key g comp _ r r1 h, ?_, ?_⟩
  · intro j hj
    rw [hat j, if_neg hj]
  · intro j hj
    cases hc : composition_sums g comp j with
    | none => exact absurd hc (hdef j hj)
    | some p =>
      obtain ⟨lb, ub⟩ := p
      obtain ⟨los, his, a1, a2, a3, a4⟩ := composition_sums_children g comp j lb ub hc
      refine ⟨los, his, a1, a2, ?_⟩
      rw [hat j, if_pos hj, hc, a3, a4]

/-- The outer loop of `verify_composition`: the child states that the loop has passed carry the
attached bounds, and the child states behind the first one that fails are as they were. -/
theorem verify_composition_loop_attached (g : ground_state_space)
    (comp : sidb_cluster_state_composition) :
    ∀ (todo before done : List sidb_cluster_state) (ok : Bool)
      (comp1 : sidb_cluster_state_composition),
      List.Forall₂ (bounds_attached g comp) before done →
      verify_composition_loop g comp done todo = some (ok, comp1) →
      List.Forall₂ (fun s s1 => s1 = s ∨ bounds_attached g comp s s1) (before ++ todo) comp1
        ∧ (ok = true → List.Forall₂ (bounds_attached g comp) (before ++ todo) comp1) := by
  intro todo
  induction todo with
  | nil =>
    intro before done ok comp1 hd h
    simp only [verify_composition_loop, Option.some.injEq, Prod.mk.injEq] at h
    obtain ⟨-, rfl⟩ := h
    rw [List.append_nil]
    exact ⟨hd.imp (fun _ _ h => Or.inr h), fun _ => hd⟩
  | cons r rest ih =>
    intro before done ok comp1 hd h
    unfold verify_composition_loop at h
    split at h
    · simp at h
    · rename_i r1 hr1
      have hA := attach_bounds_attached g comp r r1 hr1
      split at h
      · simp at h
      · simp only [Option.some.injEq, Prod.mk.injEq] at h
        obtain ⟨rfl, rfl⟩ := h
        refine ⟨?_, fun hf => by simp at hf⟩
        exact List.rel_append (hd.imp (fun _ _ h => Or.inr h))
          (List.Forall₂.cons (Or.inr hA) (forall₂_refl_or _ rest))
      · have := ih (before ++ [r]) (done ++ [r1]) ok comp1
          (List.rel_append hd (List.Forall₂.cons hA List.Forall₂.nil)) h
        simpa [List.append_assoc] using this

/-- C24 (counterexample): the bound attached to a child state contains its own projection. In
the state after the first iteration of the run on `three_leaf_state`, the cluster of the sites 0
and 2 in the state `(2, 0, 0)` projects `0.1` onto its site 0, and the cluster of site 1 in the
neutral state projects `0`. For the composition of these two child states, `verify_composition`
attaches `(0.1, 0.1)` to the first child state at site 0, while the sums over the other child
states are `(0, 0)`. -/
theorem verify_composition_adds_own_projection :
    (run_iterations potential_projection_order.get_next_other_tag 10 1 three_leaf_state).bind
        (fun g =>
          (g.verify_composition
            [⟨three_leaf_pair, ⟨2, 0, 0⟩, []⟩, ⟨.leaf 1 [1], neut1, []⟩]).map
            (fun r => r.2.map (fun s => (s.key, s.internal_pot_bounds.at 0))))
        = some [((three_leaf_pair, ⟨2, 0, 0⟩), some (100000, 100000)),
            ((.leaf 1 [1], neut1), none)]
      ∧ (run_iterations potential_projection_order.get_next_other_tag 10 1 three_leaf_state).bind
          (fun g => other_children_bounds g
            [⟨three_leaf_pair, ⟨2, 0, 0⟩, []⟩, ⟨.leaf 1 [1], neut1, []⟩]
            ⟨three_leaf_pair, ⟨2, 0, 0⟩, []⟩ 0)
        = some (0, 0)
      ∧ (run_iterations potential_projection_order.get_next_other_tag 10 1 three_leaf_state).bind
          (fun g => g.get_proj_state_bound .LOWER three_leaf_pair ⟨2, 0, 0⟩ 0)
        = some ⟨100000, ⟨2, 0, 0⟩⟩
      ∧ (run_iterations potential_projection_order.get_next_other_tag 10 1 three_leaf_state).bind
          (fun g => g.get_proj_state_bound .UPPER three_leaf_pair ⟨2, 0, 0⟩ 0)
        = some ⟨100000, ⟨2, 0, 0⟩⟩ := by
  refine ⟨?_, ?_, ?_, ?_⟩ <;> decide

/-- C24 (amended): composition verification sums over all child states. When
`verify_composition` returns, the composition it leaves behind names the same projector states
in the same order, and every child state is either as it was before the call or carries the
attached bounds: at every site `i` of its cluster the pair of the sums, over all child states of
the composition, the child state itself included, of their LOWER and of their UPPER
per-multiset projections onto `i`, so that its own projection onto its site is part of the
bound. When the verification accepts, every child state carries the attached bounds. -/
theorem verify_composition_sums_all_children (g : ground_state_space)
    (comp comp1 : sidb_cluster_state_composition) (ok : Bool)
    (h : g.verify_composition comp = some (ok, comp1)) :
    comp1.map sidb_cluster_state.key = comp.map sidb_cluster_state.key
      ∧ List.Forall₂ (fun s s1 => s1 = s ∨ bounds_attached g comp s s1) comp comp1
      ∧ (ok = true → List.Forall₂ (bounds_attached g comp) comp comp1) := by
  obtain ⟨h1, h2⟩ := verify_composition_loop_attached g comp comp [] [] ok comp1
    List.Forall₂.nil h
  exact ⟨verify_composition_keys g comp comp1 ok h, by simpa using h1, by simpa using h2⟩

/-- The verification of the composition of two negative sites 0 and 2 in `three_leaf_state`: it
accepts and attaches `(0.1, 0.1)` to either child state at its site, the sum of the projection
`0` of the state onto its own site and the projection `0.1` of the other state. -/
theorem verify_composition_sums_all_children_witness :
    three_leaf_state.verify_composition [⟨.leaf 0 [0], neg1, []⟩, ⟨.leaf 2 [2], neg1, []⟩]
        = some (true, [⟨.leaf 0 [0], neg1, [(0, 100000, 100000)]⟩,
            ⟨.leaf 2 [2], neg1, [(2, 100000, 100000)]⟩])
      ∧ List.Forall₂ (bounds_attached three_leaf_state
            [⟨.leaf 0 [0], neg1, []⟩, ⟨.leaf 2 [2], neg1, []⟩])
          [⟨.leaf 0 [0], neg1, []⟩, ⟨.leaf 2 [2], neg1, []⟩]
          [⟨.leaf 0 [0], neg1, [(0, 100000, 100000)]⟩,
            ⟨.leaf 2 [2], neg1, [(2, 100000, 100000)]⟩] := by
  have h1 : three_leaf_state.verify_composition
      [⟨.leaf 0 [0], neg1, []⟩, ⟨.leaf 2 [2], neg1, []⟩]
      = some (true, [⟨.leaf 0 [0], neg1, [(0, 100000, 100000)]⟩,
          ⟨.leaf 2 [2], neg1, [(2, 100000, 100000)]⟩]) := by decide
  exact ⟨h1, (verify_composition_sums_all_children three_leaf_state _ _ true h1).2.2 rfl⟩

/-! ### Isolating the children -/

theorem subtract_sibling_state (b : bound_direction) (x x1 : ground_state_space) (pu : Nat)
    (ps : List Nat) (l r child sib : sidb_cluster) (i : Nat)
    (hcs : (child = l ∧ sib = r) ∨ (child = r ∧ sib = l)) (hne : l.uid ≠ r.uid)
    (hx : subtract_sibling_pot_from_recv_ext_pot_bound b x (.node pu ps l r) child i = some x1) :
    ∃ v, extremal_pot x b sib i = some v
      ∧ x1 = (x.set_recv_ext_pot_bound b child i
          (x.get_recv_ext_pot_bound b child i - v)).set_recv_ext_pot_bound b
            (.node pu ps l r) i (x.get_recv_ext_pot_bound b child i - v) := by
  unfold subtract_sibling_pot_from_recv_ext_pot_bound at hx
  simp only [children] at hx
  rw [subtract_fold x b l r child sib i hcs hne] at hx
  cases hv : extremal_pot x b sib i with
  | none => rw [hv] at hx; simp at hx
  | some v =>
    rw [hv] at hx
    simp only [Option.map_some', Option.some.injEq] at hx
    exact ⟨v, rfl, hx.symm⟩

theorem subtract_sibling_defined (b : bound_direction) (x : ground_state_space) (pu : Nat)
    (ps : List Nat) (l r child sib : sidb_cluster) (i : Nat)
    (hcs : (child = l ∧ sib = r) ∨ (child = r ∧ sib = l)) (hne : l.uid ≠ r.uid)
    (hv : (extremal_pot x b sib i).isSome = true) :
    (subtract_sibling_pot_from_recv_ext_pot_bound b x (.node pu ps l r) child i).isSome
      = true := by
  unfold subtract_sibling_pot_from_recv_ext_pot_bound
  simp only [children]
  rw [subtract_fold x b l r child sib i hcs hne]
  obtain ⟨v, hv⟩ := Option.isSome_iff_exists.mp hv
  rw [hv]
  rfl

/-- The inner loop body of `derive_children_recv_bounds_without_siblings` at the site `i` of the
child: the child and the parent both receive, in either direction, the bound of the child
without the extremal projection of the sibling. -/
theorem derive_site_child (s s1 : ground_state_space) (pu : Nat) (ps : List Nat)
    (l r child sib : sidb_cluster) (i : Nat)
    (hcs : (child = l ∧ sib = r) ∨ (child = r ∧ sib = l)) (hne : l.uid ≠ r.uid)
    (h : derive_site_step (.node pu ps l r) child s i = some s1) :
    ∀ b, ∃ v, extremal_pot s b sib i = some v
      ∧ s1.get_recv_ext_pot_bound b child i = s.get_recv_ext_pot_bound b child i - v
      ∧ s1.get_recv_ext_pot_bound b (.node pu ps l r) i
          = s.get_recv_ext_pot_bound b child i - v := by
  unfold derive_site_step at h
  cases h1 : subtract_sibling_pot_from_recv_ext_pot_bound .LOWER s (.node pu ps l r) child i with
  | none => rw [h1] at h; simp at h
  | some a =>
    rw [h1] at h
    simp only at h
    obtain ⟨vL, hvL, ha⟩ := subtract_sibling_state _ _ _ _ _ _ _ _ _ _ hcs hne h1
    obtain ⟨vU, hvU, hs1⟩ := subtract_sibling_state _ _ _ _ _ _ _ _ _ _ hcs hne h
    have hvU2 : extremal_pot s .UPPER sib i = some vU := by
      rw [← hvU, ha, extremal_pot_set_recv, extremal_pot_set_recv]
    have hup : a.get_recv_ext_pot_bound .UPPER child i
        = s.get_recv_ext_pot_bound .UPPER child i := by
      rw [ha, get_recv_set_recv, get_recv_set_recv]
      simp
    intro b
    cases b with
    | LOWER =>
      refine ⟨vL, hvL, ?_, ?_⟩
      · rw [hs1, ha]
        simp only [get_recv_set_recv]
        simp
      · rw [hs1, ha]
        simp only [get_recv_set_recv]
        simp
    | UPPER =>
      refine ⟨vU, hvU2, ?_, ?_⟩
      · rw [hs1]
        simp only [get_recv_set_recv, hup]
        simp
      · rw [hs1, get_recv_set_recv, hup]
        simp

theorem derive_site_defined (s : ground_state_space) (pu : Nat) (ps : List Nat)
    (l r child sib : sidb_cluster) (i : Nat)
    (hcs : (child = l ∧ sib = r) ∨ (child = r ∧ sib = l)) (hne : l.uid ≠ r.uid)
    (hv : ∀ b, (extremal_pot s b sib i).isSome = true) :
    (derive_site_step (.node pu ps l r) child s i).isSome = true := by
  unfold derive_site_step
  obtain ⟨a, ha⟩ := Option.isSome_iff_exists.mp
    (subtract_sibling_defined .LOWER s pu ps l r child sib i hcs hne (hv .LOWER))
  rw [ha]
  simp only
  obtain ⟨vL, -, hae⟩ := subtract_sibling_state _ _ _ _ _ _ _ _ _ _ hcs hne ha
  apply subtract_sibling_defined .UPPER a pu ps l r child sib i hcs hne
  rw [hae, extremal_pot_set_recv, extremal_pot_set_recv]
  exact hv .UPPER

/-- The inner loop of `derive_children_recv_bounds_without_siblings` over distinct sites of the
child: the effect on the child and on the parent at every site, and the frame. -/
theorem derive_sites_child (pu : Nat) (ps : List Nat) (l r child sib : sidb_cluster)
    (hcs : (child = l ∧ sib = r) ∨ (child = r ∧ sib = l)) (hne : l.uid ≠ r.uid) :
    ∀ (sites : List Nat), sites.Nodup → ∀ (s s1 : ground_state_space),
      for_each (derive_site_step (.node pu ps l r) child) sites s = some s1 →
      ∀ j ∈ sites, ∀ b, ∃ v, extremal_pot s b sib j = some v
        ∧ s1.get_recv_ext_pot_bound b child j = s.get_recv_ext_pot_bound b child j - v
        ∧ s1.get_recv_ext_pot_bound b (.node pu ps l r) j
            = s.get_recv_ext_pot_bound b child j - v := by
  intro sites
  induction sites with
  | nil => intro _ s s1 _ j hj; simp at hj
  | cons i rest ih =>
    intro hnd s s2 h j hj b
    rw [List.nodup_cons] at hnd
    obtain ⟨s1, h1, h2⟩ := for_each_cons_some h
    obtain ⟨-, a2, a3, -⟩ := derive_site_effect s s1 pu ps l r child sib i hcs hne h1
    obtain ⟨-, -, b3, -⟩ := derive_sites_effect pu ps l r child sib hcs hne rest hnd.2 s1 s2 h2
    rcases List.mem_cons.mp hj with rfl | hj
    · obtain ⟨v, hv, k1, k2⟩ := derive_site_child s s1 pu ps l r child sib j hcs hne h1 b
      exact ⟨v, hv, by rw [b3 b _ j (Or.inl hnd.1)]; exact k1,
        by rw [b3 b _ j (Or.inl hnd.1)]; exact k2⟩
    · obtain ⟨v, hv, k1, k2⟩ := ih hnd.2 s1 s2 h2 j hj b
      have hji : j ≠ i := fun hji => hnd.1 (hji ▸ hj)
      refine ⟨v, ?_, ?_, ?_⟩
      · rw [← hv]
        exact (extremal_pot_congr _ _ _ _ _ (by rw [a2])).symm
      · rw [k1, a3 b child j (Or.inl hji)]
      · rw [k2, a3 b child j (Or.inl hji)]

theorem derive_sites_defined (pu : Nat) (ps : List Nat) (l r child sib : sidb_cluster)
    (hcs : (child = l ∧ sib = r) ∨ (child = r ∧ sib = l)) (hne : l.uid ≠ r.uid) :
    ∀ (sites : List Nat) (s : ground_state_space),
      (∀ j ∈ sites, ∀ b, (extremal_pot s b sib j).isSome = true) →
      (for_each (derive_site_step (.node pu ps l r) child) sites s).isSome = true := by
  intro sites
  induction sites with
  | nil => intro s _; rfl
  | cons i rest ih =>
    intro s hv
    rw [for_each_cons]
    obtain ⟨s1, h1⟩ := Option.isSome_iff_exists.mp
      (derive_site_defined s pu ps l r child sib i hcs hne (hv i (List.mem_cons_self _ _)))
    rw [h1]
    obtain ⟨-, a2, -, -⟩ := derive_site_effect s s1 pu ps l r child sib i hcs hne h1
    apply ih
    intro j hj b
    rw [extremal_pot_congr s s1 b sib j (by rw [a2])]
    exact hv j (List.mem_cons_of_mem _ hj) b

/-- C27: isolating the children. For a parent `P` with the children `l` and `r` of distinct uids
and disjoint, duplicate-free site lists that together are the sites of `P`: the call
`derive_children_recv_bounds_without_siblings(P)` returns when the sibling of every child has an
extremal projection onto every site of the child in both directions; after the call, for every
child `c`, every site `i` of `c` and each direction `d`, the bound `c.recv_ext_bounds[i].d` is
its previous value minus the `d`-extremal projection onto `i` of the other child, and
`P.recv_ext_bounds[i].d` is that same value; every site of `P` is a site of a child and so
receives a bound; no store changes, and no received bound of another cluster changes. -/
theorem children_isolated (g : ground_state_space) (pu : Nat) (ps : List Nat)
    (l r : sidb_cluster) (hne : l.uid ≠ r.uid)
    (hln : l.sidbs.Nodup) (hrn : r.sidbs.Nodup) (hlr : l.sidbs.Disjoint r.sidbs)
    (hperm : ps.Perm (l.sidbs ++ r.sidbs)) :
    (((∀ j ∈ l.sidbs, ∀ b, (extremal_pot g b r j).isSome = true)
          ∧ ∀ j ∈ r.sidbs, ∀ b, (extremal_pot g b l j).isSome = true) →
        (g.derive_children_recv_bounds_without_siblings (.node pu ps l r)).isSome = true)
      ∧ ∀ g2, g.derive_children_recv_bounds_without_siblings (.node pu ps l r) = some g2 →
          (∀ c sib, ((c = l ∧ sib = r) ∨ (c = r ∧ sib = l)) → ∀ i ∈ c.sidbs, ∀ d,
            ∃ v, extremal_pot g d sib i = some v
              ∧ g2.get_recv_ext_pot_bound d c i = g.get_recv_ext_pot_bound d c i - v
              ∧ g2.get_recv_ext_pot_bound d (.node pu ps l r) i
                  = g2.get_recv_ext_pot_bound d c i)
            ∧ (∀ i ∈ (sidb_cluster.node pu ps l r).sidbs, i ∈ l.sidbs ∨ i ∈ r.sidbs)
            ∧ (∀ u, (g2.data u).pot_projs = (g.data u).pot_projs)
            ∧ ∀ d c i, c.uid ≠ l.uid → c.uid ≠ r.uid → c.uid ≠ pu →
                g2.get_recv_ext_pot_bound d c i = g.get_recv_ext_pot_bound d c i := by
  refine ⟨?_, ?_⟩
  · rintro ⟨hl, hr⟩
    unfold derive_children_recv_bounds_without_siblings
    simp only [children]
    rw [for_each_cons]
    obtain ⟨ga, h1⟩ := Option.isSome_iff_exists.mp
      (derive_sites_defined pu ps l r l r (Or.inl ⟨rfl, rfl⟩) hne l.sidbs g hl)
    rw [h1]
    obtain ⟨-, a2, -, -⟩ := derive_sites_effect pu ps l r l r (Or.inl ⟨rfl, rfl⟩) hne
      l.sidbs hln g ga h1
    rw [Option.some_bind, for_each_cons]
    obtain ⟨gb, h2⟩ := Option.isSome_iff_exists.mp
      (derive_sites_defined pu ps l r r l (Or.inr ⟨rfl, rfl⟩) hne r.sidbs ga (by
        intro j hj b
        rw [extremal_pot_congr g ga b l j (by rw [a2])]
        exact hr j hj b))
    rw [h2]
    rfl
  · intro g2 h
    obtain ⟨-, e2, e3, -, -⟩ := derive_effect g g2 pu ps l r hne hln hrn hlr h
    unfold derive_children_recv_bounds_without_siblings at h
    simp only [children] at h
    obtain ⟨ga, h1, h2⟩ := for_each_cons_some h
    obtain ⟨gb, h3, h4⟩ := for_each_cons_some h2
    simp only [for_each, Option.some.injEq] at h4
    subst h4
    obtain ⟨-, a2, a3, -⟩ := derive_sites_effect pu ps l r l r (Or.inl ⟨rfl, rfl⟩) hne
      l.sidbs hln g ga h1
    obtain ⟨-, -, b3, -⟩ := derive_sites_effect pu ps l r r l (Or.inr ⟨rfl, rfl⟩) hne
      r.sidbs hrn ga gb h3
    have cl := derive_sites_child pu ps l r l r (Or.inl ⟨rfl, rfl⟩) hne l.sidbs hln g ga h1
    have cr := derive_sites_child pu ps l r r l (Or.inr ⟨rfl, rfl⟩) hne r.sidbs hrn ga gb h3
    refine ⟨?_, ?_, e2, e3⟩
    · rintro c sib (⟨rfl, rfl⟩ | ⟨rfl, rfl⟩) i hi d
      · obtain ⟨v, hv, k1, k2⟩ := cl i hi d
        have hir : i ∉ sib.sidbs := fun hm => hlr hi hm
        refine ⟨v, hv, ?_, ?_⟩
        · rw [b3 d c i (Or.inl hir)]
          exact k1
        · rw [b3 d _ i (Or.inl hir), b3 d c i (Or.inl hir), k1, k2]
      · obtain ⟨v, hv, k1, k2⟩ := cr i hi d
        have hil : i ∉ sib.sidbs := fun hm => hlr hm hi
        refine ⟨v, ?_, ?_, ?_⟩
        · rw [← hv]
          exact (extremal_pot_congr _ _ _ _ _ (by rw [a2])).symm
        · rw [k1, a3 d c i (Or.inl hil)]
        · rw [k1, k2]
    · intro i hi
      have := hperm.subset hi
      exact List.mem_append.mp this

/-- The first merge on `three_leaf_state` isolates the clusters of the sites 0 and 2: the upper
bound that site 0 receives drops from `0.4` by the projection `0.1` of site 2 to `0.3`, on the
child and on the parent. -/
theorem children_isolated_witness :
    (sidb_cluster.leaf 0 [0]).uid ≠ (sidb_cluster.leaf 2 [2]).uid
      ∧ (sidb_cluster.leaf 0 [0]).sidbs.Nodup ∧ (sidb_cluster.leaf 2 [2]).sidbs.Nodup
      ∧ (sidb_cluster.leaf 0 [0]).sidbs.Disjoint (sidb_cluster.leaf 2 [2]).sidbs
      ∧ [0, 2].Perm ((sidb_cluster.leaf 0 [0]).sidbs ++ (sidb_cluster.leaf 2 [2]).sidbs)
      ∧ ∃ g2, three_leaf_state.derive_children_recv_bounds_without_siblings three_leaf_pair
            = some g2
          ∧ g2.get_recv_ext_pot_bound .UPPER (.leaf 0 [0]) 0 = 300000
          ∧ g2.get_recv_ext_pot_bound .UPPER three_leaf_pair 0 = 300000 := by
  have h1 : (sidb_cluster.leaf 0 [0]).uid ≠ (sidb_cluster.leaf 2 [2]).uid := by decide
  have h2 : (sidb_cluster.leaf 0 [0]).sidbs.Nodup := by decide
  have h3 : (sidb_cluster.leaf 2 [2]).sidbs.Nodup := by decide
  have h4 : (sidb_cluster.leaf 0 [0]).sidbs.Disjoint (sidb_cluster.leaf 2 [2]).sidbs := by
    simp [sidbs]
  have h5 : [0, 2].Perm ((sidb_cluster.leaf 0 [0]).sidbs ++ (sidb_cluster.leaf 2 [2]).sidbs) :=
    List.Perm.refl _
  obtain ⟨hdef, heff⟩ := children_isolated three_leaf_state 3 [0, 2] (.leaf 0 [0]) (.leaf 2 [2])
    h1 h2 h3 h4 h5
  obtain ⟨g2, hg2⟩ := Option.isSome_iff_exists.mp (hdef (by
    refine ⟨?_, ?_⟩
    · intro j hj b
      simp only [sidbs, List.mem_singleton] at hj
      subst hj
      cases b <;> rfl
    · intro j hj b
      simp only [sidbs, List.mem_singleton] at hj
      subst hj
      cases b <;> rfl))
  obtain ⟨k1, -, -, -⟩ := heff g2 hg2
  obtain ⟨v, hv, e1, e2⟩ := k1 (.leaf 0 [0]) (.leaf 2 [2]) (Or.inl ⟨rfl, rfl⟩) 0
    (List.mem_singleton.mpr rfl) .UPPER
  have hv2 : v = 100000 := by
    have : extremal_pot three_leaf_state .UPPER (.leaf 2 [2]) 0 = some 100000 := by decide
    rw [this] at hv
    exact (Option.some.inj hv).symm
  subst hv2
  have e3 : g2.get_recv_ext_pot_bound .UPPER (.leaf 0 [0]) 0 = 300000 := by
    rw [e1]
    decide
  exact ⟨h1, h2, h3, h4, h5, g2, hg2, e3, by rw [← e3]; exact e2⟩


/-! ### Internal meet projections -/

theorem is_meet_take (b : bound_direction) (xs : List Pot) (a : Option Pot) (v : Pot)
    (h : is_meet b xs a) : is_meet b (xs ++ [v]) (take_meet_of_potential_bounds b a v) := by
  cases a with
  | none =>
    simp only [is_meet] at h
    subst h
    cases b <;> simp [take_meet_of_potential_bounds, is_meet]
  | some w =>
    obtain ⟨h1, h2⟩ := h
    cases b with
    | LOWER =>
      simp only [take_meet_of_potential_bounds, is_meet]
      refine ⟨?_, ?_⟩
      · rcases min_choice w v with hm | hm
        · rw [hm]; exact List.mem_append_left _ h1
        · rw [hm]; simp
      · intro x hx
        rcases List.mem_append.mp hx with hx | hx
        · exact le_trans (min_le_left _ _) (h2 x hx)
        · rw [List.mem_singleton.mp hx]; exact min_le_right _ _
    | UPPER =>
      simp only [take_meet_of_potential_bounds, is_meet]
      refine ⟨?_, ?_⟩
      · rcases max_choice w v with hm | hm
        · rw [hm]; exact List.mem_append_left _ h1
        · rw [hm]; simp
      · intro x hx
        rcases List.mem_append.mp hx with hx | hx
        · exact le_trans (h2 x hx) (le_max_left _ _)
        · rw [List.mem_singleton.mp hx]; exact le_max_right _ _

theorem meets_states_spec (i : Nat) :
    ∀ (comp : sidb_cluster_state_composition) (seen : List (Pot × Pot))
      (acc : Option Pot × Option Pot),
      is_meet .LOWER (seen.map Prod.fst) acc.1 → is_meet .UPPER (seen.map Prod.snd) acc.2 →
      is_meet .LOWER
          ((seen ++ comp.filterMap (fun cst => cst.internal_pot_bounds.at i)).map Prod.fst)
          (comp.foldl (meets_state_step i) acc).1
        ∧ is_meet .UPPER
          ((seen ++ comp.filterMap (fun cst => cst.internal_pot_bounds.at i)).map Prod.snd)
          (comp.foldl (meets_state_step i) acc).2 := by
  intro comp
  induction comp with
  | nil =>
    intro seen acc h1 h2
    simpa using ⟨h1, h2⟩
  | cons cst rest ih =>
    intro seen acc h1 h2
    rw [List.foldl_cons]
    cases hat : cst.internal_pot_bounds.at i with
    | none =>
      have hstep : meets_state_step i acc cst = acc := by
        unfold meets_state_step
        rw [hat]
      rw [hstep]
      simp only [List.filterMap_cons, hat]
      exact ih seen acc h1 h2
    | some p =>
      obtain ⟨lo, hi⟩ := p
      have hstep : meets_state_step i acc cst
          = (take_meet_of_potential_bounds .LOWER acc.1 lo,
              take_meet_of_potential_bounds .UPPER acc.2 hi) := by
        unfold meets_state_step
        rw [hat]
      rw [hstep]
      simp only [List.filterMap_cons, hat]
      have := ih (seen ++ [(lo, hi)])
        (take_meet_of_potential_bounds .LOWER acc.1 lo,
          take_meet_of_potential_bounds .UPPER acc.2 hi)
        (by simpa using is_meet_take .LOWER _ _ lo h1)
        (by simpa using is_meet_take .UPPER _ _ hi h2)
      simpa using this

theorem meets_compositions_spec (i : Nat) :
    ∀ (compositions : List sidb_cluster_state_composition) (seen : List (Pot × Pot))
      (acc : Option Pot × Option Pot),
      is_meet .LOWER (seen.map Prod.fst) acc.1 → is_meet .UPPER (seen.map Prod.snd) acc.2 →
      is_meet .LOWER ((seen ++ attached_bounds_at i compositions).map Prod.fst)
          (compositions.foldl (fun acc composition =>
            composition.foldl (meets_state_step i) acc) acc).1
        ∧ is_meet .UPPER ((seen ++ attached_bounds_at i compositions).map Prod.snd)
          (compositions.foldl (fun acc composition =>
            composition.foldl (meets_state_step i) acc) acc).2 := by
  intro compositions
  induction compositions with
  | nil =>
    intro seen acc h1 h2
    simpa [attached_bounds_at] using ⟨h1, h2⟩
  | cons comp rest ih =>
    intro seen acc h1 h2
    rw [List.foldl_cons]
    obtain ⟨k1, k2⟩ := meets_states_spec i comp seen acc h1 h2
    have := ih _ _ k1 k2
    simpa [attached_bounds_at, List.append_assoc] using this

/-- The two meets that `compute_meets_for_internal_pot_bounds` computes at a site are the least
attached lower bound and the greatest attached upper bound of the compositions. -/
theorem meets_at_spec (i : Nat) (compositions : List sidb_cluster_state_composition) :
    is_meet .LOWER ((attached_bounds_at i compositions).map Prod.fst)
        (meets_at i compositions).1
      ∧ is_meet .UPPER ((attached_bounds_at i compositions).map Prod.snd)
        (meets_at i compositions).2 := by
  have := meets_compositions_spec i compositions [] (none, none) rfl rfl
  simpa [meets_at] using this

theorem meets_at_some (i : Nat) (compositions : List sidb_cluster_state_composition)
    (h : attached_bounds_at i compositions ≠ []) :
    ∃ lb ub, meets_at i compositions = (some lb, some ub) := by
  obtain ⟨h1, h2⟩ := meets_at_spec i compositions
  cases hm : meets_at i compositions with
  | mk a c =>
    rw [hm] at h1 h2
    cases a with
    | none =>
      simp only [is_meet, List.map_eq_nil_iff] at h1
      exact absurd h1 h
    | some lb =>
      cases c with
      | none =>
        simp only [is_meet, List.map_eq_nil_iff] at h2
        exact absurd h2 h
      | some ub => exact ⟨lb, ub, rfl⟩

theorem meets_site_step_effect (parent : sidb_cluster) (m : sidb_cluster_charge_state)
    (a a1 : ground_state_space) (i : Nat) (h : meets_site_step parent m a i = some a1) :
    ∃ lb ub, meets_at i m.compositions = (some lb, some ub)
      ∧ a1 = (a.add_pot_proj parent i ⟨lb, m.multiset⟩).add_pot_proj parent i
          ⟨ub, m.multiset⟩ := by
  unfold meets_site_step at h
  split at h
  · rename_i lb ub hm
    exact ⟨lb, ub, hm, (Option.some.inj h).symm⟩
  · simp at h

theorem add_pot_proj_mem (g : ground_state_space) (c : sidb_cluster) (i : Nat)
    (pp q : potential_projection) (u j : Nat) :
    q ∈ ((g.add_pot_proj c i pp).data u).pot_projs j
      ↔ (u = c.uid ∧ j = i ∧ q = pp) ∨ q ∈ (g.data u).pot_projs j := by
  obtain ⟨-, -, e3, e4⟩ := add_pot_proj_effect g c i pp
  by_cases huj : u = c.uid ∧ j = i
  · obtain ⟨rfl, rfl⟩ := huj
    rw [e4, mem_add]
    simp
  · rw [e3 u j (by
      by_cases hu : u = c.uid
      · exact Or.inr (fun hj => huj ⟨hu, hj⟩)
      · exact Or.inl hu)]
    constructor
    · exact fun h => Or.inr h
    · rintro (⟨h1, h2, -⟩ | h)
      · exact absurd ⟨h1, h2⟩ huj
      · exact h

theorem add_pot_proj_charge_space (g : ground_state_space) (c : sidb_cluster) (i : Nat)
    (pp : potential_projection) (u : Nat) :
    ((g.add_pot_proj c i pp).data u).charge_space = (g.data u).charge_space :=
  same_charge_spaces_add_pot_proj g c i pp u

/-- The loops of `compute_meets_for_internal_pot_bounds` over pairs of a charge-space element and
a site: every pair leaves its two entries in the store of the parent onto the site, and entries
are only added. -/
theorem meets_pairs_effect (parent : sidb_cluster) :
    ∀ (l : List (sidb_cluster_charge_state × Nat)) (s s1 : ground_state_space),
      for_each (fun g (p : sidb_cluster_charge_state × Nat) =>
        meets_site_step parent p.1 g p.2) l s = some s1 →
      (∀ u j, ∀ q ∈ (s.data u).pot_projs j, q ∈ (s1.data u).pot_projs j)
        ∧ (∀ u j, ∀ q ∈ (s1.data u).pot_projs j, q ∈ (s.data u).pot_projs j
            ∨ (u = parent.uid ∧ ∃ p ∈ l, p.2 = j ∧ q.M = p.1.multiset))
        ∧ ∀ p ∈ l, ∃ lb ub, meets_at p.2 p.1.compositions = (some lb, some ub)
            ∧ ⟨lb, p.1.multiset⟩ ∈ (s1.data parent.uid).pot_projs p.2
            ∧ ⟨ub, p.1.multiset⟩ ∈ (s1.data parent.uid).pot_projs p.2 := by
  intro l
  induction l with
  | nil =>
    intro s s1 h
    simp only [for_each, Option.some.injEq] at h
    subst h
    exact ⟨fun _ _ _ hq => hq, fun _ _ _ hq => Or.inl hq, fun p hp => by simp at hp⟩
  | cons x rest ih =>
    intro s s2 h
    obtain ⟨s1, h1, h2⟩ := for_each_cons_some h
    obtain ⟨lb, ub, hm, hs1⟩ := meets_site_step_effect parent x.1 s s1 x.2 h1
    obtain ⟨b1, b2, b3⟩ := ih s1 s2 h2
    have hadd : ∀ u j q, q ∈ (s1.data u).pot_projs j ↔
        (u = parent.uid ∧ j = x.2 ∧ (q = ⟨ub, x.1.multiset⟩ ∨ q = ⟨lb, x.1.multiset⟩))
          ∨ q ∈ (s.data u).pot_projs j := by
      intro u j q
      rw [hs1, add_pot_proj_mem, add_pot_proj_mem]
      tauto
    refine ⟨?_, ?_, ?_⟩
    · intro u j q hq
      exact b1 u j q ((hadd u j q).mpr (Or.inr hq))
    · intro u j q hq
      rcases b2 u j q hq with hq1 | ⟨hu, p, hp, hpj, hpm⟩
      · rcases (hadd u j q).mp hq1 with ⟨hu, hj, hq2⟩ | hq2
        · refine Or.inr ⟨hu, x, List.mem_cons_self _ _, hj.symm, ?_⟩
          rcases hq2 with rfl | rfl <;> rfl
        · exact Or.inl hq2
      · exact Or.inr ⟨hu, p, List.mem_cons_of_mem _ hp, hpj, hpm⟩
    · intro p hp
      rcases List.mem_cons.mp hp with rfl | hp
      · exact ⟨lb, ub, hm,
          b1 _ _ _ ((hadd _ _ _).mpr (Or.inl ⟨rfl, rfl, Or.inr rfl⟩)),
          b1 _ _ _ ((hadd _ _ _).mpr (Or.inl ⟨rfl, rfl, Or.inl rfl⟩))⟩
      · exact b3 p hp

theorem meets_pairs_defined (parent : sidb_cluster) :
    ∀ (l : List (sidb_cluster_charge_state × Nat)) (s : ground_state_space),
      (∀ p ∈ l, attached_bounds_at p.2 p.1.compositions ≠ []) →
      (for_each (fun g (p : sidb_cluster_charge_state × Nat) =>
        meets_site_step parent p.1 g p.2) l s).isSome = true := by
  intro l
  induction l with
  | nil => intro s _; rfl
  | cons x rest ih =>
    intro s h
    rw [for_each_cons]
    obtain ⟨lb, ub, hm⟩ := meets_at_some x.2 x.1.compositions (h x (List.mem_cons_self _ _))
    have hstep : meets_site_step parent x.1 s x.2
        = some ((s.add_pot_proj parent x.2 ⟨lb, x.1.multiset⟩).add_pot_proj parent x.2
            ⟨ub, x.1.multiset⟩) := by
      unfold meets_site_step
      rw [hm]
    rw [hstep, Option.some_bind]
    exact ih _ (fun p hp => h p (List.mem_cons_of_mem _ hp))

theorem compute_meets_pairs (g : ground_state_space) (parent : sidb_cluster) :
    g.compute_meets_for_internal_pot_bounds parent
      = for_each (fun g (p : sidb_cluster_charge_state × Nat) =>
          meets_site_step parent p.1 g p.2)
        ((g.data parent.uid).charge_space.flatMap (fun m => parent.sidbs.map (Prod.mk m))) g := by
  unfold compute_meets_for_internal_pot_bounds
  rw [← for_each_flatMap]
  apply for_each_congr
  intro s m _
  have hmap : ∀ (l : List Nat) (a : ground_state_space),
      for_each (fun g (p : sidb_cluster_charge_state × Nat) =>
        meets_site_step parent p.1 g p.2) (l.map (Prod.mk m)) a
      = for_each (meets_site_step parent m) l a := by
    intro l
    induction l with
    | nil => intro a; rfl
    | cons j js ihj =>
      intro a
      rw [List.map_cons, for_each_cons, for_each_cons]
      cases meets_site_step parent m a j with
      | none => rfl
      | some a1 => exact ihj a1
  exact (hmap parent.sidbs s).symm

/-- C29: internal meet projections. The call `compute_meets_for_internal_pot_bounds(P)` returns
when, for every element of the charge space of `P` and every site `i` of `P`, some child state
of some composition of the element carries a bound at `i`. After the call, for every element
with multiset `M` and every site `i` of `P`, the store of `P` onto `i` holds an entry `(lb, M)`
and an entry `(ub, M)`, where `lb` is the least lower bound and `ub` the greatest upper bound
attached at `i` in the compositions of the element; when the stores were sorted, the LOWER
per-`M` projection of `P` onto `i` is at most every attached lower bound and the UPPER one is at
least every attached upper bound. The entries that the call adds to a store are tagged with a
multiset of the charge space, and no entry is removed. -/
theorem internal_meet_projections (g : ground_state_space) (parent : sidb_cluster) :
    ((∀ e ∈ (g.data parent.uid).charge_space, ∀ i ∈ parent.sidbs,
          attached_bounds_at i e.compositions ≠ []) →
        (g.compute_meets_for_internal_pot_bounds parent).isSome = true)
      ∧ ∀ g5, g.compute_meets_for_internal_pot_bounds parent = some g5 →
          (∀ e ∈ (g.data parent.uid).charge_space, ∀ i ∈ parent.sidbs,
            ∃ lb ub, (⟨lb, e.multiset⟩ : potential_projection) ∈ (g5.data parent.uid).pot_projs i
              ∧ (⟨ub, e.multiset⟩ : potential_projection) ∈ (g5.data parent.uid).pot_projs i
              ∧ (∃ q ∈ attached_bounds_at i e.compositions, q.1 = lb)
              ∧ (∀ q ∈ attached_bounds_at i e.compositions, lb ≤ q.1)
              ∧ (∃ q ∈ attached_bounds_at i e.compositions, q.2 = ub)
              ∧ (∀ q ∈ attached_bounds_at i e.compositions, q.2 ≤ ub)
              ∧ (stores_sorted g → ∃ lo hi,
                  g5.get_proj_state_bound .LOWER parent e.multiset i = some lo
                    ∧ g5.get_proj_state_bound .UPPER parent e.multiset i = some hi
                    ∧ ∀ q ∈ attached_bounds_at i e.compositions, lo.V ≤ q.1 ∧ q.2 ≤ hi.V))
            ∧ (∀ u j, ∀ q ∈ (g.data u).pot_projs j, q ∈ (g5.data u).pot_projs j)
            ∧ ∀ u j, ∀ q ∈ (g5.data u).pot_projs j, q ∈ (g.data u).pot_projs j
                ∨ (u = parent.uid ∧ j ∈ parent.sidbs
                  ∧ ∃ e ∈ (g.data parent.uid).charge_space, q.M = e.multiset) := by
  have hpair : ∀ (p : sidb_cluster_charge_state × Nat),
      p ∈ (g.data parent.uid).charge_space.flatMap (fun m => parent.sidbs.map (Prod.mk m))
        ↔ p.1 ∈ (g.data parent.uid).charge_space ∧ p.2 ∈ parent.sidbs := by
    intro p
    simp only [List.mem_flatMap, List.mem_map]
    constructor
    · rintro ⟨m, hm, j, hj, rfl⟩
      exact ⟨hm, hj⟩
    · rintro ⟨h1, h2⟩
      exact ⟨p.1, h1, p.2, h2, rfl⟩
  refine ⟨?_, ?_⟩
  · intro hd
    rw [compute_meets_pairs]
    apply meets_pairs_defined
    intro p hp
    obtain ⟨h1, h2⟩ := (hpair p).mp hp
    exact hd p.1 h1 p.2 h2
  · intro g5 h
    have h0 := h
    rw [compute_meets_pairs] at h
    obtain ⟨b1, b2, b3⟩ := meets_pairs_effect parent _ g g5 h
    refine ⟨?_, b1, ?_⟩
    · intro e he i hi
      obtain ⟨lb, ub, hm, k1, k2⟩ := b3 (e, i) ((hpair (e, i)).mpr ⟨he, hi⟩)
      obtain ⟨m1, m2⟩ := meets_at_spec i e.compositions
      have hm' : meets_at i e.compositions = (some lb, some ub) := hm
      rw [hm'] at m1 m2
      obtain ⟨a1, a2⟩ := m1
      obtain ⟨c1, c2⟩ := m2
      obtain ⟨q1, hq1, e1⟩ := List.mem_map.mp a1
      obtain ⟨q2, hq2, e2⟩ := List.mem_map.mp c1
      have hlow : ∀ q ∈ attached_bounds_at i e.compositions, lb ≤ q.1 :=
        fun q hq => a2 q.1 (List.mem_map_of_mem _ hq)
      have hupp : ∀ q ∈ attached_bounds_at i e.compositions, q.2 ≤ ub :=
        fun q hq => c2 q.2 (List.mem_map_of_mem _ hq)
      refine ⟨lb, ub, k1, k2, ⟨q1, hq1, e1⟩, hlow, ⟨q2, hq2, e2⟩, hupp, ?_⟩
      intro hs
      have hs5 := (compute_meets_effect g g5 parent hs h0).2.2.1 parent.uid i
      obtain ⟨lo, hlo⟩ := Option.isSome_iff_exists.mp
        (get_pot_proj_for_m_conf_isSome .LOWER _ e.multiset _ k1 rfl)
      obtain ⟨hi2, hhi⟩ := Option.isSome_iff_exists.mp
        (get_pot_proj_for_m_conf_isSome .UPPER _ e.multiset _ k2 rfl)
      refine ⟨lo, hi2, hlo, hhi, ?_⟩
      have hf := List.Pairwise.filter (fun pp => decide (pp.M = e.multiset)) hs5
      have hlo2 := hlo
      have hhi2 := hhi
      unfold potential_projection_order.get_pot_proj_for_m_conf at hlo2 hhi2
      have hle : lo.V ≤ lb :=
        (get_extremal .LOWER _ hf lo hlo2).2 ⟨lb, e.multiset⟩
          (List.mem_filter.mpr ⟨k1, by simp⟩)
      have hge : ub ≤ hi2.V :=
        (get_extremal .UPPER _ hf hi2 hhi2).2 ⟨ub, e.multiset⟩
          (List.mem_filter.mpr ⟨k2, by simp⟩)
      intro q hq
      exact ⟨le_trans hle (hlow q hq), le_trans (hupp q hq) hge⟩
    · intro u j q hq
      rcases b2 u j q hq with hq1 | ⟨hu, p, hp, hpj, hpm⟩
      · exact Or.inl hq1
      · obtain ⟨h1, h2⟩ := (hpair p).mp hp
        exact Or.inr ⟨hu, hpj ▸ h2, p.1, h1, hpm⟩

/-- The meets for the cluster of the sites 0 and 2 of `three_leaf_state` after its charge space
has been merged: the multiset `(1, 1, 0)` has two compositions, which attach `(0, 0)` and
`(0.1, 0.1)` at site 0, and the store of the cluster onto site 0 receives the entries `0` and
`0.1` with this tag. -/
theorem internal_meet_projections_witness :
    ∃ g3 g5, three_leaf_state.construct_merged_charge_state_space three_leaf_pair = some g3
      ∧ (∀ e ∈ (g3.data three_leaf_pair.uid).charge_space, ∀ i ∈ three_leaf_pair.sidbs,
          attached_bounds_at i e.compositions ≠ [])
      ∧ g3.compute_meets_for_internal_pot_bounds three_leaf_pair = some g5
      ∧ (⟨0, ⟨1, 1, 0⟩⟩ : potential_projection) ∈ (g5.data three_leaf_pair.uid).pot_projs 0
      ∧ (⟨100000, ⟨1, 1, 0⟩⟩ : potential_projection)
          ∈ (g5.data three_leaf_pair.uid).pot_projs 0 := by
  obtain ⟨g3, hg3⟩ := Option.isSome_iff_exists.mp
    (by decide : (three_leaf_state.construct_merged_charge_state_space
      three_leaf_pair).isSome = true)
  have hcs : (g3.data three_leaf_pair.uid).charge_space
      = [⟨⟨2, 0, 0⟩, [[⟨.leaf 0 [0], neg1, [(0, 100000, 100000)]⟩,
            ⟨.leaf 2 [2], neg1, [(2, 100000, 100000)]⟩]]⟩,
          ⟨⟨1, 1, 0⟩, [[⟨.leaf 0 [0], neg1, [(0, 0, 0)]⟩,
              ⟨.leaf 2 [2], neut1, [(2, 100000, 100000)]⟩],
            [⟨.leaf 0 [0], neut1, [(0, 100000, 100000)]⟩,
              ⟨.leaf 2 [2], neg1, [(2, 0, 0)]⟩]]⟩,
          ⟨⟨0, 2, 0⟩, [[⟨.leaf 0 [0], neut1, [(0, 0, 0)]⟩,
            ⟨.leaf 2 [2], neut1, [(2, 0, 0)]⟩]]⟩] := by
    have := (by decide : (three_leaf_state.construct_merged_charge_state_space
      three_leaf_pair).map (fun g => (g.data three_leaf_pair.uid).charge_space)
      = some [⟨⟨2, 0, 0⟩, [[⟨.leaf 0 [0], neg1, [(0, 100000, 100000)]⟩,
            ⟨.leaf 2 [2], neg1, [(2, 100000, 100000)]⟩]]⟩,
          ⟨⟨1, 1, 0⟩, [[⟨.leaf 0 [0], neg1, [(0, 0, 0)]⟩,
              ⟨.leaf 2 [2], neut1, [(2, 100000, 100000)]⟩],
            [⟨.leaf 0 [0], neut1, [(0, 100000, 100000)]⟩,
              ⟨.leaf 2 [2], neg1, [(2, 0, 0)]⟩]]⟩,
          ⟨⟨0, 2, 0⟩, [[⟨.leaf 0 [0], neut1, [(0, 0, 0)]⟩,
            ⟨.leaf 2 [2], neut1, [(2, 0, 0)]⟩]]⟩])
    rw [hg3] at this
    exact Option.some.inj this
  have hdef : ∀ e ∈ (g3.data three_leaf_pair.uid).charge_space, ∀ i ∈ three_leaf_pair.sidbs,
      attached_bounds_at i e.compositions ≠ [] := by
    rw [hcs]
    decide
  obtain ⟨g5, hg5⟩ := Option.isSome_iff_exists.mp
    ((internal_meet_projections g3 three_leaf_pair).1 hdef)
  obtain ⟨k, -, -⟩ := (internal_meet_projections g3 three_leaf_pair).2 g5 hg5
  obtain ⟨lb, ub, m1, m2, ⟨q1, hq1, e1⟩, hlow, ⟨q2, hq2, e2⟩, hupp, -⟩ :=
    k ⟨⟨1, 1, 0⟩, [[⟨.leaf 0 [0], neg1, [(0, 0, 0)]⟩,
        ⟨.leaf 2 [2], neut1, [(2, 100000, 100000)]⟩],
      [⟨.leaf 0 [0], neut1, [(0, 100000, 100000)]⟩, ⟨.leaf 2 [2], neg1, [(2, 0, 0)]⟩]]⟩
      (by rw [hcs]; decide) 0 (by decide)
  have hatt : attached_bounds_at 0 [[⟨.leaf 0 [0], neg1, [(0, 0, 0)]⟩,
        ⟨.leaf 2 [2], neut1, [(2, 100000, 100000)]⟩],
      [⟨.leaf 0 [0], neut1, [(0, 100000, 100000)]⟩, ⟨.leaf 2 [2], neg1, [(2, 0, 0)]⟩]]
      = [(0, 0), (100000, 100000)] := by decide
  simp only at hq1 hq2 hlow hupp m1 m2
  rw [hatt] at hq1 hq2 hlow hupp
  have hlb : lb = 0 := by
    have h1 := hlow (0, 0) (by decide)
    simp only [List.mem_cons, List.mem_singleton, List.not_mem_nil, or_false] at hq1
    rcases hq1 with rfl | rfl
    · exact e1.symm
    · rw [← e1] at h1
      exact absurd h1 (by decide)
  have hub : ub = 100000 := by
    have h1 := hupp (100000, 100000) (by decide)
    simp only [List.mem_cons, List.mem_singleton, List.not_mem_nil, or_false] at hq2
    rcases hq2 with rfl | rfl
    · rw [← e2] at h1
      exact absurd h1 (by decide)
    · exact e2.symm
  subst hlb hub
  exact ⟨g3, g5, hg3, hdef, hg5, m1, m2⟩

/-! ### The entries of the merged projections -/

theorem add_perm (pp : potential_projection) :
    ∀ (s : potential_projection_order), (potential_projection_order.add pp s).Perm (pp :: s) := by
  intro s
  induction s with
  | nil => exact List.Perm.refl _
  | cons q qs ih =>
    unfold potential_projection_order.add
    split
    · exact List.Perm.refl _
    · exact (List.Perm.cons q ih).trans (List.Perm.swap pp q qs)

theorem sum_composition_projections_children (g : ground_state_space) (b : bound_direction)
    (i : Nat) (comp : sidb_cluster_state_composition) (pp : potential_projection)
    (h : g.sum_composition_projections b i comp = some pp) :
    pp.M = composition_sum comp
      ∧ ∃ vs, projections_of_children g b i comp vs ∧ pp.V = vs.sum := by
  refine ⟨sum_composition_projections_tag g b i comp pp h, ?_⟩
  have key : ∀ (comp : sidb_cluster_state_composition) (acc pp : potential_projection),
      for_each (fun acc cst => (g.get_proj_state_bound b cst.cluster cst.multiset i).map
        (fun pp => acc.add pp)) comp acc = some pp →
      ∃ vs, projections_of_children g b i comp vs ∧ pp.V = acc.V + vs.sum := by
    intro comp
    induction comp with
    | nil =>
      intro acc pp h
      simp only [for_each, Option.some.injEq] at h
      subst h
      exact ⟨[], List.Forall₂.nil, by simp⟩
    | cons x xs ih =>
      intro acc pp h
      obtain ⟨a1, h1, h2⟩ := for_each_cons_some h
      cases hq : g.get_proj_state_bound b x.cluster x.multiset i with
      | none => simp only [hq, Option.map_none'] at h1; simp at h1
      | some q =>
        simp only [hq, Option.map_some', Option.some.injEq] at h1
        subst h1
        obtain ⟨vs, hvs, hv⟩ := ih _ _ h2
        refine ⟨q.V :: vs, List.Forall₂.cons ⟨q, hq, rfl⟩ hvs, ?_⟩
        rw [hv, List.sum_cons]
        simp only [potential_projection.add]
        ring
  obtain ⟨vs, hvs, hv⟩ := key comp ⟨0, ⟨0, 0, 0⟩⟩ pp h
  exact ⟨vs, hvs, by rw [hv]; simp⟩

/-- The loop of `merge_pot_proj_bounds<bound>` over a list of compositions that name no cluster
with the uid of the parent: the store of the parent onto the site gains, up to the order, the
sums of the compositions, every sum exists, and no other store changes. -/
theorem merge_steps_perm (b : bound_direction) (parent : sidb_cluster) (i : Nat) :
    ∀ (comps : List sidb_cluster_state_composition) (s s1 : ground_state_space),
      (∀ comp ∈ comps, ∀ cst ∈ comp, cst.cluster.uid ≠ parent.uid) →
      for_each (merge_pot_proj_step b parent i) comps s = some s1 →
      (∀ comp ∈ comps, (s.sum_composition_projections b i comp).isSome = true)
        ∧ ((s1.data parent.uid).pot_projs i).Perm ((s.data parent.uid).pot_projs i
            ++ comps.filterMap (fun comp => s.sum_composition_projections b i comp))
        ∧ ∀ u j, (u ≠ parent.uid ∨ j ≠ i) → (s1.data u).pot_projs j = (s.data u).pot_projs j := by
  intro comps
  induction comps with
  | nil =>
    intro s s1 _ h
    simp only [for_each, Option.some.injEq] at h
    subst h
    exact ⟨fun _ hc => by simp at hc, by simp, fun _ _ _ => rfl⟩
  | cons comp rest ih =>
    intro s s2 hav h
    obtain ⟨s1, h1, h2⟩ := for_each_cons_some h
    unfold merge_pot_proj_step at h1
    cases hsum : s.sum_composition_projections b i comp with
    | none => rw [hsum] at h1; simp at h1
    | some pp =>
      rw [hsum] at h1
      simp only [Option.map_some', Option.some.injEq] at h1
      subst h1
      obtain ⟨-, -, e3, e4⟩ := add_pot_proj_effect s parent i pp
      obtain ⟨k1, k2, k3⟩ := ih _ s2 (fun c hc => hav c (List.mem_cons_of_mem _ hc)) h2
      have hcongr : ∀ c ∈ rest, (s.add_pot_proj parent i pp).sum_composition_projections b i c
          = s.sum_composition_projections b i c := by
        intro c hc
        apply sum_composition_projections_congr
        intro cst hcst
        exact e3 _ _ (Or.inl (hav c (List.mem_cons_of_mem _ hc) cst hcst))
      refine ⟨?_, ?_, ?_⟩
      · intro c hc
        rcases List.mem_cons.mp hc with rfl | hc
        · rw [hsum]; rfl
        · rw [← hcongr c hc]; exact k1 c hc
      · rw [List.filterMap_cons_some hsum]
        have hfm : rest.filterMap
            (fun c => (s.add_pot_proj parent i pp).sum_composition_projections b i c)
            = rest.filterMap (fun c => s.sum_composition_projections b i c) :=
          List.filterMap_congr hcongr
        rw [hfm, e4] at k2
        refine k2.trans ?_
        refine (List.Perm.append_right _ (add_perm pp _)).trans ?_
        simp only [List.cons_append]
        exact (List.perm_middle).symm
      · intro u j huj
        rw [k3 u j huj, e3 u j huj]

theorem update_recv_stores (g : ground_state_space) (b : bound_direction) (c : sidb_cluster)
    (i : Nat) (v : Pot) (u : Nat) :
    ((g.update_recv_ext_pot_bound b c i v).data u).pot_projs = (g.data u).pot_projs := by
  unfold update_recv_ext_pot_bound
  exact set_recv_stores _ _ _ _ _ u

theorem update_recv_charge_space (g : ground_state_space) (b : bound_direction)
    (c : sidb_cluster) (i : Nat) (v : Pot) (u : Nat) :
    ((g.update_recv_ext_pot_bound b c i v).data u).charge_space = (g.data u).charge_space := by
  unfold update_recv_ext_pot_bound
  exact same_charge_spaces_set_recv _ _ _ _ _ u

/-- The entries that `merge_pot_proj_bounds<bound>` adds for a site. -/
theorem merge_pot_proj_bounds_perm (b : bound_direction) (s s1 : ground_state_space)
    (parent rc : sidb_cluster) (i : Nat)
    (hav : ∀ comp ∈ compositions_at s parent.uid, ∀ cst ∈ comp, cst.cluster.uid ≠ parent.uid)
    (h : merge_pot_proj_bounds b s parent rc i = some s1) :
    (∀ comp ∈ compositions_at s parent.uid,
        (s.sum_composition_projections b i comp).isSome = true)
      ∧ ((s1.data parent.uid).pot_projs i).Perm
          ((s.data parent.uid).pot_projs i ++ merged_entries s b parent.uid i)
      ∧ (∀ u j, (u ≠ parent.uid ∨ j ≠ i) → (s1.data u).pot_projs j = (s.data u).pot_projs j)
      ∧ ∀ u, (s1.data u).charge_space = (s.data u).charge_space := by
  unfold merge_pot_proj_bounds at h
  split at h
  · simp at h
  · rename_i a hL
    have hflat : for_each (merge_pot_proj_step b parent i) (compositions_at s parent.uid) s
        = some a :=
      (for_each_flatMap (merge_pot_proj_step b parent i)
        (fun (m : sidb_cluster_charge_state) => m.compositions) _ s).symm.trans hL
    obtain ⟨k1, k2, k3⟩ := merge_steps_perm b parent i _ s a hav hflat
    have hcs : ∀ u, (a.data u).charge_space = (s.data u).charge_space := by
      have := same_charge_spaces_for_each (merge_pot_proj_step b parent i) _ (by
        intro x comp x1 _ hx
        unfold merge_pot_proj_step at hx
        cases hsum : x.sum_composition_projections b i comp with
        | none => rw [hsum] at hx; simp at hx
        | some pp =>
          rw [hsum] at hx
          simp only [Option.map_some', Option.some.injEq] at hx
          subst hx
          exact same_charge_spaces_add_pot_proj _ _ _ _) s a hflat
      exact this
    split at h
    · simp at h
    · rename_i pp _
      split at h
      · simp at h
      · rename_i diff _
        simp only [Option.some.injEq] at h
        subst h
        refine ⟨k1, ?_, ?_, ?_⟩
        · rw [update_recv_stores]
          exact k2
        · intro u j huj
          rw [update_recv_stores]
          exact k3 u j huj
        · intro u
          rw [update_recv_charge_space]
          exact hcs u

theorem compositions_at_congr (g g1 : ground_state_space) (pu : Nat)
    (h : ∀ u, (g1.data u).charge_space = (g.data u).charge_space) :
    compositions_at g1 pu = compositions_at g pu := by
  unfold compositions_at
  rw [h]

theorem merged_entries_congr (g g1 : ground_state_space) (b : bound_direction) (pu i : Nat)
    (hcs : ∀ u, (g1.data u).charge_space = (g.data u).charge_space)
    (hst : ∀ comp ∈ compositions_at g pu, ∀ cst ∈ comp,
      (g1.data cst.cluster.uid).pot_projs i = (g.data cst.cluster.uid).pot_projs i) :
    merged_entries g1 b pu i = merged_entries g b pu i := by
  unfold merged_entries
  rw [compositions_at_congr g g1 pu hcs]
  apply List.filterMap_congr
  intro comp hcomp
  exact sum_composition_projections_congr g g1 b i comp (hst comp hcomp)

/-- The entries that the first inner loop body of `construct_merged_potential_projections` adds
for a site: the LOWER sums and the UPPER sums of the compositions. -/
theorem merged_site_perm (s s1 : ground_state_space) (parent nc : sidb_cluster) (i : Nat)
    (hav : ∀ comp ∈ compositions_at s parent.uid, ∀ cst ∈ comp, cst.cluster.uid ≠ parent.uid)
    (h : merged_projections_site_step parent nc s i = some s1) :
    (∀ comp ∈ compositions_at s parent.uid, ∀ b,
        (s.sum_composition_projections b i comp).isSome = true)
      ∧ ((s1.data parent.uid).pot_projs i).Perm
          ((s.data parent.uid).pot_projs i ++ merged_entries s .LOWER parent.uid i
            ++ merged_entries s .UPPER parent.uid i)
      ∧ (∀ u j, (u ≠ parent.uid ∨ j ≠ i) → (s1.data u).pot_projs j = (s.data u).pot_projs j)
      ∧ ∀ u, (s1.data u).charge_space = (s.data u).charge_space := by
  unfold merged_projections_site_step at h
  cases h1 : merge_pot_proj_bounds .LOWER s parent nc i with
  | none => rw [h1] at h; simp at h
  | some m1 =>
    rw [h1] at h
    simp only at h
    obtain ⟨a1, a2, a3, a4⟩ := merge_pot_proj_bounds_perm .LOWER s m1 parent nc i hav h1
    have hav1 : ∀ comp ∈ compositions_at m1 parent.uid, ∀ cst ∈ comp,
        cst.cluster.uid ≠ parent.uid := by
      rw [compositions_at_congr s m1 parent.uid a4]
      exact hav
    obtain ⟨b1, b2, b3, b4⟩ := merge_pot_proj_bounds_perm .UPPER m1 s1 parent nc i hav1 h
    have hst : ∀ comp ∈ compositions_at s parent.uid, ∀ cst ∈ comp,
        (m1.data cst.cluster.uid).pot_projs i = (s.data cst.cluster.uid).pot_projs i :=
      fun comp hc cst hcst => a3 _ _ (Or.inl (hav comp hc cst hcst))
    refine ⟨?_, ?_, ?_, ?_⟩
    · intro comp hc b
      cases b with
      | LOWER => exact a1 comp hc
      | UPPER =>
        rw [← sum_composition_projections_congr s m1 .UPPER i comp (hst comp hc)]
        exact b1 comp (by rw [compositions_at_congr s m1 parent.uid a4]; exact hc)
    · rw [merged_entries_congr s m1 .UPPER parent.uid i a4 hst] at b2
      exact b2.trans (List.Perm.append_right _ a2)
    · intro u j huj
      rw [b3 u j huj, a3 u j huj]
    · intro u
      rw [b4, a4]

/-- The first inner loop of `construct_merged_potential_projections` over distinct sites. -/
theorem merged_sites_perm (parent nc : sidb_cluster) :
    ∀ (sites : List Nat), sites.Nodup → ∀ (s s1 : ground_state_space),
      (∀ comp ∈ compositions_at s parent.uid, ∀ cst ∈ comp, cst.cluster.uid ≠ parent.uid) →
      for_each (merged_projections_site_step parent nc) sites s = some s1 →
      (∀ i ∈ sites, (∀ comp ∈ compositions_at s parent.uid, ∀ b,
            (s.sum_composition_projections b i comp).isSome = true)
          ∧ ((s1.data parent.uid).pot_projs i).Perm
            ((s.data parent.uid).pot_projs i ++ merged_entries s .LOWER parent.uid i
              ++ merged_entries s .UPPER parent.uid i))
        ∧ (∀ u j, (u ≠ parent.uid ∨ j ∉ sites) →
            (s1.data u).pot_projs j = (s.data u).pot_projs j)
        ∧ ∀ u, (s1.data u).charge_space = (s.data u).charge_space := by
  intro sites
  induction sites with
  | nil =>
    intro _ s s1 _ h
    simp only [for_each, Option.some.injEq] at h
    subst h
    exact ⟨fun i hi => by simp at hi, fun _ _ _ => rfl, fun _ => rfl⟩
  | cons i rest ih =>
    intro hnd s s2 hav h
    rw [List.nodup_cons] at hnd
    obtain ⟨s1, h1, h2⟩ := for_each_cons_some h
    obtain ⟨a1, a2, a3, a4⟩ := merged_site_perm s s1 parent nc i hav h1
    have hcomps := compositions_at_congr s s1 parent.uid a4
    have hav1 : ∀ comp ∈ compositions_at s1 parent.uid, ∀ cst ∈ comp,
        cst.cluster.uid ≠ parent.uid := by
      rw [hcomps]; exact hav
    obtain ⟨b1, b2, b3⟩ := ih hnd.2 s1 s2 hav1 h2
    have hst : ∀ j, ∀ comp ∈ compositions_at s parent.uid, ∀ cst ∈ comp,
        (s1.data cst.cluster.uid).pot_projs j = (s.data cst.cluster.uid).pot_projs j :=
      fun j comp hc cst hcst => a3 _ _ (Or.inl (hav comp hc cst hcst))
    refine ⟨?_, ?_, ?_⟩
    · intro j hj
      rcases List.mem_cons.mp hj with rfl | hj
      · refine ⟨a1, ?_⟩
        rw [b2 parent.uid j (Or.inr hnd.1)]
        exact a2
      · obtain ⟨k1, k2⟩ := b1 j hj
        have hji : j ≠ i := fun hji => hnd.1 (hji ▸ hj)
        refine ⟨?_, ?_⟩
        · intro comp hc b
          rw [← sum_composition_projections_congr s s1 b j comp (hst j comp hc)]
          exact k1 comp (by rw [hcomps]; exact hc) b
        · rw [merged_entries_congr s s1 .LOWER parent.uid j a4 (hst j),
            merged_entries_congr s s1 .UPPER parent.uid j a4 (hst j),
            a3 parent.uid j (Or.inr hji)] at k2
          exact k2
    · intro u j huj
      rw [b2 u j (by
        rcases huj with hu | hj
        · exact Or.inl hu
        · exact Or.inr (fun hm => hj (List.mem_cons_of_mem _ hm))),
        a3 u j (by
        rcases huj with hu | hj
        · exact Or.inl hu
        · exact Or.inr (fun hm => hj (hm ▸ List.mem_cons_self _ _)))]
    · intro u
      rw [b3, a4]

/-- The method `merge_recv_pot_proj_bounds<bound>` writes to the stores of the projecting cluster
only. -/
theorem merge_recv_stores (b : bound_direction) (g g1 : ground_state_space) (pc : sidb_cluster)
    (pm : multiset_conf) (parent : sidb_cluster)
    (h : merge_recv_pot_proj_bounds b g pc pm parent = some g1) :
    ∀ u, u ≠ pc.uid → (g1.data u).pot_projs = (g.data u).pot_projs := by
  refine for_each_inv _
    (fun s => ∀ u, u ≠ pc.uid → (s.data u).pot_projs = (g.data u).pot_projs) _ ?_ g g1
    (fun _ _ => rfl) h
  intro s m s1 _ hP hs
  refine for_each_inv _
    (fun s => ∀ u, u ≠ pc.uid → (s.data u).pot_projs = (g.data u).pot_projs) _ ?_ s s1 hP hs
  intro a comp a1 _ hPa ha
  refine for_each_inv _
    (fun s => ∀ u, u ≠ pc.uid → (s.data u).pot_projs = (g.data u).pot_projs) _ ?_ a a1 hPa ha
  intro a2 cst a3 _ hPa2 ha2
  refine for_each_inv _
    (fun s => ∀ u, u ≠ pc.uid → (s.data u).pot_projs = (g.data u).pot_projs) _ ?_ a2 a3 hPa2 ha2
  intro a4 i a5 _ hPa4 ha4
  unfold merge_recv_step at ha4
  cases hS : a4.get_proj_state_bound b pc pm i with
  | none => rw [hS] at ha4; simp at ha4
  | some pp =>
    rw [hS] at ha4
    simp only [Option.map_some', Option.some.injEq] at ha4
    subst ha4
    intro u hu
    rw [← hPa4 u hu]
    funext j
    exact (add_pot_proj_effect a4 pc i pp).2.2.1 u j (Or.inl hu)

theorem merged_state_step_stores (parent nc : sidb_cluster) (g g1 : ground_state_space)
    (m : sidb_cluster_charge_state)
    (h : merged_projections_state_step parent nc g m = some g1) :
    (∀ u, u ≠ nc.uid → (g1.data u).pot_projs = (g.data u).pot_projs)
      ∧ ∀ u, (g1.data u).charge_space = (g.data u).charge_space := by
  unfold merged_projections_state_step at h
  cases h1 : merge_recv_pot_proj_bounds .LOWER g nc m.multiset parent with
  | none => rw [h1] at h; simp at h
  | some a =>
    rw [h1] at h
    simp only at h
    refine ⟨?_, ?_⟩
    · intro u hu
      rw [merge_recv_stores .UPPER a g1 nc m.multiset parent h u hu,
        merge_recv_stores .LOWER g a nc m.multiset parent h1 u hu]
    · intro u
      rw [same_charge_spaces_merge_recv .UPPER a g1 nc m.multiset parent h u,
        same_charge_spaces_merge_recv .LOWER g a nc m.multiset parent h1 u]

/-- The outer loop of `construct_merged_potential_projections` over clusters with pairwise
disjoint, duplicate-free site lists, none of which is the parent or named by a composition of
the parent: the store of the parent onto every site of every cluster gains, up to the order, the
LOWER sums and the UPPER sums of the compositions, read off the stores as the loop found
them. -/
theorem merged_clusters_perm (parent : sidb_cluster) :
    ∀ (cl : List sidb_cluster), cl.Pairwise (fun a b => a.sidbs.Disjoint b.sidbs) →
      (∀ c ∈ cl, c.sidbs.Nodup) → (∀ c ∈ cl, c.uid ≠ parent.uid) →
      ∀ (s s1 : ground_state_space),
        (∀ comp ∈ compositions_at s parent.uid, ∀ cst ∈ comp,
          cst.cluster.uid ≠ parent.uid ∧ ∀ c ∈ cl, c.uid ≠ cst.cluster.uid) →
        for_each (merged_projections_step parent) cl s = some s1 →
        (∀ c ∈ cl, ∀ i ∈ c.sidbs, (∀ comp ∈ compositions_at s parent.uid, ∀ b,
              (s.sum_composition_projections b i comp).isSome = true)
            ∧ ((s1.data parent.uid).pot_projs i).Perm
              ((s.data parent.uid).pot_projs i ++ merged_entries s .LOWER parent.uid i
                ++ merged_entries s .UPPER parent.uid i))
          ∧ (∀ j, (∀ c ∈ cl, j ∉ c.sidbs) →
              (s1.data parent.uid).pot_projs j = (s.data parent.uid).pot_projs j)
          ∧ (∀ u, u ≠ parent.uid → (∀ c ∈ cl, c.uid ≠ u) →
              (s1.data u).pot_projs = (s.data u).pot_projs)
          ∧ ∀ u, (s1.data u).charge_space = (s.data u).charge_space := by
  intro cl
  induction cl with
  | nil =>
    intro _ _ _ s s1 _ h
    simp only [for_each, Option.some.injEq] at h
    subst h
    exact ⟨fun c hc => by simp at hc, fun _ _ => rfl, fun _ _ _ => rfl, fun _ => rfl⟩
  | cons nc rest ih =>
    intro hd hn hp s s3 hav h
    rw [List.pairwise_cons] at hd
    obtain ⟨s2, h1, h2⟩ := for_each_cons_some h
    unfold merged_projections_step at h1
    cases hsite : for_each (merged_projections_site_step parent nc) nc.sidbs s with
    | none => rw [hsite] at h1; simp at h1
    | some s1 =>
      rw [hsite] at h1
      simp only at h1
      have hav0 : ∀ comp ∈ compositions_at s parent.uid, ∀ cst ∈ comp,
          cst.cluster.uid ≠ parent.uid := fun comp hc cst hcst => (hav comp hc cst hcst).1
      obtain ⟨a1, a2, a3⟩ := merged_sites_perm parent nc nc.sidbs
        (hn nc (List.mem_cons_self _ _)) s s1 hav0 hsite
      have hncp : nc.uid ≠ parent.uid := hp nc (List.mem_cons_self _ _)
      have hstate : (∀ u, u ≠ nc.uid → (s2.data u).pot_projs = (s1.data u).pot_projs)
          ∧ ∀ u, (s2.data u).charge_space = (s1.data u).charge_space := by
        have hrel := for_each_inv (merged_projections_state_step parent nc)
          (fun x => (∀ u, u ≠ nc.uid → (x.data u).pot_projs = (s1.data u).pot_projs)
            ∧ ∀ u, (x.data u).charge_space = (s1.data u).charge_space)
          _ (by
            intro x m x1 _ hP hx
            obtain ⟨k1, k2⟩ := merged_state_step_stores parent nc x x1 m hx
            exact ⟨fun u hu => (k1 u hu).trans (hP.1 u hu), fun u => (k2 u).trans (hP.2 u)⟩)
          s1 s2 ⟨fun _ _ => rfl, fun _ => rfl⟩ h1
        exact hrel
      obtain ⟨c1, c2⟩ := hstate
      have hcs2 : ∀ u, (s2.data u).charge_space = (s.data u).charge_space :=
        fun u => (c2 u).trans (a3 u)
      have hcomps := compositions_at_congr s s2 parent.uid hcs2
      have hav2 : ∀ comp ∈ compositions_at s2 parent.uid, ∀ cst ∈ comp,
          cst.cluster.uid ≠ parent.uid ∧ ∀ c ∈ rest, c.uid ≠ cst.cluster.uid := by
        rw [hcomps]
        intro comp hc cst hcst
        exact ⟨(hav comp hc cst hcst).1,
          fun c hcr => (hav comp hc cst hcst).2 c (List.mem_cons_of_mem _ hcr)⟩
      obtain ⟨b1, b2, b3, b4⟩ := ih hd.2 (fun c hc => hn c (List.mem_cons_of_mem _ hc))
        (fun c hc => hp c (List.mem_cons_of_mem _ hc)) s2 s3 hav2 h2
      have hchild : ∀ j, ∀ comp ∈ compositions_at s parent.uid, ∀ cst ∈ comp,
          (s2.data cst.cluster.uid).pot_projs j = (s.data cst.cluster.uid).pot_projs j := by
        intro j comp hc cst hcst
        obtain ⟨k1, k2⟩ := hav comp hc cst hcst
        rw [c1 _ (fun hu => k2 nc (List.mem_cons_self _ _) hu.symm),
          a2 _ j (Or.inl k1)]
      have hpar : ∀ j, j ∉ nc.sidbs →
          (s2.data parent.uid).pot_projs j = (s.data parent.uid).pot_projs j := by
        intro j hj
        rw [c1 _ (fun hu => hncp hu.symm), a2 _ j (Or.inr hj)]
      refine ⟨?_, ?_, ?_, ?_⟩
      · intro c hc i hi
        rcases List.mem_cons.mp hc with rfl | hc
        · obtain ⟨k1, k2⟩ := a1 i hi
          refine ⟨k1, ?_⟩
          rw [b2 i (fun c1 hc1 hm => hd.1 c1 hc1 hi hm), c1 _ (fun hu => hncp hu.symm)]
          exact k2
        · obtain ⟨k1, k2⟩ := b1 c hc i hi
          have hinc : i ∉ nc.sidbs := fun hm => hd.1 c hc hm hi
          refine ⟨?_, ?_⟩
          · intro comp hcomp b
            rw [← sum_composition_projections_congr s s2 b i comp (hchild i comp hcomp)]
            exact k1 comp (by rw [hcomps]; exact hcomp) b
          · rw [merged_entries_congr s s2 .LOWER parent.uid i hcs2 (hchild i),
              merged_entries_congr s s2 .UPPER parent.uid i hcs2 (hchild i),
              hpar i hinc] at k2
            exact k2
      · intro j hj
        rw [b2 j (fun c hc => hj c (List.mem_cons_of_mem _ hc)),
          hpar j (hj nc (List.mem_cons_self _ _))]
      · intro u hu huc
        rw [b3 u hu (fun c hc => huc c (List.mem_cons_of_mem _ hc)),
          c1 u (fun h => huc nc (List.mem_cons_self _ _) h.symm)]
        funext j
        exact a2 u j (Or.inl hu)
      · intro u
        rw [b4, hcs2]

theorem length_filterMap_of_isSome {α β : Type} (f : α → Option β) :
    ∀ (l : List α), (∀ x ∈ l, (f x).isSome = true) → (l.filterMap f).length = l.length := by
  intro l
  induction l with
  | nil => intro _; rfl
  | cons x xs ih =>
    intro h
    obtain ⟨y, hy⟩ := Option.isSome_iff_exists.mp (h x (List.mem_cons_self _ _))
    rw [List.filterMap_cons_some hy, List.length_cons, List.length_cons,
      ih (fun z hz => h z (List.mem_cons_of_mem _ hz))]

/-- C28: merged projections. Let `P` be a parent with the children `l` and `r` that does not
project yet, in a state with sorted stores whose clustering holds neither `P` nor a child of
`P`, with distinct uids and pairwise disjoint, duplicate-free site lists, and let every
composition of `P` consist of states of `l` and `r` and sum to the multiset of its element.
After `construct_merged_potential_projections(P)`, for every site `j` of every cluster of the
clustering: the store of `P` onto `j` holds, up to the order, exactly the entries
`merged_entries` for LOWER and for UPPER, one entry per direction for every composition of every
element of the charge space of `P`; the entry of a composition of an element with multiset `M` is
tagged `M`, and its potential is the sum over the child states of the composition of their
per-multiset projections onto `j` in that direction; and the received bound of the cluster at `j`
changes in each direction by the extremal projection of `P` onto `j` after the call minus the sum
of the extremal projections of the two children. -/
theorem merged_projections (g3 g4 : ground_state_space) (pu : Nat) (ps : List Nat)
    (l r : sidb_cluster) (hl : l.uid ≠ pu) (hr : r.uid ≠ pu)
    (hnd : (g3.clustering.map uid).Nodup)
    (hdisj : g3.clustering.Pairwise (fun a b => a.sidbs.Disjoint b.sidbs))
    (hsn : ∀ c ∈ g3.clustering, c.sidbs.Nodup)
    (hfr : ∀ c ∈ g3.clustering, c.uid ≠ pu ∧ c.uid ≠ l.uid ∧ c.uid ≠ r.uid)
    (hs : stores_sorted g3)
    (hkeys : ∀ comp ∈ compositions_at g3 pu, ∀ cst ∈ comp,
      cst.cluster.uid = l.uid ∨ cst.cluster.uid = r.uid)
    (hsum : compositions_sum_ok (g3.data pu).charge_space)
    (hempty : ∀ j, (g3.data pu).pot_projs j = [])
    (h : g3.construct_merged_potential_projections (.node pu ps l r) = some g4) :
    ∀ nc ∈ g3.clustering, ∀ j ∈ nc.sidbs,
      ((g4.data pu).pot_projs j).Perm
          (merged_entries g3 .LOWER pu j ++ merged_entries g3 .UPPER pu j)
        ∧ (merged_entries g3 .LOWER pu j).length = (compositions_at g3 pu).length
        ∧ (merged_entries g3 .UPPER pu j).length = (compositions_at g3 pu).length
        ∧ (∀ e ∈ (g3.data pu).charge_space, ∀ comp ∈ e.compositions, ∀ b, ∃ pp vs,
            g3.sum_composition_projections b j comp = some pp ∧ pp.M = e.multiset
              ∧ projections_of_children g3 b j comp vs ∧ pp.V = vs.sum)
        ∧ ∀ b, ∃ vP vl vr, extremal_pot g4 b (.node pu ps l r) j = some vP
            ∧ extremal_pot g3 b l j = some vl ∧ extremal_pot g3 b r j = some vr
            ∧ g4.get_recv_ext_pot_bound b nc j
              = g3.get_recv_ext_pot_bound b nc j + (vP - (vl + vr)) := by
  have hav : ∀ comp ∈ compositions_at g3 (sidb_cluster.node pu ps l r).uid, ∀ cst ∈ comp,
      cst.cluster.uid ≠ (sidb_cluster.node pu ps l r).uid
        ∧ ∀ c ∈ g3.clustering, c.uid ≠ cst.cluster.uid := by
    intro comp hc cst hcst
    rcases hkeys comp hc cst hcst with hk | hk
    · rw [hk]
      exact ⟨hl, fun c hcc => (hfr c hcc).2.1⟩
    · rw [hk]
      exact ⟨hr, fun c hcc => (hfr c hcc).2.2⟩
  have hcomp : compositions_avoid pu (g3.data pu).charge_space :=
    fun comp hc cst hcst => (hav comp hc cst hcst).1
  obtain ⟨-, -, -, -, -, e6⟩ := construct_projections_effect g3 g4 pu ps l r hl hr hnd hdisj hsn
    hs hcomp hempty h
  unfold construct_merged_potential_projections at h
  obtain ⟨p1, -, -, -⟩ := merged_clusters_perm (.node pu ps l r) g3.clustering hdisj hsn
    (fun c hc => (hfr c hc).1) g3 g4 hav h
  intro nc hnc j hj
  obtain ⟨k1, k2⟩ := p1 nc hnc j hj
  have hpu : (sidb_cluster.node pu ps l r).uid = pu := rfl
  rw [hpu] at k1 k2
  rw [hempty j, List.nil_append] at k2
  refine ⟨k2, ?_, ?_, ?_, ?_⟩
  · unfold merged_entries
    exact length_filterMap_of_isSome _ _ (fun comp hc => k1 comp hc .LOWER)
  · unfold merged_entries
    exact length_filterMap_of_isSome _ _ (fun comp hc => k1 comp hc .UPPER)
  · intro e he comp hcomp1 b
    have hmem : comp ∈ compositions_at g3 pu :=
      List.mem_flatMap.mpr ⟨e, he, hcomp1⟩
    obtain ⟨pp, hpp⟩ := Option.isSome_iff_exists.mp (k1 comp hmem b)
    obtain ⟨t1, vs, t2, t3⟩ := sum_composition_projections_children g3 b j comp pp hpp
    exact ⟨pp, vs, hpp, by rw [t1]; exact hsum e he comp hcomp1, t2, t3⟩
  · intro b
    obtain ⟨vP, vl, vr, a1, a2, a3, a4⟩ := e6 nc hnc j hj b
    exact ⟨vP, vl, vr, a1, a2, a3, by rw [a4]; ring⟩

/-- The projections of the cluster of the sites 0 and 2 of `three_leaf_state` onto site 1 after
its charge space has been merged: the charge space has four compositions, and the store onto
site 1 receives four LOWER and four UPPER sums. -/
theorem merged_projections_witness :
    ∃ g3 g4, ({ three_leaf_state with clustering := [.leaf 1 [1]] } :
          ground_state_space).construct_merged_charge_state_space three_leaf_pair = some g3
      ∧ g3.construct_merged_potential_projections three_leaf_pair = some g4
      ∧ stores_sorted g3
      ∧ (∀ comp ∈ compositions_at g3 3, ∀ cst ∈ comp,
          cst.cluster.uid = (sidb_cluster.leaf 0 [0]).uid
            ∨ cst.cluster.uid = (sidb_cluster.leaf 2 [2]).uid)
      ∧ compositions_sum_ok (g3.data 3).charge_space
      ∧ (∀ j, (g3.data 3).pot_projs j = [])
      ∧ ((g4.data 3).pot_projs 1).Perm
          (merged_entries g3 .LOWER 3 1 ++ merged_entries g3 .UPPER 3 1)
      ∧ (merged_entries g3 .LOWER 3 1).length = 4 := by
  obtain ⟨g3, hg3⟩ := Option.isSome_iff_exists.mp
    (by decide : (({ three_leaf_state with clustering := [.leaf 1 [1]] } :
      ground_state_space).construct_merged_charge_state_space three_leaf_pair).isSome = true)
  have h34 : ((({ three_leaf_state with clustering := [.leaf 1 [1]] } :
      ground_state_space).construct_merged_charge_state_space three_leaf_pair).bind
        (fun g => g.construct_merged_potential_projections three_leaf_pair)).isSome = true := by
    decide
  rw [hg3, Option.some_bind] at h34
  obtain ⟨g4, hg4⟩ := Option.isSome_iff_exists.mp h34
  have hcs : (g3.data 3).charge_space
      = [⟨⟨2, 0, 0⟩, [[⟨.leaf 0 [0], neg1, [(0, 100000, 100000)]⟩,
            ⟨.leaf 2 [2], neg1, [(2, 100000, 100000)]⟩]]⟩,
          ⟨⟨1, 1, 0⟩, [[⟨.leaf 0 [0], neg1, [(0, 0, 0)]⟩,
              ⟨.leaf 2 [2], neut1, [(2, 100000, 100000)]⟩],
            [⟨.leaf 0 [0], neut1, [(0, 100000, 100000)]⟩,
              ⟨.leaf 2 [2], neg1, [(2, 0, 0)]⟩]]⟩,
          ⟨⟨0, 2, 0⟩, [[⟨.leaf 0 [0], neut1, [(0, 0, 0)]⟩,
            ⟨.leaf 2 [2], neut1, [(2, 0, 0)]⟩]]⟩] := by
    have := (by decide : (({ three_leaf_state with clustering := [.leaf 1 [1]] } :
      ground_state_space).construct_merged_charge_state_space three_leaf_pair).map
        (fun g => (g.data 3).charge_space)
      = some [⟨⟨2, 0, 0⟩, [[⟨.leaf 0 [0], neg1, [(0, 100000, 100000)]⟩,
            ⟨.leaf 2 [2], neg1, [(2, 100000, 100000)]⟩]]⟩,
          ⟨⟨1, 1, 0⟩, [[⟨.leaf 0 [0], neg1, [(0, 0, 0)]⟩,
              ⟨.leaf 2 [2], neut1, [(2, 100000, 100000)]⟩],
            [⟨.leaf 0 [0], neut1, [(0, 100000, 100000)]⟩,
              ⟨.leaf 2 [2], neg1, [(2, 0, 0)]⟩]]⟩,
          ⟨⟨0, 2, 0⟩, [[⟨.leaf 0 [0], neut1, [(0, 0, 0)]⟩,
            ⟨.leaf 2 [2], neut1, [(2, 0, 0)]⟩]]⟩])
    rw [hg3] at this
    exact Option.some.inj this
  have hinv := construct_merged_inv _ g3 3 [0, 2] (.leaf 0 [0]) (.leaf 2 [2]) rfl
    (by decide) hg3
  have hstore : ∀ u, (g3.data u).pot_projs = (three_leaf_state.data u).pot_projs :=
    fun u => (hinv.1.2.2 u).1
  have hsorted : stores_sorted g3 := by
    intro u j
    rw [hstore u]
    exact three_leaf_sorted u j
  have hsum := merge_inv_compositions_sum_ok _ _ _ _ _ _ hinv
  have hkeys : ∀ comp ∈ compositions_at g3 3, ∀ cst ∈ comp,
      cst.cluster.uid = (sidb_cluster.leaf 0 [0]).uid
        ∨ cst.cluster.uid = (sidb_cluster.leaf 2 [2]).uid := by
    unfold compositions_at
    rw [hcs]
    decide
  have hempty : ∀ j, (g3.data 3).pot_projs j = [] := by
    intro j
    rw [hstore 3]
    rfl
  have hcl : g3.clustering = [.leaf 1 [1]] := (same_static_construct_charge _ g3 _ hg3).2.1
  obtain ⟨k1, k2, -, -, -⟩ := merged_projections g3 g4 3 [0, 2] (.leaf 0 [0]) (.leaf 2 [2])
    (by decide) (by decide) (by rw [hcl]; decide) (by rw [hcl]; simp)
    (by rw [hcl]; decide) (by rw [hcl]; decide) hsorted hkeys hsum hempty hg4
    (.leaf 1 [1]) (by rw [hcl]; exact List.mem_singleton.mpr rfl) 1 (by decide)
  refine ⟨g3, g4, hg3, hg4, hsorted, hkeys, hsum, hempty, k1, ?_⟩
  rw [k2]
  unfold compositions_at
  rw [hcs]
  rfl

/-! ### The initial frontier -/

theorem populate_pot_projs_spec (ops : singleton_cluster_ops)
    (cds : charge_distribution_surface) (i : Nat) (d : cluster_data) :
    (populate_pot_projs ops cds i d).charge_space = d.charge_space
      ∧ (populate_pot_projs ops cds i d).recv_ext_pot_bounds = d.recv_ext_pot_bounds
      ∧ ∀ j, (populate_pot_projs ops cds i d).pot_projs j
          = if j < cds.num_cells then
              ops.potential_projection_order_of (cds.get_potential_by_indices i j)
            else d.pot_projs j := by
  unfold populate_pot_projs
  generalize cds.num_cells = n
  induction n with
  | zero => exact ⟨rfl, rfl, fun j => by simp⟩
  | succ n ih =>
    rw [List.range_succ, List.foldl_append]
    simp only [List.foldl_cons, List.foldl_nil]
    obtain ⟨h1, h2, h3⟩ := ih
    refine ⟨h1, h2, ?_⟩
    intro j
    by_cases hj : j = n
    · subst hj
      simp
    · rw [Function.update_noteq hj, h3 j]
      by_cases hlt : j < n
      · rw [if_pos hlt, if_pos (by omega)]
      · rw [if_neg hlt, if_neg (by omega)]

theorem size_one_iff_leaf : ∀ (t c : sidb_cluster), t.well_formed → c ∈ t.nodes →
    (c.size = 1 ↔ c.children = []) := by
  intro t c hw hc
  have hcw := well_formed_of_mem t c hw hc
  cases c with
  | leaf u s =>
    simp only [well_formed] at hcw
    simp [size, sidbs, children, hcw]
  | node u s l r =>
    have h0 := size_node_of_well_formed hcw
    have h1 := size_pos_of_well_formed l hcw.1
    have h2 := size_pos_of_well_formed r hcw.2.1
    constructor
    · intro h
      omega
    · intro h
      simp [children] at h

/-- The function `get_initial_clustering` on a well-formed hierarchy with distinct uids whose
leaves have local potentials in both containers: it returns the clustering of
`get_initial_clustering`, leaves the members of the clusters outside the hierarchy alone, and
initialises and populates every cluster of the clustering. -/
theorem get_initial_clustering_effect_spec (ops : singleton_cluster_ops)
    (cds : charge_distribution_surface × charge_distribution_surface) :
    ∀ (t : sidb_cluster), t.well_formed → t.uids.Nodup → ∀ (data : Nat → cluster_data),
      (∀ c ∈ t.nodes, c.children = [] → ∀ i ∈ c.sidbs,
        (cds.1.get_local_potential_by_index i).isSome = true
          ∧ (cds.2.get_local_potential_by_index i).isSome = true) →
      ∃ data1, get_initial_clustering_effect ops cds t data
          = some (get_initial_clustering t, data1)
        ∧ (∀ u, u ∉ t.uids → data1 u = data u)
        ∧ ∀ c ∈ get_initial_clustering t, ∃ i min_loc_pot max_loc_pot, c.sidbs = [i]
            ∧ cds.1.get_local_potential_by_index i = some min_loc_pot
            ∧ cds.2.get_local_potential_by_index i = some max_loc_pot
            ∧ data1 c.uid = populate_pot_projs ops cds.1 i
                (ops.initialize_singleton_cluster_charge_space i (-min_loc_pot) (-max_loc_pot)
                  (data c.uid)) := by
  intro t
  induction t with
  | leaf u s =>
    intro hw _ data hpot
    simp only [well_formed] at hw
    obtain ⟨i, rfl⟩ := List.length_eq_one.mp hw
    obtain ⟨h1, h2⟩ := hpot (.leaf u [i]) (self_mem_nodes _) rfl i (List.mem_singleton.mpr rfl)
    obtain ⟨vmin, hvmin⟩ := Option.isSome_iff_exists.mp h1
    obtain ⟨vmax, hvmax⟩ := Option.isSome_iff_exists.mp h2
    have hinit : initialize_singleton ops cds (.leaf u [i]) data
        = some (Function.update data u (populate_pot_projs ops cds.1 i
            (ops.initialize_singleton_cluster_charge_space i (-vmin) (-vmax) (data u)))) := by
      unfold initialize_singleton get_singleton_sidb_ix
      simp only [sidbs, List.head?_cons, uid]
      rw [hvmin, hvmax]
    refine ⟨Function.update data u (populate_pot_projs ops cds.1 i
      (ops.initialize_singleton_cluster_charge_space i (-vmin) (-vmax) (data u))), ?_, ?_, ?_⟩
    · unfold get_initial_clustering_effect initial_clustering_of_cluster
      rw [if_pos (by simp [size, sidbs]), hinit]
      simp [get_initial_clustering, size, sidbs]
    · intro v hv
      have hvu : v ≠ u := by
        intro h
        apply hv
        simp [uids, nodes, uid, h]
      exact Function.update_noteq hvu _ _
    · intro c hc
      simp only [get_initial_clustering, size, sidbs, List.length_singleton, if_true,
        List.mem_singleton] at hc
      subst hc
      exact ⟨i, vmin, vmax, rfl, hvmin, hvmax, by simp [uid]⟩
  | node u s l r ihl ihr =>
    intro hw hu data hpot
    have hsz := size_node_of_well_formed hw
    have h1 := size_pos_of_well_formed l hw.1
    have h2 := size_pos_of_well_formed r hw.2.1
    have hne : ¬ (node u s l r).size = 1 := by omega
    have hu2 := hu
    rw [uids_node] at hu2
    have hlr := (List.nodup_cons.mp hu2).2
    have hul := List.Nodup.of_append_left hlr
    have hur := List.Nodup.of_append_right hlr
    have hdis := List.disjoint_of_nodup_append hlr
    obtain ⟨d1, e1, f1, g1⟩ := ihl hw.1 hul data
      (fun c hc => hpot c (mem_nodes_node.mpr (Or.inr (Or.inl hc))))
    obtain ⟨d2, e2, f2, g2⟩ := ihr hw.2.1 hur d1
      (fun c hc => hpot c (mem_nodes_node.mpr (Or.inr (Or.inr hc))))
    have hfl := is_frontier_initial l hw.1 hul
    have hfr := is_frontier_initial r hw.2.1 hur
    refine ⟨d2, ?_, ?_, ?_⟩
    · rw [get_initial_clustering_effect]
      unfold initial_clustering_of_cluster
      rw [if_neg hne]
      simp only
      rw [e1]
      simp only
      rw [e2]
      simp only
      rw [get_initial_clustering, if_neg hne]
    · intro v hv
      rw [uids_node] at hv
      simp only [List.mem_cons, List.mem_append, not_or] at hv
      rw [f2 v hv.2.2, f1 v hv.2.1]
    · intro c hc
      rw [get_initial_clustering_node u s l r hw hu] at hc
      rcases List.mem_append.mp hc with hc | hc
      · obtain ⟨i, vmin, vmax, k1, k2, k3, k4⟩ := g1 c hc
        have hcu : c.uid ∉ r.uids :=
          fun h => hdis (uid_mem_uids (is_frontier_mem_nodes hfl c hc)) h
        exact ⟨i, vmin, vmax, k1, k2, k3, by rw [f2 c.uid hcu]; exact k4⟩
      · obtain ⟨i, vmin, vmax, k1, k2, k3, k4⟩ := g2 c hc
        have hcu : c.uid ∉ l.uids :=
          fun h => hdis h (uid_mem_uids (is_frontier_mem_nodes hfr c hc))
        exact ⟨i, vmin, vmax, k1, k2, k3, by rw [k4, f1 c.uid hcu]⟩

/-- C30: the initial frontier. On a well-formed hierarchy with distinct uids and distinct sites
whose leaves have local potentials in both containers, for every implementation of the two
operations on singleton clusters, `get_initial_clustering` returns; the clusters of the returned
clustering are exactly the clusters of the hierarchy of size one, which are its leaves; for each
of them, with site `i`, the charge space and the received bounds are those that
`initialize_singleton_cluster_charge_space` produces from the negated local potentials at `i`,
and the store onto every site index `j` below `num_cells()` is the store built from the
potential between `i` and `j`; the members of all other clusters are unchanged; the clustering
has as many clusters as the hierarchy has sites, and it partitions the site set. -/
theorem initial_frontier (ops : singleton_cluster_ops)
    (cds : charge_distribution_surface × charge_distribution_surface) (top : sidb_cluster)
    (hw : top.well_formed) (hu : top.uids.Nodup) (hn : top.sidbs.Nodup)
    (hpot : ∀ c ∈ top.nodes, c.children = [] → ∀ i ∈ c.sidbs,
      (cds.1.get_local_potential_by_index i).isSome = true
        ∧ (cds.2.get_local_potential_by_index i).isSome = true)
    (data : Nat → cluster_data) :
    ∃ data1, get_initial_clustering_effect ops cds top data
        = some (get_initial_clustering top, data1)
      ∧ (∀ c, c ∈ get_initial_clustering top ↔ c ∈ top.nodes ∧ c.size = 1)
      ∧ (∀ c ∈ top.nodes, c.size = 1 ↔ c.children = [])
      ∧ (∀ c ∈ get_initial_clustering top, ∃ i min_loc_pot max_loc_pot, c.sidbs = [i]
          ∧ cds.1.get_local_potential_by_index i = some min_loc_pot
          ∧ cds.2.get_local_potential_by_index i = some max_loc_pot
          ∧ (data1 c.uid).charge_space
              = (ops.initialize_singleton_cluster_charge_space i (-min_loc_pot) (-max_loc_pot)
                  (data c.uid)).charge_space
          ∧ (data1 c.uid).recv_ext_pot_bounds
              = (ops.initialize_singleton_cluster_charge_space i (-min_loc_pot) (-max_loc_pot)
                  (data c.uid)).recv_ext_pot_bounds
          ∧ ∀ j, j < cds.1.num_cells → (data1 c.uid).pot_projs j
              = ops.potential_projection_order_of (cds.1.get_potential_by_indices i j))
      ∧ (∀ u, u ∉ (get_initial_clustering top).map uid → data1 u = data u)
      ∧ (get_initial_clustering top).length = top.size
      ∧ partitions_sites top (get_initial_clustering top) := by
  obtain ⟨data1, e1, f1, g1⟩ := get_initial_clustering_effect_spec ops cds top hw hu data hpot
  have hf := is_frontier_initial top hw hu
  have hmem : ∀ c, c ∈ get_initial_clustering top ↔ c ∈ top.nodes ∧ c.size = 1 := by
    intro c
    constructor
    · intro hc
      obtain ⟨i, -, -, k1, -⟩ := g1 c hc
      exact ⟨is_frontier_mem_nodes hf c hc, by simp [size, k1]⟩
    · rintro ⟨hc, hs⟩
      exact leaf_mem_get_initial_clustering top hw hu c hc
        ((size_one_iff_leaf top c hw hc).mp hs)
  refine ⟨data1, e1, hmem, fun c hc => size_one_iff_leaf top c hw hc, ?_, ?_,
    get_initial_clustering_length top hw hu, partitions_sites_of_frontier hf hw hn⟩
  · intro c hc
    obtain ⟨i, vmin, vmax, k1, k2, k3, k4⟩ := g1 c hc
    obtain ⟨p1, p2, p3⟩ := populate_pot_projs_spec ops cds.1 i
      (ops.initialize_singleton_cluster_charge_space i (-vmin) (-vmax) (data c.uid))
    refine ⟨i, vmin, vmax, k1, k2, k3, by rw [k4, p1], by rw [k4, p2], ?_⟩
    intro j hj
    rw [k4, p3 j, if_pos hj]
  · intro v hv
    have key : ∀ (t : sidb_cluster), t.well_formed → t.uids.Nodup →
        ∀ (d : Nat → cluster_data) (d1 : Nat → cluster_data) (cl : List sidb_cluster),
          get_initial_clustering_effect ops cds t d = some (cl, d1) →
          ∀ x, x ∉ cl.map uid → d1 x = d x := by
      intro t
      induction t with
      | leaf a s =>
        intro _ _ d d1 cl h x hx
        unfold get_initial_clustering_effect initial_clustering_of_cluster at h
        split at h
        · cases hi : initialize_singleton ops cds (.leaf a s) d with
          | none => rw [hi] at h; simp at h
          | some d3 =>
            rw [hi] at h
            simp only [Option.map_some', Option.some.injEq, Prod.mk.injEq] at h
            obtain ⟨rfl, rfl⟩ := h
            unfold initialize_singleton at hi
            split at hi
            · simp at hi
            · split at hi
              · simp only [Option.some.injEq] at hi
                subst hi
                exact Function.update_noteq (fun hxa => hx (by simp [hxa])) _ _
              · simp at hi
        · simp only [Option.some.injEq, Prod.mk.injEq] at h
          rw [← h.2]
      | node a s l r ihl ihr =>
        intro hwt hut d d3 cl h x hx
        have hsz := size_node_of_well_formed hwt
        have h1 := size_pos_of_well_formed l hwt.1
        have h2 := size_pos_of_well_formed r hwt.2.1
        have hne : ¬ (node a s l r).size = 1 := by omega
        have hu2 := hut
        rw [uids_node] at hu2
        have hlr := (List.nodup_cons.mp hu2).2
        have hul := List.Nodup.of_append_left hlr
        have hur := List.Nodup.of_append_right hlr
        rw [get_initial_clustering_effect] at h
        unfold initial_clustering_of_cluster at h
        rw [if_neg hne] at h
        simp only at h
        cases hl : get_initial_clustering_effect ops cds l d with
        | none => rw [hl] at h; simp at h
        | some pl =>
          obtain ⟨cl_l, d1⟩ := pl
          rw [hl] at h
          simp only at h
          cases hr : get_initial_clustering_effect ops cds r d1 with
          | none => rw [hr] at h; simp at h
          | some pr =>
            obtain ⟨cl_r, d2⟩ := pr
            rw [hr] at h
            simp only [Option.some.injEq, Prod.mk.injEq] at h
            obtain ⟨rfl, rfl⟩ := h
            have hin : ∀ y, y ∈ cl_l ∨ y ∈ cl_r →
                ∃ z ∈ cl_r.foldl (fun acc c => emplace_cluster c acc)
                  (cl_l.foldl (fun acc c => emplace_cluster c acc) []), z.uid = y.uid := by
              have hfold : ∀ (xs acc : List sidb_cluster) (y : sidb_cluster),
                  ((∃ z ∈ acc, z.uid = y.uid) ∨ y ∈ xs) →
                  ∃ z ∈ xs.foldl (fun acc c => emplace_cluster c acc) acc, z.uid = y.uid := by
                intro xs
                induction xs with
                | nil =>
                  intro acc y hy
                  rcases hy with hy | hy
                  · exact hy
                  · simp at hy
                | cons w ws ihw =>
                  intro acc y hy
                  rw [List.foldl_cons]
                  apply ihw
                  rcases hy with ⟨z, hz, hzu⟩ | hy
                  · exact Or.inl ⟨z, mem_emplace_cluster_of_mem w z acc hz, hzu⟩
                  · rcases List.mem_cons.mp hy with rfl | hy
                    · left
                      unfold emplace_cluster
                      split
                      · rename_i hex
                        exact hex
                      · exact ⟨y, by simp, rfl⟩
                    · exact Or.inr hy
              intro y hy
              rcases hy with hy | hy
              · exact hfold cl_r _ y (Or.inl (hfold cl_l [] y (Or.inr hy)))
              · exact hfold cl_r _ y (Or.inr hy)
            have hxl : x ∉ cl_l.map uid := by
              intro hm
              obtain ⟨y, hy, hyu⟩ := List.mem_map.mp hm
              obtain ⟨z, hz, hzu⟩ := hin y (Or.inl hy)
              exact hx (List.mem_map.mpr ⟨z, hz, hzu.trans hyu⟩)
            have hxr : x ∉ cl_r.map uid := by
              intro hm
              obtain ⟨y, hy, hyu⟩ := List.mem_map.mp hm
              obtain ⟨z, hz, hzu⟩ := hin y (Or.inr hy)
              exact hx (List.mem_map.mpr ⟨z, hz, hzu.trans hyu⟩)
            rw [ihr hwt.2.1 hur d1 d2 cl_r hr x hxr, ihl hwt.1 hul d d1 cl_l hl x hxl]
    exact key top hw hu data data1 _ e1 v hv

/-- The initial frontier of the hierarchy of two sites with the operations `three_state_ops`
and the containers `two_site_containers`: the two leaves, with the store of the cluster of site 0
onto site 1 built from the potential `0.4`. -/
theorem initial_frontier_witness :
    two_leaf_top.well_formed ∧ two_leaf_top.uids.Nodup ∧ two_leaf_top.sidbs.Nodup
      ∧ (∀ c ∈ two_leaf_top.nodes, c.children = [] → ∀ i ∈ c.sidbs,
          (two_site_containers.1.get_local_potential_by_index i).isSome = true
            ∧ (two_site_containers.2.get_local_potential_by_index i).isSome = true)
      ∧ ∃ data1, get_initial_clustering_effect three_state_ops two_site_containers two_leaf_top
            blank_data = some ([.leaf 0 [0], .leaf 1 [1]], data1)
          ∧ (data1 0).pot_projs 1 = [⟨-400000, pos1⟩, ⟨0, neut1⟩, ⟨400000, neg1⟩]
          ∧ (data1 0).charge_space = [⟨neg1, []⟩, ⟨neut1, []⟩, ⟨pos1, []⟩] := by
  have hw : two_leaf_top.well_formed := ⟨rfl, rfl, List.Perm.refl _⟩
  have hu : two_leaf_top.uids.Nodup := by decide
  have hn : two_leaf_top.sidbs.Nodup := by decide
  have hpot : ∀ c ∈ two_leaf_top.nodes, c.children = [] → ∀ i ∈ c.sidbs,
      (two_site_containers.1.get_local_potential_by_index i).isSome = true
        ∧ (two_site_containers.2.get_local_potential_by_index i).isSome = true := by
    decide
  obtain ⟨data1, e1, -, -, e4, -, -, -⟩ := initial_frontier three_state_ops
    two_site_containers two_leaf_top hw hu hn hpot blank_data
  have hcl : get_initial_clustering two_leaf_top = [.leaf 0 [0], .leaf 1 [1]] := by decide
  rw [hcl] at e1 e4
  obtain ⟨i, vmin, vmax, k1, k2, k3, k4, -, k6⟩ := e4 (.leaf 0 [0]) (by decide)
  have hi : i = 0 := by
    simp only [sidbs, List.cons.injEq, and_true] at k1
    exact k1.symm
  subst hi
  refine ⟨hw, hu, hn, hpot, data1, e1, ?_, ?_⟩
  · have := k6 1 (by decide)
    simp only [uid] at this
    rw [this]
    decide
  · simp only [uid] at k4
    rw [k4]
    rfl

/-! ### Precondition reporting of the command `quickexact` -/

/-- C21: precondition reporting. For every state of the command, every value `{}` of the
parameters and every behaviour of `fiction::quickexact`: if `epsilon_r <= 0`, or
`lambda_tf <= 0`, or the store of cell layouts is empty, then `execute` returns after emitting
exactly one message, the one of the first of these three checks that fails, in this order;
the list of calls of `fiction::quickexact` and the store are unchanged; `physical_params` is
`(2, -0.32, 5.6, 5.0)` and `params` is the default value; `sim_result` is empty and `min_energy`
is infinite. -/
theorem execute_reports_precondition
    (quickexact : alice.cell_layout → alice.quickexact_params → alice.sidb_simulation_result)
    (default_params : alice.quickexact_params) (cmd : alice.quickexact_command)
    (h : cmd.physical_params.epsilon_r ≤ 0 ∨ cmd.physical_params.lambda_tf ≤ 0
      ∨ cmd.store.data = []) :
    ∃ cmd1, alice.quickexact_command.execute quickexact default_params cmd = some cmd1
      ∧ cmd1.out = cmd.out ++
          (if cmd.physical_params.epsilon_r ≤ 0 then "[e] epsilon_r must be positive\n"
            else if cmd.physical_params.lambda_tf ≤ 0 then "[e] lambda_tf must be positive\n"
            else "[w] no cell layout in store\n")
      ∧ cmd1.quickexact_calls = cmd.quickexact_calls
      ∧ cmd1.store = cmd.store
      ∧ cmd1.physical_params = ⟨2, -32 / 100, 56 / 10, 5⟩
      ∧ cmd1.params = default_params
      ∧ cmd1.sim_result = ⟨[]⟩ ∧ cmd1.min_energy = none
      ∧ cmd1.sim_result_111 = cmd.sim_result_111 := by
  unfold alice.quickexact_command.execute
  simp only
  by_cases h1 : cmd.physical_params.epsilon_r ≤ 0
  · rw [if_pos h1, if_pos h1]
    exact ⟨_, rfl, rfl, rfl, rfl, rfl, rfl, rfl, rfl, rfl⟩
  · rw [if_neg h1, if_neg h1]
    by_cases h2 : cmd.physical_params.lambda_tf ≤ 0
    · rw [if_pos h2, if_pos h2]
      exact ⟨_, rfl, rfl, rfl, rfl, rfl, rfl, rfl, rfl, rfl⟩
    · rw [if_neg h2, if_neg h2]
      have h3 : cmd.store.data = [] := by
        rcases h with h | h | h
        · exact absurd h h1
        · exact absurd h h2
        · exact h
      rw [if_pos h3]
      exact ⟨_, rfl, rfl, rfl, rfl, rfl, rfl, rfl, rfl, rfl⟩

/-- The command `zero_permittivity_command` reports the permittivity and calls no simulation,
whatever `fiction::quickexact` would return. -/
theorem execute_reports_precondition_witness :
    (zero_permittivity_command.physical_params.epsilon_r ≤ 0
        ∨ zero_permittivity_command.physical_params.lambda_tf ≤ 0
        ∨ zero_permittivity_command.store.data = [])
      ∧ ∃ cmd1, alice.quickexact_command.execute (fun _ _ => ⟨[⟨"lyt", -2⟩]⟩)
            ⟨⟨3, -32 / 100, 56 / 10, 5⟩, 0⟩ zero_permittivity_command = some cmd1
          ∧ cmd1.out = "[e] epsilon_r must be positive\n"
          ∧ cmd1.quickexact_calls = []
          ∧ cmd1.physical_params.epsilon_r = 56 / 10 := by
  have h0 : zero_permittivity_command.physical_params.epsilon_r ≤ 0 ∨
      zero_permittivity_command.physical_params.lambda_tf ≤ 0 ∨
      zero_permittivity_command.store.data = [] := Or.inl (le_refl _)
  obtain ⟨cmd1, e1, e2, e3, -, e5, -⟩ := execute_reports_precondition
    (fun _ _ => ⟨[⟨"lyt", -2⟩]⟩) ⟨⟨3, -32 / 100, 56 / 10, 5⟩, 0⟩ zero_permittivity_command h0
  refine ⟨h0, cmd1, e1, ?_, e3, by rw [e5]⟩
  have hz : zero_permittivity_command.physical_params.epsilon_r ≤ 0 := le_refl _
  rw [e2, if_pos hz]
  rfl

/-! ### Charge spaces with a single entry -/

/-- C34: single-entry charge spaces are never pruned. For a cluster whose charge space has
exactly one element, `check_charge_space` returns true and leaves the state as it is, whatever
the bounds are. A call of `check_charge_space` on a cluster with a non-empty charge space that
leaves the charge space empty started from at least two elements, all of which it removed; and a
call on a cluster with another uid leaves the charge space as it is. -/
theorem single_entry_never_pruned (nxt : next_extremal_op) (g : ground_state_space)
    (c : sidb_cluster) :
    ((g.data c.uid).charge_space.length = 1 → check_charge_space nxt g c = some (true, g))
      ∧ (∀ r g1, check_charge_space nxt g c = some (r, g1) →
          (g.data c.uid).charge_space ≠ [] → (g1.data c.uid).charge_space = [] →
          2 ≤ (g.data c.uid).charge_space.length
            ∧ (g1.data c.uid).charge_space.length + 2 ≤ (g.data c.uid).charge_space.length)
      ∧ ∀ (c1 : sidb_cluster) r g1, c1.uid ≠ c.uid →
          check_charge_space nxt g c1 = some (r, g1) →
          (g1.data c.uid).charge_space = (g.data c.uid).charge_space := by
  refine ⟨?_, ?_, ?_⟩
  · intro h
    rw [check_charge_space, if_pos h]
  · intro r g1 h hne hempty
    have hlen : (g.data c.uid).charge_space.length ≠ 1 := by
      intro h1
      rw [check_charge_space, if_pos h1] at h
      simp only [Option.some.injEq, Prod.mk.injEq] at h
      rw [← h.2] at hempty
      exact hne hempty
    have hpos : (g.data c.uid).charge_space.length ≠ 0 := by
      intro h0
      exact hne (List.length_eq_zero.mp h0)
    rw [hempty]
    simp only [List.length_nil, Nat.zero_add]
    omega
  · intro c1 r g1 hu h
    exact check_charge_space_charge_space_other nxt g g1 c1 r h c.uid (Ne.symm hu)

/-- C34 (witness): the negative state of the second cluster of `two_leaf_state` fails the analysis;
as the only element of the charge space it is kept. -/
theorem single_entry_never_pruned_witness :
    ((two_leaf_state [⟨neg1, []⟩, ⟨neut1, []⟩] [⟨neg1, []⟩]).data
        (sidb_cluster.leaf 1 [1]).uid).charge_space.length = 1
      ∧ (two_leaf_state [⟨neg1, []⟩, ⟨neut1, []⟩] [⟨neg1, []⟩]).perform_potential_bound_analysis
          .ANALYZE_MULTISET (.leaf 1 [1]) neg1 none = some false
      ∧ check_charge_space potential_projection_order.get_next
          (two_leaf_state [⟨neg1, []⟩, ⟨neut1, []⟩] [⟨neg1, []⟩]) (.leaf 1 [1])
        = some (true, two_leaf_state [⟨neg1, []⟩, ⟨neut1, []⟩] [⟨neg1, []⟩]) :=
  ⟨by decide, by decide,
    (single_entry_never_pruned potential_projection_order.get_next
      (two_leaf_state [⟨neg1, []⟩, ⟨neut1, []⟩] [⟨neg1, []⟩]) (.leaf 1 [1])).1 (by decide)⟩


/-! ### Monotonicity of witness classification -/

/-- The site loop of the analysis returns only when the received bounds are defined at every
site. -/
theorem collect_witnesses_defined (mu : Pot × Pot × Pot × Pot)
    (bounds : Nat → Option (Pot × Pot)) :
    ∀ (sidbs : List Nat) (st st1 : witness_partitioning_state),
      collect_witnesses mu bounds sidbs st = some st1 →
      ∀ i ∈ sidbs, (bounds i).isSome = true := by
  intro sidbs
  induction sidbs with
  | nil => intro _ _ _ i hi; simp at hi
  | cons x xs ih =>
    intro st st1 h i hi
    unfold collect_witnesses at h
    cases hb : bounds x with
    | none => rw [hb] at h; simp at h
    | some p =>
      rw [hb] at h
      rcases List.mem_cons.mp hi with e | hi
      · rw [e, hb]; rfl
      · exact ih _ _ h i hi

/-- C36: witness classification is monotone in the bound interval. For fixed band edges and
required counts, a site with received bounds `(lb, ub)` that the body of the site loop puts into
a witness set is also put into that set when its bounds are `(lb1, ub1)` with `lb1 <= lb` and
`ub <= ub1`. For a whole cluster: when the site loop of `perform_potential_bound_analysis`
returns the witness state `st` for the bounds `bounds`, and `bounds1` gives every site an
interval that contains the one of `bounds`, the loop returns for `bounds1` as well, with the same
required counts, and every site of a witness set of `st` is in the same witness set for
`bounds1`: a site outside a witness set for the wider bounds is outside it for the tighter
ones. -/
theorem witness_classification_monotone (mu : Pot × Pot × Pot × Pot)
    (bounds bounds1 : Nat → Option (Pot × Pot)) (sidbs : List Nat) (m : multiset_conf)
    (st : witness_partitioning_state)
    (hwide : ∀ i ∈ sidbs, ∀ lb ub, bounds i = some (lb, ub) →
      ∃ lb1 ub1, bounds1 i = some (lb1, ub1) ∧ lb1 ≤ lb ∧ ub ≤ ub1)
    (hst : collect_witnesses mu bounds sidbs (witness_partitioning_state.init m) = some st) :
    (∀ (i : Nat) (lb ub lb1 ub1 : Pot) (s : witness_partitioning_state)
        (cs : sidb_charge_state) (j : Nat), lb1 ≤ lb → ub ≤ ub1 →
        in_witness_set (classify_site mu i lb ub s) cs j →
        in_witness_set (classify_site mu i lb1 ub1 s) cs j)
      ∧ ∃ st1, collect_witnesses mu bounds1 sidbs (witness_partitioning_state.init m) = some st1
          ∧ st1.required_neg_count = st.required_neg_count
          ∧ st1.required_pos_count = st.required_pos_count
          ∧ st1.required_neut_count = st.required_neut_count
          ∧ (∀ cs j, in_witness_set st cs j → in_witness_set st1 cs j)
          ∧ ∀ cs j, ¬ in_witness_set st1 cs j → ¬ in_witness_set st cs j := by
  constructor
  · intro i lb ub lb1 ub1 s cs j h1 h2 hin
    obtain ⟨a1, a2, a3⟩ := classify_site_mem mu i lb ub s j
    obtain ⟨b1, b2, b3⟩ := classify_site_mem mu i lb1 ub1 s j
    cases cs with
    | NEGATIVE =>
      rcases a1.mp hin with ⟨e, hc, hp⟩ | hold
      · exact b1.mpr (Or.inl ⟨e, hc, fun h => hp (lt_of_lt_of_le h h1)⟩)
      · exact b1.mpr (Or.inr hold)
    | NEUTRAL =>
      rcases a3.mp hin with ⟨e, hc, hp, hq⟩ | hold
      · exact b3.mpr (Or.inl ⟨e, hc, fun h => hp (lt_of_le_of_lt h2 h), fun h => hq (lt_of_lt_of_le h h1)⟩)
      · exact b3.mpr (Or.inr hold)
    | POSITIVE =>
      rcases a2.mp hin with ⟨e, hc, hp⟩ | hold
      · exact b2.mpr (Or.inl ⟨e, hc, fun h => hp (lt_of_le_of_lt h2 h)⟩)
      · exact b2.mpr (Or.inr hold)
  · have hdef := collect_witnesses_defined mu bounds sidbs _ _ hst
    have hdef1 : ∀ i ∈ sidbs, (bounds1 i).isSome = true := by
      intro i hi
      obtain ⟨p, hp⟩ := Option.isSome_iff_exists.mp (hdef i hi)
      obtain ⟨lb1, ub1, e, -, -⟩ := hwide i hi p.1 p.2 hp
      rw [e]; rfl
    obtain ⟨st1, h1⟩ := collect_witnesses_isSome mu bounds1 sidbs
      (witness_partitioning_state.init m) hdef1
    obtain ⟨c1, c2, c3⟩ := collect_witnesses_counts mu bounds sidbs _ _ hst
    obtain ⟨d1, d2, d3⟩ := collect_witnesses_counts mu bounds1 sidbs _ _ h1
    have hsub : ∀ cs j, in_witness_set st cs j → in_witness_set st1 cs j := by
      intro cs j hin
      obtain ⟨a1, a2, a3⟩ := collect_witnesses_mem mu bounds sidbs _ _ hst j
      obtain ⟨b1, b2, b3⟩ := collect_witnesses_mem mu bounds1 sidbs _ _ h1 j
      cases cs with
      | NEGATIVE =>
        rcases a1.mp hin with ⟨hj, hc, lb, ub, e, hp⟩ | hold
        · obtain ⟨lb1, ub1, e1, h1, h2⟩ := hwide j hj lb ub e
          exact b1.mpr (Or.inl ⟨hj, hc, lb1, ub1, e1, fun h => hp (lt_of_lt_of_le h h1)⟩)
        · exact b1.mpr (Or.inr hold)
      | NEUTRAL =>
        rcases a3.mp hin with ⟨hj, hc, lb, ub, e, hp, hq⟩ | hold
        · obtain ⟨lb1, ub1, e1, h1, h2⟩ := hwide j hj lb ub e
          exact b3.mpr (Or.inl ⟨hj, hc, lb1, ub1, e1, fun h => hp (lt_of_le_of_lt h2 h),
            fun h => hq (lt_of_lt_of_le h h1)⟩)
        · exact b3.mpr (Or.inr hold)
      | POSITIVE =>
        rcases a2.mp hin with ⟨hj, hc, lb, ub, e, hp⟩ | hold
        · obtain ⟨lb1, ub1, e1, h1, h2⟩ := hwide j hj lb ub e
          exact b2.mpr (Or.inl ⟨hj, hc, lb1, ub1, e1, fun h => hp (lt_of_le_of_lt h2 h)⟩)
        · exact b2.mpr (Or.inr hold)
    exact ⟨st1, h1, d1.trans c1.symm, d2.trans c2.symm, d3.trans c3.symm, hsub,
      fun cs j hn hin => hn (hsub cs j hin)⟩

/-- C36 (witness): the bounds `five_site_bounds`, every upper bound raised by `0.5`. -/
theorem witness_classification_monotone_witness :
    (∀ i ∈ [0, 1, 2, 3, 4], ∀ lb ub, five_site_bounds i = some (lb, ub) →
        ∃ lb1 ub1, (five_site_bounds i).map (fun p => (p.1, p.2 + 500000)) = some (lb1, ub1)
          ∧ lb1 ≤ lb ∧ ub ≤ ub1)
      ∧ collect_witnesses example_mu five_site_bounds [0, 1, 2, 3, 4]
          (witness_partitioning_state.init ⟨1, 1, 3⟩)
        = some ⟨[0, 1, 2, 3, 4], [0, 3, 4], [0, 1, 2, 3, 4], 1, 3, 1⟩
      ∧ ∃ st1, collect_witnesses example_mu
            (fun i => (five_site_bounds i).map (fun p => (p.1, p.2 + 500000))) [0, 1, 2, 3, 4]
            (witness_partitioning_state.init ⟨1, 1, 3⟩) = some st1
          ∧ ∀ j ∈ [0, 3, 4], in_witness_set st1 .POSITIVE j := by
  have hw : ∀ i ∈ [0, 1, 2, 3, 4], ∀ lb ub, five_site_bounds i = some (lb, ub) →
      ∃ lb1 ub1, (five_site_bounds i).map (fun p => (p.1, p.2 + 500000)) = some (lb1, ub1)
        ∧ lb1 ≤ lb ∧ ub ≤ ub1 := by
    intro i _ lb ub e
    rw [e]
    exact ⟨lb, ub + 500000, rfl, le_refl _, Int.le_add_of_nonneg_right (by decide)⟩
  have hs : collect_witnesses example_mu five_site_bounds [0, 1, 2, 3, 4]
      (witness_partitioning_state.init ⟨1, 1, 3⟩)
      = some ⟨[0, 1, 2, 3, 4], [0, 3, 4], [0, 1, 2, 3, 4], 1, 3, 1⟩ := by decide
  obtain ⟨-, st1, e1, -, -, -, hsub, -⟩ := witness_classification_monotone example_mu
    five_site_bounds (fun i => (five_site_bounds i).map (fun p => (p.1, p.2 + 500000)))
    [0, 1, 2, 3, 4] ⟨1, 1, 3⟩ _ hw hs
  refine ⟨hw, hs, st1, e1, ?_⟩
  intro j hj
  apply hsub
  revert j
  decide

/-! ### The number of pruning passes -/

/-- The inner loop of `run` returns within every budget of passes that exceeds the number of
charge-space elements of the frontier, when none of its passes is undefined. -/
theorem prune_to_fixpoint_within (nxt : next_extremal_op) (g0 : ground_state_space)
    (hdef : ∀ g, pruning_reaches nxt g0 g → (g.update_charge_spaces nxt none).isSome = true) :
    ∀ (fuel : Nat) (g : ground_state_space), pruning_reaches nxt g0 g →
      frontier_charge_states g < fuel →
      ∃ g1, prune_to_fixpoint nxt fuel g = some g1
        ∧ ∀ k, prune_to_fixpoint nxt (fuel + k) g = some g1 := by
  intro fuel
  induction fuel with
  | zero => intro g _ h; omega
  | succ fuel ih =>
    intro g hr hlt
    obtain ⟨res, hres⟩ := Option.isSome_iff_exists.mp (hdef g hr)
    obtain ⟨r, g2⟩ := res
    cases r with
    | true =>
      refine ⟨g2, ?_, fun k => ?_⟩
      · rw [prune_to_fixpoint, hres]
      · rw [Nat.add_right_comm, prune_to_fixpoint, hres]
    | false =>
      have hdec := update_charge_spaces_decreases nxt g g2 none hres
      obtain ⟨g1, e1, e2⟩ := ih g2 (pruning_reaches.pass g g2 hr hres) (by omega)
      refine ⟨g1, ?_, fun k => ?_⟩
      · rw [prune_to_fixpoint, hres]
        exact e1
      · rw [Nat.add_right_comm, prune_to_fixpoint, hres]
        exact e2 k

/-! ### A simulation without result in the command `quickexact` -/

/-- With positive parameters and a current layout, `execute` resets the result of the lattice
orientation H-Si(100) and the minimum energy, applies the visitor to the current layout and
resets the parameters. -/
theorem execute_visits
    (quickexact : alice.cell_layout → alice.quickexact_params → alice.sidb_simulation_result)
    (default_params : alice.quickexact_params) (cmd : alice.quickexact_command)
    (lyt : alice.cell_layout) (h1 : 0 < cmd.physical_params.epsilon_r)
    (h2 : 0 < cmd.physical_params.lambda_tf)
    (h3 : cmd.store.data.get? cmd.store.current = some lyt) :
    alice.quickexact_command.execute quickexact default_params cmd
      = (alice.quickexact_command.visit quickexact default_params
          { cmd with sim_result := ⟨[]⟩, min_energy := none } lyt).map
            (alice.quickexact_command.reset_params default_params) := by
  unfold alice.quickexact_command.execute
  simp only
  have h4 : cmd.store.data ≠ [] := by
    intro h
    rw [h] at h3
    simp at h3
  rw [if_neg (not_le.mpr h1), if_neg (not_le.mpr h2), if_neg h4, h3]

/-- On a layout of the lattice orientation H-Si(100) whose simulation returns no charge
distribution, the visitor of `execute` reads the minimum of the empty result as soon as the
member `sim_result_111` holds a charge distribution. -/
theorem visit_100_stale
    (quickexact : alice.cell_layout → alice.quickexact_params → alice.sidb_simulation_result)
    (default_params : alice.quickexact_params) (cmd : alice.quickexact_command)
    (lyt : alice.cell_layout) (hk : lyt.kind = .sidb_lattice_100)
    (hq : (quickexact lyt { cmd.params with physical_parameters := cmd.physical_params }
      ).charge_distributions = [])
    (hs : cmd.sim_result_111.charge_distributions ≠ []) :
    alice.quickexact_command.visit quickexact default_params cmd lyt = none := by
  unfold alice.quickexact_command.visit
  rw [hk]
  simp only
  unfold alice.quickexact_command.store_minimum
  simp only
  rw [if_neg (fun h => hs h.2)]
  simp only [if_true, hq]
  rfl

/-- C38: a simulation without result after a run on the other lattice orientation. The command
`two_orientation_command` first simulates its current layout `b` of the orientation H-Si(111);
`execute` returns and leaves the charge distribution found in `sim_result_111`. With the layout
`a` of the orientation H-Si(100) selected, whose simulation returns no charge distribution, the
next `execute` does not print the message: `sim_result_111` is not reset and is not empty, the
minimum-energy distribution of the empty `sim_result` is queried, and its dereference is
undefined. With `sim_result_111` emptied, the same call prints the message, leaves the store as
it is and the minimum energy infinite. -/
theorem execute_without_result_after_other_orientation :
    alice.quickexact_command.execute simulate_111_only
        ⟨⟨2, -32 / 100, 56 / 10, 5⟩, 0⟩ two_orientation_command = some after_111_command
      ∧ (select_layout 0 after_111_command).store.data.get?
          (select_layout 0 after_111_command).store.current = some ⟨"a", .sidb_lattice_100⟩
      ∧ (simulate_111_only ⟨"a", .sidb_lattice_100⟩
          ⟨⟨2, -32 / 100, 56 / 10, 5⟩, 0⟩).charge_distributions = []
      ∧ alice.quickexact_command.minimum_energy_distribution
          (simulate_111_only ⟨"a", .sidb_lattice_100⟩
            ⟨⟨2, -32 / 100, 56 / 10, 5⟩, 0⟩).charge_distributions = none
      ∧ alice.quickexact_command.execute simulate_111_only
          ⟨⟨2, -32 / 100, 56 / 10, 5⟩, 0⟩ (select_layout 0 after_111_command) = none
      ∧ ∃ cmd2, alice.quickexact_command.execute simulate_111_only
            ⟨⟨2, -32 / 100, 56 / 10, 5⟩, 0⟩
            (select_layout 0 { after_111_command with sim_result_111 := ⟨[]⟩ }) = some cmd2
          ∧ cmd2.out = "[e] ground state of a could not be determined\n"
          ∧ cmd2.store = (select_layout 0 after_111_command).store
          ∧ cmd2.min_energy = none := by
  have p1 : (0 : ℚ) < 56 / 10 := by norm_num
  have p2 : (0 : ℚ) < 5 := by norm_num
  refine ⟨?_, rfl, rfl, rfl, ?_, ?_⟩
  · rw [execute_visits simulate_111_only ⟨⟨2, -32 / 100, 56 / 10, 5⟩, 0⟩
      two_orientation_command ⟨"b", .sidb_lattice_111⟩ p1 p2 rfl]
    rfl
  · rw [execute_visits simulate_111_only ⟨⟨2, -32 / 100, 56 / 10, 5⟩, 0⟩
      (select_layout 0 after_111_command) ⟨"a", .sidb_lattice_100⟩ p1 p2 rfl]
    rw [visit_100_stale simulate_111_only ⟨⟨2, -32 / 100, 56 / 10, 5⟩, 0⟩
      { select_layout 0 after_111_command with sim_result := ⟨[]⟩, min_energy := none }
      ⟨"a", .sidb_lattice_100⟩ rfl rfl (by decide)]
    rfl
  · rw [execute_visits simulate_111_only ⟨⟨2, -32 / 100, 56 / 10, 5⟩, 0⟩
      (select_layout 0 { after_111_command with sim_result_111 := ⟨[]⟩ })
      ⟨"a", .sidb_lattice_100⟩ p1 p2 rfl]
    exact ⟨_, rfl, rfl, rfl, rfl⟩

/-! ### Free witnesses -/

/-- The decrement of a 64-bit counter, applied `n` times. -/
theorem u64_dec_iterate (c : Nat) (hc : c < 2 ^ 64) :
    ∀ n : Nat, u64_dec^[n] c = (c + n * (2 ^ 64 - 1)) % 2 ^ 64 := by
  intro n
  induction n with
  | zero =>
    simp only [Function.iterate_zero, id_eq, Nat.zero_mul, Nat.add_zero]
    exact (Nat.mod_eq_of_lt hc).symm
  | succ k ih =>
    rw [Function.iterate_succ_apply', ih]
    unfold u64_dec
    omega

/-- The inner loop of `omit_free_witnesses` keeps the sites that lie in a competing set and
decrements the counter once for every other site. -/
theorem omit_free_loop_spec (c1 c2 : List Nat) :
    ∀ (xs : List Nat) (cnt : Nat),
      omit_free_loop c1 c2 xs cnt
        = (xs.filter (fun x => decide (x ∈ c1 ∨ x ∈ c2)),
            u64_dec^[(free_witnesses xs c1 c2).length] cnt) := by
  intro xs
  induction xs with
  | nil => intro cnt; rfl
  | cons x rest ih =>
    intro cnt
    unfold omit_free_loop
    by_cases h : ¬ (x ∈ c1) ∧ ¬ (x ∈ c2)
    · rw [if_pos h, ih]
      have h1 : ¬ (x ∈ c1 ∨ x ∈ c2) := fun h2 => h2.elim h.1 h.2
      have e1 : (x :: rest).filter (fun x => decide (x ∈ c1 ∨ x ∈ c2))
          = rest.filter (fun x => decide (x ∈ c1 ∨ x ∈ c2)) := by
        rw [List.filter_cons_of_neg (by simpa using h1)]
      have e2 : free_witnesses (x :: rest) c1 c2 = x :: free_witnesses rest c1 c2 := by
        unfold free_witnesses
        rw [List.filter_cons_of_pos (by simpa using h)]
      rw [e1, e2, List.length_cons, Function.iterate_succ_apply]
    · rw [if_neg h, ih]
      have h1 : x ∈ c1 ∨ x ∈ c2 := by
        by_contra h2
        exact h ⟨fun a => h2 (Or.inl a), fun a => h2 (Or.inr a)⟩
      have e1 : (x :: rest).filter (fun x => decide (x ∈ c1 ∨ x ∈ c2))
          = x :: rest.filter (fun x => decide (x ∈ c1 ∨ x ∈ c2)) := by
        rw [List.filter_cons_of_pos (by simpa using h1)]
      have e2 : free_witnesses (x :: rest) c1 c2 = free_witnesses rest c1 c2 := by
        unfold free_witnesses
        rw [List.filter_cons_of_neg (by simpa using h)]
      rw [e1, e2]

/-- The sets and the counts that `omit_free_witnesses` leaves, in terms of the sets on entry: the
second and the third loop see the sets that the earlier loops have reduced, which makes no
difference for the sites of the set under work. -/
theorem omit_free_witnesses_spec (st : witness_partitioning_state) :
    omit_free_witnesses st
      = ⟨st.negative_witnesses.filter
            (fun x => decide (x ∈ st.positive_witnesses ∨ x ∈ st.neutral_witnesses)),
          st.positive_witnesses.filter
            (fun x => decide (x ∈ st.negative_witnesses ∨ x ∈ st.neutral_witnesses)),
          st.neutral_witnesses.filter
            (fun x => decide (x ∈ st.negative_witnesses ∨ x ∈ st.positive_witnesses)),
          u64_dec^[(free_witnesses st.negative_witnesses st.positive_witnesses
            st.neutral_witnesses).length] st.required_neg_count,
          u64_dec^[(free_witnesses st.positive_witnesses st.negative_witnesses
            st.neutral_witnesses).length] st.required_pos_count,
          u64_dec^[(free_witnesses st.neutral_witnesses st.negative_witnesses
            st.positive_witnesses).length] st.required_neut_count⟩ := by
  obtain ⟨neg, pos, neut, rn, rp, r0⟩ := st
  have hneg1 : ∀ x ∈ pos, (x ∈ neg.filter (fun x => decide (x ∈ pos ∨ x ∈ neut)) ↔ x ∈ neg) := by
    intro x hx
    simp only [List.mem_filter, decide_eq_true_eq]
    exact ⟨fun h => h.1, fun h => ⟨h, Or.inl hx⟩⟩
  have hneg2 : ∀ x ∈ neut,
      (x ∈ neg.filter (fun x => decide (x ∈ pos ∨ x ∈ neut)) ↔ x ∈ neg) := by
    intro x hx
    simp only [List.mem_filter, decide_eq_true_eq]
    exact ⟨fun h => h.1, fun h => ⟨h, Or.inr hx⟩⟩
  have hpos2 : ∀ x ∈ neut,
      (x ∈ pos.filter (fun x => decide (x ∈ neg ∨ x ∈ neut)) ↔ x ∈ pos) := by
    intro x hx
    simp only [List.mem_filter, decide_eq_true_eq]
    exact ⟨fun h => h.1, fun h => ⟨h, Or.inr hx⟩⟩
  have e1 : pos.filter (fun x => decide
      (x ∈ neg.filter (fun x => decide (x ∈ pos ∨ x ∈ neut)) ∨ x ∈ neut))
      = pos.filter (fun x => decide (x ∈ neg ∨ x ∈ neut)) := by
    apply List.filter_congr
    intro x hx
    exact decide_eq_decide.mpr (by rw [hneg1 x hx])
  have e2 : free_witnesses pos (neg.filter (fun x => decide (x ∈ pos ∨ x ∈ neut))) neut
      = free_witnesses pos neg neut := by
    unfold free_witnesses
    apply List.filter_congr
    intro x hx
    exact decide_eq_decide.mpr (by rw [hneg1 x hx])
  have e3 : neut.filter (fun x => decide
      (x ∈ neg.filter (fun x => decide (x ∈ pos ∨ x ∈ neut))
        ∨ x ∈ pos.filter (fun x => decide (x ∈ neg ∨ x ∈ neut))))
      = neut.filter (fun x => decide (x ∈ neg ∨ x ∈ pos)) := by
    apply List.filter_congr
    intro x hx
    exact decide_eq_decide.mpr (by rw [hneg2 x hx, hpos2 x hx])
  have e4 : free_witnesses neut (neg.filter (fun x => decide (x ∈ pos ∨ x ∈ neut)))
      (pos.filter (fun x => decide (x ∈ neg ∨ x ∈ neut)))
      = free_witnesses neut neg pos := by
    unfold free_witnesses
    apply List.filter_congr
    intro x hx
    exact decide_eq_decide.mpr (by rw [hneg2 x hx, hpos2 x hx])
  simp only [omit_free_witnesses, omit_free_loop_spec, e1, e2, e3, e4]

/-- C39 (amended): free-witness crediting. For every witness state with 64-bit counts,
`omit_free_witnesses` leaves in every witness set exactly the sites that lay in that set and in
one of the two other sets on entry, and it leaves every required count equal to its previous
value minus the number of free witnesses of its set modulo `2^64`: the difference itself when
the free witnesses do not exceed the count, and `2^64` minus the excess when they do. -/
theorem omit_free_witnesses_counts (st : witness_partitioning_state)
    (hneg : st.required_neg_count < 2 ^ 64) (hpos : st.required_pos_count < 2 ^ 64)
    (hneut : st.required_neut_count < 2 ^ 64) :
    ((∀ j, j ∈ (omit_free_witnesses st).negative_witnesses ↔
          j ∈ st.negative_witnesses ∧ (j ∈ st.positive_witnesses ∨ j ∈ st.neutral_witnesses))
      ∧ (∀ j, j ∈ (omit_free_witnesses st).positive_witnesses ↔
          j ∈ st.positive_witnesses ∧ (j ∈ st.negative_witnesses ∨ j ∈ st.neutral_witnesses))
      ∧ ∀ j, j ∈ (omit_free_witnesses st).neutral_witnesses ↔
          j ∈ st.neutral_witnesses ∧ (j ∈ st.negative_witnesses ∨ j ∈ st.positive_witnesses))
    ∧ ((omit_free_witnesses st).required_neg_count
          = (st.required_neg_count + (free_witnesses st.negative_witnesses
              st.positive_witnesses st.neutral_witnesses).length * (2 ^ 64 - 1)) % 2 ^ 64
      ∧ (omit_free_witnesses st).required_pos_count
          = (st.required_pos_count + (free_witnesses st.positive_witnesses
              st.negative_witnesses st.neutral_witnesses).length * (2 ^ 64 - 1)) % 2 ^ 64
      ∧ (omit_free_witnesses st).required_neut_count
          = (st.required_neut_count + (free_witnesses st.neutral_witnesses
              st.negative_witnesses st.positive_witnesses).length * (2 ^ 64 - 1)) % 2 ^ 64)
    ∧ (((free_witnesses st.negative_witnesses st.positive_witnesses
            st.neutral_witnesses).length ≤ st.required_neg_count →
          (omit_free_witnesses st).required_neg_count = st.required_neg_count
            - (free_witnesses st.negative_witnesses st.positive_witnesses
                st.neutral_witnesses).length)
      ∧ ((free_witnesses st.positive_witnesses st.negative_witnesses
            st.neutral_witnesses).length ≤ st.required_pos_count →
          (omit_free_witnesses st).required_pos_count = st.required_pos_count
            - (free_witnesses st.positive_witnesses st.negative_witnesses
                st.neutral_witnesses).length)
      ∧ ((free_witnesses st.neutral_witnesses st.negative_witnesses
            st.positive_witnesses).length ≤ st.required_neut_count →
          (omit_free_witnesses st).required_neut_count = st.required_neut_count
            - (free_witnesses st.neutral_witnesses st.negative_witnesses
                st.positive_witnesses).length))
    ∧ ((st.required_neg_count < (free_witnesses st.negative_witnesses st.positive_witnesses
            st.neutral_witnesses).length →
          (free_witnesses st.negative_witnesses st.positive_witnesses
            st.neutral_witnesses).length ≤ 2 ^ 64 →
          (omit_free_witnesses st).required_neg_count = 2 ^ 64
            - ((free_witnesses st.negative_witnesses st.positive_witnesses
                st.neutral_witnesses).length - st.required_neg_count))
      ∧ (st.required_pos_count < (free_witnesses st.positive_witnesses st.negative_witnesses
            st.neutral_witnesses).length →
          (free_witnesses st.positive_witnesses st.negative_witnesses
            st.neutral_witnesses).length ≤ 2 ^ 64 →
          (omit_free_witnesses st).required_pos_count = 2 ^ 64
            - ((free_witnesses st.positive_witnesses st.negative_witnesses
                st.neutral_witnesses).length - st.required_pos_count))
      ∧ (st.required_neut_count < (free_witnesses st.neutral_witnesses st.negative_witnesses
            st.positive_witnesses).length →
          (free_witnesses st.neutral_witnesses st.negative_witnesses
            st.positive_witnesses).length ≤ 2 ^ 64 →
          (omit_free_witnesses st).required_neut_count = 2 ^ 64
            - ((free_witnesses st.neutral_witnesses st.negative_witnesses
                st.positive_witnesses).length - st.required_neut_count))) := by
  have e1 : (omit_free_witnesses st).required_neg_count
      = (st.required_neg_count + (free_witnesses st.negative_witnesses
          st.positive_witnesses st.neutral_witnesses).length * (2 ^ 64 - 1)) % 2 ^ 64 := by
    rw [omit_free_witnesses_spec st]
    exact u64_dec_iterate _ hneg _
  have e2 : (omit_free_witnesses st).required_pos_count
      = (st.required_pos_count + (free_witnesses st.positive_witnesses
          st.negative_witnesses st.neutral_witnesses).length * (2 ^ 64 - 1)) % 2 ^ 64 := by
    rw [omit_free_witnesses_spec st]
    exact u64_dec_iterate _ hpos _
  have e3 : (omit_free_witnesses st).required_neut_count
      = (st.required_neut_count + (free_witnesses st.neutral_witnesses
          st.negative_witnesses st.positive_witnesses).length * (2 ^ 64 - 1)) % 2 ^ 64 := by
    rw [omit_free_witnesses_spec st]
    exact u64_dec_iterate _ hneut _
  refine ⟨⟨?_, ?_, ?_⟩, ⟨e1, e2, e3⟩, ⟨?_, ?_, ?_⟩, ⟨?_, ?_, ?_⟩⟩
  · intro j
    rw [omit_free_witnesses_spec st]
    simp only [List.mem_filter, decide_eq_true_eq]
  · intro j
    rw [omit_free_witnesses_spec st]
    simp only [List.mem_filter, decide_eq_true_eq]
  · intro j
    rw [omit_free_witnesses_spec st]
    simp only [List.mem_filter, decide_eq_true_eq]
  · intro h; rw [e1]; omega
  · intro h; rw [e2]; omega
  · intro h; rw [e3]; omega
  · intro h h1; rw [e1]; omega
  · intro h h1; rw [e2]; omega
  · intro h h1; rw [e3]; omega

/-- C39 (counterexample): the crediting wraps. On a three-site cluster with the bounds
`crowded_negative_bounds` and the multiset of one negative, one neutral and one positive site, the
site loop of the analysis collects the witness sets `{0, 1}`, `{2}` and `{2}`, which pass the
cardinality test; the negative set has two free witnesses for the required count 1, and
`omit_free_witnesses` leaves the required count `2^64 - 1`. The analysis returns false. -/
theorem omit_free_witnesses_wraps :
    collect_witnesses example_mu crowded_negative_bounds [0, 1, 2]
        (witness_partitioning_state.init ⟨1, 1, 1⟩) = some ⟨[0, 1], [2], [2], 1, 1, 1⟩
      ∧ passes_cardinality_test ⟨[0, 1], [2], [2], 1, 1, 1⟩
      ∧ free_witnesses [0, 1] [2] [2] = [0, 1]
      ∧ omit_free_witnesses ⟨[0, 1], [2], [2], 1, 1, 1⟩
          = ⟨[], [2], [2], 18446744073709551615, 1, 1⟩
      ∧ perform_potential_bound_analysis_on example_mu 6 [0, 1, 2] crowded_negative_bounds
          ⟨1, 1, 1⟩ = some false := by
  refine ⟨?_, ?_, ?_, ?_, ?_⟩ <;> decide

/-- C39 (witness): the witness state `partitionable_witnesses`: the site 0 is the one free witness,
of the negative set, and its count goes from 1 to 0 without a wrap. -/
theorem omit_free_witnesses_counts_witness :
    partitionable_witnesses.required_neg_count < 2 ^ 64
      ∧ partitionable_witnesses.required_pos_count < 2 ^ 64
      ∧ partitionable_witnesses.required_neut_count < 2 ^ 64
      ∧ free_witnesses partitionable_witnesses.negative_witnesses
          partitionable_witnesses.positive_witnesses partitionable_witnesses.neutral_witnesses
        = [0]
      ∧ (omit_free_witnesses partitionable_witnesses).required_neg_count = 1 - 1
      ∧ ∀ j, j ∈ (omit_free_witnesses partitionable_witnesses).negative_witnesses ↔
          j ∈ [0, 2] ∧ (j ∈ [1, 2] ∨ j ∈ [1]) :=
  ⟨by decide, by decide, by decide, by decide,
    (omit_free_witnesses_counts partitionable_witnesses (by decide) (by decide)
      (by decide)).2.2.1.1 (by decide),
    (omit_free_witnesses_counts partitionable_witnesses (by decide) (by decide)
      (by decide)).1.1⟩

/-! ### Backtracking in the partition search -/

/-- C40: backtracking does not restore the witness sets. The positive search on
`positive_backtrack_state` with the count 1 returns false and leaves the positive set `{1}`
where it was `{1, 2}`: the second iteration of the loop erases the site 2 at the iterator and
re-inserts the site 1 that it read at `cbegin()`. The negative search on
`negative_backtrack_state` with the count 1 returns false and leaves the site 0 in the positive
set, which was empty: the taken witness is re-inserted into all three sets. Both states pass the
cardinality test and hold no free witness, as the analysis hands them to the search. -/
theorem backtracking_does_not_restore :
    (find_valid_witness_partitioning_POSITIVE (search_budget positive_backtrack_state)
        positive_backtrack_state 1
        = some (false, ⟨[], [1], [1, 2], 0, 1, 2⟩)
      ∧ positive_backtrack_state.positive_witnesses = [1, 2]
      ∧ positive_backtrack_state.neutral_witnesses = [1, 2]
      ∧ positive_backtrack_state.negative_witnesses = [])
    ∧ (find_valid_witness_partitioning_NEGATIVE (search_budget negative_backtrack_state)
        negative_backtrack_state 1
        = some (false, ⟨[0], [0], [0], 1, 0, 1⟩)
      ∧ negative_backtrack_state.negative_witnesses = [0]
      ∧ negative_backtrack_state.positive_witnesses = []
      ∧ negative_backtrack_state.neutral_witnesses = [0])
    ∧ passes_cardinality_test positive_backtrack_state
    ∧ omit_free_witnesses positive_backtrack_state = positive_backtrack_state
    ∧ passes_cardinality_test negative_backtrack_state
    ∧ omit_free_witnesses negative_backtrack_state = negative_backtrack_state := by
  refine ⟨⟨?_, ?_, ?_, ?_⟩, ⟨?_, ?_, ?_, ?_⟩, ?_, ?_, ?_, ?_⟩ <;> decide

/-! ### The frame of a pruning step -/

/-- The received bounds of a cluster at a site, read through both directions. -/
theorem recv_eq_of_get_recv (g g1 : ground_state_space) (u j : Nat)
    (h : ∀ b, g1.get_recv_ext_pot_bound b (.leaf u []) j
      = g.get_recv_ext_pot_bound b (.leaf u []) j) :
    (g1.data u).recv_ext_pot_bounds j = (g.data u).recv_ext_pot_bounds j :=
  Prod.ext (h .LOWER) (h .UPPER)

theorem removal_frame_refl (pu : Nat) (g : ground_state_space) : removal_frame pu g g :=
  ⟨rfl, fun _ => rfl, fun _ _ _ => rfl, fun _ _ _ => rfl⟩

theorem removal_frame_trans (pu : Nat) (a b c : ground_state_space)
    (h1 : removal_frame pu a b) (h2 : removal_frame pu b c) : removal_frame pu a c := by
  obtain ⟨a1, a2, a3, a4⟩ := h1
  obtain ⟨b1, b2, b3, b4⟩ := h2
  refine ⟨b1.trans a1, fun u => (b2 u).trans (a2 u), ?_, ?_⟩
  · intro u j hcond
    rw [b3 u j (by rw [a1]; exact hcond), a3 u j hcond]
  · intro u j hcond
    rw [b4 u j (by rw [a1]; exact hcond), a4 u j hcond]

/-- The method `handle_invalid_state` keeps the frame of a removal. -/
theorem handle_invalid_state_frame (nxt : next_extremal_op) (g g1 : ground_state_space)
    (pc : sidb_cluster) (pm : multiset_conf) (h : g.handle_invalid_state nxt pc pm = some g1) :
    removal_frame pc.uid g g1 := by
  unfold handle_invalid_state at h
  rw [handle_invalid_state_receptor_states] at h
  have key := for_each_inv
    (fun g (p : sidb_cluster × Nat) => update_external_potential_projection nxt g pc pm p.1 p.2)
    (fun s => removal_frame pc.uid g s) (receptor_states pc.uid g.clustering)
    (fun s x s1 hx hP hstep => by
      obtain ⟨m1, m2, m3⟩ := (mem_receptor_states pc.uid g.clustering x).mp hx
      obtain ⟨k1, k2, k3, -, k5, -⟩ := update_external_change nxt s s1 pc pm x.1 x.2 hstep
      obtain ⟨a1, a2, a3, a4⟩ := hP
      refine ⟨k1.trans a1, fun u => (k2 u).trans (a2 u), ?_, ?_⟩
      · intro u j hcond
        rw [← a3 u j hcond]
        apply k3
        rcases hcond with hu | hj
        · exact Or.inl hu
        · right
          intro e
          exact hj x.1 m1 m2 (e ▸ m3)
      · intro u j hcond
        rw [← a4 u j hcond]
        apply recv_eq_of_get_recv
        intro b
        apply k5
        by_cases hu : x.1.uid = u
        · right
          intro e
          exact hcond x.1 m1 m2 hu (e ▸ m3)
        · left
          exact fun e => hu e.symm)
    g g1 (removal_frame_refl _ _) h
  exact key

/-- C31: the frame of a pruning step. A call of `check_charge_space` on the cluster `c` changes
none of the members of the engine; it leaves the charge space and the projection stores of
every cluster with another uid as they are; it leaves the received bounds of `c` as they are;
it leaves the stores of `c` as they are onto every site that is not a site of another cluster
of the clustering, and it leaves the received bounds of a cluster as they are at every site
that is not a site of that cluster in the clustering; the charge space of `c` after the call
is a sublist of the one before, so that every element kept has its compositions. When `c` is
in a clustering whose site sets are pairwise disjoint, the stores of `c` onto its own sites
are left as they are. -/
theorem check_charge_space_frame (nxt : next_extremal_op) (g g1 : ground_state_space)
    (c : sidb_cluster) (r : Bool) (h : check_charge_space nxt g c = some (r, g1)) :
    same_static g g1
      ∧ (∀ u, u ≠ c.uid → (g1.data u).charge_space = (g.data u).charge_space
          ∧ (g1.data u).pot_projs = (g.data u).pot_projs)
      ∧ (g1.data c.uid).recv_ext_pot_bounds = (g.data c.uid).recv_ext_pot_bounds
      ∧ (∀ j, (∀ rc ∈ g.clustering, rc.uid ≠ c.uid → j ∉ rc.sidbs) →
          (g1.data c.uid).pot_projs j = (g.data c.uid).pot_projs j)
      ∧ (∀ u j, (∀ rc ∈ g.clustering, rc.uid = u → j ∉ rc.sidbs) →
          (g1.data u).recv_ext_pot_bounds j = (g.data u).recv_ext_pot_bounds j)
      ∧ (g1.data c.uid).charge_space.Sublist (g.data c.uid).charge_space
      ∧ (c ∈ g.clustering → g.clustering.Pairwise (fun a b => a.sidbs.Disjoint b.sidbs) →
          ∀ j ∈ c.sidbs, (g1.data c.uid).pot_projs j = (g.data c.uid).pot_projs j) := by
  have hstatic := same_static_check_charge_space nxt g g1 c r h
  have hsub := (check_charge_space_spec nxt g g1 c r h).1
  have hother := check_charge_space_charge_space_other nxt g g1 c r h
  have hframe : g1.clustering = g.clustering
      ∧ (∀ u j, (u ≠ c.uid ∨ ∀ rc ∈ g.clustering, rc.uid ≠ c.uid → j ∉ rc.sidbs) →
          (g1.data u).pot_projs j = (g.data u).pot_projs j)
      ∧ ∀ u j, (∀ rc ∈ g.clustering, rc.uid ≠ c.uid → rc.uid = u → j ∉ rc.sidbs) →
          (g1.data u).recv_ext_pot_bounds j = (g.data u).recv_ext_pot_bounds j := by
    unfold check_charge_space at h
    split at h
    · simp only [Option.some.injEq, Prod.mk.injEq] at h
      rw [← h.2]
      exact ⟨rfl, fun _ _ _ => rfl, fun _ _ _ => rfl⟩
    · cases hloop : for_each (check_charge_space_step nxt c) (g.data c.uid).charge_space
          (g, [], true) with
      | none => rw [hloop] at h; simp at h
      | some res =>
        obtain ⟨g2, removed_ms, fixpoint⟩ := res
        rw [hloop] at h
        simp only [Option.some.injEq, Prod.mk.injEq] at h
        have hl := for_each_rel (check_charge_space_step nxt c)
          (fun a b => removal_frame c.uid a.1 b.1)
          (fun a => removal_frame_refl _ _)
          (fun a b d hab hbd => removal_frame_trans _ _ _ _ hab hbd)
          (g.data c.uid).charge_space
          (fun s x s1 _ hstep => by
            unfold check_charge_space_step at hstep
            split at hstep
            · simp at hstep
            · simp only [Option.some.injEq] at hstep
              rw [← hstep]
              exact removal_frame_refl _ _
            · split at hstep
              · simp at hstep
              · rename_i g3 hh
                simp only [Option.some.injEq] at hstep
                rw [← hstep]
                exact handle_invalid_state_frame nxt _ _ c x.multiset hh)
          (g, [], true) (g2, removed_ms, fixpoint) hloop
        obtain ⟨a1, -, a3, a4⟩ := hl
        rw [← h.2]
        refine ⟨?_, ?_, ?_⟩
        · rw [(same_static_erase_removed c removed_ms g2).2.1]
          exact a1
        · intro u j hcond
          rw [erase_removed_stores]
          exact a3 u j hcond
        · intro u j hcond
          rw [erase_removed_recv]
          exact a4 u j hcond
  obtain ⟨f1, f2, f3⟩ := hframe
  refine ⟨hstatic, ?_, ?_, ?_, ?_, hsub, ?_⟩
  · intro u hu
    exact ⟨hother u hu, funext (fun j => f2 u j (Or.inl hu))⟩
  · funext j
    exact f3 c.uid j (fun rc _ hne he => absurd he hne)
  · intro j hj
    exact f2 c.uid j (Or.inr hj)
  · intro u j hj
    exact f3 u j (fun rc hrc _ he => hj rc hrc he)
  · intro hc hdisj j hj
    apply f2 c.uid j
    right
    intro rc hrc hne hjr
    have hcr : c ≠ rc := fun e => hne (e ▸ rfl)
    have hd : c.sidbs.Disjoint rc.sidbs :=
      hdisj.forall (fun a b hab => hab.symm) hc hrc hcr
    exact hd hj hjr

/-- C31 (witness): the call of `check_charge_space` on the second cluster of `two_leaf_state`
removes the negative state: the store of the cluster onto the site 0 loses an entry and the upper
received bound of the first cluster at the site 0 falls, while the store of the cluster onto its own
site 1 and its own received bounds are left as they are. -/
theorem check_charge_space_frame_witness :
    ∃ g1, check_charge_space potential_projection_order.get_next
          (two_leaf_state [⟨neg1, []⟩, ⟨neut1, []⟩] [⟨neg1, []⟩, ⟨neut1, []⟩]) (.leaf 1 [1])
        = some (false, g1)
      ∧ (g1.data 1).charge_space = [⟨neut1, []⟩]
      ∧ (g1.data 1).pot_projs 0 = [⟨0, neut1⟩]
      ∧ (g1.data 0).recv_ext_pot_bounds 0 = (0, 0)
      ∧ (g1.data 1).pot_projs 1 = [⟨0, neg1⟩, ⟨0, neut1⟩]
      ∧ (g1.data 1).recv_ext_pot_bounds
          = ((two_leaf_state [⟨neg1, []⟩, ⟨neut1, []⟩] [⟨neg1, []⟩, ⟨neut1, []⟩]).data
              1).recv_ext_pot_bounds
      ∧ (g1.data 0).pot_projs
          = ((two_leaf_state [⟨neg1, []⟩, ⟨neut1, []⟩] [⟨neg1, []⟩, ⟨neut1, []⟩]).data
              0).pot_projs := by
  obtain ⟨res, hres⟩ := Option.isSome_iff_exists.mp
    (by decide : (check_charge_space potential_projection_order.get_next
      (two_leaf_state [⟨neg1, []⟩, ⟨neut1, []⟩] [⟨neg1, []⟩, ⟨neut1, []⟩])
      (.leaf 1 [1])).isSome = true)
  obtain ⟨r, g1⟩ := res
  have hv : (check_charge_space potential_projection_order.get_next
      (two_leaf_state [⟨neg1, []⟩, ⟨neut1, []⟩] [⟨neg1, []⟩, ⟨neut1, []⟩]) (.leaf 1 [1])).map
        (fun p => (p.1, (p.2.data 1).charge_space, (p.2.data 1).pot_projs 0,
          (p.2.data 0).recv_ext_pot_bounds 0))
      = some (false, [⟨neut1, []⟩], [⟨0, neut1⟩], (0, 0)) := by decide
  rw [hres] at hv
  simp only [Option.map_some', Option.some.injEq, Prod.mk.injEq] at hv
  obtain ⟨v1, v2, v3, v4⟩ := hv
  subst v1
  obtain ⟨-, k2, k3, -, -, -, k7⟩ := check_charge_space_frame
    potential_projection_order.get_next
    (two_leaf_state [⟨neg1, []⟩, ⟨neut1, []⟩] [⟨neg1, []⟩, ⟨neut1, []⟩]) g1 (.leaf 1 [1]) false
    hres
  have hd : (two_leaf_state [⟨neg1, []⟩, ⟨neut1, []⟩]
      [⟨neg1, []⟩, ⟨neut1, []⟩]).clustering.Pairwise (fun a b => a.sidbs.Disjoint b.sidbs) := by
    show List.Pairwise _ [sidb_cluster.leaf 0 [0], .leaf 1 [1]]
    simp [sidbs, List.Disjoint]
  exact ⟨g1, hres, v2, v3, v4, k7 (by decide) hd 1 (by decide), k3, (k2 0 (by decide)).2⟩

/-! ### The selection of the parent to merge -/

/-- The sites of a node of a well-formed hierarchy are sites of the root. -/
theorem sidbs_subset_of_mem_nodes : ∀ (t a : sidb_cluster), t.well_formed → a ∈ t.nodes →
    ∀ i ∈ a.sidbs, i ∈ t.sidbs := by
  intro t
  induction t with
  | leaf u s =>
    intro a _ ha i hi
    simp only [nodes, List.mem_singleton] at ha
    rw [ha] at hi
    exact hi
  | node u s l r ihl ihr =>
    intro a hw ha i hi
    obtain ⟨hwl, hwr, hperm⟩ := hw
    rcases mem_nodes_node.mp ha with rfl | h | h
    · exact hi
    · exact hperm.mem_iff.mpr (List.mem_append_left _ (ihl a hwl h i hi))
    · exact hperm.mem_iff.mpr (List.mem_append_right _ (ihr a hwr h i hi))

/-- A node of a well-formed hierarchy has a site. -/
theorem exists_site_of_mem_nodes (t a : sidb_cluster) (hw : t.well_formed) (ha : a ∈ t.nodes) :
    ∃ i, i ∈ a.sidbs := by
  have h1 := size_pos_of_well_formed a (well_formed_of_mem t a hw ha)
  unfold size at h1
  cases hs : a.sidbs with
  | nil => rw [hs] at h1; simp at h1
  | cons i rest => exact ⟨i, List.mem_cons_self _ _⟩

/-- A clustering of nodes of the subtree `t` with pairwise disjoint site sets that holds `t`
holds nothing else. -/
theorem partition_with_root (t : sidb_cluster) (hw : t.well_formed) (cl : List sidb_cluster)
    (hnodes : ∀ c ∈ cl, c ∈ t.nodes)
    (hdisj : cl.Pairwise (fun a b => a.sidbs.Disjoint b.sidbs)) (ht : t ∈ cl) : cl = [t] := by
  have hclash : ∀ b, b ∈ t.nodes → ¬ t.sidbs.Disjoint b.sidbs ∧ ¬ b.sidbs.Disjoint t.sidbs := by
    intro b hb
    obtain ⟨i, hi⟩ := exists_site_of_mem_nodes t b hw hb
    have hit := sidbs_subset_of_mem_nodes t b hw hb i hi
    exact ⟨fun hd => hd hit hi, fun hd => hd hi hit⟩
  cases cl with
  | nil => simp at ht
  | cons a rest =>
    obtain ⟨h1, -⟩ := List.pairwise_cons.mp hdisj
    cases rest with
    | nil =>
      simp only [List.mem_singleton] at ht
      rw [ht]
    | cons b rest2 =>
      exfalso
      rcases List.mem_cons.mp ht with rfl | ht2
      · exact (hclash b (hnodes b (List.mem_cons_of_mem _ (List.mem_cons_self _ _)))).1
          (h1 b (List.mem_cons_self _ _))
      · exact (hclash a (hnodes a (List.mem_cons_self _ _))).2 (h1 t ht2)

/-- A clustering that partitions the sites of a well-formed hierarchy into nodes of the hierarchy
is a frontier of the hierarchy. -/
theorem is_frontier_of_partition : ∀ (t : sidb_cluster), t.well_formed → t.sidbs.Nodup →
    ∀ (cl : List sidb_cluster), (∀ c ∈ cl, c ∈ t.nodes) → partitions_sites t cl →
    is_frontier t cl := by
  intro t
  induction t with
  | leaf u s =>
    intro hw _ cl hnodes hpart
    have hne : cl ≠ [] := by
      intro h
      obtain ⟨i, hi⟩ := exists_site_of_mem_nodes _ _ hw (self_mem_nodes (leaf u s))
      obtain ⟨c, hc, -⟩ := (hpart.2 i).mp hi
      rw [h] at hc
      simp at hc
    obtain ⟨a, ha⟩ := List.exists_mem_of_ne_nil cl hne
    have hat : a = leaf u s := by
      have := hnodes a ha
      simpa [nodes] using this
    rw [partition_with_root (leaf u s) hw cl hnodes hpart.1 (hat ▸ ha)]
    exact is_frontier.self _
  | node u s l r ihl ihr =>
    intro hw hn cl hnodes hpart
    by_cases ht : node u s l r ∈ cl
    · rw [partition_with_root (node u s l r) hw cl hnodes hpart.1 ht]
      exact is_frontier.self _
    · obtain ⟨hwl, hwr, hperm⟩ := hw
      have hn2 : (l.sidbs ++ r.sidbs).Nodup := hperm.nodup_iff.mp hn
      have hlr : l.sidbs.Disjoint r.sidbs := List.disjoint_of_nodup_append hn2
      have hside : ∀ c ∈ cl, c ∈ l.nodes ∨ c ∈ r.nodes := by
        intro c hc
        rcases mem_nodes_node.mp (hnodes c hc) with rfl | h | h
        · exact absurd hc ht
        · exact Or.inl h
        · exact Or.inr h
      have hnot : ∀ c, c ∈ l.nodes → c ∈ r.nodes → False := by
        intro c h1 h2
        obtain ⟨i, hi⟩ := exists_site_of_mem_nodes l c hwl h1
        exact hlr (sidbs_subset_of_mem_nodes l c hwl h1 i hi)
          (sidbs_subset_of_mem_nodes r c hwr h2 i hi)
      have hfl : is_frontier l (cl.filter (fun c => decide (c ∈ l.nodes))) := by
        apply ihl hwl (List.nodup_append.mp hn2).1
        · intro c hc
          have := (List.mem_filter.mp hc).2
          simpa using this
        · refine ⟨List.Pairwise.filter _ hpart.1, fun i => ⟨fun hi => ?_, fun ⟨c, hc, hic⟩ => ?_⟩⟩
          · obtain ⟨c, hc, hic⟩ := (hpart.2 i).mp
              (hperm.mem_iff.mpr (List.mem_append_left _ hi))
            rcases hside c hc with h | h
            · exact ⟨c, List.mem_filter.mpr ⟨hc, by simpa using h⟩, hic⟩
            · exact absurd (sidbs_subset_of_mem_nodes r c hwr h i hic) (fun h2 => hlr hi h2)
          · have := (List.mem_filter.mp hc).2
            exact sidbs_subset_of_mem_nodes l c hwl (by simpa using this) i hic
      have hfr : is_frontier r (cl.filter (fun c => !decide (c ∈ l.nodes))) := by
        apply ihr hwr (List.nodup_append.mp hn2).2.1
        · intro c hc
          obtain ⟨h1, h2⟩ := List.mem_filter.mp hc
          rcases hside c h1 with h | h
          · simp [h] at h2
          · exact h
        · refine ⟨List.Pairwise.filter _ hpart.1, fun i => ⟨fun hi => ?_, fun ⟨c, hc, hic⟩ => ?_⟩⟩
          · obtain ⟨c, hc, hic⟩ := (hpart.2 i).mp
              (hperm.mem_iff.mpr (List.mem_append_right _ hi))
            by_cases h : c ∈ l.nodes
            · exact absurd hi (fun h2 => hlr (sidbs_subset_of_mem_nodes l c hwl h i hic) h2)
            · exact ⟨c, List.mem_filter.mpr ⟨hc, by simpa using h⟩, hic⟩
          · obtain ⟨h1, h2⟩ := List.mem_filter.mp hc
            rcases hside c h1 with h | h
            · simp [h] at h2
            · exact sidbs_subset_of_mem_nodes r c hwr h i hic
      exact is_frontier.split u s l r _ _ cl hfl hfr
        (List.filter_append_perm (fun c => decide (c ∈ l.nodes)) cl).symm

/-- The loop of `std::min_element` returns a cluster when every cluster has a parent. -/
theorem min_parent_loop_defined (g : ground_state_space) :
    ∀ (rest : List sidb_cluster) (best : sidb_cluster),
      (∀ c ∈ best :: rest, (g.get_parent c).isSome = true) →
      ∃ r, for_each (min_parent_step g) rest best = some r := by
  intro rest
  induction rest with
  | nil => intro best _; exact ⟨best, rfl⟩
  | cons c rest ih =>
    intro best hall
    obtain ⟨pb, hpb⟩ := Option.isSome_iff_exists.mp (hall best (List.mem_cons_self _ _))
    obtain ⟨pc, hpc⟩ := Option.isSome_iff_exists.mp
      (hall c (List.mem_cons_of_mem _ (List.mem_cons_self _ _)))
    rw [for_each_cons]
    unfold min_parent_step
    rw [hpc, hpb]
    simp only
    by_cases hlt : pc.size < pb.size
    · rw [if_pos hlt, Option.some_bind]
      apply ih
      intro x hx
      rcases List.mem_cons.mp hx with rfl | hx
      · rw [hpc]; rfl
      · exact hall x (List.mem_cons_of_mem _ (List.mem_cons_of_mem _ hx))
    · rw [if_neg hlt, Option.some_bind]
      apply ih
      intro x hx
      rcases List.mem_cons.mp hx with rfl | hx
      · rw [hpb]; rfl
      · exact hall x (List.mem_cons_of_mem _ (List.mem_cons_of_mem _ hx))

/-- On a frontier of at least two clusters the selection of the parent is defined, and the parent
chosen is the parent of a frontier cluster whose parent has minimum size. -/
theorem select_min_parent_defined (g : ground_state_space) (hu : g.top_cluster.uids.Nodup)
    (hf : is_frontier g.top_cluster g.clustering) (hlen : 2 ≤ g.clustering.length) :
    ∃ p, g.select_min_parent = some p
      ∧ ∃ c ∈ g.clustering, g.get_parent c = some p
          ∧ ∀ e ∈ g.clustering, ∀ pe, g.get_parent e = some pe → p.size ≤ pe.size := by
  have hpar : ∀ c ∈ g.clustering, (g.get_parent c).isSome = true := by
    intro c hc
    obtain ⟨p, hp, hcp⟩ := is_frontier_has_parent hf hlen c hc
    unfold get_parent
    rw [find_parent_of_child g.top_cluster p c hu hp hcp]
    rfl
  unfold select_min_parent
  cases hcl : g.clustering with
  | nil => rw [hcl] at hlen; simp at hlen
  | cons c0 rest =>
    simp only
    obtain ⟨r, hr⟩ := min_parent_loop_defined g rest c0 (by rw [← hcl]; exact hpar)
    rw [hr]
    simp only
    obtain ⟨hmem, hle⟩ := min_parent_step_spec g rest c0 r hr
    obtain ⟨p, hp⟩ := Option.isSome_iff_exists.mp (hpar r (by rw [hcl]; exact hmem))
    exact ⟨p, hp, r, hmem, hp, fun e he pe hpe => hle e he pe p hpe hp⟩

/-- C32: merge selection is well defined. When the clustering partitions the sites of a
well-formed hierarchy into nodes of the hierarchy and has at least two members, the selection of
`move_up_hierarchy` returns a parent `p`; `p` is the parent of a cluster of the clustering and
no cluster of the clustering has a smaller parent; `p` has exactly two children, which are
different members of the clustering; erasing the children leaves exactly the other members, two
fewer than before; inserting `p` adds `p` as one new member; and the clustering obtained
partitions the sites into nodes of the hierarchy again. -/
theorem merge_selection_well_defined (g : ground_state_space)
    (hw : g.top_cluster.well_formed) (hu : g.top_cluster.uids.Nodup)
    (hn : g.top_cluster.sidbs.Nodup)
    (hnodes : ∀ c ∈ g.clustering, c ∈ g.top_cluster.nodes)
    (hpart : partitions_sites g.top_cluster g.clustering)
    (hlen : 2 ≤ g.clustering.length) :
    ∃ p l r, g.select_min_parent = some p
      ∧ p ∈ g.top_cluster.nodes
      ∧ (∃ c ∈ g.clustering, g.get_parent c = some p
          ∧ ∀ e ∈ g.clustering, ∀ pe, g.get_parent e = some pe → p.size ≤ pe.size)
      ∧ p.children = [l, r] ∧ l ∈ g.clustering ∧ r ∈ g.clustering ∧ l.uid ≠ r.uid
      ∧ (∀ c, c ∈ erase_children p.children g.clustering ↔
          c ∈ g.clustering ∧ c ≠ l ∧ c ≠ r)
      ∧ (erase_children p.children g.clustering).length + 2 = g.clustering.length
      ∧ emplace_cluster p (erase_children p.children g.clustering)
          = erase_children p.children g.clustering ++ [p]
      ∧ p ∉ g.clustering
      ∧ (∀ c ∈ emplace_cluster p (erase_children p.children g.clustering),
          c ∈ g.top_cluster.nodes)
      ∧ partitions_sites g.top_cluster
          (emplace_cluster p (erase_children p.children g.clustering)) := by
  have hf := is_frontier_of_partition g.top_cluster hw hn g.clustering hnodes hpart
  obtain ⟨p, hsel, hminc⟩ := select_min_parent_defined g hu hf hlen
  obtain ⟨hp, hch, hch2, hfr, hlenE⟩ := select_min_parent_spec g p hw hu hf (by omega) hsel
  cases p with
  | leaf pu ps => simp [children] at hch2
  | node pu ps l r =>
    have hl : l ∈ g.clustering := hch l (by simp [children])
    have hr : r ∈ g.clustering := hch r (by simp [children])
    have hlr : l.uid ≠ r.uid := by
      have h1 := uids_nodup_of_mem g.top_cluster _ hu hp
      rw [uids_node] at h1
      have h2 := List.disjoint_of_nodup_append (List.nodup_cons.mp h1).2
      exact fun e => h2 (uid_mem_uids (self_mem_nodes l)) (e ▸ uid_mem_uids (self_mem_nodes r))
    have hpcl : node pu ps l r ∉ g.clustering := fun hpc =>
      parent_above_frontier hf hu (node pu ps l r) l (by simp [children]) hl _ hpc
        (self_mem_nodes _)
    have hmemE : ∀ c, c ∈ erase_children (node pu ps l r).children g.clustering ↔
        c ∈ g.clustering ∧ c ≠ l ∧ c ≠ r := by
      intro c
      constructor
      · intro hc
        obtain ⟨h1, h2⟩ := mem_erase_children _ _ _ hc
        exact ⟨h1, fun e => h2 l (by simp [children]) (e ▸ rfl),
          fun e => h2 r (by simp [children]) (e ▸ rfl)⟩
      · rintro ⟨h1, h2, h3⟩
        unfold erase_children
        refine List.mem_filter.mpr ⟨h1, ?_⟩
        simp only [children, List.mem_cons, List.mem_singleton, List.not_mem_nil, or_false,
          forall_eq_or_imp, forall_eq, decide_eq_true_eq]
        exact ⟨fun e => h2 (eq_of_uid_eq hu (hnodes l hl) (hnodes c h1) e).symm,
          fun e => h3 (eq_of_uid_eq hu (hnodes r hr) (hnodes c h1) e).symm⟩
    have hemp : emplace_cluster (node pu ps l r)
        (erase_children (node pu ps l r).children g.clustering)
        = erase_children (node pu ps l r).children g.clustering ++ [node pu ps l r] := by
      unfold emplace_cluster
      rw [if_neg]
      rintro ⟨c, hc, hcu⟩
      have hc1 := ((hmemE c).mp hc).1
      exact hpcl (eq_of_uid_eq hu (hnodes c hc1) hp hcu ▸ hc1)
    have hlen2 : (erase_children (node pu ps l r).children g.clustering).length + 2
        = g.clustering.length := by
      rw [hemp, List.length_append, List.length_singleton] at hlenE
      omega
    exact ⟨_, l, r, hsel, hp, hminc, rfl, hl, hr, hlr, hmemE, hlen2, hemp, hpcl,
      is_frontier_mem_nodes hfr, partitions_sites_of_frontier hfr hw hn⟩

/-- C32 (witness): the three singleton clusters of `three_leaf_state`: the parent chosen is the
cluster of the sites 0 and 2, which is not in the clustering; erasing its children leaves one of the
three members, and the clustering after the merge step holds the site 1 and that cluster. -/
theorem merge_selection_well_defined_witness :
    three_leaf_state.top_cluster.well_formed ∧ three_leaf_state.top_cluster.uids.Nodup
      ∧ three_leaf_state.top_cluster.sidbs.Nodup
      ∧ (∀ c ∈ three_leaf_state.clustering, c ∈ three_leaf_state.top_cluster.nodes)
      ∧ partitions_sites three_leaf_state.top_cluster three_leaf_state.clustering
      ∧ 2 ≤ three_leaf_state.clustering.length
      ∧ ∃ p, three_leaf_state.select_min_parent = some p ∧ p = three_leaf_pair
          ∧ p ∉ three_leaf_state.clustering
          ∧ (erase_children p.children three_leaf_state.clustering).length + 2 = 3
          ∧ emplace_cluster p (erase_children p.children three_leaf_state.clustering)
            = [.leaf 1 [1], three_leaf_pair] := by
  have hw : three_leaf_state.top_cluster.well_formed :=
    ⟨⟨rfl, rfl, List.Perm.refl _⟩, rfl, List.Perm.refl _⟩
  have hu : three_leaf_state.top_cluster.uids.Nodup := by decide
  have hn : three_leaf_state.top_cluster.sidbs.Nodup := by decide
  have hnodes : ∀ c ∈ three_leaf_state.clustering, c ∈ three_leaf_state.top_cluster.nodes := by
    decide
  have hpart : partitions_sites three_leaf_state.top_cluster three_leaf_state.clustering :=
    partitions_sites_of_frontier (is_frontier_initial three_leaf_top hw hu) hw hn
  obtain ⟨p, l, r, h1, -, -, -, -, -, -, -, h9, -, h11, -⟩ :=
    merge_selection_well_defined three_leaf_state hw hu hn hnodes hpart (by decide)
  have h2 : three_leaf_state.select_min_parent = some three_leaf_pair := by decide
  have hp : p = three_leaf_pair := by
    rw [h2] at h1
    exact (Option.some.inj h1).symm
  refine ⟨hw, hu, hn, hnodes, hpart, by decide, p, h1, hp, h11, h9, ?_⟩
  rw [hp]
  decide

/-! ### The freshly merged parent -/

/-- C33: a freshly merged parent that fails the re-check. In the run from `star_state 6`, the
fourth call of `move_up_hierarchy` finds the clusters `star_left` and `star_right` in the
clustering and merges them into the top cluster. The composition of the multiset (0, 1, 1) of
`star_left` and the multiset (1, 0, 2) of `star_right` passes `verify_composition`, and the
merge admits its sum (1, 1, 3) into the charge space of the top cluster with this one
composition. In the state that the merge leaves, and in the state that `move_up_hierarchy`
returns, the analysis of the top cluster with the multiset (1, 1, 3) collects the witness sets
{0, 1, 2, 3, 4}, {0, 3, 4} and {0, 1, 2, 3, 4} and returns false, for both readings of the store
operation `get_next`; the other three multisets admitted pass. -/
theorem merged_parent_fails_recheck :
    (star_before_top potential_projection_order.get_next_other_tag).map
        (fun g => g.clustering) = some [star_left, star_right]
    ∧ (star_before_top potential_projection_order.get_next_other_tag).bind
        (fun g => g.select_min_parent) = some star_top
    ∧ (star_before_top potential_projection_order.get_next_other_tag).bind
        (fun g => (g.verify_composition
          [⟨star_left, ⟨0, 1, 1⟩, []⟩, ⟨star_right, ⟨1, 0, 2⟩, []⟩]).map Prod.fst) = some true
    ∧ ((star_before_top potential_projection_order.get_next_other_tag).bind
          (fun g => g.merge_up star_top)).map
        (fun g => (g.data star_top.uid).charge_space.map (fun e => e.multiset))
      = some [⟨2, 0, 3⟩, ⟨1, 2, 2⟩, ⟨0, 4, 1⟩, ⟨1, 1, 3⟩]
    ∧ ((star_before_top potential_projection_order.get_next_other_tag).bind
          (fun g => g.merge_up star_top)).map
        (fun g => (compositions_of (g.data star_top.uid).charge_space ⟨1, 1, 3⟩).map
          (List.map sidb_cluster_state.key))
      = some [[(star_left, ⟨0, 1, 1⟩), (star_right, ⟨1, 0, 2⟩)]]
    ∧ ((star_before_top potential_projection_order.get_next_other_tag).bind
          (fun g => g.merge_up star_top)).bind
        (fun g => collect_witnesses star_mu
          (g.get_received_potential_bounds .ANALYZE_MULTISET star_top ⟨1, 1, 3⟩ none)
          star_top.sidbs (witness_partitioning_state.init ⟨1, 1, 3⟩))
      = some ⟨[0, 1, 2, 3, 4], [0, 3, 4], [0, 1, 2, 3, 4], 1, 3, 1⟩
    ∧ ((star_before_top potential_projection_order.get_next_other_tag).bind
          (fun g => g.merge_up star_top)).map
        (fun g => (g.data star_top.uid).charge_space.map (fun e =>
          g.perform_potential_bound_analysis .ANALYZE_MULTISET star_top e.multiset none))
      = some [some true, some true, some true, some false]
    ∧ ((star_before_top potential_projection_order.get_next_other_tag).bind
          (move_up_hierarchy potential_projection_order.get_next_other_tag)).map
        (fun g =>
          ((g.data star_top.uid).charge_space.map (fun e => e.multiset),
           g.perform_potential_bound_analysis .ANALYZE_MULTISET star_top ⟨1, 1, 3⟩ none))
      = some ([⟨2, 0, 3⟩, ⟨1, 2, 2⟩, ⟨0, 4, 1⟩, ⟨1, 1, 3⟩], some false)
    ∧ ((star_before_top potential_projection_order.get_next).bind
          (fun g => g.merge_up star_top)).map
        (fun g =>
          ((g.data star_top.uid).charge_space.map (fun e => e.multiset),
           g.perform_potential_bound_analysis .ANALYZE_MULTISET star_top ⟨1, 1, 3⟩ none))
      = some ([⟨2, 0, 3⟩, ⟨1, 2, 2⟩, ⟨0, 4, 1⟩, ⟨1, 1, 3⟩], some false) := by
  refine ⟨?_, ?_, ?_, ?_, ?_, ?_, ?_, ?_, ?_⟩
  · set_option maxRecDepth 100000 in decide
  · set_option maxRecDepth 100000 in decide
  · set_option maxRecDepth 100000 in decide
  · set_option maxRecDepth 100000 in decide
  · set_option maxRecDepth 100000 in decide
  · set_option maxRecDepth 100000 in decide
  · set_option maxRecDepth 100000 in decide
  · set_option maxRecDepth 100000 in decide
  · set_option maxRecDepth 100000 in decide

/-! ### Received bounds under removal -/

/-- The received bound of a cluster depends on the uid of the cluster alone. -/
theorem get_recv_of_uid (g : ground_state_space) (b : bound_direction) (c c1 : sidb_cluster)
    (j : Nat) (h : c1.uid = c.uid) :
    g.get_recv_ext_pot_bound b c1 j = g.get_recv_ext_pot_bound b c j := by
  unfold get_recv_ext_pot_bound
  rw [h]

/-- The store operation `get_next` returns an entry of the store. -/
theorem get_next_mem (b : bound_direction) (s : potential_projection_order)
    (pp : potential_projection) (h : potential_projection_order.get_next b s = some pp) :
    pp ∈ s := by
  cases b with
  | LOWER =>
    have h1 : s.tail.head? = some pp := h
    exact List.mem_of_mem_tail (List.mem_of_mem_head? h1)
  | UPPER =>
    have h1 : s.dropLast.getLast? = some pp := h
    exact List.dropLast_subset s (List.mem_of_mem_getLast? h1)

/-- The store operation `get_next_other_tag` returns an entry of the store. -/
theorem get_next_other_tag_mem (b : bound_direction) (s : potential_projection_order)
    (pp : potential_projection)
    (h : potential_projection_order.get_next_other_tag b s = some pp) : pp ∈ s := by
  unfold potential_projection_order.get_next_other_tag at h
  cases hc : potential_projection_order.get b s with
  | none => rw [hc] at h; simp at h
  | some cur =>
    rw [hc] at h
    have h1 : potential_projection_order.get b
        (potential_projection_order.remove_m_conf cur.M s) = some pp := h
    have h2 : pp ∈ potential_projection_order.remove_m_conf cur.M s := by
      cases b with
      | LOWER => exact List.mem_of_mem_head? h1
      | UPPER => exact List.mem_of_mem_getLast? h1
    exact (List.mem_filter.mp h2).1

/-- In a sorted store an entry is not below the lower extremal entry and not above the upper
one. -/
theorem next_extremal_inside (nxt : next_extremal_op)
    (hnxt : ∀ b s pp, nxt b s = some pp → pp ∈ s) (s : potential_projection_order)
    (hs : s.Pairwise (fun a b => a.V ≤ b.V)) (b : bound_direction)
    (cur nx : potential_projection) (hc : potential_projection_order.get b s = some cur)
    (hn : nxt b s = some nx) :
    match b with
    | .LOWER => cur.V ≤ nx.V
    | .UPPER => nx.V ≤ cur.V := by
  have h := (get_extremal b s hs cur hc).2 nx (hnxt b s nx hn)
  cases b <;> exact h

/-- One call of `update_external_potential_projection` keeps the stores of the projecting
cluster sorted, raises no upper received bound and lowers no lower received bound. -/
theorem update_external_tightens (nxt : next_extremal_op)
    (hnxt : ∀ b s pp, nxt b s = some pp → pp ∈ s) (s s1 : ground_state_space)
    (pc : sidb_cluster) (pm : multiset_conf) (rc : sidb_cluster) (i : Nat)
    (hs : ∀ j, ((s.data pc.uid).pot_projs j).Pairwise (fun a b => a.V ≤ b.V))
    (h : update_external_potential_projection nxt s pc pm rc i = some s1) :
    (∀ j, ((s1.data pc.uid).pot_projs j).Pairwise (fun a b => a.V ≤ b.V))
      ∧ ∀ (c1 : sidb_cluster) (j : Nat),
          s.get_recv_ext_pot_bound .LOWER c1 j ≤ s1.get_recv_ext_pot_bound .LOWER c1 j
            ∧ s1.get_recv_ext_pot_bound .UPPER c1 j ≤ s.get_recv_ext_pot_bound .UPPER c1 j := by
  obtain ⟨-, -, k3, k4, k5, k6⟩ := update_external_change nxt s s1 pc pm rc i h
  constructor
  · intro j
    by_cases hj : j = i
    · subst hj
      rw [k4]
      exact List.Pairwise.filter _ (hs j)
    · rw [k3 pc.uid j (Or.inr hj)]
      exact hs j
  · intro c1 j
    by_cases hc : c1.uid = rc.uid ∧ j = i
    · obtain ⟨hu, rfl⟩ := hc
      rw [get_recv_of_uid s .LOWER rc c1 j hu, get_recv_of_uid s1 .LOWER rc c1 j hu,
        get_recv_of_uid s .UPPER rc c1 j hu, get_recv_of_uid s1 .UPPER rc c1 j hu]
      constructor
      · obtain ⟨cur, hcur, hyes, hno⟩ := k6 .LOWER
        by_cases hm : cur.M = pm
        · obtain ⟨nx, hnx, e⟩ := hyes hm
          have hle : cur.V ≤ nx.V := next_extremal_inside nxt hnxt _ (hs j) .LOWER cur nx hcur hnx
          rw [e]
          linarith
        · rw [hno hm]
      · obtain ⟨cur, hcur, hyes, hno⟩ := k6 .UPPER
        by_cases hm : cur.M = pm
        · obtain ⟨nx, hnx, e⟩ := hyes hm
          have hle : nx.V ≤ cur.V := next_extremal_inside nxt hnxt _ (hs j) .UPPER cur nx hcur hnx
          rw [e]
          linarith
        · rw [hno hm]
    · have hc1 : c1.uid ≠ rc.uid ∨ j ≠ i := by
        by_contra hcon
        exact hc ⟨by_contra (fun a => hcon (Or.inl a)), by_contra (fun a => hcon (Or.inr a))⟩
      rw [k5 .LOWER c1 j hc1, k5 .UPPER c1 j hc1]
      exact ⟨le_refl _, le_refl _⟩

/-- C35: received bounds only tighten under removal. For a store operation `nxt` behind
`get_next_proj_pot_bound` that returns an entry of the store, in a sorted store the next entry
is not below the current lower extremal entry and not above the current upper one; and when
`handle_invalid_state` removes the state `(pc, pm)` from a state in which the stores of `pc` are
sorted, then for every cluster and every site, in particular for every site of every other
frontier cluster, the lower received bound after the call is at least the one before and the
upper received bound after the call is at most the one before. -/
theorem received_bounds_tighten (nxt : next_extremal_op)
    (hnxt : ∀ b s pp, nxt b s = some pp → pp ∈ s) (g g1 : ground_state_space)
    (pc : sidb_cluster) (pm : multiset_conf)
    (hs : ∀ j, ((g.data pc.uid).pot_projs j).Pairwise (fun a b => a.V ≤ b.V))
    (h : g.handle_invalid_state nxt pc pm = some g1) :
    (∀ (s : potential_projection_order) (cur nx : potential_projection),
        s.Pairwise (fun a b => a.V ≤ b.V) →
        (potential_projection_order.get .LOWER s = some cur → nxt .LOWER s = some nx →
          cur.V ≤ nx.V)
          ∧ (potential_projection_order.get .UPPER s = some cur → nxt .UPPER s = some nx →
              nx.V ≤ cur.V))
      ∧ ∀ (c : sidb_cluster) (j : Nat),
          g.get_recv_ext_pot_bound .LOWER c j ≤ g1.get_recv_ext_pot_bound .LOWER c j
            ∧ g1.get_recv_ext_pot_bound .UPPER c j ≤ g.get_recv_ext_pot_bound .UPPER c j := by
  constructor
  · intro s cur nx hsorted
    exact ⟨fun hc hn => next_extremal_inside nxt hnxt s hsorted .LOWER cur nx hc hn,
      fun hc hn => next_extremal_inside nxt hnxt s hsorted .UPPER cur nx hc hn⟩
  · unfold handle_invalid_state at h
    rw [handle_invalid_state_receptor_states] at h
    have key := for_each_rel
      (fun g (p : sidb_cluster × Nat) => update_external_potential_projection nxt g pc pm p.1 p.2)
      (fun s s1 => (∀ j, ((s.data pc.uid).pot_projs j).Pairwise (fun a b => a.V ≤ b.V)) →
        (∀ j, ((s1.data pc.uid).pot_projs j).Pairwise (fun a b => a.V ≤ b.V))
          ∧ ∀ (c1 : sidb_cluster) (j : Nat),
              s.get_recv_ext_pot_bound .LOWER c1 j ≤ s1.get_recv_ext_pot_bound .LOWER c1 j
                ∧ s1.get_recv_ext_pot_bound .UPPER c1 j
                    ≤ s.get_recv_ext_pot_bound .UPPER c1 j)
      (fun s hsort => ⟨hsort, fun _ _ => ⟨le_refl _, le_refl _⟩⟩)
      (fun a b c hab hbc hsort => by
        obtain ⟨h1, h2⟩ := hab hsort
        obtain ⟨h3, h4⟩ := hbc h1
        exact ⟨h3, fun c1 j => ⟨le_trans (h2 c1 j).1 (h4 c1 j).1,
          le_trans (h4 c1 j).2 (h2 c1 j).2⟩⟩)
      (receptor_states pc.uid g.clustering)
      (fun s x s1 _ hstep hsort =>
        update_external_tightens nxt hnxt s s1 pc pm x.1 x.2 hsort hstep)
      g g1 h
    exact (key hs).2

/-- C35 (witness): the removal of the negative state of the first cluster of `two_leaf_state`: the
lower received bound at the site of the second cluster stays at `0.33`, and the upper one falls from
`0.4` to `0.33`. -/
theorem received_bounds_tighten_witness :
    (∀ b s pp, potential_projection_order.get_next b s = some pp → pp ∈ s)
      ∧ (∀ j, (((two_leaf_state [⟨neg1, []⟩, ⟨neut1, []⟩] [⟨neut1, []⟩]).data
          (sidb_cluster.leaf 0 [0]).uid).pot_projs j).Pairwise (fun a b => a.V ≤ b.V))
      ∧ ∃ g1, (two_leaf_state [⟨neg1, []⟩, ⟨neut1, []⟩] [⟨neut1, []⟩]).handle_invalid_state
            potential_projection_order.get_next (.leaf 0 [0]) neg1 = some g1
          ∧ (330000 : Pot) ≤ g1.get_recv_ext_pot_bound .LOWER (.leaf 1 [1]) 1
          ∧ g1.get_recv_ext_pot_bound .UPPER (.leaf 1 [1]) 1 ≤ (400000 : Pot)
          ∧ g1.get_recv_ext_pot_bound .UPPER (.leaf 1 [1]) 1 = 330000 := by
  have hs : ∀ j, (((two_leaf_state [⟨neg1, []⟩, ⟨neut1, []⟩] [⟨neut1, []⟩]).data
      (sidb_cluster.leaf 0 [0]).uid).pot_projs j).Pairwise (fun a b => a.V ≤ b.V) := by
    intro j
    show (if j = 0 then [⟨0, neg1⟩, ⟨0, neut1⟩]
      else if j = 1 then [⟨330000, neut1⟩, ⟨400000, neg1⟩]
      else ([] : List potential_projection)).Pairwise (fun a b => a.V ≤ b.V)
    split
    · decide
    · split
      · decide
      · exact List.Pairwise.nil
  obtain ⟨g1, hg⟩ := Option.isSome_iff_exists.mp
    (by decide : ((two_leaf_state [⟨neg1, []⟩, ⟨neut1, []⟩] [⟨neut1, []⟩]).handle_invalid_state
      potential_projection_order.get_next (.leaf 0 [0]) neg1).isSome = true)
  have key := (received_bounds_tighten potential_projection_order.get_next get_next_mem
    (two_leaf_state [⟨neg1, []⟩, ⟨neut1, []⟩] [⟨neut1, []⟩]) g1 (.leaf 0 [0]) neg1 hs hg).2
    (.leaf 1 [1]) 1
  have hu : ((two_leaf_state [⟨neg1, []⟩, ⟨neut1, []⟩] [⟨neut1, []⟩]).handle_invalid_state
      potential_projection_order.get_next (.leaf 0 [0]) neg1).map
        (fun s => s.get_recv_ext_pot_bound .UPPER (.leaf 1 [1]) 1) = some 330000 := by decide
  rw [hg] at hu
  simp only [Option.map_some', Option.some.injEq] at hu
  exact ⟨get_next_mem, hs, g1, hg, key.1, key.2, hu⟩

/-! ### The partition search returns within its recursion budget -/

/-- Ordered insertion keeps a strictly ascending set strictly ascending. -/
theorem set_emplace_sorted (x : Nat) : ∀ (s : List Nat), s.Sorted (· < ·) →
    (set_emplace x s).Sorted (· < ·) := by
  intro s
  induction s with
  | nil => intro _; simp [set_emplace]
  | cons z zs ih =>
    intro hs
    unfold set_emplace
    by_cases h1 : x < z
    · rw [if_pos h1]
      refine List.sorted_cons.mpr ⟨?_, hs⟩
      intro b hb
      rcases List.mem_cons.mp hb with rfl | hb
      · exact h1
      · exact lt_trans h1 (List.rel_of_sorted_cons hs b hb)
    · rw [if_neg h1]
      by_cases h2 : x = z
      · rw [if_pos h2]; exact hs
      · rw [if_neg h2]
        refine List.sorted_cons.mpr ⟨?_, ih hs.of_cons⟩
        intro b hb
        rcases (mem_set_emplace x b zs).mp hb with rfl | hb
        · omega
        · exact List.rel_of_sorted_cons hs b hb

/-- Erasing a key keeps a strictly ascending set strictly ascending. -/
theorem set_erase_sorted (x : Nat) (s : List Nat) (hs : s.Sorted (· < ·)) :
    (set_erase x s).Sorted (· < ·) :=
  List.Pairwise.filter _ hs

/-- The elements of a set after an erasure. -/
theorem mem_set_erase (x y : Nat) (s : List Nat) : y ∈ set_erase x s ↔ y ∈ s ∧ y ≠ x := by
  simp [set_erase]

/-- The element set after an insertion. -/
theorem toFinset_set_emplace (x : Nat) (s : List Nat) :
    (set_emplace x s).toFinset = insert x s.toFinset := by
  ext y; simp [mem_set_emplace]

/-- The element set after an erasure. -/
theorem toFinset_set_erase (x : Nat) (s : List Nat) :
    (set_erase x s).toFinset = s.toFinset.erase x := by
  ext y; simp [mem_set_erase]; tauto

/-- The iterator after a key points at an element of the set above the key. -/
theorem set_next_after_spec (x y : Nat) (s : List Nat) (h : set_next_after x s = some y) :
    y ∈ s ∧ x < y := by
  unfold set_next_after at h
  exact ⟨List.mem_of_find?_eq_some h, by simpa using List.find?_some h⟩

/-- The first element of a strictly ascending set is its least element. -/
theorem head_le_of_sorted (s : List Nat) (hs : s.Sorted (· < ·)) (t : Nat)
    (ht : s.head? = some t) : t ∈ s ∧ ∀ y ∈ s, t ≤ y := by
  cases s with
  | nil => simp at ht
  | cons z zs =>
    simp only [List.head?_cons, Option.some.injEq] at ht
    subst ht
    refine ⟨List.mem_cons_self _ _, ?_⟩
    intro y hy
    rcases List.mem_cons.mp hy with rfl | hy
    · exact le_refl _
    · exact le_of_lt (List.rel_of_sorted_cons hs y hy)

/-- Inserting a lower bound of a set puts it at the front. -/
theorem head_set_emplace_of_le (t : Nat) (s : List Nat) (h : ∀ y ∈ s, t ≤ y) :
    (set_emplace t s).head? = some t := by
  cases s with
  | nil => rfl
  | cons z zs =>
    unfold set_emplace
    by_cases h1 : t < z
    · rw [if_pos h1]; rfl
    · rw [if_neg h1]
      have h2 : t = z := le_antisymm (h z (List.mem_cons_self _ _)) (not_lt.mp h1)
      rw [if_pos h2, h2]; rfl


/-- The POSITIVE loop returns when its budget exceeds twice the size of the positive witness set
by two: every recursive call and every further iteration works on a set that lost an element or
has left the first position. A call that returns `false` leaves a strictly ascending positive set
inside the one it started with and does not touch the negative set. -/
theorem positive_loop_returns : ∀ (fuel : Nat) (st : witness_partitioning_state) (k : Nat)
    (it : Option Nat),
    st.positive_witnesses.Sorted (· < ·) →
    (∀ x, it = some x → x ∈ st.positive_witnesses) →
    2 * st.positive_witnesses.toFinset.card
      + (if it = st.positive_witnesses.head? then 1 else 0) < fuel →
    ∃ r st2, positive_loop fuel st k it = some (r, st2) ∧
      (r = false → st2.positive_witnesses.Sorted (· < ·)
        ∧ st2.positive_witnesses.toFinset ⊆ st.positive_witnesses.toFinset
        ∧ st2.negative_witnesses = st.negative_witnesses) := by
  intro fuel
  induction fuel with
  | zero => intro st k it _ _ h; omega
  | succ fuel ih =>
    intro st k it hs hit hm
    cases it with
    | none => exact ⟨false, st, rfl, fun _ => ⟨hs, Finset.Subset.refl _, rfl⟩⟩
    | some it =>
      have hin := hit it rfl
      obtain ⟨t, ht⟩ : ∃ t, st.positive_witnesses.head? = some t := by
        cases hp : st.positive_witnesses with
        | nil => rw [hp] at hin; simp at hin
        | cons z zs => exact ⟨z, rfl⟩
      obtain ⟨htm, htle⟩ := head_le_of_sorted _ hs t ht
      have hinF : it ∈ st.positive_witnesses.toFinset := List.mem_toFinset.mpr hin
      have htF : t ∈ st.positive_witnesses.toFinset := List.mem_toFinset.mpr htm
      have hc1 : (set_erase it st.positive_witnesses).toFinset.card + 1
          = st.positive_witnesses.toFinset.card := by
        rw [toFinset_set_erase]; exact Finset.card_erase_add_one hinF
      have hm1 : 2 * st.positive_witnesses.toFinset.card
          + (if some it = some t then 1 else 0) ≤ fuel := by
        rw [ht] at hm; omega
      -- the recursive call
      have hrec : ∃ r st2,
          (if k - 1 = 0 then
            some (find_valid_witness_partitioning_NEUTRAL
              { st with
                positive_witnesses := set_erase it st.positive_witnesses,
                neutral_witnesses := set_erase t st.neutral_witnesses }
              st.required_neut_count,
              ({ st with
                positive_witnesses := set_erase it st.positive_witnesses,
                neutral_witnesses := set_erase t st.neutral_witnesses } :
                witness_partitioning_state))
          else positive_loop fuel
              { st with
                positive_witnesses := set_erase it st.positive_witnesses,
                neutral_witnesses := set_erase t st.neutral_witnesses }
              (k - 1) (set_erase it st.positive_witnesses).head?) = some (r, st2) ∧
          (r = false → st2.positive_witnesses.Sorted (· < ·)
            ∧ st2.positive_witnesses.toFinset ⊆ (set_erase it st.positive_witnesses).toFinset
            ∧ st2.negative_witnesses = st.negative_witnesses) := by
        by_cases hk : k - 1 = 0
        · rw [if_pos hk]
          exact ⟨_, _, rfl, fun _ => ⟨set_erase_sorted _ _ hs, Finset.Subset.refl _, rfl⟩⟩
        · rw [if_neg hk]
          refine ih _ (k - 1) _ (set_erase_sorted _ _ hs)
            (fun x hx => List.mem_of_mem_head? hx) ?_
          show 2 * (set_erase it st.positive_witnesses).toFinset.card + _ < fuel
          split_ifs <;> omega
      obtain ⟨r, st2, hr, hpost⟩ := hrec
      rw [positive_loop]
      simp only [ht]
      rw [hr]
      cases r with
      | true => exact ⟨true, st2, rfl, fun h => by simp at h⟩
      | false =>
        obtain ⟨hs2, hsub2, hneg2⟩ := hpost rfl
        have hs3 : (set_emplace t st2.positive_witnesses).Sorted (· < ·) :=
          set_emplace_sorted _ _ hs2
        have hsub3 : (set_emplace t st2.positive_witnesses).toFinset
            ⊆ st.positive_witnesses.toFinset := by
          rw [toFinset_set_emplace]
          intro x hx
          rcases Finset.mem_insert.mp hx with rfl | hx
          · exact htF
          · have := hsub2 hx
            rw [toFinset_set_erase] at this
            exact Finset.mem_of_mem_erase this
        have hhead3 : (set_emplace t st2.positive_witnesses).head? = some t := by
          apply head_set_emplace_of_le
          intro y hy
          have := hsub2 (List.mem_toFinset.mpr hy)
          rw [toFinset_set_erase] at this
          exact htle y (List.mem_toFinset.mp (Finset.mem_of_mem_erase this))
        have hnext : ∀ x, set_next_after t (set_emplace t st2.positive_witnesses) = some x →
            x ∈ set_emplace t st2.positive_witnesses ∧ t < x :=
          fun x hx => set_next_after_spec _ _ _ hx
        have hind : (if set_next_after t (set_emplace t st2.positive_witnesses)
            = (set_emplace t st2.positive_witnesses).head? then 1 else 0) = 0 := by
          rw [hhead3, if_neg]
          intro h
          have := (hnext t h).2
          omega
        have hcard3 : 2 * (set_emplace t st2.positive_witnesses).toFinset.card < fuel := by
          by_cases hit2 : it = t
          · have := Finset.card_le_card hsub3
            rw [if_pos (by rw [hit2])] at hm1
            omega
          · have hsub4 : (set_emplace t st2.positive_witnesses).toFinset
                ⊆ (set_erase it st.positive_witnesses).toFinset := by
              rw [toFinset_set_emplace]
              intro x hx
              rcases Finset.mem_insert.mp hx with rfl | hx
              · rw [toFinset_set_erase]
                exact Finset.mem_erase.mpr ⟨fun h => hit2 h.symm, htF⟩
              · exact hsub2 hx
            have := Finset.card_le_card hsub4
            omega
        obtain ⟨r4, st4, hr4, hpost4⟩ := ih
          { st2 with
            positive_witnesses := set_emplace t st2.positive_witnesses,
            neutral_witnesses := set_emplace t st2.neutral_witnesses }
          k (set_next_after t (set_emplace t st2.positive_witnesses)) hs3
          (fun x hx => (hnext x hx).1)
          (by
            show 2 * (set_emplace t st2.positive_witnesses).toFinset.card + _ < fuel
            rw [hind]; omega)
        refine ⟨r4, st4, hr4, fun h4 => ?_⟩
        obtain ⟨a1, a2, a3⟩ := hpost4 h4
        exact ⟨a1, fun x hx => hsub3 (a2 hx), a3.trans hneg2⟩


/-- The instantiation for POSITIVE returns when its budget exceeds twice the size of the
positive witness set by two. -/
theorem find_valid_witness_partitioning_POSITIVE_returns (fuel : Nat)
    (st : witness_partitioning_state) (k : Nat)
    (hs : st.positive_witnesses.Sorted (· < ·))
    (hm : 2 * st.positive_witnesses.toFinset.card + 1 < fuel) :
    ∃ r st2, find_valid_witness_partitioning_POSITIVE fuel st k = some (r, st2) ∧
      (r = false → st2.positive_witnesses.Sorted (· < ·)
        ∧ st2.positive_witnesses.toFinset ⊆ st.positive_witnesses.toFinset
        ∧ st2.negative_witnesses = st.negative_witnesses) := by
  unfold find_valid_witness_partitioning_POSITIVE
  by_cases hk : k = 0
  · rw [if_pos hk]
    exact ⟨_, _, rfl, fun _ => ⟨hs, Finset.Subset.refl _, rfl⟩⟩
  · rw [if_neg hk]
    refine positive_loop_returns fuel st k _ hs (fun x hx => List.mem_of_mem_head? hx) ?_
    rw [if_pos rfl]; exact hm

/-- The NEGATIVE loop returns within a budget of `2 * |U| + 2 + s * s + a + 1` steps, where `U`
holds the negative and the positive witnesses, `s` bounds the size of the negative set and `a`
the number of its elements from the iterator on. A call that returns `false` leaves a strictly
ascending positive set inside `U` and a negative set inside the one it started with. -/
theorem negative_loop_returns (U : Finset Nat) : ∀ (fuel : Nat)
    (st : witness_partitioning_state) (k : Nat) (it : Option Nat) (s a : Nat),
    st.positive_witnesses.Sorted (· < ·) →
    st.positive_witnesses.toFinset ⊆ U →
    st.negative_witnesses.toFinset ⊆ U →
    (∀ x, it = some x → x ∈ st.negative_witnesses) →
    st.negative_witnesses.toFinset.card ≤ s →
    (∀ x, it = some x → (st.negative_witnesses.toFinset.filter (fun y => x ≤ y)).card ≤ a) →
    2 * U.card + 2 + s * s + a + 1 ≤ fuel →
    ∃ r st2, negative_loop fuel st k it = some (r, st2) ∧
      (r = false → st2.positive_witnesses.Sorted (· < ·)
        ∧ st2.positive_witnesses.toFinset ⊆ U
        ∧ st2.negative_witnesses.toFinset ⊆ st.negative_witnesses.toFinset) := by
  intro fuel
  induction fuel with
  | zero => intro st k it s a _ _ _ _ _ _ h; omega
  | succ fuel ih =>
    intro st k it s a hs hpU hnU hit hcs hca hm
    cases it with
    | none => exact ⟨false, st, rfl, fun _ => ⟨hs, hpU, Finset.Subset.refl _⟩⟩
    | some it =>
      have hin := hit it rfl
      have hinF : it ∈ st.negative_witnesses.toFinset := List.mem_toFinset.mpr hin
      have hitU : it ∈ U := hnU hinF
      have hc1 : (set_erase it st.negative_witnesses).toFinset.card + 1
          = st.negative_witnesses.toFinset.card := by
        rw [toFinset_set_erase]; exact Finset.card_erase_add_one hinF
      have ha1 : 1 ≤ (st.negative_witnesses.toFinset.filter (fun y => it ≤ y)).card :=
        Finset.card_pos.mpr ⟨it, Finset.mem_filter.mpr ⟨hinF, le_refl _⟩⟩
      have ha := hca it rfl
      have hs1 : (set_erase it st.positive_witnesses).Sorted (· < ·) := set_erase_sorted _ _ hs
      have hpU1 : (set_erase it st.positive_witnesses).toFinset ⊆ U := by
        rw [toFinset_set_erase]
        exact fun x hx => hpU (Finset.mem_of_mem_erase hx)
      have hnU1 : (set_erase it st.negative_witnesses).toFinset ⊆ U := by
        rw [toFinset_set_erase]
        exact fun x hx => hnU (Finset.mem_of_mem_erase hx)
      have hrec : ∃ r st2,
          (if k - 1 = 0 then find_valid_witness_partitioning_POSITIVE fuel
              { st with
                negative_witnesses := set_erase it st.negative_witnesses,
                positive_witnesses := set_erase it st.positive_witnesses,
                neutral_witnesses := set_erase it st.neutral_witnesses }
              st.required_pos_count
          else negative_loop fuel
              { st with
                negative_witnesses := set_erase it st.negative_witnesses,
                positive_witnesses := set_erase it st.positive_witnesses,
                neutral_witnesses := set_erase it st.neutral_witnesses }
              (k - 1) (set_erase it st.negative_witnesses).head?) = some (r, st2) ∧
          (r = false → st2.positive_witnesses.Sorted (· < ·)
            ∧ st2.positive_witnesses.toFinset ⊆ U
            ∧ st2.negative_witnesses.toFinset ⊆ (set_erase it st.negative_witnesses).toFinset)
          := by
        by_cases hk : k - 1 = 0
        · rw [if_pos hk]
          obtain ⟨r, st2, hr, hp⟩ := find_valid_witness_partitioning_POSITIVE_returns fuel
            { st with
              negative_witnesses := set_erase it st.negative_witnesses,
              positive_witnesses := set_erase it st.positive_witnesses,
              neutral_witnesses := set_erase it st.neutral_witnesses }
            st.required_pos_count hs1
            (by
              show 2 * (set_erase it st.positive_witnesses).toFinset.card + 1 < fuel
              have := Finset.card_le_card hpU1
              omega)
          refine ⟨r, st2, hr, fun h => ?_⟩
          obtain ⟨a1, a2, a3⟩ := hp h
          refine ⟨a1, fun x hx => hpU1 (a2 hx), ?_⟩
          rw [a3]
        · rw [if_neg hk]
          have hs0 : 1 ≤ s := by omega
          refine ih _ (k - 1) _ (s - 1) (s - 1) hs1 hpU1 hnU1
            (fun x hx => List.mem_of_mem_head? hx) ?_ ?_ ?_
          · show (set_erase it st.negative_witnesses).toFinset.card ≤ s - 1
            omega
          · intro x _
            refine le_trans (Finset.card_le_card (Finset.filter_subset _ _)) ?_
            show (set_erase it st.negative_witnesses).toFinset.card ≤ s - 1
            omega
          · obtain ⟨s', rfl⟩ : ∃ s', s = s' + 1 := ⟨s - 1, by omega⟩
            simp only [Nat.add_sub_cancel]
            nlinarith
      obtain ⟨r, st2, hr, hpost⟩ := hrec
      rw [negative_loop]
      simp only []
      rw [hr]
      cases r with
      | true => exact ⟨true, st2, rfl, fun h => by simp at h⟩
      | false =>
        obtain ⟨hs2, hpU2, hsub2⟩ := hpost rfl
        have hs3 : (set_emplace it st2.positive_witnesses).Sorted (· < ·) :=
          set_emplace_sorted _ _ hs2
        have hpU3 : (set_emplace it st2.positive_witnesses).toFinset ⊆ U := by
          rw [toFinset_set_emplace]
          intro x hx
          rcases Finset.mem_insert.mp hx with rfl | hx
          · exact hitU
          · exact hpU2 hx
        have hsub3 : (set_emplace it st2.negative_witnesses).toFinset
            ⊆ st.negative_witnesses.toFinset := by
          rw [toFinset_set_emplace]
          intro x hx
          rcases Finset.mem_insert.mp hx with rfl | hx
          · exact hinF
          · have := hsub2 hx
            rw [toFinset_set_erase] at this
            exact Finset.mem_of_mem_erase this
        obtain ⟨r4, st4, hr4, hpost4⟩ := ih
          { st2 with
            negative_witnesses := set_emplace it st2.negative_witnesses,
            positive_witnesses := set_emplace it st2.positive_witnesses,
            neutral_witnesses := set_emplace it st2.neutral_witnesses }
          k (set_next_after it (set_emplace it st2.negative_witnesses)) s (a - 1) hs3 hpU3
          (fun x hx => hnU (hsub3 hx))
          (fun x hx => (set_next_after_spec _ _ _ hx).1)
          (le_trans (Finset.card_le_card hsub3) hcs)
          (by
            intro x hx
            obtain ⟨hx1, hx2⟩ := set_next_after_spec _ _ _ hx
            have hss : (set_emplace it st2.negative_witnesses).toFinset.filter (fun y => x ≤ y)
                ⊆ (st.negative_witnesses.toFinset.filter (fun y => it ≤ y)).erase it := by
              intro y hy
              obtain ⟨hy1, hy2⟩ := Finset.mem_filter.mp hy
              refine Finset.mem_erase.mpr ⟨by omega, Finset.mem_filter.mpr ⟨hsub3 hy1, by omega⟩⟩
            have h1 := Finset.card_le_card hss
            have h2 := Finset.card_erase_add_one
              (Finset.mem_filter.mpr ⟨hinF, le_refl it⟩ :
                it ∈ st.negative_witnesses.toFinset.filter (fun y => it ≤ y))
            show ((set_emplace it st2.negative_witnesses).toFinset.filter
              (fun y => x ≤ y)).card ≤ a - 1
            omega)
          (by omega)
        refine ⟨r4, st4, hr4, fun h4 => ?_⟩
        obtain ⟨a1, a2, a3⟩ := hpost4 h4
        exact ⟨a1, a2, fun x hx => hsub3 (a3 hx)⟩

/-- The recursion budget covers the bound of the NEGATIVE loop. -/
theorem search_budget_covers (c s N : Nat) (hc : c ≤ N) (hs : s ≤ N) :
    2 * c + 2 + s * s + s + 1 ≤ 2 * (N + 2) ^ 2 := by
  have h1 : s * s ≤ N * N := Nat.mul_le_mul hs hs
  nlinarith

/-- The partition search returns within `search_budget` on every state whose positive witness
set is strictly ascending. -/
theorem find_valid_witness_partitioning_returns (st : witness_partitioning_state) (k : Nat)
    (hs : st.positive_witnesses.Sorted (· < ·)) :
    ∃ r st2, find_valid_witness_partitioning_NEGATIVE (search_budget st) st k = some (r, st2) := by
  have hU : (st.negative_witnesses.toFinset ∪ st.positive_witnesses.toFinset).card
      ≤ st.negative_witnesses.length + st.positive_witnesses.length :=
    le_trans (Finset.card_union_le _ _)
      (Nat.add_le_add (List.toFinset_card_le _) (List.toFinset_card_le _))
  have hn : st.negative_witnesses.toFinset.card ≤ st.negative_witnesses.length :=
    List.toFinset_card_le _
  have hp : st.positive_witnesses.toFinset.card ≤ st.positive_witnesses.length :=
    List.toFinset_card_le _
  unfold find_valid_witness_partitioning_NEGATIVE
  by_cases hk : k = 0
  · rw [if_pos hk]
    obtain ⟨r, st2, hr, _⟩ := find_valid_witness_partitioning_POSITIVE_returns (search_budget st)
      st st.required_pos_count hs (by
        unfold search_budget
        have := search_budget_covers st.positive_witnesses.toFinset.card 0
          (st.negative_witnesses.length + st.positive_witnesses.length
            + st.neutral_witnesses.length) (by omega) (Nat.zero_le _)
        omega)
    exact ⟨r, st2, hr⟩
  · rw [if_neg hk]
    obtain ⟨r, st2, hr, _⟩ := negative_loop_returns
      (st.negative_witnesses.toFinset ∪ st.positive_witnesses.toFinset) (search_budget st) st k
      st.negative_witnesses.head? st.negative_witnesses.toFinset.card
      st.negative_witnesses.toFinset.card hs Finset.subset_union_right Finset.subset_union_left
      (fun x hx => List.mem_of_mem_head? hx) (le_refl _)
      (fun x _ => Finset.card_le_card (Finset.filter_subset _ _))
      (by
        unfold search_budget
        exact search_budget_covers _ _
          (st.negative_witnesses.length + st.positive_witnesses.length
            + st.neutral_witnesses.length) (by omega) (by omega))
    exact ⟨r, st2, hr⟩


/-- The site loop keeps the positive witness set strictly ascending. -/
theorem classify_site_sorted (mu : Pot × Pot × Pot × Pot) (i : Nat) (lb ub : Pot)
    (st : witness_partitioning_state) (hs : st.positive_witnesses.Sorted (· < ·)) :
    (classify_site mu i lb ub st).positive_witnesses.Sorted (· < ·) := by
  unfold classify_site
  simp only []
  split_ifs <;> first | exact hs | exact set_emplace_sorted _ _ hs

/-- The witness sets that the site loop collects: the positive set is strictly ascending. -/
theorem collect_witnesses_sorted (mu : Pot × Pot × Pot × Pot)
    (bounds : Nat → Option (Pot × Pot)) :
    ∀ (sidbs : List Nat) (st st1 : witness_partitioning_state),
      st.positive_witnesses.Sorted (· < ·) →
      collect_witnesses mu bounds sidbs st = some st1 →
      st1.positive_witnesses.Sorted (· < ·) := by
  intro sidbs
  induction sidbs with
  | nil =>
    intro st st1 hs h
    simp only [collect_witnesses, Option.some.injEq] at h
    rw [← h]; exact hs
  | cons i rest ih =>
    intro st st1 hs h
    unfold collect_witnesses at h
    cases hb : bounds i with
    | none => rw [hb] at h; simp at h
    | some p =>
      obtain ⟨lb, ub⟩ := p
      rw [hb] at h
      exact ih _ _ (classify_site_sorted mu i lb ub st hs) h

/-- The part of the analysis after the site loop always returns: the cardinality test and the
size cutoff are total, and the partition search returns within its recursion budget. -/
theorem decide_witness_state_returns (T n : Nat) (st : witness_partitioning_state)
    (hs : st.positive_witnesses.Sorted (· < ·)) :
    ∃ r, decide_witness_state T n st = some r := by
  unfold decide_witness_state
  split_ifs
  · exact ⟨_, rfl⟩
  · exact ⟨_, rfl⟩
  · have hs1 : (omit_free_witnesses st).positive_witnesses.Sorted (· < ·) := by
      rw [omit_free_witnesses_spec]
      exact List.Pairwise.filter _ hs
    obtain ⟨r, st2, h⟩ := find_valid_witness_partitioning_returns (omit_free_witnesses st)
      (omit_free_witnesses st).required_neg_count hs1
    exact ⟨r, by rw [h]; rfl⟩

/-- The potential bound analysis returns exactly when the received bounds are defined at every
site of the cluster: no result is lost to the recursion budget of the partition search. -/
theorem perform_potential_bound_analysis_on_returns (mu : Pot × Pot × Pot × Pot) (T : Nat)
    (sidbs : List Nat) (bounds : Nat → Option (Pot × Pot)) (m : multiset_conf) :
    (perform_potential_bound_analysis_on mu T sidbs bounds m).isSome = true
      ↔ ∀ i ∈ sidbs, (bounds i).isSome = true := by
  unfold perform_potential_bound_analysis_on
  constructor
  · intro h
    cases hc : collect_witnesses mu bounds sidbs (witness_partitioning_state.init m) with
    | none => rw [hc] at h; simp at h
    | some st => exact collect_witnesses_defined mu bounds sidbs _ st hc
  · intro h
    obtain ⟨st, hst⟩ := collect_witnesses_isSome mu bounds sidbs
      (witness_partitioning_state.init m) h
    rw [hst]
    obtain ⟨r, hr⟩ := decide_witness_state_returns T sidbs.length st
      (collect_witnesses_sorted mu bounds sidbs _ st (by simp [witness_partitioning_state.init])
        hst)
    simp only [hr, Option.isSome_some]

/-- The method `perform_potential_bound_analysis` returns exactly when
`get_received_potential_bounds` is defined at every site of the projector cluster. -/
theorem perform_potential_bound_analysis_returns (g : ground_state_space)
    (mode : potential_bound_analysis_mode) (c : sidb_cluster) (m : multiset_conf)
    (ipb : Option intra_cluster_potential_bounds) :
    (g.perform_potential_bound_analysis mode c m ipb).isSome = true
      ↔ ∀ i ∈ c.sidbs, (g.get_received_potential_bounds mode c m ipb i).isSome = true :=
  perform_potential_bound_analysis_on_returns _ _ _ _ _


/-! ### Undefined reads of a pruning pass -/

/-- The call `update_external_potential_projection` returns exactly when the store of the
projecting cluster onto the site has the entries that the call reads. -/
theorem update_external_returns_iff (nxt : next_extremal_op) (s : ground_state_space)
    (pc : sidb_cluster) (pm : multiset_conf) (rc : sidb_cluster) (i : Nat) :
    (update_external_potential_projection nxt s pc pm rc i).isSome = true
      ↔ propagation_defined nxt pm ((s.data pc.uid).pot_projs i) := by
  constructor
  · intro h
    obtain ⟨s2, h2⟩ := Option.isSome_iff_exists.mp h
    unfold update_external_potential_projection at h2
    cases hL : update_external_pot_proj_if_bound_removed nxt .LOWER s pc pm rc i with
    | none => rw [hL] at h2; simp at h2
    | some g1 =>
      rw [hL] at h2
      simp only at h2
      cases hU : update_external_pot_proj_if_bound_removed nxt .UPPER g1 pc pm rc i with
      | none => rw [hU] at h2; simp at h2
      | some g2 =>
        obtain ⟨-, -, a3, -, -⟩ := if_bound_removed_change nxt _ _ _ _ _ _ _ hL
        obtain ⟨cL, l1, l2, -⟩ := if_bound_removed_step nxt .LOWER s g1 pc pm rc i hL
        obtain ⟨cU, u1, u2, -⟩ := if_bound_removed_step nxt .UPPER g1 g2 pc pm rc i hU
        rw [a3] at u1 u2
        intro b
        cases b with
        | LOWER =>
          refine ⟨cL, l1, fun hm => ?_⟩
          obtain ⟨nx, hnx, -⟩ := l2 hm
          rw [hnx]; rfl
        | UPPER =>
          refine ⟨cU, u1, fun hm => ?_⟩
          obtain ⟨nx, hnx, -⟩ := u2 hm
          rw [hnx]; rfl
  · exact update_external_defined nxt s pc pm rc i

/-- The loops of the removal propagation have no result exactly when they read a store entry that
is not there. -/
theorem removal_loop_none_iff (nxt : next_extremal_op) (pc : sidb_cluster)
    (pm : multiset_conf) :
    ∀ (l : List (sidb_cluster × Nat)) (g : ground_state_space),
      for_each (fun s (p : sidb_cluster × Nat) =>
          update_external_potential_projection nxt s pc pm p.1 p.2) l g = none
        ↔ removal_reads_undefined nxt pc pm g l := by
  intro l
  induction l with
  | nil =>
    intro g
    constructor
    · intro h; simp [for_each] at h
    · intro h; cases h
  | cons p rest ih =>
    intro g
    rw [for_each_cons]
    cases hS : update_external_potential_projection nxt g pc pm p.1 p.2 with
    | none =>
      simp only [Option.none_bind, true_iff]
      apply removal_reads_undefined.here
      intro hd
      have := (update_external_returns_iff nxt g pc pm p.1 p.2).mpr hd
      rw [hS] at this
      simp at this
    | some g1 =>
      simp only [Option.some_bind]
      rw [ih g1]
      constructor
      · intro h
        exact removal_reads_undefined.later g g1 p rest hS h
      · intro h
        cases h with
        | here _ _ _ hn =>
          exfalso
          exact hn ((update_external_returns_iff nxt g pc pm p.1 p.2).mp (by rw [hS]; rfl))
        | later _ g2 _ _ h1 h2 =>
          rw [hS] at h1
          simp only [Option.some.injEq] at h1
          subst h1
          exact h2

/-- The method `handle_invalid_state` has no result exactly when it reads a store entry that is
not there. -/
theorem handle_invalid_state_none_iff (nxt : next_extremal_op) (g : ground_state_space)
    (pc : sidb_cluster) (pm : multiset_conf) :
    g.handle_invalid_state nxt pc pm = none
      ↔ removal_reads_undefined nxt pc pm g (receptor_states pc.uid g.clustering) := by
  unfold handle_invalid_state
  rw [handle_invalid_state_receptor_states nxt pc pm g.clustering g]
  exact removal_loop_none_iff nxt pc pm _ g

/-- The first loop of `check_charge_space` has no result exactly when it reads a value that is
not there. -/
theorem check_charge_space_loop_none_iff (nxt : next_extremal_op) (c : sidb_cluster) :
    ∀ (cs : List sidb_cluster_charge_state) (g : ground_state_space)
      (removed_ms : List multiset_conf) (fixpoint : Bool),
      for_each (check_charge_space_step nxt c) cs (g, removed_ms, fixpoint) = none
        ↔ check_reads_undefined nxt c g cs := by
  intro cs
  induction cs with
  | nil =>
    intro g removed_ms fixpoint
    constructor
    · intro h; simp [for_each] at h
    · intro h; cases h
  | cons e rest ih =>
    intro g removed_ms fixpoint
    rw [for_each_cons]
    cases hA : g.perform_potential_bound_analysis .ANALYZE_MULTISET c e.multiset none with
    | none =>
      have hstep : check_charge_space_step nxt c (g, removed_ms, fixpoint) e = none := by
        unfold check_charge_space_step
        simp only [hA]
      rw [hstep]
      simp only [Option.none_bind, true_iff]
      have hnot : ¬ ∀ i ∈ c.sidbs,
          (g.get_received_potential_bounds .ANALYZE_MULTISET c e.multiset none i).isSome
            = true := by
        intro hall
        have := (perform_potential_bound_analysis_returns g .ANALYZE_MULTISET c e.multiset
          none).mpr hall
        rw [hA] at this
        simp at this
      push_neg at hnot
      obtain ⟨i, hi, hb⟩ := hnot
      exact check_reads_undefined.bounds g e rest i hi (by
        cases hx : g.get_received_potential_bounds .ANALYZE_MULTISET c e.multiset none i with
        | none => rfl
        | some p => rw [hx] at hb; simp at hb)
    | some r =>
      have hdefd : ∀ i ∈ c.sidbs,
          g.get_received_potential_bounds .ANALYZE_MULTISET c e.multiset none i ≠ none := by
        intro i hi hn
        have := (perform_potential_bound_analysis_returns g .ANALYZE_MULTISET c e.multiset
          none).mp (by rw [hA]; rfl) i hi
        rw [hn] at this
        simp at this
      cases r with
      | true =>
        have hstep : check_charge_space_step nxt c (g, removed_ms, fixpoint) e
            = some (g, removed_ms, fixpoint) := by
          unfold check_charge_space_step
          simp only [hA]
        rw [hstep]
        simp only [Option.some_bind]
        rw [ih g removed_ms fixpoint]
        constructor
        · intro h
          exact check_reads_undefined.after_accepted g e rest hA h
        · intro h
          cases h with
          | bounds _ _ _ i hi hb => exact absurd hb (hdefd i hi)
          | removal _ _ _ h1 _ => rw [hA] at h1; simp at h1
          | after_accepted _ _ _ _ h2 => exact h2
          | after_rejected _ g1 _ _ h1 _ _ => rw [hA] at h1; simp at h1
      | false =>
        cases hH : g.handle_invalid_state nxt c e.multiset with
        | none =>
          have hstep : check_charge_space_step nxt c (g, removed_ms, fixpoint) e = none := by
            unfold check_charge_space_step
            simp only [hA, hH]
          rw [hstep]
          simp only [Option.none_bind, true_iff]
          exact check_reads_undefined.removal g e rest hA
            ((handle_invalid_state_none_iff nxt g c e.multiset).mp hH)
        | some g1 =>
          have hstep : check_charge_space_step nxt c (g, removed_ms, fixpoint) e
              = some (g1, removed_ms ++ [e.multiset], false) := by
            unfold check_charge_space_step
            simp only [hA, hH]
          rw [hstep]
          simp only [Option.some_bind]
          rw [ih g1 _ false]
          constructor
          · intro h
            exact check_reads_undefined.after_rejected g g1 e rest hA hH h
          · intro h
            cases h with
            | bounds _ _ _ i hi hb => exact absurd hb (hdefd i hi)
            | removal _ _ _ _ h2 =>
              have := (handle_invalid_state_none_iff nxt g c e.multiset).mpr h2
              rw [hH] at this
              simp at this
            | after_accepted _ _ _ h1 _ => rw [hA] at h1; simp at h1
            | after_rejected _ g2 _ _ _ h2 h3 =>
              rw [hH] at h2
              simp only [Option.some.injEq] at h2
              subst h2
              exact h3

/-- The method `check_charge_space` has no result exactly when its first loop reads a value that
is not there. -/
theorem check_charge_space_none_iff (nxt : next_extremal_op) (g : ground_state_space)
    (c : sidb_cluster) :
    check_charge_space nxt g c = none
      ↔ (g.data c.uid).charge_space.length ≠ 1
        ∧ check_reads_undefined nxt c g (g.data c.uid).charge_space := by
  unfold check_charge_space
  by_cases hlen : (g.data c.uid).charge_space.length = 1
  · rw [if_pos hlen]
    simp [hlen]
  · rw [if_neg hlen]
    rw [← check_charge_space_loop_none_iff nxt c _ g [] true]
    cases for_each (check_charge_space_step nxt c) (g.data c.uid).charge_space (g, [], true) with
    | none => simp [hlen]
    | some p =>
      obtain ⟨g1, removed_ms, fixpoint⟩ := p
      simp

/-- The loop of a pruning pass has no result exactly when it reads a value that is not there. -/
theorem update_charge_spaces_loop_none_iff (nxt : next_extremal_op) (skip_cluster : Option Nat) :
    ∀ (cl : List sidb_cluster) (fixpoint : Bool) (g : ground_state_space),
      for_each (update_charge_spaces_step nxt skip_cluster) cl (fixpoint, g) = none
        ↔ pass_reads_undefined nxt skip_cluster g cl := by
  intro cl
  induction cl with
  | nil =>
    intro fixpoint g
    constructor
    · intro h; simp [for_each] at h
    · intro h; cases h
  | cons c rest ih =>
    intro fixpoint g
    rw [for_each_cons]
    cases hS : update_charge_spaces_step nxt skip_cluster (fixpoint, g) c with
    | none =>
      simp only [Option.none_bind, true_iff]
      unfold update_charge_spaces_step at hS
      by_cases hsk : skip_cluster = none ∨ skip_cluster ≠ some c.uid
      · rw [if_pos hsk] at hS
        simp only at hS
        cases hC : check_charge_space nxt g c with
        | none =>
          obtain ⟨h1, h2⟩ := (check_charge_space_none_iff nxt g c).mp hC
          exact pass_reads_undefined.here g c rest hsk h1 h2
        | some p =>
          obtain ⟨r, g1⟩ := p
          rw [hC] at hS
          simp at hS
      · rw [if_neg hsk] at hS
        simp at hS
    | some p =>
      obtain ⟨fixpoint1, g1⟩ := p
      simp only [Option.some_bind]
      rw [ih fixpoint1 g1]
      constructor
      · intro h
        exact pass_reads_undefined.later g g1 c rest fixpoint fixpoint1 hS h
      · intro h
        cases h with
        | here _ _ _ hsk h1 h2 =>
          exfalso
          have hC := (check_charge_space_none_iff nxt g c).mpr ⟨h1, h2⟩
          unfold update_charge_spaces_step at hS
          rw [if_pos hsk] at hS
          simp only at hS
          rw [hC] at hS
          simp at hS
        | later _ g2 _ _ f f1 hS2 h2 =>
          have hstate : g2 = g1 := by
            unfold update_charge_spaces_step at hS hS2
            by_cases hsk : skip_cluster = none ∨ skip_cluster ≠ some c.uid
            · rw [if_pos hsk] at hS hS2
              simp only at hS hS2
              cases hC : check_charge_space nxt g c with
              | none => rw [hC] at hS; simp at hS
              | some q =>
                obtain ⟨r, g3⟩ := q
                rw [hC] at hS hS2
                simp only [Option.some.injEq, Prod.mk.injEq] at hS hS2
                rw [← hS.2, ← hS2.2]
            · rw [if_neg hsk] at hS hS2
              simp only [Option.some.injEq, Prod.mk.injEq] at hS hS2
              rw [← hS.2, ← hS2.2]
          rw [← hstate]
          exact h2

/-- A pruning pass returns exactly when it reads no value that is not there: the model loses no
pass to the recursion budget of the partition search. -/
theorem update_charge_spaces_returns_iff (nxt : next_extremal_op) (g : ground_state_space)
    (skip_cluster : Option Nat) :
    (g.update_charge_spaces nxt skip_cluster).isSome = true
      ↔ ¬ pass_reads_undefined nxt skip_cluster g g.clustering := by
  rw [← update_charge_spaces_loop_none_iff nxt skip_cluster g.clustering true g]
  unfold update_charge_spaces
  cases for_each (update_charge_spaces_step nxt skip_cluster) g.clustering (true, g) with
  | none => simp
  | some p => simp


/-- The inner loop of `run` does not add charge-space elements to the frontier. -/
theorem prune_to_fixpoint_le (nxt : next_extremal_op) :
    ∀ (fuel : Nat) (g g2 : ground_state_space), prune_to_fixpoint nxt fuel g = some g2 →
      frontier_charge_states g2 ≤ frontier_charge_states g := by
  intro fuel
  induction fuel with
  | zero => intro g g2 h; simp [prune_to_fixpoint] at h
  | succ fuel ih =>
    intro g g2 h
    rw [prune_to_fixpoint] at h
    cases hres : g.update_charge_spaces nxt none with
    | none => rw [hres] at h; simp at h
    | some res =>
      obtain ⟨r, g3⟩ := res
      rw [hres] at h
      cases r with
      | true =>
        simp only [Option.some.injEq] at h
        subst h
        obtain ⟨k1, -, -, -⟩ := update_charge_spaces_loop_spec nxt none _ _ _ _ _ hres
        obtain ⟨-, s2, -⟩ := same_static_update_charge_spaces nxt _ _ _ _ hres
        unfold frontier_charge_states
        rw [s2]
        exact sum_map_le _ _ _ (fun c _ => (k1 c.uid).length_le)
      | false =>
        have h1 := ih g3 g2 h
        have h2 := update_charge_spaces_decreases nxt g g3 none hres
        omega


/-- C37: the pruning loop terminates within a bounded number of passes. Every call of
`update_charge_spaces` that returns false leaves the number of charge-space elements of the
frontier clusters strictly smaller. The budget of `prune_to_fixpoint` counts the passes of the
loop `while (!update_charge_spaces());`: when no pass of the loop from the state `g0` on reads a
value that is not there (`pass_reads_undefined`: received bounds of the analysis or a store entry
of the removal propagation, which is undefined behaviour of the C++), the loop returns within the
budget of the number of charge-space elements of the frontier of `g0` plus one, with the result
that every larger budget gives, and the frontier of the state it returns holds no more
charge-space elements than the one of `g0`. The partition search inside a pass needs no
hypothesis: it returns within its recursion budget (`find_valid_witness_partitioning_returns`),
so that a pass returns exactly when it reads no undefined value
(`update_charge_spaces_returns_iff`). -/
theorem pruning_loop_bounded (nxt : next_extremal_op) (g0 : ground_state_space)
    (hreads : ∀ g, pruning_reaches nxt g0 g → ¬ pass_reads_undefined nxt none g g.clustering) :
    (∀ (g g1 : ground_state_space) (skip_cluster : Option Nat),
        g.update_charge_spaces nxt skip_cluster = some (false, g1) →
        frontier_charge_states g1 < frontier_charge_states g)
      ∧ ∃ g1, prune_to_fixpoint nxt (frontier_charge_states g0 + 1) g0 = some g1
          ∧ (∀ k, prune_to_fixpoint nxt (frontier_charge_states g0 + 1 + k) g0 = some g1)
          ∧ frontier_charge_states g1 ≤ frontier_charge_states g0 := by
  have hdef : ∀ g, pruning_reaches nxt g0 g →
      (g.update_charge_spaces nxt none).isSome = true :=
    fun g hg => (update_charge_spaces_returns_iff nxt g none).mpr (hreads g hg)
  refine ⟨fun g g1 skip_cluster h => update_charge_spaces_decreases nxt g g1 skip_cluster h, ?_⟩
  obtain ⟨g1, e1, e2⟩ := prune_to_fixpoint_within nxt g0 hdef (frontier_charge_states g0 + 1) g0
    pruning_reaches.start (Nat.lt_succ_self _)
  exact ⟨g1, e1, e2, prune_to_fixpoint_le nxt _ _ _ e1⟩

/-- The pruning loop from `star_merged`, evaluated: the frontier holds four charge-space
elements; the analysis of the multiset (1, 1, 3) of the top cluster enters the partition search
with the witness sets {0, 1, 2, 3, 4}, {0, 3, 4}, {0, 1, 2, 3, 4} and the counts 1, 3, 1, none
of them free; the first pass returns false and leaves three elements,
the second pass returns true. -/
theorem star_merged_passes :
    frontier_charge_states (star_merged potential_projection_order.get_next) = 4
      ∧ (collect_witnesses star_mu
          ((star_merged potential_projection_order.get_next).get_received_potential_bounds
            .ANALYZE_MULTISET star_top ⟨1, 1, 3⟩ none)
          star_top.sidbs (witness_partitioning_state.init ⟨1, 1, 3⟩)).map omit_free_witnesses
        = some ⟨[0, 1, 2, 3, 4], [0, 3, 4], [0, 1, 2, 3, 4], 1, 3, 1⟩
      ∧ ((star_merged potential_projection_order.get_next).update_charge_spaces
          potential_projection_order.get_next none).map
            (fun p => (p.1, frontier_charge_states p.2,
              (p.2.update_charge_spaces potential_projection_order.get_next none).map
                (fun q => (q.1, frontier_charge_states q.2))))
        = some (false, 3, some (true, 3)) := by
  refine ⟨?_, ?_, ?_⟩
  · set_option maxRecDepth 100000 in decide
  · set_option maxRecDepth 100000 in decide
  · set_option maxRecDepth 100000 in decide

/-- C37 (witness): the pruning loop from `star_merged`, the state in which the five sites of
`star_state 6` have just been merged into the top cluster. No pass of the loop reads a value that
is not there; the frontier holds four charge-space elements; the analysis of the multiset
(1, 1, 3) enters the partition search with three non-empty witness sets and non-zero counts; and
the loop returns within five passes, with three elements left. -/
theorem pruning_loop_bounded_witness :
    (∀ g, pruning_reaches potential_projection_order.get_next
          (star_merged potential_projection_order.get_next) g →
        ¬ pass_reads_undefined potential_projection_order.get_next none g g.clustering)
      ∧ frontier_charge_states (star_merged potential_projection_order.get_next) = 4
      ∧ (collect_witnesses star_mu
            ((star_merged potential_projection_order.get_next).get_received_potential_bounds
              .ANALYZE_MULTISET star_top ⟨1, 1, 3⟩ none)
            star_top.sidbs (witness_partitioning_state.init ⟨1, 1, 3⟩)).map omit_free_witnesses
          = some ⟨[0, 1, 2, 3, 4], [0, 3, 4], [0, 1, 2, 3, 4], 1, 3, 1⟩
      ∧ ∃ g1, prune_to_fixpoint potential_projection_order.get_next (4 + 1)
            (star_merged potential_projection_order.get_next) = some g1
          ∧ frontier_charge_states g1 = 3 := by
  obtain ⟨k1, k2, k4⟩ := star_merged_passes
  cases h0 : (star_merged potential_projection_order.get_next).update_charge_spaces
      potential_projection_order.get_next none with
  | none => rw [h0] at k4; simp at k4
  | some p =>
    obtain ⟨r, g1⟩ := p
    rw [h0] at k4
    simp only [Option.map_some', Option.some.injEq, Prod.mk.injEq] at k4
    obtain ⟨rfl, f1, k5⟩ := k4
    cases h1 : g1.update_charge_spaces potential_projection_order.get_next none with
    | none => rw [h1] at k5; simp at k5
    | some q =>
      obtain ⟨r2, g2⟩ := q
      rw [h1] at k5
      simp only [Option.map_some', Option.some.injEq, Prod.mk.injEq] at k5
      obtain ⟨rfl, f2⟩ := k5
      have hreach : ∀ g, pruning_reaches potential_projection_order.get_next
          (star_merged potential_projection_order.get_next) g →
          g = star_merged potential_projection_order.get_next ∨ g = g1 := by
        intro g hr
        induction hr with
        | start => exact Or.inl rfl
        | pass a b _ hU ih =>
          rcases ih with h | h
          · rw [h] at hU
            have hU2 := h0.symm.trans hU
            simp only [Option.some.injEq, Prod.mk.injEq, true_and] at hU2
            exact Or.inr hU2.symm
          · rw [h] at hU
            have hU2 := h1.symm.trans hU
            simp at hU2
      have hreads : ∀ g, pruning_reaches potential_projection_order.get_next
          (star_merged potential_projection_order.get_next) g →
          ¬ pass_reads_undefined potential_projection_order.get_next none g g.clustering := by
        intro g hr
        apply (update_charge_spaces_returns_iff _ g none).mp
        rcases hreach g hr with h | h
        · rw [h]
          exact (congrArg Option.isSome h0).trans rfl
        · rw [h]
          exact (congrArg Option.isSome h1).trans rfl
      obtain ⟨-, g3, e1, -, -⟩ := pruning_loop_bounded potential_projection_order.get_next
        (star_merged potential_projection_order.get_next) hreads
      rw [k1] at e1
      refine ⟨hreads, k1, k2, g3, e1, ?_⟩
      have e2 : prune_to_fixpoint potential_projection_order.get_next (4 + 1)
          (star_merged potential_projection_order.get_next) = some g2 := by
        rw [prune_to_fixpoint, h0]
        simp only
        rw [prune_to_fixpoint, h1]
      rw [e2] at e1
      simp only [Option.some.injEq] at e1
      rw [← e1]
      exact f2


/-! ### Undefined reads of a merge -/

/-- A loop returns when its body returns on every state that satisfies an invariant of the
loop. -/
theorem for_each_returns {α σ : Type} (step : σ → α → Option σ) (P : σ → Prop) :
    ∀ (l : List α), (∀ s x, x ∈ l → P s → ∃ s1, step s x = some s1 ∧ P s1) →
      ∀ s, P s → ∃ s1, for_each step l s = some s1 ∧ P s1 := by
  intro l
  induction l with
  | nil => intro _ s hs; exact ⟨s, rfl, hs⟩
  | cons x xs ih =>
    intro hstep s hs
    obtain ⟨s1, h1, hP1⟩ := hstep s x (List.mem_cons_self _ _) hs
    obtain ⟨s2, h2, hP2⟩ := ih (fun s y hy => hstep s y (List.mem_cons_of_mem _ hy)) s1 hP1
    exact ⟨s2, by rw [for_each_cons, h1]; exact h2, hP2⟩

/-- The outer loop of `verify_composition` returns when the sums of the composition are defined
at the sites of the receiving states: the analysis reads the bounds that have just been attached,
and its partition search returns. -/
theorem verify_composition_loop_returns (g : ground_state_space)
    (comp : sidb_cluster_state_composition) :
    ∀ (todo done : List sidb_cluster_state),
      (∀ r ∈ todo, ∀ i ∈ r.cluster.sidbs, composition_sums g comp i ≠ none) →
      ∃ res, verify_composition_loop g comp done todo = some res := by
  intro todo
  induction todo with
  | nil => intro done _; exact ⟨_, rfl⟩
  | cons r rest ih =>
    intro done h
    obtain ⟨r1, hr1, hat⟩ := attach_some g comp r.cluster.sidbs r
      (h r (List.mem_cons_self _ _))
    have hkey := attach_key g comp r.cluster.sidbs r r1 hr1
    have hcl : r1.cluster = r.cluster := congrArg Prod.fst hkey
    have hA : (g.perform_potential_bound_analysis .ANALYZE_COMPOSITION r1.cluster r1.multiset
        (some r1.internal_pot_bounds)).isSome = true := by
      apply (perform_potential_bound_analysis_returns g _ _ _ _).mpr
      intro i hi
      rw [hcl] at hi
      have hne := h r (List.mem_cons_self _ _) i hi
      unfold get_received_potential_bounds
      simp only
      rw [hat i, if_pos hi]
      cases hc : composition_sums g comp i with
      | none => exact absurd hc hne
      | some p => rfl
    obtain ⟨b, hb⟩ := Option.isSome_iff_exists.mp hA
    rw [verify_composition_loop, hr1]
    simp only [hb]
    cases b with
    | false => exact ⟨_, rfl⟩
    | true => exact ih _ (fun x hx => h x (List.mem_cons_of_mem _ hx))

/-- The method `verify_composition` returns when the sums of the composition are defined at the
sites of its child states. -/
theorem verify_composition_returns (g : ground_state_space)
    (comp : sidb_cluster_state_composition)
    (h : ∀ r ∈ comp, ∀ i ∈ r.cluster.sidbs, composition_sums g comp i ≠ none) :
    ∃ res, g.verify_composition comp = some res :=
  verify_composition_loop_returns g comp comp [] h


/-- The base case of `fill_merged_charge_state_space` returns on a composition of a state of
either child when the sums over every such pair are defined at the sites of the children. -/
theorem fill_merged_base_returns (g : ground_state_space) (pu : Nat) (ps : List Nat)
    (l r : sidb_cluster) (h : ¬ composition_reads_undefined g (.node pu ps l r))
    (g1 : ground_state_space) (m : sidb_cluster_charge_state)
    (comp : sidb_cluster_state_composition)
    (el er : sidb_cluster_charge_state) (hel : el ∈ (g.data l.uid).charge_space)
    (her : er ∈ (g.data r.uid).charge_space)
    (hpot : same_potentials g g1)
    (hcs : ∀ u, u ≠ pu → (g1.data u).charge_space = (g.data u).charge_space)
    (hm : m.compositions = [comp])
    (hk : comp.map sidb_cluster_state.key = [(l, el.multiset), (r, er.multiset)]) :
    ∃ acc1, fill_merged_base (.node pu ps l r) (g1, m) = some acc1
      ∧ same_potentials g acc1.1
      ∧ (∀ u, u ≠ pu → (acc1.1.data u).charge_space = (g.data u).charge_space)
      ∧ ∃ comp1, acc1.2.compositions = [comp1]
          ∧ comp1.map sidb_cluster_state.key = comp.map sidb_cluster_state.key := by
  have hsum : ∀ r0 ∈ comp, ∀ i ∈ r0.cluster.sidbs, composition_sums g1 comp i ≠ none := by
    intro r0 hr0 i hi hn
    have hkey : r0.key ∈ comp.map sidb_cluster_state.key := List.mem_map_of_mem _ hr0
    rw [hk] at hkey
    have hcl : r0.cluster = l ∨ r0.cluster = r := by
      simp only [List.mem_cons, List.mem_singleton, List.not_mem_nil, or_false] at hkey
      rcases hkey with hkey | hkey
      · exact Or.inl (congrArg Prod.fst hkey)
      · exact Or.inr (congrArg Prod.fst hkey)
    have hi2 : i ∈ l.sidbs ++ r.sidbs := by
      rcases hcl with hcl | hcl
      · exact List.mem_append_left _ (hcl ▸ hi)
      · exact List.mem_append_right _ (hcl ▸ hi)
    apply h
    unfold composition_reads_undefined
    refine ⟨el, hel, er, her, i, hi2, ?_⟩
    rw [← composition_sums_congr hpot [⟨l, el.multiset, []⟩, ⟨r, er.multiset, []⟩] comp
      (by rw [hk]; rfl) i]
    exact hn
  obtain ⟨res, hv⟩ := verify_composition_returns g1 comp hsum
  obtain ⟨ok, comp1⟩ := res
  have hk1 := verify_composition_keys g1 comp comp1 ok hv
  unfold fill_merged_base
  simp only [hm, hv]
  cases ok with
  | false =>
    simp only [Bool.false_eq_true, if_false]
    exact ⟨_, rfl, hpot, hcs, comp1, rfl, hk1⟩
  | true =>
    simp only [if_true]
    refine ⟨_, rfl, ?_, ?_, comp1, rfl, hk1⟩
    · exact same_potentials_trans _ _ _ hpot (same_potentials_modify_charge_space g1 _ _)
    · intro u hu
      simp only [sidb_cluster.uid]
      rw [modify_data_other _ _ _ _ hu]
      exact hcs u hu

/-- The method `construct_merged_charge_state_space` returns when the sums over every pair of
child states are defined at the sites of the children. -/
theorem construct_merged_charge_state_space_returns (g : ground_state_space) (pu : Nat)
    (ps : List Nat) (l r : sidb_cluster) (hr : r.uid ≠ pu)
    (h : ¬ composition_reads_undefined g (.node pu ps l r)) :
    ∃ g1, g.construct_merged_charge_state_space (.node pu ps l r) = some g1 := by
  have inner : ∀ (el : sidb_cluster_charge_state), el ∈ (g.data l.uid).charge_space →
      ∀ (acc : ground_state_space × sidb_cluster_charge_state),
        (same_potentials g acc.1
          ∧ (∀ u, u ≠ pu → (acc.1.data u).charge_space = (g.data u).charge_space)
          ∧ ∃ compL, acc.2.compositions = [compL]
              ∧ compL.map sidb_cluster_state.key = [(l, el.multiset)]) →
        ∃ acc1, for_each (fill_merged_step r
            (fill_merged_charge_state_space (.node pu ps l r) []))
            (g.data r.uid).charge_space acc = some acc1
          ∧ (same_potentials g acc1.1
            ∧ (∀ u, u ≠ pu → (acc1.1.data u).charge_space = (g.data u).charge_space)
            ∧ ∃ compL, acc1.2.compositions = [compL]
                ∧ compL.map sidb_cluster_state.key = [(l, el.multiset)]) := by
    intro el hel acc hacc
    apply for_each_returns _ _ _ _ acc hacc
    intro s er her hs
    obtain ⟨hpot, hcs, compL, hm, hk⟩ := hs
    obtain ⟨acc1, hb, b1, b2, comp1, b3, b4⟩ := fill_merged_base_returns g pu ps l r h s.1
      { multiset := s.2.multiset.add er.multiset,
        compositions := [compL ++ [⟨r, er.multiset, []⟩]] }
      (compL ++ [⟨r, er.multiset, []⟩]) el er hel her hpot hcs rfl
      (by rw [List.map_append, hk]; rfl)
    obtain ⟨g2, m2⟩ := acc1
    simp only at b1 b2 b3 b4
    unfold fill_merged_step
    simp only [hm]
    rw [fill_merged_charge_state_space, hb]
    simp only [b3]
    refine ⟨_, rfl, b1, b2, comp1.dropLast, rfl, ?_⟩
    rw [List.map_dropLast, b4, List.map_append, hk]
    rfl
  have outer : ∃ acc1, for_each (fill_merged_step l
        (fill_merged_charge_state_space (.node pu ps l r) [r]))
        (g.data l.uid).charge_space (g, ⟨⟨0, 0, 0⟩, [[]]⟩) = some acc1
      ∧ (same_potentials g acc1.1
        ∧ (∀ u, u ≠ pu → (acc1.1.data u).charge_space = (g.data u).charge_space)
        ∧ acc1.2.compositions = [[]]) := by
    apply for_each_returns _ _ _ _ _ ⟨same_potentials_refl g, fun _ _ => rfl, rfl⟩
    intro s el hel hs
    obtain ⟨hpot, hcs, hm⟩ := hs
    obtain ⟨acc1, hi, i1, i2, compL, i3, i4⟩ := inner el hel
      (s.1, { multiset := s.2.multiset.add el.multiset,
              compositions := [[] ++ [⟨l, el.multiset, []⟩]] })
      ⟨hpot, hcs, _, rfl, rfl⟩
    obtain ⟨g2, m2⟩ := acc1
    simp only at i1 i2 i3 i4
    unfold fill_merged_step
    simp only [hm]
    rw [fill_merged_charge_state_space]
    simp only
    rw [hcs r.uid hr, hi]
    simp only [i3]
    refine ⟨_, rfl, i1, i2, ?_⟩
    simp only
    have hlen : compL.length = 1 := by
      have := congrArg List.length i4
      simpa using this
    match compL, hlen with
    | [x], _ => rfl
  obtain ⟨acc1, ho, -⟩ := outer
  refine ⟨acc1.1, ?_⟩
  unfold construct_merged_charge_state_space
  simp only [children]
  rw [fill_merged_charge_state_space, ho]
  rfl


/-- The part of `move_up_hierarchy` that builds a parent with two children returns when it reads
no value that is not there. -/
theorem merge_up_returns (g : ground_state_space) (pu : Nat) (ps : List Nat)
    (l r : sidb_cluster) (hr : r.uid ≠ pu)
    (h : ¬ merge_reads_undefined g (.node pu ps l r)) :
    ∃ g6, g.merge_up (.node pu ps l r) = some g6 := by
  unfold merge_reads_undefined at h
  unfold merge_up
  cases h2 : derive_children_recv_bounds_without_siblings
      { g with clustering := erase_children (node pu ps l r).children g.clustering }
      (.node pu ps l r) with
  | none => exact absurd (Or.inl h2) h
  | some g2 =>
    have hc : ¬ composition_reads_undefined g2 (.node pu ps l r) :=
      fun hc => h (Or.inr ⟨g2, h2, Or.inl hc⟩)
    obtain ⟨g3, h3⟩ := construct_merged_charge_state_space_returns g2 pu ps l r hr hc
    simp only [h3]
    cases h4 : g3.construct_merged_potential_projections (.node pu ps l r) with
    | none => exact absurd (Or.inr ⟨g2, h2, Or.inr ⟨g3, h3, Or.inl h4⟩⟩) h
    | some g4 =>
      simp only
      cases h5 : g4.compute_meets_for_internal_pot_bounds (.node pu ps l r) with
      | none => exact absurd (Or.inr ⟨g2, h2, Or.inr ⟨g3, h3, Or.inr ⟨g4, h4, h5⟩⟩⟩) h
      | some g5 => exact ⟨_, rfl⟩

/-- On a frontier of a well-formed hierarchy with distinct uids, `move_up_hierarchy` returns
when it reads no value that is not there. -/
theorem move_up_hierarchy_returns (nxt : next_extremal_op) (g : ground_state_space)
    (hw : g.top_cluster.well_formed) (hu : g.top_cluster.uids.Nodup)
    (hf : is_frontier g.top_cluster g.clustering)
    (h : ¬ move_up_reads_undefined nxt g) :
    (g.move_up_hierarchy nxt).isSome = true := by
  unfold move_up_reads_undefined at h
  unfold move_up_hierarchy
  by_cases hlen : g.clustering.length = 1
  · rw [if_pos hlen]; rfl
  · rw [if_neg hlen]
    cases hsel : g.select_min_parent with
    | none => exact absurd ⟨hlen, Or.inl hsel⟩ h
    | some p =>
      simp only
      obtain ⟨hp, hch, hch2, -, -⟩ := select_min_parent_spec g p hw hu hf hlen hsel
      have huid : ∀ c ∈ p.children, c.uid ≠ p.uid := by
        intro c hc hcu
        have hcn : c ∈ g.top_cluster.nodes := is_frontier_mem_nodes hf c (hch c hc)
        have hcp := eq_of_uid_eq hu hcn hp hcu
        subst hcp
        exact root_not_child (self_mem_nodes c) hc
      cases p with
      | leaf u s => simp [children] at hch2
      | node pu ps l r =>
        have hm : ¬ merge_reads_undefined g (.node pu ps l r) :=
          fun hm => h ⟨hlen, Or.inr ⟨_, hsel, Or.inl hm⟩⟩
        obtain ⟨g6, h6⟩ := merge_up_returns g pu ps l r (huid r (by simp [children])) hm
        simp only [h6]
        have hpass : ¬ pass_reads_undefined nxt (some (sidb_cluster.node pu ps l r).uid) g6
            g6.clustering :=
          fun hpass => h ⟨hlen, Or.inr ⟨_, hsel, Or.inr ⟨g6, h6, hpass⟩⟩⟩
        obtain ⟨res, hres⟩ := Option.isSome_iff_exists.mp
          ((update_charge_spaces_returns_iff nxt g6 _).mpr hpass)
        rw [hres]
        rfl

/-- When `move_up_hierarchy` returns and the sums over the pairs of child states are defined, the
call reads no value that is not there. -/
theorem move_up_reads_defined (nxt : next_extremal_op) (g : ground_state_space)
    (h : (g.move_up_hierarchy nxt).isSome = true)
    (hc : ∀ p g2, g.select_min_parent = some p →
      ({ g with clustering := erase_children p.children g.clustering } :
        ground_state_space).derive_children_recv_bounds_without_siblings p = some g2 →
      ¬ composition_reads_undefined g2 p) :
    ¬ move_up_reads_undefined nxt g := by
  rintro ⟨hlen, hbad⟩
  unfold move_up_hierarchy at h
  rw [if_neg hlen] at h
  rcases hbad with hsel | ⟨p, hsel, hbad⟩
  · rw [hsel] at h
    simp at h
  · rw [hsel] at h
    simp only at h
    cases h6 : g.merge_up p with
    | none => rw [h6] at h; simp at h
    | some g6 =>
      rw [h6] at h
      simp only [Option.isSome_map'] at h
      rcases hbad with hm | ⟨g7, h7, hpass⟩
      · unfold merge_up at h6
        unfold merge_reads_undefined at hm
        rcases hm with h2 | ⟨g2, h2, hm⟩
        · rw [h2] at h6
          simp at h6
        · rw [h2] at h6
          simp only at h6
          rcases hm with hcomp | ⟨g3, h3, hm⟩
          · exact hc p g2 hsel h2 hcomp
          · rw [h3] at h6
            simp only at h6
            rcases hm with h4 | ⟨g4, h4, h5⟩
            · rw [h4] at h6
              simp at h6
            · rw [h4] at h6
              simp only at h6
              rw [h5] at h6
              simp at h6
      · rw [h6] at h7
        simp only [Option.some.injEq] at h7
        subst h7
        exact (update_charge_spaces_returns_iff nxt g6 _).mp h hpass


/-- C11: termination at the root. For a run from a state after construction over a well-formed
hierarchy with distinct uids and `N` sites in which no call of `update_charge_spaces` and no call
of `move_up_hierarchy` reads a value that is not there (`pass_reads_undefined`,
`move_up_reads_undefined`: received bounds, store entries and sums of projections, whose absence
is undefined behaviour of the C++), `N` is at least 1 and the initial clustering holds `N`
clusters; for every `k < N` the first `k` iterations of the outer loop return a state that has
not terminated and whose clustering holds `N - k` clusters, so that each of the first `N - 1`
iterations merges two clusters; and with at least `pass_budget N` passes for every inner loop and
at least `N + 1` steps for the outer loop, `run` returns the state after `N` iterations, in which
`terminate` is set and the clustering holds the top cluster alone. Termination itself needs no
hypothesis: the partition search returns within its recursion budget
(`find_valid_witness_partitioning_returns`), every pass and every merge returns when its reads
are defined (`update_charge_spaces_returns_iff`, `move_up_hierarchy_returns`), the inner loop
stops because every pass that returns false removes a charge-space element, and the outer loop
stops because every iteration merges two clusters. -/
theorem run_terminates_at_root (nxt : next_extremal_op) (top : sidb_cluster)
    (hw : top.well_formed) (hu : top.uids.Nodup) (g0 : ground_state_space)
    (h0 : after_construction top g0) (hterm : g0.terminate = false)
    (hreads : ∀ g, run_reaches nxt g0 g →
      ¬ pass_reads_undefined nxt none g g.clustering ∧ ¬ move_up_reads_undefined nxt g)
    (inner_fuel outer_fuel : Nat) (hin : pass_budget top.size ≤ inner_fuel)
    (hout : top.size + 1 ≤ outer_fuel) :
    1 ≤ top.size ∧ g0.clustering.length = top.size
      ∧ (∀ k, k < top.size → ∃ gk, run_iterations nxt inner_fuel k g0 = some gk
          ∧ gk.terminate = false ∧ gk.clustering.length = top.size - k)
      ∧ ∃ g1 res, run_iterations nxt inner_fuel top.size g0 = some g1
          ∧ g0.run nxt inner_fuel outer_fuel = some (g1, res)
          ∧ g1.terminate = true ∧ g1.clustering = [top] := by
  have hdef : ∀ g, run_reaches nxt g0 g → (g.update_charge_spaces nxt none).isSome = true
      ∧ (g.move_up_hierarchy nxt).isSome = true := by
    intro g hr
    obtain ⟨t1, t2, -⟩ := charge_space_invariant_of_run_reaches nxt top hw hu g0 g h0 hr
    exact ⟨(update_charge_spaces_returns_iff nxt g none).mpr (hreads g hr).1,
      move_up_hierarchy_returns nxt g (t1 ▸ hw) (t1 ▸ hu) (t1 ▸ t2) (hreads g hr).2⟩
  exact run_returns_at_root nxt top hw hu g0 h0 hterm hdef inner_fuel outer_fuel hin hout

/-- The run from `pair_start_state`, evaluated: a pass on the start state reports a fixpoint and
leaves the state as it is; `move_up_hierarchy` returns and merges the two sites into the top
cluster, whose charge space holds the multisets (2, 0, 0) and (1, 1, 0); no sum over a pair of
child states is undefined; the analysis of (1, 1, 0) on the top cluster enters the partition
search with the witness sets {0, 1}, {}, {0, 1} and the counts 1, 0, 1, none of them free; and a
pass on the merged state reports a fixpoint. -/
theorem pair_run_evaluated :
    pair_start_state.update_charge_spaces potential_projection_order.get_next none
        = some (true, pair_start_state)
      ∧ (pair_start_state.move_up_hierarchy potential_projection_order.get_next).isSome = true
      ∧ (pair_merged_state potential_projection_order.get_next).clustering = [two_leaf_top]
      ∧ ((pair_merged_state potential_projection_order.get_next).data 2).charge_space.map
          (fun e => e.multiset) = [⟨2, 0, 0⟩, ⟨1, 1, 0⟩]
      ∧ (derive_children_recv_bounds_without_siblings
            { pair_start_state with
              clustering := erase_children two_leaf_top.children pair_start_state.clustering }
            two_leaf_top).map (fun g2 => decide (composition_reads_undefined g2 two_leaf_top))
          = some false
      ∧ (collect_witnesses example_mu
            ((pair_merged_state
              potential_projection_order.get_next).get_received_potential_bounds
                .ANALYZE_MULTISET two_leaf_top ⟨1, 1, 0⟩ none)
            two_leaf_top.sidbs (witness_partitioning_state.init ⟨1, 1, 0⟩)).map
              omit_free_witnesses
          = some ⟨[0, 1], [], [0, 1], 1, 0, 1⟩
      ∧ (pair_merged_state potential_projection_order.get_next).update_charge_spaces
          potential_projection_order.get_next none
        = some (true, pair_merged_state potential_projection_order.get_next) := by
  refine ⟨rfl, by decide, by decide, by decide, by decide, by decide, rfl⟩


theorem terminate_set_twice (g : ground_state_space) :
    ({ ({ g with terminate := true } : ground_state_space) with terminate := true } :
        ground_state_space)
      = { g with terminate := true } := rfl

/-- The states of the run from `pair_start_state`: the start state, the merged state, and the
merged state with `terminate` set. -/
theorem run_reaches_pair_start_state (g : ground_state_space)
    (hr : run_reaches potential_projection_order.get_next pair_start_state g) :
    g = pair_start_state ∨ g = pair_merged_state potential_projection_order.get_next
      ∨ g = { pair_merged_state potential_projection_order.get_next with terminate := true } := by
  obtain ⟨f1, -, f3, -, -, -, f7⟩ := pair_run_evaluated
  have f8 : ({ pair_merged_state potential_projection_order.get_next with terminate := true } :
      ground_state_space).update_charge_spaces potential_projection_order.get_next none
      = some (true,
          { pair_merged_state potential_projection_order.get_next with terminate := true }) :=
    rfl
  have hlen : (pair_merged_state potential_projection_order.get_next).clustering.length = 1 := by
    rw [f3]; rfl
  induction hr with
  | start => exact Or.inl rfl
  | prune a b r _ hU ih =>
    rcases ih with h | h | h
    · rw [h] at hU
      have hU2 := f1.symm.trans hU
      simp only [Option.some.injEq, Prod.mk.injEq] at hU2
      exact Or.inl hU2.2.symm
    · rw [h] at hU
      have hU2 := f7.symm.trans hU
      simp only [Option.some.injEq, Prod.mk.injEq] at hU2
      exact Or.inr (Or.inl hU2.2.symm)
    · rw [h] at hU
      have hU2 := f8.symm.trans hU
      simp only [Option.some.injEq, Prod.mk.injEq] at hU2
      exact Or.inr (Or.inr hU2.2.symm)
  | move_up a b _ hM ih =>
    right
    rcases ih with h | h | h
    · rw [h] at hM
      left
      unfold pair_merged_state
      rw [hM]
      rfl
    · rw [h] at hM
      right
      unfold move_up_hierarchy at hM
      rw [if_pos hlen] at hM
      exact (Option.some.inj hM).symm
    · rw [h] at hM
      right
      unfold move_up_hierarchy at hM
      rw [if_pos hlen] at hM
      exact (Option.some.inj hM).symm.trans (terminate_set_twice _)

/-- C11 (witness): the run from `pair_start_state`, two sites whose leaves hold the negative and
the neutral state. No call reads a value that is not there in a state of the run; the clustering
holds two clusters at the start and one after the first iteration; the pruning pass on the merged
state analyses the multiset (1, 1, 0) of the top cluster with the partition search, on the
witness sets {0, 1}, {}, {0, 1} and the counts 1, 0, 1; and `run` returns after two iterations
with the top cluster alone in the clustering. -/
theorem run_terminates_at_root_witness :
    (∀ g, run_reaches potential_projection_order.get_next pair_start_state g →
        ¬ pass_reads_undefined potential_projection_order.get_next none g g.clustering
          ∧ ¬ move_up_reads_undefined potential_projection_order.get_next g)
      ∧ pair_start_state.clustering.length = 2
      ∧ (collect_witnesses example_mu
            ((pair_merged_state
              potential_projection_order.get_next).get_received_potential_bounds
                .ANALYZE_MULTISET two_leaf_top ⟨1, 1, 0⟩ none)
            two_leaf_top.sidbs (witness_partitioning_state.init ⟨1, 1, 0⟩)).map
              omit_free_witnesses
          = some ⟨[0, 1], [], [0, 1], 1, 0, 1⟩
      ∧ (∃ gk, run_iterations potential_projection_order.get_next (pass_budget 2) 1
            pair_start_state = some gk
          ∧ gk.terminate = false ∧ gk.clustering.length = 2 - 1)
      ∧ ∃ g1 res, run_iterations potential_projection_order.get_next (pass_budget 2) 2
            pair_start_state = some g1
          ∧ pair_start_state.run potential_projection_order.get_next (pass_budget 2) 3
              = some (g1, res)
          ∧ g1.terminate = true ∧ g1.clustering = [two_leaf_top] := by
  obtain ⟨f1, f2, f3, -, f5, f6, f7⟩ := pair_run_evaluated
  have hlen : (pair_merged_state potential_projection_order.get_next).clustering.length = 1 := by
    rw [f3]; rfl
  have hreads : ∀ g, run_reaches potential_projection_order.get_next pair_start_state g →
      ¬ pass_reads_undefined potential_projection_order.get_next none g g.clustering
        ∧ ¬ move_up_reads_undefined potential_projection_order.get_next g := by
    intro g hr
    rcases run_reaches_pair_start_state g hr with h | h | h
    · rw [h]
      refine ⟨(update_charge_spaces_returns_iff _ _ none).mp
        ((congrArg Option.isSome f1).trans rfl), ?_⟩
      apply move_up_reads_defined _ _ f2
      intro p g2 hsel hd
      have hp : p = two_leaf_top := (Option.some.inj ((rfl :
        pair_start_state.select_min_parent = some two_leaf_top).symm.trans hsel)).symm
      rw [hp] at hd ⊢
      rw [hd] at f5
      simpa using f5
    · rw [h]
      exact ⟨(update_charge_spaces_returns_iff _ _ none).mp
        ((congrArg Option.isSome f7).trans rfl), fun hbad => hbad.1 hlen⟩
    · rw [h]
      exact ⟨(update_charge_spaces_returns_iff _ _ none).mp rfl, fun hbad => hbad.1 hlen⟩
  have key := run_terminates_at_root potential_projection_order.get_next two_leaf_top
    ⟨rfl, rfl, List.Perm.refl _⟩ (by decide) pair_start_state
    (after_construction_initial_state 2 _ _ _ _ (by decide) (by decide)) rfl hreads
    (pass_budget 2) 3 (le_refl _) (le_refl _)
  exact ⟨hreads, key.2.1, f6, key.2.2.1 1 (by decide), key.2.2.2⟩


/-! ### Projection tagging from the state after construction on -/

/-- Every state is tagged up to its own leftovers. -/
theorem tagged_or_leftover_refl (g : ground_state_space) : tagged_or_leftover g g := by
  intro c _ c1 _ _ j _ pp hpp
  by_cases h : pp.M ∈ (g.data c.uid).charge_space.map (fun e => e.multiset)
  · exact Or.inl h
  · exact Or.inr ⟨hpp, h⟩

/-- A state that satisfies the projection tagging is tagged up to the leftovers of every
state. -/
theorem tagged_or_leftover_of_tagging (g0 g : ground_state_space) (h : projection_tagging g) :
    tagged_or_leftover g0 g :=
  fun c hc c1 hc1 hne j hj pp hpp => Or.inl (h c hc c1 hc1 hne j hj pp hpp)

/-- The method `check_charge_space` keeps the projection tagging up to the leftovers of a
state. -/
theorem check_charge_space_leftover (nxt : next_extremal_op) (g0 g g1 : ground_state_space)
    (c : sidb_cluster) (r : Bool) (h : check_charge_space nxt g c = some (r, g1))
    (hI : tagged_or_leftover g0 g) : tagged_or_leftover g0 g1 := by
  obtain ⟨e1, _, e3⟩ := check_charge_space_effect nxt g g1 c r h
  have hcl : g1.clustering = g.clustering := (same_static_check_charge_space nxt g g1 c r h).2.1
  intro a ha a1 ha1 hne j hj pp hpp
  rw [hcl] at ha ha1
  rcases hI a ha a1 ha1 hne j hj pp (e1 _ _ pp hpp) with h0 | h0
  · by_cases hac : a.uid = c.uid
    · obtain ⟨e, he, hem⟩ := List.mem_map.mp h0
      rw [hac] at he hpp ⊢
      rcases e3 e he with hk | hp
      · exact Or.inl (List.mem_map.mpr ⟨e, hk, hem⟩)
      · exfalso
        exact hp a1 (by rw [hcl]; exact ha1) (by rw [← hac]; exact hne) j hj pp hpp hem.symm
    · rw [check_charge_space_charge_space_other nxt g g1 c r h a.uid hac]
      exact Or.inl h0
  · exact Or.inr h0

/-- A pruning pass keeps the projection tagging up to the leftovers of a state. -/
theorem update_charge_spaces_leftover (nxt : next_extremal_op) (g0 g g1 : ground_state_space)
    (skip_cluster : Option Nat) (r : Bool)
    (h : g.update_charge_spaces nxt skip_cluster = some (r, g1))
    (hI : tagged_or_leftover g0 g) : tagged_or_leftover g0 g1 := by
  have key := for_each_inv (update_charge_spaces_step nxt skip_cluster)
    (fun (a : Bool × ground_state_space) => tagged_or_leftover g0 a.2) g.clustering
    (by
      intro s x s1 _ hP hs
      unfold update_charge_spaces_step at hs
      split at hs
      · split at hs
        · simp at hs
        · rename_i r2 g2 hC
          simp only [Option.some.injEq] at hs
          subst hs
          exact check_charge_space_leftover nxt g0 _ _ _ _ hC hP
      · simp only [Option.some.injEq] at hs
        subst hs
        exact hP)
    (true, g) (r, g1) hI h
  exact key

/-- The merge into a parent with an empty charge space and empty stores keeps the projection
tagging up to the leftovers of a state. -/
theorem merge_up_leftover (g0 g g6 : ground_state_space) (p : sidb_cluster)
    (hw : p.well_formed) (hch : ∀ ch ∈ p.children, ch ∈ g.clustering)
    (hch2 : p.children.length = 2)
    (hempty : (g.data p.uid).charge_space = [])
    (hstores : ∀ j, (g.data p.uid).pot_projs j = [])
    (huid : ∀ c ∈ p.children, c.uid ≠ p.uid)
    (hI : tagged_or_leftover g0 g) (h : g.merge_up p = some g6) : tagged_or_leftover g0 g6 := by
  cases p with
  | leaf u s => simp [children] at hch2
  | node pu ps l r =>
    simp only [sidb_cluster.uid] at hempty hstores
    have hr : r.uid ≠ pu := huid r (by simp [children])
    obtain ⟨hcs, hst⟩ := merge_up_stores g g6 pu ps l r hempty hstores hr h
    obtain ⟨-, hcl, -⟩ := merge_up_static _ _ _ h
    obtain ⟨-, -, hperm⟩ := hw
    intro a ha a1 ha1 hne j hj pp hpp
    rcases hst a.uid j pp hpp with ⟨hu, h0⟩ | ⟨hu, hm⟩
    · rw [hcs a.uid hu]
      rw [hcl] at ha ha1
      have haE : a ∈ erase_children (sidb_cluster.node pu ps l r).children g.clustering := by
        rcases mem_emplace_cluster _ _ _ ha with h1 | h1
        · exact h1
        · exact absurd (by rw [h1]; rfl) hu
      obtain ⟨hacl, hach⟩ := mem_erase_children _ _ _ haE
      rcases mem_emplace_cluster _ _ _ ha1 with h1 | h1
      · exact hI a hacl a1 (mem_erase_children _ _ _ h1).1 hne j hj pp h0
      · subst h1
        simp only [sidb_cluster.sidbs] at hj
        rcases List.mem_append.mp (hperm.mem_iff.mp hj) with hjl | hjr
        · exact hI a hacl l (hch l (by simp [children])) (hach l (by simp [children]))
            j hjl pp h0
        · exact hI a hacl r (hch r (by simp [children])) (hach r (by simp [children]))
            j hjr pp h0
    · rw [hu]
      exact Or.inl hm

/-- The method `move_up_hierarchy` keeps the projection tagging up to the leftovers of a state,
when the chosen parent has an empty charge space and empty stores. -/
theorem move_up_hierarchy_leftover (nxt : next_extremal_op) (g0 g g1 : ground_state_space)
    (hw : g.top_cluster.well_formed) (hu : g.top_cluster.uids.Nodup)
    (hf : is_frontier g.top_cluster g.clustering)
    (hfresh : ∀ p, g.select_min_parent = some p →
      (g.data p.uid).charge_space = [] ∧ ∀ j, (g.data p.uid).pot_projs j = [])
    (hI : tagged_or_leftover g0 g) (h : g.move_up_hierarchy nxt = some g1) :
    tagged_or_leftover g0 g1 := by
  unfold move_up_hierarchy at h
  split at h
  · simp only [Option.some.injEq] at h
    subst h
    exact hI
  · rename_i hlen
    split at h
    · simp at h
    · rename_i p hsel
      split at h
      · simp at h
      · rename_i g6 hmerge
        cases hU : g6.update_charge_spaces nxt (some p.uid) with
        | none => rw [hU] at h; simp at h
        | some res =>
          obtain ⟨r, g7⟩ := res
          rw [hU] at h
          simp only [Option.map_some', Option.some.injEq] at h
          subst h
          obtain ⟨hp, hch, hch2, -, -⟩ := select_min_parent_spec g p hw hu hf hlen hsel
          have huid : ∀ c ∈ p.children, c.uid ≠ p.uid := by
            intro c hc hcu
            have hcn : c ∈ g.top_cluster.nodes := is_frontier_mem_nodes hf c (hch c hc)
            have hcp := eq_of_uid_eq hu hcn hp hcu
            subst hcp
            exact root_not_child (self_mem_nodes c) hc
          exact update_charge_spaces_leftover nxt g0 g6 g7 _ r hU
            (merge_up_leftover g0 g g6 p (well_formed_of_mem _ _ hw hp) hch hch2
              (hfresh p hsel).1 (hfresh p hsel).2 huid hI hmerge)

/-! ### The state after construction, built by `get_initial_clustering` -/

theorem cluster_data_ext (a b : cluster_data) (h1 : a.charge_space = b.charge_space)
    (h2 : a.pot_projs = b.pot_projs) (h3 : a.recv_ext_pot_bounds = b.recv_ext_pot_bounds) :
    a = b := by
  cases a
  cases b
  simp only at h1 h2 h3
  rw [h1, h2, h3]

/-- The state `initial_state` is the state that the constructor builds: for a well-formed
hierarchy with distinct uids whose leaves are the sites `0, …, n - 1`, each with its site index
as uid, the embedded `get_initial_clustering`, run with the leaf operations of section 4.4 on
the containers of local potential bounds of the layout, returns the clustering and the mutable
members of `initial_state`. -/
theorem constructed_state_eq_initial_state (n : Nat) (v : Nat → Nat → Pot)
    (mu : Pot × Pot × Pot × Pot) (T : Nat) (top : sidb_cluster)
    (hw : top.well_formed) (hu : top.uids.Nodup) (hn : top.sidbs.Nodup)
    (hleaf : ∀ c ∈ top.nodes, c.children = [] → c.uid < n ∧ c.sidbs = [c.uid])
    (hall : ∀ u, u < n → ∃ c ∈ top.nodes, c.children = [] ∧ c.uid = u) :
    constructed_state (consistent_state_ops mu) (bound_containers n v) top T mu
      = some (initial_state n v mu T top) := by
  have hpot : ∀ c ∈ top.nodes, c.children = [] → ∀ i ∈ c.sidbs,
      ((bound_containers n v).1.get_local_potential_by_index i).isSome = true
        ∧ ((bound_containers n v).2.get_local_potential_by_index i).isSome = true := by
    intro c hc hch i hi
    obtain ⟨h1, h2⟩ := hleaf c hc hch
    rw [h2] at hi
    have hi2 : i < n := by rw [List.mem_singleton.mp hi]; exact h1
    simp [bound_containers, hi2]
  obtain ⟨data1, e1, -, e3⟩ := get_initial_clustering_effect_spec (consistent_state_ops mu)
    (bound_containers n v) top hw hu blank_data hpot
  obtain ⟨data2, f1, f2, f3, -, f5, -, -⟩ := initial_frontier (consistent_state_ops mu)
    (bound_containers n v) top hw hu hn hpot blank_data
  have hd : data2 = data1 := by
    have := f1.symm.trans e1
    simp only [Option.some.injEq, Prod.mk.injEq, true_and] at this
    exact this
  rw [hd] at f5
  unfold constructed_state
  rw [e1]
  simp only [Option.map_some', Option.some.injEq]
  unfold initial_state
  congr 1
  funext u
  by_cases hun : u < n
  · rw [if_pos hun]
    obtain ⟨c, hc, hch, hcu⟩ := hall u hun
    obtain ⟨-, hs⟩ := hleaf c hc hch
    have hmem := leaf_mem_get_initial_clustering top hw hu c hc hch
    obtain ⟨i, vmin, vmax, k1, k2, k3, k4⟩ := e3 c hmem
    have hi : i = u := by
      rw [hs, hcu] at k1
      exact (List.singleton_inj.mp k1).symm
    subst hi
    rw [hcu] at k4
    simp only [bound_containers, if_pos hun, Option.some.injEq] at k2 k3
    obtain ⟨p1, p2, p3⟩ := populate_pot_projs_spec (consistent_state_ops mu)
      (bound_containers n v).1 i
      ((consistent_state_ops mu).initialize_singleton_cluster_charge_space i (-vmin) (-vmax)
        (blank_data i))
    rw [k4]
    apply cluster_data_ext
    · rw [p1, ← k2, ← k3]
      simp only [consistent_state_ops, neg_neg]
    · funext j
      rw [p3 j]
      simp only [bound_containers, consistent_state_ops, blank_data, three_state_ops]
    · rw [p2, ← k2, ← k3]
      simp only [consistent_state_ops, blank_data, neg_neg]
      funext j
      by_cases hj : j = i
      · rw [hj, Function.update_same, if_pos rfl]
      · rw [Function.update_noteq hj, if_neg hj]
  · rw [if_neg hun]
    have hnot : u ∉ (get_initial_clustering top).map uid := by
      intro hmem
      obtain ⟨c, hc, hcu⟩ := List.mem_map.mp hmem
      obtain ⟨hcn, hsz⟩ := (f2 c).mp hc
      exact hun (hcu ▸ (hleaf c hcn ((f3 c hcn).mp hsz)).1)
    rw [f5 u hnot]
    rfl

/-- The state `star_state T` is the state that the constructor builds for the five sites of
`star_potentials` with the hierarchy `star_top`. -/
theorem star_state_constructed (T : Nat) :
    constructed_state (consistent_state_ops star_mu) (bound_containers 5 star_potentials)
      star_top T star_mu = some (star_state T) :=
  constructed_state_eq_initial_state 5 star_potentials star_mu T star_top
    ⟨⟨rfl, rfl, List.Perm.refl _⟩, ⟨rfl, ⟨rfl, rfl, List.Perm.refl _⟩, by decide⟩, List.Perm.refl _⟩
    (by decide) (by decide) (by decide) (by decide)

/-- The state `pair_start_state` is the state that the constructor builds for two sites at the
potential `0.32` of each other with the hierarchy `two_leaf_top`. -/
theorem pair_start_state_constructed :
    constructed_state (consistent_state_ops example_mu) (bound_containers 2 (fun _ _ => 320000))
      two_leaf_top 6 example_mu = some pair_start_state :=
  constructed_state_eq_initial_state 2 (fun _ _ => 320000) example_mu 6 two_leaf_top
    ⟨rfl, rfl, List.Perm.refl _⟩ (by decide) (by decide) (by decide) (by decide)

/-- The state `triple_start_state` is the state that the constructor builds for three sites at
the potential `0.16` of one another with the hierarchy `three_leaf_top`. -/
theorem triple_start_state_constructed :
    constructed_state (consistent_state_ops example_mu) (bound_containers 3 (fun _ _ => 160000))
      three_leaf_top 6 example_mu = some triple_start_state :=
  constructed_state_eq_initial_state 3 (fun _ _ => 160000) example_mu 6 three_leaf_top
    ⟨⟨rfl, rfl, List.Perm.refl _⟩, rfl, List.Perm.refl _⟩ (by decide) (by decide) (by decide)
    (by decide)


end fiction
